import Mathlib

/-!
# CASPaxos register (`switch/caspaxos/main.go`)

A shallow embedding of the acceptor handlers (`onPrepare`, `onAccept`), the
ballot generator (`nextBallotNum`), the two proposer phases (`prepare`,
`accept`) and the round driver (`caspaxos`).

Go `int` values are modelled as `Int`; the arithmetic that can leave the
64-bit range (`ballotNum++`, `num*100 + self.id`, `current.State + 1`) is
wrapped with `wrapInt`.  Mutexes are modelled by making each handler one
atomic function on the acceptor record.

The transport (`invoke`) is a parameter: each call is served and answered,
lost before it reaches the acceptor, or served with the reply lost, and the
replies of a fan-out reach the channel in an arbitrary order.  `caspaxos` is
the round run alone; `System` runs any number of rounds against the same
acceptors, one acceptor call or one return of a receive loop at a time.
-/

namespace CASPaxos

/-- Two's complement reduction of an integer to the range of a Go `int`. -/
def wrapInt (x : Int) : Int :=
  (x + 9223372036854775808) % 18446744073709551616 - 9223372036854775808

/-- The register content `ValueType{Value, State}`. -/
structure ValueType where
  Value : Int
  State : Int
deriving DecidableEq, Repr

/-- The acceptor record `Acceptor{ballotNum, vballot, value}` (mutex omitted). -/
structure Acceptor where
  ballotNum : Int
  vballot : Int
  value : Option ValueType
deriving DecidableEq, Repr

/-- The reply `Promise{OK, BallotNum, Value}` of the prepare handler. -/
structure Promise where
  OK : Bool
  BallotNum : Int
  Value : Option ValueType
deriving DecidableEq, Repr

/-- The reply `Accept{OK}` of the accept handler. -/
structure Accept where
  OK : Bool
deriving DecidableEq, Repr

/-- The zero value of `Acceptor`: the record of a freshly started process. -/
def Acceptor.fresh : Acceptor := { ballotNum := 0, vballot := 0, value := none }

/-- The handler `onPrepare`: the new acceptor record and the reply. -/
def onPrepare (acceptor : Acceptor) (ballotNum : Int) : Acceptor × Promise :=
  if acceptor.ballotNum > ballotNum then
    (acceptor, { OK := false, BallotNum := 0, Value := none })
  else
    ({ acceptor with ballotNum := ballotNum },
      { OK := true, BallotNum := acceptor.vballot, Value := acceptor.value })

/-- The handler `onAccept`: the new acceptor record and the reply. -/
def onAccept (acceptor : Acceptor) (ballotNum : Int) (value : Option ValueType) :
    Acceptor × Accept :=
  if acceptor.ballotNum > ballotNum then
    (acceptor, { OK := false })
  else
    ({ ballotNum := ballotNum, vballot := ballotNum, value := value }, { OK := true })

/-- One request arriving at an acceptor. -/
inductive Call where
  | prepare (ballotNum : Int)
  | accept (ballotNum : Int) (value : Option ValueType)
deriving DecidableEq, Repr

/-- The acceptor record after serving one request. -/
def serve (acceptor : Acceptor) : Call → Acceptor
  | .prepare b => (onPrepare acceptor b).1
  | .accept b v => (onAccept acceptor b v).1

/-- The acceptor record after serving a sequence of requests in arrival order. -/
def serveAll (acceptor : Acceptor) (calls : List Call) : Acceptor :=
  calls.foldl serve acceptor

/-- The proposer record `Proposer{ballotNum}` (mutex omitted). -/
structure Proposer where
  ballotNum : Int
deriving DecidableEq, Repr

/-- The generator `nextBallotNum`: the counter is incremented and the ballot
is `num*100 + self.id`, each operation in 64-bit arithmetic. -/
def nextBallotNum (proposer : Proposer) (id : Int) : Proposer × Int :=
  let num := wrapInt (proposer.ballotNum + 1)
  ({ ballotNum := num }, wrapInt (wrapInt (num * 100) + id))

/-- The ballots returned by `n` successive calls of `nextBallotNum`, oldest first. -/
def ballotRun (proposer : Proposer) (id : Int) : Nat → List Int
  | 0 => []
  | n + 1 => (nextBallotNum proposer id).2 :: ballotRun (nextBallotNum proposer id).1 id n

/-- What a prepare goroutine sends on the channel `replys`, given the outcome
of `invoke` (`none` is a transport error). -/
def prepareReply : Option Promise → Promise
  | none => { OK := false, BallotNum := 0, Value := none }
  | some reply => reply

/-- What an accept goroutine sends on the channel `replys`. -/
def acceptReply : Option Accept → Accept
  | none => { OK := false }
  | some reply => reply

/-- The local variables `value`, `maxBallotNum`, `promised` of `prepare`. -/
structure Tally where
  value : Option ValueType
  maxBallotNum : Int
  promised : Nat
deriving DecidableEq, Repr

/-- One iteration of the receive loop of `prepare`. -/
def prepareStep (t : Tally) (reply : Promise) : Tally :=
  if !reply.OK then t
  else
    match reply.Value with
    | none => { t with promised := t.promised + 1 }
    | some v =>
      if t.value.isNone then
        { value := some v, maxBallotNum := reply.BallotNum, promised := t.promised + 1 }
      else if reply.BallotNum > t.maxBallotNum then
        { value := some v, maxBallotNum := reply.BallotNum, promised := t.promised + 1 }
      else { t with promised := t.promised + 1 }

/-- The receive loop of `prepare` and its verdict, over the content of the
channel `replys` in arrival order; `len(self.acceptors)` is its length. -/
def prepareLoop (ballotNum : Int) (replys : List Promise) : Bool × Int × Option ValueType :=
  let t := replys.foldl prepareStep
    { value := none, maxBallotNum := ballotNum, promised := 0 }
  if t.promised < replys.length / 2 + 1 then (false, 0, none)
  else (true, t.maxBallotNum, t.value)

/-- The receive loop of `prepare` over the `invoke` outcomes in the order in
which the goroutines deliver them. -/
def prepareGather (ballotNum : Int) (outcomes : List (Option Promise)) :
    Bool × Int × Option ValueType :=
  prepareLoop ballotNum (outcomes.map prepareReply)

/-- One iteration of the receive loop of `accept`. -/
def acceptStep (accepted : Nat) (reply : Accept) : Nat :=
  if !reply.OK then accepted else accepted + 1

/-- The receive loop of `accept` and its verdict, over the channel content. -/
def acceptLoop (replys : List Accept) : Bool :=
  decide (replys.foldl acceptStep 0 ≥ replys.length / 2 + 1)

/-- The receive loop of `accept` over the `invoke` outcomes. -/
def acceptGather (outcomes : List (Option Accept)) : Bool :=
  acceptLoop (outcomes.map acceptReply)

/-- The fate of one `invoke`: the request is served and the reply comes back,
the request never reaches the acceptor, or it is served and the reply is lost. -/
inductive Link where
  | up
  | lostRequest
  | lostReply
deriving DecidableEq, Repr

/-- The transport during one fan-out: the fate of the call to each acceptor
and the order in which the goroutines put their replies on the channel. -/
structure Fanout where
  links : Nat → Link
  order : List Nat

/-- One `invoke(i, "/paxos/prepare", ...)`: the acceptor record afterwards and
the outcome seen by the proposer. -/
def invokePrepare (link : Link) (acceptor : Acceptor) (ballotNum : Int) :
    Acceptor × Option Promise :=
  match link with
  | .up => ((onPrepare acceptor ballotNum).1, some (onPrepare acceptor ballotNum).2)
  | .lostRequest => (acceptor, none)
  | .lostReply => ((onPrepare acceptor ballotNum).1, none)

/-- One `invoke(i, "/paxos/accept", ...)`. -/
def invokeAccept (link : Link) (acceptor : Acceptor) (ballotNum : Int)
    (value : Option ValueType) : Acceptor × Option Accept :=
  match link with
  | .up => ((onAccept acceptor ballotNum value).1, some (onAccept acceptor ballotNum value).2)
  | .lostRequest => (acceptor, none)
  | .lostReply => ((onAccept acceptor ballotNum value).1, none)

/-- The channel content: the outcomes of the calls, in arrival order. -/
def arrive {α : Type} (order : List Nat) (outcomes : List (Option α)) : List (Option α) :=
  order.map (fun i => outcomes.getD i none)

/-- The results of calling every acceptor once, in index order, starting at index `i`. -/
def fanout {α : Type} (call : Link → Acceptor → Acceptor × Option α) (links : Nat → Link) :
    Nat → List Acceptor → List (Acceptor × Option α)
  | _, [] => []
  | i, a :: rest => call (links i) a :: fanout call links (i + 1) rest

/-- The function `prepare`: every acceptor is called once, the replies are
gathered; returns the acceptor records afterwards and the three results. -/
def prepare (acceptors : List Acceptor) (net : Fanout) (ballotNum : Int) :
    List Acceptor × Bool × Int × Option ValueType :=
  let results := fanout (fun l a => invokePrepare l a ballotNum) net.links 0 acceptors
  (results.map Prod.fst, prepareGather ballotNum (arrive net.order (results.map Prod.snd)))

/-- The function `accept`. -/
def accept (acceptors : List Acceptor) (net : Fanout) (ballotNum : Int)
    (value : Option ValueType) : List Acceptor × Bool :=
  let results := fanout (fun l a => invokeAccept l a ballotNum value) net.links 0 acceptors
  (results.map Prod.fst, acceptGather (arrive net.order (results.map Prod.snd)))

/-- The process-wide `self` of a proposer together with the acceptor records
behind the endpoints `self.acceptors`, in the same order. -/
structure World where
  proposer : Proposer
  id : Int
  acceptors : List Acceptor

/-- The function `caspaxos`, run with no other proposer active: `net1` is the
transport during the prepare fan-out, `net2` during the accept fan-out. -/
def caspaxos (w : World) (net1 net2 : Fanout) (state val : Int) : World × Bool × Int :=
  let minted := nextBallotNum w.proposer w.id
  let p1 := prepare w.acceptors net1 minted.2
  let ok := p1.2.1
  let ballotNum := p1.2.2.1
  let current := p1.2.2.2
  if !ok then ({ w with proposer := minted.1, acceptors := p1.1 }, false, 0)
  else
    match current with
    | none =>
      let next : ValueType := { Value := val, State := 0 }
      let p2 := accept p1.1 net2 ballotNum (some next)
      ({ w with proposer := minted.1, acceptors := p2.1 }, p2.2, next.State)
    | some cur =>
      if state = cur.State then
        let next : ValueType := { Value := val, State := wrapInt (cur.State + 1) }
        let p2 := accept p1.1 net2 ballotNum (some next)
        ({ w with proposer := minted.1, acceptors := p2.1 }, p2.2, next.State)
      else ({ w with proposer := minted.1, acceptors := p1.1 }, false, cur.State)

/-- A transport on which every call is served and answered, replies arriving
in index order from `n` acceptors. -/
def Fanout.allUp (n : Nat) : Fanout := { links := fun _ => Link.up, order := List.range n }

/-- A reply that takes part in the resolution: `OK` and carrying a value. -/
def Promise.carries (r : Promise) : Bool := r.OK && r.Value.isSome

/-- What the receive loop of `prepare` has established after the replies `l`. -/
structure Resolved (ballotNum : Int) (l : List Promise) (t : Tally) : Prop where
  none_iff : t.value = none ↔ ∀ r ∈ l, r.OK = true → r.Value = none
  none_max : t.value = none → t.maxBallotNum = ballotNum
  some_max : ∀ v, t.value = some v →
    ∃ r ∈ l, r.OK = true ∧ r.Value = some v ∧ r.BallotNum = t.maxBallotNum ∧
      ∀ q ∈ l, q.OK = true → q.Value ≠ none → q.BallotNum ≤ r.BallotNum

/-- The values of a Go `int`. -/
def InRange (x : Int) : Prop := -9223372036854775808 ≤ x ∧ x < 9223372036854775808

/-- Acceptor `i` is served and answers in both phases of the round about to
be run in `w`, and has promised no ballot above the one the round mints. -/
def steady (w : World) (net1 net2 : Fanout) (i : Nat) : Bool :=
  match w.acceptors[i]? with
  | none => false
  | some a =>
    decide (net1.links i = Link.up) && decide (net2.links i = Link.up) &&
      decide (a.ballotNum ≤ (nextBallotNum w.proposer w.id).2)

/-- A transport of five calls of which the last two never reach the acceptor;
the replies arrive in the order 2, 0, 1, 4, 3. -/
def Fanout.twoDown : Fanout :=
  { links := fun i => if i < 3 then Link.up else Link.lostRequest, order := [2, 0, 1, 4, 3] }

/-- Five freshly started acceptors and a proposer with identifier 1. -/
def World.five : World :=
  { proposer := { ballotNum := 0 }, id := 1, acceptors := List.replicate 5 Acceptor.fresh }

/-- Three freshly started acceptors and a proposer with identifier 1. -/
def World.three : World :=
  { proposer := { ballotNum := 0 }, id := 1, acceptors := List.replicate 3 Acceptor.fresh }

/-- The cluster of `World.three` after its first round, `caspaxos(-1, 11)`. -/
def World.afterFirst : World :=
  (caspaxos World.three (Fanout.allUp 3) (Fanout.allUp 3) (-1) 11).1

/-! ## Concurrent rounds

Several `caspaxos` calls run against the same acceptors.  Each acceptor serves
one request at a time (its mutex); the requests of different rounds, and of
the goroutines of one round, are served in any order. -/

/-- Where a `caspaxos` call stands: inside `prepare`, inside `accept` (with the
local `next`), or returned. -/
inductive PC where
  | preparing
  | accepting (next : ValueType)
  | returned (ok : Bool) (resultingState : Int)
deriving DecidableEq, Repr

/-- The state of one `caspaxos(state, val)` call: its arguments, the local
`ballotNum` (the minted ballot, overwritten by the second result of `prepare`),
and what each goroutine has put on the channel of the current fan-out. -/
structure Round where
  state : Int
  val : Int
  ballotNum : Int
  promises : Nat → Option Promise
  accepts : Nat → Option Accept
  pc : PC

/-- The acceptors behind the `n` endpoints and the rounds in progress. -/
structure System where
  n : Nat
  acceptors : Nat → Acceptor
  rounds : Nat → Round

/-- The atomic steps of the system. -/
inductive Event where
  | prepareCall (r i : Nat) (link : Link)
  | prepareDone (r : Nat) (order : List Nat)
  | acceptCall (r i : Nat) (link : Link)
  | acceptDone (r : Nat) (order : List Nat)

/-- Lines 203 to 222 of `caspaxos`: the round after `prepare` returned `res`. -/
def afterPrepare (R : Round) (res : Bool × Int × Option ValueType) : Round :=
  if !res.1 then { R with ballotNum := res.2.1, pc := PC.returned false 0 }
  else
    match res.2.2 with
    | none =>
      { R with ballotNum := res.2.1, pc := PC.accepting { Value := R.val, State := 0 } }
    | some cur =>
      if R.state = cur.State then
        { R with ballotNum := res.2.1,
                 pc := PC.accepting { Value := R.val, State := wrapInt (cur.State + 1) } }
      else { R with ballotNum := res.2.1, pc := PC.returned false cur.State }

/-- Goroutine `i` of the prepare fan-out of round `r` runs its `invoke`. -/
def System.prepareCall (s : System) (r i : Nat) (link : Link) : System :=
  if i < s.n ∧ (s.rounds r).pc = PC.preparing ∧ (s.rounds r).promises i = none then
    { s with
      acceptors := Function.update s.acceptors i
        (invokePrepare link (s.acceptors i) (s.rounds r).ballotNum).1
      rounds := Function.update s.rounds r
        { s.rounds r with
          promises := Function.update (s.rounds r).promises i
            (some (prepareReply
              (invokePrepare link (s.acceptors i) (s.rounds r).ballotNum).2)) } }
  else s

/-- The receive loop of `prepare` of round `r` has read all `n` replies, which
arrived in the order `order` of their goroutines; `caspaxos` goes on. -/
def System.prepareDone (s : System) (r : Nat) (order : List Nat) : System :=
  if (s.rounds r).pc = PC.preparing ∧ order.Perm (List.range s.n) ∧
      ∀ i ∈ List.range s.n, (s.rounds r).promises i ≠ none then
    { s with
      rounds := Function.update s.rounds r
        (afterPrepare (s.rounds r)
          (prepareLoop (s.rounds r).ballotNum (order.filterMap (s.rounds r).promises))) }
  else s

/-- Goroutine `i` of the accept fan-out of round `r` runs its `invoke`. -/
def System.acceptCall (s : System) (r i : Nat) (link : Link) : System :=
  match (s.rounds r).pc with
  | PC.accepting next =>
    if i < s.n ∧ (s.rounds r).accepts i = none then
      { s with
        acceptors := Function.update s.acceptors i
          (invokeAccept link (s.acceptors i) (s.rounds r).ballotNum (some next)).1
        rounds := Function.update s.rounds r
          { s.rounds r with
            accepts := Function.update (s.rounds r).accepts i
              (some (acceptReply
                (invokeAccept link (s.acceptors i) (s.rounds r).ballotNum (some next)).2)) } }
    else s
  | _ => s

/-- The receive loop of `accept` of round `r` has read all `n` replies;
`caspaxos` returns. -/
def System.acceptDone (s : System) (r : Nat) (order : List Nat) : System :=
  match (s.rounds r).pc with
  | PC.accepting next =>
    if order.Perm (List.range s.n) ∧ ∀ i ∈ List.range s.n, (s.rounds r).accepts i ≠ none then
      { s with
        rounds := Function.update s.rounds r
          { s.rounds r with
            pc := PC.returned (acceptLoop (order.filterMap (s.rounds r).accepts)) next.State } }
    else s
  | _ => s

/-- One step of the system; an event that is not enabled changes nothing. -/
def System.step (s : System) : Event → System
  | .prepareCall r i link => s.prepareCall r i link
  | .prepareDone r order => s.prepareDone r order
  | .acceptCall r i link => s.acceptCall r i link
  | .acceptDone r order => s.acceptDone r order

/-- The system after a schedule of events. -/
def System.run (s : System) (events : List Event) : System :=
  events.foldl System.step s

/-- The start: `n` freshly started acceptors, and round `r` entering `prepare`
with the ballot `ballot r` it minted and the arguments `state r`, `val r`. -/
def System.init (n : Nat) (ballot state val : Nat → Int) : System :=
  { n := n
    acceptors := fun _ => Acceptor.fresh
    rounds := fun r =>
      { state := state r, val := val r, ballotNum := ballot r
        promises := fun _ => none, accepts := fun _ => none, pc := PC.preparing } }

/-- Goroutine `i` of the prepare fan-out of `R` has delivered a reply with `OK`. -/
def Round.promisedOK (R : Round) (i : Nat) : Bool :=
  ((R.promises i).map (fun p => p.OK)).getD false

/-- Goroutine `i` of the accept fan-out of `R` has delivered a reply with `OK`. -/
def Round.acceptedOK (R : Round) (i : Nat) : Bool :=
  ((R.accepts i).map (fun a => a.OK)).getD false

/-- The round is inside `accept` or has returned `ok = true`. -/
def PC.live : PC → Bool
  | PC.accepting _ => true
  | PC.returned ok _ => ok
  | PC.preparing => false

/-- What holds of every system reached from `System.init n ballot _ _` when the
minted ballots are pairwise distinct. -/
structure Inv (n : Nat) (ballot : Nat → Int) (s : System) : Prop where
  size : s.n = n
  vballot_le : ∀ i, (s.acceptors i).vballot ≤ (s.acceptors i).ballotNum
  minted : ∀ r, (s.rounds r).pc = PC.preparing → (s.rounds r).ballotNum = ballot r
  idle : ∀ r i, (s.rounds r).pc = PC.preparing → (s.rounds r).accepts i = none
  bounded : ∀ r i, (s.rounds r).promises i ≠ none → i < n
  promise_fence : ∀ r i, (s.rounds r).promisedOK i = true →
    ballot r ≤ (s.acceptors i).ballotNum
  accepted_valued : ∀ r i, (s.rounds r).acceptedOK i = true → (s.acceptors i).value ≠ none
  accept_before_promise : ∀ r₁ r₂ i p, (s.rounds r₁).acceptedOK i = true →
    (s.rounds r₂).promises i = some p → p.OK = true →
    (s.rounds r₁).ballotNum < ballot r₂ → p.Value ≠ none
  promise_then_accept : ∀ r i, (s.rounds r).promisedOK i = true →
    (s.rounds r).acceptedOK i = true → ballot r ≤ (s.rounds r).ballotNum
  promise_le : ∀ r i p, (s.rounds r).promises i = some p → p.OK = true → p.Value ≠ none →
    p.BallotNum ≤ ballot r
  fresh_acceptor : ∀ i r, (s.acceptors i).value ≠ none → (s.rounds r).pc = PC.preparing →
    (s.acceptors i).vballot ≠ ballot r
  fresh_accept : ∀ r' r next, (s.rounds r').pc = PC.accepting next →
    (s.rounds r).pc = PC.preparing → (s.rounds r').ballotNum ≠ ballot r
  fresh_promise : ∀ r' i p r, (s.rounds r').promises i = some p → p.OK = true →
    p.Value ≠ none → (s.rounds r).pc = PC.preparing → p.BallotNum ≠ ballot r
  live_ballot : ∀ r, (s.rounds r).pc.live = true →
    (s.rounds r).ballotNum ≤ ballot r ∧
    ((s.rounds r).ballotNum = ballot r →
      ∀ i p, (s.rounds r).promises i = some p → p.OK = true → p.Value = none)
  live_promised : ∀ r, (s.rounds r).pc.live = true →
    n / 2 + 1 ≤ (List.range n).countP (s.rounds r).promisedOK
  committed : ∀ r st, (s.rounds r).pc = PC.returned true st →
    n / 2 + 1 ≤ (List.range n).countP (s.rounds r).acceptedOK

/-- The ballots minted in the example schedule: round `r` of a proposer with identifier 1. -/
def raceBallot (r : Nat) : Int := (r + 1) * 100 + 1

/-- A schedule of two racing rounds on three acceptors: round 0 prepares at
acceptors 0 and 1 (its call to 2 is lost), round 1 gets acceptor 0 to promise
before round 0 sends its accepts, round 0 commits with acceptors 1 and 2, and
round 1 then resolves the committed value. -/
def raceSchedule : List Event :=
  [.prepareCall 0 0 .up, .prepareCall 0 1 .up, .prepareCall 1 0 .up,
   .prepareCall 0 2 .lostRequest, .prepareDone 0 [2, 0, 1],
   .acceptCall 0 1 .up, .acceptCall 0 2 .up, .acceptCall 0 0 .up,
   .prepareCall 1 1 .up, .prepareCall 1 2 .up, .prepareDone 1 [0, 1, 2],
   .acceptDone 0 [0, 1, 2],
   .acceptCall 1 0 .up, .acceptCall 1 1 .up, .acceptCall 1 2 .up, .acceptDone 1 [1, 2, 0]]

/-- A request as a `caspaxos` round sends it: an accept carries a value and a
ballot other than 0, the `vballot` of an acceptor that has accepted nothing. -/
def Call.regular : Call → Bool
  | Call.prepare _ => true
  | Call.accept b v => v.isSome && decide (b ≠ 0)

/-- The arguments `(ballotNum, next)` of the call `accept(ballotNum, next)` on
line 223 of `caspaxos`, when the round reaches it. -/
def acceptArgs (w : World) (net1 : Fanout) (state val : Int) : Option (Int × ValueType) :=
  let minted := nextBallotNum w.proposer w.id
  let p1 := prepare w.acceptors net1 minted.2
  let ok := p1.2.1
  let ballotNum := p1.2.2.1
  let current := p1.2.2.2
  if !ok then none
  else
    match current with
    | none => some (ballotNum, { Value := val, State := 0 })
    | some cur =>
      if state = cur.State then
        some (ballotNum, { Value := val, State := wrapInt (cur.State + 1) })
      else none

/-- What links `value` and `vballot` in the states reached by regular requests. -/
def Settled (a : Acceptor) : Prop :=
  0 ≤ a.ballotNum ∧ (a.value.isSome = true ↔ a.vballot ≠ 0)

end CASPaxos

namespace GoofySort

/-! ## Package `pdqsort` (`goofy/sort`): `sort.go`, `util.go`, `pdqsort.go`

A slice is modelled by the list of its elements; a function that writes to its
slice argument returns the new content.  Elements are Go `int`s, only compared,
and are modelled as `Int`; indices are `Int` where the source can make them
negative. -/

/-- The outcome of a call: a result, a run-time panic for an index or slice
bound out of range, or an exhausted iteration budget of the model. -/
inductive Run (α : Type) where
  | ok (a : α)
  | outOfRange
  | outOfFuel
deriving DecidableEq, Repr

/-- Sequencing of calls: a panic ends the run. -/
def Run.bind {α β : Type} (x : Run α) (f : α → Run β) : Run β :=
  match x with
  | Run.ok a => f a
  | Run.outOfRange => Run.outOfRange
  | Run.outOfFuel => Run.outOfFuel

instance : Monad Run where
  pure := Run.ok
  bind := Run.bind

/-- The read `a[i]`. -/
def get (a : List Int) (i : Int) : Run Int :=
  if i < 0 then Run.outOfRange
  else
    match a[i.toNat]? with
    | some x => Run.ok x
    | none => Run.outOfRange

/-- The function `swap` of `util.go`. -/
def swap (a : List Int) (i j : Int) : Run (List Int) := do
  let t ← get a i
  let u ← get a j
  pure ((a.set i.toNat u).set j.toNat t)

/-- The loop of `rev`, with `l` and `r` its variables. -/
def revLoop : Nat → List Int → Int → Int → Run (List Int)
  | 0, _, _, _ => Run.outOfFuel
  | fuel + 1, a, l, r =>
    if l < r then do
      let a ← swap a l r
      revLoop fuel a (l + 1) (r - 1)
    else pure a

/-- The function `rev` of `util.go`. -/
def rev (a : List Int) : Run (List Int) :=
  revLoop (a.length + 1) a 0 (a.length - 1)

/-- The function `min` of `util.go`. -/
def min (a b : Int) : Int := if a < b then a else b

/-- The function `shiftForward`; `j` is never negative at its call sites, and
`j = 0` makes the first `swap(a, 0, -1)` panic. -/
def shiftForward (a : List Int) : Nat → Run (List Int)
  | 0 => swap a 0 (-1)
  | j + 1 => do
    let a ← swap a (j + 1 : Nat) ((j + 1 : Nat) - 1)
    if j = 0 then pure a
    else do
      let x ← get a j
      let y ← get a ((j : Int) - 1)
      if x ≥ y then pure a else shiftForward a j

/-- One iteration of the loop of `InsertionSort`. -/
def insertionStep (a : List Int) (i : Nat) : Run (List Int) := do
  let x ← get a i
  let y ← get a ((i : Int) - 1)
  if x < y then shiftForward a i else pure a

/-- The loop of `InsertionSort` from index `i`, with `k` iterations left. -/
def insertionLoop (a : List Int) (i : Nat) : Nat → Run (List Int)
  | 0 => pure a
  | k + 1 => do
    let a ← insertionStep a i
    insertionLoop a (i + 1) k

/-- The function `InsertionSort`: `i` runs from 1 to `len(a) - 1`. -/
def InsertionSort (a : List Int) : Run (List Int) :=
  insertionLoop a 1 (a.length - 1)

/-- The function `shiftForwardStep`. -/
def shiftForwardStep : Nat → List Int → Int → Int → Run (List Int)
  | 0, _, _, _ => Run.outOfFuel
  | fuel + 1, a, j, h => do
    let a ← swap a j (j - h)
    let j := j - h
    if j < h then pure a
    else do
      let x ← get a j
      let y ← get a (j - h)
      if x ≥ y then pure a else shiftForwardStep fuel a j h

/-- One iteration of the inner loop of `ShellSort`. -/
def shellStep (h : Nat) (a : List Int) (i : Nat) : Run (List Int) := do
  let x ← get a i
  let y ← get a ((i : Int) - h)
  if x < y then shiftForwardStep (i + 1) a i h else pure a

/-- The inner loop of `ShellSort` from index `i`, with `k` iterations left. -/
def shellLoop (h : Nat) (a : List Int) (i : Nat) : Nat → Run (List Int)
  | 0 => pure a
  | k + 1 => do
    let a ← shellStep h a i
    shellLoop h a (i + 1) k

/-- The first loop of `ShellSort`: `h = 3h + 1` while `h < len(a)/3`. -/
def shellGap (len : Nat) : Nat → Nat → Run Nat
  | 0, _ => Run.outOfFuel
  | fuel + 1, h => if h < len / 3 then shellGap len fuel (h * 3 + 1) else pure h

/-- The second loop of `ShellSort`: one pass per gap, `h /= 3` while `h >= 1`. -/
def shellPasses : Nat → List Int → Nat → Run (List Int)
  | 0, _, _ => Run.outOfFuel
  | fuel + 1, a, h =>
    if h ≥ 1 then do
      let a ← shellLoop h a h (a.length - h)
      shellPasses fuel a (h / 3)
    else pure a

/-- The function `ShellSort`. -/
def ShellSort (a : List Int) : Run (List Int) := do
  let h ← shellGap a.length (a.length + 1) 1
  shellPasses (h + 1) a h

/-- The gaps of `ShellSort`: 1, 4, 13, 40, ... -/
inductive Gap : Nat → Prop where
  | one : Gap 1
  | next (h : Nat) : Gap h → Gap (h * 3 + 1)

/-- The function `siftDown`, with the loop budget `fuel`. -/
def siftDownLoop : Nat → List Int → Nat → Run (List Int)
  | 0, _, _ => Run.outOfFuel
  | fuel + 1, a, i =>
    if i < a.length / 2 then do
      let left := 2 * i + 1
      let right := 2 * i + 2
      let left ←
        if right < a.length then do
          let x ← get a left
          let y ← get a right
          pure (if x < y then right else left)
        else pure left
      if left ≥ a.length then pure a
      else do
        let x ← get a i
        let y ← get a left
        if x ≥ y then pure a
        else do
          let a ← swap a i left
          siftDownLoop fuel a left
    else pure a

/-- The function `siftDown`. -/
def siftDown (a : List Int) (i : Nat) : Run (List Int) :=
  siftDownLoop (a.length + 1) a i

/-- The first loop of `HeapSort`: `siftDown(a, i)` for `i = k - 1` down to 0. -/
def heapify (a : List Int) : Nat → Run (List Int)
  | 0 => pure a
  | k + 1 => do
    let a ← siftDown a k
    heapify a k

/-- The second loop of `HeapSort`: for `i = k` down to 1, `swap(a, 0, i)` and
`siftDown(a[:i], 0)`. -/
def sortDown (a : List Int) : Nat → Run (List Int)
  | 0 => pure a
  | i + 1 => do
    let a ← swap a 0 (i + 1 : Nat)
    let front ← siftDown (a.take (i + 1)) 0
    sortDown (front ++ a.drop (i + 1)) i

/-- The function `HeapSort`. -/
def HeapSort (a : List Int) : Run (List Int) := do
  let a ← heapify a (a.length / 2)
  sortDown a (a.length - 1)

/-- The function `shiftBack`, with the loop budget `fuel`. -/
def shiftBack : Nat → List Int → Int → Run (List Int)
  | 0, _, _ => Run.outOfFuel
  | fuel + 1, a, j => do
    let a ← swap a j (j + 1)
    let j := j + 1
    if j = (a.length : Int) - 1 then pure a
    else do
      let x ← get a (j + 1)
      let y ← get a j
      if x ≥ y then pure a else shiftBack fuel a j

/-- The inner loop `for i < len(a) && a[i] >= a[i-1] { i++ }` of
`partialInsertionSort`; returns the final `i`. -/
def sortedRunEnd : Nat → List Int → Nat → Run Nat
  | 0, _, _ => Run.outOfFuel
  | fuel + 1, a, i =>
    if i < a.length then do
      let x ← get a i
      let y ← get a ((i : Int) - 1)
      if x ≥ y then sortedRunEnd fuel a (i + 1) else pure i
    else pure i

/-- The outer loop of `partialInsertionSort`, with `steps` iterations left. -/
def partialInsertionLoop : Nat → List Int → Nat → Run (List Int × Bool)
  | 0, a, _ => pure (a, false)
  | steps + 1, a, i => do
    let i ← sortedRunEnd (a.length + 1) a i
    if i = a.length then pure (a, true)
    else if a.length < 50 then pure (a, false)
    else do
      let a ← shiftForward a i
      let a ←
        if i + 1 < a.length then do
          let x ← get a ((i : Int) + 1)
          let y ← get a i
          if x < y then shiftBack (a.length + 1) a i else pure a
        else pure a
      partialInsertionLoop steps a i

/-- The function `partialInsertionSort` (`maxSteps = 5`, `shortestShifting = 50`). -/
def partialInsertionSort (a : List Int) : Run (List Int × Bool) :=
  partialInsertionLoop 5 a 1

/-- The write `a[i] = v`. -/
def put (a : List Int) (i : Int) (v : Int) : Run (List Int) :=
  if i < 0 then Run.outOfRange
  else if i.toNat < a.length then Run.ok (a.set i.toNat v) else Run.outOfRange

/-- The read `int(offs[k])` of a `[128]byte` array. -/
def offGet (offs : List Nat) (k : Int) : Run Int :=
  if k < 0 then Run.outOfRange
  else
    match offs[k.toNat]? with
    | some x => Run.ok (x : Int)
    | none => Run.outOfRange

/-- The write `offs[k] = byte(i)` of a `[128]byte` array. -/
def offPut (offs : List Nat) (k : Int) (i : Int) : Run (List Nat) :=
  if k < 0 then Run.outOfRange
  else if k.toNat < offs.length then Run.ok (offs.set k.toNat (i % 256).toNat)
  else Run.outOfRange

/-- The variables of `partitionInBlocks`. -/
structure Blocks where
  a : List Int
  lstart : Int
  lend : Int
  rstart : Int
  rend : Int
  loffs : List Nat
  roffs : List Nat
  l : Int
  r : Int
  lblock : Int
  rblock : Int
deriving DecidableEq, Repr

/-- The loop that scans the left block: `k` iterations left, `i` the counter. -/
def scanLeft (pivot : Int) : Nat → Blocks → Int → Int → Run Blocks
  | 0, b, _, _ => pure b
  | k + 1, b, i, elem => do
    let loffs ← offPut b.loffs b.lend i
    let x ← get b.a elem
    let b := { b with loffs := loffs, lend := if x ≥ pivot then b.lend + 1 else b.lend }
    scanLeft pivot k b (i + 1) (elem + 1)

/-- The loop that scans the right block. -/
def scanRight (pivot : Int) : Nat → Blocks → Int → Int → Run Blocks
  | 0, b, _, _ => pure b
  | k + 1, b, i, elem => do
    let elem := elem - 1
    let roffs ← offPut b.roffs b.rend i
    let x ← get b.a elem
    let b := { b with roffs := roffs, rend := if x < pivot then b.rend + 1 else b.rend }
    scanRight pivot k b (i + 1) elem

/-- The loop `for i := 1; i < count; i++` of the cyclic exchange. -/
def cycle : Nat → Blocks → Run Blocks
  | 0, b => pure b
  | k + 1, b => do
    let lstart := b.lstart + 1
    let ro ← offGet b.roffs b.rstart
    let lo ← offGet b.loffs lstart
    let x ← get b.a (b.l + lo)
    let a ← put b.a (b.r - ro - 1) x
    let rstart := b.rstart + 1
    let ro ← offGet b.roffs rstart
    let y ← get a (b.r - ro - 1)
    let a ← put a (b.l + lo) y
    cycle k { b with a := a, lstart := lstart, rstart := rstart }

/-- The main loop of `partitionInBlocks` (`blockSize = 128`). -/
def blocksLoop (pivot : Int) : Nat → Blocks → Run Blocks
  | 0, _ => Run.outOfFuel
  | fuel + 1, b => do
    let isDone := decide (b.r - b.l ≤ 2 * 128)
    let b :=
      if isDone then
        let rem := b.r - b.l
        let rem := if b.lstart < b.lend ∨ b.rstart < b.rend then rem - 128 else rem
        if b.lstart < b.lend then { b with rblock := rem }
        else if b.rstart < b.rend then { b with lblock := rem }
        else { b with lblock := rem / 2, rblock := rem - rem / 2 }
      else b
    let b ←
      if b.lstart = b.lend then
        scanLeft pivot b.lblock.toNat { b with lstart := 0, lend := 0 } 0 b.l
      else pure b
    let b ←
      if b.rstart = b.rend then
        scanRight pivot b.rblock.toNat { b with rstart := 0, rend := 0 } 0 b.r
      else pure b
    let count := min (b.lend - b.lstart) (b.rend - b.rstart)
    let b ←
      if count > 0 then do
        let lo ← offGet b.loffs b.lstart
        let ro ← offGet b.roffs b.rstart
        let tmp ← get b.a (b.l + lo)
        let y ← get b.a (b.r - ro - 1)
        let a ← put b.a (b.l + lo) y
        let b ← cycle (count - 1).toNat { b with a := a }
        let ro ← offGet b.roffs b.rstart
        let a ← put b.a (b.r - ro - 1) tmp
        pure { b with a := a, lstart := b.lstart + 1, rstart := b.rstart + 1 }
      else pure b
    let b := if b.lstart = b.lend then { b with l := b.l + b.lblock } else b
    let b := if b.rstart = b.rend then { b with r := b.r - b.rblock } else b
    if isDone then pure b else blocksLoop pivot fuel b

/-- The final loop `for lstart < lend` of `partitionInBlocks`. -/
def drainLeft : Nat → Blocks → Run Blocks
  | 0, _ => Run.outOfFuel
  | fuel + 1, b =>
    if b.lstart < b.lend then do
      let lend := b.lend - 1
      let lo ← offGet b.loffs lend
      let a ← swap b.a (b.l + lo) (b.r - 1)
      drainLeft fuel { b with a := a, lend := lend, r := b.r - 1 }
    else pure b

/-- The final loop `for rstart < rend` of `partitionInBlocks`. -/
def drainRight : Nat → Blocks → Run Blocks
  | 0, _ => Run.outOfFuel
  | fuel + 1, b =>
    if b.rstart < b.rend then do
      let rend := b.rend - 1
      let ro ← offGet b.roffs rend
      let a ← swap b.a b.l (b.r - ro - 1)
      drainRight fuel { b with a := a, rend := rend, l := b.l + 1 }
    else pure b

/-- The function `partitionInBlocks`: the new content of the slice and the
returned index. -/
def partitionInBlocks (a : List Int) (pivot : Int) : Run (List Int × Int) := do
  let b ← blocksLoop pivot (a.length + 1)
    { a := a, lstart := 0, lend := 0, rstart := 0, rend := 0
      loffs := List.replicate 128 0, roffs := List.replicate 128 0
      l := 0, r := a.length, lblock := 128, rblock := 128 }
  if b.lstart < b.lend then do
    let b ← drainLeft 129 b
    pure (b.a, b.r)
  else if b.rstart < b.rend then do
    let b ← drainRight 129 b
    pure (b.a, b.l)
  else pure (b.a, b.l)

/-- The loop `for l < r && pa[l] < *pivotElem { l++ }` of `partition`. -/
def skipSmaller (pa : List Int) (pivot : Int) (r : Int) : Nat → Int → Run Int
  | 0, _ => Run.outOfFuel
  | fuel + 1, l =>
    if l < r then do
      let x ← get pa l
      if x < pivot then skipSmaller pa pivot r fuel (l + 1) else pure l
    else pure l

/-- The loop `for l < r && pa[r-1] >= *pivotElem { r-- }` of `partition`. -/
def skipLarger (pa : List Int) (pivot : Int) (l : Int) : Nat → Int → Run Int
  | 0, _ => Run.outOfFuel
  | fuel + 1, r =>
    if l < r then do
      let x ← get pa (r - 1)
      if x ≥ pivot then skipLarger pa pivot l fuel (r - 1) else pure r
    else pure r

/-- The slice expression `a[lo:hi]` split off its surroundings: the elements
before, inside and after it; a panic when `0 ≤ lo ≤ hi ≤ len(a)` fails. -/
def cut (a : List Int) (lo hi : Int) : Run (List Int × List Int × List Int) :=
  if 0 ≤ lo ∧ lo ≤ hi ∧ hi ≤ a.length then
    Run.ok (a.take lo.toNat, (a.take hi.toNat).drop lo.toNat, a.drop hi.toNat)
  else Run.outOfRange

/-- The function `partition`: the new content, `mid` and `wasPartitioned`. -/
def partition (a : List Int) (pivot : Int) : Run (List Int × Int × Bool) := do
  let a ← swap a 0 pivot
  let pivotElem ← get a 0
  let (first, pa, _) ← cut a 1 a.length
  let l ← skipSmaller pa pivotElem pa.length (pa.length + 1) 0
  let r ← skipLarger pa pivotElem l (pa.length + 1) pa.length
  let (before, inner, after) ← cut pa l r
  let (inner, k) ← partitionInBlocks inner pivotElem
  let mid := l + k
  let wasPartitioned := decide (l ≥ r)
  let a ← swap (first ++ (before ++ inner ++ after)) 0 mid
  pure (a, mid, wasPartitioned)

/-- The loop `for l < r && pivotElem >= a[l] { l++ }` of `partitionEqual`. -/
def skipEqual (a : List Int) (pivot : Int) (r : Int) : Nat → Int → Run Int
  | 0, _ => Run.outOfFuel
  | fuel + 1, l =>
    if l < r then do
      let x ← get a l
      if pivot ≥ x then skipEqual a pivot r fuel (l + 1) else pure l
    else pure l

/-- The loop `for l < r && pivotElem < a[r-1] { r-- }` of `partitionEqual`. -/
def skipGreater (a : List Int) (pivot : Int) (l : Int) : Nat → Int → Run Int
  | 0, _ => Run.outOfFuel
  | fuel + 1, r =>
    if l < r then do
      let x ← get a (r - 1)
      if pivot < x then skipGreater a pivot l fuel (r - 1) else pure r
    else pure r

/-- The outer loop of `partitionEqual` on the slice `a[1:]`; returns its
content and the final `l`. -/
def equalLoop (pivot : Int) : Nat → List Int → Int → Int → Run (List Int × Int)
  | 0, _, _, _ => Run.outOfFuel
  | fuel + 1, a, l, r => do
    let l ← skipEqual a pivot r (a.length + 1) l
    let r ← skipGreater a pivot l (a.length + 1) r
    if l ≠ r then pure (a, l)
    else do
      let r := r - 1
      let a ← swap a l r
      let l := l + 1
      equalLoop pivot fuel a l r

/-- The function `partitionEqual`: the new content of the slice and `mid`. -/
def partitionEqual (a : List Int) (pivot : Int) : Run (List Int × Int) := do
  let a ← swap a 0 pivot
  let pivotElem ← get a 0
  let (first, rest, _) ← cut a 1 a.length
  let (rest, l) ← equalLoop pivotElem (rest.length + 2) rest 0 rest.length
  pure (first ++ rest, l + 1)

/-- The function `xorshift` on `uint32`. -/
def xorshift (seed : Nat) : Nat :=
  let seed := seed ^^^ ((seed <<< 13) % 4294967296)
  let seed := seed ^^^ (seed >>> 17)
  seed ^^^ ((seed <<< 5) % 4294967296)

/-- The function `bits.Len` on a 64-bit `uint`: the number of bits of `x`. -/
def bitsLen : Nat → Nat → Nat
  | 0, _ => 0
  | fuel + 1, x => if x = 0 then 0 else bitsLen fuel (x / 2) + 1

/-- The loop `for i := -1; i <= 1; i++` of `breakPatterns` on a 64-bit
platform, with `k` iterations left. -/
def breakLoop (mask : Nat) (pos : Int) : Nat → List Int → Nat → Int → Run (List Int)
  | 0, a, _, _ => pure a
  | k + 1, a, seed, i => do
    let seed := xorshift seed
    let rnd1 := seed
    let seed := xorshift seed
    let rnd2 := seed
    let rnd := ((rnd1 <<< 32) % 18446744073709551616) ||| rnd2
    let other : Int := ((rnd &&& mask : Nat) : Int)
    let other := if other ≥ a.length then other - a.length else other
    let a ← swap a (pos + i) other
    breakLoop mask pos k a seed (i + 1)

/-- The function `breakPatterns` (`bits.UintSize = 64`). -/
def breakPatterns (a : List Int) : Run (List Int) :=
  if a.length ≥ 8 then
    breakLoop ((1 <<< bitsLen 64 a.length) % 18446744073709551616 - 1)
      ((a.length / 4 * 2 : Nat) : Int) 3 a (a.length % 4294967296) (-1)
  else pure a

/-- The function `sort2`. -/
def sort2 (a : List Int) (i j n : Int) : Run (Int × Int × Int) := do
  let x ← get a j
  let y ← get a i
  if x < y then pure (j, i, n + 1) else pure (i, j, n)

/-- The function `sort3`. -/
def sort3 (a : List Int) (i j k n : Int) : Run (Int × Int) := do
  let (i, j, n) ← sort2 a i j n
  let (j, _, n) ← sort2 a j k n
  let (_, j, n) ← sort2 a i j n
  pure (j, n)

/-- The function `sortAdjacent`. -/
def sortAdjacent (a : List Int) (m n : Int) : Run (Int × Int) :=
  sort3 a (m - 1) m (m + 1) n

/-- The function `choosePivot` (`shortestMedianOfMedians = 50`,
`maxSwaps = 12`): the new content, the pivot index and `likelySorted`. -/
def choosePivot (a : List Int) : Run (List Int × Int × Bool) := do
  let i : Int := (a.length / 4 * 1 : Nat)
  let j : Int := (a.length / 4 * 2 : Nat)
  let k : Int := (a.length / 4 * 3 : Nat)
  let swaps : Int := 0
  let (j, swaps) ←
    if a.length ≥ 8 then do
      let (i, j, k, swaps) ←
        if a.length ≥ 50 then do
          let (i, swaps) ← sortAdjacent a i swaps
          let (j, swaps) ← sortAdjacent a j swaps
          let (k, swaps) ← sortAdjacent a k swaps
          pure (i, j, k, swaps)
        else pure (i, j, k, swaps)
      sort3 a i j k swaps
    else pure (j, swaps)
  if swaps < 12 then pure (a, j, decide (swaps = 0))
  else do
    let a ← rev a
    pure (a, (a.length : Int) - 1 - j, true)

/-- The function `recurse` (`maxInsertion = 20`): the new content of the slice
it was given.  `pred` is the value `*pred`, `none` for a nil pointer; `fuel`
bounds the number of loop iterations and nested calls. -/
def recurse : Nat → List Int → Option Int → Nat → Bool → Bool → Run (List Int)
  | 0, _, _, _, _, _ => Run.outOfFuel
  | fuel + 1, a, pred, limit, wasBalanced, wasPartitioned =>
    if a.length < 20 then InsertionSort a
    else if limit = 0 then HeapSort a
    else do
      let (a, limit) ←
        if !wasBalanced then do
          let a ← breakPatterns a
          pure (a, limit - 1)
        else pure (a, limit)
      let (a, pivot, likelySorted) ← choosePivot a
      let (a, sorted) ←
        if wasBalanced && wasPartitioned && likelySorted then partialInsertionSort a
        else pure (a, false)
      if sorted then pure a
      else do
        let atPivot ← get a pivot
        if pred.isSome && decide (pred.getD 0 ≥ atPivot) then do
          let (a, mid) ← partitionEqual a pivot
          let (front, rest, _) ← cut a mid a.length
          let rest ← recurse fuel rest pred limit wasBalanced wasPartitioned
          pure (front ++ rest)
        else do
          let (a, midIdx, partitioned) ← partition a pivot
          let wasBalanced :=
            decide (min midIdx ((a.length : Int) - midIdx) ≥ ((a.length / 8 : Nat) : Int))
          let wasPartitioned := partitioned
          let (_, left, _) ← cut a 0 midIdx
          let pivotElem ← get a midIdx
          let (_, right, _) ← cut a (midIdx + 1) a.length
          if left.length < right.length then do
            let left ← recurse fuel left pred limit true true
            let right ← recurse fuel right (some pivotElem) limit wasBalanced wasPartitioned
            pure (left ++ pivotElem :: right)
          else do
            let right ← recurse fuel right (some pivotElem) limit true true
            let left ← recurse fuel left pred limit wasBalanced wasPartitioned
            pure (left ++ pivotElem :: right)

/-- The function `Pdqsort` (`unsafe.Sizeof` of an `int` is not 0). -/
def Pdqsort (a : List Int) : Run (List Int) :=
  if a.length ≠ 0 then recurse (a.length + 1) a none (bitsLen 64 a.length) true true
  else pure a

/-- An input of 24 elements on which `Pdqsort` leaves two elements out of order. -/
def unlucky : List Int :=
  [1, 0, 0, 0, 2, 1, 1, 1, 1, 1, 1, 1, 1, 1, 1, 2, 2, 2, 2, 2, 2, 2, 2, 2]

/-- An input of 24 elements on which `Pdqsort` indexes outside its slice. -/
def unluckier : List Int :=
  [2, 1, 1, 2, 2, 2, 2, 2, 2, 2, 2, 2, 2, 2, 2, 2, 2, 2, 2, 2, 2, 2, 2, 2]

/-- Every element at an index `j > 0` whose parent `(j - 1) / 2` is at least
`k` is at most its parent. -/
def HeapFrom (a : List Int) (k : Nat) : Prop :=
  ∀ j x y, 0 < j → k ≤ (j - 1) / 2 → a[j]? = some x → a[(j - 1) / 2]? = some y → x ≤ y

/-- The heap order from `k` with the element at `i` possibly too small: it
holds between every other parent and its children, and between the parent of
`i` and the children of `i`. -/
def HeapBut (a : List Int) (k i : Nat) : Prop :=
  (∀ j x y, 0 < j → k ≤ (j - 1) / 2 → (j - 1) / 2 ≠ i →
    a[j]? = some x → a[(j - 1) / 2]? = some y → x ≤ y) ∧
  (0 < i → k ≤ (i - 1) / 2 → ∀ c x y, 0 < c → (c - 1) / 2 = i →
    a[c]? = some x → a[(i - 1) / 2]? = some y → x ≤ y)

end GoofySort

namespace RBTreeGo2

/-! ## Package `rbtree` (`goofy/rbtree-go2`): the generic red-black tree.
Nodes live in a heap indexed by addresses; a pointer is `Option Nat`, `none`
for nil.  Every field read or write through a pointer is one heap access, in
the order of the source.  The two entries of `link` are selected by a `Bool`
(`false` for index 0, `true` for index 1); the masks `& 1` of the source leave
these values unchanged.  Loops carry an iteration budget; the methods start
them with a budget that the theorems show to be enough. -/

/-- The outcome of a call: a result, a nil or dangling pointer dereference, or
an exhausted iteration budget of the model. -/
inductive Res (α : Type) where
  | ok (a : α)
  | nilDeref
  | outOfFuel
deriving Repr

/-- Sequencing of heap operations. -/
def Res.bind {α β : Type} (x : Res α) (f : α → Res β) : Res β :=
  match x with
  | Res.ok a => f a
  | Res.nilDeref => Res.nilDeref
  | Res.outOfFuel => Res.outOfFuel

instance : Monad Res where
  pure := Res.ok
  bind := Res.bind

/-- The struct `Node[K, V]`. -/
structure Node (K V : Type) where
  link0 : Option Nat
  link1 : Option Nat
  parent : Option Nat
  k : K
  v : V
  red : Bool

/-- The field `link[dir]`. -/
def Node.link {K V : Type} (n : Node K V) (dir : Bool) : Option Nat :=
  if dir then n.link1 else n.link0

/-- The node with `link[dir]` replaced. -/
def Node.setLink {K V : Type} (n : Node K V) (dir : Bool) (x : Option Nat) : Node K V :=
  if dir then { n with link1 := x } else { n with link0 := x }

/-- The struct `RBTree[K, V]` together with the heap of its nodes; `next` is
the address the next allocation returns. -/
structure RBTree (K V : Type) where
  mem : Nat → Option (Node K V)
  next : Nat
  root : Option Nat

/-- The tree `&RBTree[K, V]{}` on an empty heap. -/
def RBTree.empty {K V : Type} : RBTree K V :=
  { mem := fun _ => none, next := 0, root := none }

/-- The dereference `*p`. -/
def load {K V : Type} (t : RBTree K V) (p : Option Nat) : Res (Node K V) :=
  match p with
  | none => Res.nilDeref
  | some i =>
    match t.mem i with
    | some n => Res.ok n
    | none => Res.nilDeref

/-- The heap with the node at address `p` replaced. -/
def store {K V : Type} (t : RBTree K V) (p : Nat) (n : Node K V) : RBTree K V :=
  { t with mem := Function.update t.mem p (some n) }

/-- The read `x.link[dir]`. -/
def getLink {K V : Type} (t : RBTree K V) (x : Nat) (dir : Bool) : Res (Option Nat) := do
  let n ← load t (some x)
  pure (n.link dir)

/-- The write `x.link[dir] = y`. -/
def setLink {K V : Type} (t : RBTree K V) (x : Nat) (dir : Bool) (y : Option Nat) :
    Res (RBTree K V) := do
  let n ← load t (some x)
  pure (store t x (n.setLink dir y))

/-- The read `x.parent`. -/
def getParent {K V : Type} (t : RBTree K V) (x : Nat) : Res (Option Nat) := do
  let n ← load t (some x)
  pure n.parent

/-- The write `x.parent = y`. -/
def setParent {K V : Type} (t : RBTree K V) (x : Nat) (y : Option Nat) : Res (RBTree K V) := do
  let n ← load t (some x)
  pure (store t x { n with parent := y })

/-- The write `x.red = b`. -/
def setRed {K V : Type} (t : RBTree K V) (x : Nat) (b : Bool) : Res (RBTree K V) := do
  let n ← load t (some x)
  pure (store t x { n with red := b })

/-- The guarded write `if x != nil { x.parent = y }`. -/
def setParentIf {K V : Type} (t : RBTree K V) (x : Option Nat) (y : Option Nat) :
    Res (RBTree K V) :=
  match x with
  | none => pure t
  | some c => setParent t c y

/-- The loop of `searchNode` from the node `n`. -/
def searchLoop {K V : Type} (cmp : K → K → Int) (t : RBTree K V) (key : K) :
    Nat → Option Nat → Res (Option Nat)
  | 0, _ => Res.outOfFuel
  | fuel + 1, n =>
    match n with
    | none => pure none
    | some _ => do
      let nn ← load t n
      let ord := cmp nn.k key
      if ord > 0 then searchLoop cmp t key fuel nn.link0
      else if ord < 0 then searchLoop cmp t key fuel nn.link1
      else pure n

/-- The method `searchNode`. -/
def searchNode {K V : Type} (cmp : K → K → Int) (t : RBTree K V) (key : K) :
    Res (Option Nat) :=
  searchLoop cmp t key (t.next + 1) t.root

/-- The method `Search`. -/
def Search {K V : Type} (cmp : K → K → Int) (t : RBTree K V) (key : K) : Res (Option V) := do
  let n ← searchNode cmp t key
  match n with
  | some _ => do
    let nn ← load t n
    pure (some nn.v)
  | none => pure none

/-- The statement `t.root.red = false` that ends `fixInsert` after a `break`. -/
def blackenRoot {K V : Type} (t : RBTree K V) : Res (RBTree K V) := do
  let r ← load t t.root
  match t.root with
  | some ri => pure (store t ri { r with red := false })
  | none => Res.nilDeref

/-- The end of the rotation branch of `fixInsert`: the node `p` takes the
place of `g` under `gg`, or becomes the root when `gg` is nil. -/
def relink {K V : Type} (t : RBTree K V) (gg : Option Nat) (g p : Nat) : Res (RBTree K V) :=
  match gg with
  | none => pure { t with root := some p }
  | some ggi => do
    let l0 ← getLink t ggi false
    if l0 = some g then setLink t ggi false (some p) else setLink t ggi true (some p)

/-- The block guarded by `if p.link[sib] == n` in the rotation branch of
`fixInsert`: the inner grandchild `n` is rotated above its parent `p`. -/
def rotateInner {K V : Type} (t : RBTree K V) (n p g : Nat) (dir : Bool) :
    Res (RBTree K V) := do
  let sib := !dir
  let nl ← getLink t n dir
  let t ← setLink t p sib nl
  let t ← setLink t n dir (some p)
  let t ← setLink t g dir (some n)
  let t ← setParent t p (some n)
  let pl ← getLink t p sib
  setParentIf t pl (some p)

/-- The rest of the rotation branch of `fixInsert`, from `gg := g.parent` to
the `return`: the child `p` is rotated above the grandparent `g`. -/
def rotateOuter {K V : Type} (t : RBTree K V) (p g : Nat) (dir : Bool) : Res (RBTree K V) := do
  let sib := !dir
  let gg ← getParent t g
  let pl ← getLink t p sib
  let t ← setLink t g dir pl
  let t ← setLink t p sib (some g)
  let gp ← getParent t g
  let t ← setParent t p gp
  let t ← setParent t g (some p)
  let gl ← getLink t g dir
  let t ← setParentIf t gl (some g)
  let t ← setRed t p false
  let t ← setRed t g true
  relink t gg g p

/-- The `else` branch of the loop body of `fixInsert`: the rotations around
the grandparent `g`, after which `fixInsert` returns.  After the inner
rotation the variable `p` holds `n`. -/
def rotate {K V : Type} (t : RBTree K V) (n p g : Nat) (dir : Bool) : Res (RBTree K V) := do
  let sib := !dir
  let pl ← getLink t p sib
  if pl = some n then do
    let t ← rotateInner t n p g dir
    rotateOuter t n g dir
  else rotateOuter t p g dir

/-- The loop of `fixInsert` at the node `n`. -/
def fixInsertLoop {K V : Type} : Nat → RBTree K V → Nat → Res (RBTree K V)
  | 0, _, _ => Res.outOfFuel
  | fuel + 1, t, n => do
    let nn ← load t (some n)
    match nn.parent with
    | none => blackenRoot t
    | some p => do
      let pn ← load t (some p)
      if !pn.red then blackenRoot t
      else
        match pn.parent with
        | none => blackenRoot t
        | some g => do
          let gn ← load t (some g)
          let dir := decide (gn.link0 ≠ some p)
          let sib := !dir
          let u := gn.link sib
          let uRed ←
            match u with
            | none => pure false
            | some _ => do
              let un ← load t u
              pure un.red
          if uRed then do
            let t ← setRed t p false
            let t ← match u with
              | some ui => setRed t ui false
              | none => Res.nilDeref
            let t ← setRed t g true
            fixInsertLoop fuel t g
          else rotate t n p g dir

/-- The method `fixInsert`. -/
def fixInsert {K V : Type} (t : RBTree K V) (n : Nat) : Res (RBTree K V) :=
  fixInsertLoop (t.next + 1) t n

/-- The descent of `Insert`: `n` the current node, `p` and `dir` the variables
of the same names.  Returns the tree and the returned `Optional[V]`. -/
def insertLoop {K V : Type} (cmp : K → K → Int) (key : K) (value : V) :
    Nat → RBTree K V → Option Nat → Option Nat → Bool → Res (RBTree K V × Option V)
  | 0, _, _, _, _ => Res.outOfFuel
  | fuel + 1, t, n, p, dir =>
    match n with
    | some ni => do
      let nn ← load t n
      let ord := cmp nn.k key
      if ord > 0 then insertLoop cmp key value fuel t nn.link0 n false
      else if ord < 0 then insertLoop cmp key value fuel t nn.link1 n true
      else pure (store t ni { nn with v := value }, some nn.v)
    | none => do
      let ni := t.next
      let t : RBTree K V :=
        { t with
          mem := Function.update t.mem ni
            (some { link0 := none, link1 := none, parent := p, k := key, v := value, red := true })
          next := t.next + 1 }
      let t ←
        match p with
        | some pi => setLink t pi dir (some ni)
        | none => pure { t with root := some ni }
      let t ← fixInsert t ni
      pure (t, none)

/-- The method `Insert`. -/
def Insert {K V : Type} (cmp : K → K → Int) (t : RBTree K V) (key : K) (value : V) :
    Res (RBTree K V × Option V) :=
  insertLoop cmp key value (t.next + 1) t t.root none false

/-- The tree after `Insert(k, v)` for each pair of the list, in order, on an
empty tree. -/
def build {K V : Type} (cmp : K → K → Int) : List (K × V) → Res (RBTree K V)
  | [] => pure RBTree.empty
  | kv :: rest => do
    let t ← build cmp rest
    let r ← Insert cmp t kv.1 kv.2
    pure r.1

/-- A binary tree of heap nodes: each node carries its address, key, value and
colour.  Used to describe the shape the heap holds. -/
inductive Tree (K V : Type) where
  | nil
  | node (l : Tree K V) (id : Nat) (k : K) (v : V) (red : Bool) (r : Tree K V)

/-- The pointer to the root of a tree. -/
def Tree.ptr {K V : Type} : Tree K V → Option Nat
  | Tree.nil => none
  | Tree.node _ id _ _ _ _ => some id

/-- The addresses of the nodes of a tree. -/
def Tree.ids {K V : Type} : Tree K V → List Nat
  | Tree.nil => []
  | Tree.node l id _ _ _ r => l.ids ++ id :: r.ids

/-- The in-order sequence of the (key, value) pairs of a tree. -/
def Tree.toList {K V : Type} : Tree K V → List (K × V)
  | Tree.nil => []
  | Tree.node l _ k v _ r => l.toList ++ (k, v) :: r.toList

/-- The number of nodes on the longest path from the root. -/
def Tree.height {K V : Type} : Tree K V → Nat
  | Tree.nil => 0
  | Tree.node l _ _ _ _ r => max l.height r.height + 1

/-- The heap `mem` holds the tree below a node whose address is `par`: every
node has the fields the tree prescribes, the parent pointer included. -/
def Repr {K V : Type} (mem : Nat → Option (Node K V)) (par : Option Nat) : Tree K V → Prop
  | Tree.nil => True
  | Tree.node l id k v c r =>
    mem id = some ⟨l.ptr, r.ptr, par, k, v, c⟩ ∧ Repr mem (some id) l ∧ Repr mem (some id) r

/-- One step of a path from a node to the root: the node on the path, with the
subtree on the other side of it. -/
inductive Frame (K V : Type) where
  | left (id : Nat) (k : K) (v : V) (red : Bool) (r : Tree K V)
  | right (l : Tree K V) (id : Nat) (k : K) (v : V) (red : Bool)

/-- The address of the node of a frame. -/
def Frame.id {K V : Type} : Frame K V → Nat
  | Frame.left id _ _ _ _ => id
  | Frame.right _ id _ _ _ => id

/-- The subtree beside the path. -/
def Frame.sib {K V : Type} : Frame K V → Tree K V
  | Frame.left _ _ _ _ r => r
  | Frame.right l _ _ _ _ => l

/-- The index of the link a frame leaves open. -/
def Frame.dir {K V : Type} : Frame K V → Bool
  | Frame.left _ _ _ _ _ => false
  | Frame.right _ _ _ _ _ => true

/-- The colour of the node of a frame. -/
def Frame.red {K V : Type} : Frame K V → Bool
  | Frame.left _ _ _ c _ => c
  | Frame.right _ _ _ _ c => c

/-- The tree with `t` put in the open link of a frame. -/
def Frame.fill {K V : Type} : Frame K V → Tree K V → Tree K V
  | Frame.left id k v c r, t => Tree.node t id k v c r
  | Frame.right l id k v c, t => Tree.node l id k v c t

/-- The tree with `t` at the end of a path; the first frame is the one next to
`t`. -/
def plug {K V : Type} : List (Frame K V) → Tree K V → Tree K V
  | [], t => t
  | f :: up, t => plug up (f.fill t)

/-- The parent pointer of the subtree at the end of a path. -/
def ctxPar {K V : Type} : List (Frame K V) → Option Nat
  | [] => none
  | f :: _ => some f.id

/-- The link index under which the end of a path hangs (0 at the root). -/
def ctxDir {K V : Type} : List (Frame K V) → Bool
  | [] => false
  | f :: _ => f.dir

/-- The addresses of the nodes on and beside a path. -/
def ctxIds {K V : Type} : List (Frame K V) → List Nat
  | [] => []
  | f :: up => f.id :: f.sib.ids ++ ctxIds up

/-- The root pointer of a tree with a subtree of pointer `hole` at the end of
a path. -/
def ctxRoot {K V : Type} : List (Frame K V) → Option Nat → Option Nat
  | [], hole => hole
  | f :: up, _ => ctxRoot up (some f.id)

/-- The pairs that precede the end of a path in order. -/
def ctxL {K V : Type} : List (Frame K V) → List (K × V)
  | [] => []
  | Frame.left _ _ _ _ _ :: up => ctxL up
  | Frame.right l _ k v _ :: up => ctxL up ++ l.toList ++ [(k, v)]

/-- The pairs that follow the end of a path in order. -/
def ctxR {K V : Type} : List (Frame K V) → List (K × V)
  | [] => []
  | Frame.left _ k v _ r :: up => (k, v) :: r.toList ++ ctxR up
  | Frame.right _ _ _ _ _ :: up => ctxR up

/-- The heap holds the nodes on and beside a path whose open link holds
`hole`. -/
def CtxRepr {K V : Type} (mem : Nat → Option (Node K V)) :
    List (Frame K V) → Option Nat → Prop
  | [], _ => True
  | Frame.left id k v c r :: up, hole =>
    (mem id = some ⟨hole, r.ptr, ctxPar up, k, v, c⟩ ∧ Repr mem (some id) r) ∧
      CtxRepr mem up (some id)
  | Frame.right l id k v c :: up, hole =>
    (mem id = some ⟨l.ptr, hole, ctxPar up, k, v, c⟩ ∧ Repr mem (some id) l) ∧
      CtxRepr mem up (some id)

/-- The state holds the tree `plug C sub`, seen from the subtree `sub`: the
heap holds `sub` and the path, the root pointer is the root of the path, the
addresses are distinct and allocated. -/
def GoodAt {K V : Type} (t : RBTree K V) (C : List (Frame K V)) (sub : Tree K V) : Prop :=
  Repr t.mem (ctxPar C) sub ∧ CtxRepr t.mem C sub.ptr ∧ t.root = ctxRoot C sub.ptr ∧
    (sub.ids ++ ctxIds C).Nodup ∧ ∀ i ∈ sub.ids ++ ctxIds C, i < t.next

/-- The state holds the tree `T`. -/
def Good {K V : Type} (t : RBTree K V) (T : Tree K V) : Prop :=
  GoodAt t [] T

/-- The value stored under `key` in a list of pairs: the first pair whose key
compares equal. -/
def lookup {K V : Type} (cmp : K → K → Int) (L : List (K × V)) (key : K) : Option V :=
  (L.find? (fun kv => cmp kv.1 key = 0)).map Prod.snd

/-- A comparison function of a total order: zero exactly on equal keys,
antisymmetric in sign, transitive. -/
structure TotalOrder {K : Type} (cmp : K → K → Int) : Prop where
  eq_zero : ∀ a b, cmp a b = 0 ↔ a = b
  antisymm : ∀ a b, cmp a b < 0 ↔ 0 < cmp b a
  trans : ∀ a b c, cmp a b < 0 → cmp b c < 0 → cmp a c < 0

/-- The keys of a list of pairs increase strictly. -/
def Ascending {K V : Type} (cmp : K → K → Int) (L : List (K × V)) : Prop :=
  L.Pairwise (fun a b => cmp a.1 b.1 < 0)

/-- The subtree that the rotation branch of `fixInsert` leaves in the place of
the grandparent: `fp` and `fg` are the frames of the parent and grandparent of
the node `N`. -/
def rotTree {K V : Type} : Frame K V → Frame K V → Tree K V → Tree K V
  | Frame.left p kp vp _ b, Frame.left g kg vg _ u, N =>
    Tree.node N p kp vp false (Tree.node b g kg vg true u)
  | Frame.right a p kp vp _, Frame.right u g kg vg _, N =>
    Tree.node (Tree.node u g kg vg true a) p kp vp false N
  | Frame.right a p kp vp cp, Frame.left g kg vg _ u, Tree.node l n k v _ r =>
    Tree.node (Tree.node a p kp vp cp l) n k v false (Tree.node r g kg vg true u)
  | Frame.left p kp vp cp b, Frame.right u g kg vg _, Tree.node l n k v _ r =>
    Tree.node (Tree.node u g kg vg true l) n k v false (Tree.node r p kp vp cp b)
  | _, _, Tree.nil => Tree.nil

/-- What the outer rotation with `dir = 0` needs: `p` is the left child of `g`
with subtrees `a` and `s`; the parent field of `p` may hold anything. -/
def PreL {K V : Type} (t : RBTree K V) (up : List (Frame K V)) (a : Tree K V) (p : Nat) (kp : K)
    (vp : V) (cp : Bool) (s : Tree K V) (pp : Option Nat) (g : Nat) (kg : K) (vg : V)
    (cg : Bool) (u : Tree K V) : Prop :=
  t.mem p = some ⟨a.ptr, s.ptr, pp, kp, vp, cp⟩ ∧ Repr t.mem (some p) a ∧
    Repr t.mem (some p) s ∧ t.mem g = some ⟨some p, u.ptr, ctxPar up, kg, vg, cg⟩ ∧
    Repr t.mem (some g) u ∧ CtxRepr t.mem up (some g) ∧ t.root = ctxRoot up (some g) ∧
    (a.ids ++ (p :: s.ids ++ (g :: u.ids ++ ctxIds up))).Nodup ∧
    ∀ i ∈ a.ids ++ (p :: s.ids ++ (g :: u.ids ++ ctxIds up)), i < t.next

/-- What the outer rotation with `dir = 1` needs: `p` is the right child of
`g` with subtrees `s` and `a`; the parent field of `p` may hold anything. -/
def PreR {K V : Type} (t : RBTree K V) (up : List (Frame K V)) (a : Tree K V) (p : Nat) (kp : K)
    (vp : V) (cp : Bool) (s : Tree K V) (pp : Option Nat) (g : Nat) (kg : K) (vg : V)
    (cg : Bool) (u : Tree K V) : Prop :=
  t.mem p = some ⟨s.ptr, a.ptr, pp, kp, vp, cp⟩ ∧ Repr t.mem (some p) a ∧
    Repr t.mem (some p) s ∧ t.mem g = some ⟨u.ptr, some p, ctxPar up, kg, vg, cg⟩ ∧
    Repr t.mem (some g) u ∧ CtxRepr t.mem up (some g) ∧ t.root = ctxRoot up (some g) ∧
    (a.ids ++ (p :: s.ids ++ (g :: u.ids ++ ctxIds up))).Nodup ∧
    ∀ i ∈ a.ids ++ (p :: s.ids ++ (g :: u.ids ++ ctxIds up)), i < t.next

/-- The tree with its root painted black. -/
def Tree.blacken {K V : Type} : Tree K V → Tree K V
  | Tree.nil => Tree.nil
  | Tree.node l id k v _ r => Tree.node l id k v false r

/-- The subtree that the recolouring branch of `fixInsert` leaves in the place
of the grandparent: parent and uncle black, grandparent red. -/
def recolorTree {K V : Type} : Frame K V → Frame K V → Tree K V → Tree K V
  | fp, Frame.left g kg vg _ u, N =>
    Tree.node (match fp with
      | Frame.left p kp vp _ s => Tree.node N p kp vp false s
      | Frame.right s p kp vp _ => Tree.node s p kp vp false N) g kg vg true u.blacken
  | fp, Frame.right u g kg vg _, N =>
    Tree.node u.blacken g kg vg true (match fp with
      | Frame.left p kp vp _ s => Tree.node N p kp vp false s
      | Frame.right s p kp vp _ => Tree.node s p kp vp false N)

/-- What `Insert` promises for a tree whose pairs were `L`: the state holds a
tree with increasing keys, the returned value is the one `L` stored under
`key`, `key` now maps to `value`, and every other key maps as before. -/
def InsertPost {K V : Type} (cmp : K → K → Int) (L : List (K × V)) (key : K) (value : V)
    (t' : RBTree K V) (ret : Option V) : Prop :=
  ∃ T', Good t' T' ∧ Ascending cmp T'.toList ∧ ret = lookup cmp L key ∧
    lookup cmp T'.toList key = some value ∧
    ∀ k', k' ≠ key → lookup cmp T'.toList k' = lookup cmp L k'

/-- The comparison of the tests, `a - b`, on unbounded integers. -/
def intCmp (a b : Int) : Int := a - b

end RBTreeGo2

namespace Trie

/-! ## Package `trie` (`goofy/actrie`): the Aho-Corasick automaton.
A string is the list of its bytes, a byte a natural number.  Node indices are
the `int` values of the source, `acnil = -1` included; a slice is a list, the
nil slice the empty list.  An index outside a slice stops the run. -/

/-- The outcome of a run: a result, an index out of range, or an exhausted
iteration budget of the model. -/
inductive Run (α : Type) where
  | ok (a : α)
  | outOfRange
  | outOfFuel
deriving DecidableEq, Repr

/-- Sequencing of runs. -/
def Run.bind {α β : Type} (x : Run α) (f : α → Run β) : Run β :=
  match x with
  | Run.ok a => f a
  | Run.outOfRange => Run.outOfRange
  | Run.outOfFuel => Run.outOfFuel

instance : Monad Run where
  pure := Run.ok
  bind := Run.bind

/-- The constant `acnil`. -/
def acnil : Int := -1

/-- The constant `acroot`. -/
def acroot : Int := 0

/-- The constant `acpren`. -/
def acpren : Nat := 1

/-- The struct `acnode`; the field `end` is written `ends`. -/
structure acnode where
  ch : List Nat
  next : List Int
  fail : Int
  ends : Int
deriving DecidableEq, Repr

/-- The zero value of `acnode`. -/
def acnode.zero : acnode :=
  { ch := [], next := [], fail := 0, ends := 0 }

/-- The method `addnode`. -/
def acnode.addnode (n : acnode) (c : Nat) (x : Int) : acnode :=
  { n with ch := n.ch ++ [c], next := n.next ++ [x] }

/-- The loop of `getnode` over the bytes of `n.ch` from index `i` on. -/
def getnodeFrom (next : List Int) (c : Nat) : List Nat → Nat → Run Int
  | [], _ => pure acnil
  | ch :: rest, i =>
    if ch = c then
      match next[i]? with
      | some x => pure x
      | none => Run.outOfRange
    else getnodeFrom next c rest (i + 1)

/-- The method `getnode`. -/
def acnode.getnode (n : acnode) (c : Nat) : Run Int :=
  getnodeFrom n.next c n.ch 0

/-- The struct `ACTrie`. -/
structure ACTrie where
  nodes : List acnode
  alloc : Nat
deriving DecidableEq, Repr

/-- The value `ACTrie{}`. -/
def ACTrie.empty : ACTrie :=
  { nodes := [], alloc := 0 }

/-- The read `nodes[p]`. -/
def nodeAt (nodes : List acnode) (p : Int) : Run acnode :=
  if p < 0 then Run.outOfRange
  else
    match nodes[p.toNat]? with
    | some n => pure n
    | none => Run.outOfRange

/-- The slice after a write to a field of `nodes[p]`. -/
def modifyAt (nodes : List acnode) (p : Int) (f : acnode → acnode) : Run (List acnode) := do
  let n ← nodeAt nodes p
  pure (nodes.set p.toNat (f n))

/-- The builtin `copy(dst, src)`: the contents of `dst` afterwards. -/
def copy (dst src : List acnode) : List acnode :=
  src.take dst.length ++ dst.drop src.length

/-- The loop of `Insert` over the bytes still to read; returns `nodes`,
`alloc` and `p`. -/
def insertLoop : List Nat → List acnode → Nat → Int → Run (List acnode × Nat × Int)
  | [], nodes, alloc, p => pure (nodes, alloc, p)
  | c :: rest, nodes, alloc, p => do
    let np ← nodeAt nodes p
    let x ← np.getnode c
    if x = acnil then
      let nodes :=
        if alloc = nodes.length then
          copy (List.replicate (alloc + (c :: rest).length) acnode.zero) nodes
        else nodes
      let x : Int := alloc
      let alloc := alloc + 1
      let nodes ← modifyAt nodes p (fun n => n.addnode c x)
      insertLoop rest nodes alloc x
    else insertLoop rest nodes alloc x

/-- The method `Insert`. -/
def Insert (t : ACTrie) (s : List Nat) : Run ACTrie := do
  let (nodes, alloc) ←
    if t.nodes = [] then do
      let nodes := List.replicate (s.length + acpren) acnode.zero
      let nodes ← modifyAt nodes acroot (fun n => { n with fail := acnil })
      pure (nodes, acpren)
    else pure (t.nodes, t.alloc)
  let (nodes, alloc, p) ← insertLoop s nodes alloc acroot
  let nodes ← modifyAt nodes p (fun n => { n with ends := n.ends + 1 })
  pure { nodes := nodes, alloc := alloc }

/-- The first loop of `Build`, over the children of the root. -/
def rootLoop : List Int → List acnode → List Int → Run (List acnode × List Int)
  | [], nodes, q => pure (nodes, q)
  | p :: rest, nodes, q => do
    let nodes ← modifyAt nodes p (fun n => { n with fail := acroot })
    rootLoop rest nodes (q ++ [p])

/-- The loop `for fail != acnil` of `Build` with the statement after it: the
slice after `nodes[x].fail` is set. -/
def failWalk (c : Nat) (x : Int) : Nat → List acnode → Int → Run (List acnode)
  | 0, _, _ => Run.outOfFuel
  | fuel + 1, nodes, fail =>
    if fail ≠ acnil then do
      let nf ← nodeAt nodes fail
      let z ← nf.getnode c
      if z ≠ acnil then modifyAt nodes x (fun n => { n with fail := z })
      else failWalk c x fuel nodes nf.fail
    else modifyAt nodes x (fun n => { n with fail := acroot })

/-- The loop of `Build` over the bytes of `nodes[p].ch` from index `i` on. -/
def childLoop (p : Int) : List Nat → Nat → List acnode → List Int →
    Run (List acnode × List Int)
  | [], _, nodes, q => pure (nodes, q)
  | c :: rest, i, nodes, q => do
    let np ← nodeAt nodes p
    let x ←
      match np.next[i]? with
      | some x => pure x
      | none => Run.outOfRange
    let np ← nodeAt nodes p
    let nodes ← failWalk c x (nodes.length + 1) nodes np.fail
    childLoop p rest (i + 1) nodes (q ++ [x])

/-- The loop `for len(q) > 0` of `Build`. -/
def bfsLoop : Nat → List acnode → List Int → Run (List acnode)
  | 0, _, _ => Run.outOfFuel
  | fuel + 1, nodes, q =>
    match q with
    | [] => pure nodes
    | p :: q => do
      let np ← nodeAt nodes p
      let (nodes, q) ← childLoop p np.ch 0 nodes q
      bfsLoop fuel nodes q

/-- The method `Build`. -/
def Build (t : ACTrie) : Run ACTrie := do
  let root ← nodeAt t.nodes acroot
  let (nodes, q) ← rootLoop root.next t.nodes []
  let nodes ← bfsLoop (nodes.length + 1) nodes q
  pure { t with nodes := nodes }

/-- The loop `for x == acnil && p != acroot` of `Match`; returns `p` and
`x`. -/
def backtrack (nodes : List acnode) (c : Nat) : Nat → Int → Int → Run (Int × Int)
  | 0, _, _ => Run.outOfFuel
  | fuel + 1, p, x =>
    if x = acnil ∧ p ≠ acroot then do
      let np ← nodeAt nodes p
      let p := np.fail
      let np ← nodeAt nodes p
      let x ← np.getnode c
      backtrack nodes c fuel p x
    else pure (p, x)

/-- The loop `for x != acroot` of `Match`; returns `total`. -/
def sumEnds (nodes : List acnode) : Nat → Int → Int → Run Int
  | 0, _, _ => Run.outOfFuel
  | fuel + 1, x, total =>
    if x ≠ acroot then do
      let nx ← nodeAt nodes x
      sumEnds nodes fuel nx.fail (total + nx.ends)
    else pure total

/-- The loop of `Match` over the bytes still to read. -/
def matchLoop (nodes : List acnode) : List Nat → Int → Int → Run Int
  | [], _, total => pure total
  | c :: rest, p, total => do
    let np ← nodeAt nodes p
    let x ← np.getnode c
    let (_, x) ← backtrack nodes c (nodes.length + 1) p x
    let p := x
    let p := if p = acnil then acroot else p
    let total ← sumEnds nodes (nodes.length + 1) p total
    matchLoop nodes rest p total

/-- The method `Match`. -/
def Match (t : ACTrie) (s : List Nat) : Run Int :=
  matchLoop t.nodes s acroot 0

/-- The trie after `Insert` of each pattern in order, from `ACTrie{}`. -/
def insertAll : List (List Nat) → ACTrie → Run ACTrie
  | [], t => pure t
  | s :: rest, t => do
    let t ← Insert t s
    insertAll rest t

/-- The result of `Match(s)` after the patterns are inserted and `Build` is
called. -/
def matchAfterBuild (pats : List (List Nat)) (s : List Nat) : Run Int := do
  let t ← insertAll pats ACTrie.empty
  let t ← Build t
  Match t s

/-- The number of pairs (inserted pattern, end position in `s`) such that the
pattern is a substring of `s` ending there. -/
def occurrences (pats : List (List Nat)) (s : List Nat) : Nat :=
  ((List.range s.length).map (fun i => pats.countP (fun p => p <:+ s.take (i + 1)))).sum

/-- The word `u` is the longest suffix of `t` of length at most `m` among the
words of `L`. -/
def Best (L : List (List Nat)) (t : List Nat) (m : Nat) (u : List Nat) : Prop :=
  u ∈ L ∧ u <:+ t ∧ u.length ≤ m ∧ ∀ v ∈ L, v <:+ t → v.length ≤ m → v.length ≤ u.length

/-- The word `u` bounds every suffix of `t` of length at most `m` in `L` that
can be extended by `c` inside `L`. -/
def Walk (L : List (List Nat)) (t : List Nat) (m : Nat) (c : Nat) (u : List Nat) : Prop :=
  u ∈ L ∧ u <:+ t ∧ u.length ≤ m ∧
    ∀ v ∈ L, v <:+ t → v.length ≤ m → v ++ [c] ∈ L → v.length ≤ u.length

/-- Every prefix of a word of `L` is in `L`. -/
def PrefixClosed (L : List (List Nat)) : Prop :=
  ∀ w c, w ++ [c] ∈ L → w ∈ L

/-- The value `getnode` returns when the two slices of a node have the same
length: the partner of the first occurrence of `c`, or `acnil`. -/
def acnode.child (n : acnode) (c : Nat) : Int :=
  match (n.ch.zip n.next).find? (fun e => e.1 = c) with
  | some e => e.2
  | none => acnil

/-- The slice `nodes` holds the trie of the words `labs` (node `k` spells
`labs[k]`, node 0 the empty word) and counts the patterns `pats`: the labels
are distinct, the edges are the one-byte extensions among the labels, the
nodes past the labels are untouched, and `ends` counts how often the label of
a node occurs in `pats`. -/
structure TrieInv (nodes : List acnode) (labs : List (List Nat)) (pats : List (List Nat)) :
    Prop where
  len : labs.length ≤ nodes.length
  root : labs[0]? = some []
  nodup : labs.Nodup
  wf : ∀ (k : Nat) (nd : acnode), nodes[k]? = some nd → nd.ch.length = nd.next.length
  chNodup : ∀ (k : Nat) (nd : acnode), nodes[k]? = some nd → nd.ch.Nodup
  edge : ∀ (k : Nat) (nd : acnode) (w : List Nat) (c : Nat) (x : Int), labs[k]? = some w →
    nodes[k]? = some nd → (c, x) ∈ nd.ch.zip nd.next →
    ∃ j : Nat, x = (j : Int) ∧ labs[j]? = some (w ++ [c])
  closed : ∀ (j : Nat) (w : List Nat) (c : Nat), labs[j]? = some (w ++ [c]) →
    ∃ (k : Nat) (nd : acnode), labs[k]? = some w ∧ nodes[k]? = some nd ∧ nd.child c = (j : Int)
  free : ∀ (k : Nat) (nd : acnode), labs.length ≤ k → nodes[k]? = some nd → nd = acnode.zero
  rootFail : ∃ nd : acnode, nodes[0]? = some nd ∧ nd.fail = acnil
  ends : ∀ (k : Nat) (nd : acnode), nodes[k]? = some nd →
    nd.ends = match labs[k]? with
      | some w => (pats.count w : Int)
      | none => 0
  mem : ∀ p ∈ pats, p ∈ labs

/-- The `fail` field of node `j` points to the node that spells the longest
proper suffix of the label of `j` among the labels. -/
def FailOK (nodes : List acnode) (labs : List (List Nat)) (j : Nat) : Prop :=
  ∀ (w : List Nat) (nd : acnode), labs[j]? = some w → w ≠ [] → nodes[j]? = some nd →
    ∃ (f : Nat) (u : List Nat), nd.fail = (f : Int) ∧ labs[f]? = some u ∧
      Best labs w (w.length - 1) u

/-- The length of the label of node `j`. -/
def dep (labs : List (List Nat)) (j : Nat) : Nat :=
  (labs.getD j []).length

/-- The state of the breadth-first loop of `Build`: `deq` are the nodes taken
from the queue, `q` the ones waiting.  Both have their `fail` field right, the
queue is ordered by depth over at most two levels, and the children of the
root and of every node taken are taken or waiting. -/
structure BfsInv (nodes : List acnode) (labs : List (List Nat)) (deq q : List Nat) : Prop where
  nodup : (deq ++ q).Nodup
  pos : ∀ j ∈ deq ++ q, ∃ w, labs[j]? = some w ∧ w ≠ []
  ok : ∀ j ∈ deq ++ q, FailOK nodes labs j
  sorted : q.Pairwise (fun a b => dep labs a ≤ dep labs b)
  near : ∀ a ∈ q, ∀ b ∈ q, dep labs b ≤ dep labs a + 1
  before : ∀ a ∈ deq, ∀ b ∈ q, dep labs a ≤ dep labs b
  kids : ∀ k ∈ 0 :: deq, ∀ (j : Nat) (w : List Nat) (c : Nat), labs[k]? = some w →
    labs[j]? = some (w ++ [c]) → j ∈ deq ++ q
  par : ∀ j ∈ deq ++ q, ∀ (w : List Nat) (c : Nat), labs[j]? = some (w ++ [c]) →
    ∃ k ∈ 0 :: deq, labs[k]? = some w

/-- The number of pairs (pattern, end position) of occurrences in `t ++ rest`
that end inside `rest`. -/
def occFrom (pats : List (List Nat)) : List Nat → List Nat → Nat
  | _, [] => 0
  | t, c :: rest => pats.countP (fun p => p <:+ t ++ [c]) + occFrom pats (t ++ [c]) rest

end Trie

namespace Treap

/-! ## Package `treap` (`goofy/treap`).
A pointer `*Node` is modelled by the tree of the nodes reachable from it, the
nil pointer by `Node.nil`: the functions of the package reach every node along
one path only and hand the nodes they relink back to their caller, so writing
a field of a node is rebuilding the tree around it.  The fields `key` and
`prior` are only compared, never computed with, so they are unbounded
integers.  A dereference of nil makes a function return `none`. -/

/-- A pointer `*Node` with the nodes below it. -/
inductive Node where
  | nil
  | node (key : Int) (prior : Int) (left : Node) (right : Node)
deriving DecidableEq, Repr

/-- The read `p.prior`. -/
def Node.prior? : Node → Option Int
  | Node.nil => none
  | Node.node _ prior _ _ => some prior

/-- The function `zig`: the right child of `p` is lifted above `p`. -/
def zig : Node → Option Node
  | Node.node key prior left (Node.node rkey rprior rleft rright) =>
    some (Node.node rkey rprior (Node.node key prior left rleft) rright)
  | _ => none

/-- The function `zag`: the left child of `p` is lifted above `p`. -/
def zag : Node → Option Node
  | Node.node key prior (Node.node lkey lprior lleft lright) right =>
    some (Node.node lkey lprior lleft (Node.node key prior lright right))
  | _ => none

/-- The function `Insert`. -/
def Insert : Node → Int → Int → Option Node
  | Node.nil, key, prior => some (Node.node key prior Node.nil Node.nil)
  | Node.node k p left right, key, prior =>
    if key < k then do
      let left ← Insert left key prior
      let lp ← left.prior?
      if lp < p then zag (Node.node k p left right) else some (Node.node k p left right)
    else do
      let right ← Insert right key prior
      let rp ← right.prior?
      if rp < p then zig (Node.node k p left right) else some (Node.node k p left right)

/-- The function `Search`. -/
def Search : Node → Int → Node
  | Node.nil, _ => Node.nil
  | Node.node k p left right, key =>
    if key < k then Search left key
    else if key > k then Search right key
    else Node.node k p left right

/-- The in-order sequence of the (key, priority) pairs of a tree. -/
def Node.pairs : Node → List (Int × Int)
  | Node.nil => []
  | Node.node key prior left right => left.pairs ++ (key, prior) :: right.pairs

/-- The in-order key sequence is non-decreasing. -/
def Ordered (p : Node) : Prop :=
  p.pairs.Pairwise (fun a b => a.1 ≤ b.1)

/-- The priority `m` is not above the priority of the root, if there is one. -/
def Node.rootGe (m : Int) : Node → Prop
  | Node.nil => True
  | Node.node _ prior _ _ => m ≤ prior

/-- No child has a priority smaller than its parent's. -/
def Heap : Node → Prop
  | Node.nil => True
  | Node.node _ prior left right =>
    left.rootGe prior ∧ right.rootGe prior ∧ Heap left ∧ Heap right

/-- Every priority in the tree is at least `m`. -/
def Above (m : Int) (p : Node) : Prop :=
  ∀ x ∈ p.pairs, m ≤ x.2

end Treap

namespace Skiplist

/-! ## Package `skiplist` (`goofy/skiplist`).
A pointer `*Node` is nil, the address of the package variable `null`, the
address of the field `header` of the list, or the address of a node allocated
by `Insert`.  Allocated nodes live in a heap indexed by addresses.  An array
`[maxLevel]*Node` is a function on indices, and every access checks the index
against `maxLevel`.  The keys are only compared and the counters `count` and
`level` only grow by one per call, far from the limits of their machine types,
so all of them are natural numbers.  The random choices of `slrand` are an
argument of `Insert`.  Loops that follow pointers carry an iteration budget;
the methods start them with a budget that the theorems show to be enough. -/

/-- The constant `maxLevel`. -/
def maxLevel : Nat := 9

/-- A pointer `*Node`. -/
inductive Ptr where
  | nil
  | null
  | header
  | node (a : Nat)
deriving DecidableEq, Repr

/-- The outcome of a call: a result, a nil pointer dereference, an index out of
range, or an exhausted iteration budget of the model. -/
inductive Out (α : Type) where
  | ok (a : α)
  | nilDeref
  | outOfRange
  | outOfFuel
deriving Repr

/-- Sequencing of operations. -/
def Out.bind {α β : Type} (x : Out α) (f : α → Out β) : Out β :=
  match x with
  | Out.ok a => f a
  | Out.nilDeref => Out.nilDeref
  | Out.outOfRange => Out.outOfRange
  | Out.outOfFuel => Out.outOfFuel

instance : Monad Out where
  pure := Out.ok
  bind := Out.bind

/-- The struct `Node`. -/
structure Node where
  key : Nat
  forward : Nat → Ptr

/-- The zero value `Node{}`, with `key` set. -/
def Node.new (key : Nat) : Node :=
  { key := key, forward := fun _ => Ptr.nil }

/-- The struct `List` together with the package variable `null` and the heap
of the allocated nodes; `next` is the address the next allocation returns. -/
structure SkipList where
  count : Nat
  level : Nat
  header : Node
  null : Node
  mem : Nat → Option Node
  next : Nat

/-- The zero value `List{}` with `null = Node{}` and no node allocated. -/
def SkipList.zero : SkipList :=
  { count := 0, level := 0, header := Node.new 0, null := Node.new 0, mem := fun _ => none,
    next := 0 }

/-- The read `a[k]` of an array `[maxLevel]*Node`. -/
def readIdx (a : Nat → Ptr) (k : Nat) : Out Ptr :=
  if k < maxLevel then pure (a k) else Out.outOfRange

/-- The write `a[k] = p` to an array `[maxLevel]*Node`. -/
def writeIdx (a : Nat → Ptr) (k : Nat) (p : Ptr) : Out (Nat → Ptr) :=
  if k < maxLevel then pure (Function.update a k p) else Out.outOfRange

/-- The dereference `*p`. -/
def deref (l : SkipList) (p : Ptr) : Out Node :=
  match p with
  | Ptr.nil => Out.nilDeref
  | Ptr.null => pure l.null
  | Ptr.header => pure l.header
  | Ptr.node a =>
    match l.mem a with
    | some n => pure n
    | none => Out.nilDeref

/-- The write `p.forward[k] = x`. -/
def setForward (l : SkipList) (p : Ptr) (k : Nat) (x : Ptr) : Out SkipList := do
  let pn ← deref l p
  let f ← writeIdx pn.forward k x
  match p with
  | Ptr.nil => Out.nilDeref
  | Ptr.null => pure { l with null := { pn with forward := f } }
  | Ptr.header => pure { l with header := { pn with forward := f } }
  | Ptr.node a => pure { l with mem := Function.update l.mem a (some { pn with forward := f }) }

/-- The loop of `Init`: the first argument is the number of iterations left,
`maxLevel - i`. -/
def initLoop : Nat → Nat → SkipList → Out SkipList
  | 0, _, l => pure l
  | n + 1, i, l => do
    let l ← setForward l Ptr.header i Ptr.null
    initLoop n (i + 1) l

/-- The method `Init`. -/
def Init (l : SkipList) : Out SkipList :=
  initLoop maxLevel 0 l

/-- The function `slrand`; `draws` is the number of times `rand.Intn(m) < p`
held before it failed, the value of `l` when the loop ends. -/
def slrand (draws : Nat) : Nat :=
  if draws < maxLevel then draws else 0

/-- The inner loop of `Search` at level `k`, from the node `p`; returns `p`
and `q` as the loop leaves them. -/
def scan (l : SkipList) (key : Nat) (k : Nat) : Nat → Ptr → Out (Ptr × Ptr)
  | 0, _ => Out.outOfFuel
  | fuel + 1, p => do
    let pn ← deref l p
    let q ← readIdx pn.forward k
    let qn ← deref l q
    if qn.key > key then scan l key k fuel q else pure (p, q)

/-- The outer loop of `Search`, `for k := l.level; k >= 0; k--`: the first
argument is `k + 1`, so that 0 stands for the exit at `k = -1`. -/
def searchLoop (l : SkipList) (key : Nat) : Nat → Ptr → Ptr → (Nat → Ptr) →
    Out (Ptr × (Nat → Ptr))
  | 0, _, q, update => pure (q, update)
  | k + 1, p, _, update => do
    let (p, q) ← scan l key k (l.next + 1) p
    let update ← writeIdx update k p
    searchLoop l key k p q update

/-- The method `Search`; returns `q` and the array `update` it filled. -/
def Search (l : SkipList) (key : Nat) (update : Nat → Ptr) : Out (Ptr × (Nat → Ptr)) :=
  searchLoop l key (l.level + 1) Ptr.header Ptr.nil update

/-- The loop `for k >= 0 { ...; k-- }` of `Insert` that links the node `x`;
the first argument is `k + 1`. -/
def linkLoop (x : Ptr) (update : Nat → Ptr) : Nat → SkipList → Out SkipList
  | 0, l => pure l
  | k + 1, l => do
    let p ← readIdx update k
    let pn ← deref l p
    let f ← readIdx pn.forward k
    let l ← setForward l x k f
    let l ← setForward l p k x
    linkLoop x update k l

/-- The method `Insert`, with the random choices of `slrand` as `draws`. -/
def Insert (l : SkipList) (key : Nat) (draws : Nat) : Out (SkipList × Bool) := do
  let update : Nat → Ptr := fun _ => Ptr.nil
  let (q, update) ← Search l key update
  let qn ← deref l q
  if qn.key = key then pure (l, false)
  else do
    let k := slrand draws
    let (k, l, update) ←
      if k > l.level then do
        let k := l.level + 1
        let l := { l with level := k }
        let update ← writeIdx update k Ptr.header
        pure (k, l, update)
      else pure (k, l, update)
    let x := l.next
    let l := { l with mem := Function.update l.mem x (some (Node.new key)), next := l.next + 1 }
    let l ← linkLoop (Ptr.node x) update (k + 1) l
    pure ({ l with count := l.count + 1 }, true)

/-- The first loop of `Range`: `offset` steps along level 0, stopping at
`null`. -/
def skip (l : SkipList) : Nat → Ptr → Out Ptr
  | 0, n => pure n
  | i + 1, n =>
    if n = Ptr.null then pure n
    else do
      let nn ← deref l n
      let n ← readIdx nn.forward 0
      skip l i n

/-- The write `keys[p] = v` to a slice. -/
def writeKey (keys : List Nat) (p : Nat) (v : Nat) : Out (List Nat) :=
  if p < keys.length then pure (keys.set p v) else Out.outOfRange

/-- The second loop of `Range`: the first argument is the number of
iterations left, `len(keys) - i`. -/
def fill (l : SkipList) : Nat → Ptr → Nat → List Nat → Out (Nat × List Nat)
  | 0, _, p, keys => pure (p, keys)
  | i + 1, n, p, keys =>
    if n = Ptr.null then pure (p, keys)
    else do
      let nn ← deref l n
      let keys ← writeKey keys p nn.key
      let n ← readIdx nn.forward 0
      fill l i n (p + 1) keys

/-- The method `Range`; returns the count and the slice `keys` as the call
leaves it.  A negative `offset` runs the first loop zero times. -/
def Range (l : SkipList) (offset : Int) (keys : List Nat) : Out (Nat × List Nat) :=
  if offset ≥ (l.count : Int) then pure (0, keys)
  else do
    let n ← readIdx l.header.forward 0
    let n ← skip l offset.toNat n
    fill l keys.length n 0 keys

/-- The list after `Init` and one `Insert` for each (key, draws) pair, with
the keys whose `Insert` returned true, latest first. -/
def build : List (Nat × Nat) → Out (SkipList × List Nat)
  | [] => do
    let l ← Init SkipList.zero
    pure (l, [])
  | op :: ops => do
    let (l, stored) ← build ops
    let (l, fresh) ← Insert l op.1 op.2
    pure (l, if fresh then op.1 :: stored else stored)

/-- A node as the proofs see it: its address, its key, and the range of levels
`lo..hi` at which it is linked into the list. -/
structure Cell where
  ptr : Ptr
  key : Nat
  lo : Nat
  hi : Nat

/-- The cell is linked at level `k`. -/
def Cell.linked (c : Cell) (k : Nat) : Prop :=
  c.lo ≤ k ∧ k ≤ c.hi

instance (c : Cell) (k : Nat) : Decidable (c.linked k) :=
  inferInstanceAs (Decidable (c.lo ≤ k ∧ k ≤ c.hi))

/-- The first node of a sequence that is linked at level `k`, or `null`. -/
def nextAt (k : Nat) : List Cell → Ptr
  | [] => Ptr.null
  | c :: rest => if c.linked k then c.ptr else nextAt k rest

/-- The node a pointer points to, if any. -/
def SkipList.get (l : SkipList) (p : Ptr) : Option Node :=
  match p with
  | Ptr.nil => none
  | Ptr.null => some l.null
  | Ptr.header => some l.header
  | Ptr.node a => l.mem a

/-- The node of the cell `c` holds its key, and at each level at which `c` is
linked its forward pointer leads to the next node of `Y` linked there. -/
def Holds (l : SkipList) (c : Cell) (Y : List Cell) : Prop :=
  ∃ nd, l.get c.ptr = some nd ∧ nd.key = c.key ∧
    ∀ k, k < maxLevel → c.linked k → nd.forward k = nextAt k Y

/-- The heap holds the sequence of cells `X` followed by `T`. -/
def Chain (l : SkipList) (T : List Cell) : List Cell → Prop
  | [] => True
  | c :: rest => Holds l c (rest ++ T) ∧ Chain l T rest

/-- The cell of the field `header`: linked at every level. -/
def hdr (l : SkipList) : Cell :=
  { ptr := Ptr.header, key := l.header.key, lo := 0, hi := maxLevel - 1 }

/-- The heap holds the header followed by the cells `L`, at distinct allocated
addresses; the key of `null` is 0. -/
structure Rep (l : SkipList) (L : List Cell) : Prop where
  chain : Chain l [] (hdr l :: L)
  nodup : (L.map Cell.ptr).Nodup
  alloc : ∀ c ∈ L, ∃ a, c.ptr = Ptr.node a ∧ a < l.next
  nullKey : l.null.key = 0

/-- The state of a list between two calls: the cells are linked from level 0
up to at most `level`, their keys decrease strictly, and `count` counts
them. -/
structure Inv (l : SkipList) (L : List Cell) : Prop where
  rep : Rep l L
  desc : L.Pairwise (fun a b => b.key < a.key)
  lo : ∀ c ∈ L, c.lo = 0
  hi : ∀ c ∈ L, c.hi ≤ l.level
  level : l.level < maxLevel
  count : l.count = L.length

/-- The node `p` is the last one of `F` that is linked at level `k`. -/
def IsPred (k : Nat) (F : List Cell) (p : Ptr) : Prop :=
  ∃ X c Y, F = X ++ c :: Y ∧ p = c.ptr ∧ c.linked k ∧ ∀ d ∈ Y, ¬ d.linked k

/-- The state after the write `p.forward[k] = x`. -/
def putForward (l : SkipList) (p : Ptr) (nd : Node) : SkipList :=
  match p with
  | Ptr.nil => l
  | Ptr.null => { l with null := nd }
  | Ptr.header => { l with header := nd }
  | Ptr.node a => { l with mem := Function.update l.mem a (some nd) }

/-- What the proofs of `Search` and `Insert` assume: the list holds the cells
`A ++ B`, the keys of `A` are above `key` and those of `B` are not. -/
structure Split (l : SkipList) (key : Nat) (A B : List Cell) : Prop where
  inv : Inv l (A ++ B)
  above : ∀ a ∈ A, key < a.key
  below : ∀ b ∈ B, b.key ≤ key

/-- The cell of the node that `Insert` allocates at address `a`, linked at the
levels from `n` to `hi`. -/
def newCell (a key n hi : Nat) : Cell :=
  { ptr := Ptr.node a, key := key, lo := n, hi := hi }

end Skiplist

namespace RBTreeGo2

/-- The root of the tree is a red node. -/
def Tree.isRed {K V : Type} : Tree K V → Bool
  | Tree.nil => false
  | Tree.node _ _ _ _ c _ => c

/-- The red-black conditions below and at a node: no red node has a red child,
and every path from the root to nil passes `n` black nodes. -/
def RB {K V : Type} : Tree K V → Nat → Prop
  | Tree.nil, n => n = 0
  | Tree.node l _ _ _ c r, n =>
    (c = true → l.isRed = false ∧ r.isRed = false) ∧
      ∃ m, n = m + (if c then 0 else 1) ∧ RB l m ∧ RB r m

/-- The tree is a red-black tree: its root is black, no red node has a red
child, and all paths from the root to nil pass the same number of black
nodes. -/
def IsRB {K V : Type} (T : Tree K V) : Prop :=
  T.isRed = false ∧ ∃ n, RB T n

/-- The colour of the node at the bottom of a path (black for no node). -/
def ctxRed {K V : Type} : List (Frame K V) → Bool
  | [] => false
  | f :: _ => f.red

/-- The red-black conditions on and beside a path whose end takes a subtree
with `n` black nodes on every path. -/
def CtxRB {K V : Type} : List (Frame K V) → Nat → Prop
  | [], _ => True
  | f :: up, n =>
    RB f.sib n ∧ (f.red = true → f.sib.isRed = false ∧ ctxRed up = false) ∧
      CtxRB up (n + if f.red then 0 else 1)

/-- The node at the top of a path, the root, is black. -/
def ctxBlackTop {K V : Type} : List (Frame K V) → Prop
  | [] => True
  | f :: up => (up = [] → f.red = false) ∧ ctxBlackTop up

end RBTreeGo2

namespace RBTreeInt

/-! ## Package `rbtree` (`goofy/rbtree`): the red-black tree of `int` keys.
The model follows that of `goofy/rbtree-go2`: nodes live in a heap indexed by
addresses, a pointer is `Option Nat`, the entries of `link` are selected by a
`Bool`, and loops carry an iteration budget.  The keys are only compared, so
they are unbounded integers.  The outcome type `Res` is the one of
`RBTreeGo2`. -/

/-- The outcome of a call. -/
abbrev Res := RBTreeGo2.Res

/-- The struct `Node`. -/
structure Node where
  link0 : Option Nat
  link1 : Option Nat
  parent : Option Nat
  key : Int
  red : Bool

/-- The field `link[dir]`. -/
def Node.link (n : Node) (dir : Bool) : Option Nat :=
  if dir then n.link1 else n.link0

/-- The node with `link[dir]` replaced. -/
def Node.setLink (n : Node) (dir : Bool) (x : Option Nat) : Node :=
  if dir then { n with link1 := x } else { n with link0 := x }

/-- The struct `Tree` together with the heap of its nodes; `next` is the
address the next allocation returns. -/
structure Tree where
  mem : Nat → Option Node
  next : Nat
  root : Option Nat

/-- The tree `&Tree{}` on an empty heap. -/
def Tree.empty : Tree :=
  { mem := fun _ => none, next := 0, root := none }

/-- The dereference `*p`. -/
def load (t : Tree) (p : Option Nat) : Res Node :=
  match p with
  | none => RBTreeGo2.Res.nilDeref
  | some i =>
    match t.mem i with
    | some n => RBTreeGo2.Res.ok n
    | none => RBTreeGo2.Res.nilDeref

/-- The heap with the node at address `p` replaced. -/
def store (t : Tree) (p : Nat) (n : Node) : Tree :=
  { t with mem := Function.update t.mem p (some n) }

/-- The read `x.link[dir]`. -/
def getLink (t : Tree) (x : Nat) (dir : Bool) : Res (Option Nat) := do
  let n ← load t (some x)
  pure (n.link dir)

/-- The write `x.link[dir] = y`. -/
def setLink (t : Tree) (x : Nat) (dir : Bool) (y : Option Nat) : Res Tree := do
  let n ← load t (some x)
  pure (store t x (n.setLink dir y))

/-- The read `x.parent`. -/
def getParent (t : Tree) (x : Nat) : Res (Option Nat) := do
  let n ← load t (some x)
  pure n.parent

/-- The write `x.parent = y`. -/
def setParent (t : Tree) (x : Nat) (y : Option Nat) : Res Tree := do
  let n ← load t (some x)
  pure (store t x { n with parent := y })

/-- The write `x.red = b`. -/
def setRed (t : Tree) (x : Nat) (b : Bool) : Res Tree := do
  let n ← load t (some x)
  pure (store t x { n with red := b })

/-- The guarded write `if x != nil { x.parent = y }`. -/
def setParentIf (t : Tree) (x : Option Nat) (y : Option Nat) : Res Tree :=
  match x with
  | none => pure t
  | some c => setParent t c y

/-- The loop of `searchNode` from the node `n`. -/
def searchLoop (t : Tree) (key : Int) : Nat → Option Nat → Res (Option Nat)
  | 0, _ => RBTreeGo2.Res.outOfFuel
  | fuel + 1, n =>
    match n with
    | none => pure none
    | some _ => do
      let nn ← load t n
      if nn.key > key then searchLoop t key fuel nn.link0
      else if nn.key < key then searchLoop t key fuel nn.link1
      else pure n

/-- The method `searchNode`. -/
def searchNode (t : Tree) (key : Int) : Res (Option Nat) :=
  searchLoop t key (t.next + 1) t.root

/-- The method `Search`. -/
def Search (t : Tree) (key : Int) : Res Bool := do
  let n ← searchNode t key
  pure (decide (n ≠ none))

/-- The statement `t.root.red = false` that ends `fixInsert` after a `break`. -/
def blackenRoot (t : Tree) : Res Tree := do
  let r ← load t t.root
  match t.root with
  | some ri => pure (store t ri { r with red := false })
  | none => RBTreeGo2.Res.nilDeref

/-- The end of the rotation branch of `fixInsert`: the node `p` takes the
place of `g` under `gg`, or becomes the root when `gg` is nil. -/
def relink (t : Tree) (gg : Option Nat) (g p : Nat) : Res Tree :=
  match gg with
  | none => pure { t with root := some p }
  | some ggi => do
    let l0 ← getLink t ggi false
    if l0 = some g then setLink t ggi false (some p) else setLink t ggi true (some p)

/-- The block guarded by `if p.link[sib] == n` in the rotation branch of
`fixInsert`: the inner grandchild `n` is rotated above its parent `p`. -/
def rotateInner (t : Tree) (n p g : Nat) (dir : Bool) : Res Tree := do
  let sib := !dir
  let nl ← getLink t n dir
  let t ← setLink t p sib nl
  let t ← setLink t n dir (some p)
  let t ← setLink t g dir (some n)
  let t ← setParent t p (some n)
  let pl ← getLink t p sib
  setParentIf t pl (some p)

/-- The rest of the rotation branch of `fixInsert`, from `gg := g.parent` to
the `return`: the child `p` is rotated above the grandparent `g`. -/
def rotateOuter (t : Tree) (p g : Nat) (dir : Bool) : Res Tree := do
  let sib := !dir
  let gg ← getParent t g
  let pl ← getLink t p sib
  let t ← setLink t g dir pl
  let t ← setLink t p sib (some g)
  let gp ← getParent t g
  let t ← setParent t p gp
  let t ← setParent t g (some p)
  let gl ← getLink t g dir
  let t ← setParentIf t gl (some g)
  let t ← setRed t p false
  let t ← setRed t g true
  relink t gg g p

/-- The `else` branch of the loop body of `fixInsert`: the rotations around
the grandparent `g`, after which `fixInsert` returns.  After the inner
rotation the variable `p` holds `n`. -/
def rotate (t : Tree) (n p g : Nat) (dir : Bool) : Res Tree := do
  let sib := !dir
  let pl ← getLink t p sib
  if pl = some n then do
    let t ← rotateInner t n p g dir
    rotateOuter t n g dir
  else rotateOuter t p g dir

/-- The loop of `fixInsert` at the node `n`. -/
def fixInsertLoop : Nat → Tree → Nat → Res Tree
  | 0, _, _ => RBTreeGo2.Res.outOfFuel
  | fuel + 1, t, n => do
    let nn ← load t (some n)
    match nn.parent with
    | none => blackenRoot t
    | some p => do
      let pn ← load t (some p)
      if !pn.red then blackenRoot t
      else
        match pn.parent with
        | none => blackenRoot t
        | some g => do
          let gn ← load t (some g)
          let dir := decide (gn.link0 ≠ some p)
          let sib := !dir
          let u := gn.link sib
          let uRed ←
            match u with
            | none => pure false
            | some _ => do
              let un ← load t u
              pure un.red
          if uRed then do
            let t ← setRed t p false
            let t ← match u with
              | some ui => setRed t ui false
              | none => RBTreeGo2.Res.nilDeref
            let t ← setRed t g true
            fixInsertLoop fuel t g
          else rotate t n p g dir

/-- The method `fixInsert`. -/
def fixInsert (t : Tree) (n : Nat) : Res Tree :=
  fixInsertLoop (t.next + 1) t n

/-- The descent of `Insert`: `n` the current node, `p` and `dir` the variables
of the same names.  Returns the tree and the returned `bool`. -/
def insertLoop (key : Int) : Nat → Tree → Option Nat → Option Nat → Bool → Res (Tree × Bool)
  | 0, _, _, _, _ => RBTreeGo2.Res.outOfFuel
  | fuel + 1, t, n, p, dir =>
    match n with
    | some _ => do
      let nn ← load t n
      if key < nn.key then insertLoop key fuel t nn.link0 n false
      else if key > nn.key then insertLoop key fuel t nn.link1 n true
      else pure (t, true)
    | none => do
      let ni := t.next
      let t : Tree :=
        { t with
          mem := Function.update t.mem ni
            (some { link0 := none, link1 := none, parent := p, key := key, red := true })
          next := t.next + 1 }
      let t ←
        match p with
        | some pi => setLink t pi dir (some ni)
        | none => pure { t with root := some ni }
      let t ← fixInsert t ni
      pure (t, false)

/-- The method `Insert`. -/
def Insert (t : Tree) (key : Int) : Res (Tree × Bool) :=
  insertLoop key (t.next + 1) t t.root none false

/-- The node as a node of the generic tree, with the empty value. -/
def liftNode (n : Node) : RBTreeGo2.Node Int Unit :=
  { link0 := n.link0, link1 := n.link1, parent := n.parent, k := n.key, v := (), red := n.red }

/-- The tree as a generic tree with keys `int`, the empty value and the
comparison `a - b`. -/
def lift (t : Tree) : RBTreeGo2.RBTree Int Unit :=
  { mem := fun i => (t.mem i).map liftNode, next := t.next, root := t.root }

/-- The value `Insert` of the generic tree returns for the `bool` of this
package: `Some` of the empty value for true. -/
def asOption (b : Bool) : Option Unit :=
  if b then some () else none

/-- The heap of `t` holds the tree shape `T`: every node of the shape is at its
address with the links, the parent pointer, the key and the colour the shape
prescribes, the root pointer is the root of the shape, and the addresses are
distinct and allocated. -/
def Holds (t : Tree) (T : RBTreeGo2.Tree Int Unit) : Prop :=
  RBTreeGo2.Good (lift t) T

/-- The keys of a tree shape in order. -/
def keys (T : RBTreeGo2.Tree Int Unit) : List Int :=
  T.toList.map Prod.fst

/-- The shape is a strict binary search tree: its keys in order increase
strictly. -/
def IsBST (T : RBTreeGo2.Tree Int Unit) : Prop :=
  (keys T).Pairwise (fun a b => a < b)

/-- A tree with the single black node 5 at address 0. -/
def single : Tree :=
  { mem := fun i =>
      if i = 0 then some { link0 := none, link1 := none, parent := none, key := 5, red := false }
      else none
    next := 1
    root := some 0 }

end RBTreeInt

namespace RBTreeGo2

/-- The test `x != nil && x.red`. -/
def isRed {K V : Type} (t : RBTree K V) (x : Option Nat) : Res Bool :=
  match x with
  | none => pure false
  | some _ => do
    let xn ← load t x
    pure xn.red

/-- The pointer `q`, or `root` when `q` is nil: the statements
`if g == nil { g = root }` of `fixDelete` and `if p == nil { p = &root }` of
`Delete`. -/
def orRoot (q : Option Nat) (root : Nat) : Nat :=
  match q with
  | some gi => gi
  | none => root

/-- The statement `if g.link[0] == p { g.link[0] = w } else { g.link[1] = w }`
of `fixDelete`. -/
def replaceChild {K V : Type} (t : RBTree K V) (g p w : Nat) : Res (RBTree K V) := do
  let l0 ← getLink t g false
  if l0 = some p then setLink t g false (some w) else setLink t g true (some w)

/-- The block guarded by `if w.red` in `fixDelete`: the red sibling `w` is
rotated above `p`.  Returns the heap and the new values of `g` and `w`. -/
def rotateRedSibling {K V : Type} (t : RBTree K V) (p g w : Nat) (dir : Bool) :
    Res (RBTree K V × Nat × Nat) := do
  let sib := !dir
  let t ← setRed t w false
  let t ← setRed t p true
  let wl ← getLink t w dir
  let t ← setLink t p sib wl
  let t ← setLink t w dir (some p)
  let t ← replaceChild t g p w
  let pp ← getParent t p
  let t ← setParent t w pp
  let t ← setParent t p (some w)
  let w2 ← getLink t p sib
  match w2 with
  | none => Res.nilDeref
  | some w2i => do
    let t ← setParent t w2i (some p)
    pure (t, w, w2i)

/-- The block guarded by `if w.link[sib] == nil || !w.link[sib].red` in
`fixDelete`: the near nephew `y` is rotated above `w`.  Returns the heap and
the new value of `w`. -/
def rotateNephew {K V : Type} (t : RBTree K V) (p w : Nat) (dir : Bool) :
    Res (RBTree K V × Nat) := do
  let sib := !dir
  let y ← getLink t w dir
  match y with
  | none => Res.nilDeref
  | some yi => do
    let t ← setRed t yi false
    let t ← setRed t w true
    let ys ← getLink t yi sib
    let t ← setLink t w dir ys
    let t ← setLink t yi sib (some w)
    let wl ← getLink t w dir
    let t ← setParentIf t wl (some w)
    let t ← setLink t p sib (some yi)
    let ws ← getLink t yi sib
    match ws with
    | none => Res.nilDeref
    | some wsi => do
      let t ← setParent t wsi (some yi)
      pure (t, yi)

/-- The end of the rotation branch of `fixDelete`, from `w.red = p.red` to the
`break`: the sibling `w` is rotated above `p`. -/
def rotateSibling {K V : Type} (t : RBTree K V) (p g w : Nat) (dir : Bool) :
    Res (RBTree K V) := do
  let sib := !dir
  let pn ← load t (some p)
  let t ← setRed t w pn.red
  let t ← setRed t p false
  let ws ← getLink t w sib
  match ws with
  | none => Res.nilDeref
  | some wsi => do
    let t ← setRed t wsi false
    let wl ← getLink t w dir
    let t ← setLink t p sib wl
    let t ← setLink t w dir (some p)
    let t ← replaceChild t g p w
    let pp ← getParent t p
    let t ← setParent t w pp
    let t ← setParent t p (some w)
    let pl ← getLink t p sib
    setParentIf t pl (some p)

/-- The loop body of `fixDelete` from the test of the children of `w` on, for
a black sibling `w`; `loop` runs the next iteration. -/
def fixDeleteRest {K V : Type} (loop : RBTree K V → Nat → Bool → Res (RBTree K V))
    (t : RBTree K V) (p g wi : Nat) (dir : Bool) (root : Nat) : Res (RBTree K V) := do
  let sib := !dir
  let w0 ← getLink t wi false
  let r0 ← isRed t w0
  let w1 ← getLink t wi true
  let r1 ← if r0 then pure true else isRed t w1
  if !r0 && !r1 then do
    let t ← setRed t wi true
    let z := p
    let pp ← getParent t p
    let p := orRoot pp root
    let l0 ← getLink t p false
    loop t p (decide (l0 ≠ some z))
  else do
    let ws ← getLink t wi sib
    let rs ← isRed t ws
    let (t, wi) ← if !rs then rotateNephew t p wi dir else pure (t, wi)
    rotateSibling t p g wi dir

/-- The loop of `fixDelete`; `root` is the address of the local node `root`
of `Delete`. -/
def fixDeleteLoop {K V : Type} : Nat → RBTree K V → Nat → Bool → Nat → Res (RBTree K V)
  | 0, _, _, _, _ => Res.outOfFuel
  | fuel + 1, t, p, dir, root => do
    let sib := !dir
    let x ← getLink t p dir
    let xRed ← isRed t x
    if xRed then
      match x with
      | some xi => setRed t xi false
      | none => Res.nilDeref
    else if p = root then pure t
    else do
      let pp ← getParent t p
      let g := orRoot pp root
      let w ← getLink t p sib
      match w with
      | none => Res.nilDeref
      | some wi => do
        let wn ← load t w
        let (t, g, wi) ← if wn.red then rotateRedSibling t p g wi dir else pure (t, g, wi)
        fixDeleteRest (fun t p dir => fixDeleteLoop fuel t p dir root) t p g wi dir root

/-- The method `fixDelete`. -/
def fixDelete {K V : Type} (t : RBTree K V) (p : Nat) (dir : Bool) (root : Nat) :
    Res (RBTree K V) :=
  fixDeleteLoop (t.next + 1) t p dir root

/-- The loop `for s.link[0] != nil { s = s.link[0] }` of `Delete`. -/
def leftmost {K V : Type} (t : RBTree K V) : Nat → Nat → Res Nat
  | 0, _ => Res.outOfFuel
  | fuel + 1, s => do
    let l ← getLink t s false
    match l with
    | none => pure s
    | some li => leftmost t fuel li

/-- The branch `n.link[1] == nil` of `Delete`: the left child `c` of `n` takes
its place under `p`.  Returns the heap with `p` and `dir`. -/
def unlinkLeaf {K V : Type} (t : RBTree K V) (n p : Nat) (dir : Bool) :
    Res (RBTree K V × Nat × Bool) := do
  let c ← getLink t n false
  let t ← setLink t p dir c
  let t ← match c with
    | some ci => do
      let np ← getParent t n
      setParent t ci np
    | none => pure t
  pure (t, p, dir)

/-- The branch `r.link[0] == nil` of `Delete`: the right child `r` of `n`
takes its place and its colour. -/
def unlinkChild {K V : Type} (t : RBTree K V) (n p : Nat) (dir : Bool) (r : Nat) :
    Res (RBTree K V × Nat × Bool) := do
  let nl ← getLink t n false
  let t ← setLink t r false nl
  let t ← setLink t p dir (some r)
  let np ← getParent t n
  let t ← setParent t r np
  let rl ← getLink t r false
  let t ← setParentIf t rl (some r)
  let nn ← load t (some n)
  let c := nn.red
  let rn ← load t (some r)
  let t ← setRed t n rn.red
  let t ← setRed t r c
  pure (t, r, true)

/-- The last branch of `Delete`: the leftmost node `s` below the right child
of `n` takes the place and the colour of `n`. -/
def unlinkSucc {K V : Type} (t : RBTree K V) (n p : Nat) (dir : Bool) (r : Nat) :
    Res (RBTree K V × Nat × Bool) := do
  let s0 ← getLink t r false
  match s0 with
  | none => Res.nilDeref
  | some s0i => do
    let s ← leftmost t (t.next + 1) s0i
    let sp ← getParent t s
    match sp with
    | none => Res.nilDeref
    | some r => do
      let sr ← getLink t s true
      let t ← setLink t r false sr
      let nl ← getLink t n false
      let t ← setLink t s false nl
      let nr ← getLink t n true
      let t ← setLink t s true nr
      let t ← setLink t p dir (some s)
      let sl ← getLink t s false
      let t ← setParentIf t sl (some s)
      let sr2 ← getLink t s true
      let t ← match sr2 with
        | some x => setParent t x (some s)
        | none => Res.nilDeref
      let np ← getParent t n
      let t ← setParent t s np
      let rl ← getLink t r false
      let t ← setParentIf t rl (some r)
      let nn ← load t (some n)
      let c := nn.red
      let sn ← load t (some s)
      let t ← setRed t n sn.red
      let t ← setRed t s c
      pure (t, r, false)

/-- The state with the local node `root` of `Delete` allocated at the next free
address: `root := Node[K, V]{link: [2]*Node[K, V]{0: t.root}}`; its key and
value hold the zero values of their types. -/
def withRoot {K V : Type} [Inhabited K] [Inhabited V] (t : RBTree K V) : RBTree K V :=
  { t with
    mem := Function.update t.mem t.next
      (some { link0 := t.root, link1 := none, parent := none, k := default, v := default,
              red := false })
    next := t.next + 1 }

/-- The statements of `Delete` that set `p` and `dir`: the parent of `n`, or
`&root`, and the index of the link of `p` that holds `n`. -/
def parentDir {K V : Type} (t : RBTree K V) (n root : Nat) : Res (Nat × Bool) := do
  let np ← getParent t n
  match np with
  | none => pure (root, false)
  | some pi => do
    let l1 ← getLink t pi true
    pure (pi, decide (l1 = some n))

/-- The `if n.link[1] == nil { ... } else { ... }` of `Delete`: the node `n`
is taken out of the tree.  Returns the heap with `p` and `dir`. -/
def unlink {K V : Type} (t : RBTree K V) (n p : Nat) (dir : Bool) :
    Res (RBTree K V × Nat × Bool) := do
  let n1 ← getLink t n true
  match n1 with
  | none => unlinkLeaf t n p dir
  | some r => do
    let rl ← getLink t r false
    match rl with
    | none => unlinkChild t n p dir r
    | some _ => unlinkSucc t n p dir r

/-- The end of `Delete`, from `if !n.red` on. -/
def finishDelete {K V : Type} (t : RBTree K V) (n p : Nat) (dir : Bool) (root : Nat) :
    Res (RBTree K V × Option V) := do
  let nn ← load t (some n)
  let t ← if !nn.red then fixDelete t p dir root else pure t
  let rn ← load t (some root)
  let t : RBTree K V := { t with root := rn.link0 }
  let nn ← load t (some n)
  pure (t, some nn.v)

/-- The method `Delete`. -/
def Delete {K V : Type} [Inhabited K] [Inhabited V] (cmp : K → K → Int) (t : RBTree K V)
    (key : K) : Res (RBTree K V × Option V) := do
  let n ← searchNode cmp t key
  match n with
  | none => pure (t, none)
  | some ni => do
    let root := t.next
    let t := withRoot t
    let (p, dir) ← parentDir t ni root
    let (t, p, dir) ← unlink t ni p dir
    finishDelete t ni p dir root

/-- The record of the node above a subtree after the statement
`if g.link[0] == p { g.link[0] = w } else { g.link[1] = w }`. -/
def relinkRec {K V : Type} (gn : Node K V) (p w : Nat) : Node K V :=
  if gn.link0 = some p then gn.setLink false (some w) else gn.setLink true (some w)

/-- The state holds the tree `plug C sub` during `Delete`, seen from the
subtree `sub`: as `GoodAt`, with the link 0 of the local node `root` at
address `s` in the place of the root pointer. -/
def GoodS {K V : Type} (t : RBTree K V) (s : Nat) (C : List (Frame K V)) (sub : Tree K V) :
    Prop :=
  Repr t.mem (ctxPar C) sub ∧ CtxRepr t.mem C sub.ptr ∧
    (∃ k v, t.mem s = some ⟨ctxRoot C sub.ptr, none, none, k, v, false⟩) ∧
    (s :: (sub.ids ++ ctxIds C)).Nodup ∧ ∀ i ∈ s :: (sub.ids ++ ctxIds C), i < t.next

/-- The heap holds the path `C` with `hole` in its open link, below the local
node `root` at address `s`. -/
def CtxS {K V : Type} (mem : Nat → Option (Node K V)) (s : Nat) (C : List (Frame K V))
    (hole : Option Nat) : Prop :=
  CtxRepr mem C hole ∧ ∃ k v, mem s = some ⟨ctxRoot C hole, none, none, k, v, false⟩

/-- What the rotation of the sibling with `dir = 0` needs: `w` is the right
child of `p` with subtrees `a` and `z`, beside the subtree `x`; the parent
field of `w` may hold anything. -/
def SibL {K V : Type} (t : RBTree K V) (s : Nat) (up : List (Frame K V)) (x : Tree K V) (p : Nat)
    (kp : K) (vp : V) (cp : Bool) (a : Tree K V) (w : Nat) (kw : K) (vw : V) (cw : Bool)
    (z : Tree K V) (wpar : Option Nat) : Prop :=
  Repr t.mem (some p) x ∧ t.mem p = some ⟨x.ptr, some w, ctxPar up, kp, vp, cp⟩ ∧
    t.mem w = some ⟨a.ptr, z.ptr, wpar, kw, vw, cw⟩ ∧ Repr t.mem (some w) a ∧
    Repr t.mem (some w) z ∧ CtxS t.mem s up (some p) ∧
    (s :: (x.ids ++ ctxIds (Frame.left p kp vp cp (Tree.node a w kw vw cw z) :: up))).Nodup ∧
    ∀ i ∈ s :: (x.ids ++ ctxIds (Frame.left p kp vp cp (Tree.node a w kw vw cw z) :: up)),
      i < t.next

/-- What the rotation of the sibling with `dir = 1` needs: `w` is the left
child of `p` with subtrees `z` and `a`, beside the subtree `x`; the parent
field of `w` may hold anything. -/
def SibR {K V : Type} (t : RBTree K V) (s : Nat) (up : List (Frame K V)) (x : Tree K V) (p : Nat)
    (kp : K) (vp : V) (cp : Bool) (a : Tree K V) (w : Nat) (kw : K) (vw : V) (cw : Bool)
    (z : Tree K V) (wpar : Option Nat) : Prop :=
  Repr t.mem (some p) x ∧ t.mem p = some ⟨some w, x.ptr, ctxPar up, kp, vp, cp⟩ ∧
    t.mem w = some ⟨z.ptr, a.ptr, wpar, kw, vw, cw⟩ ∧ Repr t.mem (some w) a ∧
    Repr t.mem (some w) z ∧ CtxS t.mem s up (some p) ∧
    (s :: (x.ids ++ ctxIds (Frame.right (Tree.node z w kw vw cw a) p kp vp cp :: up))).Nodup ∧
    ∀ i ∈ s :: (x.ids ++ ctxIds (Frame.right (Tree.node z w kw vw cw a) p kp vp cp :: up)),
      i < t.next

/-- The parent pointer of the subtree at the end of a path that hangs under
the node `par`. -/
def segPar {K V : Type} (par : Option Nat) : List (Frame K V) → Option Nat
  | [] => par
  | f :: _ => some f.id

/-- The heap holds the nodes on and beside a path that hangs under the node
`par` and whose open link holds `hole`. -/
def SegRepr {K V : Type} (mem : Nat → Option (Node K V)) (par : Option Nat) :
    List (Frame K V) → Option Nat → Prop
  | [], _ => True
  | Frame.left id k v c r :: up, hole =>
    (mem id = some ⟨hole, r.ptr, segPar par up, k, v, c⟩ ∧ Repr mem (some id) r) ∧
      SegRepr mem par up (some id)
  | Frame.right l id k v c :: up, hole =>
    (mem id = some ⟨l.ptr, hole, segPar par up, k, v, c⟩ ∧ Repr mem (some id) l) ∧
      SegRepr mem par up (some id)

/-- Every step of the path goes to a left child. -/
def AllLeft {K V : Type} : List (Frame K V) → Prop
  | [] => True
  | f :: up => f.dir = false ∧ AllLeft up

/-- The subtree `x` at the end of the path lacks one black node: painted black
if it is red, it has `h + 1` black nodes on every path, otherwise `h`. -/
def RBw {K V : Type} (x : Tree K V) (h : Nat) : Prop :=
  if x.isRed then RB x.blacken (h + 1) else RB x h

/-- What `fixDelete` promises from a state `t` that holds `plug C x`: the
state `t'` holds a red-black tree with the same pairs in order, and only nodes
of the tree were written. -/
def FixPost {K V : Type} (s : Nat) (t : RBTree K V) (C : List (Frame K V)) (x : Tree K V)
    (t' : RBTree K V) : Prop :=
  ∃ T', GoodS t' s [] T' ∧ IsRB T' ∧ T'.toList = (plug C x).toList ∧ t'.next = t.next ∧
    ∀ i, i ∉ s :: (x.ids ++ ctxIds C) → t'.mem i = t.mem i

/-- Two trees have the same shape and the same colours. -/
def SameShape {K V : Type} : Tree K V → Tree K V → Prop
  | Tree.nil, Tree.nil => True
  | Tree.node l _ _ _ c r, Tree.node l' _ _ _ c' r' => c = c' ∧ SameShape l l' ∧ SameShape r r'
  | Tree.nil, Tree.node _ _ _ _ _ _ => False
  | Tree.node _ _ _ _ _ _, Tree.nil => False

/-- The calls `Delete(k)` for the keys of the list, in order: the tree they
leave and the values they return. -/
def deleteAll {K V : Type} [Inhabited K] [Inhabited V] (cmp : K → K → Int) :
    List K → RBTree K V → Res (RBTree K V × List (Option V))
  | [], t => pure (t, [])
  | k :: ks, t => do
    let r ← Delete cmp t k
    let rs ← deleteAll cmp ks r.1
    pure (rs.1, r.2 :: rs.2)

/-- The values a run of `Delete` calls returns on a tree that holds the pairs
`L` (the first pair of a key counts): nothing for a key in `seen`, the keys
deleted so far, otherwise the value `L` holds under the key. -/
def deleteReturns {K V : Type} (cmp : K → K → Int) (L : List (K × V)) :
    List K → List K → List (Option V)
  | _, [] => []
  | seen, k :: ks =>
    (if seen.any (fun a => decide (cmp a k = 0)) then none else lookup cmp L k) ::
      deleteReturns cmp L (k :: seen) ks

end RBTreeGo2

namespace RBTreeInt

/-- The test `x != nil && x.red`. -/
def isRed (t : Tree) (x : Option Nat) : Res Bool :=
  match x with
  | none => pure false
  | some _ => do
    let xn ← load t x
    pure xn.red

/-- The pointer `q`, or `root` when `q` is nil: the statements
`if g == nil { g = root }` of `fixDelete` and `if p == nil { p = &root }` of
`Delete`. -/
def orRoot (q : Option Nat) (root : Nat) : Nat :=
  match q with
  | some gi => gi
  | none => root

/-- The statement `if g.link[0] == p { g.link[0] = w } else { g.link[1] = w }`
of `fixDelete`. -/
def replaceChild (t : Tree) (g p w : Nat) : Res Tree := do
  let l0 ← getLink t g false
  if l0 = some p then setLink t g false (some w) else setLink t g true (some w)

/-- The block guarded by `if w.red` in `fixDelete`: the red sibling `w` is
rotated above `p`.  Returns the heap and the new values of `g` and `w`. -/
def rotateRedSibling (t : Tree) (p g w : Nat) (dir : Bool) : Res (Tree × Nat × Nat) := do
  let sib := !dir
  let t ← setRed t w false
  let t ← setRed t p true
  let wl ← getLink t w dir
  let t ← setLink t p sib wl
  let t ← setLink t w dir (some p)
  let t ← replaceChild t g p w
  let pp ← getParent t p
  let t ← setParent t w pp
  let t ← setParent t p (some w)
  let w2 ← getLink t p sib
  match w2 with
  | none => RBTreeGo2.Res.nilDeref
  | some w2i => do
    let t ← setParent t w2i (some p)
    pure (t, w, w2i)

/-- The block guarded by `if w.link[sib] == nil || !w.link[sib].red` in
`fixDelete`: the near nephew `y` is rotated above `w`.  Returns the heap and
the new value of `w`. -/
def rotateNephew (t : Tree) (p w : Nat) (dir : Bool) : Res (Tree × Nat) := do
  let sib := !dir
  let y ← getLink t w dir
  match y with
  | none => RBTreeGo2.Res.nilDeref
  | some yi => do
    let t ← setRed t yi false
    let t ← setRed t w true
    let ys ← getLink t yi sib
    let t ← setLink t w dir ys
    let t ← setLink t yi sib (some w)
    let wl ← getLink t w dir
    let t ← setParentIf t wl (some w)
    let t ← setLink t p sib (some yi)
    let ws ← getLink t yi sib
    match ws with
    | none => RBTreeGo2.Res.nilDeref
    | some wsi => do
      let t ← setParent t wsi (some yi)
      pure (t, yi)

/-- The end of the rotation branch of `fixDelete`, from `w.red = p.red` to the
`break`: the sibling `w` is rotated above `p`. -/
def rotateSibling (t : Tree) (p g w : Nat) (dir : Bool) : Res Tree := do
  let sib := !dir
  let pn ← load t (some p)
  let t ← setRed t w pn.red
  let t ← setRed t p false
  let ws ← getLink t w sib
  match ws with
  | none => RBTreeGo2.Res.nilDeref
  | some wsi => do
    let t ← setRed t wsi false
    let wl ← getLink t w dir
    let t ← setLink t p sib wl
    let t ← setLink t w dir (some p)
    let t ← replaceChild t g p w
    let pp ← getParent t p
    let t ← setParent t w pp
    let t ← setParent t p (some w)
    let pl ← getLink t p sib
    setParentIf t pl (some p)

/-- The loop body of `fixDelete` from the test of the children of `w` on, for
a black sibling `w`; `loop` runs the next iteration. -/
def fixDeleteRest (loop : Tree → Nat → Bool → Res Tree) (t : Tree) (p g wi : Nat) (dir : Bool)
    (root : Nat) : Res Tree := do
  let sib := !dir
  let w0 ← getLink t wi false
  let r0 ← isRed t w0
  let w1 ← getLink t wi true
  let r1 ← if r0 then pure true else isRed t w1
  if !r0 && !r1 then do
    let t ← setRed t wi true
    let z := p
    let pp ← getParent t p
    let p := orRoot pp root
    let l0 ← getLink t p false
    loop t p (decide (l0 ≠ some z))
  else do
    let ws ← getLink t wi sib
    let rs ← isRed t ws
    let (t, wi) ← if !rs then rotateNephew t p wi dir else pure (t, wi)
    rotateSibling t p g wi dir

/-- The loop of `fixDelete`; `root` is the address of the local node `root`
of `Delete`. -/
def fixDeleteLoop : Nat → Tree → Nat → Bool → Nat → Res Tree
  | 0, _, _, _, _ => RBTreeGo2.Res.outOfFuel
  | fuel + 1, t, p, dir, root => do
    let sib := !dir
    let x ← getLink t p dir
    let xRed ← isRed t x
    if xRed then
      match x with
      | some xi => setRed t xi false
      | none => RBTreeGo2.Res.nilDeref
    else if p = root then pure t
    else do
      let pp ← getParent t p
      let g := orRoot pp root
      let w ← getLink t p sib
      match w with
      | none => RBTreeGo2.Res.nilDeref
      | some wi => do
        let wn ← load t w
        let (t, g, wi) ← if wn.red then rotateRedSibling t p g wi dir else pure (t, g, wi)
        fixDeleteRest (fun t p dir => fixDeleteLoop fuel t p dir root) t p g wi dir root

/-- The method `fixDelete`. -/
def fixDelete (t : Tree) (p : Nat) (dir : Bool) (root : Nat) : Res Tree :=
  fixDeleteLoop (t.next + 1) t p dir root

/-- The loop `for s.link[0] != nil { s = s.link[0] }` of `Delete`. -/
def leftmost (t : Tree) : Nat → Nat → Res Nat
  | 0, _ => RBTreeGo2.Res.outOfFuel
  | fuel + 1, s => do
    let l ← getLink t s false
    match l with
    | none => pure s
    | some li => leftmost t fuel li

/-- The branch `n.link[1] == nil` of `Delete`: the left child `c` of `n` takes
its place under `p`.  Returns the heap with `p` and `dir`. -/
def unlinkLeaf (t : Tree) (n p : Nat) (dir : Bool) : Res (Tree × Nat × Bool) := do
  let c ← getLink t n false
  let t ← setLink t p dir c
  let t ← match c with
    | some ci => do
      let np ← getParent t n
      setParent t ci np
    | none => pure t
  pure (t, p, dir)

/-- The branch `r.link[0] == nil` of `Delete`: the right child `r` of `n`
takes its place and its colour. -/
def unlinkChild (t : Tree) (n p : Nat) (dir : Bool) (r : Nat) : Res (Tree × Nat × Bool) := do
  let nl ← getLink t n false
  let t ← setLink t r false nl
  let t ← setLink t p dir (some r)
  let np ← getParent t n
  let t ← setParent t r np
  let rl ← getLink t r false
  let t ← setParentIf t rl (some r)
  let nn ← load t (some n)
  let c := nn.red
  let rn ← load t (some r)
  let t ← setRed t n rn.red
  let t ← setRed t r c
  pure (t, r, true)

/-- The last branch of `Delete`: the leftmost node `s` below the right child
of `n` takes the place and the colour of `n`. -/
def unlinkSucc (t : Tree) (n p : Nat) (dir : Bool) (r : Nat) : Res (Tree × Nat × Bool) := do
  let s0 ← getLink t r false
  match s0 with
  | none => RBTreeGo2.Res.nilDeref
  | some s0i => do
    let s ← leftmost t (t.next + 1) s0i
    let sp ← getParent t s
    match sp with
    | none => RBTreeGo2.Res.nilDeref
    | some r => do
      let sr ← getLink t s true
      let t ← setLink t r false sr
      let nl ← getLink t n false
      let t ← setLink t s false nl
      let nr ← getLink t n true
      let t ← setLink t s true nr
      let t ← setLink t p dir (some s)
      let sl ← getLink t s false
      let t ← setParentIf t sl (some s)
      let sr2 ← getLink t s true
      let t ← match sr2 with
        | some x => setParent t x (some s)
        | none => RBTreeGo2.Res.nilDeref
      let np ← getParent t n
      let t ← setParent t s np
      let rl ← getLink t r false
      let t ← setParentIf t rl (some r)
      let nn ← load t (some n)
      let c := nn.red
      let sn ← load t (some s)
      let t ← setRed t n sn.red
      let t ← setRed t s c
      pure (t, r, false)

/-- The state with the local node `root` of `Delete` allocated at the next free
address: `root := Node{link: [2]*Node{0: t.root}}`; its key holds the zero
value. -/
def withRoot (t : Tree) : Tree :=
  { t with
    mem := Function.update t.mem t.next
      (some { link0 := t.root, link1 := none, parent := none, key := 0, red := false })
    next := t.next + 1 }

/-- The statements of `Delete` that set `p` and `dir`: the parent of `n`, or
`&root`, and the index of the link of `p` that holds `n`. -/
def parentDir (t : Tree) (n root : Nat) : Res (Nat × Bool) := do
  let np ← getParent t n
  match np with
  | none => pure (root, false)
  | some pi => do
    let l1 ← getLink t pi true
    pure (pi, decide (l1 = some n))

/-- The `if n.link[1] == nil { ... } else { ... }` of `Delete`: the node `n`
is taken out of the tree.  Returns the heap with `p` and `dir`. -/
def unlink (t : Tree) (n p : Nat) (dir : Bool) : Res (Tree × Nat × Bool) := do
  let n1 ← getLink t n true
  match n1 with
  | none => unlinkLeaf t n p dir
  | some r => do
    let rl ← getLink t r false
    match rl with
    | none => unlinkChild t n p dir r
    | some _ => unlinkSucc t n p dir r

/-- The end of `Delete`, from `if !n.red` on. -/
def finishDelete (t : Tree) (n p : Nat) (dir : Bool) (root : Nat) : Res (Tree × Bool) := do
  let nn ← load t (some n)
  let t ← if !nn.red then fixDelete t p dir root else pure t
  let rn ← load t (some root)
  let t : Tree := { t with root := rn.link0 }
  pure (t, true)

/-- The method `Delete`. -/
def Delete (t : Tree) (key : Int) : Res (Tree × Bool) := do
  let n ← searchNode t key
  match n with
  | none => pure (t, false)
  | some ni => do
    let root := t.next
    let t := withRoot t
    let (p, dir) ← parentDir t ni root
    let (t, p, dir) ← unlink t ni p dir
    finishDelete t ni p dir root

end RBTreeInt

/-! # Proofs -/

namespace CASPaxos

/-! ## Acceptor handlers -/

theorem serve_ballotNum_le (a : Acceptor) (c : Call) : a.ballotNum ≤ (serve a c).ballotNum := by
  cases c with
  | prepare b =>
    simp only [serve, onPrepare]
    split
    · exact le_refl _
    · simp only; omega
  | accept b v =>
    simp only [serve, onAccept]
    split
    · exact le_refl _
    · simp only; omega

theorem serveAll_ballotNum_le (calls : List Call) (a : Acceptor) :
    a.ballotNum ≤ (serveAll a calls).ballotNum := by
  induction calls generalizing a with
  | nil => exact le_refl _
  | cons c cs ih =>
    simp only [serveAll, List.foldl_cons]
    exact le_trans (serve_ballotNum_le a c) (ih (serve a c))

/-- C4, as the code has it: `onPrepare` refuses exactly the ballots strictly
below the promised one.  A ballot below `ballotNum` gives `OK = false` and the
record is untouched; any other ballot, the promised ballot itself included,
becomes the new promise, `vballot` and `value` stay as they were, and the reply
is `OK = true` with the current `vballot` and `value`. -/
theorem onPrepare_spec (a : Acceptor) (ballot : Int) :
    (ballot < a.ballotNum →
      (onPrepare a ballot).2.OK = false ∧ (onPrepare a ballot).1 = a) ∧
    (a.ballotNum ≤ ballot →
      (onPrepare a ballot).1.ballotNum = ballot ∧
      (onPrepare a ballot).1.vballot = a.vballot ∧
      (onPrepare a ballot).1.value = a.value ∧
      (onPrepare a ballot).2 = { OK := true, BallotNum := a.vballot, Value := a.value }) := by
  constructor
  · intro h
    have h' : a.ballotNum > ballot := h
    simp [onPrepare, h']
  · intro h
    have h' : ¬ a.ballotNum > ballot := not_lt.mpr h
    simp [onPrepare, h']

/-- C4 fails as stated: a prepare carrying exactly the promised ballot is
answered with `OK = true`, not refused. -/
theorem onPrepare_equal_ballot_ok :
    ¬ ((101 : Int) ≤ (Acceptor.mk 101 0 none).ballotNum →
        (onPrepare (Acceptor.mk 101 0 none) 101).2.OK = false ∧
        (onPrepare (Acceptor.mk 101 0 none) 101).1 = Acceptor.mk 101 0 none) := by
  decide

/-- C5: `onAccept` refuses a ballot below the promised one and leaves the
record untouched; otherwise the record becomes `{ballot, ballot, value}` and
the reply is `OK = true`.  The verdict is the same for any two values. -/
theorem onAccept_spec (a : Acceptor) (ballot : Int) (value : Option ValueType) :
    (ballot < a.ballotNum →
      (onAccept a ballot value).2.OK = false ∧ (onAccept a ballot value).1 = a) ∧
    (a.ballotNum ≤ ballot →
      (onAccept a ballot value).1 = { ballotNum := ballot, vballot := ballot, value := value } ∧
      (onAccept a ballot value).2.OK = true) ∧
    (∀ other : Option ValueType,
      (onAccept a ballot other).2 = (onAccept a ballot value).2) := by
  refine ⟨?_, ?_, ?_⟩
  · intro h
    have h' : a.ballotNum > ballot := h
    simp [onAccept, h']
  · intro h
    have h' : ¬ a.ballotNum > ballot := not_lt.mpr h
    simp [onAccept, h']
  · intro other
    simp only [onAccept]
    split <;> rfl

/-- C6 (fencing): after `onPrepare` answered ballot `B` with `OK = true`, and
after any further sequence of prepare and accept requests, a prepare or accept
with a ballot below `B` is answered with `OK = false`. -/
theorem fencing (a : Acceptor) (B : Int) (calls : List Call) (b : Int)
    (value : Option ValueType)
    (hok : (onPrepare a B).2.OK = true) (hlt : b < B) :
    (onPrepare (serveAll (onPrepare a B).1 calls) b).2.OK = false ∧
    (onAccept (serveAll (onPrepare a B).1 calls) b value).2.OK = false := by
  have hB : (onPrepare a B).1.ballotNum = B := by
    simp only [onPrepare] at hok ⊢
    split at hok
    · simp at hok
    · rename_i h; simp [h]
  have hge := serveAll_ballotNum_le calls (onPrepare a B).1
  rw [hB] at hge
  have hgt : (serveAll (onPrepare a B).1 calls).ballotNum > b := lt_of_lt_of_le hlt hge
  generalize serveAll (onPrepare a B).1 calls = later at hgt
  simp [onPrepare, onAccept, hgt]

/-- The fencing theorem at a fresh acceptor that promised ballot 201 and then
served an accept at 201 and a prepare at 305: ballot 102 is refused. -/
theorem fencing_witness :
    (onPrepare (serveAll (onPrepare Acceptor.fresh 201).1
        [Call.accept 201 (some ⟨7, 0⟩), Call.prepare 305]) 102).2.OK = false ∧
    (onAccept (serveAll (onPrepare Acceptor.fresh 201).1
        [Call.accept 201 (some ⟨7, 0⟩), Call.prepare 305]) 102 (some ⟨9, 1⟩)).2.OK = false :=
  fencing Acceptor.fresh 201 [Call.accept 201 (some ⟨7, 0⟩), Call.prepare 305] 102
    (some ⟨9, 1⟩) (by decide) (by decide)

/-! ## Quorum arithmetic -/

theorem prepareStep_promised (t : Tally) (r : Promise) :
    (prepareStep t r).promised = t.promised + (if r.OK then 1 else 0) := by
  unfold prepareStep
  cases hr : r.OK
  · simp
  · cases hv : r.Value with
    | none => simp
    | some v =>
      simp only [Bool.not_true, Bool.false_eq_true, if_false, if_true]
      split
      · rfl
      · split <;> rfl

theorem foldl_prepareStep_promised (l : List Promise) (t : Tally) :
    (l.foldl prepareStep t).promised = t.promised + l.countP (fun r => r.OK) := by
  induction l generalizing t with
  | nil => simp
  | cons r rs ih =>
    rw [List.foldl_cons, ih, prepareStep_promised, List.countP_cons]
    omega

theorem foldl_acceptStep (l : List Accept) (k : Nat) :
    l.foldl acceptStep k = k + l.countP (fun r => r.OK) := by
  induction l generalizing k with
  | nil => simp
  | cons r rs ih =>
    rw [List.foldl_cons, ih, List.countP_cons]
    unfold acceptStep
    cases r.OK <;> simp <;> omega

theorem prepareLoop_ok_iff (ballotNum : Int) (replys : List Promise) :
    (prepareLoop ballotNum replys).1 = true ↔
      replys.length / 2 + 1 ≤ replys.countP (fun r => r.OK) := by
  unfold prepareLoop
  simp only [foldl_prepareStep_promised, Nat.zero_add]
  split
  · rename_i h; simp only [Bool.false_eq_true, false_iff]; omega
  · rename_i h; simp only [true_iff]; omega

theorem acceptLoop_iff (replys : List Accept) :
    acceptLoop replys = true ↔ replys.length / 2 + 1 ≤ replys.countP (fun r => r.OK) := by
  unfold acceptLoop
  simp only [foldl_acceptStep, Nat.zero_add, decide_eq_true_eq, ge_iff_le]

theorem prepareGather_ok_iff (ballotNum : Int) (outcomes : List (Option Promise)) :
    (prepareGather ballotNum outcomes).1 = true ↔
      outcomes.length / 2 + 1 ≤ (outcomes.map prepareReply).countP (fun r => r.OK) := by
  rw [prepareGather, prepareLoop_ok_iff, List.length_map]

theorem acceptGather_iff (outcomes : List (Option Accept)) :
    acceptGather outcomes = true ↔
      outcomes.length / 2 + 1 ≤ (outcomes.map acceptReply).countP (fun r => r.OK) := by
  rw [acceptGather, acceptLoop_iff, List.length_map]

/-- C7 (quorum arithmetic): over the `invoke` outcomes of one fan-out, a
transport error being turned into a reply with `OK = false`, the prepare phase
reports success exactly when the replies with `OK = true` number at least
`N/2 + 1`, and so does the accept phase; with five acceptors that is three. -/
theorem quorum_arithmetic (ballotNum : Int) (promises : List (Option Promise))
    (accepts : List (Option Accept)) :
    ((prepareGather ballotNum promises).1 = true ↔
      promises.length / 2 + 1 ≤ (promises.map prepareReply).countP (fun r => r.OK)) ∧
    (acceptGather accepts = true ↔
      accepts.length / 2 + 1 ≤ (accepts.map acceptReply).countP (fun r => r.OK)) ∧
    (promises.length = 5 →
      ((prepareGather ballotNum promises).1 = true ↔
        3 ≤ (promises.map prepareReply).countP (fun r => r.OK))) ∧
    (accepts.length = 5 →
      (acceptGather accepts = true ↔
        3 ≤ (accepts.map acceptReply).countP (fun r => r.OK))) := by
  refine ⟨prepareGather_ok_iff _ _, acceptGather_iff _, ?_, ?_⟩
  · intro h5
    rw [prepareGather_ok_iff, h5]
  · intro h5
    rw [acceptGather_iff, h5]

/-! ## Resolution of the current value -/

theorem resolved_foldl (ballotNum : Int) (l : List Promise) :
    Resolved ballotNum l
      (l.foldl prepareStep { value := none, maxBallotNum := ballotNum, promised := 0 }) := by
  induction l using List.reverseRecOn with
  | nil =>
    exact ⟨by simp, fun _ => rfl, by intro v h; simp at h⟩
  | append_singleton l a ih =>
    rw [List.foldl_append, List.foldl_cons, List.foldl_nil]
    generalize l.foldl prepareStep { value := none, maxBallotNum := ballotNum, promised := 0 } = t
      at ih ⊢
    obtain ⟨h1, h2, h3⟩ := ih
    unfold prepareStep
    cases hOK : a.OK with
    | false =>
      simp only [Bool.not_false, if_true]
      refine ⟨?_, h2, ?_⟩
      · rw [h1]
        constructor
        · intro h r hr hro
          rcases List.mem_append.mp hr with hr | hr
          · exact h r hr hro
          · simp only [List.mem_singleton] at hr
            subst hr
            rw [hOK] at hro
            cases hro
        · intro h r hr hro
          exact h r (List.mem_append_left _ hr) hro
      · intro v hv
        obtain ⟨r, hr, hro, hrv, hrb, hmax⟩ := h3 v hv
        refine ⟨r, List.mem_append_left _ hr, hro, hrv, hrb, ?_⟩
        intro q hq hqo hqv
        rcases List.mem_append.mp hq with hq | hq
        · exact hmax q hq hqo hqv
        · simp only [List.mem_singleton] at hq
          subst hq
          rw [hOK] at hqo
          cases hqo
    | true =>
      simp only [Bool.not_true, Bool.false_eq_true, if_false]
      cases hV : a.Value with
      | none =>
        simp only
        refine ⟨?_, h2, ?_⟩
        · rw [h1]
          constructor
          · intro h r hr hro
            rcases List.mem_append.mp hr with hr | hr
            · exact h r hr hro
            · simp only [List.mem_singleton] at hr
              subst hr
              exact hV
          · intro h r hr hro
            exact h r (List.mem_append_left _ hr) hro
        · intro v hv
          obtain ⟨r, hr, hro, hrv, hrb, hmax⟩ := h3 v hv
          refine ⟨r, List.mem_append_left _ hr, hro, hrv, hrb, ?_⟩
          intro q hq hqo hqv
          rcases List.mem_append.mp hq with hq | hq
          · exact hmax q hq hqo hqv
          · simp only [List.mem_singleton] at hq
            subst hq
            exact absurd hV hqv
      | some w =>
        simp only
        cases htv : t.value with
        | none =>
          simp only [Option.isNone_none, if_true]
          refine ⟨?_, ?_, ?_⟩
          · simp only [false_iff, reduceCtorEq]
            intro h
            have := h a (List.mem_append_right _ (List.mem_singleton.mpr rfl)) hOK
            rw [hV] at this
            cases this
          · intro h; cases h
          · intro v hv
            simp only [Option.some.injEq] at hv
            subst hv
            refine ⟨a, List.mem_append_right _ (List.mem_singleton.mpr rfl), hOK, hV, rfl, ?_⟩
            intro q hq hqo hqv
            rcases List.mem_append.mp hq with hq | hq
            · exact absurd ((h1.mp htv) q hq hqo) hqv
            · simp only [List.mem_singleton] at hq
              subst hq
              exact le_refl _
        | some u =>
          simp only [Option.isNone_some, Bool.false_eq_true, if_false]
          obtain ⟨r, hr, hro, hrv, hrb, hmax⟩ := h3 u htv
          by_cases hgt : a.BallotNum > t.maxBallotNum
          · simp only [hgt, if_true]
            refine ⟨?_, ?_, ?_⟩
            · simp only [false_iff, reduceCtorEq]
              intro h
              have := h a (List.mem_append_right _ (List.mem_singleton.mpr rfl)) hOK
              rw [hV] at this
              cases this
            · intro h; cases h
            · intro v hv
              simp only [Option.some.injEq] at hv
              subst hv
              refine ⟨a, List.mem_append_right _ (List.mem_singleton.mpr rfl), hOK, hV, rfl, ?_⟩
              intro q hq hqo hqv
              rcases List.mem_append.mp hq with hq | hq
              · have := hmax q hq hqo hqv
                omega
              · simp only [List.mem_singleton] at hq
                subst hq
                exact le_refl _
          · simp only [hgt, if_false]
            refine ⟨?_, ?_, ?_⟩
            · simp only [htv, false_iff, reduceCtorEq]
              intro h
              have := h a (List.mem_append_right _ (List.mem_singleton.mpr rfl)) hOK
              rw [hV] at this
              cases this
            · intro h; cases h
            · intro v hv
              simp only [Option.some.injEq] at hv
              subst hv
              refine ⟨r, List.mem_append_left _ hr, hro, hrv, hrb, ?_⟩
              intro q hq hqo hqv
              rcases List.mem_append.mp hq with hq | hq
              · exact hmax q hq hqo hqv
              · simp only [List.mem_singleton] at hq
                subst hq
                omega

theorem prepareStep_not_ok (t : Tally) (r : Promise) (h : r.OK = false) :
    prepareStep t r = t := by
  simp [prepareStep, h]

theorem foldl_prepareStep_filter (l : List Promise) (t : Tally) :
    (l.filter (fun r => r.OK)).foldl prepareStep t = l.foldl prepareStep t := by
  induction l generalizing t with
  | nil => rfl
  | cons r rs ih =>
    cases h : r.OK with
    | false =>
      rw [List.filter_cons_of_neg (by simp [h]), List.foldl_cons, prepareStep_not_ok t r h, ih]
    | true =>
      rw [List.filter_cons_of_pos (by simp [h]), List.foldl_cons, List.foldl_cons, ih]

theorem prepareLoop_of_majority (ballotNum : Int) (replys : List Promise)
    (hmaj : replys.length / 2 + 1 ≤ replys.countP (fun r => r.OK)) :
    prepareLoop ballotNum replys =
      (true,
        (replys.foldl prepareStep
          { value := none, maxBallotNum := ballotNum, promised := 0 }).maxBallotNum,
        (replys.foldl prepareStep
          { value := none, maxBallotNum := ballotNum, promised := 0 }).value) := by
  unfold prepareLoop
  simp only [foldl_prepareStep_promised, Nat.zero_add]
  rw [if_neg (by omega)]

theorem prepareGather_of_majority (ballotNum : Int) (outcomes : List (Option Promise))
    (hmaj : outcomes.length / 2 + 1 ≤ (outcomes.map prepareReply).countP (fun r => r.OK)) :
    prepareGather ballotNum outcomes =
      (true,
        ((outcomes.map prepareReply).foldl prepareStep
          { value := none, maxBallotNum := ballotNum, promised := 0 }).maxBallotNum,
        ((outcomes.map prepareReply).foldl prepareStep
          { value := none, maxBallotNum := ballotNum, promised := 0 }).value) := by
  rw [prepareGather, prepareLoop_of_majority]
  rw [List.length_map]
  exact hmaj

theorem resolved_unique (ballotNum : Int) (l l' : List Promise) (t t' : Tally)
    (h : Resolved ballotNum l t) (h' : Resolved ballotNum l' t') (hp : l'.Perm l)
    (hd : (l.filter Promise.carries).Pairwise (fun r q => r.BallotNum ≠ q.BallotNum)) :
    t'.maxBallotNum = t.maxBallotNum ∧ t'.value = t.value := by
  cases htv : t.value with
  | none =>
    have hn : t'.value = none := by
      rw [h'.none_iff]
      intro r hr hro
      exact (h.none_iff.mp htv) r (hp.mem_iff.mp hr) hro
    exact ⟨by rw [h.none_max htv, h'.none_max hn], hn⟩
  | some v =>
    obtain ⟨r, hr, hro, hrv, hrb, hmax⟩ := h.some_max v htv
    cases htv' : t'.value with
    | none =>
      have := (h'.none_iff.mp htv') r (hp.mem_iff.mpr hr) hro
      rw [hrv] at this
      cases this
    | some v' =>
      obtain ⟨r', hr', hro', hrv', hrb', hmax'⟩ := h'.some_max v' htv'
      have hle : r.BallotNum ≤ r'.BallotNum :=
        hmax' r (hp.mem_iff.mpr hr) hro (by rw [hrv]; simp)
      have hge : r'.BallotNum ≤ r.BallotNum :=
        hmax r' (hp.mem_iff.mp hr') hro' (by rw [hrv']; simp)
      have hsame : r = r' := by
        by_contra hne
        have hsym : Symmetric (fun r q : Promise => r.BallotNum ≠ q.BallotNum) :=
          fun _ _ hxy => Ne.symm hxy
        have hm : r ∈ l.filter Promise.carries :=
          List.mem_filter.mpr ⟨hr, by simp [Promise.carries, hro, hrv]⟩
        have hm' : r' ∈ l.filter Promise.carries :=
          List.mem_filter.mpr ⟨hp.mem_iff.mp hr', by simp [Promise.carries, hro', hrv']⟩
        exact (hd.forall hsym hm hm' hne) (le_antisymm hle hge)
      subst hsame
      rw [hrv] at hrv'
      exact ⟨by rw [← hrb, ← hrb'], by rw [hrv']⟩

/-- C8 (resolution of the current value): when a majority of the replies are
`OK`, the value returned by the prepare phase is that of an `OK` reply carrying
a value whose ballot is greatest among such replies, returned together with
that ballot; it is nil exactly when no `OK` reply carries a value; the result
does not depend on the arrival order when the ballots of the value-carrying
`OK` replies are pairwise distinct; and dropping the replies with `OK = false`
changes nothing. -/
theorem prepare_resolution (ballotNum : Int) (outcomes : List (Option Promise))
    (hmaj : outcomes.length / 2 + 1 ≤ (outcomes.map prepareReply).countP (fun r => r.OK)) :
    (prepareGather ballotNum outcomes).1 = true ∧
    ((prepareGather ballotNum outcomes).2.2 = none ↔
      ∀ r ∈ outcomes.map prepareReply, r.OK = true → r.Value = none) ∧
    (∀ v, (prepareGather ballotNum outcomes).2.2 = some v →
      ∃ r ∈ outcomes.map prepareReply, r.OK = true ∧ r.Value = some v ∧
        r.BallotNum = (prepareGather ballotNum outcomes).2.1 ∧
        ∀ q ∈ outcomes.map prepareReply, q.OK = true → q.Value ≠ none →
          q.BallotNum ≤ r.BallotNum) ∧
    (∀ other : List (Option Promise), other.Perm outcomes →
      ((outcomes.map prepareReply).filter Promise.carries).Pairwise
        (fun r q => r.BallotNum ≠ q.BallotNum) →
      prepareGather ballotNum other = prepareGather ballotNum outcomes) ∧
    prepareGather ballotNum (outcomes.filter (fun o => (prepareReply o).OK)) =
      prepareGather ballotNum outcomes := by
  have hres := resolved_foldl ballotNum (outcomes.map prepareReply)
  rw [prepareGather_of_majority ballotNum outcomes hmaj]
  refine ⟨rfl, hres.none_iff, hres.some_max, ?_, ?_⟩
  · intro other hp hd
    have hmaj' : other.length / 2 + 1 ≤ (other.map prepareReply).countP (fun r => r.OK) := by
      rw [hp.length_eq, (hp.map prepareReply).countP_eq]
      exact hmaj
    rw [prepareGather_of_majority ballotNum other hmaj']
    have hu := resolved_unique ballotNum _ _ _ _ hres
      (resolved_foldl ballotNum (other.map prepareReply)) (hp.map prepareReply) hd
    rw [hu.1, hu.2]
  · have hmap : (outcomes.filter (fun o => (prepareReply o).OK)).map prepareReply =
        (outcomes.map prepareReply).filter (fun r => r.OK) := by
      rw [List.filter_map]
      rfl
    have hcount : ((outcomes.map prepareReply).filter (fun r => r.OK)).countP (fun r => r.OK) =
        (outcomes.map prepareReply).countP (fun r => r.OK) := by
      rw [List.countP_filter]
      simp
    have hlen : (outcomes.filter (fun o => (prepareReply o).OK)).length =
        (outcomes.map prepareReply).countP (fun r => r.OK) := by
      rw [← List.length_map (outcomes.filter (fun o => (prepareReply o).OK)) prepareReply, hmap,
        List.countP_eq_length_filter]
    have hmaj' : (outcomes.filter (fun o => (prepareReply o).OK)).length / 2 + 1 ≤
        ((outcomes.filter (fun o => (prepareReply o).OK)).map prepareReply).countP
          (fun r => r.OK) := by
      rw [hmap, hcount, hlen]
      omega
    rw [prepareGather_of_majority ballotNum _ hmaj', hmap, foldl_prepareStep_filter]

/-- The resolution theorem at five outcomes: one transport error, one refusal
and three promises, of which two carry values accepted at ballots 101 and 202. -/
theorem prepare_resolution_witness :
    (prepareGather 301
      [some ⟨true, 101, some ⟨11, 0⟩⟩, none, some ⟨true, 202, some ⟨22, 1⟩⟩,
        some ⟨false, 0, none⟩, some ⟨true, 0, none⟩]).2.2 = some ⟨22, 1⟩ ∧
    prepareGather 301
      [some ⟨true, 202, some ⟨22, 1⟩⟩, some ⟨true, 0, none⟩, some ⟨true, 101, some ⟨11, 0⟩⟩,
        some ⟨false, 0, none⟩, none] =
    prepareGather 301
      [some ⟨true, 101, some ⟨11, 0⟩⟩, none, some ⟨true, 202, some ⟨22, 1⟩⟩,
        some ⟨false, 0, none⟩, some ⟨true, 0, none⟩] :=
  ⟨by decide,
    (prepare_resolution 301
      [some ⟨true, 101, some ⟨11, 0⟩⟩, none, some ⟨true, 202, some ⟨22, 1⟩⟩,
        some ⟨false, 0, none⟩, some ⟨true, 0, none⟩] (by decide)).2.2.2.1
      [some ⟨true, 202, some ⟨22, 1⟩⟩, some ⟨true, 0, none⟩, some ⟨true, 101, some ⟨11, 0⟩⟩,
        some ⟨false, 0, none⟩, none] (by decide) (by decide)⟩

/-! ## Ballot generator -/

theorem wrapInt_of_inRange (x : Int) (h : InRange x) : wrapInt x = x := by
  unfold InRange at h
  unfold wrapInt
  omega

theorem ballotRun_eq (n : Nat) (proposer : Proposer) (id : Int)
    (hc : 0 ≤ proposer.ballotNum) (hid : InRange id)
    (hmul : InRange ((proposer.ballotNum + n) * 100))
    (hadd : InRange ((proposer.ballotNum + n) * 100 + id)) :
    ballotRun proposer id n =
      (List.range n).map (fun k : Nat => (proposer.ballotNum + (k + 1 : Nat)) * 100 + id) := by
  induction n generalizing proposer with
  | zero => rfl
  | succ n ih =>
    unfold InRange at hid hmul hadd
    push_cast at hmul hadd
    have h1 : wrapInt (proposer.ballotNum + 1) = proposer.ballotNum + 1 :=
      wrapInt_of_inRange _ (by unfold InRange; omega)
    have h2 : wrapInt ((proposer.ballotNum + 1) * 100) = (proposer.ballotNum + 1) * 100 :=
      wrapInt_of_inRange _ (by unfold InRange; omega)
    have h3 : wrapInt ((proposer.ballotNum + 1) * 100 + id) =
        (proposer.ballotNum + 1) * 100 + id :=
      wrapInt_of_inRange _ (by unfold InRange; omega)
    have hnext : nextBallotNum proposer id =
        ({ ballotNum := proposer.ballotNum + 1 }, (proposer.ballotNum + 1) * 100 + id) := by
      simp only [nextBallotNum, h1, h2, h3]
    rw [ballotRun, hnext, List.range_succ_eq_map, List.map_cons, List.map_map]
    rw [ih { ballotNum := proposer.ballotNum + 1 } (by simp only; omega)
      (by unfold InRange; simp only; omega) (by unfold InRange; simp only; omega)]
    congr 1
    · simp
      intro k _
      ring

/-- C10: as long as no operation leaves the 64-bit range, the ballots returned
by successive calls of `nextBallotNum` of one proposer are `counter*100 + id`
for the successive counter values, and each is strictly greater than every
ballot returned before it. -/
theorem nextBallotNum_increasing (n : Nat) (proposer : Proposer) (id : Int)
    (hc : 0 ≤ proposer.ballotNum) (hid : InRange id)
    (hmul : InRange ((proposer.ballotNum + n) * 100))
    (hadd : InRange ((proposer.ballotNum + n) * 100 + id)) :
    ballotRun proposer id n =
      (List.range n).map (fun k : Nat => (proposer.ballotNum + (k + 1 : Nat)) * 100 + id) ∧
    (ballotRun proposer id n).Pairwise (fun earlier later => earlier < later) := by
  have heq := ballotRun_eq n proposer id hc hid hmul hadd
  refine ⟨heq, ?_⟩
  rw [heq, List.pairwise_map]
  refine List.Pairwise.imp ?_ (List.pairwise_lt_range n)
  intro a b hab
  have : (a : Int) < (b : Int) := by exact_mod_cast hab
  push_cast
  omega

/-- The generator theorem for four calls of a new proposer with identifier 7. -/
theorem nextBallotNum_increasing_witness :
    ballotRun { ballotNum := 0 } 7 4 = [107, 207, 307, 407] ∧
    (ballotRun { ballotNum := 0 } 7 4).Pairwise (fun earlier later => earlier < later) :=
  ⟨by decide,
    (nextBallotNum_increasing 4 { ballotNum := 0 } 7 (by decide) (by unfold InRange; decide)
      (by unfold InRange; decide) (by unfold InRange; decide)).2⟩

/-! ## One round with no other proposer active -/

theorem fanout_length {α : Type} (call : Link → Acceptor → Acceptor × Option α)
    (links : Nat → Link) (accs : List Acceptor) (i : Nat) :
    (fanout call links i accs).length = accs.length := by
  induction accs generalizing i with
  | nil => rfl
  | cons a rest ih => simp [fanout, ih]

theorem fanout_getElem? {α : Type} (call : Link → Acceptor → Acceptor × Option α)
    (links : Nat → Link) (accs : List Acceptor) (i k : Nat) :
    (fanout call links i accs)[k]? = (accs[k]?).map (fun a => call (links (i + k)) a) := by
  induction accs generalizing i k with
  | nil => simp [fanout]
  | cons a rest ih =>
    cases k with
    | zero => simp [fanout]
    | succ k =>
      simp only [fanout, List.getElem?_cons_succ]
      rw [ih (i + 1) k]
      congr 2
      funext a
      congr 2
      omega

theorem fanout_fst_getElem? {α : Type} (call : Link → Acceptor → Acceptor × Option α)
    (links : Nat → Link) (accs : List Acceptor) (k : Nat) :
    ((fanout call links 0 accs).map Prod.fst)[k]? =
      (accs[k]?).map (fun a => (call (links k) a).1) := by
  rw [List.getElem?_map, fanout_getElem?]
  cases accs[k]? <;> simp

theorem fanout_snd_getD {α : Type} (call : Link → Acceptor → Acceptor × Option α)
    (links : Nat → Link) (accs : List Acceptor) (k : Nat) :
    ((fanout call links 0 accs).map Prod.snd).getD k none =
      ((accs[k]?).map (fun a => (call (links k) a).2)).getD none := by
  rw [List.getD_eq_getElem?_getD, List.getElem?_map, fanout_getElem?]
  cases accs[k]? <;> simp

theorem arrive_length {α : Type} (order : List Nat) (outs : List (Option α))
    (hperm : order.Perm (List.range outs.length)) : (arrive order outs).length = outs.length := by
  rw [arrive, List.length_map, hperm.length_eq, List.length_range]

theorem arrive_countP_ge {α : Type} (p : Option α → Bool) (g : Nat → Bool) (order : List Nat)
    (outs : List (Option α)) (hperm : order.Perm (List.range outs.length))
    (hg : ∀ i, g i = true → p (outs.getD i none) = true) :
    (List.range outs.length).countP g ≤ (arrive order outs).countP p := by
  rw [arrive, List.countP_map, hperm.countP_eq]
  apply List.countP_mono_left
  intro i _ hi
  exact hg i hi

theorem mem_arrive {α : Type} (order : List Nat) (outs : List (Option α)) (o : Option α)
    (h : o ∈ arrive order outs) : o = none ∨ o ∈ outs := by
  rw [arrive, List.mem_map] at h
  obtain ⟨i, _, hi⟩ := h
  rw [List.getD_eq_getElem?_getD] at hi
  cases hget : outs[i]? with
  | none => rw [hget] at hi; left; exact hi.symm
  | some x =>
    rw [hget] at hi
    right
    rw [← hi]
    exact List.getElem?_mem hget

theorem onPrepare_accepted (a : Acceptor) (b : Int) :
    (onPrepare a b).1.vballot = a.vballot ∧ (onPrepare a b).1.value = a.value := by
  unfold onPrepare
  split <;> exact ⟨rfl, rfl⟩

theorem invokePrepare_accepted (l : Link) (a : Acceptor) (b : Int) :
    (invokePrepare l a b).1.vballot = a.vballot ∧ (invokePrepare l a b).1.value = a.value := by
  cases l
  · exact onPrepare_accepted a b
  · exact ⟨rfl, rfl⟩
  · exact onPrepare_accepted a b

theorem prepare_accepted (accs : List Acceptor) (net : Fanout) (b : Int) :
    (prepare accs net b).1.map (fun a => (a.vballot, a.value)) =
      accs.map (fun a => (a.vballot, a.value)) := by
  apply List.ext_getElem?
  intro k
  simp only [prepare, List.getElem?_map]
  rw [← List.getElem?_map, fanout_fst_getElem?]
  cases accs[k]? with
  | none => rfl
  | some a =>
    simp only [Option.map_some']
    rw [(invokePrepare_accepted (net.links k) a b).1, (invokePrepare_accepted (net.links k) a b).2]

/-- C2 (CAS conflict): when the prepare phase of a round reaches a majority and
resolves a value whose state is not the expected one, `caspaxos` returns
`(false, state of the resolved value)`; the accept fan-out does not take place
(the outcome is the same whatever the transport of the second phase, and the
acceptor records are those left by the prepare phase), so every acceptor keeps
its accepted ballot and accepted value. -/
theorem caspaxos_conflict (w : World) (net1 net2 : Fanout) (state val : Int)
    (resolvedBallot : Int) (current : ValueType)
    (hprep : (prepare w.acceptors net1 (nextBallotNum w.proposer w.id).2).2 =
      (true, resolvedBallot, some current))
    (hne : current.State ≠ state) :
    (caspaxos w net1 net2 state val).2 = (false, current.State) ∧
    (caspaxos w net1 net2 state val).1.acceptors =
      (prepare w.acceptors net1 (nextBallotNum w.proposer w.id).2).1 ∧
    (∀ other : Fanout, caspaxos w net1 other state val = caspaxos w net1 net2 state val) ∧
    (caspaxos w net1 net2 state val).1.acceptors.map (fun a => (a.vballot, a.value)) =
      w.acceptors.map (fun a => (a.vballot, a.value)) := by
  have hne' : ¬ state = current.State := fun h => hne h.symm
  have hrun (net : Fanout) : caspaxos w net1 net state val =
      ({ w with proposer := (nextBallotNum w.proposer w.id).1,
                acceptors := (prepare w.acceptors net1 (nextBallotNum w.proposer w.id).2).1 },
        false, current.State) := by
    simp only [caspaxos, hprep, Bool.not_true, Bool.false_eq_true, if_false, hne']
  refine ⟨by rw [hrun], by rw [hrun], fun other => by rw [hrun, hrun], ?_⟩
  rw [hrun]
  exact prepare_accepted _ _ _

theorem prepare_empty (accs : List Acceptor) (net : Fanout) (b : Int) (g : Nat → Bool)
    (hperm : net.order.Perm (List.range accs.length))
    (hempty : ∀ a ∈ accs, a.value = none)
    (hg : ∀ i, g i = true → ∃ a, accs[i]? = some a ∧ net.links i = Link.up ∧ a.ballotNum ≤ b)
    (hmaj : accs.length / 2 + 1 ≤ (List.range accs.length).countP g) :
    (prepare accs net b).2 = (true, b, none) := by
  simp only [prepare]
  generalize hres : fanout (fun l a => invokePrepare l a b) net.links 0 accs = res
  have hlen : (res.map Prod.snd).length = accs.length := by
    rw [List.length_map, ← hres, fanout_length]
  have hperm' : net.order.Perm (List.range (res.map Prod.snd).length) := by rw [hlen]; exact hperm
  have hcount : accs.length / 2 + 1 ≤
      ((arrive net.order (res.map Prod.snd)).map prepareReply).countP (fun r => r.OK) := by
    rw [List.countP_map]
    refine le_trans hmaj ?_
    have := arrive_countP_ge ((fun r : Promise => r.OK) ∘ prepareReply) g net.order
      (res.map Prod.snd) hperm' ?_
    · rw [hlen] at this; exact this
    · intro i hi
      obtain ⟨a, ha, hup, hle⟩ := hg i hi
      rw [← hres, fanout_snd_getD, ha, hup]
      have : ¬ a.ballotNum > b := not_lt.mpr hle
      simp [invokePrepare, onPrepare, prepareReply, this]
  have hmaj' : (arrive net.order (res.map Prod.snd)).length / 2 + 1 ≤
      ((arrive net.order (res.map Prod.snd)).map prepareReply).countP (fun r => r.OK) := by
    rw [arrive_length _ _ hperm', hlen]; exact hcount
  rw [prepareGather_of_majority b _ hmaj']
  have hR := resolved_foldl b ((arrive net.order (res.map Prod.snd)).map prepareReply)
  have hnone : (((arrive net.order (res.map Prod.snd)).map prepareReply).foldl prepareStep
      { value := none, maxBallotNum := b, promised := 0 }).value = none := by
    rw [hR.none_iff]
    intro r hr _
    rw [List.mem_map] at hr
    obtain ⟨o, ho, rfl⟩ := hr
    rcases mem_arrive _ _ _ ho with h | h
    · rw [h]; rfl
    · rw [List.mem_map] at h
      obtain ⟨x, hx, rfl⟩ := h
      rw [← hres] at hx
      obtain ⟨k, hk⟩ := List.mem_iff_getElem?.mp hx
      rw [fanout_getElem?] at hk
      cases hak : accs[k]? with
      | none => rw [hak] at hk; cases hk
      | some a =>
        rw [hak] at hk
        simp only [Option.map_some', Option.some.injEq] at hk
        rw [← hk]
        have hav := hempty a (List.getElem?_mem hak)
        cases net.links (0 + k) <;> simp only [invokePrepare, prepareReply]
        unfold onPrepare
        split
        · rfl
        · exact hav
  rw [hnone, hR.none_max hnone]

theorem accept_quorum (accs : List Acceptor) (net : Fanout) (b : Int) (v : Option ValueType)
    (g : Nat → Bool) (hperm : net.order.Perm (List.range accs.length))
    (hg : ∀ i, g i = true → ∃ a, accs[i]? = some a ∧ net.links i = Link.up ∧ a.ballotNum ≤ b)
    (hmaj : accs.length / 2 + 1 ≤ (List.range accs.length).countP g) :
    (accept accs net b v).2 = true ∧
    ∀ i, g i = true →
      (accept accs net b v).1[i]? = some { ballotNum := b, vballot := b, value := v } := by
  simp only [accept]
  constructor
  · generalize hres : fanout (fun l a => invokeAccept l a b v) net.links 0 accs = res
    have hlen : (res.map Prod.snd).length = accs.length := by
      rw [List.length_map, ← hres, fanout_length]
    have hperm' : net.order.Perm (List.range (res.map Prod.snd).length) := by
      rw [hlen]; exact hperm
    rw [acceptGather_iff, arrive_length _ _ hperm', hlen, List.countP_map]
    refine le_trans hmaj ?_
    have := arrive_countP_ge ((fun r : Accept => r.OK) ∘ acceptReply) g net.order
      (res.map Prod.snd) hperm' ?_
    · rw [hlen] at this; exact this
    · intro i hi
      obtain ⟨a, ha, hup, hle⟩ := hg i hi
      rw [← hres, fanout_snd_getD, ha, hup]
      have : ¬ a.ballotNum > b := not_lt.mpr hle
      simp [invokeAccept, onAccept, acceptReply, this]
  · intro i hi
    obtain ⟨a, ha, hup, hle⟩ := hg i hi
    rw [fanout_fst_getElem?, ha, hup]
    have : ¬ a.ballotNum > b := not_lt.mpr hle
    simp [invokeAccept, onAccept, this]

theorem prepare_length (accs : List Acceptor) (net : Fanout) (b : Int) :
    (prepare accs net b).1.length = accs.length := by
  simp only [prepare, List.length_map, fanout_length]

/-- C3 (empty register, partition tolerance): in a cluster whose acceptors
have accepted nothing, when a majority of them is served and answers in both
phases and has promised no ballot above the one the round mints, `caspaxos`
returns `(true, 0)` whatever the expected state, the transport to the other
acceptors and the arrival order of the replies; each acceptor of that majority
then holds the payload at state 0, accepted at the minted ballot. -/
theorem caspaxos_empty_register (w : World) (net1 net2 : Fanout) (state val : Int)
    (hord1 : net1.order.Perm (List.range w.acceptors.length))
    (hord2 : net2.order.Perm (List.range w.acceptors.length))
    (hempty : ∀ a ∈ w.acceptors, a.value = none)
    (hmaj : w.acceptors.length / 2 + 1 ≤
      (List.range w.acceptors.length).countP (steady w net1 net2)) :
    (caspaxos w net1 net2 state val).2 = (true, 0) ∧
    ∀ i, steady w net1 net2 i = true →
      (caspaxos w net1 net2 state val).1.acceptors[i]? =
        some { ballotNum := (nextBallotNum w.proposer w.id).2,
               vballot := (nextBallotNum w.proposer w.id).2,
               value := some { Value := val, State := 0 } } := by
  generalize hb : (nextBallotNum w.proposer w.id).2 = b
  have hsteady : ∀ i, steady w net1 net2 i = true →
      ∃ a, w.acceptors[i]? = some a ∧ net1.links i = Link.up ∧ net2.links i = Link.up ∧
        a.ballotNum ≤ b := by
    intro i hi
    unfold steady at hi
    cases ha : w.acceptors[i]? with
    | none => rw [ha] at hi; cases hi
    | some a =>
      rw [ha, hb] at hi
      simp only [Bool.and_eq_true, decide_eq_true_eq] at hi
      exact ⟨a, rfl, hi.1.1, hi.1.2, hi.2⟩
  have hp := prepare_empty w.acceptors net1 b (steady w net1 net2) hord1 hempty
    (fun i hi => by
      obtain ⟨a, ha, h1, _, hle⟩ := hsteady i hi
      exact ⟨a, ha, h1, hle⟩) hmaj
  have hlen := prepare_length w.acceptors net1 b
  have hacc := accept_quorum (prepare w.acceptors net1 b).1 net2 b
    (some { Value := val, State := 0 }) (steady w net1 net2) (by rw [hlen]; exact hord2)
    (fun i hi => by
      obtain ⟨a, ha, h1, h2, hle⟩ := hsteady i hi
      refine ⟨(onPrepare a b).1, ?_, h2, ?_⟩
      · simp only [prepare]
        rw [fanout_fst_getElem?, ha, h1]
        rfl
      · have : ¬ a.ballotNum > b := not_lt.mpr hle
        simp [onPrepare, this]) (by rw [hlen]; exact hmaj)
  have hrun : caspaxos w net1 net2 state val =
      ({ w with proposer := (nextBallotNum w.proposer w.id).1,
                acceptors := (accept (prepare w.acceptors net1 b).1 net2 b
                  (some { Value := val, State := 0 })).1 },
        (accept (prepare w.acceptors net1 b).1 net2 b (some { Value := val, State := 0 })).2,
        0) := by
    simp only [caspaxos, hb, hp, Bool.not_true, Bool.false_eq_true, if_false]
  rw [hrun, hacc.1]
  exact ⟨rfl, hacc.2⟩

/-- The empty-register theorem with five acceptors of which two are unreachable. -/
theorem caspaxos_empty_register_witness :
    (caspaxos World.five Fanout.twoDown Fanout.twoDown 7 11).2 = (true, 0) ∧
    (caspaxos World.five Fanout.twoDown Fanout.twoDown 7 11).1.acceptors[0]? =
      some { ballotNum := 101, vballot := 101, value := some { Value := 11, State := 0 } } :=
  ⟨(caspaxos_empty_register World.five Fanout.twoDown Fanout.twoDown 7 11
      (by decide) (by decide) (by decide) (by decide)).1,
    (caspaxos_empty_register World.five Fanout.twoDown Fanout.twoDown 7 11
      (by decide) (by decide) (by decide) (by decide)).2 0 (by decide)⟩

/-- C1 on the code: with three fresh acceptors, all reachable, and a single
proposer, the first round `caspaxos(-1, 11)` returns `(true, 0)` and every
acceptor holds `{11, 0}` accepted at ballot 101; the next round
`caspaxos(0, 22)` resolves `{11, 0}`, matches the expected state, and returns
`(false, 1)`: the accept requests carry the resolved ballot 101 although every
acceptor has just promised 201, so all refuse and the register keeps `{11, 0}`. -/
theorem caspaxos_second_round_fails :
    (caspaxos World.three (Fanout.allUp 3) (Fanout.allUp 3) (-1) 11).2 = (true, 0) ∧
    World.afterFirst.acceptors =
      List.replicate 3
        { ballotNum := 101, vballot := 101, value := some { Value := 11, State := 0 } } ∧
    (prepare World.afterFirst.acceptors (Fanout.allUp 3) 201).2 =
      (true, 101, some { Value := 11, State := 0 }) ∧
    (caspaxos World.afterFirst (Fanout.allUp 3) (Fanout.allUp 3) 0 22).2 = (false, 1) ∧
    (caspaxos World.afterFirst (Fanout.allUp 3) (Fanout.allUp 3) 0 22).1.acceptors =
      List.replicate 3
        { ballotNum := 201, vballot := 101, value := some { Value := 11, State := 0 } } := by
  decide

/-- The conflict theorem on the cluster left by the first round: a round
expecting state 5 resolves `{11, 0}` and returns `(false, 0)`. -/
theorem caspaxos_conflict_witness :
    (caspaxos World.afterFirst (Fanout.allUp 3) (Fanout.allUp 3) 5 22).2 = (false, 0) ∧
    (caspaxos World.afterFirst (Fanout.allUp 3) (Fanout.allUp 3) 5 22).1.acceptors.map
        (fun a => (a.vballot, a.value)) =
      World.afterFirst.acceptors.map (fun a => (a.vballot, a.value)) :=
  ⟨(caspaxos_conflict World.afterFirst (Fanout.allUp 3) (Fanout.allUp 3) 5 22 101
      { Value := 11, State := 0 } (by decide) (by decide)).1,
    (caspaxos_conflict World.afterFirst (Fanout.allUp 3) (Fanout.allUp 3) 5 22 101
      { Value := 11, State := 0 } (by decide) (by decide)).2.2.2⟩


/-! ## Concurrent rounds: the invariant -/

theorem invokePrepare_ballotNum_le (l : Link) (a : Acceptor) (b : Int) :
    a.ballotNum ≤ (invokePrepare l a b).1.ballotNum := by
  cases l <;> simp only [invokePrepare, onPrepare]
  · split
    · exact le_refl _
    · simp only; omega
  · exact le_refl _
  · split
    · exact le_refl _
    · simp only; omega

theorem invokePrepare_reply (l : Link) (a : Acceptor) (b : Int)
    (h : (prepareReply (invokePrepare l a b).2).OK = true) :
    (invokePrepare l a b).1.ballotNum = b ∧ a.ballotNum ≤ b ∧
    (prepareReply (invokePrepare l a b).2).BallotNum = a.vballot ∧
    (prepareReply (invokePrepare l a b).2).Value = a.value := by
  cases l
  · simp only [invokePrepare, prepareReply, onPrepare] at h ⊢
    split at h
    · cases h
    · rename_i hgt
      rw [if_neg hgt]
      exact ⟨rfl, not_lt.mp hgt, rfl, rfl⟩
  · simp [invokePrepare, prepareReply] at h
  · simp [invokePrepare, prepareReply] at h

theorem invokeAccept_cases (l : Link) (a : Acceptor) (b : Int) (v : Option ValueType) :
    ((invokeAccept l a b v).1 = a ∧ (acceptReply (invokeAccept l a b v).2).OK = false) ∨
    (a.ballotNum ≤ b ∧ (invokeAccept l a b v).1 = { ballotNum := b, vballot := b, value := v }) := by
  by_cases hgt : a.ballotNum > b
  · left
    cases l <;> simp [invokeAccept, acceptReply, onAccept, hgt]
  · cases l
    · right; exact ⟨not_lt.mp hgt, by simp [invokeAccept, onAccept, hgt]⟩
    · left; simp [invokeAccept, acceptReply]
    · right; exact ⟨not_lt.mp hgt, by simp [invokeAccept, onAccept, hgt]⟩

theorem invokeAccept_reply (l : Link) (a : Acceptor) (b : Int) (v : Option ValueType)
    (h : (acceptReply (invokeAccept l a b v).2).OK = true) :
    a.ballotNum ≤ b ∧ (invokeAccept l a b v).1 = { ballotNum := b, vballot := b, value := v } := by
  rcases invokeAccept_cases l a b v with ⟨_, h'⟩ | h'
  · rw [h'] at h; cases h
  · exact h'

theorem length_filterMap_of_forall {α β : Type} (f : α → Option β) (l : List α)
    (h : ∀ a ∈ l, f a ≠ none) : (l.filterMap f).length = l.length := by
  induction l with
  | nil => rfl
  | cons a rest ih =>
    cases hfa : f a with
    | none => exact absurd hfa (h a (List.mem_cons_self _ _))
    | some b =>
      rw [List.filterMap_cons_some hfa, List.length_cons, List.length_cons,
        ih (fun x hx => h x (List.mem_cons_of_mem _ hx))]

theorem countP_add_le {α : Type} (p q : α → Bool) (l : List α) :
    l.countP p + l.countP q ≤ l.length + l.countP (fun a => p a && q a) := by
  induction l with
  | nil => simp
  | cons a rest ih =>
    simp only [List.countP_cons, List.length_cons]
    cases p a <;> cases q a <;> simp <;> omega

theorem quorums_meet (n : Nat) (p q : Nat → Bool)
    (hp : n / 2 + 1 ≤ (List.range n).countP p) (hq : n / 2 + 1 ≤ (List.range n).countP q) :
    ∃ i, i < n ∧ p i = true ∧ q i = true := by
  have h := countP_add_le p q (List.range n)
  rw [List.length_range] at h
  have hpos : 0 < (List.range n).countP (fun a => p a && q a) := by omega
  obtain ⟨i, hi, hpq⟩ := List.countP_pos_iff.mp hpos
  simp only [Bool.and_eq_true] at hpq
  exact ⟨i, List.mem_range.mp hi, hpq.1, hpq.2⟩

theorem inv_init (n : Nat) (ballot state val : Nat → Int) :
    Inv n ballot (System.init n ballot state val) where
  size := rfl
  vballot_le := fun _ => le_refl _
  minted := fun _ _ => rfl
  idle := fun _ _ _ => rfl
  bounded := fun _ _ h => absurd rfl h
  promise_fence := fun _ _ h => by simp [System.init, Round.promisedOK] at h
  accepted_valued := fun _ _ h => by simp [System.init, Round.acceptedOK] at h
  accept_before_promise := fun _ _ _ _ h => by simp [System.init, Round.acceptedOK] at h
  promise_then_accept := fun _ _ h => by simp [System.init, Round.promisedOK] at h
  promise_le := fun _ _ _ h => by simp [System.init] at h
  fresh_acceptor := fun _ _ h => by simp [System.init, Acceptor.fresh] at h
  fresh_accept := fun _ _ _ h => by simp [System.init] at h
  fresh_promise := fun _ _ _ _ h => by simp [System.init] at h
  live_ballot := fun _ h => by simp [System.init, PC.live] at h
  live_promised := fun _ h => by simp [System.init, PC.live] at h
  committed := fun _ _ h => by simp [System.init] at h


theorem countP_arrival {β : Type} (f : Nat → Option β) (p : β → Bool) (order : List Nat)
    (n : Nat) (hperm : order.Perm (List.range n)) :
    (order.filterMap f).countP p = (List.range n).countP (fun i => ((f i).map p).getD false) := by
  rw [List.countP_filterMap, hperm.countP_eq]

theorem length_arrival {β : Type} (f : Nat → Option β) (order : List Nat) (n : Nat)
    (hperm : order.Perm (List.range n)) (hall : ∀ i ∈ List.range n, f i ≠ none) :
    (order.filterMap f).length = n := by
  rw [length_filterMap_of_forall f order (fun i hi => hall i (hperm.mem_iff.mp hi)),
    hperm.length_eq, List.length_range]

theorem afterPrepare_fields (R : Round) (res : Bool × Int × Option ValueType) :
    (afterPrepare R res).promises = R.promises ∧ (afterPrepare R res).accepts = R.accepts ∧
    (afterPrepare R res).ballotNum = res.2.1 ∧ (afterPrepare R res).pc ≠ PC.preparing ∧
    ((afterPrepare R res).pc.live = true → res.1 = true) ∧
    ∀ st, (afterPrepare R res).pc ≠ PC.returned true st := by
  unfold afterPrepare
  cases h1 : res.1
  · simp [PC.live]
  · cases h2 : res.2.2 with
    | none => simp [PC.live]
    | some cur =>
      by_cases h3 : R.state = cur.State <;> simp [PC.live, h3]

theorem inv_prepareCall (n : Nat) (ballot : Nat → Int) (s : System) (hI : Inv n ballot s)
    (r₀ i₀ : Nat) (link : Link) : Inv n ballot (s.prepareCall r₀ i₀ link) := by
  unfold System.prepareCall
  split
  swap
  · exact hI
  rename_i hen
  obtain ⟨hi₀, hpc₀, hnone⟩ := hen
  have hb₀ := hI.minted r₀ hpc₀
  have hle := invokePrepare_ballotNum_le link (s.acceptors i₀) (s.rounds r₀).ballotNum
  have hkeep := invokePrepare_accepted link (s.acceptors i₀) (s.rounds r₀).ballotNum
  have hrep := invokePrepare_reply link (s.acceptors i₀) (s.rounds r₀).ballotNum
  generalize invokePrepare link (s.acceptors i₀) (s.rounds r₀).ballotNum = res at hle hkeep hrep
  have hv₀ := hI.vballot_le i₀
  refine
    { size := hI.size, vballot_le := ?_, minted := ?_, idle := ?_, bounded := ?_,
      promise_fence := ?_, accepted_valued := ?_, accept_before_promise := ?_,
      promise_then_accept := ?_, promise_le := ?_, fresh_acceptor := ?_, fresh_accept := ?_,
      fresh_promise := ?_, live_ballot := ?_, live_promised := ?_, committed := ?_ }
  · intro i
    simp only [Function.update_apply]
    split
    · omega
    · exact hI.vballot_le i
  · intro r
    simp only [Function.update_apply]
    split
    · rename_i h; subst h; exact hI.minted r
    · exact hI.minted r
  · intro r i
    simp only [Function.update_apply]
    split
    · rename_i h; subst h; exact hI.idle r i
    · exact hI.idle r i
  · -- bounded
    intro r i h
    by_cases hr : r = r₀
    · subst hr
      by_cases hi : i = i₀
      · subst hi; rw [← hI.size]; exact hi₀
      · simp only [Function.update_same, Function.update_noteq hi] at h
        exact hI.bounded r i h
    · simp only [Function.update_noteq hr] at h
      exact hI.bounded r i h
  · -- promise_fence
    intro r i h
    by_cases hr : r = r₀
    · subst hr
      by_cases hi : i = i₀
      · subst hi
        simp only [Round.promisedOK, Function.update_same, Option.map_some',
          Option.getD_some] at h ⊢
        rw [(hrep h).1, hb₀]
      · simp only [Round.promisedOK, Function.update_same, Function.update_noteq hi] at h ⊢
        exact hI.promise_fence r i h
    · simp only [Function.update_noteq hr] at h
      have := hI.promise_fence r i h
      by_cases hi : i = i₀
      · subst hi; simp only [Function.update_same]; omega
      · simp only [Function.update_noteq hi]; exact this
  · -- accepted_valued
    intro r i h
    have h' : (s.rounds r).acceptedOK i = true := by
      by_cases hr : r = r₀
      · subst hr; simpa only [Round.acceptedOK, Function.update_same] using h
      · simpa only [Function.update_noteq hr] using h
    have := hI.accepted_valued r i h'
    by_cases hi : i = i₀
    · subst hi; simp only [Function.update_same]; rw [hkeep.2]; exact this
    · simp only [Function.update_noteq hi]; exact this
  · -- accept_before_promise
    intro r₁ r₂ i p h₁ h₂ hok hlt
    have h₁' : (s.rounds r₁).acceptedOK i = true := by
      by_cases hr : r₁ = r₀
      · subst hr; simpa only [Round.acceptedOK, Function.update_same] using h₁
      · simpa only [Function.update_noteq hr] using h₁
    have hlt' : (s.rounds r₁).ballotNum < ballot r₂ := by
      by_cases hr : r₁ = r₀
      · subst hr; simpa only [Function.update_same] using hlt
      · simpa only [Function.update_noteq hr] using hlt
    by_cases hr : r₂ = r₀
    · subst hr
      by_cases hi : i = i₀
      · subst hi
        simp only [Function.update_same, Option.some.injEq] at h₂
        subst h₂
        rw [(hrep hok).2.2.2]
        exact hI.accepted_valued r₁ i h₁'
      · simp only [Function.update_same, Function.update_noteq hi] at h₂
        exact hI.accept_before_promise r₁ r₂ i p h₁' h₂ hok hlt'
    · simp only [Function.update_noteq hr] at h₂
      exact hI.accept_before_promise r₁ r₂ i p h₁' h₂ hok hlt'
  · -- promise_then_accept
    intro r i hp ha
    by_cases hr : r = r₀
    · subst hr
      simp only [Round.acceptedOK, Round.promisedOK, Function.update_same] at hp ha ⊢
      by_cases hi : i = i₀
      · subst hi
        rw [hI.idle r i hpc₀] at ha
        cases ha
      · simp only [Function.update_noteq hi] at hp
        exact hI.promise_then_accept r i hp ha
    · simp only [Function.update_noteq hr] at hp ha ⊢
      exact hI.promise_then_accept r i hp ha
  · -- promise_le
    intro r i p h hok hval
    by_cases hr : r = r₀
    · subst hr
      by_cases hi : i = i₀
      · subst hi
        simp only [Function.update_same, Option.some.injEq] at h
        subst h
        rw [(hrep hok).2.2.1, ← hb₀]
        have := (hrep hok).2.1
        omega
      · simp only [Function.update_same, Function.update_noteq hi] at h
        exact hI.promise_le r i p h hok hval
    · simp only [Function.update_noteq hr] at h
      exact hI.promise_le r i p h hok hval
  · -- fresh_acceptor
    intro i r hval hpc
    have hpc' : (s.rounds r).pc = PC.preparing := by
      by_cases hr : r = r₀
      · subst hr; simpa only [Function.update_same] using hpc
      · simpa only [Function.update_noteq hr] using hpc
    by_cases hi : i = i₀
    · subst hi
      simp only [Function.update_same] at hval ⊢
      rw [hkeep.1]
      rw [hkeep.2] at hval
      exact hI.fresh_acceptor i r hval hpc'
    · simp only [Function.update_noteq hi] at hval ⊢
      exact hI.fresh_acceptor i r hval hpc'
  · -- fresh_accept
    intro r' r next h' hpc
    have hpc' : (s.rounds r).pc = PC.preparing := by
      by_cases hr : r = r₀
      · subst hr; simpa only [Function.update_same] using hpc
      · simpa only [Function.update_noteq hr] using hpc
    by_cases hr' : r' = r₀
    · subst hr'
      simp only [Function.update_same] at h' ⊢
      exact hI.fresh_accept r' r next h' hpc'
    · simp only [Function.update_noteq hr'] at h' ⊢
      exact hI.fresh_accept r' r next h' hpc'
  · -- fresh_promise
    intro r' i p r h hok hval hpc
    have hpc' : (s.rounds r).pc = PC.preparing := by
      by_cases hr : r = r₀
      · subst hr; simpa only [Function.update_same] using hpc
      · simpa only [Function.update_noteq hr] using hpc
    by_cases hr' : r' = r₀
    · subst hr'
      by_cases hi : i = i₀
      · subst hi
        simp only [Function.update_same, Option.some.injEq] at h
        subst h
        rw [(hrep hok).2.2.1]
        rw [(hrep hok).2.2.2] at hval
        exact hI.fresh_acceptor i r hval hpc'
      · simp only [Function.update_same, Function.update_noteq hi] at h
        exact hI.fresh_promise r' i p r h hok hval hpc'
    · simp only [Function.update_noteq hr'] at h
      exact hI.fresh_promise r' i p r h hok hval hpc'
  · -- live_ballot
    intro r hlive
    by_cases hr : r = r₀
    · subst hr
      simp only [Function.update_same, hpc₀, PC.live] at hlive
      cases hlive
    · simp only [Function.update_noteq hr] at hlive ⊢
      exact hI.live_ballot r hlive
  · -- live_promised
    intro r hlive
    by_cases hr : r = r₀
    · subst hr
      simp only [Function.update_same, hpc₀, PC.live] at hlive
      cases hlive
    · simp only [Function.update_noteq hr] at hlive ⊢
      exact hI.live_promised r hlive
  · -- committed
    intro r st h
    by_cases hr : r = r₀
    · subst hr
      simp only [Function.update_same, hpc₀] at h
      cases h
    · simp only [Function.update_noteq hr] at h ⊢
      exact hI.committed r st h

theorem inv_acceptDone (n : Nat) (ballot : Nat → Int) (s : System) (hI : Inv n ballot s)
    (r₀ : Nat) (order : List Nat) : Inv n ballot (s.acceptDone r₀ order) := by
  unfold System.acceptDone
  split
  swap
  · exact hI
  rename_i next hpc₀
  split
  swap
  · exact hI
  rename_i hen
  obtain ⟨hperm, hall⟩ := hen
  rw [hI.size] at hperm hall
  generalize hok : acceptLoop (order.filterMap (s.rounds r₀).accepts) = ok
  have hne : ∀ r, ((Function.update s.rounds r₀
      { s.rounds r₀ with pc := PC.returned ok next.State }) r).pc = PC.preparing →
      r ≠ r₀ ∧ (s.rounds r).pc = PC.preparing := by
    intro r h
    by_cases hr : r = r₀
    · subst hr; simp only [Function.update_same] at h; cases h
    · simp only [Function.update_noteq hr] at h; exact ⟨hr, h⟩
  have hbns : ∀ r, ((Function.update s.rounds r₀
      { s.rounds r₀ with pc := PC.returned ok next.State }) r).ballotNum =
      (s.rounds r).ballotNum := by
    intro r
    by_cases hr : r = r₀
    · subst hr; simp only [Function.update_same]
    · simp only [Function.update_noteq hr]
  have hprs : ∀ r, ((Function.update s.rounds r₀
      { s.rounds r₀ with pc := PC.returned ok next.State }) r).promises =
      (s.rounds r).promises := by
    intro r
    by_cases hr : r = r₀
    · subst hr; simp only [Function.update_same]
    · simp only [Function.update_noteq hr]
  have hacs : ∀ r, ((Function.update s.rounds r₀
      { s.rounds r₀ with pc := PC.returned ok next.State }) r).accepts =
      (s.rounds r).accepts := by
    intro r
    by_cases hr : r = r₀
    · subst hr; simp only [Function.update_same]
    · simp only [Function.update_noteq hr]
  have hpos : ∀ r, ((Function.update s.rounds r₀
      { s.rounds r₀ with pc := PC.returned ok next.State }) r).promisedOK =
      (s.rounds r).promisedOK := by
    intro r; funext i; simp only [Round.promisedOK, hprs]
  have haos : ∀ r, ((Function.update s.rounds r₀
      { s.rounds r₀ with pc := PC.returned ok next.State }) r).acceptedOK =
      (s.rounds r).acceptedOK := by
    intro r; funext i; simp only [Round.acceptedOK, hacs]
  have hlive : ∀ r, ((Function.update s.rounds r₀
      { s.rounds r₀ with pc := PC.returned ok next.State }) r).pc.live = true →
      (s.rounds r).pc.live = true := by
    intro r h
    by_cases hr : r = r₀
    · subst hr; rw [hpc₀]; rfl
    · simpa only [Function.update_noteq hr] using h
  refine
    { size := hI.size, vballot_le := hI.vballot_le, minted := ?_, idle := ?_, bounded := ?_,
      promise_fence := ?_, accepted_valued := ?_, accept_before_promise := ?_,
      promise_then_accept := ?_, promise_le := ?_, fresh_acceptor := ?_, fresh_accept := ?_,
      fresh_promise := ?_, live_ballot := ?_, live_promised := ?_, committed := ?_ }
  · intro r hpc
    rw [hbns]
    exact hI.minted r (hne r hpc).2
  · intro r i hpc
    rw [hacs]
    exact hI.idle r i (hne r hpc).2
  · intro r i h
    rw [hprs] at h
    exact hI.bounded r i h
  · intro r i h
    rw [hpos] at h
    exact hI.promise_fence r i h
  · intro r i h
    rw [haos] at h
    exact hI.accepted_valued r i h
  · intro r₁ r₂ i p h₁ h₂ hk hlt
    rw [haos] at h₁
    rw [hprs] at h₂
    rw [hbns] at hlt
    exact hI.accept_before_promise r₁ r₂ i p h₁ h₂ hk hlt
  · intro r i hp ha
    rw [hpos] at hp
    rw [haos] at ha
    rw [hbns]
    exact hI.promise_then_accept r i hp ha
  · intro r i p h hk hval
    rw [hprs] at h
    exact hI.promise_le r i p h hk hval
  · intro i r hval hpc
    exact hI.fresh_acceptor i r hval (hne r hpc).2
  · intro r' r nx h' hpc
    rw [hbns]
    by_cases hr : r' = r₀
    · subst hr; simp only [Function.update_same] at h'; cases h'
    · simp only [Function.update_noteq hr] at h'
      exact hI.fresh_accept r' r nx h' (hne r hpc).2
  · intro r' i p r h hk hval hpc
    rw [hprs] at h
    exact hI.fresh_promise r' i p r h hk hval (hne r hpc).2
  · intro r hl
    rw [hbns, hprs]
    exact hI.live_ballot r (hlive r hl)
  · intro r hl
    rw [hpos]
    exact hI.live_promised r (hlive r hl)
  · intro r st h
    rw [haos]
    by_cases hr : r = r₀
    · subst hr
      simp only [Function.update_same, PC.returned.injEq] at h
      have hok' : acceptLoop (order.filterMap (s.rounds r).accepts) = true := by
        rw [hok]; exact h.1
      rw [acceptLoop_iff, length_arrival _ _ _ hperm hall,
        countP_arrival _ _ _ _ hperm] at hok'
      exact hok'
    · simp only [Function.update_noteq hr] at h
      exact hI.committed r st h


theorem inv_prepareDone (n : Nat) (ballot : Nat → Int) (hinj : Function.Injective ballot)
    (s : System) (hI : Inv n ballot s) (r₀ : Nat) (order : List Nat) :
    Inv n ballot (s.prepareDone r₀ order) := by
  unfold System.prepareDone
  split
  swap
  · exact hI
  rename_i hen
  obtain ⟨hpc₀, hperm, hall⟩ := hen
  rw [hI.size] at hperm hall
  have hb₀ := hI.minted r₀ hpc₀
  have hlen := length_arrival (s.rounds r₀).promises order n hperm hall
  have hcnt := countP_arrival (s.rounds r₀).promises (fun p => p.OK) order n hperm
  have hmem : ∀ q, q ∈ order.filterMap (s.rounds r₀).promises ↔
      ∃ i, i < n ∧ (s.rounds r₀).promises i = some q := by
    intro q
    rw [List.mem_filterMap]
    constructor
    · rintro ⟨i, hi, hq⟩
      exact ⟨i, List.mem_range.mp (hperm.mem_iff.mp hi), hq⟩
    · rintro ⟨i, hi, hq⟩
      exact ⟨i, hperm.mem_iff.mpr (List.mem_range.mpr hi), hq⟩
  have hR := resolved_foldl (s.rounds r₀).ballotNum (order.filterMap (s.rounds r₀).promises)
  have hmaj := prepareLoop_of_majority (s.rounds r₀).ballotNum
    (order.filterMap (s.rounds r₀).promises)
  have hiff := prepareLoop_ok_iff (s.rounds r₀).ballotNum
    (order.filterMap (s.rounds r₀).promises)
  rw [hlen, hcnt] at hmaj hiff
  generalize prepareLoop (s.rounds r₀).ballotNum (order.filterMap (s.rounds r₀).promises) = res
    at hmaj hiff
  generalize (order.filterMap (s.rounds r₀).promises).foldl prepareStep
    { value := none, maxBallotNum := (s.rounds r₀).ballotNum, promised := 0 } = T at hmaj hR
  obtain ⟨hfp, hfa, hfb, hfpc, hflive, hfret⟩ := afterPrepare_fields (s.rounds r₀) res
  -- the ballot carried into the accept phase
  have hballot : res.1 = true →
      res.2.1 ≤ ballot r₀ ∧
      (res.2.1 = ballot r₀ →
        ∀ i p, (s.rounds r₀).promises i = some p → p.OK = true → p.Value = none) ∧
      (∀ r, r ≠ r₀ → (s.rounds r).pc = PC.preparing → res.2.1 ≠ ballot r) := by
    intro h1
    have hres := hmaj (hiff.mp h1)
    rw [hres]
    simp only
    cases hT : T.value with
    | none =>
      rw [hR.none_max hT, hb₀]
      refine ⟨le_refl _, ?_, ?_⟩
      · intro _ i p hp hk
        have hi := hI.bounded r₀ i (by rw [hp]; simp)
        exact (hR.none_iff.mp hT) p ((hmem p).mpr ⟨i, hi, hp⟩) hk
      · intro r hr _ heq
        exact hr (hinj heq).symm
    | some cur =>
      obtain ⟨q, hq, hqk, hqv, hqb, _⟩ := hR.some_max cur hT
      obtain ⟨j, _, hj⟩ := (hmem q).mp hq
      have hqv' : q.Value ≠ none := by rw [hqv]; simp
      have hle := hI.promise_le r₀ j q hj hqk hqv'
      have hne := hI.fresh_promise r₀ j q r₀ hj hqk hqv' hpc₀
      rw [← hqb]
      refine ⟨hle, fun heq => absurd heq hne, ?_⟩
      intro r _ hpc
      exact hI.fresh_promise r₀ j q r hj hqk hqv' hpc
  generalize hR' : afterPrepare (s.rounds r₀) res = R' at hfp hfa hfb hfpc hflive hfret
  have hne : ∀ r, (Function.update s.rounds r₀ R' r).pc = PC.preparing →
      r ≠ r₀ ∧ (s.rounds r).pc = PC.preparing := by
    intro r h
    by_cases hr : r = r₀
    · subst hr; simp only [Function.update_same] at h; exact absurd h hfpc
    · simp only [Function.update_noteq hr] at h; exact ⟨hr, h⟩
  have hprs : ∀ r, (Function.update s.rounds r₀ R' r).promises = (s.rounds r).promises := by
    intro r
    by_cases hr : r = r₀
    · subst hr; simp only [Function.update_same]; exact hfp
    · simp only [Function.update_noteq hr]
  have hacs : ∀ r, (Function.update s.rounds r₀ R' r).accepts = (s.rounds r).accepts := by
    intro r
    by_cases hr : r = r₀
    · subst hr; simp only [Function.update_same]; exact hfa
    · simp only [Function.update_noteq hr]
  have hpos : ∀ r, (Function.update s.rounds r₀ R' r).promisedOK = (s.rounds r).promisedOK := by
    intro r; funext i; simp only [Round.promisedOK, hprs]
  have haos : ∀ r, (Function.update s.rounds r₀ R' r).acceptedOK = (s.rounds r).acceptedOK := by
    intro r; funext i; simp only [Round.acceptedOK, hacs]
  have hnoacc : ∀ i, (s.rounds r₀).acceptedOK i = true → False := by
    intro i h
    simp [Round.acceptedOK, hI.idle r₀ i hpc₀] at h
  refine
    { size := hI.size, vballot_le := hI.vballot_le, minted := ?_, idle := ?_, bounded := ?_,
      promise_fence := ?_, accepted_valued := ?_, accept_before_promise := ?_,
      promise_then_accept := ?_, promise_le := ?_, fresh_acceptor := ?_, fresh_accept := ?_,
      fresh_promise := ?_, live_ballot := ?_, live_promised := ?_, committed := ?_ }
  · intro r hpc
    obtain ⟨hr, hpc'⟩ := hne r hpc
    simp only [Function.update_noteq hr]
    exact hI.minted r hpc'
  · intro r i hpc
    rw [hacs]
    exact hI.idle r i (hne r hpc).2
  · intro r i h
    rw [hprs] at h
    exact hI.bounded r i h
  · intro r i h
    rw [hpos] at h
    exact hI.promise_fence r i h
  · intro r i h
    rw [haos] at h
    exact hI.accepted_valued r i h
  · intro r₁ r₂ i p h₁ h₂ hk hlt
    rw [haos] at h₁
    rw [hprs] at h₂
    by_cases hr : r₁ = r₀
    · subst hr; exact absurd (hnoacc i h₁) id
    · simp only [Function.update_noteq hr] at hlt
      exact hI.accept_before_promise r₁ r₂ i p h₁ h₂ hk hlt
  · intro r i hp ha
    rw [hpos] at hp
    rw [haos] at ha
    by_cases hr : r = r₀
    · subst hr; exact absurd (hnoacc i ha) id
    · simp only [Function.update_noteq hr]
      exact hI.promise_then_accept r i hp ha
  · intro r i p h hk hval
    rw [hprs] at h
    exact hI.promise_le r i p h hk hval
  · intro i r hval hpc
    exact hI.fresh_acceptor i r hval (hne r hpc).2
  · intro r' r nx h' hpc
    obtain ⟨hr, hpc'⟩ := hne r hpc
    by_cases hr' : r' = r₀
    · subst hr'
      simp only [Function.update_same] at h' ⊢
      rw [hfb]
      exact (hballot (hflive (by rw [h']; rfl))).2.2 r hr hpc'
    · simp only [Function.update_noteq hr'] at h' ⊢
      exact hI.fresh_accept r' r nx h' hpc'
  · intro r' i p r h hk hval hpc
    rw [hprs] at h
    exact hI.fresh_promise r' i p r h hk hval (hne r hpc).2
  · intro r hl
    rw [hprs]
    by_cases hr : r = r₀
    · subst hr
      simp only [Function.update_same] at hl ⊢
      rw [hfb]
      exact ⟨(hballot (hflive hl)).1, (hballot (hflive hl)).2.1⟩
    · simp only [Function.update_noteq hr] at hl ⊢
      exact hI.live_ballot r hl
  · intro r hl
    rw [hpos]
    by_cases hr : r = r₀
    · subst hr
      simp only [Function.update_same] at hl
      exact hiff.mp (hflive hl)
    · simp only [Function.update_noteq hr] at hl
      exact hI.live_promised r hl
  · intro r st h
    rw [haos]
    by_cases hr : r = r₀
    · subst hr
      simp only [Function.update_same] at h
      exact absurd h (hfret st)
    · simp only [Function.update_noteq hr] at h
      exact hI.committed r st h

theorem inv_acceptCall (n : Nat) (ballot : Nat → Int) (s : System) (hI : Inv n ballot s)
    (r₀ i₀ : Nat) (link : Link) : Inv n ballot (s.acceptCall r₀ i₀ link) := by
  unfold System.acceptCall
  split
  swap
  · exact hI
  rename_i next hpc₀
  split
  swap
  · exact hI
  rename_i hen
  obtain ⟨hi₀, hnone⟩ := hen
  have hcases := invokeAccept_cases link (s.acceptors i₀) (s.rounds r₀).ballotNum (some next)
  have hrep := invokeAccept_reply link (s.acceptors i₀) (s.rounds r₀).ballotNum (some next)
  generalize invokeAccept link (s.acceptors i₀) (s.rounds r₀).ballotNum (some next) = res
    at hcases hrep
  have hv₀ := hI.vballot_le i₀
  have hpcs : ∀ r, ((Function.update s.rounds r₀
      { s.rounds r₀ with
        accepts := Function.update (s.rounds r₀).accepts i₀ (some (acceptReply res.2)) }) r).pc =
      (s.rounds r).pc := by
    intro r
    by_cases hr : r = r₀
    · subst hr; simp only [Function.update_same]
    · simp only [Function.update_noteq hr]
  have hbns : ∀ r, ((Function.update s.rounds r₀
      { s.rounds r₀ with
        accepts := Function.update (s.rounds r₀).accepts i₀ (some (acceptReply res.2)) }) r).ballotNum =
      (s.rounds r).ballotNum := by
    intro r
    by_cases hr : r = r₀
    · subst hr; simp only [Function.update_same]
    · simp only [Function.update_noteq hr]
  have hprs : ∀ r, ((Function.update s.rounds r₀
      { s.rounds r₀ with
        accepts := Function.update (s.rounds r₀).accepts i₀ (some (acceptReply res.2)) }) r).promises =
      (s.rounds r).promises := by
    intro r
    by_cases hr : r = r₀
    · subst hr; simp only [Function.update_same]
    · simp only [Function.update_noteq hr]
  have hpos : ∀ r, ((Function.update s.rounds r₀
      { s.rounds r₀ with
        accepts := Function.update (s.rounds r₀).accepts i₀ (some (acceptReply res.2)) }) r).promisedOK =
      (s.rounds r).promisedOK := by
    intro r
    funext i
    simp only [Round.promisedOK, hprs]
  have hble : ∀ i, (s.acceptors i).ballotNum ≤
      (Function.update s.acceptors i₀ res.1 i).ballotNum := by
    intro i
    by_cases hi : i = i₀
    · subst hi
      simp only [Function.update_same]
      rcases hcases with ⟨h, _⟩ | ⟨h, h'⟩
      · rw [h]
      · rw [h']; exact h
    · simp only [Function.update_noteq hi]; exact le_refl _
  refine
    { size := hI.size, vballot_le := ?_, minted := ?_, idle := ?_, bounded := ?_,
      promise_fence := ?_, accepted_valued := ?_, accept_before_promise := ?_,
      promise_then_accept := ?_, promise_le := ?_, fresh_acceptor := ?_, fresh_accept := ?_,
      fresh_promise := ?_, live_ballot := ?_, live_promised := ?_, committed := ?_ }
  · intro i
    by_cases hi : i = i₀
    · subst hi
      simp only [Function.update_same]
      rcases hcases with ⟨h, _⟩ | ⟨_, h'⟩
      · rw [h]; exact hv₀
      · rw [h']
    · simp only [Function.update_noteq hi]; exact hI.vballot_le i
  · intro r hpc
    simp only [hpcs, hbns] at hpc ⊢
    exact hI.minted r hpc
  · intro r i hpc
    simp only [hpcs] at hpc
    by_cases hr : r = r₀
    · subst hr; rw [hpc₀] at hpc; cases hpc
    · simp only [Function.update_noteq hr]; exact hI.idle r i hpc
  · intro r i h
    simp only [hprs] at h
    exact hI.bounded r i h
  · intro r i h
    simp only [hpos] at h
    exact le_trans (hI.promise_fence r i h) (hble i)
  · -- accepted_valued
    intro r i h
    by_cases hi : i = i₀
    · subst hi
      simp only [Function.update_same]
      rcases hcases with ⟨hsame, hno⟩ | ⟨_, h'⟩
      · rw [hsame]
        by_cases hr : r = r₀
        · subst hr
          simp only [Round.acceptedOK, Function.update_same, Option.map_some',
            Option.getD_some] at h
          rw [hno] at h
          cases h
        · simp only [Function.update_noteq hr] at h
          exact hI.accepted_valued r i h
      · rw [h']
        simp
    · simp only [Function.update_noteq hi]
      by_cases hr : r = r₀
      · subst hr
        simp only [Round.acceptedOK, Function.update_same, Function.update_noteq hi] at h
        exact hI.accepted_valued r i h
      · simp only [Function.update_noteq hr] at h
        exact hI.accepted_valued r i h
  · -- accept_before_promise
    intro r₁ r₂ i p h₁ h₂ hok hlt
    simp only [hprs, hbns] at h₂ hlt
    by_cases hr : r₁ = r₀
    · subst hr
      by_cases hi : i = i₀
      · subst hi
        simp only [Round.acceptedOK, Function.update_same, Option.map_some',
          Option.getD_some] at h₁
        have hf := hI.promise_fence r₂ i (by simp [Round.promisedOK, h₂, hok])
        have := (hrep h₁).1
        omega
      · simp only [Round.acceptedOK, Function.update_same, Function.update_noteq hi] at h₁
        exact hI.accept_before_promise r₁ r₂ i p h₁ h₂ hok hlt
    · simp only [Function.update_noteq hr] at h₁
      exact hI.accept_before_promise r₁ r₂ i p h₁ h₂ hok hlt
  · -- promise_then_accept
    intro r i hp ha
    simp only [hpos, hbns] at hp ⊢
    by_cases hr : r = r₀
    · subst hr
      by_cases hi : i = i₀
      · subst hi
        simp only [Round.acceptedOK, Function.update_same, Option.map_some',
          Option.getD_some] at ha
        have hf := hI.promise_fence r i hp
        have := (hrep ha).1
        omega
      · simp only [Round.acceptedOK, Function.update_same, Function.update_noteq hi] at ha
        exact hI.promise_then_accept r i hp ha
    · simp only [Function.update_noteq hr] at ha
      exact hI.promise_then_accept r i hp ha
  · -- promise_le
    intro r i p h hok hval
    simp only [hprs] at h
    exact hI.promise_le r i p h hok hval
  · -- fresh_acceptor
    intro i r hval hpc
    simp only [hpcs] at hpc
    by_cases hi : i = i₀
    · subst hi
      simp only [Function.update_same] at hval ⊢
      rcases hcases with ⟨hsame, _⟩ | ⟨_, h'⟩
      · rw [hsame] at hval ⊢
        exact hI.fresh_acceptor i r hval hpc
      · rw [h']
        exact hI.fresh_accept r₀ r next hpc₀ hpc
    · simp only [Function.update_noteq hi] at hval ⊢
      exact hI.fresh_acceptor i r hval hpc
  · -- fresh_accept
    intro r' r nx h' hpc
    simp only [hpcs, hbns] at h' hpc ⊢
    exact hI.fresh_accept r' r nx h' hpc
  · -- fresh_promise
    intro r' i p r h hok hval hpc
    simp only [hpcs, hprs] at h hpc
    exact hI.fresh_promise r' i p r h hok hval hpc
  · -- live_ballot
    intro r hlive
    simp only [hpcs, hbns, hprs] at hlive ⊢
    exact hI.live_ballot r hlive
  · -- live_promised
    intro r hlive
    simp only [hpcs, hpos] at hlive ⊢
    exact hI.live_promised r hlive
  · -- committed
    intro r st h
    simp only [hpcs] at h
    by_cases hr : r = r₀
    · subst hr; rw [hpc₀] at h; cases h
    · simp only [Function.update_noteq hr]
      exact hI.committed r st h

/-! ## Concurrent rounds: safety -/

theorem inv_step (n : Nat) (ballot : Nat → Int) (hinj : Function.Injective ballot)
    (s : System) (hI : Inv n ballot s) (e : Event) : Inv n ballot (s.step e) := by
  cases e with
  | prepareCall r i link => exact inv_prepareCall n ballot s hI r i link
  | prepareDone r order => exact inv_prepareDone n ballot hinj s hI r order
  | acceptCall r i link => exact inv_acceptCall n ballot s hI r i link
  | acceptDone r order => exact inv_acceptDone n ballot s hI r order

theorem inv_run (n : Nat) (ballot : Nat → Int) (hinj : Function.Injective ballot)
    (events : List Event) (s : System) (hI : Inv n ballot s) : Inv n ballot (s.run events) := by
  induction events generalizing s with
  | nil => exact hI
  | cons e rest ih =>
    simp only [System.run, List.foldl_cons]
    exact ih (s.step e) (inv_step n ballot hinj s hI e)

/-- A round that returned `ok = true` sent its accepts with the ballot it
minted, after a prepare phase in which no promise carried a value. -/
theorem committed_saw_empty (n : Nat) (ballot : Nat → Int) (s : System) (hI : Inv n ballot s)
    (r : Nat) (st : Int) (h : (s.rounds r).pc = PC.returned true st) :
    (s.rounds r).ballotNum = ballot r ∧
    ∀ i p, (s.rounds r).promises i = some p → p.OK = true → p.Value = none := by
  have hl : (s.rounds r).pc.live = true := by rw [h]; rfl
  obtain ⟨i, _, hp, ha⟩ := quorums_meet n _ _ (hI.live_promised r hl) (hI.committed r st h)
  have hge := hI.promise_then_accept r i hp ha
  have hlb := hI.live_ballot r hl
  have heq : (s.rounds r).ballotNum = ballot r := le_antisymm hlb.1 hge
  exact ⟨heq, hlb.2 heq⟩

theorem not_both_committed (n : Nat) (ballot : Nat → Int) (s : System) (hI : Inv n ballot s)
    (r₁ r₂ : Nat) (st₁ st₂ : Int) (h₁ : (s.rounds r₁).pc = PC.returned true st₁)
    (h₂ : (s.rounds r₂).pc = PC.returned true st₂) : ¬ ballot r₁ < ballot r₂ := by
  intro hlt
  have hl₂ : (s.rounds r₂).pc.live = true := by rw [h₂]; rfl
  obtain ⟨i, _, ha, hp⟩ := quorums_meet n _ _ (hI.committed r₁ st₁ h₁) (hI.live_promised r₂ hl₂)
  have hb₁ := (committed_saw_empty n ballot s hI r₁ st₁ h₁).1
  have hnil := (committed_saw_empty n ballot s hI r₂ st₂ h₂).2
  cases hpi : (s.rounds r₂).promises i with
  | none => simp [Round.promisedOK, hpi] at hp
  | some p =>
    have hk : p.OK = true := by simpa [Round.promisedOK, hpi] using hp
    exact hI.accept_before_promise r₁ r₂ i p ha hpi hk (by rw [hb₁]; exact hlt)
      (hnil i p hpi hk)

/-- Of the rounds run against one set of acceptors with pairwise distinct
ballots, at most one returns `ok = true`. -/
theorem at_most_one_commit (n : Nat) (ballot state val : Nat → Int)
    (hinj : Function.Injective ballot) (events : List Event) (r₁ r₂ : Nat) (st₁ st₂ : Int)
    (h₁ : (((System.init n ballot state val).run events).rounds r₁).pc = PC.returned true st₁)
    (h₂ : (((System.init n ballot state val).run events).rounds r₂).pc = PC.returned true st₂) :
    r₁ = r₂ := by
  have hI := inv_run n ballot hinj events _ (inv_init n ballot state val)
  by_contra hne
  have hb : ballot r₁ ≠ ballot r₂ := fun h => hne (hinj h)
  rcases lt_or_gt_of_ne hb with hlt | hgt
  · exact not_both_committed n ballot _ hI r₁ r₂ st₁ st₂ h₁ h₂ hlt
  · exact not_both_committed n ballot _ hI r₂ r₁ st₂ st₁ h₂ h₁ hgt

/-- C9 (safety under interleaving): for every number of acceptors, every
family of rounds with pairwise distinct ballots, and every schedule of their
prepare and accept deliveries and returns, with any deliveries lost and the
replies of a fan-out arriving in any order, two rounds that both return
`ok = true` with the same resulting state are the same round. -/
theorem safety (n : Nat) (ballot state val : Nat → Int) (hinj : Function.Injective ballot)
    (events : List Event) (r₁ r₂ : Nat) (st : Int)
    (h₁ : (((System.init n ballot state val).run events).rounds r₁).pc = PC.returned true st)
    (h₂ : (((System.init n ballot state val).run events).rounds r₂).pc = PC.returned true st) :
    r₁ = r₂ :=
  at_most_one_commit n ballot state val hinj events r₁ r₂ st st h₁ h₂

theorem raceBallot_injective : Function.Injective raceBallot := by
  intro a b h
  simp only [raceBallot] at h
  omega

/-- The safety theorem on `raceSchedule`: round 0 returns `(true, 0)`, round 1,
racing with it for the same expected state, returns `(false, 1)`. -/
theorem safety_witness :
    (((System.init 3 raceBallot (fun _ => 0) (fun r => r)).run raceSchedule).rounds 0).pc =
      PC.returned true 0 ∧
    (((System.init 3 raceBallot (fun _ => 0) (fun r => r)).run raceSchedule).rounds 1).pc =
      PC.returned false 1 ∧
    (0 : Nat) = 0 :=
  ⟨by decide, by decide,
    safety 3 raceBallot (fun _ => 0) (fun r => r) raceBallot_injective raceSchedule 0 0 0
      (by decide) (by decide)⟩

/-! ## Acceptor invariants -/

theorem serve_vballot_le (a : Acceptor) (c : Call) (h : a.vballot ≤ a.ballotNum) :
    (serve a c).vballot ≤ (serve a c).ballotNum ∧ a.vballot ≤ (serve a c).vballot := by
  cases c with
  | prepare b =>
    simp only [serve, onPrepare]
    split
    · exact ⟨h, le_refl _⟩
    · simp only; omega
  | accept b v =>
    simp only [serve, onAccept]
    split
    · exact ⟨h, le_refl _⟩
    · simp only; omega

theorem serveAll_vballot_le (calls : List Call) (a : Acceptor) (h : a.vballot ≤ a.ballotNum) :
    (serveAll a calls).vballot ≤ (serveAll a calls).ballotNum := by
  induction calls generalizing a with
  | nil => exact h
  | cons c cs ih =>
    simp only [serveAll, List.foldl_cons]
    exact ih (serve a c) (serve_vballot_le a c h).1

/-- C11 (acceptor invariant): in every state reached from the fresh acceptor by
a sequence of prepare and accept requests, `vballot ≤ ballotNum`, and serving
one more request decreases neither `ballotNum` nor `vballot`. -/
theorem acceptor_monotone (calls : List Call) (c : Call) :
    (serveAll Acceptor.fresh calls).vballot ≤ (serveAll Acceptor.fresh calls).ballotNum ∧
    (serveAll Acceptor.fresh calls).ballotNum ≤
      (serve (serveAll Acceptor.fresh calls) c).ballotNum ∧
    (serveAll Acceptor.fresh calls).vballot ≤
      (serve (serveAll Acceptor.fresh calls) c).vballot := by
  have h := serveAll_vballot_le calls Acceptor.fresh (le_refl _)
  exact ⟨h, serve_ballotNum_le _ c, (serve_vballot_le _ c h).2⟩

theorem serve_settled (a : Acceptor) (c : Call) (hc : c.regular = true) (h : Settled a) :
    Settled (serve a c) := by
  obtain ⟨h0, hiff⟩ := h
  cases c with
  | prepare b =>
    simp only [serve, onPrepare]
    split
    · exact ⟨h0, hiff⟩
    · rename_i hgt
      exact ⟨by simp only; omega, hiff⟩
  | accept b v =>
    simp only [Call.regular, Bool.and_eq_true, decide_eq_true_eq] at hc
    simp only [serve, onAccept]
    split
    · exact ⟨h0, hiff⟩
    · rename_i hgt
      refine ⟨by simp only; omega, ?_⟩
      simp only [hc.1, true_iff]
      exact hc.2

theorem serveAll_settled (calls : List Call) (a : Acceptor)
    (hc : ∀ c ∈ calls, c.regular = true) (h : Settled a) : Settled (serveAll a calls) := by
  induction calls generalizing a with
  | nil => exact h
  | cons c cs ih =>
    simp only [serveAll, List.foldl_cons]
    exact ih (serve a c) (fun x hx => hc x (List.mem_cons_of_mem _ hx))
      (serve_settled a c (hc c (List.mem_cons_self _ _)) h)

/-- C12, as the code has it: in every state reached from the fresh acceptor by
prepare requests and by accept requests that carry a value and a ballot other
than 0, `value` is non-nil exactly when `vballot` differs from 0. -/
theorem value_iff_vballot (calls : List Call) (hc : ∀ c ∈ calls, c.regular = true) :
    (serveAll Acceptor.fresh calls).value.isSome = true ↔
      (serveAll Acceptor.fresh calls).vballot ≠ 0 :=
  (serveAll_settled calls Acceptor.fresh hc
    ⟨le_refl _, by simp [Acceptor.fresh]⟩).2

/-- The amended C12 after a prepare at 101 and an accept of `{11, 0}` at 101. -/
theorem value_iff_vballot_witness :
    (serveAll Acceptor.fresh
      [Call.prepare 101, Call.accept 101 (some ⟨11, 0⟩)]).value.isSome = true ↔
    (serveAll Acceptor.fresh
      [Call.prepare 101, Call.accept 101 (some ⟨11, 0⟩)]).vballot ≠ 0 :=
  value_iff_vballot [Call.prepare 101, Call.accept 101 (some ⟨11, 0⟩)] (by decide)

/-- C12 fails as stated: an accept request without a value (`"value": null`)
at ballot 5 leaves `vballot = 5` with `value` nil, and an accept of a value at
ballot 0 leaves a value with `vballot = 0`. -/
theorem value_iff_vballot_fails :
    ¬ ((serveAll Acceptor.fresh [Call.accept 5 none]).value.isSome = true ↔
        (serveAll Acceptor.fresh [Call.accept 5 none]).vballot ≠ 0) ∧
    ¬ ((serveAll Acceptor.fresh [Call.accept 0 (some ⟨11, 0⟩)]).value.isSome = true ↔
        (serveAll Acceptor.fresh [Call.accept 0 (some ⟨11, 0⟩)]).vballot ≠ 0) := by
  decide

/-! ## The ballot of the accept requests -/

theorem caspaxos_of_acceptArgs (w : World) (net1 net2 : Fanout) (state val : Int)
    (b : Int) (next : ValueType) (h : acceptArgs w net1 state val = some (b, next)) :
    (caspaxos w net1 net2 state val).2 =
      ((accept (prepare w.acceptors net1 (nextBallotNum w.proposer w.id).2).1 net2 b
        (some next)).2, next.State) := by
  simp only [acceptArgs] at h
  simp only [caspaxos]
  split at h
  · cases h
  · rename_i hok
    rw [if_neg hok]
    split at h
    · rename_i hcur
      simp only [Option.some.injEq, Prod.mk.injEq] at h
      simp only [hcur, h.1, ← h.2]
    · rename_i cur hcur
      split at h
      · rename_i hst
        simp only [Option.some.injEq, Prod.mk.injEq] at h
        simp only [hcur, hst, if_true, h.1, ← h.2]
      · cases h

/-- C17 on the code: in the second round of the C1 scenario the round mints
ballot 201 and sends its prepares with it, resolves `{11, 0}` accepted at 101,
and calls `accept(101, {22, 1})`: the accept requests carry the resolved
ballot, not the minted one. -/
theorem accept_ballot_not_minted :
    (nextBallotNum World.afterFirst.proposer World.afterFirst.id).2 = 201 ∧
    acceptArgs World.afterFirst (Fanout.allUp 3) 0 22 = some (101, { Value := 22, State := 1 }) ∧
    (caspaxos World.afterFirst (Fanout.allUp 3) (Fanout.allUp 3) 0 22).2 = (false, 1) := by
  decide

end CASPaxos

namespace GoofySort

/-! ## `Pdqsort` and `partitionEqual` on concrete inputs -/

/-- C18 on the code: `partitionEqual` leaves its outer loop when `l != r`, that
is while elements are still unclassified, and goes on when `l == r`.  On
`[5, 5]` with pivot 0 it reaches `swap(a, 1, 0)` on the one-element slice
`a[1:]` and panics; on `[1, 2, 1]` it returns `mid = 1` with a 1 left in
`a[1:]`; on `[1, 1, 2]` it returns `mid = 3` with the 2 inside `a[:3]`.  In each
input no element is smaller than the pivot. -/
theorem partitionEqual_misses :
    partitionEqual [5, 5] 0 = Run.outOfRange ∧
    partitionEqual [1, 2, 1] 0 = Run.ok ([1, 2, 1], 1) ∧
    partitionEqual [1, 1, 2] 0 = Run.ok ([1, 2, 1], 3) := by
  decide

/-- C13 on the code: on the 24 elements of `unlucky` `Pdqsort` returns with
`2, 1` at indices 13 and 14, and on those of `unluckier` it panics with an
index out of range; both through `partitionEqual`. -/
theorem pdqsort_not_sorted :
    Pdqsort unlucky =
      Run.ok [0, 0, 0, 1, 1, 1, 1, 1, 1, 1, 1, 1, 1, 2, 1, 2, 2, 2, 2, 2, 2, 2, 2, 2] ∧
    ¬ List.Sorted (fun x y : Int => x ≤ y)
      [0, 0, 0, 1, 1, 1, 1, 1, 1, 1, 1, 1, 1, 2, 1, 2, 2, 2, 2, 2, 2, 2, 2, 2] ∧
    Pdqsort unluckier = Run.outOfRange := by
  refine ⟨by decide, by decide, by decide⟩

/-! ## `InsertionSort` -/

@[simp] theorem bind_ok {α β : Type} (a : α) (f : α → Run β) : (Run.ok a >>= f) = f a := rfl

@[simp] theorem bind_outOfRange {α β : Type} (f : α → Run β) :
    ((Run.outOfRange : Run α) >>= f) = Run.outOfRange := rfl

@[simp] theorem bind_outOfFuel {α β : Type} (f : α → Run β) :
    ((Run.outOfFuel : Run α) >>= f) = Run.outOfFuel := rfl

@[simp] theorem pure_eq_ok {α : Type} (a : α) : (pure a : Run α) = Run.ok a := rfl

theorem get_nat (a : List Int) (i : Nat) (x : Int) (h : a[i]? = some x) :
    get a (i : Int) = Run.ok x := by
  have h0 : ¬ ((i : Int) < 0) := by omega
  simp only [get, h0, if_false, Int.toNat_ofNat, h]

theorem get_pred (a : List Int) (i : Nat) (x : Int) (h : a[i]? = some x) :
    get a (((i + 1 : Nat) : Int) - 1) = Run.ok x := by
  have : (((i + 1 : Nat) : Int) - 1) = (i : Int) := by omega
  rw [this]
  exact get_nat a i x h

theorem swap_nat (a : List Int) (i j : Nat) (x y : Int) (hi : a[i]? = some x)
    (hj : a[j]? = some y) : swap a (i : Int) (j : Int) = Run.ok ((a.set i y).set j x) := by
  simp only [swap, get_nat a i x hi, get_nat a j y hj, bind_ok, pure_eq_ok, Int.toNat_ofNat]

theorem swap_adjacent (P R : List Int) (x y : Int) :
    swap (P ++ y :: x :: R) ((P.length + 1 : Nat) : Int) (((P.length + 1 : Nat) : Int) - 1) =
      Run.ok (P ++ x :: y :: R) := by
  have : (((P.length + 1 : Nat) : Int) - 1) = ((P.length : Nat) : Int) := by omega
  have hx : (P ++ y :: x :: R)[P.length + 1]? = some x := by
    rw [List.getElem?_append_right (by omega)]
    simp
  have hy : (P ++ y :: x :: R)[P.length]? = some y := by
    rw [List.getElem?_append_right (by omega)]
    simp
  rw [this, swap_nat _ _ _ x y hx hy]
  simp

theorem shiftForward_spec (P : List Int) (x y : Int) (R : List Int) (hxy : x < y) :
    ∃ P₁ P₂, P = P₁ ++ P₂ ∧ (∀ q ∈ P₂, x < q) ∧ (∀ z ∈ P₁.getLast?, z ≤ x) ∧
      shiftForward (P ++ y :: x :: R) (P.length + 1) = Run.ok (P₁ ++ x :: (P₂ ++ y :: R)) := by
  induction P using List.reverseRecOn generalizing y R with
  | nil =>
    refine ⟨[], [], rfl, by simp, by simp, ?_⟩
    have := swap_adjacent [] R x y
    simp only [List.nil_append, List.length_nil] at this ⊢
    simp only [shiftForward, this, bind_ok, if_true, pure_eq_ok]
  | append_singleton P' z ih =>
    have hsw := swap_adjacent (P' ++ [z]) R x y
    rw [shiftForward, hsw]
    simp only [bind_ok]
    have hlen : (P' ++ [z]).length = P'.length + 1 := by simp
    rw [if_neg (by rw [hlen]; omega)]
    have hx : (P' ++ [z] ++ x :: y :: R)[(P' ++ [z]).length]? = some x := by
      rw [List.getElem?_append_right (by omega)]
      simp
    have hz : (P' ++ [z] ++ x :: y :: R)[P'.length]? = some z := by
      rw [List.append_assoc, List.getElem?_append_right (by omega)]
      simp
    rw [get_nat _ _ x hx]
    simp only [bind_ok]
    have hcast : (((P' ++ [z]).length : Nat) : Int) - 1 = ((P'.length : Nat) : Int) := by
      rw [hlen]; omega
    rw [hcast, get_nat _ _ z hz]
    simp only [bind_ok]
    by_cases hge : x ≥ z
    · rw [if_pos hge]
      refine ⟨P' ++ [z], [], by simp, by simp, ?_, by simp⟩
      intro w hw
      simp at hw
      omega
    · rw [if_neg hge]
      have hlt : x < z := by omega
      obtain ⟨P₁, P₂, hP, h2, h1, hrun⟩ := ih z (y :: R) hlt
      refine ⟨P₁, P₂ ++ [z], by rw [hP]; simp, ?_, h1, ?_⟩
      · intro q hq
        rcases List.mem_append.mp hq with hq | hq
        · exact h2 q hq
        · simp only [List.mem_singleton] at hq; omega
      · rw [hlen]
        have : P' ++ [z] ++ x :: y :: R = P' ++ z :: x :: y :: R := by simp
        rw [this, hrun]
        simp

theorem le_getLast_of_pairwise (l : List Int) (h : l.Pairwise (fun a b => a ≤ b)) :
    ∀ z ∈ l.getLast?, ∀ a ∈ l, a ≤ z := by
  induction l using List.reverseRecOn with
  | nil => simp
  | append_singleton l' w _ =>
    intro z hz a ha
    simp at hz
    subst hz
    rw [List.pairwise_append] at h
    rcases List.mem_append.mp ha with ha | ha
    · exact h.2.2 a ha w (by simp)
    · simp only [List.mem_singleton] at ha
      omega

theorem pairwise_insert (P₁ P₂ : List Int) (x y : Int)
    (h : (P₁ ++ P₂ ++ [y]).Pairwise (fun a b => a ≤ b)) (hxy : x < y)
    (h2 : ∀ q ∈ P₂, x < q) (h1 : ∀ z ∈ P₁.getLast?, z ≤ x) :
    (P₁ ++ x :: (P₂ ++ [y])).Pairwise (fun a b => a ≤ b) := by
  rw [List.append_assoc, List.pairwise_append] at h
  obtain ⟨hP₁, hrest, hcross⟩ := h
  rw [List.pairwise_append]
  refine ⟨hP₁, ?_, ?_⟩
  · rw [List.pairwise_cons]
    refine ⟨?_, hrest⟩
    intro b hb
    rcases List.mem_append.mp hb with hb | hb
    · exact le_of_lt (h2 b hb)
    · simp only [List.mem_singleton] at hb
      omega
  · intro a ha b hb
    have hax : a ≤ x := by
      cases hl : P₁.getLast? with
      | none =>
        rw [List.getLast?_eq_none_iff] at hl
        rw [hl] at ha
        cases ha
      | some z =>
        have := le_getLast_of_pairwise P₁ hP₁ z (by simp [hl]) a ha
        have := h1 z (by simp [hl])
        omega
    rcases List.mem_cons.mp hb with hb | hb
    · omega
    · exact hcross a ha b hb

theorem insertionLoop_spec (R : List Int) (S : List Int) (hS : S ≠ [])
    (hsorted : S.Pairwise (fun a b => a ≤ b)) :
    ∃ b, insertionLoop (S ++ R) S.length R.length = Run.ok b ∧
      b.Pairwise (fun x y => x ≤ y) ∧ b.Perm (S ++ R) := by
  induction R generalizing S with
  | nil =>
    exact ⟨S, by simp [insertionLoop], hsorted, by simp⟩
  | cons x R' ih =>
    obtain ⟨P, y, rfl⟩ : ∃ P y, S = P ++ [y] := by
      induction S using List.reverseRecOn with
      | nil => exact absurd rfl hS
      | append_singleton P y _ => exact ⟨P, y, rfl⟩
    have hlen : (P ++ [y]).length = P.length + 1 := by simp
    have hrepr : P ++ [y] ++ x :: R' = P ++ y :: x :: R' := by simp
    have hx : (P ++ y :: x :: R')[P.length + 1]? = some x := by
      rw [List.getElem?_append_right (by omega)]
      simp
    have hy : (P ++ y :: x :: R')[P.length]? = some y := by
      rw [List.getElem?_append_right (by omega)]
      simp
    simp only [List.length_cons, insertionLoop]
    rw [hlen, hrepr, insertionStep, get_nat _ _ x hx]
    simp only [bind_ok]
    rw [get_pred _ _ y hy]
    simp only [bind_ok]
    by_cases hxy : x < y
    · rw [if_pos hxy]
      obtain ⟨P₁, P₂, hP, h2, h1, hrun⟩ := shiftForward_spec P x y R' hxy
      rw [hrun]
      simp only [bind_ok]
      have hS' : (P₁ ++ x :: (P₂ ++ [y])).Pairwise (fun a b => a ≤ b) := by
        apply pairwise_insert P₁ P₂ x y _ hxy h2 h1
        rw [← hP]; exact hsorted
      obtain ⟨b, hb, hbs, hbp⟩ := ih (P₁ ++ x :: (P₂ ++ [y])) (by simp) hS'
      have hl' : (P₁ ++ x :: (P₂ ++ [y])).length = P.length + 1 + 1 := by
        rw [hP]; simp; omega
      have hr' : P₁ ++ x :: (P₂ ++ [y]) ++ R' = P₁ ++ x :: (P₂ ++ y :: R') := by simp
      rw [hl', hr'] at hb
      refine ⟨b, hb, hbs, hbp.trans ?_⟩
      rw [hr', hP]
      simp only [List.append_assoc]
      apply List.Perm.append_left
      have : (x :: (P₂ ++ y :: R')).Perm (P₂ ++ x :: (y :: R')) := List.perm_middle.symm
      refine this.trans ?_
      apply List.Perm.append_left
      exact List.Perm.swap y x R'
    · rw [if_neg hxy]
      simp only [pure_eq_ok, bind_ok]
      have hS' : (P ++ [y] ++ [x]).Pairwise (fun a b => a ≤ b) := by
        rw [List.pairwise_append]
        refine ⟨hsorted, by simp, ?_⟩
        intro a ha b hb
        simp only [List.mem_singleton] at hb
        subst hb
        have := le_getLast_of_pairwise (P ++ [y]) hsorted y (by simp) a ha
        omega
      obtain ⟨b, hb, hbs, hbp⟩ := ih (P ++ [y] ++ [x]) (by simp) hS'
      have hl' : (P ++ [y] ++ [x]).length = P.length + 1 + 1 := by simp
      have hr' : P ++ [y] ++ [x] ++ R' = P ++ y :: x :: R' := by simp
      rw [hl', hr'] at hb
      refine ⟨b, hb, hbs, ?_⟩
      rw [← hr']
      exact hbp

theorem insertionSort_spec (a : List Int) :
    ∃ b, InsertionSort a = Run.ok b ∧ b.Pairwise (fun x y => x ≤ y) ∧ b.Perm a := by
  cases a with
  | nil => exact ⟨[], rfl, List.Pairwise.nil, List.Perm.refl _⟩
  | cons s R =>
    have := insertionLoop_spec R [s] (by simp) (by simp)
    simpa [InsertionSort] using this

/-- C16: for every slice of ints `InsertionSort` returns, without indexing
outside the slice, and leaves the slice sorted in non-decreasing order, with
the same elements. -/
theorem insertionSort_sorted (a : List Int) :
    ∃ b, InsertionSort a = Run.ok b ∧ List.Sorted (fun x y : Int => x ≤ y) b ∧ b.Perm a :=
  insertionSort_spec a

/-! ## `ShellSort` -/

theorem set_perm (t : List Int) (j : Nat) (y h : Int) (hj : t[j]? = some y) :
    (y :: t.set j h).Perm (h :: t) := by
  induction t generalizing j with
  | nil => simp at hj
  | cons z t' ih =>
    cases j with
    | zero =>
      simp only [List.getElem?_cons_zero, Option.some.injEq] at hj
      subst hj
      exact List.Perm.swap h z t'
    | succ j =>
      simp only [List.getElem?_cons_succ] at hj
      simp only [List.set_cons_succ]
      exact (List.Perm.swap z y _).trans (((ih j hj).cons z).trans (List.Perm.swap h z t'))

theorem swap_perm (a : List Int) (i j : Nat) (x y : Int) (hi : a[i]? = some x)
    (hj : a[j]? = some y) : ((a.set i y).set j x).Perm a := by
  induction a generalizing i j with
  | nil => simp at hi
  | cons h t ih =>
    cases i with
    | zero =>
      simp only [List.getElem?_cons_zero, Option.some.injEq] at hi
      subst hi
      cases j with
      | zero =>
        simp only [List.getElem?_cons_zero, Option.some.injEq] at hj
        subst hj
        simp
      | succ j =>
        simp only [List.getElem?_cons_succ] at hj
        simp only [List.set_cons_zero, List.set_cons_succ]
        exact set_perm t j y h hj
    | succ i =>
      simp only [List.getElem?_cons_succ] at hi
      cases j with
      | zero =>
        simp only [List.getElem?_cons_zero, Option.some.injEq] at hj
        subst hj
        simp only [List.set_cons_zero, List.set_cons_succ]
        exact set_perm t i x h hi
      | succ j =>
        simp only [List.getElem?_cons_succ] at hj
        simp only [List.set_cons_succ]
        exact (ih i j hi hj).cons h

theorem swap_ok (a : List Int) (i j : Nat) (hi : i < a.length) (hj : j < a.length) :
    ∃ b, swap a (i : Int) (j : Int) = Run.ok b ∧ b.Perm a := by
  have hi' : a[i]? = some a[i] := List.getElem?_eq_getElem hi
  have hj' : a[j]? = some a[j] := List.getElem?_eq_getElem hj
  exact ⟨_, swap_nat a i j _ _ hi' hj', swap_perm a i j _ _ hi' hj'⟩

theorem get_cases (a : List Int) (i : Int) :
    (∃ x, get a i = Run.ok x) ∨ get a i = Run.outOfRange := by
  unfold get
  split
  · right; rfl
  · split
    · left; exact ⟨_, rfl⟩
    · right; rfl

theorem swap_neg (a : List Int) (i : Int) : swap a i (-1) = Run.outOfRange := by
  have h2 : get a (-1) = Run.outOfRange := by simp [get]
  simp only [swap]
  rcases get_cases a i with ⟨x, hx⟩ | hx
  · rw [hx, h2]; rfl
  · rw [hx]; rfl

theorem shiftForwardStep_one (j : Nat) : ∀ (fuel : Nat) (a : List Int), j < fuel →
    shiftForwardStep fuel a (j : Int) 1 = shiftForward a j := by
  induction j with
  | zero =>
    intro fuel a hf
    obtain ⟨f, rfl⟩ : ∃ f, fuel = f + 1 := ⟨fuel - 1, by omega⟩
    have h0 : ((0 : Nat) : Int) - 1 = -1 := by omega
    simp only [shiftForwardStep, shiftForward, h0]
    have := swap_neg a ((0 : Nat) : Int)
    rw [this]
    simp only [bind_outOfRange]
    exact (swap_neg a 0).symm
  | succ j ih =>
    intro fuel a hf
    obtain ⟨f, rfl⟩ : ∃ f, fuel = f + 1 := ⟨fuel - 1, by omega⟩
    simp only [shiftForwardStep, shiftForward]
    congr 1
    funext a'
    have hc : ((j + 1 : Nat) : Int) - 1 = (j : Int) := by omega
    rw [hc]
    by_cases hj : j = 0
    · subst hj
      simp
    · have hlt : ¬ ((j : Int) < 1) := by omega
      rw [if_neg hlt, if_neg hj, ih f _ (by omega)]

theorem shellStep_one (a : List Int) (i : Nat) : shellStep 1 a i = insertionStep a i := by
  simp only [shellStep, insertionStep, Nat.cast_one]
  rw [shiftForwardStep_one i (i + 1) a (by omega)]

theorem shellLoop_one (k : Nat) : ∀ (a : List Int) (i : Nat),
    shellLoop 1 a i k = insertionLoop a i k := by
  induction k with
  | zero => intro a i; rfl
  | succ k ih =>
    intro a i
    simp only [shellLoop, insertionLoop, shellStep_one]
    congr 1
    funext a'
    exact ih a' (i + 1)

theorem shiftForwardStep_ok (h : Nat) (hh : 1 ≤ h) : ∀ (fuel : Nat) (a : List Int) (j : Nat),
    h ≤ j → j < a.length → j < fuel →
    ∃ b, shiftForwardStep fuel a (j : Int) (h : Int) = Run.ok b ∧ b.Perm a := by
  intro fuel
  induction fuel with
  | zero => intro a j _ _ hf; omega
  | succ f ih =>
    intro a j hj hlen hf
    have hc : (j : Int) - (h : Int) = ((j - h : Nat) : Int) := by omega
    obtain ⟨a₁, hsw, hp⟩ := swap_ok a j (j - h) hlen (by omega)
    simp only [shiftForwardStep]
    rw [hc, hsw]
    simp only [bind_ok]
    by_cases hlt : ((j - h : Nat) : Int) < (h : Int)
    · rw [if_pos hlt]
      exact ⟨a₁, rfl, hp⟩
    · rw [if_neg hlt]
      have hl₁ : a₁.length = a.length := hp.length_eq
      have hjh : j - h < a₁.length := by omega
      have hc2 : ((j - h : Nat) : Int) - (h : Int) = ((j - h - h : Nat) : Int) := by omega
      rw [get_nat a₁ (j - h) _ (List.getElem?_eq_getElem hjh), hc2,
        get_nat a₁ (j - h - h) _ (List.getElem?_eq_getElem (by omega))]
      simp only [bind_ok]
      split
      · exact ⟨a₁, rfl, hp⟩
      · obtain ⟨b, hb, hbp⟩ := ih a₁ (j - h) (by omega) hjh (by omega)
        exact ⟨b, hb, hbp.trans hp⟩

theorem shellLoop_ok (h : Nat) (hh : 1 ≤ h) (k : Nat) : ∀ (a : List Int) (i : Nat),
    h ≤ i → i + k ≤ a.length →
    ∃ b, shellLoop h a i k = Run.ok b ∧ b.Perm a := by
  induction k with
  | zero => intro a i _ _; exact ⟨a, rfl, List.Perm.refl _⟩
  | succ k ih =>
    intro a i hi hlen
    have hil : i < a.length := by omega
    have hc : (i : Int) - (h : Int) = ((i - h : Nat) : Int) := by omega
    simp only [shellLoop, shellStep]
    rw [get_nat a i _ (List.getElem?_eq_getElem hil), hc,
      get_nat a (i - h) _ (List.getElem?_eq_getElem (by omega))]
    simp only [bind_ok]
    split
    · obtain ⟨a₁, h₁, hp₁⟩ := shiftForwardStep_ok h hh (i + 1) a i hi hil (by omega)
      rw [h₁]
      simp only [bind_ok]
      obtain ⟨b, hb, hbp⟩ := ih a₁ (i + 1) (by omega) (by rw [hp₁.length_eq]; omega)
      exact ⟨b, hb, hbp.trans hp₁⟩
    · simp only [pure_eq_ok, bind_ok]
      exact ih a (i + 1) (by omega) (by omega)

theorem shellPasses_spec (h : Nat) (hg : Gap h) : ∀ (fuel : Nat) (a : List Int), h < fuel →
    ∃ b, shellPasses fuel a h = Run.ok b ∧ b.Pairwise (fun x y => x ≤ y) ∧ b.Perm a := by
  induction hg with
  | one =>
    intro fuel a hf
    obtain ⟨f, rfl⟩ : ∃ f, fuel = f + 2 := ⟨fuel - 2, by omega⟩
    obtain ⟨b, hb, hs, hp⟩ := insertionSort_spec a
    simp only [shellPasses, ge_iff_le, le_refl, if_true, shellLoop_one]
    rw [InsertionSort] at hb
    rw [hb]
    simp only [bind_ok, Nat.reduceDiv, Nat.le_zero_eq, one_ne_zero, if_false, pure_eq_ok]
    exact ⟨b, rfl, hs, hp⟩
  | next h' _ ih =>
    intro fuel a hf
    obtain ⟨f, rfl⟩ : ∃ f, fuel = f + 1 := ⟨fuel - 1, by omega⟩
    have hdiv : (h' * 3 + 1) / 3 = h' := by omega
    simp only [shellPasses]
    rw [if_pos (by omega), hdiv]
    by_cases hle : h' * 3 + 1 ≤ a.length
    · obtain ⟨a₁, h₁, hp₁⟩ := shellLoop_ok (h' * 3 + 1) (by omega) (a.length - (h' * 3 + 1)) a
        (h' * 3 + 1) (le_refl _) (by omega)
      rw [h₁]
      simp only [bind_ok]
      obtain ⟨b, hb, hs, hp⟩ := ih f a₁ (by omega)
      exact ⟨b, hb, hs, hp.trans hp₁⟩
    · have hz : a.length - (h' * 3 + 1) = 0 := by omega
      rw [hz]
      simp only [shellLoop, pure_eq_ok, bind_ok]
      exact ih f a (by omega)

theorem shellGap_spec (len : Nat) : ∀ (fuel h : Nat), Gap h → len / 3 < h + fuel → 0 < fuel →
    ∃ g, shellGap len fuel h = Run.ok g ∧ Gap g := by
  intro fuel
  induction fuel with
  | zero => intro h _ _ hf; omega
  | succ f ih =>
    intro h hg hlen _
    simp only [shellGap]
    split
    · exact ih (h * 3 + 1) (Gap.next h hg) (by omega) (by omega)
    · exact ⟨h, rfl, hg⟩

/-- C15: for every slice of ints `ShellSort` returns, without indexing outside
the slice, and leaves the slice sorted in non-decreasing order, with the same
elements; the first gap is one of 1, 4, 13, ..., so that dividing by 3 ends
with a pass at gap 1. -/
theorem shellSort_sorted (a : List Int) :
    (∃ g, shellGap a.length (a.length + 1) 1 = Run.ok g ∧ Gap g) ∧
    ∃ b, ShellSort a = Run.ok b ∧ List.Sorted (fun x y : Int => x ≤ y) b ∧ b.Perm a := by
  obtain ⟨g, hg, hgap⟩ := shellGap_spec a.length (a.length + 1) 1 Gap.one (by omega) (by omega)
  obtain ⟨b, hb, hs, hp⟩ := shellPasses_spec g hgap (g + 1) a (by omega)
  refine ⟨⟨g, hg, hgap⟩, b, ?_, hs, hp⟩
  simp only [ShellSort, hg, bind_ok, hb]

/-! ## `HeapSort` -/

theorem getElem?_swapped (a : List Int) (i m : Nat) (x y : Int) (hi : i < a.length)
    (hm : m < a.length) (t : Nat) :
    ((a.set i y).set m x)[t]? = if m = t then some x else if i = t then some y else a[t]? := by
  rw [List.getElem?_set, List.getElem?_set, List.length_set]
  simp only [hi, hm, if_true]

theorem siftDownLoop_spec (k : Nat) : ∀ (fuel : Nat) (a : List Int) (i : Nat),
    k ≤ i → i ≤ a.length → a.length + 1 ≤ fuel + i → HeapBut a k i →
    ∃ b, siftDownLoop fuel a i = Run.ok b ∧ b.Perm a ∧ HeapFrom b k := by
  intro fuel
  induction fuel with
  | zero => intro a i _ hi hf _; omega
  | succ f ih =>
    intro a i hki hil hf hbut
    simp only [siftDownLoop]
    by_cases hin : i < a.length / 2
    swap
    · rw [if_neg hin]
      refine ⟨a, rfl, List.Perm.refl _, ?_⟩
      intro j x y hj hk hx hy
      by_cases hq : (j - 1) / 2 = i
      · have : a.length ≤ j := by omega
        rw [List.getElem?_eq_none this] at hx
        cases hx
      · exact hbut.1 j x y hj hk hq hx hy
    rw [if_pos hin]
    have hleft : 2 * i + 1 < a.length := by omega
    have hi' : i < a.length := by omega
    have hcont : ∀ m, (m = 2 * i + 1 ∨ m = 2 * i + 2) → m < a.length →
        (∀ x z, a[2 * i + 1]? = some x → a[m]? = some z → x ≤ z) →
        (∀ x z, a[2 * i + 2]? = some x → a[m]? = some z → x ≤ z) →
        ∃ b, (if m ≥ a.length then (pure a : Run (List Int))
            else do
              let x ← get a (i : Int)
              let y ← get a (m : Int)
              if x ≥ y then pure a
              else do
                let a ← swap a (i : Int) (m : Int)
                siftDownLoop f a m) = Run.ok b ∧ b.Perm a ∧ HeapFrom b k := by
      intro m hm hmlt hleftle hrightle
      rw [if_neg (by omega), get_nat a i _ (List.getElem?_eq_getElem hi'),
        get_nat a m _ (List.getElem?_eq_getElem hmlt)]
      simp only [bind_ok]
      have hai : a[i]? = some a[i] := List.getElem?_eq_getElem hi'
      have ham : a[m]? = some a[m] := List.getElem?_eq_getElem hmlt
      by_cases hge : a[i] ≥ a[m]
      · rw [if_pos hge]
        refine ⟨a, rfl, List.Perm.refl _, ?_⟩
        intro j x y hj hk hx hy
        by_cases hq : (j - 1) / 2 = i
        · rw [hq, hai] at hy
          simp only [Option.some.injEq] at hy
          have hjc : j = 2 * i + 1 ∨ j = 2 * i + 2 := by omega
          rcases hjc with hjc | hjc
          · subst hjc
            have := hleftle x a[m] hx ham
            omega
          · subst hjc
            have := hrightle x a[m] hx ham
            omega
        · exact hbut.1 j x y hj hk hq hx hy
      · rw [if_neg hge]
        have hlt : a[i] < a[m] := by omega
        rw [swap_nat a i m _ _ hai ham]
        simp only [bind_ok]
        have hp := swap_perm a i m _ _ hai ham
        have hget := getElem?_swapped a i m a[i] a[m] hi' hmlt
        have him : i ≠ m := by omega
        obtain ⟨b, hb, hbp, hbh⟩ := ih ((a.set i a[m]).set m a[i]) m (by omega)
          (by rw [hp.length_eq]; omega) (by rw [hp.length_eq]; omega) (by
            constructor
            · intro j x y hj hk hq hx hy
              rw [hget] at hx hy
              by_cases hqi : (j - 1) / 2 = i
              · rw [if_neg (by omega), if_pos hqi.symm] at hy
                simp only [Option.some.injEq] at hy
                by_cases hjm : m = j
                · rw [if_pos hjm] at hx
                  simp only [Option.some.injEq] at hx
                  omega
                · rw [if_neg hjm, if_neg (by omega)] at hx
                  have hjc : j = 2 * i + 1 ∨ j = 2 * i + 2 := by omega
                  rcases hjc with hjc | hjc
                  · subst hjc
                    have := hleftle x a[m] hx ham
                    omega
                  · subst hjc
                    have := hrightle x a[m] hx ham
                    omega
              · rw [if_neg (by omega), if_neg (by omega)] at hy
                have hjm : ¬ m = j := by omega
                rw [if_neg hjm] at hx
                by_cases hji : i = j
                · rw [if_pos hji] at hx
                  simp only [Option.some.injEq] at hx
                  subst hji
                  have := hbut.2 hj hk m a[m] y (by omega) (by omega) ham hy
                  omega
                · rw [if_neg hji] at hx
                  exact hbut.1 j x y hj hk hqi hx hy
            · intro _ _ c x y hc hcm hx hy
              rw [hget] at hx hy
              have hmi : (m - 1) / 2 = i := by omega
              rw [hmi, if_neg (by omega), if_pos rfl] at hy
              simp only [Option.some.injEq] at hy
              rw [if_neg (by omega), if_neg (by omega)] at hx
              have := hbut.1 c x a[m] hc (by omega) (by omega) hx (by rw [hcm]; exact ham)
              omega)
        exact ⟨b, hb, hbp.trans hp, hbh⟩
    by_cases hr : 2 * i + 2 < a.length
    · rw [if_pos hr, get_nat a _ _ (List.getElem?_eq_getElem hleft),
        get_nat a _ _ (List.getElem?_eq_getElem hr)]
      simp only [bind_ok, pure_eq_ok]
      by_cases hlt : a[2 * i + 1] < a[2 * i + 2]
      · rw [if_pos hlt]
        apply hcont (2 * i + 2) (Or.inr rfl) hr
        · intro x z hx hz
          rw [List.getElem?_eq_getElem hleft] at hx
          rw [List.getElem?_eq_getElem hr] at hz
          simp only [Option.some.injEq] at hx hz
          omega
        · intro x z hx hz
          rw [hx] at hz
          simp only [Option.some.injEq] at hz
          omega
      · rw [if_neg hlt]
        apply hcont (2 * i + 1) (Or.inl rfl) hleft
        · intro x z hx hz
          rw [hx] at hz
          simp only [Option.some.injEq] at hz
          omega
        · intro x z hx hz
          rw [List.getElem?_eq_getElem hleft] at hz
          rw [List.getElem?_eq_getElem hr] at hx
          simp only [Option.some.injEq] at hx hz
          omega
    · rw [if_neg hr]
      simp only [bind_ok, pure_eq_ok]
      apply hcont (2 * i + 1) (Or.inl rfl) hleft
      · intro x z hx hz
        rw [hx] at hz
        simp only [Option.some.injEq] at hz
        omega
      · intro x _ hx _
        rw [List.getElem?_eq_none (by omega)] at hx
        cases hx

theorem siftDown_spec (k : Nat) (a : List Int) (i : Nat) (hki : k ≤ i) (hil : i ≤ a.length)
    (hbut : HeapBut a k i) : ∃ b, siftDown a i = Run.ok b ∧ b.Perm a ∧ HeapFrom b k :=
  siftDownLoop_spec k (a.length + 1) a i hki hil (by omega) hbut

theorem heapify_spec (k : Nat) : ∀ (a : List Int), k ≤ a.length → HeapFrom a k →
    ∃ b, heapify a k = Run.ok b ∧ b.Perm a ∧ HeapFrom b 0 := by
  induction k with
  | zero => intro a _ h; exact ⟨a, rfl, List.Perm.refl _, h⟩
  | succ k ih =>
    intro a hk h
    have hbut : HeapBut a k k := by
      constructor
      · intro j x y hj hkj hne hx hy
        exact h j x y hj (by omega) hx hy
      · intro h0 hle
        omega
    obtain ⟨a₁, h₁, hp₁, hh₁⟩ := siftDown_spec k a k (le_refl _) (by omega) hbut
    simp only [heapify, h₁, bind_ok]
    obtain ⟨b, hb, hbp, hbh⟩ := ih a₁ (by rw [hp₁.length_eq]; omega) hh₁
    exact ⟨b, hb, hbp.trans hp₁, hbh⟩

theorem heap_root_max (a : List Int) (h : HeapFrom a 0) (y : Int) (hy : a[0]? = some y) :
    ∀ (j : Nat) (x : Int), a[j]? = some x → x ≤ y := by
  intro j
  induction j using Nat.strong_induction_on with
  | _ j ih =>
    intro x hx
    by_cases hj : j = 0
    · subst hj
      rw [hx] at hy
      simp only [Option.some.injEq] at hy
      omega
    · have hjl : j < a.length := by
        by_contra hcon
        rw [List.getElem?_eq_none (by omega)] at hx
        cases hx
      have hq : (j - 1) / 2 < a.length := by omega
      have hz : a[(j - 1) / 2]? = some a[(j - 1) / 2] := List.getElem?_eq_getElem hq
      have h1 := h j x a[(j - 1) / 2] (by omega) (Nat.zero_le _) hx hz
      have h2 := ih ((j - 1) / 2) (by omega) a[(j - 1) / 2] hz
      omega

theorem sortDown_spec (n : Nat) : ∀ (H R : List Int), H.length = n + 1 → HeapFrom H 0 →
    R.Pairwise (fun x y => x ≤ y) → (∀ x ∈ H, ∀ y ∈ R, x ≤ y) →
    ∃ b, sortDown (H ++ R) n = Run.ok b ∧ b.Pairwise (fun x y => x ≤ y) ∧ b.Perm (H ++ R) := by
  induction n with
  | zero =>
    intro H R hlen _ hR hcross
    refine ⟨H ++ R, rfl, ?_, List.Perm.refl _⟩
    rw [List.pairwise_append]
    refine ⟨?_, hR, hcross⟩
    match H, hlen with
    | [_], _ => simp
  | succ n ih =>
    intro H R hlen hheap hR hcross
    obtain ⟨a₀, M, z, rfl⟩ : ∃ a₀ M z, H = a₀ :: (M ++ [z]) := by
      match H, hlen with
      | a₀ :: T, hT =>
        induction T using List.reverseRecOn with
        | nil => simp at hT
        | append_singleton M z _ => exact ⟨a₀, M, z, rfl⟩
    have hM : M.length = n := by simp at hlen; omega
    have hrepr : a₀ :: (M ++ [z]) ++ R = a₀ :: (M ++ z :: R) := by simp
    have h0 : (a₀ :: (M ++ z :: R))[0]? = some a₀ := by simp
    have hz : (a₀ :: (M ++ z :: R))[n + 1]? = some z := by
      rw [List.getElem?_cons_succ, List.getElem?_append_right (by omega)]
      simp [hM]
    have hswap : swap (a₀ :: (M ++ z :: R)) 0 ((n + 1 : Nat) : Int) =
        Run.ok (z :: (M ++ a₀ :: R)) := by
      have := swap_nat (a₀ :: (M ++ z :: R)) 0 (n + 1) a₀ z h0 hz
      rw [Nat.cast_zero] at this
      rw [this]
      simp [← hM]
    have htake : (z :: (M ++ a₀ :: R)).take (n + 1) = z :: M := by
      simp [← hM]
    have hdrop : (z :: (M ++ a₀ :: R)).drop (n + 1) = a₀ :: R := by
      simp [← hM]
    have hbut : HeapBut (z :: M) 0 0 := by
      constructor
      · intro j x y hj _ hq hx hy
        have key : ∀ t w, 0 < t → (z :: M)[t]? = some w → (a₀ :: (M ++ [z]))[t]? = some w := by
          intro t w ht hw
          match t, ht with
          | t + 1, _ =>
            simp only [List.getElem?_cons_succ] at hw ⊢
            have : t < M.length := by
              by_contra hcon
              rw [List.getElem?_eq_none (by omega)] at hw
              cases hw
            rw [List.getElem?_append_left this]
            exact hw
        exact hheap j x y hj (Nat.zero_le _) (key j x hj hx) (key _ y (by omega) hy)
      · intro h; omega
    obtain ⟨H', hH', hpH', hheap'⟩ := siftDown_spec 0 (z :: M) 0 (le_refl _) (Nat.zero_le _) hbut
    simp only [sortDown]
    rw [hrepr, hswap]
    simp only [bind_ok]
    rw [htake, hdrop, hH']
    simp only [bind_ok]
    have hroot : ∀ x ∈ a₀ :: (M ++ [z]), x ≤ a₀ := by
      intro x hx
      obtain ⟨j, hj⟩ := List.mem_iff_getElem?.mp hx
      exact heap_root_max _ hheap a₀ (by simp) j x hj
    have hsub : ∀ x ∈ H', x ∈ a₀ :: (M ++ [z]) := by
      intro x hx
      have := hpH'.mem_iff.mp hx
      simp only [List.mem_cons, List.mem_append, List.mem_singleton] at this ⊢
      tauto
    obtain ⟨b, hb, hbs, hbp⟩ := ih H' (a₀ :: R) (by rw [hpH'.length_eq]; simp [hM]) hheap'
      (by
        rw [List.pairwise_cons]
        exact ⟨fun y hy => hcross a₀ (by simp) y hy, hR⟩)
      (by
        intro x hx y hy
        rcases List.mem_cons.mp hy with hy | hy
        · rw [hy]; exact hroot x (hsub x hx)
        · exact hcross x (hsub x hx) y hy)
    refine ⟨b, hb, hbs, hbp.trans ?_⟩
    have h1 : (H' ++ a₀ :: R).Perm ((z :: M) ++ a₀ :: R) := hpH'.append_right _
    refine h1.trans ?_
    simp only [List.cons_append]
    have h2 : (z :: (M ++ a₀ :: R)).Perm (M ++ z :: (a₀ :: R)) := List.perm_middle.symm
    have h3 : (M ++ z :: a₀ :: R).Perm (M ++ a₀ :: z :: R) :=
      List.Perm.append_left M (List.Perm.swap a₀ z R)
    have h4 : (M ++ a₀ :: z :: R).Perm (a₀ :: (M ++ z :: R)) := List.perm_middle
    exact h2.trans (h3.trans h4)

theorem heapSort_spec (a : List Int) :
    ∃ b, HeapSort a = Run.ok b ∧ b.Pairwise (fun x y => x ≤ y) ∧ b.Perm a := by
  have hinit : HeapFrom a (a.length / 2) := by
    intro j x y _ hk hx _
    rw [List.getElem?_eq_none (by omega)] at hx
    cases hx
  obtain ⟨H, hH, hpH, hheap⟩ := heapify_spec (a.length / 2) a (by omega) hinit
  simp only [HeapSort, hH, bind_ok]
  by_cases hnil : H = []
  · subst hnil
    exact ⟨[], rfl, List.Pairwise.nil, hpH⟩
  · have hlen : H.length = (H.length - 1) + 1 := by
      have : 0 < H.length := List.length_pos.mpr hnil
      omega
    obtain ⟨b, hb, hbs, hbp⟩ := sortDown_spec (H.length - 1) H [] hlen hheap List.Pairwise.nil
      (by simp)
    rw [List.append_nil] at hb hbp
    exact ⟨b, hb, hbs, hbp.trans hpH⟩

/-- C14: for every slice of ints `HeapSort` returns, without indexing outside
the slice, and leaves the slice sorted in non-decreasing order, with the same
elements. -/
theorem heapSort_sorted (a : List Int) :
    ∃ b, HeapSort a = Run.ok b ∧ List.Sorted (fun x y : Int => x ≤ y) b ∧ b.Perm a :=
  heapSort_spec a

end GoofySort

namespace RBTreeGo2

variable {K V : Type}

@[simp] theorem res_bind_ok {α β : Type} (a : α) (f : α → Res β) : (Res.ok a >>= f) = f a := rfl

@[simp] theorem res_bind_nilDeref {α β : Type} (f : α → Res β) :
    ((Res.nilDeref : Res α) >>= f) = Res.nilDeref := rfl

@[simp] theorem res_bind_outOfFuel {α β : Type} (f : α → Res β) :
    ((Res.outOfFuel : Res α) >>= f) = Res.outOfFuel := rfl

@[simp] theorem res_pure {α : Type} (a : α) : (pure a : Res α) = Res.ok a := rfl

theorem ptr_plug (C : List (Frame K V)) (t : Tree K V) : (plug C t).ptr = ctxRoot C t.ptr := by
  induction C generalizing t with
  | nil => rfl
  | cons f up ih =>
    rw [plug, ih]
    cases f <;> rfl

theorem ctxRoot_some (C : List (Frame K V)) (x : Nat) : ∃ y, ctxRoot C (some x) = some y := by
  induction C generalizing x with
  | nil => exact ⟨x, rfl⟩
  | cons f up ih => exact ih f.id

theorem ids_plug (C : List (Frame K V)) (t : Tree K V) :
    (plug C t).ids.Perm (t.ids ++ ctxIds C) := by
  induction C generalizing t with
  | nil => simp [plug, ctxIds]
  | cons f up ih =>
    refine (ih (f.fill t)).trans ?_
    cases f with
    | left id k v c r =>
      simp only [Frame.fill, Tree.ids, ctxIds, Frame.id, Frame.sib, List.append_assoc,
        List.cons_append]
      exact List.Perm.refl _
    | right l id k v c =>
      simp only [Frame.fill, Tree.ids, ctxIds, Frame.id, Frame.sib, List.append_assoc,
        List.cons_append]
      rw [List.perm_iff_count]
      intro a
      simp only [List.count_append, List.count_cons]
      omega

theorem toList_plug (C : List (Frame K V)) (t : Tree K V) :
    (plug C t).toList = ctxL C ++ t.toList ++ ctxR C := by
  induction C generalizing t with
  | nil => simp [plug, ctxL, ctxR]
  | cons f up ih =>
    cases f <;> simp [plug, ih, ctxL, ctxR, Frame.fill, Tree.toList]

theorem repr_plug (mem : Nat → Option (Node K V)) (C : List (Frame K V)) (t : Tree K V) :
    Repr mem none (plug C t) ↔ Repr mem (ctxPar C) t ∧ CtxRepr mem C t.ptr := by
  induction C generalizing t with
  | nil => simp [plug, ctxPar, CtxRepr]
  | cons f up ih =>
    cases f <;> simp [plug, ih, ctxPar, CtxRepr, Frame.fill, Repr, Tree.ptr, Frame.id] <;> tauto

theorem good_plug (t : RBTree K V) (C : List (Frame K V)) (sub : Tree K V) :
    Good t (plug C sub) ↔ GoodAt t C sub := by
  unfold Good GoodAt
  have hp := ids_plug C sub
  simp only [ctxPar, CtxRepr, ctxRoot, ctxIds, List.append_nil, repr_plug, ptr_plug, true_and,
    hp.nodup_iff]
  constructor
  · rintro ⟨⟨h1, h2⟩, h3, h4, h5⟩
    exact ⟨h1, h2, h3, h4, fun i hi => h5 i (hp.mem_iff.2 hi)⟩
  · rintro ⟨h1, h2, h3, h4, h5⟩
    exact ⟨⟨h1, h2⟩, h3, h4, fun i hi => h5 i (hp.mem_iff.1 hi)⟩

theorem repr_congr {mem mem' : Nat → Option (Node K V)} {par : Option Nat} {T : Tree K V}
    (h : ∀ i ∈ T.ids, mem' i = mem i) (hr : Repr mem par T) : Repr mem' par T := by
  induction T generalizing par with
  | nil => trivial
  | node l id k v c r ihl ihr =>
    obtain ⟨h1, h2, h3⟩ := hr
    refine ⟨?_, ihl (fun i hi => h i (by simp [Tree.ids, hi])) h2,
      ihr (fun i hi => h i (by simp [Tree.ids, hi])) h3⟩
    rw [h id (by simp [Tree.ids])]
    exact h1

theorem ctxRepr_congr {mem mem' : Nat → Option (Node K V)} {C : List (Frame K V)}
    {hole : Option Nat} (h : ∀ i ∈ ctxIds C, mem' i = mem i) (hr : CtxRepr mem C hole) :
    CtxRepr mem' C hole := by
  induction C generalizing hole with
  | nil => trivial
  | cons f up ih =>
    cases f with
    | left id k v c r =>
      obtain ⟨⟨h1, h2⟩, h3⟩ := hr
      refine ⟨⟨?_, repr_congr (fun i hi => h i (by simp [ctxIds, Frame.sib, hi])) h2⟩,
        ih (fun i hi => h i (by simp [ctxIds, hi])) h3⟩
      rw [h id (by simp [ctxIds, Frame.id])]
      exact h1
    | right l id k v c =>
      obtain ⟨⟨h1, h2⟩, h3⟩ := hr
      refine ⟨⟨?_, repr_congr (fun i hi => h i (by simp [ctxIds, Frame.sib, hi])) h2⟩,
        ih (fun i hi => h i (by simp [ctxIds, hi])) h3⟩
      rw [h id (by simp [ctxIds, Frame.id])]
      exact h1

@[simp] theorem ptr_nil : (Tree.nil : Tree K V).ptr = none := rfl

@[simp] theorem ptr_node (l : Tree K V) (id : Nat) (k : K) (v : V) (c : Bool) (r : Tree K V) :
    (Tree.node l id k v c r).ptr = some id := rfl

@[simp] theorem ctxPar_nil : ctxPar ([] : List (Frame K V)) = none := rfl

@[simp] theorem ctxPar_cons (f : Frame K V) (up : List (Frame K V)) :
    ctxPar (f :: up) = some f.id := rfl

@[simp] theorem id_left (id : Nat) (k : K) (v : V) (c : Bool) (r : Tree K V) :
    (Frame.left id k v c r).id = id := rfl

@[simp] theorem id_right (l : Tree K V) (id : Nat) (k : K) (v : V) (c : Bool) :
    (Frame.right l id k v c).id = id := rfl

theorem ptr_mem {S : Tree K V} {x : Nat} (h : S.ptr = some x) : x ∈ S.ids := by
  cases S with
  | nil => simp at h
  | node l id k v c r =>
    simp only [ptr_node, Option.some.injEq] at h
    subst h
    simp [Tree.ids]

theorem repr_frame {mem mem' : Nat → Option (Node K V)} {par : Option Nat} {S : Tree K V}
    (W : List Nat) (hW : ∀ i, i ∉ W → mem' i = mem i) (hd : ∀ i ∈ S.ids, i ∉ W)
    (h : Repr mem par S) : Repr mem' par S :=
  repr_congr (fun i hi => hW i (hd i hi)) h

theorem ctxRepr_frame {mem mem' : Nat → Option (Node K V)} {C : List (Frame K V)}
    {hole : Option Nat} (W : List Nat) (hW : ∀ i, i ∉ W → mem' i = mem i)
    (hd : ∀ i ∈ ctxIds C, i ∉ W) (h : CtxRepr mem C hole) : CtxRepr mem' C hole :=
  ctxRepr_congr (fun i hi => hW i (hd i hi)) h

theorem disj_of_nodup {L : List Nat} (hnd : L.Nodup) (W S : List Nat)
    (h : ∀ a, List.count a W + List.count a S ≤ List.count a L) : ∀ i ∈ S, i ∉ W := by
  intro i hS hW
  have h1 := List.count_pos_iff.2 hS
  have h2 := List.count_pos_iff.2 hW
  have h3 := List.nodup_iff_count_le_one.1 hnd i
  have h4 := h i
  omega

theorem blackenRoot_spec (t : RBTree K V) (T : Tree K V) (hg : Good t T) (hT : T ≠ Tree.nil) :
    ∃ t' T', blackenRoot t = Res.ok t' ∧ Good t' T' ∧ t'.next = t.next ∧
      T'.toList = T.toList := by
  cases T with
  | nil => exact absurd rfl hT
  | node l id k v c r =>
    obtain ⟨⟨h1, h2, h3⟩, -, hroot, hnd, hlt⟩ := hg
    simp only [ctxRoot, Tree.ptr] at hroot
    simp only [ctxIds, List.append_nil, Tree.ids] at hnd hlt
    have hl : id ∉ l.ids := by
      intro h
      have := List.nodup_append.1 hnd
      exact this.2.2 h (by simp)
    have hr : id ∉ r.ids := by
      have := List.nodup_append.1 hnd
      exact (List.nodup_cons.1 this.2.1).1
    refine ⟨store t id ⟨l.ptr, r.ptr, none, k, v, false⟩, Tree.node l id k v false r,
      ?_, ?_, ?_, rfl⟩
    · simp [blackenRoot, load, hroot, h1, ctxPar]
    · refine ⟨⟨?_, repr_congr (fun i hi => ?_) h2, repr_congr (fun i hi => ?_) h3⟩, trivial,
        ?_, ?_, ?_⟩
      · simp [store, ctxPar]
      · simp only [store]
        rw [Function.update_noteq]
        rintro rfl
        exact hl hi
      · simp only [store]
        rw [Function.update_noteq]
        rintro rfl
        exact hr hi
      · simp [store, hroot, ctxRoot]
      · simpa [ctxIds, Tree.ids] using hnd
      · simpa [ctxIds, Tree.ids, store] using hlt
    · rfl

theorem relink_spec (t : RBTree K V) (up : List (Frame K V)) (g p : Nat)
    (hc : CtxRepr t.mem up (some g)) (hroot : t.root = ctxRoot up (some g))
    (hg : g ∉ ctxIds up) (hnd : (ctxIds up).Nodup) :
    ∃ t', relink t (ctxPar up) g p = Res.ok t' ∧ CtxRepr t'.mem up (some p) ∧
      t'.root = ctxRoot up (some p) ∧ t'.next = t.next ∧
      ∀ i, i ∉ ctxIds up → t'.mem i = t.mem i := by
  cases up with
  | nil => exact ⟨{ t with root := some p }, rfl, trivial, rfl, rfl, fun _ _ => rfl⟩
  | cons f up =>
    cases f with
    | left gg k v c r =>
      obtain ⟨⟨h1, h2⟩, h3⟩ := hc
      simp only [ctxIds, Frame.id, Frame.sib] at hg hnd
      have hd1 := disj_of_nodup hnd [gg] r.ids (by
        intro a
        simp only [List.count_append, List.count_cons, List.count_nil]
        omega)
      have hd2 := disj_of_nodup hnd [gg] (ctxIds up) (by
        intro a
        simp only [List.count_append, List.count_cons, List.count_nil]
        omega)
      refine ⟨store t gg ⟨some p, r.ptr, ctxPar up, k, v, c⟩, ?_, ⟨⟨?_, ?_⟩, ?_⟩, ?_, rfl, ?_⟩
      · simp [relink, ctxPar, Frame.id, getLink, setLink, load, h1, Node.link, Node.setLink]
      · simp [store]
      · refine repr_frame [gg] (fun i hi => ?_) hd1 h2
        simp only [List.mem_singleton] at hi
        simp [store, Function.update_apply, hi]
      · refine ctxRepr_frame [gg] (fun i hi => ?_) hd2 h3
        simp only [List.mem_singleton] at hi
        simp [store, Function.update_apply, hi]
      · simpa [ctxRoot, store] using hroot
      · intro i hi
        simp only [ctxIds, Frame.id, List.mem_cons, List.mem_append, not_or] at hi
        simp [store, Function.update_apply, hi.1]
    | right l gg k v c =>
      obtain ⟨⟨h1, h2⟩, h3⟩ := hc
      simp only [ctxIds, Frame.id, Frame.sib] at hg hnd
      have hd1 := disj_of_nodup hnd [gg] l.ids (by
        intro a
        simp only [List.count_append, List.count_cons, List.count_nil]
        omega)
      have hd2 := disj_of_nodup hnd [gg] (ctxIds up) (by
        intro a
        simp only [List.count_append, List.count_cons, List.count_nil]
        omega)
      have hlg : l.ptr ≠ some g := by
        intro h
        exact hg (by simp [ptr_mem h])
      refine ⟨store t gg ⟨l.ptr, some p, ctxPar up, k, v, c⟩, ?_, ⟨⟨?_, ?_⟩, ?_⟩, ?_, rfl, ?_⟩
      · simp [relink, ctxPar, Frame.id, getLink, setLink, load, h1, Node.link, Node.setLink, hlg]
      · simp [store]
      · refine repr_frame [gg] (fun i hi => ?_) hd1 h2
        simp only [List.mem_singleton] at hi
        simp [store, Function.update_apply, hi]
      · refine ctxRepr_frame [gg] (fun i hi => ?_) hd2 h3
        simp only [List.mem_singleton] at hi
        simp [store, Function.update_apply, hi]
      · simpa [ctxRoot, store] using hroot
      · intro i hi
        simp only [ctxIds, Frame.id, List.mem_cons, List.mem_append, not_or] at hi
        simp [store, Function.update_apply, hi.1]

theorem relink_good (X : RBTree K V) (up : List (Frame K V)) (g p : Nat) (R : Tree K V)
    (next : Nat) (hc : CtxRepr X.mem up (some g)) (hroot : X.root = ctxRoot up (some g))
    (hR : Repr X.mem (ctxPar up) R) (hptr : R.ptr = some p)
    (hnd : (R.ids ++ ctxIds up).Nodup) (hg : g ∉ ctxIds up)
    (hlt : ∀ i ∈ R.ids ++ ctxIds up, i < X.next) (hnext : X.next = next) :
    ∃ t', relink X (ctxPar up) g p = Res.ok t' ∧ GoodAt t' up R ∧ t'.next = next := by
  have hn := List.nodup_append.1 hnd
  obtain ⟨t', h1, h2, h3, h4, h5⟩ := relink_spec X up g p hc hroot hg hn.2.1
  refine ⟨t', h1, ⟨repr_congr (fun i hi => h5 i (fun h => hn.2.2 hi h)) hR, ?_, ?_, hnd, ?_⟩,
    h4.trans hnext⟩
  · rw [hptr]
    exact h2
  · rw [hptr]
    exact h3
  · rw [h4]
    exact hlt

theorem repr_keep (mem : Nat → Option (Node K V)) {mem' : Nat → Option (Node K V)}
    {par : Option Nat} {S : Tree K V} {L : List Nat} (hnd : L.Nodup) (W : List Nat) (h : Repr mem par S)
    (hW : ∀ i, i ∉ W → mem' i = mem i)
    (hc : ∀ a, List.count a W + List.count a S.ids ≤ List.count a L) : Repr mem' par S :=
  repr_frame W hW (disj_of_nodup hnd W S.ids hc) h

theorem ctxRepr_keep (mem : Nat → Option (Node K V)) {mem' : Nat → Option (Node K V)}
    {C : List (Frame K V)} {hole : Option Nat} {L : List Nat} (hnd : L.Nodup) (W : List Nat) (h : CtxRepr mem C hole)
    (hW : ∀ i, i ∉ W → mem' i = mem i)
    (hc : ∀ a, List.count a W + List.count a (ctxIds C) ≤ List.count a L) :
    CtxRepr mem' C hole :=
  ctxRepr_frame W hW (disj_of_nodup hnd W (ctxIds C) hc) h

theorem not_mem_ctx {L : List Nat} (hnd : L.Nodup) (g : Nat) (S : List Nat)
    (hc : ∀ a, List.count a [g] + List.count a S ≤ List.count a L) : g ∉ S :=
  fun h => disj_of_nodup hnd [g] S hc g h (by simp)

theorem rotateOuter_L (t : RBTree K V) (up : List (Frame K V)) (a : Tree K V) (p : Nat) (kp : K)
    (vp : V) (cp : Bool) (s : Tree K V) (pp : Option Nat) (g : Nat) (kg : K) (vg : V)
    (cg : Bool) (u : Tree K V)
    (h : PreL t up a p kp vp cp s pp g kg vg cg u) :
    ∃ t', rotateOuter t p g false = Res.ok t' ∧
      GoodAt t' up (Tree.node a p kp vp false (Tree.node s g kg vg true u)) ∧ t'.next = t.next := by
  obtain ⟨hp, ha, hs, hgn, hu, hc, hroot, hnd, hlt⟩ := h
  cases s with
  | nil =>
    have hne : p ≠ g ∧ g ≠ p := by
      repeat' apply And.intro
      all_goals (rintro rfl; simp [List.nodup_append, List.nodup_cons, Tree.ids] at hnd)
    simp only [Tree.ids] at hnd hlt
    simp [rotateInner, rotateOuter, getLink, setLink, setParent, setParentIf, setRed, getParent, load, store,
      hp, hgn, Function.update_apply, Node.link, Node.setLink, hne]
    refine relink_good _ up g p _ _ ?_ hroot ?_ rfl ?_ ?_ ?_ rfl
    · exact ctxRepr_keep t.mem hnd [p, g] hc (fun i hi => by simp at hi; simp [Function.update_apply, hi]) (fun a => by simp only [List.count_append, List.count_cons, List.count_nil, Tree.ids]; omega)
    · simp only [Repr]
      repeat' apply And.intro
      all_goals first
        | trivial
        | exact repr_keep t.mem hnd [p, g] (by assumption) (fun i hi => by simp at hi; simp [Function.update_apply, hi]) (fun a => by simp only [List.count_append, List.count_cons, List.count_nil, Tree.ids]; omega)
        | simp [Function.update_apply, hne, hp, hgn]
    · refine (List.Perm.nodup_iff ?_).1 hnd
      rw [List.perm_iff_count]
      intro a
      simp only [List.count_append, List.count_cons, List.count_nil, Tree.ids]
      omega
    · refine not_mem_ctx hnd g _ (fun a => ?_)
      simp only [List.count_append, List.count_cons, List.count_nil, Tree.ids]
      omega
    · intro i hi
      refine hlt i ((List.Perm.mem_iff ?_).1 hi)
      rw [List.perm_iff_count]
      intro a
      simp only [List.count_append, List.count_cons, List.count_nil, Tree.ids]
      omega
  | node sl si sk sv sc sr =>
    obtain ⟨hsn, hsl, hsr⟩ := hs
    have hne : p ≠ g ∧ p ≠ si ∧ g ≠ p ∧ g ≠ si ∧ si ≠ p ∧ si ≠ g := by
      repeat' apply And.intro
      all_goals (rintro rfl; simp [List.nodup_append, List.nodup_cons, Tree.ids] at hnd)
    simp only [Tree.ids] at hnd hlt
    simp [rotateInner, rotateOuter, getLink, setLink, setParent, setParentIf, setRed, getParent, load, store,
      hp, hgn, hsn, Function.update_apply, Node.link, Node.setLink, hne]
    refine relink_good _ up g p _ _ ?_ hroot ?_ rfl ?_ ?_ ?_ rfl
    · exact ctxRepr_keep t.mem hnd [p, g, si] hc (fun i hi => by simp at hi; simp [Function.update_apply, hi]) (fun a => by simp only [List.count_append, List.count_cons, List.count_nil, Tree.ids]; omega)
    · simp only [Repr]
      repeat' apply And.intro
      all_goals first
        | trivial
        | exact repr_keep t.mem hnd [p, g, si] (by assumption) (fun i hi => by simp at hi; simp [Function.update_apply, hi]) (fun a => by simp only [List.count_append, List.count_cons, List.count_nil, Tree.ids]; omega)
        | simp [Function.update_apply, hne, hp, hgn, hsn]
    · refine (List.Perm.nodup_iff ?_).1 hnd
      rw [List.perm_iff_count]
      intro a
      simp only [List.count_append, List.count_cons, List.count_nil, Tree.ids]
      omega
    · refine not_mem_ctx hnd g _ (fun a => ?_)
      simp only [List.count_append, List.count_cons, List.count_nil, Tree.ids]
      omega
    · intro i hi
      refine hlt i ((List.Perm.mem_iff ?_).1 hi)
      rw [List.perm_iff_count]
      intro a
      simp only [List.count_append, List.count_cons, List.count_nil, Tree.ids]
      omega

theorem rotateOuter_R (t : RBTree K V) (up : List (Frame K V)) (a : Tree K V) (p : Nat) (kp : K)
    (vp : V) (cp : Bool) (s : Tree K V) (pp : Option Nat) (g : Nat) (kg : K) (vg : V)
    (cg : Bool) (u : Tree K V)
    (h : PreR t up a p kp vp cp s pp g kg vg cg u) :
    ∃ t', rotateOuter t p g true = Res.ok t' ∧
      GoodAt t' up (Tree.node (Tree.node u g kg vg true s) p kp vp false a) ∧ t'.next = t.next := by
  obtain ⟨hp, ha, hs, hgn, hu, hc, hroot, hnd, hlt⟩ := h
  cases s with
  | nil =>
    have hne : p ≠ g ∧ g ≠ p := by
      repeat' apply And.intro
      all_goals (rintro rfl; simp [List.nodup_append, List.nodup_cons, Tree.ids] at hnd)
    simp only [Tree.ids] at hnd hlt
    simp [rotateInner, rotateOuter, getLink, setLink, setParent, setParentIf, setRed, getParent, load, store,
      hp, hgn, Function.update_apply, Node.link, Node.setLink, hne]
    refine relink_good _ up g p _ _ ?_ hroot ?_ rfl ?_ ?_ ?_ rfl
    · exact ctxRepr_keep t.mem hnd [p, g] hc (fun i hi => by simp at hi; simp [Function.update_apply, hi]) (fun a => by simp only [List.count_append, List.count_cons, List.count_nil, Tree.ids]; omega)
    · simp only [Repr]
      repeat' apply And.intro
      all_goals first
        | trivial
        | exact repr_keep t.mem hnd [p, g] (by assumption) (fun i hi => by simp at hi; simp [Function.update_apply, hi]) (fun a => by simp only [List.count_append, List.count_cons, List.count_nil, Tree.ids]; omega)
        | simp [Function.update_apply, hne, hp, hgn]
    · refine (List.Perm.nodup_iff ?_).1 hnd
      rw [List.perm_iff_count]
      intro a
      simp only [List.count_append, List.count_cons, List.count_nil, Tree.ids]
      omega
    · refine not_mem_ctx hnd g _ (fun a => ?_)
      simp only [List.count_append, List.count_cons, List.count_nil, Tree.ids]
      omega
    · intro i hi
      refine hlt i ((List.Perm.mem_iff ?_).1 hi)
      rw [List.perm_iff_count]
      intro a
      simp only [List.count_append, List.count_cons, List.count_nil, Tree.ids]
      omega
  | node sl si sk sv sc sr =>
    obtain ⟨hsn, hsl, hsr⟩ := hs
    have hne : p ≠ g ∧ p ≠ si ∧ g ≠ p ∧ g ≠ si ∧ si ≠ p ∧ si ≠ g := by
      repeat' apply And.intro
      all_goals (rintro rfl; simp [List.nodup_append, List.nodup_cons, Tree.ids] at hnd)
    simp only [Tree.ids] at hnd hlt
    simp [rotateInner, rotateOuter, getLink, setLink, setParent, setParentIf, setRed, getParent, load, store,
      hp, hgn, hsn, Function.update_apply, Node.link, Node.setLink, hne]
    refine relink_good _ up g p _ _ ?_ hroot ?_ rfl ?_ ?_ ?_ rfl
    · exact ctxRepr_keep t.mem hnd [p, g, si] hc (fun i hi => by simp at hi; simp [Function.update_apply, hi]) (fun a => by simp only [List.count_append, List.count_cons, List.count_nil, Tree.ids]; omega)
    · simp only [Repr]
      repeat' apply And.intro
      all_goals first
        | trivial
        | exact repr_keep t.mem hnd [p, g, si] (by assumption) (fun i hi => by simp at hi; simp [Function.update_apply, hi]) (fun a => by simp only [List.count_append, List.count_cons, List.count_nil, Tree.ids]; omega)
        | simp [Function.update_apply, hne, hp, hgn, hsn]
    · refine (List.Perm.nodup_iff ?_).1 hnd
      rw [List.perm_iff_count]
      intro a
      simp only [List.count_append, List.count_cons, List.count_nil, Tree.ids]
      omega
    · refine not_mem_ctx hnd g _ (fun a => ?_)
      simp only [List.count_append, List.count_cons, List.count_nil, Tree.ids]
      omega
    · intro i hi
      refine hlt i ((List.Perm.mem_iff ?_).1 hi)
      rw [List.perm_iff_count]
      intro a
      simp only [List.count_append, List.count_cons, List.count_nil, Tree.ids]
      omega

theorem rotateInner_LR (t : RBTree K V) (up : List (Frame K V)) (l : Tree K V) (n : Nat) (k : K)
    (v : V) (c : Bool) (r : Tree K V) (p : Nat) (kp : K) (vp : V) (cp : Bool) (s : Tree K V)
    (g : Nat) (kg : K) (vg : V) (cg : Bool) (u : Tree K V)
    (hg : GoodAt t (Frame.right s p kp vp cp :: Frame.left g kg vg cg u :: up) (Tree.node l n k v c r)) :
    ∃ t', rotateInner t n p g false = Res.ok t' ∧
      PreL t' up (Tree.node s p kp vp cp l) n k v c r (some p) g kg vg cg u ∧ t'.next = t.next := by
  obtain ⟨⟨hn, hl, hr⟩, ⟨⟨hp, hs⟩, ⟨hgn, hu⟩, hc⟩, hroot, hnd, hlt⟩ := hg
  simp only [ctxPar_cons, id_left, id_right, ptr_node, ctxRoot] at hn hp hgn hroot
  simp only [ctxIds, Tree.ids, id_left, id_right, Frame.sib] at hnd hlt
  cases l with
  | nil =>
    have hne : n ≠ p ∧ n ≠ g ∧ p ≠ n ∧ p ≠ g ∧ g ≠ n ∧ g ≠ p := by
      repeat' apply And.intro
      all_goals (rintro rfl; simp [List.nodup_append, List.nodup_cons, Tree.ids] at hnd)
    simp only [Tree.ids] at hnd hlt
    simp [rotateInner, rotateOuter, getLink, setLink, setParent, setParentIf, setRed, getParent, load, store,
      hn, hp, hgn, Function.update_apply, Node.link, Node.setLink, hne]
    refine ⟨?_, ?_, ?_, ?_, ?_, ?_, hroot, ?_, ?_⟩
    · simp [Function.update_apply, hne, hn, hp, hgn]
    · simp only [Repr]
      repeat' apply And.intro
      all_goals first
        | trivial
        | exact repr_keep t.mem hnd [n, p, g] (by assumption) (fun i hi => by simp at hi; simp [Function.update_apply, hi]) (fun a => by simp only [List.count_append, List.count_cons, List.count_nil, Tree.ids]; omega)
        | simp [Function.update_apply, hne, hn, hp, hgn]
    · exact repr_keep t.mem hnd [n, p, g] (by assumption) (fun i hi => by simp at hi; simp [Function.update_apply, hi]) (fun a => by simp only [List.count_append, List.count_cons, List.count_nil, Tree.ids]; omega)
    · simp [Function.update_apply, hne, hn, hp, hgn]
    · exact repr_keep t.mem hnd [n, p, g] (by assumption) (fun i hi => by simp at hi; simp [Function.update_apply, hi]) (fun a => by simp only [List.count_append, List.count_cons, List.count_nil, Tree.ids]; omega)
    · exact ctxRepr_keep t.mem hnd [n, p, g] hc (fun i hi => by simp at hi; simp [Function.update_apply, hi]) (fun a => by simp only [List.count_append, List.count_cons, List.count_nil, Tree.ids]; omega)
    · refine (List.Perm.nodup_iff ?_).1 hnd
      rw [List.perm_iff_count]
      intro a
      simp only [List.count_append, List.count_cons, List.count_nil, Tree.ids]
      omega
    · intro i hi
      refine hlt i ((List.Perm.mem_iff ?_).1 hi)
      rw [List.perm_iff_count]
      intro a
      simp only [List.count_append, List.count_cons, List.count_nil, Tree.ids]
      omega
  | node ml mi mk mv mc mr =>
    obtain ⟨hmn, hml, hmr⟩ := hl
    have hne : n ≠ p ∧ n ≠ g ∧ n ≠ mi ∧ p ≠ n ∧ p ≠ g ∧ p ≠ mi ∧ g ≠ n ∧ g ≠ p ∧ g ≠ mi ∧ mi ≠ n ∧ mi ≠ p ∧ mi ≠ g := by
      repeat' apply And.intro
      all_goals (rintro rfl; simp [List.nodup_append, List.nodup_cons, Tree.ids] at hnd)
    simp only [Tree.ids] at hnd hlt
    simp [rotateInner, rotateOuter, getLink, setLink, setParent, setParentIf, setRed, getParent, load, store,
      hn, hp, hgn, hmn, Function.update_apply, Node.link, Node.setLink, hne]
    refine ⟨?_, ?_, ?_, ?_, ?_, ?_, hroot, ?_, ?_⟩
    · simp [Function.update_apply, hne, hn, hp, hgn, hmn]
    · simp only [Repr]
      repeat' apply And.intro
      all_goals first
        | trivial
        | exact repr_keep t.mem hnd [n, p, g, mi] (by assumption) (fun i hi => by simp at hi; simp [Function.update_apply, hi]) (fun a => by simp only [List.count_append, List.count_cons, List.count_nil, Tree.ids]; omega)
        | simp [Function.update_apply, hne, hn, hp, hgn, hmn]
    · exact repr_keep t.mem hnd [n, p, g, mi] (by assumption) (fun i hi => by simp at hi; simp [Function.update_apply, hi]) (fun a => by simp only [List.count_append, List.count_cons, List.count_nil, Tree.ids]; omega)
    · simp [Function.update_apply, hne, hn, hp, hgn, hmn]
    · exact repr_keep t.mem hnd [n, p, g, mi] (by assumption) (fun i hi => by simp at hi; simp [Function.update_apply, hi]) (fun a => by simp only [List.count_append, List.count_cons, List.count_nil, Tree.ids]; omega)
    · exact ctxRepr_keep t.mem hnd [n, p, g, mi] hc (fun i hi => by simp at hi; simp [Function.update_apply, hi]) (fun a => by simp only [List.count_append, List.count_cons, List.count_nil, Tree.ids]; omega)
    · refine (List.Perm.nodup_iff ?_).1 hnd
      rw [List.perm_iff_count]
      intro a
      simp only [List.count_append, List.count_cons, List.count_nil, Tree.ids]
      omega
    · intro i hi
      refine hlt i ((List.Perm.mem_iff ?_).1 hi)
      rw [List.perm_iff_count]
      intro a
      simp only [List.count_append, List.count_cons, List.count_nil, Tree.ids]
      omega

theorem rotateInner_RL (t : RBTree K V) (up : List (Frame K V)) (l : Tree K V) (n : Nat) (k : K)
    (v : V) (c : Bool) (r : Tree K V) (p : Nat) (kp : K) (vp : V) (cp : Bool) (s : Tree K V)
    (g : Nat) (kg : K) (vg : V) (cg : Bool) (u : Tree K V)
    (hg : GoodAt t (Frame.left p kp vp cp s :: Frame.right u g kg vg cg :: up) (Tree.node l n k v c r)) :
    ∃ t', rotateInner t n p g true = Res.ok t' ∧
      PreR t' up (Tree.node r p kp vp cp s) n k v c l (some p) g kg vg cg u ∧ t'.next = t.next := by
  obtain ⟨⟨hn, hl, hr⟩, ⟨⟨hp, hs⟩, ⟨hgn, hu⟩, hc⟩, hroot, hnd, hlt⟩ := hg
  simp only [ctxPar_cons, id_left, id_right, ptr_node, ctxRoot] at hn hp hgn hroot
  simp only [ctxIds, Tree.ids, id_left, id_right, Frame.sib] at hnd hlt
  cases r with
  | nil =>
    have hne : n ≠ p ∧ n ≠ g ∧ p ≠ n ∧ p ≠ g ∧ g ≠ n ∧ g ≠ p := by
      repeat' apply And.intro
      all_goals (rintro rfl; simp [List.nodup_append, List.nodup_cons, Tree.ids] at hnd)
    simp only [Tree.ids] at hnd hlt
    simp [rotateInner, rotateOuter, getLink, setLink, setParent, setParentIf, setRed, getParent, load, store,
      hn, hp, hgn, Function.update_apply, Node.link, Node.setLink, hne]
    refine ⟨?_, ?_, ?_, ?_, ?_, ?_, hroot, ?_, ?_⟩
    · simp [Function.update_apply, hne, hn, hp, hgn]
    · simp only [Repr]
      repeat' apply And.intro
      all_goals first
        | trivial
        | exact repr_keep t.mem hnd [n, p, g] (by assumption) (fun i hi => by simp at hi; simp [Function.update_apply, hi]) (fun a => by simp only [List.count_append, List.count_cons, List.count_nil, Tree.ids]; omega)
        | simp [Function.update_apply, hne, hn, hp, hgn]
    · exact repr_keep t.mem hnd [n, p, g] (by assumption) (fun i hi => by simp at hi; simp [Function.update_apply, hi]) (fun a => by simp only [List.count_append, List.count_cons, List.count_nil, Tree.ids]; omega)
    · simp [Function.update_apply, hne, hn, hp, hgn]
    · exact repr_keep t.mem hnd [n, p, g] (by assumption) (fun i hi => by simp at hi; simp [Function.update_apply, hi]) (fun a => by simp only [List.count_append, List.count_cons, List.count_nil, Tree.ids]; omega)
    · exact ctxRepr_keep t.mem hnd [n, p, g] hc (fun i hi => by simp at hi; simp [Function.update_apply, hi]) (fun a => by simp only [List.count_append, List.count_cons, List.count_nil, Tree.ids]; omega)
    · refine (List.Perm.nodup_iff ?_).1 hnd
      rw [List.perm_iff_count]
      intro a
      simp only [List.count_append, List.count_cons, List.count_nil, Tree.ids]
      omega
    · intro i hi
      refine hlt i ((List.Perm.mem_iff ?_).1 hi)
      rw [List.perm_iff_count]
      intro a
      simp only [List.count_append, List.count_cons, List.count_nil, Tree.ids]
      omega
  | node ml mi mk mv mc mr =>
    obtain ⟨hmn, hml, hmr⟩ := hr
    have hne : n ≠ p ∧ n ≠ g ∧ n ≠ mi ∧ p ≠ n ∧ p ≠ g ∧ p ≠ mi ∧ g ≠ n ∧ g ≠ p ∧ g ≠ mi ∧ mi ≠ n ∧ mi ≠ p ∧ mi ≠ g := by
      repeat' apply And.intro
      all_goals (rintro rfl; simp [List.nodup_append, List.nodup_cons, Tree.ids] at hnd)
    simp only [Tree.ids] at hnd hlt
    simp [rotateInner, rotateOuter, getLink, setLink, setParent, setParentIf, setRed, getParent, load, store,
      hn, hp, hgn, hmn, Function.update_apply, Node.link, Node.setLink, hne]
    refine ⟨?_, ?_, ?_, ?_, ?_, ?_, hroot, ?_, ?_⟩
    · simp [Function.update_apply, hne, hn, hp, hgn, hmn]
    · simp only [Repr]
      repeat' apply And.intro
      all_goals first
        | trivial
        | exact repr_keep t.mem hnd [n, p, g, mi] (by assumption) (fun i hi => by simp at hi; simp [Function.update_apply, hi]) (fun a => by simp only [List.count_append, List.count_cons, List.count_nil, Tree.ids]; omega)
        | simp [Function.update_apply, hne, hn, hp, hgn, hmn]
    · exact repr_keep t.mem hnd [n, p, g, mi] (by assumption) (fun i hi => by simp at hi; simp [Function.update_apply, hi]) (fun a => by simp only [List.count_append, List.count_cons, List.count_nil, Tree.ids]; omega)
    · simp [Function.update_apply, hne, hn, hp, hgn, hmn]
    · exact repr_keep t.mem hnd [n, p, g, mi] (by assumption) (fun i hi => by simp at hi; simp [Function.update_apply, hi]) (fun a => by simp only [List.count_append, List.count_cons, List.count_nil, Tree.ids]; omega)
    · exact ctxRepr_keep t.mem hnd [n, p, g, mi] hc (fun i hi => by simp at hi; simp [Function.update_apply, hi]) (fun a => by simp only [List.count_append, List.count_cons, List.count_nil, Tree.ids]; omega)
    · refine (List.Perm.nodup_iff ?_).1 hnd
      rw [List.perm_iff_count]
      intro a
      simp only [List.count_append, List.count_cons, List.count_nil, Tree.ids]
      omega
    · intro i hi
      refine hlt i ((List.Perm.mem_iff ?_).1 hi)
      rw [List.perm_iff_count]
      intro a
      simp only [List.count_append, List.count_cons, List.count_nil, Tree.ids]
      omega

theorem toList_blacken (T : Tree K V) : T.blacken.toList = T.toList := by
  cases T <;> rfl

theorem toList_recolorTree (fp fg : Frame K V) (N : Tree K V) :
    (recolorTree fp fg N).toList = (fg.fill (fp.fill N)).toList := by
  cases fp <;> cases fg <;> simp [recolorTree, Frame.fill, Tree.toList, toList_blacken]

theorem toList_rotTree (fp fg : Frame K V) (l : Tree K V) (n : Nat) (k : K) (v : V) (c : Bool)
    (r : Tree K V) :
    (rotTree fp fg (Tree.node l n k v c r)).toList =
      (fg.fill (fp.fill (Tree.node l n k v c r))).toList := by
  cases fp <;> cases fg <;> simp [rotTree, Frame.fill, Tree.toList]

theorem rotate_spec (t : RBTree K V) (up : List (Frame K V)) (fp fg : Frame K V)
    (l : Tree K V) (n : Nat) (k : K) (v : V) (c : Bool) (r : Tree K V)
    (hg : GoodAt t (fp :: fg :: up) (Tree.node l n k v c r)) :
    ∃ t', rotate t n fp.id fg.id fg.dir = Res.ok t' ∧
      GoodAt t' up (rotTree fp fg (Tree.node l n k v c r)) ∧ t'.next = t.next := by
  rcases fp with ⟨p, kp, vp, cp, s⟩ | ⟨s, p, kp, vp, cp⟩ <;>
    rcases fg with ⟨g, kg, vg, cg, u⟩ | ⟨u, g, kg, vg, cg⟩
  · have hg0 := hg
    obtain ⟨⟨hn, hl, hr⟩, ⟨⟨hp, hs⟩, ⟨hgn, hu⟩, hc⟩, hroot, hnd, hlt⟩ := hg
    simp only [ctxPar_cons, id_left, id_right, ptr_node, ctxRoot] at hn hp hgn hroot
    simp only [ctxIds, id_left, id_right, Frame.sib] at hnd hlt
    have hsn : s.ptr ≠ some n := by
      intro h
      refine disj_of_nodup hnd [n] s.ids (fun a => ?_) n (ptr_mem h) (by simp)
      simp only [List.count_append, List.count_cons, List.count_nil, Tree.ids]
      omega
    simp only [rotate, getLink, load, hp, res_bind_ok, res_pure, Node.link, id_left, Frame.dir,
      Bool.not_false, if_true, if_neg hsn, rotTree]
    exact rotateOuter_L t up (Tree.node l n k v c r) p kp vp cp s (some g) g kg vg cg u
      ⟨hp, ⟨hn, hl, hr⟩, hs, hgn, hu, hc, hroot, hnd, hlt⟩
  · obtain ⟨t1, h1, hpre, hn1⟩ := rotateInner_RL t up l n k v c r p kp vp cp s g kg vg cg u hg
    obtain ⟨t2, h2, hgood, hn2⟩ := rotateOuter_R t1 up _ n k v c l (some p) g kg vg cg u hpre
    obtain ⟨⟨hn, hl, hr⟩, ⟨⟨hp, hs⟩, ⟨hgn, hu⟩, hc⟩, hroot, hnd, hlt⟩ := hg
    simp only [ctxPar_cons, id_left, id_right, ptr_node, ctxRoot] at hn hp hgn hroot
    refine ⟨t2, ?_, hgood, hn2.trans hn1⟩
    simp only [rotate, getLink, load, hp, res_bind_ok, res_pure, Node.link, id_left, id_right,
      Frame.dir, Bool.not_true, if_true, h1, h2]
    simp
  · obtain ⟨t1, h1, hpre, hn1⟩ := rotateInner_LR t up l n k v c r p kp vp cp s g kg vg cg u hg
    obtain ⟨t2, h2, hgood, hn2⟩ := rotateOuter_L t1 up _ n k v c r (some p) g kg vg cg u hpre
    obtain ⟨⟨hn, hl, hr⟩, ⟨⟨hp, hs⟩, ⟨hgn, hu⟩, hc⟩, hroot, hnd, hlt⟩ := hg
    simp only [ctxPar_cons, id_left, id_right, ptr_node, ctxRoot] at hn hp hgn hroot
    refine ⟨t2, ?_, hgood, hn2.trans hn1⟩
    simp only [rotate, getLink, load, hp, res_bind_ok, res_pure, Node.link, id_left, id_right,
      Frame.dir, Bool.not_false, if_true, h1, h2]
  · obtain ⟨⟨hn, hl, hr⟩, ⟨⟨hp, hs⟩, ⟨hgn, hu⟩, hc⟩, hroot, hnd, hlt⟩ := hg
    simp only [ctxPar_cons, id_left, id_right, ptr_node, ctxRoot] at hn hp hgn hroot
    simp only [ctxIds, id_left, id_right, Frame.sib] at hnd hlt
    have hsn : s.ptr ≠ some n := by
      intro h
      refine disj_of_nodup hnd [n] s.ids (fun a => ?_) n (ptr_mem h) (by simp)
      simp only [List.count_append, List.count_cons, List.count_nil, Tree.ids]
      omega
    simp only [rotate, getLink, load, hp, res_bind_ok, res_pure, Node.link, id_right, Frame.dir,
      Bool.not_true, rotTree]
    simp only [Bool.false_eq_true, if_false, if_neg hsn]
    exact rotateOuter_R t up (Tree.node l n k v c r) p kp vp cp s (some g) g kg vg cg u
      ⟨hp, ⟨hn, hl, hr⟩, hs, hgn, hu, hc, hroot, hnd, hlt⟩

theorem recolor_spec (t : RBTree K V) (up : List (Frame K V)) (fp fg : Frame K V)
    (N ul : Tree K V) (ui : Nat) (uk : K) (uv : V) (uc : Bool) (ur : Tree K V)
    (hg : GoodAt t (fp :: fg :: up) N) (hu : fg.sib = Tree.node ul ui uk uv uc ur) :
    ∃ t', (do
        let t ← setRed t fp.id false
        let t ← setRed t ui false
        setRed t fg.id true) = Res.ok t' ∧
      GoodAt t' up (recolorTree fp fg N) ∧ t'.next = t.next := by
  rcases fp with ⟨p, kp, vp, cp, s⟩ | ⟨s, p, kp, vp, cp⟩ <;>
    rcases fg with ⟨g, kg, vg, cg, u⟩ | ⟨u, g, kg, vg, cg⟩ <;>
    (simp only [Frame.sib] at hu
     subst hu
     obtain ⟨hN, ⟨⟨hp, hs⟩, ⟨hgn, hun, hul, hur⟩, hc⟩, hroot, hnd, hlt⟩ := hg
     simp only [ctxPar_cons, id_left, id_right, ptr_node, ctxRoot] at hN hp hgn hroot
     simp only [ctxIds, Tree.ids, id_left, id_right, Frame.sib] at hnd hlt
     have hne : p ≠ g ∧ p ≠ ui ∧ g ≠ p ∧ g ≠ ui ∧ ui ≠ p ∧ ui ≠ g := by
       repeat' apply And.intro
       all_goals (rintro rfl; simp [List.nodup_append, List.nodup_cons] at hnd)
     simp [setRed, load, store, hp, hgn, hun, Function.update_apply, hne]
     simp only [recolorTree, Tree.blacken]
     refine ⟨?_, ctxRepr_keep t.mem hnd [p, g, ui] hc
       (fun i hi => by simp at hi; simp [Function.update_apply, hi])
       (fun a => by simp only [List.count_append, List.count_cons, List.count_nil]; omega),
       hroot, ?_, ?_⟩
     · simp only [Repr]
       repeat' apply And.intro
       all_goals first
         | exact repr_keep t.mem hnd [p, g, ui] (by assumption)
             (fun i hi => by simp at hi; simp [Function.update_apply, hi])
             (fun a => by simp only [List.count_append, List.count_cons, List.count_nil]; omega)
         | simp [Function.update_apply, hne]
     · refine (List.Perm.nodup_iff ?_).1 hnd
       rw [List.perm_iff_count]
       intro a
       simp only [List.count_append, List.count_cons, List.count_nil, Tree.ids]
       omega
     · intro i hi
       refine hlt i ((List.Perm.mem_iff ?_).1 hi)
       rw [List.perm_iff_count]
       intro a
       simp only [List.count_append, List.count_cons, List.count_nil, Tree.ids]
       omega)

theorem res_bind_assoc {α β γ : Type} (x : Res α) (f : α → Res β) (g : β → Res γ) :
    (x >>= f) >>= g = x >>= fun a => f a >>= g := by
  cases x <;> rfl

theorem ctxRepr_cons {mem : Nat → Option (Node K V)} {f : Frame K V} {up : List (Frame K V)}
    {hole : Option Nat} (h : CtxRepr mem (f :: up) hole) :
    ∃ nd, mem f.id = some nd ∧ nd.link f.dir = hole ∧ nd.link (!f.dir) = f.sib.ptr ∧
      nd.parent = ctxPar up ∧ nd.red = f.red ∧ Repr mem (some f.id) f.sib ∧
      CtxRepr mem up (some f.id) := by
  cases f with
  | left id k v c r =>
    obtain ⟨⟨h1, h2⟩, h3⟩ := h
    exact ⟨_, h1, rfl, rfl, rfl, rfl, h2, h3⟩
  | right l id k v c =>
    obtain ⟨⟨h1, h2⟩, h3⟩ := h
    exact ⟨_, h1, rfl, rfl, rfl, rfl, h2, h3⟩

theorem recolorTree_node (fp fg : Frame K V) (N : Tree K V) :
    ∃ l k v c r, recolorTree fp fg N = Tree.node l fg.id k v c r := by
  cases fg <;> exact ⟨_, _, _, _, _, rfl⟩

theorem fixInsertLoop_spec (fuel : Nat) :
    ∀ (C : List (Frame K V)) (t : RBTree K V) (l : Tree K V) (n : Nat) (k : K) (v : V)
      (c : Bool) (r : Tree K V),
      GoodAt t C (Tree.node l n k v c r) → C.length < fuel →
      ∃ t' T', fixInsertLoop fuel t n = Res.ok t' ∧ Good t' T' ∧ t'.next = t.next ∧
        T'.toList = (plug C (Tree.node l n k v c r)).toList := by
  induction fuel with
  | zero =>
    intro C t l n k v c r _ h
    omega
  | succ fuel ih =>
    intro C t l n k v c r hg hlen
    have hne : plug C (Tree.node l n k v c r) ≠ Tree.nil := by
      intro h
      have h1 := ptr_plug C (Tree.node l n k v c r)
      obtain ⟨y, hy⟩ := ctxRoot_some C n
      rw [h, ptr_node, hy] at h1
      simp at h1
    have hbl := blackenRoot_spec t _ ((good_plug t C _).2 hg) hne
    have hg0 := hg
    obtain ⟨⟨hn, hl, hr⟩, hc, hroot, hnd, hlt⟩ := hg
    rw [fixInsertLoop]
    simp only [load, hn, res_bind_ok]
    cases C with
    | nil => exact hbl
    | cons fp C =>
      obtain ⟨pn, hp, hpl, hps, hpp, hpr, hpsib, hc1⟩ := ctxRepr_cons hc
      simp only [ctxPar_cons, hp, res_bind_ok]
      cases hred : fp.red with
      | false =>
        simp only [hpr, hred, Bool.not_false, if_true]
        exact hbl
      | true =>
        simp only [hpr, hred, Bool.not_true, Bool.false_eq_true, if_false]
        cases C with
        | nil =>
          simp only [hpp, ctxPar_nil]
          exact hbl
        | cons fg up =>
          obtain ⟨gn, hgn, hgl, hgs, hgp, hgr, hgsib, hc2⟩ := ctxRepr_cons hc1
          have hdir : decide (gn.link0 ≠ some fp.id) = fg.dir := by
            cases hd : fg.dir with
            | false =>
              rw [hd] at hgl
              simp only [Node.link, Bool.false_eq_true, if_false] at hgl
              simp [hgl]
            | true =>
              rw [hd] at hgs
              simp only [Node.link, Bool.not_true, Bool.false_eq_true, if_false] at hgs
              have hx : fg.sib.ptr ≠ some fp.id := by
                intro h
                refine disj_of_nodup hnd [fp.id] fg.sib.ids (fun a => ?_) _ (ptr_mem h) (by simp)
                simp only [ctxIds, List.count_append, List.count_cons, List.count_nil]
                omega
              simp [hgs, hx]
          simp only [hpp, ctxPar_cons, hgn, res_bind_ok, hdir, hgs]
          obtain ⟨t2, hrot, hgood2, hnext2⟩ := rotate_spec t up fp fg l n k v c r hg0
          have hrotres : ∃ t' T', rotate t n fp.id fg.id fg.dir = Res.ok t' ∧ Good t' T' ∧
              t'.next = t.next ∧ T'.toList = (plug (fp :: fg :: up) (Tree.node l n k v c r)).toList := by
            refine ⟨t2, _, hrot, (good_plug t2 up _).2 hgood2, hnext2, ?_⟩
            rw [toList_plug, toList_rotTree, plug, plug, toList_plug]
          cases hsib : fg.sib with
          | nil =>
            simp only [ptr_nil, res_pure, res_bind_ok, Bool.false_eq_true, if_false]
            exact hrotres
          | node ul ui uk uv uc ur =>
            rw [hsib] at hgsib
            obtain ⟨hun, hul, hur⟩ := hgsib
            simp only [ptr_node, load, hun, res_pure, res_bind_ok]
            cases uc with
            | false =>
              simp only [Bool.false_eq_true, if_false]
              exact hrotres
            | true =>
              simp only [if_true]
              obtain ⟨t1, hrec, hgood1, hnext1⟩ :=
                recolor_spec t up fp fg (Tree.node l n k v c r) ul ui uk uv true ur hg0 hsib
              obtain ⟨l1, k1, v1, c1, r1, hshape⟩ := recolorTree_node fp fg (Tree.node l n k v c r)
              rw [hshape] at hgood1
              obtain ⟨t', T', hrun, hgood', hnext', hlist⟩ :=
                ih up t1 l1 fg.id k1 v1 c1 r1 hgood1 (by simp only [List.length_cons] at hlen; omega)
              refine ⟨t', T', ?_, hgood', hnext'.trans hnext1, ?_⟩
              · have hassoc : (do
                    let t ← setRed t fp.id false
                    let y ← setRed t ui false
                    let t ← setRed y fg.id true
                    fixInsertLoop fuel t fg.id) = (do
                    let t ← (do
                      let t ← setRed t fp.id false
                      let t ← setRed t ui false
                      setRed t fg.id true)
                    fixInsertLoop fuel t fg.id) := by
                  simp only [res_bind_assoc]
                rw [hassoc, hrec]
                exact hrun
              · rw [hlist, ← hshape, toList_plug, toList_recolorTree, plug, plug, toList_plug]

theorem lookup_nil (cmp : K → K → Int) (key : K) : lookup cmp ([] : List (K × V)) key = none :=
  rfl

theorem lookup_cons (cmp : K → K → Int) (kv : K × V) (L : List (K × V)) (key : K) :
    lookup cmp (kv :: L) key = if cmp kv.1 key = 0 then some kv.2 else lookup cmp L key := by
  unfold lookup
  by_cases h : cmp kv.1 key = 0
  · simp [List.find?_cons, h]
  · simp [List.find?_cons, h]

theorem lookup_append_of_none (cmp : K → K → Int) (A B : List (K × V)) (key : K)
    (h : ∀ x ∈ A, cmp x.1 key ≠ 0) : lookup cmp (A ++ B) key = lookup cmp B key := by
  induction A with
  | nil => rfl
  | cons a A ih =>
    rw [List.cons_append, lookup_cons, if_neg (h a (by simp))]
    exact ih (fun x hx => h x (by simp [hx]))

theorem lookup_none_of_forall (cmp : K → K → Int) (A : List (K × V)) (key : K)
    (h : ∀ x ∈ A, cmp x.1 key ≠ 0) : lookup cmp A key = none := by
  have := lookup_append_of_none cmp A [] key h
  rwa [List.append_nil, lookup_nil] at this

theorem lookup_append_left (cmp : K → K → Int) (A B : List (K × V)) (key : K)
    (h : ∀ x ∈ B, cmp x.1 key ≠ 0) : lookup cmp (A ++ B) key = lookup cmp A key := by
  induction A with
  | nil => exact lookup_none_of_forall cmp B key h
  | cons a A ih =>
    rw [List.cons_append, lookup_cons, lookup_cons, ih]

theorem cmp_self {cmp : K → K → Int} (hcmp : TotalOrder cmp) (a : K) : cmp a a = 0 :=
  (hcmp.eq_zero a a).2 rfl

theorem cmp_ne_of_lt {cmp : K → K → Int} (hcmp : TotalOrder cmp) {a b key : K}
    (h1 : cmp a b < 0) (h2 : cmp b key ≤ 0) : cmp a key ≠ 0 := by
  intro h
  have := (hcmp.eq_zero a key).1 h
  subst this
  have := (hcmp.antisymm a b).1 h1
  omega

theorem cmp_ne_of_gt {cmp : K → K → Int} (hcmp : TotalOrder cmp) {a b key : K}
    (h1 : cmp b a < 0) (h2 : 0 ≤ cmp b key) : cmp a key ≠ 0 := by
  intro h
  have := (hcmp.eq_zero a key).1 h
  subst this
  omega

theorem asc_node {cmp : K → K → Int} (l r : List (K × V)) (k : K) (v : V)
    (h : Ascending cmp (l ++ (k, v) :: r)) :
    Ascending cmp l ∧ Ascending cmp r ∧ (∀ x ∈ l, cmp x.1 k < 0) ∧ ∀ x ∈ r, cmp k x.1 < 0 := by
  unfold Ascending at h ⊢
  rw [List.pairwise_append, List.pairwise_cons] at h
  exact ⟨h.1, h.2.1.2, fun x hx => h.2.2 x hx (k, v) (by simp), fun x hx => h.2.1.1 x hx⟩

theorem searchLoop_spec (cmp : K → K → Int) (hcmp : TotalOrder cmp) (t : RBTree K V) (key : K)
    (T : Tree K V) : ∀ (par : Option Nat) (fuel : Nat), Repr t.mem par T → T.height < fuel →
      Ascending cmp T.toList →
      ∃ res, searchLoop cmp t key fuel T.ptr = Res.ok res ∧
        ((res = none ∧ lookup cmp T.toList key = none) ∨
          ∃ i nd, res = some i ∧ t.mem i = some nd ∧ lookup cmp T.toList key = some nd.v) := by
  induction T with
  | nil =>
    intro par fuel _ hf _
    cases fuel with
    | zero => simp [Tree.height] at hf
    | succ fuel => exact ⟨none, rfl, Or.inl ⟨rfl, rfl⟩⟩
  | node l id k v c r ihl ihr =>
    intro par fuel hr hf hasc
    obtain ⟨hn, hl, hrr⟩ := hr
    obtain ⟨hal, har, hlk, hkr⟩ := asc_node _ _ _ _ hasc
    cases fuel with
    | zero => simp at hf
    | succ fuel =>
      simp only [Tree.height] at hf
      simp only [ptr_node, searchLoop, load, hn, res_bind_ok, Tree.toList]
      by_cases h1 : cmp k key > 0
      · simp only [h1, if_true]
        obtain ⟨res, hres, hpost⟩ := ihl (some id) fuel hl (by omega) hal
        refine ⟨res, hres, ?_⟩
        have : lookup cmp (l.toList ++ (k, v) :: r.toList) key = lookup cmp l.toList key := by
          refine lookup_append_left cmp _ _ key (fun x hx => ?_)
          rcases List.mem_cons.1 hx with rfl | hx
          · show cmp k key ≠ 0
            omega
          · exact cmp_ne_of_gt hcmp (hkr x hx) (by omega)
        rw [this]
        exact hpost
      · by_cases h2 : cmp k key < 0
        · simp only [h1, h2, if_true, if_false]
          obtain ⟨res, hres, hpost⟩ := ihr (some id) fuel hrr (by omega) har
          refine ⟨res, hres, ?_⟩
          have : lookup cmp (l.toList ++ (k, v) :: r.toList) key = lookup cmp r.toList key := by
            rw [lookup_append_of_none cmp _ _ key
              (fun x hx => cmp_ne_of_lt hcmp (hlk x hx) (by omega)), lookup_cons, if_neg]
            show cmp k key ≠ 0
            omega
          rw [this]
          exact hpost
        · simp only [h1, h2, if_false]
          have h0 : cmp k key = 0 := by omega
          refine ⟨some id, rfl, Or.inr ⟨id, _, rfl, hn, ?_⟩⟩
          rw [lookup_append_of_none cmp _ _ key
            (fun x hx => cmp_ne_of_lt hcmp (hlk x hx) (by omega)), lookup_cons, if_pos h0]

theorem length_le_of_nodup_lt {L : List Nat} {n : Nat} (hnd : L.Nodup) (h : ∀ i ∈ L, i < n) :
    L.length ≤ n := by
  have := (List.subperm_of_subset hnd (fun i hi => List.mem_range.2 (h i hi))).length_le
  simpa using this

theorem height_le_ids (T : Tree K V) : T.height ≤ T.ids.length := by
  induction T with
  | nil => simp [Tree.height]
  | node l id k v c r ihl ihr =>
    simp only [Tree.height, Tree.ids, List.length_append, List.length_cons]
    omega

theorem length_le_ctxIds (C : List (Frame K V)) : C.length ≤ (ctxIds C).length := by
  induction C with
  | nil => simp
  | cons f up ih =>
    simp only [ctxIds, List.length_cons, List.length_append]
    omega

theorem goodAt_bound {t : RBTree K V} {C : List (Frame K V)} {sub : Tree K V}
    (hg : GoodAt t C sub) : sub.height + C.length ≤ t.next := by
  obtain ⟨-, -, -, hnd, hlt⟩ := hg
  have h1 := length_le_of_nodup_lt hnd hlt
  have h2 := height_le_ids sub
  have h3 := length_le_ctxIds C
  simp only [List.length_append] at h1
  omega

theorem Search_spec (cmp : K → K → Int) (hcmp : TotalOrder cmp) (t : RBTree K V) (T : Tree K V)
    (key : K) (hg : Good t T) (hasc : Ascending cmp T.toList) :
    Search cmp t key = Res.ok (lookup cmp T.toList key) := by
  have hb := goodAt_bound hg
  obtain ⟨hr, -, hroot, -, -⟩ := hg
  obtain ⟨res, hres, hpost⟩ :=
    searchLoop_spec cmp hcmp t key T none (t.next + 1) hr (by omega) hasc
  simp only [ctxRoot] at hroot
  simp only [Search, searchNode, hroot, hres, res_bind_ok]
  rcases hpost with ⟨rfl, h⟩ | ⟨i, nd, rfl, hnd, h⟩
  · simp [h]
  · simp [load, hnd, h]

theorem attach_spec (t : RBTree K V) (C : List (Frame K V)) (key : K) (value : V)
    (hg : GoodAt t C Tree.nil) :
    ∃ t2, (match ctxPar C with
        | some pi => setLink { t with
            mem := Function.update t.mem t.next
              (some { link0 := none, link1 := none, parent := ctxPar C, k := key, v := value,
                      red := true })
            next := t.next + 1 } pi (ctxDir C) (some t.next)
        | none => pure { t with
            mem := Function.update t.mem t.next
              (some { link0 := none, link1 := none, parent := ctxPar C, k := key, v := value,
                      red := true })
            next := t.next + 1
            root := some t.next }) = Res.ok t2 ∧
      GoodAt t2 C (Tree.node Tree.nil t.next key value true Tree.nil) ∧
      t2.next = t.next + 1 := by
  obtain ⟨-, hc, hroot, hnd, hlt⟩ := hg
  simp only [Tree.ids, List.nil_append] at hnd hlt
  have hfresh : t.next ∉ ctxIds C := fun h => Nat.lt_irrefl _ (hlt _ h)
  have hnd2 : (t.next :: ctxIds C).Nodup := List.nodup_cons.2 ⟨hfresh, hnd⟩
  have hlt2 : ∀ i ∈ t.next :: ctxIds C, i < t.next + 1 := by
    intro i hi
    rcases List.mem_cons.1 hi with rfl | hi
    · omega
    · exact Nat.lt_succ_of_lt (hlt i hi)
  cases C with
  | nil =>
    refine ⟨_, rfl, ⟨⟨?_, trivial, trivial⟩, trivial, rfl, ?_, ?_⟩, rfl⟩
    · simp
    · simpa [Tree.ids] using hnd2
    · simpa [Tree.ids] using hlt2
  | cons f up =>
    cases f with
    | left p kp vp cp s =>
      obtain ⟨⟨hp, hs⟩, hc1⟩ := hc
      simp only [ctxIds, id_left, id_right, Frame.sib] at hnd2 hlt2 hfresh
      have hne : p ≠ t.next ∧ t.next ≠ p := by
        constructor <;> (rintro h; simp [← h] at hfresh)
      simp [setLink, load, store, ctxDir, Frame.dir, Function.update_apply, hne, hp, Node.setLink]
      refine ⟨⟨?_, trivial, trivial⟩, ⟨⟨?_, ?_⟩, ?_⟩, hroot, ?_, ?_⟩
      · simp [Function.update_apply, hne]
      · simp [Function.update_apply, hne]
      · exact repr_keep t.mem hnd2 [t.next, p] hs
          (fun i hi => by simp at hi; simp [Function.update_apply, hi])
          (fun a => by simp only [List.count_append, List.count_cons, List.count_nil]; omega)
      · exact ctxRepr_keep t.mem hnd2 [t.next, p] hc1
          (fun i hi => by simp at hi; simp [Function.update_apply, hi])
          (fun a => by simp only [List.count_append, List.count_cons, List.count_nil]; omega)
      · simpa [Tree.ids, ctxIds] using hnd2
      · simpa [Tree.ids, ctxIds] using hlt2
    | right s p kp vp cp =>
      obtain ⟨⟨hp, hs⟩, hc1⟩ := hc
      simp only [ctxIds, id_left, id_right, Frame.sib] at hnd2 hlt2 hfresh
      have hne : p ≠ t.next ∧ t.next ≠ p := by
        constructor <;> (rintro h; simp [← h] at hfresh)
      simp [setLink, load, store, ctxDir, Frame.dir, Function.update_apply, hne, hp, Node.setLink]
      refine ⟨⟨?_, trivial, trivial⟩, ⟨⟨?_, ?_⟩, ?_⟩, hroot, ?_, ?_⟩
      · simp [Function.update_apply, hne]
      · simp [Function.update_apply, hne]
      · exact repr_keep t.mem hnd2 [t.next, p] hs
          (fun i hi => by simp at hi; simp [Function.update_apply, hi])
          (fun a => by simp only [List.count_append, List.count_cons, List.count_nil]; omega)
      · exact ctxRepr_keep t.mem hnd2 [t.next, p] hc1
          (fun i hi => by simp at hi; simp [Function.update_apply, hi])
          (fun a => by simp only [List.count_append, List.count_cons, List.count_nil]; omega)
      · simpa [Tree.ids, ctxIds] using hnd2
      · simpa [Tree.ids, ctxIds] using hlt2

theorem insertLoop_nil (cmp : K → K → Int) (key : K) (value : V) (fuel : Nat) (t : RBTree K V)
    (C : List (Frame K V)) (hg : GoodAt t C Tree.nil) :
    ∃ t2, GoodAt t2 C (Tree.node Tree.nil t.next key value true Tree.nil) ∧
      t2.next = t.next + 1 ∧
      insertLoop cmp key value (fuel + 1) t none (ctxPar C) (ctxDir C) =
        (do
          let t ← fixInsert t2 t.next
          pure (t, none)) := by
  obtain ⟨t2, h2, hg2, hn2⟩ := attach_spec t C key value hg
  refine ⟨t2, hg2, hn2, ?_⟩
  simp only [insertLoop]
  revert h2
  generalize ctxPar C = q
  intro h2
  cases q with
  | none =>
    simp only [] at h2 ⊢
    rw [h2]
    rfl
  | some pi =>
    simp only [] at h2 ⊢
    rw [h2]
    rfl

theorem asc_insert {cmp : K → K → Int} (hcmp : TotalOrder cmp) {A B : List (K × V)} {key : K}
    (value : V) (h : Ascending cmp (A ++ B)) (hA : ∀ x ∈ A, cmp x.1 key < 0)
    (hB : ∀ x ∈ B, 0 < cmp x.1 key) : Ascending cmp (A ++ (key, value) :: B) := by
  unfold Ascending at h ⊢
  rw [List.pairwise_append] at h
  rw [List.pairwise_append, List.pairwise_cons]
  refine ⟨h.1, ⟨fun b hb => (hcmp.antisymm _ _).2 (hB b hb), h.2.1⟩, fun a ha b hb => ?_⟩
  rcases List.mem_cons.1 hb with rfl | hb
  · exact hA a ha
  · exact h.2.2 a ha b hb

theorem asc_replace {cmp : K → K → Int} (A B : List (K × V)) (k : K) (v v' : V)
    (h : Ascending cmp (A ++ (k, v) :: B)) : Ascending cmp (A ++ (k, v') :: B) := by
  unfold Ascending at h ⊢
  rw [List.pairwise_append, List.pairwise_cons] at h ⊢
  refine ⟨h.1, ⟨h.2.1.1, h.2.1.2⟩, fun a ha b hb => ?_⟩
  rcases List.mem_cons.1 hb with rfl | hb
  · exact h.2.2 a ha (k, v) (by simp)
  · exact h.2.2 a ha b (by simp [hb])

theorem lookup_insert_self {cmp : K → K → Int} (hcmp : TotalOrder cmp) {A B : List (K × V)}
    {key : K} (value : V) (hA : ∀ x ∈ A, cmp x.1 key < 0) :
    lookup cmp (A ++ (key, value) :: B) key = some value := by
  rw [lookup_append_of_none cmp _ _ key (fun x hx => by have := hA x hx; omega), lookup_cons,
    if_pos (cmp_self hcmp key)]

theorem lookup_insert_other {cmp : K → K → Int} (hcmp : TotalOrder cmp) (A B : List (K × V))
    {key k' : K} (value : V) (h : k' ≠ key) :
    lookup cmp (A ++ (key, value) :: B) k' = lookup cmp (A ++ B) k' := by
  induction A with
  | nil =>
    rw [List.nil_append, List.nil_append, lookup_cons, if_neg]
    exact fun h0 => h ((hcmp.eq_zero _ _).1 h0).symm
  | cons a A ih => rw [List.cons_append, List.cons_append, lookup_cons, lookup_cons, ih]

theorem lookup_absent {cmp : K → K → Int} {A B : List (K × V)} {key : K}
    (hA : ∀ x ∈ A, cmp x.1 key < 0) (hB : ∀ x ∈ B, 0 < cmp x.1 key) :
    lookup cmp (A ++ B) key = none := by
  refine lookup_none_of_forall cmp _ key (fun x hx => ?_)
  rcases List.mem_append.1 hx with hx | hx
  · have := hA x hx
    omega
  · have := hB x hx
    omega

theorem lookup_found {cmp : K → K → Int} (hcmp : TotalOrder cmp) (A B : List (K × V))
    (k key : K) (v v' : V) (h : Ascending cmp (A ++ (k, v) :: B)) (h0 : cmp k key = 0) :
    lookup cmp (A ++ (k, v') :: B) key = some v' := by
  have hA := (asc_node _ _ _ _ h).2.2.1
  rw [lookup_append_of_none cmp _ _ key
    (fun x hx => cmp_ne_of_lt hcmp (hA x hx) (by omega)), lookup_cons, if_pos h0]

theorem lookup_replace_other {cmp : K → K → Int} (A B : List (K × V)) (k k' : K) (v v' : V)
    (h : cmp k k' ≠ 0) :
    lookup cmp (A ++ (k, v') :: B) k' = lookup cmp (A ++ (k, v) :: B) k' := by
  induction A with
  | nil => rw [List.nil_append, List.nil_append, lookup_cons, lookup_cons, if_neg h, if_neg h]
  | cons a A ih => rw [List.cons_append, List.cons_append, lookup_cons, lookup_cons, ih]

theorem insertLoop_spec (cmp : K → K → Int) (hcmp : TotalOrder cmp) (key : K) (value : V)
    (sub : Tree K V) : ∀ (C : List (Frame K V)) (t : RBTree K V) (fuel : Nat),
      GoodAt t C sub → sub.height < fuel → Ascending cmp (plug C sub).toList →
      (∀ x ∈ ctxL C, cmp x.1 key < 0) → (∀ x ∈ ctxR C, 0 < cmp x.1 key) →
      ∃ t' ret, insertLoop cmp key value fuel t sub.ptr (ctxPar C) (ctxDir C) =
          Res.ok (t', ret) ∧
        InsertPost cmp (plug C sub).toList key value t' ret := by
  induction sub with
  | nil =>
    intro C t fuel hg hf hasc hL hR
    cases fuel with
    | zero => simp at hf
    | succ fuel =>
      obtain ⟨t2, hg2, hn2, hrun⟩ := insertLoop_nil cmp key value fuel t C hg
      have hb := goodAt_bound hg2
      obtain ⟨t', T', hfix, hgood, -, hlist⟩ :=
        fixInsertLoop_spec (t2.next + 1) C t2 Tree.nil t.next key value true Tree.nil hg2
          (by omega)
      refine ⟨t', none, ?_, T', hgood, ?_, ?_, ?_, ?_⟩
      · rw [ptr_nil, hrun]
        simp only [fixInsert, hfix, res_bind_ok, res_pure]
      all_goals
        rw [toList_plug] at hasc
        simp only [Tree.toList, List.append_nil] at hasc
      · rw [hlist, toList_plug]
        simpa [Tree.toList] using asc_insert hcmp value hasc hL hR
      · rw [toList_plug]
        simpa [Tree.toList] using (lookup_absent hL hR).symm
      · rw [hlist, toList_plug]
        simpa [Tree.toList] using lookup_insert_self hcmp value hL
      · intro k' hk'
        rw [hlist, toList_plug, toList_plug]
        simpa [Tree.toList] using lookup_insert_other hcmp (ctxL C) (ctxR C) value hk'
  | node l id k v c r ihl ihr =>
    intro C t fuel hg hf hasc hL hR
    cases fuel with
    | zero => simp at hf
    | succ fuel =>
      simp only [Tree.height] at hf
      have hasc0 := hasc
      rw [toList_plug] at hasc
      simp only [Tree.toList, List.append_assoc] at hasc
      have hmid := asc_node (ctxL C ++ l.toList) (r.toList ++ ctxR C) k v
        (by simpa using hasc)
      obtain ⟨⟨hn, hl, hr⟩, hc, hroot, hnd, hlt⟩ := hg
      simp only [ptr_node, insertLoop, load, hn, res_bind_ok]
      by_cases h1 : cmp k key > 0
      · simp only [h1, if_true]
        have hkey : cmp key k < 0 := (hcmp.antisymm key k).2 h1
        refine ihl (Frame.left id k v c r :: C) t fuel ⟨hl, ⟨⟨hn, hr⟩, hc⟩, hroot, ?_, ?_⟩
          (by omega) hasc0 hL ?_
        · simpa [Tree.ids, ctxIds, Frame.sib] using hnd
        · simpa [Tree.ids, ctxIds, Frame.sib] using hlt
        · intro x hx
          simp only [ctxR, List.cons_append, List.mem_cons] at hx
          rcases hx with rfl | hx
          · exact h1
          · exact (hcmp.antisymm _ _).1 (hcmp.trans _ _ _ hkey (hmid.2.2.2 x hx))
      · by_cases h2 : cmp k key < 0
        · simp only [h1, h2, if_true, if_false]
          refine ihr (Frame.right l id k v c :: C) t fuel ⟨hr, ⟨⟨hn, hl⟩, hc⟩, hroot, ?_, ?_⟩
            (by omega) hasc0 ?_ hR
          · refine (List.Perm.nodup_iff ?_).1 hnd
            rw [List.perm_iff_count]
            intro a
            simp only [Tree.ids, ctxIds, Frame.sib, id_right, List.count_append, List.count_cons]
            omega
          · intro i hi
            refine hlt i ((List.Perm.mem_iff ?_).1 hi)
            rw [List.perm_iff_count]
            intro a
            simp only [Tree.ids, ctxIds, Frame.sib, id_right, List.count_append, List.count_cons]
            omega
          · intro x hx
            simp only [ctxL, List.mem_append, List.mem_singleton] at hx
            rcases hx with hx | rfl
            · exact hcmp.trans _ _ _ (hmid.2.2.1 x (List.mem_append.2 hx)) h2
            · exact h2
        · simp only [h1, h2, if_false]
          have h0 : cmp k key = 0 := by omega
          have hkk : k = key := (hcmp.eq_zero k key).1 h0
          have hidl : ∀ a, List.count a [id] + List.count a l.ids ≤
              List.count a ((Tree.node l id k v c r).ids ++ ctxIds C) := by
            intro a
            simp only [Tree.ids, List.count_append, List.count_cons, List.count_nil]
            omega
          have hidr : ∀ a, List.count a [id] + List.count a r.ids ≤
              List.count a ((Tree.node l id k v c r).ids ++ ctxIds C) := by
            intro a
            simp only [Tree.ids, List.count_append, List.count_cons, List.count_nil]
            omega
          have hidc : ∀ a, List.count a [id] + List.count a (ctxIds C) ≤
              List.count a ((Tree.node l id k v c r).ids ++ ctxIds C) := by
            intro a
            simp only [Tree.ids, List.count_append, List.count_cons, List.count_nil]
            omega
          have hW : ∀ i, i ∉ [id] → (store t id ⟨l.ptr, r.ptr, ctxPar C, k, value, c⟩).mem i =
              t.mem i := by
            intro i hi
            simp only [List.mem_singleton] at hi
            simp [store, Function.update_apply, hi]
          have hgood : GoodAt (store t id ⟨l.ptr, r.ptr, ctxPar C, k, value, c⟩) C
              (Tree.node l id k value c r) :=
            ⟨⟨by simp [store], repr_keep t.mem hnd [id] hl hW hidl,
              repr_keep t.mem hnd [id] hr hW hidr⟩,
              ctxRepr_keep t.mem hnd [id] hc hW hidc, hroot, hnd, hlt⟩
          refine ⟨_, _, rfl, plug C (Tree.node l id k value c r), (good_plug _ _ _).2 hgood,
            ?_, ?_, ?_, ?_⟩
          · rw [toList_plug]
            simp only [Tree.toList, List.append_assoc]
            have := asc_replace (ctxL C ++ l.toList) (r.toList ++ ctxR C) k v value
              (by simpa using hasc)
            simpa using this
          · rw [toList_plug]
            simp only [Tree.toList, List.append_assoc]
            have := lookup_found hcmp (ctxL C ++ l.toList) (r.toList ++ ctxR C) k key v v
              (by simpa using hasc) h0
            simpa using this.symm
          · rw [toList_plug]
            simp only [Tree.toList, List.append_assoc]
            have := lookup_found hcmp (ctxL C ++ l.toList) (r.toList ++ ctxR C) k key v value
              (by simpa using hasc) h0
            simpa using this
          · intro k' hk'
            rw [toList_plug, toList_plug]
            simp only [Tree.toList, List.append_assoc]
            have := lookup_replace_other (ctxL C ++ l.toList) (r.toList ++ ctxR C) k k' v value
              (fun h => hk' (((hcmp.eq_zero k k').1 h).symm.trans hkk))
            simpa using this

theorem Insert_spec (cmp : K → K → Int) (hcmp : TotalOrder cmp) (t : RBTree K V) (T : Tree K V)
    (key : K) (value : V) (hg : Good t T) (hasc : Ascending cmp T.toList) :
    ∃ t' ret, Insert cmp t key value = Res.ok (t', ret) ∧
      InsertPost cmp T.toList key value t' ret := by
  have hb := goodAt_bound hg
  have hroot : t.root = T.ptr := hg.2.2.1
  have := insertLoop_spec cmp hcmp key value T [] t (t.next + 1) hg (by omega) hasc
    (fun x hx => by simp [ctxL] at hx) (fun x hx => by simp [ctxR] at hx)
  rw [Insert, hroot]
  exact this

theorem good_empty : Good (RBTree.empty : RBTree K V) Tree.nil :=
  ⟨trivial, trivial, rfl, List.nodup_nil, fun i hi => by simp [Tree.ids, ctxIds] at hi⟩

theorem build_spec (cmp : K → K → Int) (hcmp : TotalOrder cmp) (ops : List (K × V)) :
    ∃ t T, build cmp ops = Res.ok t ∧ Good t T ∧ Ascending cmp T.toList ∧
      ∀ k', lookup cmp T.toList k' = lookup cmp ops k' := by
  induction ops with
  | nil => exact ⟨RBTree.empty, Tree.nil, rfl, good_empty, List.Pairwise.nil, fun _ => rfl⟩
  | cons kv rest ih =>
    obtain ⟨t, T, hb, hg, hasc, hlook⟩ := ih
    obtain ⟨t', ret, hins, T', hg', hasc', -, hself, hother⟩ :=
      Insert_spec cmp hcmp t T kv.1 kv.2 hg hasc
    refine ⟨t', T', ?_, hg', hasc', fun k' => ?_⟩
    · simp only [build, hb, hins, res_bind_ok, res_pure]
    · rw [lookup_cons]
      by_cases h : cmp kv.1 k' = 0
      · rw [if_pos h, ← (hcmp.eq_zero _ _).1 h]
        exact hself
      · rw [if_neg h, hother k' (fun hk => h ((hcmp.eq_zero _ _).2 hk.symm))]
        exact hlook k'

theorem insert_search_spec (cmp : K → K → Int) (hcmp : TotalOrder cmp) (ops : List (K × V))
    (key : K) (value : V) :
    ∃ t t', build cmp ops = Res.ok t ∧
      Insert cmp t key value = Res.ok (t', lookup cmp ops key) ∧
      Search cmp t key = Res.ok (lookup cmp ops key) ∧
      Search cmp t' key = Res.ok (some value) ∧
      ∀ k', k' ≠ key → Search cmp t' k' = Search cmp t k' := by
  obtain ⟨t, T, hb, hg, hasc, hlook⟩ := build_spec cmp hcmp ops
  obtain ⟨t', ret, hins, T', hg', hasc', hret, hself, hother⟩ :=
    Insert_spec cmp hcmp t T key value hg hasc
  refine ⟨t, t', hb, ?_, ?_, ?_, fun k' hk' => ?_⟩
  · rw [hins, hret, hlook]
  · rw [Search_spec cmp hcmp t T key hg hasc, hlook]
  · rw [Search_spec cmp hcmp t' T' key hg' hasc', hself]
  · rw [Search_spec cmp hcmp t' T' k' hg' hasc', Search_spec cmp hcmp t T k' hg hasc,
      hother k' hk']

theorem intCmp_total : TotalOrder intCmp :=
  ⟨fun a b => by unfold intCmp; omega, fun a b => by unfold intCmp; omega,
    fun a b c => by unfold intCmp; omega⟩

/-- C20: for every generic tree built by `Insert` calls under a total-order
`Cmp` (the list `ops` holds the inserted pairs, the most recent first), the
calls return: `Insert(key, value)` returns the value last stored under `key`
(`Some` of it when `key` was present, `None` otherwise), which is also what
`Search(key)` returned before; afterwards `Search(key)` returns `Some(value)`
and `Search` of every other key returns what it returned before. -/
theorem insert_search {K V : Type} (cmp : K → K → Int) (hcmp : TotalOrder cmp)
    (ops : List (K × V)) (key : K) (value : V) :
    ∃ t t', build cmp ops = Res.ok t ∧
      Insert cmp t key value = Res.ok (t', lookup cmp ops key) ∧
      Search cmp t key = Res.ok (lookup cmp ops key) ∧
      Search cmp t' key = Res.ok (some value) ∧
      ∀ k', k' ≠ key → Search cmp t' k' = Search cmp t k' :=
  insert_search_spec cmp hcmp ops key value

theorem insert_search_witness :
    TotalOrder intCmp ∧
      ∃ t t', build intCmp [((2 : Int), (20 : Nat)), (1, 10)] = Res.ok t ∧
        Insert intCmp t 1 11 = Res.ok (t', lookup intCmp [((2 : Int), (20 : Nat)), (1, 10)] 1) ∧
        Search intCmp t 1 = Res.ok (lookup intCmp [((2 : Int), (20 : Nat)), (1, 10)] 1) ∧
        Search intCmp t' 1 = Res.ok (some 11) ∧
        ∀ k', k' ≠ 1 → Search intCmp t' k' = Search intCmp t k' :=
  ⟨intCmp_total, insert_search intCmp intCmp_total [(2, 20), (1, 10)] 1 11⟩

end RBTreeGo2

namespace Trie

theorem suffix_snoc {v t : List Nat} {c : Nat} :
    v <:+ t ++ [c] ↔ v = [] ∨ ∃ u, v = u ++ [c] ∧ u <:+ t := by
  constructor
  · intro h
    rcases List.eq_nil_or_concat v with rfl | ⟨u, d, hv⟩
    · exact Or.inl rfl
    · right
      rw [List.concat_eq_append] at hv
      subst hv
      obtain ⟨a, ha⟩ := h
      have h1 : (a ++ u) ++ [d] = t ++ [c] := by simpa using ha
      have h2 := List.append_inj' h1 rfl
      obtain ⟨h3, h4⟩ := h2
      simp only [List.cons.injEq, and_true] at h4
      subst h4
      exact ⟨u, rfl, ⟨a, h3⟩⟩
  · rintro (rfl | ⟨u, rfl, a, rfl⟩)
    · exact List.nil_suffix
    · exact ⟨a, by simp⟩

theorem best_to_walk {L : List (List Nat)} {t : List Nat} {m : Nat} (c : Nat) {u : List Nat}
    (h : Best L t m u) : Walk L t m c u :=
  ⟨h.1, h.2.1, h.2.2.1, fun v hv hs hm _ => h.2.2.2 v hv hs hm⟩

theorem walk_found {L : List (List Nat)} (hL : PrefixClosed L) {t : List Nat} {m c : Nat}
    {u : List Nat} (h : Walk L t m c u) (hu : u ++ [c] ∈ L) :
    Best L (t ++ [c]) (m + 1) (u ++ [c]) := by
  obtain ⟨h1, h2, h3, h4⟩ := h
  refine ⟨hu, suffix_snoc.2 (Or.inr ⟨u, rfl, h2⟩), by simpa using h3, fun v hv hs hm => ?_⟩
  rcases suffix_snoc.1 hs with rfl | ⟨v, rfl, hvs⟩
  · simp
  · have := h4 v (hL v c hv) hvs (by simpa using hm) hv
    simpa using this

theorem walk_next {L : List (List Nat)} {t : List Nat} {m c : Nat} {u u' : List Nat}
    (h : Walk L t m c u) (hu : u ++ [c] ∉ L) (hb : Best L u (u.length - 1) u')
    (hne : u ≠ []) : Walk L t m c u' := by
  obtain ⟨h1, h2, h3, h4⟩ := h
  obtain ⟨b1, b2, b3, b4⟩ := hb
  have hlen : 0 < u.length := List.length_pos.2 hne
  refine ⟨b1, b2.trans h2, by omega, fun v hv hs hm hvc => ?_⟩
  have h5 := h4 v hv hs hm hvc
  have h6 : v ≠ u := fun h => hu (h ▸ hvc)
  have h7 : v <:+ u := List.suffix_of_suffix_length_le hs h2 h5
  have h8 : v.length < u.length := by
    rcases Nat.lt_or_ge v.length u.length with h | h
    · exact h
    · exact absurd (h7.eq_of_length_le h) h6
  exact b4 v hv h7 (by omega)

theorem walk_root {L : List (List Nat)} (hL : PrefixClosed L) {t : List Nat} {m c : Nat}
    (h : Walk L t m c []) (hc : [c] ∉ L) : Best L (t ++ [c]) (m + 1) [] := by
  obtain ⟨h1, h2, h3, h4⟩ := h
  refine ⟨h1, List.nil_suffix, Nat.zero_le _, fun v hv hs hm => ?_⟩
  rcases suffix_snoc.1 hs with rfl | ⟨v, rfl, hvs⟩
  · simp
  · exfalso
    have h5 := h4 v (hL v c hv) hvs (by simpa using hm) hv
    have h6 : v = [] := List.length_eq_zero.1 (Nat.le_zero.1 h5)
    subst h6
    exact hc hv

theorem best_unique {L : List (List Nat)} {t : List Nat} {m : Nat} {u u' : List Nat}
    (h : Best L t m u) (h' : Best L t m u') : u = u' := by
  have h1 := h.2.2.2 u' h'.1 h'.2.1 h'.2.2.1
  have h2 := h'.2.2.2 u h.1 h.2.1 h.2.2.1
  have h3 : u <:+ u' := List.suffix_of_suffix_length_le h.2.1 h'.2.1 h2
  exact h3.eq_of_length_le h1

theorem countP_suffix_of_best {L : List (List Nat)} {t u : List Nat} (pats : List (List Nat))
    (hp : ∀ p ∈ pats, p ∈ L) (h : Best L t t.length u) :
    pats.countP (fun p => p <:+ t) = pats.countP (fun p => p <:+ u) := by
  refine List.countP_congr (fun p hpm => ?_)
  simp only [decide_eq_true_eq]
  constructor
  · intro hs
    exact List.suffix_of_suffix_length_le hs h.2.1 (h.2.2.2 p (hp p hpm) hs hs.length_le)
  · intro hs
    exact hs.trans h.2.1

theorem countP_suffix_step {L : List (List Nat)} {u u' : List Nat} (pats : List (List Nat))
    (hp : ∀ p ∈ pats, p ∈ L) (hne : u ≠ []) (h : Best L u (u.length - 1) u') :
    pats.countP (fun p => p <:+ u) = pats.count u + pats.countP (fun p => p <:+ u') := by
  have hlen : 0 < u.length := List.length_pos.2 hne
  induction pats with
  | nil => simp
  | cons p pats ih =>
    have ih := ih (fun q hq => hp q (by simp [hq]))
    have hpL := hp p (by simp)
    simp only [List.countP_cons, List.count_cons, ih]
    by_cases hpu : p = u
    · subst hpu
      have : ¬ p <:+ u' := fun hs => by
        have := hs.length_le
        have := h.2.2.1
        omega
      simp [this]
      omega
    · by_cases hs : p <:+ u
      · have hlt : p.length < u.length := by
          rcases Nat.lt_or_ge p.length u.length with h | h
          · exact h
          · exact absurd (hs.eq_of_length_le h) hpu
        have hs' : p <:+ u' :=
          List.suffix_of_suffix_length_le hs h.2.1 (h.2.2.2 p hpL hs (by omega))
        simp [hs, hs', hpu]
        omega
      · have hs' : ¬ p <:+ u' := fun h' => hs (h'.trans h.2.1)
        simp [hs, hs', hpu]

theorem countP_suffix_nil (pats : List (List Nat)) (hp : ∀ p ∈ pats, p ≠ []) :
    pats.countP (fun p => p <:+ ([] : List Nat)) = 0 := by
  rw [List.countP_eq_zero]
  intro p hpm
  simp only [decide_eq_true_eq, List.suffix_nil]
  exact hp p hpm

@[simp] theorem run_bind_ok {α β : Type} (a : α) (f : α → Run β) : (Run.ok a >>= f) = f a := rfl

@[simp] theorem run_bind_outOfRange {α β : Type} (f : α → Run β) :
    ((Run.outOfRange : Run α) >>= f) = Run.outOfRange := rfl

@[simp] theorem run_bind_outOfFuel {α β : Type} (f : α → Run β) :
    ((Run.outOfFuel : Run α) >>= f) = Run.outOfFuel := rfl

@[simp] theorem run_pure {α : Type} (a : α) : (pure a : Run α) = Run.ok a := rfl

theorem nodeAt_cast (nodes : List acnode) (k : Nat) (nd : acnode) (h : nodes[k]? = some nd) :
    nodeAt nodes (k : Int) = Run.ok nd := by
  unfold nodeAt
  have : ¬ ((k : Int) < 0) := by omega
  simp [this, h]

theorem modifyAt_cast (nodes : List acnode) (k : Nat) (nd : acnode) (f : acnode → acnode)
    (h : nodes[k]? = some nd) : modifyAt nodes (k : Int) f = Run.ok (nodes.set k (f nd)) := by
  unfold modifyAt
  rw [nodeAt_cast nodes k nd h]
  simp

theorem getnodeFrom_eq (next : List Int) (c : Nat) :
    ∀ (chs : List Nat) (i : Nat), chs.length + i = next.length →
      getnodeFrom next c chs i =
        Run.ok (match (chs.zip (next.drop i)).find? (fun e => e.1 = c) with
          | some e => e.2
          | none => acnil) := by
  intro chs
  induction chs with
  | nil =>
    intro i _
    rfl
  | cons ch rest ih =>
    intro i hi
    simp only [List.length_cons] at hi
    have hlt : i < next.length := by omega
    rw [List.drop_eq_getElem_cons hlt]
    simp only [getnodeFrom, List.zip_cons_cons, List.find?_cons]
    by_cases h : ch = c
    · simp [h, List.getElem?_eq_getElem hlt]
    · simp only [h, if_false, decide_False]
      exact ih (i + 1) (by omega)

theorem getnode_eq (n : acnode) (c : Nat) (h : n.ch.length = n.next.length) :
    n.getnode c = Run.ok (n.child c) := by
  have := getnodeFrom_eq n.next c n.ch 0 (by omega)
  simpa [acnode.getnode, acnode.child] using this

theorem child_mem {n : acnode} {c : Nat} (h : n.child c ≠ acnil) :
    (c, n.child c) ∈ n.ch.zip n.next := by
  unfold acnode.child at h ⊢
  cases hf : (n.ch.zip n.next).find? (fun e => e.1 = c) with
  | none => simp [hf] at h
  | some e =>
    have h1 := List.find?_some hf
    have h2 := List.mem_of_find?_eq_some hf
    simp only [decide_eq_true_eq] at h1
    simp only
    rw [← h1]
    exact h2

theorem child_of_mem {n : acnode} {c : Nat} {x : Int} (h : (c, x) ∈ n.ch.zip n.next) :
    ∃ y, (c, y) ∈ n.ch.zip n.next ∧ n.child c = y := by
  unfold acnode.child
  cases hf : (n.ch.zip n.next).find? (fun e => e.1 = c) with
  | none =>
    have := List.find?_eq_none.1 hf (c, x) h
    simp at this
  | some e =>
    have h1 := List.find?_some hf
    have h2 := List.mem_of_find?_eq_some hf
    simp only [decide_eq_true_eq] at h1
    refine ⟨e.2, ?_, rfl⟩
    rw [← h1]
    exact h2

theorem getElem?_inj_of_nodup {L : List (List Nat)} (hnd : L.Nodup) {i j : Nat} {w : List Nat}
    (hi : L[i]? = some w) (hj : L[j]? = some w) : i = j := by
  obtain ⟨hi1, hi2⟩ := List.getElem?_eq_some_iff.1 hi
  obtain ⟨hj1, hj2⟩ := List.getElem?_eq_some_iff.1 hj
  exact (List.Nodup.getElem_inj_iff hnd).1 (hi2.trans hj2.symm)

theorem set_cases {nodes : List acnode} {k i : Nat} {a x : acnode}
    (h : (nodes.set k a)[i]? = some x) : (i = k ∧ x = a) ∨ (i ≠ k ∧ nodes[i]? = some x) := by
  rw [List.getElem?_set] at h
  by_cases hik : k = i
  · subst hik
    simp only [if_true] at h
    split at h
    · exact Or.inl ⟨rfl, (Option.some.inj h).symm⟩
    · exact absurd h (by simp)
  · rw [if_neg hik] at h
    exact Or.inr ⟨fun h' => hik h'.symm, h⟩

theorem set_self {nodes : List acnode} {k : Nat} {nd : acnode} (a : acnode)
    (h : nodes[k]? = some nd) : (nodes.set k a)[k]? = some a := by
  have hk : k < nodes.length := (List.getElem?_eq_some_iff.1 h).1
  rw [List.getElem?_set]
  simp [hk]

theorem set_other {nodes : List acnode} {k i : Nat} (a : acnode) (h : i ≠ k) :
    (nodes.set k a)[i]? = nodes[i]? := by
  rw [List.getElem?_set, if_neg (fun h' => h h'.symm)]

theorem pad_cases {nodes : List acnode} {e k : Nat} {nd : acnode}
    (h : (nodes ++ List.replicate e acnode.zero)[k]? = some nd) :
    nodes[k]? = some nd ∨ (nodes.length ≤ k ∧ nd = acnode.zero) := by
  by_cases hk : k < nodes.length
  · rw [List.getElem?_append_left hk] at h
    exact Or.inl h
  · rw [List.getElem?_append_right (by omega)] at h
    have := List.getElem?_mem h
    exact Or.inr ⟨by omega, (List.eq_of_mem_replicate this)⟩

theorem TrieInv.lt_of_label {nodes : List acnode} {labs pats : List (List Nat)}
    (_h : TrieInv nodes labs pats) {k : Nat} {w : List Nat} (hk : labs[k]? = some w) :
    k < labs.length :=
  (List.getElem?_eq_some_iff.1 hk).1

theorem TrieInv.node_exists {nodes : List acnode} {labs pats : List (List Nat)}
    (h : TrieInv nodes labs pats) {k : Nat} (hk : k < labs.length) :
    ∃ nd, nodes[k]? = some nd := by
  cases hn : nodes[k]? with
  | some nd => exact ⟨nd, rfl⟩
  | none =>
    have h1 := List.getElem?_eq_none_iff.1 hn
    have h2 := h.len
    omega

theorem TrieInv.child_cases {nodes : List acnode} {labs pats : List (List Nat)}
    (h : TrieInv nodes labs pats) {k : Nat} {w : List Nat} {nd : acnode}
    (hk : labs[k]? = some w) (hn : nodes[k]? = some nd) (c : Nat) :
    (nd.child c = acnil ∧ w ++ [c] ∉ labs) ∨
      ∃ j : Nat, nd.child c = (j : Int) ∧ labs[j]? = some (w ++ [c]) := by
  by_cases hc : nd.child c = acnil
  · left
    refine ⟨hc, fun hm => ?_⟩
    obtain ⟨j, hj⟩ := List.mem_iff_getElem?.1 hm
    obtain ⟨k', nd', hk', hn', hch⟩ := h.closed j w c hj
    have := getElem?_inj_of_nodup h.nodup hk hk'
    subst this
    rw [hn] at hn'
    cases hn'
    rw [hc] at hch
    simp only [acnil] at hch
    omega
  · right
    exact h.edge k nd w c _ hk hn (child_mem hc)

theorem TrieInv.nil_mem {nodes : List acnode} {labs pats : List (List Nat)}
    (h : TrieInv nodes labs pats) : [] ∈ labs :=
  List.getElem?_mem h.root

theorem TrieInv.prefixClosed {nodes : List acnode} {labs pats : List (List Nat)}
    (h : TrieInv nodes labs pats) : PrefixClosed labs := by
  intro w c hm
  obtain ⟨j, hj⟩ := List.mem_iff_getElem?.1 hm
  obtain ⟨k, nd, hk, -, -⟩ := h.closed j w c hj
  exact List.getElem?_mem hk

theorem trieInv_pad {nodes : List acnode} {labs pats : List (List Nat)}
    (h : TrieInv nodes labs pats) (e : Nat) :
    TrieInv (nodes ++ List.replicate e acnode.zero) labs pats where
  len := by
    have := h.len
    simp only [List.length_append, List.length_replicate]
    omega
  root := h.root
  nodup := h.nodup
  wf := by
    intro k nd hn
    rcases pad_cases hn with hn | ⟨-, rfl⟩
    · exact h.wf k nd hn
    · rfl
  chNodup := by
    intro k nd hn
    rcases pad_cases hn with hn | ⟨-, rfl⟩
    · exact h.chNodup k nd hn
    · exact List.nodup_nil
  edge := by
    intro k nd w c x hk hn hx
    rcases pad_cases hn with hn | ⟨hlen, rfl⟩
    · exact h.edge k nd w c x hk hn hx
    · simp [acnode.zero] at hx
  closed := by
    intro j w c hj
    obtain ⟨k, nd, hk, hn, hc⟩ := h.closed j w c hj
    refine ⟨k, nd, hk, ?_, hc⟩
    rw [List.getElem?_append_left (List.getElem?_eq_some_iff.1 hn).1]
    exact hn
  free := by
    intro k nd hk hn
    rcases pad_cases hn with hn | ⟨-, rfl⟩
    · exact h.free k nd hk hn
    · rfl
  rootFail := by
    obtain ⟨nd, hn, hf⟩ := h.rootFail
    refine ⟨nd, ?_, hf⟩
    rw [List.getElem?_append_left (List.getElem?_eq_some_iff.1 hn).1]
    exact hn
  ends := by
    intro k nd hn
    rcases pad_cases hn with hn | ⟨hlen, rfl⟩
    · exact h.ends k nd hn
    · have : labs[k]? = none := List.getElem?_eq_none (by have := h.len; omega)
      rw [this]
      rfl
  mem := h.mem

theorem child_addnode_old {nd : acnode} {c c' : Nat} (x : Int)
    (hwf : nd.ch.length = nd.next.length) (h : nd.child c' ≠ acnil) :
    (nd.addnode c x).child c' = nd.child c' := by
  unfold acnode.child at h ⊢
  simp only [acnode.addnode]
  rw [List.zip_append hwf, List.find?_append]
  cases hf : (nd.ch.zip nd.next).find? (fun e => e.1 = c') with
  | none => simp [hf] at h
  | some e => simp

theorem child_addnode_new {nd : acnode} {c : Nat} (x : Int)
    (hwf : nd.ch.length = nd.next.length) (hall : ∀ e ∈ nd.ch.zip nd.next, e.2 ≠ acnil)
    (h : nd.child c = acnil) : (nd.addnode c x).child c = x := by
  unfold acnode.child at h ⊢
  simp only [acnode.addnode]
  rw [List.zip_append hwf, List.find?_append]
  cases hf : (nd.ch.zip nd.next).find? (fun e => e.1 = c) with
  | none => simp
  | some e =>
    simp only [hf] at h
    exact absurd h (hall e (List.mem_of_find?_eq_some hf))

theorem mem_zip_of_mem_left {nd : acnode} {c : Nat} (hwf : nd.ch.length = nd.next.length)
    (h : c ∈ nd.ch) : ∃ x, (c, x) ∈ nd.ch.zip nd.next := by
  obtain ⟨i, hi, hci⟩ := List.getElem_of_mem h
  refine ⟨nd.next.get ⟨i, by omega⟩, ?_⟩
  rw [List.mem_iff_getElem]
  refine ⟨i, by simp; omega, ?_⟩
  simp [hci]

theorem mem_zip_addnode {nd : acnode} {c c' : Nat} {x x' : Int}
    (hwf : nd.ch.length = nd.next.length)
    (h : (c', x') ∈ (nd.addnode c x).ch.zip (nd.addnode c x).next) :
    (c', x') ∈ nd.ch.zip nd.next ∨ (c' = c ∧ x' = x) := by
  simp only [acnode.addnode] at h
  rw [List.zip_append hwf] at h
  simpa using h

theorem trieInv_add {nodes : List acnode} {labs pats : List (List Nat)}
    (h : TrieInv nodes labs pats) {k : Nat} {w : List Nat} {nd : acnode} {c : Nat}
    (hk : labs[k]? = some w) (hn : nodes[k]? = some nd) (hc : nd.child c = acnil)
    (hlen : labs.length < nodes.length) :
    TrieInv (nodes.set k (nd.addnode c (labs.length : Int))) (labs ++ [w ++ [c]]) pats := by
  have hklt : k < labs.length := h.lt_of_label hk
  have hnew : w ++ [c] ∉ labs := by
    rcases h.child_cases hk hn c with ⟨-, h1⟩ | ⟨j, h1, -⟩
    · exact h1
    · rw [hc] at h1
      simp only [acnil] at h1
      omega
  have hwf := h.wf k nd hn
  have hall : ∀ e ∈ nd.ch.zip nd.next, e.2 ≠ acnil := by
    intro e he hx
    obtain ⟨j, hj, -⟩ := h.edge k nd w e.1 e.2 hk hn he
    rw [hx] at hj
    simp only [acnil] at hj
    omega
  have hold : ∀ (j : Nat) (u : List Nat), labs[j]? = some u →
      (labs ++ [w ++ [c]])[j]? = some u := by
    intro j u hj
    rw [List.getElem?_append_left (List.getElem?_eq_some_iff.1 hj).1]
    exact hj
  have hlast : (labs ++ [w ++ [c]])[labs.length]? = some (w ++ [c]) := by
    rw [List.getElem?_append_right (Nat.le_refl _)]
    simp
  have hsplit : ∀ (j : Nat) (u : List Nat), (labs ++ [w ++ [c]])[j]? = some u →
      labs[j]? = some u ∨ (j = labs.length ∧ u = w ++ [c]) := by
    intro j u hj
    by_cases hjl : j < labs.length
    · rw [List.getElem?_append_left hjl] at hj
      exact Or.inl hj
    · rw [List.getElem?_append_right (by omega)] at hj
      have hj0 : j - labs.length = 0 := by
        by_contra hne
        rw [List.getElem?_eq_none (by simp; omega)] at hj
        exact absurd hj (by simp)
      rw [hj0] at hj
      simp only [List.getElem?_cons_zero, Option.some.injEq] at hj
      exact Or.inr ⟨by omega, hj.symm⟩
  have hcn : c ∉ nd.ch := by
    intro hm
    obtain ⟨y, hy⟩ := mem_zip_of_mem_left hwf hm
    obtain ⟨z, hz, hcz⟩ := child_of_mem hy
    rw [hc] at hcz
    exact hall _ hz hcz.symm
  refine
    { len := ?_, root := ?_, nodup := ?_, wf := ?_, chNodup := ?_, edge := ?_, closed := ?_,
      free := ?_, rootFail := ?_, ends := ?_, mem := ?_ }
  · simp only [List.length_append, List.length_singleton, List.length_set]
    omega
  · exact hold 0 [] h.root
  · rw [List.nodup_append]
    refine ⟨h.nodup, List.nodup_singleton _, ?_⟩
    intro a ha hb
    simp only [List.mem_singleton] at hb
    exact hnew (hb ▸ ha)
  · intro i x hx
    rcases set_cases hx with ⟨-, rfl⟩ | ⟨-, hx⟩
    · simp [acnode.addnode, hwf]
    · exact h.wf i x hx
  · intro i x hx
    rcases set_cases hx with ⟨-, rfl⟩ | ⟨-, hx⟩
    · simp only [acnode.addnode]
      rw [List.nodup_append]
      refine ⟨h.chNodup k nd hn, List.nodup_singleton _, ?_⟩
      intro a ha hb
      simp only [List.mem_singleton] at hb
      exact hcn (hb ▸ ha)
    · exact h.chNodup i x hx
  · intro i x u c' y hi hx hy
    rcases hsplit i u hi with hi | ⟨rfl, rfl⟩
    · rcases set_cases hx with ⟨rfl, rfl⟩ | ⟨-, hx⟩
      · rw [hk] at hi
        cases hi
        rcases mem_zip_addnode hwf hy with hy | ⟨rfl, rfl⟩
        · obtain ⟨j, hj1, hj2⟩ := h.edge i nd w c' y hk hn hy
          exact ⟨j, hj1, hold j _ hj2⟩
        · exact ⟨labs.length, rfl, hlast⟩
      · obtain ⟨j, hj1, hj2⟩ := h.edge i x u c' y hi hx hy
        exact ⟨j, hj1, hold j _ hj2⟩
    · rcases set_cases hx with ⟨hik, -⟩ | ⟨-, hx⟩
      · omega
      · have := h.free labs.length x (Nat.le_refl _) hx
        subst this
        simp [acnode.zero] at hy
  · intro j u c' hj
    rcases hsplit j (u ++ [c']) hj with hj | ⟨hjl, hu⟩
    · obtain ⟨k', nd', hk', hn', hch⟩ := h.closed j u c' hj
      by_cases hkk : k' = k
      · subst hkk
        rw [hn] at hn'
        cases hn'
        refine ⟨k', _, hold k' u hk', set_self _ hn, ?_⟩
        rw [child_addnode_old _ hwf, hch]
        rw [hch]
        simp only [acnil]
        omega
      · exact ⟨k', nd', hold k' u hk', (set_other _ hkk).trans hn', hch⟩
    · have h1 := List.append_inj' hu rfl
      obtain ⟨h2, h3⟩ := h1
      simp only [List.cons.injEq, and_true] at h3
      subst h2
      subst h3
      subst hjl
      exact ⟨k, _, hold k u hk, set_self _ hn, child_addnode_new _ hwf hall hc⟩
  · intro i x hi hx
    simp only [List.length_append, List.length_singleton] at hi
    rcases set_cases hx with ⟨hik, -⟩ | ⟨-, hx⟩
    · omega
    · exact h.free i x (by omega) hx
  · obtain ⟨r, hr, hf⟩ := h.rootFail
    by_cases hk0 : k = 0
    · subst hk0
      rw [hn] at hr
      cases hr
      exact ⟨_, set_self _ hn, hf⟩
    · exact ⟨r, (set_other _ (fun h' => hk0 h'.symm)).trans hr, hf⟩
  · intro i x hx
    rcases set_cases hx with ⟨rfl, rfl⟩ | ⟨hik, hx⟩
    · rw [hold i w hk]
      have := h.ends i nd hn
      rw [hk] at this
      exact this
    · have h1 := h.ends i x hx
      by_cases hil : i < labs.length
      · rw [List.getElem?_append_left hil]
        exact h1
      · by_cases hie : i = labs.length
        · subst hie
          rw [hlast]
          have := h.free labs.length x (Nat.le_refl _) hx
          subst this
          have : pats.count (w ++ [c]) = 0 :=
            List.count_eq_zero.2 (fun hm => hnew (h.mem _ hm))
          simp [this, acnode.zero]
        · rw [List.getElem?_eq_none (by simp; omega)]
          rw [List.getElem?_eq_none (by omega)] at h1
          exact h1
  · intro p hp
    exact List.mem_append_left _ (h.mem p hp)

theorem copy_grow (nodes : List acnode) (m : Nat) :
    copy (List.replicate (nodes.length + m) acnode.zero) nodes =
      nodes ++ List.replicate m acnode.zero := by
  unfold copy
  simp only [List.length_replicate, List.drop_replicate, Nat.add_sub_cancel_left]
  rw [List.take_of_length_le (by omega)]

theorem cast_ne_acnil (j : Nat) : (j : Int) ≠ acnil := by
  simp only [acnil]
  omega

theorem trie_insertLoop_spec (pats : List (List Nat)) :
    ∀ (rest : List Nat) (nodes : List acnode) (labs : List (List Nat)) (k : Nat)
      (w : List Nat), TrieInv nodes labs pats → labs[k]? = some w →
      ∃ (nodes' : List acnode) (labs' : List (List Nat)) (k' : Nat),
        insertLoop rest nodes labs.length (k : Int) = Run.ok (nodes', labs'.length, (k' : Int)) ∧
        TrieInv nodes' labs' pats ∧ labs'[k']? = some (w ++ rest) := by
  intro rest
  induction rest with
  | nil =>
    intro nodes labs k w h hk
    exact ⟨nodes, labs, k, rfl, h, by simpa using hk⟩
  | cons c rest ih =>
    intro nodes labs k w h hk
    obtain ⟨nd, hn⟩ := h.node_exists (h.lt_of_label hk)
    simp only [insertLoop, nodeAt_cast nodes k nd hn, run_bind_ok, getnode_eq nd c (h.wf k nd hn)]
    rcases h.child_cases hk hn c with ⟨hc, -⟩ | ⟨j, hc, hj⟩
    · simp only [hc, if_true]
      have hpad : ∃ e, (if labs.length = nodes.length then
            copy (List.replicate (labs.length + (c :: rest).length) acnode.zero) nodes
          else nodes) = nodes ++ List.replicate e acnode.zero ∧
          labs.length < (nodes ++ List.replicate e acnode.zero).length := by
        by_cases hl : labs.length = nodes.length
        · refine ⟨(c :: rest).length, ?_, ?_⟩
          · rw [if_pos hl, hl, copy_grow]
          · simp only [List.length_append, List.length_replicate, List.length_cons]
            omega
        · refine ⟨0, ?_, ?_⟩
          · rw [if_neg hl]
            simp
          · have := h.len
            simp only [List.length_append, List.length_replicate]
            omega
      obtain ⟨e, he, hlt⟩ := hpad
      rw [he]
      have hn1 : (nodes ++ List.replicate e acnode.zero)[k]? = some nd := by
        rw [List.getElem?_append_left (List.getElem?_eq_some_iff.1 hn).1]
        exact hn
      rw [modifyAt_cast _ k nd _ hn1]
      simp only [run_bind_ok]
      have h2 := trieInv_add (trieInv_pad h e) hk hn1 hc hlt
      have hk2 : (labs ++ [w ++ [c]])[labs.length]? = some (w ++ [c]) := by
        rw [List.getElem?_append_right (Nat.le_refl _)]
        simp
      obtain ⟨nodes', labs', k', hrun, hinv, hlab⟩ := ih _ _ labs.length (w ++ [c]) h2 hk2
      refine ⟨nodes', labs', k', ?_, hinv, by simpa using hlab⟩
      rw [← hrun]
      simp
    · simp only [hc, cast_ne_acnil, if_false]
      obtain ⟨nodes', labs', k', hrun, hinv, hlab⟩ := ih nodes labs j (w ++ [c]) h hj
      exact ⟨nodes', labs', k', hrun, hinv, by simpa using hlab⟩

theorem child_ends (nd : acnode) (e : Int) (c : Nat) :
    ({ nd with ends := e } : acnode).child c = nd.child c := rfl

theorem trieInv_end {nodes : List acnode} {labs pats : List (List Nat)}
    (h : TrieInv nodes labs pats) {k : Nat} {s : List Nat} {nd : acnode}
    (hk : labs[k]? = some s) (hn : nodes[k]? = some nd) :
    TrieInv (nodes.set k { nd with ends := nd.ends + 1 }) labs (pats ++ [s]) := by
  refine
    { len := ?_, root := h.root, nodup := h.nodup, wf := ?_, chNodup := ?_, edge := ?_,
      closed := ?_, free := ?_, rootFail := ?_, ends := ?_, mem := ?_ }
  · simpa using h.len
  · intro i x hx
    rcases set_cases hx with ⟨rfl, rfl⟩ | ⟨-, hx⟩
    · exact h.wf i nd hn
    · exact h.wf i x hx
  · intro i x hx
    rcases set_cases hx with ⟨rfl, rfl⟩ | ⟨-, hx⟩
    · exact h.chNodup i nd hn
    · exact h.chNodup i x hx
  · intro i x u c y hi hx hy
    rcases set_cases hx with ⟨rfl, rfl⟩ | ⟨-, hx⟩
    · exact h.edge i nd u c y hi hn hy
    · exact h.edge i x u c y hi hx hy
  · intro j u c hj
    obtain ⟨k', nd', hk', hn', hch⟩ := h.closed j u c hj
    by_cases hkk : k' = k
    · subst hkk
      rw [hn] at hn'
      cases hn'
      exact ⟨k', _, hk', set_self _ hn, hch⟩
    · exact ⟨k', nd', hk', (set_other _ hkk).trans hn', hch⟩
  · intro i x hi hx
    rcases set_cases hx with ⟨rfl, -⟩ | ⟨-, hx⟩
    · have := h.lt_of_label hk
      omega
    · exact h.free i x hi hx
  · obtain ⟨r, hr, hf⟩ := h.rootFail
    by_cases hk0 : k = 0
    · subst hk0
      rw [hn] at hr
      cases hr
      exact ⟨_, set_self _ hn, hf⟩
    · exact ⟨r, (set_other _ (fun h' => hk0 h'.symm)).trans hr, hf⟩
  · intro i x hx
    rcases set_cases hx with ⟨rfl, rfl⟩ | ⟨hik, hx⟩
    · have := h.ends i nd hn
      rw [hk] at this
      rw [hk]
      simp only [this, List.count_append, List.count_singleton_self]
      push_cast
      rfl
    · have h1 := h.ends i x hx
      rw [h1]
      cases hi : labs[i]? with
      | none => rfl
      | some u =>
        have hne : u ≠ s := by
          intro hus
          subst hus
          exact hik (getElem?_inj_of_nodup h.nodup hi hk)
        simp [List.count_append, List.count_singleton, hne]
  · intro p hp
    rcases List.mem_append.1 hp with hp | hp
    · exact h.mem p hp
    · simp only [List.mem_singleton] at hp
      subst hp
      exact List.getElem?_mem hk

theorem trieInv_init (m : Nat) :
    TrieInv ((List.replicate (m + 1) acnode.zero).set 0 { acnode.zero with fail := acnil })
      [[]] [] := by
  have hz : ∀ (i : Nat) (x : acnode),
      ((List.replicate (m + 1) acnode.zero).set 0 { acnode.zero with fail := acnil })[i]? =
        some x → x.ch = [] ∧ x.next = [] ∧ x.ends = 0 ∧ (i ≠ 0 → x = acnode.zero) := by
    intro i x hx
    rcases set_cases hx with ⟨rfl, rfl⟩ | ⟨hi, hx⟩
    · exact ⟨rfl, rfl, rfl, fun h => absurd rfl h⟩
    · have := List.eq_of_mem_replicate (List.getElem?_mem hx)
      subst this
      exact ⟨rfl, rfl, rfl, fun _ => rfl⟩
  refine
    { len := ?_, root := rfl, nodup := List.nodup_singleton _, wf := ?_, chNodup := ?_,
      edge := ?_, closed := ?_, free := ?_, rootFail := ?_, ends := ?_, mem := ?_ }
  · simp
  · intro i x hx
    obtain ⟨h1, h2, -, -⟩ := hz i x hx
    simp [h1, h2]
  · intro i x hx
    rw [(hz i x hx).1]
    exact List.nodup_nil
  · intro i x u c y _ hx hy
    obtain ⟨h1, h2, -, -⟩ := hz i x hx
    rw [h1, h2] at hy
    simp at hy
  · intro j u c hj
    have := List.getElem?_mem hj
    simp at this
  · intro i x hi hx
    exact (hz i x hx).2.2.2 (by simp at hi; omega)
  · refine ⟨{ acnode.zero with fail := acnil }, ?_, rfl⟩
    simp
  · intro i x hx
    rw [(hz i x hx).2.2.1]
    cases hi : ([[]] : List (List Nat))[i]? <;> simp
  · intro p hp
    simp at hp

theorem trie_insert_spec {nodes : List acnode} {labs pats : List (List Nat)}
    (h : TrieInv nodes labs pats) (s : List Nat) :
    ∃ (nodes' : List acnode) (labs' : List (List Nat)),
      Insert { nodes := nodes, alloc := labs.length } s =
          Run.ok { nodes := nodes', alloc := labs'.length } ∧
        TrieInv nodes' labs' (pats ++ [s]) := by
  have hne : nodes ≠ [] := by
    obtain ⟨r, hr, -⟩ := h.rootFail
    intro h0
    subst h0
    simp at hr
  obtain ⟨nodes', labs', k', hrun, hinv, hlab⟩ := trie_insertLoop_spec pats s nodes labs 0 [] h h.root
  obtain ⟨nd, hn⟩ := hinv.node_exists (hinv.lt_of_label hlab)
  refine ⟨_, labs', ?_, trieInv_end hinv (by simpa using hlab) hn⟩
  have hroot : acroot = ((0 : Nat) : Int) := rfl
  simp only [Insert, hne, if_false, run_pure, run_bind_ok, hroot, hrun,
    modifyAt_cast nodes' k' nd _ hn]

theorem Insert_empty (s : List Nat) :
    ∃ (nodes' : List acnode) (labs' : List (List Nat)),
      Insert ACTrie.empty s = Run.ok { nodes := nodes', alloc := labs'.length } ∧
        TrieInv nodes' labs' [s] := by
  have h := trieInv_init s.length
  obtain ⟨nodes', labs', k', hrun, hinv, hlab⟩ := trie_insertLoop_spec [] s _ _ 0 [] h h.root
  obtain ⟨nd, hn⟩ := hinv.node_exists (hinv.lt_of_label hlab)
  refine ⟨_, labs', ?_, trieInv_end hinv (by simpa using hlab) hn⟩
  have hroot : acroot = ((0 : Nat) : Int) := rfl
  have hmod : modifyAt (List.replicate (s.length + acpren) acnode.zero) acroot
      (fun n => { n with fail := acnil }) =
      Run.ok ((List.replicate (s.length + 1) acnode.zero).set 0
        { acnode.zero with fail := acnil }) := by
    rw [hroot]
    exact modifyAt_cast _ 0 acnode.zero _ (by simp [acpren])
  have hlen : ([[]] : List (List Nat)).length = acpren := rfl
  simp only [Insert, ACTrie.empty, if_true, hmod, run_pure, run_bind_ok]
  rw [← hlen, hroot, hrun]
  simp only [run_bind_ok, modifyAt_cast nodes' k' nd _ hn]

theorem insertAll_spec : ∀ (rest done : List (List Nat)) (nodes : List acnode)
    (labs : List (List Nat)), TrieInv nodes labs done →
    ∃ (nodes' : List acnode) (labs' : List (List Nat)),
      insertAll rest { nodes := nodes, alloc := labs.length } =
          Run.ok { nodes := nodes', alloc := labs'.length } ∧
        TrieInv nodes' labs' (done ++ rest) := by
  intro rest
  induction rest with
  | nil =>
    intro done nodes labs h
    exact ⟨nodes, labs, rfl, by simpa using h⟩
  | cons s rest ih =>
    intro done nodes labs h
    obtain ⟨nodes1, labs1, hrun1, h1⟩ := trie_insert_spec h s
    obtain ⟨nodes2, labs2, hrun2, h2⟩ := ih (done ++ [s]) nodes1 labs1 h1
    refine ⟨nodes2, labs2, ?_, by simpa using h2⟩
    simp only [insertAll, hrun1, run_bind_ok, hrun2]

theorem insertAll_empty (s : List Nat) (rest : List (List Nat)) :
    ∃ (nodes' : List acnode) (labs' : List (List Nat)),
      insertAll (s :: rest) ACTrie.empty = Run.ok { nodes := nodes', alloc := labs'.length } ∧
        TrieInv nodes' labs' (s :: rest) := by
  obtain ⟨nodes1, labs1, hrun1, h1⟩ := Insert_empty s
  obtain ⟨nodes2, labs2, hrun2, h2⟩ := insertAll_spec rest [s] nodes1 labs1 h1
  refine ⟨nodes2, labs2, ?_, by simpa using h2⟩
  simp only [insertAll, hrun1, run_bind_ok, hrun2]

theorem trieInv_setFail {nodes : List acnode} {labs pats : List (List Nat)}
    (h : TrieInv nodes labs pats) {x : Nat} {w : List Nat} {nd : acnode} (z : Int)
    (hx : labs[x]? = some w) (hw : w ≠ []) (hn : nodes[x]? = some nd) :
    TrieInv (nodes.set x { nd with fail := z }) labs pats := by
  refine
    { len := ?_, root := h.root, nodup := h.nodup, wf := ?_, chNodup := ?_, edge := ?_,
      closed := ?_, free := ?_, rootFail := ?_, ends := ?_, mem := h.mem }
  · simpa using h.len
  · intro i y hy
    rcases set_cases hy with ⟨rfl, rfl⟩ | ⟨-, hy⟩
    · exact h.wf i nd hn
    · exact h.wf i y hy
  · intro i y hy
    rcases set_cases hy with ⟨rfl, rfl⟩ | ⟨-, hy⟩
    · exact h.chNodup i nd hn
    · exact h.chNodup i y hy
  · intro i y u c v hi hy hv
    rcases set_cases hy with ⟨rfl, rfl⟩ | ⟨-, hy⟩
    · exact h.edge i nd u c v hi hn hv
    · exact h.edge i y u c v hi hy hv
  · intro j u c hj
    obtain ⟨k', nd', hk', hn', hch⟩ := h.closed j u c hj
    by_cases hkk : k' = x
    · subst hkk
      rw [hn] at hn'
      cases hn'
      exact ⟨k', _, hk', set_self _ hn, hch⟩
    · exact ⟨k', nd', hk', (set_other _ hkk).trans hn', hch⟩
  · intro i y hi hy
    rcases set_cases hy with ⟨rfl, -⟩ | ⟨-, hy⟩
    · have := h.lt_of_label hx
      omega
    · exact h.free i y hi hy
  · obtain ⟨r, hr, hf⟩ := h.rootFail
    have hx0 : x ≠ 0 := by
      rintro rfl
      rw [h.root] at hx
      exact hw (Option.some.inj hx).symm
    exact ⟨r, (set_other _ (fun h' => hx0 h'.symm)).trans hr, hf⟩
  · intro i y hy
    rcases set_cases hy with ⟨rfl, rfl⟩ | ⟨-, hy⟩
    · exact h.ends i nd hn
    · exact h.ends i y hy

theorem failOK_set_other {nodes : List acnode} {labs : List (List Nat)} {x j : Nat}
    (a : acnode) (hj : j ≠ x) (h : FailOK nodes labs j) : FailOK (nodes.set x a) labs j := by
  intro w nd hw hne hn
  rw [set_other _ hj] at hn
  exact h w nd hw hne hn

theorem failOK_set_self {nodes : List acnode} {labs : List (List Nat)} {x g : Nat}
    {w r : List Nat} {nd : acnode} (hx : labs[x]? = some w) (hn : nodes[x]? = some nd)
    (hg : labs[g]? = some r) (hb : Best labs w (w.length - 1) r) :
    FailOK (nodes.set x { nd with fail := (g : Int) }) labs x := by
  intro w' nd' hw' _ hn'
  rw [hx] at hw'
  cases hw'
  rw [set_self _ hn] at hn'
  cases hn'
  exact ⟨g, r, rfl, hg, hb⟩

theorem mem_of_prefix {L : List (List Nat)} (hL : PrefixClosed L) (p : List Nat) :
    ∀ s : List Nat, p ++ s ∈ L → p ∈ L := by
  intro s
  induction s using List.reverseRecOn with
  | nil => simp
  | append_singleton s c ih =>
    intro h
    rw [← List.append_assoc] at h
    exact ih (hL _ c h)

theorem TrieInv.label_length_lt {nodes : List acnode} {labs pats : List (List Nat)}
    (h : TrieInv nodes labs pats) {w : List Nat} (hw : w ∈ labs) : w.length < labs.length := by
  have hsub : (List.range (w.length + 1)).map (fun i => w.take i) ⊆ labs := by
    intro p hp
    obtain ⟨i, -, rfl⟩ := List.mem_map.1 hp
    exact mem_of_prefix h.prefixClosed (w.take i) (w.drop i) (by rw [List.take_append_drop]; exact hw)
  have hnd : ((List.range (w.length + 1)).map (fun i => w.take i)).Nodup := by
    refine List.Nodup.map_on (fun i hi j hj hij => ?_) (List.nodup_range _)
    have h1 := congrArg List.length hij
    simp only [List.length_take, List.mem_range] at h1 hi hj
    omega
  have := (List.subperm_of_subset hnd hsub).length_le
  simp only [List.length_map, List.length_range] at this
  omega

theorem failWalk_spec {nodes : List acnode} {labs pats : List (List Nat)}
    (h : TrieInv nodes labs pats) {xj : Nat} {nd : acnode} (hx : nodes[xj]? = some nd)
    (c : Nat) (t : List Nat) (m : Nat)
    (hok : ∀ (j : Nat) (v : List Nat), labs[j]? = some v → v.length ≤ m → FailOK nodes labs j) :
    ∀ (fuel f : Nat) (u : List Nat), labs[f]? = some u → Walk labs t m c u →
      u.length + 2 ≤ fuel →
      ∃ (g : Nat) (r : List Nat),
        failWalk c (xj : Int) fuel nodes (f : Int) =
            Run.ok (nodes.set xj { nd with fail := (g : Int) }) ∧
          labs[g]? = some r ∧ Best labs (t ++ [c]) (m + 1) r := by
  intro fuel
  induction fuel with
  | zero =>
    intro f u _ _ hfuel
    omega
  | succ fuel ih =>
    intro f u hf hwalk hfuel
    obtain ⟨nf, hnf⟩ := h.node_exists (h.lt_of_label hf)
    simp only [failWalk, cast_ne_acnil, ne_eq, not_false_eq_true, if_true,
      nodeAt_cast nodes f nf hnf, run_bind_ok, getnode_eq nf c (h.wf f nf hnf)]
    rcases h.child_cases hf hnf c with ⟨hc, hnot⟩ | ⟨j, hc, hj⟩
    · simp only [hc, not_true_eq_false, if_false]
      by_cases hu : u = []
      · subst hu
        have hf0 : f = 0 := getElem?_inj_of_nodup h.nodup hf h.root
        subst hf0
        obtain ⟨r0, hr0, hfail⟩ := h.rootFail
        rw [hnf] at hr0
        cases hr0
        rw [hfail]
        cases fuel with
        | zero => simp at hfuel
        | succ fuel =>
          refine ⟨0, [], ?_, h.root, walk_root h.prefixClosed hwalk (by simpa using hnot)⟩
          simp only [failWalk, ne_eq, not_true_eq_false, if_false]
          exact modifyAt_cast nodes xj nd _ hx
      · obtain ⟨f', u', hfail, hf', hbest⟩ := hok f u hf hwalk.2.2.1 u nf hf hu hnf
        rw [hfail]
        have hlen : 0 < u.length := List.length_pos.2 hu
        have hle := hbest.2.2.1
        exact ih f' u' hf' (walk_next hwalk hnot hbest hu) (by omega)
    · simp only [hc, cast_ne_acnil, not_false_eq_true, if_true]
      exact ⟨j, u ++ [c], modifyAt_cast nodes xj nd _ hx, hj,
        walk_found h.prefixClosed hwalk (List.getElem?_mem hj)⟩

theorem childLoop_spec {labs pats : List (List Nat)} {p : Nat} {w : List Nat}
    (hp : labs[p]? = some w) (hw : w ≠ []) {f : Nat} {u : List Nat} (hf : labs[f]? = some u)
    (hbest : Best labs w (w.length - 1) u) (np : acnode) (hfail : np.fail = (f : Int)) :
    ∀ (chs : List Nat) (i : Nat) (nodes : List acnode) (q : List Int),
      TrieInv nodes labs pats → nodes[p]? = some np → chs = np.ch.drop i →
      (∀ (j : Nat) (v : List Nat), labs[j]? = some v → v.length < w.length →
        FailOK nodes labs j) →
      ∃ (nodes' : List acnode) (xs : List Nat),
        childLoop (p : Int) chs i nodes q = Run.ok (nodes', q ++ xs.map Int.ofNat) ∧
        TrieInv nodes' labs pats ∧ nodes'.length = nodes.length ∧
        (∀ j, FailOK nodes labs j → FailOK nodes' labs j) ∧
        (∀ x ∈ xs, FailOK nodes' labs x) ∧
        List.Forall₂ (fun c x => labs[x]? = some (w ++ [c])) chs xs := by
  intro chs
  induction chs with
  | nil =>
    intro i nodes q h _ _ _
    exact ⟨nodes, [], by simp [childLoop], h, rfl, fun _ hj => hj, by simp, List.Forall₂.nil⟩
  | cons c rest ih =>
    intro i nodes q h hnp hchs hok
    have hwf := h.wf p np hnp
    have hi : i < np.ch.length := by
      by_contra hge
      rw [List.drop_eq_nil_of_le (by omega)] at hchs
      exact absurd hchs (by simp)
    rw [List.drop_eq_getElem_cons hi] at hchs
    obtain ⟨hc, hrest⟩ := List.cons.inj hchs
    have hi2 : i < np.next.length := by omega
    have hzip : (c, np.next[i]) ∈ np.ch.zip np.next := by
      rw [List.mem_iff_getElem]
      refine ⟨i, by simp; omega, ?_⟩
      simp [hc]
    obtain ⟨xj, hxv, hxj⟩ := h.edge p np w c _ hp hnp hzip
    obtain ⟨ndx, hndx⟩ := h.node_exists (h.lt_of_label hxj)
    have hwlen : 0 < w.length := List.length_pos.2 hw
    have hwlt := h.label_length_lt (List.getElem?_mem hp)
    have hul := hbest.2.2.1
    have hlen := h.len
    obtain ⟨g, r, hrun, hg, hbr⟩ := failWalk_spec h hndx c w (w.length - 1)
      (fun j v hj hv => hok j v hj (by omega)) (nodes.length + 1) f u hf
      (best_to_walk c hbest) (by omega)
    have hbr' : Best labs (w ++ [c]) ((w ++ [c]).length - 1) r := by
      have : (w ++ [c]).length - 1 = w.length - 1 + 1 := by simp; omega
      rw [this]
      exact hbr
    have hne : xj ≠ p := by
      rintro rfl
      rw [hp] at hxj
      have := congrArg List.length (Option.some.inj hxj)
      simp at this
    have h1 := trieInv_setFail h (g : Int) hxj (by simp) hndx
    have hpres : ∀ j, FailOK nodes labs j →
        FailOK (nodes.set xj { ndx with fail := (g : Int) }) labs j := by
      intro j hj
      by_cases hjx : j = xj
      · subst hjx
        exact failOK_set_self hxj hndx hg hbr'
      · exact failOK_set_other _ hjx hj
    obtain ⟨nodes', xs, hrun', hinv', hlen', hpres', hxs, hall⟩ :=
      ih (i + 1) (nodes.set xj { ndx with fail := (g : Int) }) (q ++ [(xj : Int)]) h1
        ((set_other _ (fun h' => hne h'.symm)).trans hnp) hrest
        (fun j v hj hv => hpres j (hok j v hj hv))
    refine ⟨nodes', xj :: xs, ?_, hinv', by simpa using hlen', fun j hj => hpres' j (hpres j hj),
      ?_, List.Forall₂.cons hxj hall⟩
    · simp only [childLoop, nodeAt_cast nodes p np hnp, run_bind_ok,
        List.getElem?_eq_getElem hi2, hxv, run_pure, hfail, hrun, hrun']
      simp
    · intro x hx
      rcases List.mem_cons.1 hx with rfl | hx
      · exact hpres' x (failOK_set_self hxj hndx hg hbr')
      · exact hxs x hx

theorem dep_eq {labs : List (List Nat)} {j : Nat} {w : List Nat} (h : labs[j]? = some w) :
    dep labs j = w.length := by
  unfold dep
  rw [List.getD_eq_getElem?_getD, h]
  rfl

theorem forall₂_mem_right {R : Nat → Nat → Prop} {l1 l2 : List Nat} (h : List.Forall₂ R l1 l2)
    {b : Nat} (hb : b ∈ l2) : ∃ a ∈ l1, R a b := by
  induction h with
  | nil => simp at hb
  | cons hab _ ih =>
    rcases List.mem_cons.1 hb with rfl | hb
    · exact ⟨_, List.mem_cons_self _ _, hab⟩
    · obtain ⟨a, ha, hr⟩ := ih hb
      exact ⟨a, List.mem_cons_of_mem _ ha, hr⟩

theorem forall₂_mem_left {R : Nat → Nat → Prop} {l1 l2 : List Nat} (h : List.Forall₂ R l1 l2)
    {a : Nat} (ha : a ∈ l1) : ∃ b ∈ l2, R a b := by
  induction h with
  | nil => simp at ha
  | cons hab _ ih =>
    rcases List.mem_cons.1 ha with rfl | ha
    · exact ⟨_, List.mem_cons_self _ _, hab⟩
    · obtain ⟨b, hb, hr⟩ := ih ha
      exact ⟨b, List.mem_cons_of_mem _ hb, hr⟩

theorem forall₂_nodup {R : Nat → Nat → Prop} {l1 l2 : List Nat} (h : List.Forall₂ R l1 l2)
    (hnd : l1.Nodup) (hinj : ∀ a a' b, R a b → R a' b → a = a') : l2.Nodup := by
  induction h with
  | nil => exact List.nodup_nil
  | cons hab hrest ih =>
    rw [List.nodup_cons] at hnd ⊢
    refine ⟨fun hb => ?_, ih hnd.2⟩
    obtain ⟨a', ha', hr⟩ := forall₂_mem_right hrest hb
    exact hnd.1 (hinj _ _ _ hab hr ▸ ha')

theorem snoc_inj {w w' : List Nat} {c c' : Nat} (h : w ++ [c] = w' ++ [c']) :
    w = w' ∧ c = c' := by
  obtain ⟨h1, h2⟩ := List.append_inj' h rfl
  exact ⟨h1, by simpa using h2⟩

theorem bfs_low {nodes : List acnode} {labs pats : List (List Nat)} {deq q : List Nat}
    (h : TrieInv nodes labs pats) (hb : BfsInv nodes labs deq q) :
    ∀ (v : List Nat) (j : Nat), labs[j]? = some v → v ≠ [] →
      (∀ b ∈ q, v.length ≤ dep labs b) → j ∈ deq ++ q := by
  intro v
  induction v using List.reverseRecOn with
  | nil =>
    intro j _ hne
    exact absurd rfl hne
  | append_singleton v c ih =>
    intro j hj _ hq
    obtain ⟨k, nd, hk, -, -⟩ := h.closed j v c hj
    by_cases hv : v = []
    · subst hv
      have hk0 : k = 0 := getElem?_inj_of_nodup h.nodup hk h.root
      subst hk0
      exact hb.kids 0 (List.mem_cons_self _ _) j [] c hk hj
    · have hkm := ih k hk hv (fun b hbq => by
        have := hq b hbq
        simp only [List.length_append, List.length_singleton] at this
        omega)
      rcases List.mem_append.1 hkm with hkd | hkq
      · exact hb.kids k (List.mem_cons_of_mem _ hkd) j v c hk hj
      · have := hq k hkq
        rw [dep_eq hk] at this
        simp only [List.length_append, List.length_singleton] at this
        omega

theorem length_le_of_lt {L : List Nat} {n : Nat} (hnd : L.Nodup) (h : ∀ i ∈ L, i < n) :
    L.length ≤ n := by
  have := (List.subperm_of_subset hnd (fun i hi => List.mem_range.2 (h i hi))).length_le
  simpa using this

theorem bfs_count {nodes : List acnode} {labs pats : List (List Nat)} {deq q : List Nat}
    (h : TrieInv nodes labs pats) (hb : BfsInv nodes labs deq q) :
    deq.length + q.length + 1 ≤ labs.length := by
  have hnd : (0 :: (deq ++ q)).Nodup := by
    rw [List.nodup_cons]
    refine ⟨fun h0 => ?_, hb.nodup⟩
    obtain ⟨w, hw, hne⟩ := hb.pos 0 h0
    rw [h.root] at hw
    exact hne (Option.some.inj hw).symm
  have hlt : ∀ i ∈ 0 :: (deq ++ q), i < labs.length := by
    intro i hi
    rcases List.mem_cons.1 hi with rfl | hi
    · exact h.lt_of_label h.root
    · obtain ⟨w, hw, -⟩ := hb.pos i hi
      exact h.lt_of_label hw
  have := length_le_of_lt hnd hlt
  simp only [List.length_cons, List.length_append] at this
  omega

theorem bfs_step {nodes nodes' : List acnode} {labs pats : List (List Nat)}
    {deq q' xs : List Nat} {p : Nat} {w : List Nat} {np : acnode}
    (h : TrieInv nodes labs pats) (hb : BfsInv nodes labs deq (p :: q'))
    (hp : labs[p]? = some w) (hw : w ≠ []) (hnp : nodes[p]? = some np)
    (hpres : ∀ j, FailOK nodes labs j → FailOK nodes' labs j)
    (hxs : ∀ x ∈ xs, FailOK nodes' labs x)
    (hall : List.Forall₂ (fun c x => labs[x]? = some (w ++ [c])) np.ch xs) :
    BfsInv nodes' labs (deq ++ [p]) (q' ++ xs) := by
  have heq : (deq ++ [p]) ++ (q' ++ xs) = (deq ++ p :: q') ++ xs := by simp
  have hxlab : ∀ x ∈ xs, ∃ c, labs[x]? = some (w ++ [c]) := by
    intro x hx
    obtain ⟨c, -, hc⟩ := forall₂_mem_right hall hx
    exact ⟨c, hc⟩
  have hxdep : ∀ x ∈ xs, dep labs x = w.length + 1 := by
    intro x hx
    obtain ⟨c, hc⟩ := hxlab x hx
    rw [dep_eq hc]
    simp
  have hpdep : dep labs p = w.length := dep_eq hp
  have hp0 : p ≠ 0 := by
    rintro rfl
    rw [h.root] at hp
    exact hw (Option.some.inj hp).symm
  have hpd : p ∉ deq := by
    intro hpd
    have := (List.nodup_append.1 hb.nodup).2.2 hpd (List.mem_cons_self _ _)
    exact this
  have hsort := List.pairwise_cons.1 hb.sorted
  have hxnew : ∀ x ∈ xs, x ∉ deq ++ p :: q' := by
    intro x hx hm
    obtain ⟨c, hc⟩ := hxlab x hx
    obtain ⟨k, hk, hkw⟩ := hb.par x hm w c hc
    have hkp : k = p := getElem?_inj_of_nodup h.nodup hkw hp
    subst hkp
    rcases List.mem_cons.1 hk with h0 | hd
    · exact hp0 h0
    · exact hpd hd
  have hxnd : xs.Nodup := by
    refine forall₂_nodup hall (h.chNodup p np hnp) (fun a a' b ha ha' => ?_)
    rw [ha] at ha'
    exact (snoc_inj (Option.some.inj ha')).2
  refine
    { nodup := ?_, pos := ?_, ok := ?_, sorted := ?_, near := ?_, before := ?_, kids := ?_,
      par := ?_ }
  · rw [heq, List.nodup_append]
    exact ⟨hb.nodup, hxnd, fun a ha hax => hxnew a hax ha⟩
  · intro j hj
    rw [heq] at hj
    rcases List.mem_append.1 hj with hj | hj
    · exact hb.pos j hj
    · obtain ⟨c, hc⟩ := hxlab j hj
      exact ⟨_, hc, by simp⟩
  · intro j hj
    rw [heq] at hj
    rcases List.mem_append.1 hj with hj | hj
    · exact hpres j (hb.ok j hj)
    · exact hxs j hj
  · rw [List.pairwise_append]
    refine ⟨hsort.2, ?_, ?_⟩
    · refine List.Pairwise.imp_of_mem ?_ (List.pairwise_of_forall (fun _ _ => trivial))
      intro a b ha hb' _
      rw [hxdep a ha, hxdep b hb']
    · intro a ha b hb'
      have := hb.near p (List.mem_cons_self _ _) a (List.mem_cons_of_mem _ ha)
      rw [hxdep b hb']
      omega
  · intro a ha b hb'
    rcases List.mem_append.1 ha with ha | ha <;> rcases List.mem_append.1 hb' with hb' | hb'
    · exact hb.near a (List.mem_cons_of_mem _ ha) b (List.mem_cons_of_mem _ hb')
    · have := hsort.1 a ha
      rw [hxdep b hb']
      omega
    · have := hb.near p (List.mem_cons_self _ _) b (List.mem_cons_of_mem _ hb')
      rw [hxdep a ha]
      omega
    · rw [hxdep a ha, hxdep b hb']
      omega
  · intro a ha b hb'
    have hap : dep labs a ≤ dep labs p := by
      rcases List.mem_append.1 ha with ha | ha
      · exact hb.before a ha p (List.mem_cons_self _ _)
      · simp only [List.mem_singleton] at ha
        subst ha
        exact Nat.le_refl _
    rcases List.mem_append.1 hb' with hb' | hb'
    · have := hsort.1 b hb'
      omega
    · rw [hxdep b hb']
      omega
  · intro k hk j u c hku hj
    rw [heq]
    have hk' : k ∈ 0 :: deq ∨ k = p := by
      simp only [List.mem_cons, List.mem_append, List.mem_singleton] at hk ⊢
      tauto
    rcases hk' with hk' | rfl
    · exact List.mem_append_left _ (hb.kids k hk' j u c hku hj)
    · rw [hp] at hku
      cases hku
      obtain ⟨k', nd', hk'w, hn', hch⟩ := h.closed j w c hj
      have hkk : k' = k := getElem?_inj_of_nodup h.nodup hk'w hp
      subst hkk
      rw [hnp] at hn'
      cases hn'
      have hcm : (c, np.child c) ∈ np.ch.zip np.next :=
        child_mem (by rw [hch]; exact cast_ne_acnil j)
      have hcc : c ∈ np.ch := (List.of_mem_zip hcm).1
      obtain ⟨x, hx, hxl⟩ := forall₂_mem_left hall hcc
      have hxj : x = j := getElem?_inj_of_nodup h.nodup hxl hj
      subst hxj
      exact List.mem_append_right _ hx
  · intro j hj u c hju
    rw [heq] at hj
    rcases List.mem_append.1 hj with hj | hj
    · obtain ⟨k, hk, hku⟩ := hb.par j hj u c hju
      refine ⟨k, ?_, hku⟩
      simp only [List.mem_cons, List.mem_append, List.mem_singleton] at hk ⊢
      tauto
    · obtain ⟨c', hc'⟩ := hxlab j hj
      rw [hju] at hc'
      obtain ⟨huw, -⟩ := snoc_inj (Option.some.inj hc')
      subst huw
      exact ⟨p, by simp, hp⟩

theorem bfsLoop_spec {labs pats : List (List Nat)} :
    ∀ (fuel : Nat) (nodes : List acnode) (deq q : List Nat), TrieInv nodes labs pats →
      BfsInv nodes labs deq q → labs.length + 1 ≤ fuel + deq.length →
      ∃ nodes', bfsLoop fuel nodes (q.map Int.ofNat) = Run.ok nodes' ∧
        TrieInv nodes' labs pats ∧ ∀ j, FailOK nodes' labs j := by
  intro fuel
  induction fuel with
  | zero =>
    intro nodes deq q h hb hfuel
    have := bfs_count h hb
    omega
  | succ fuel ih =>
    intro nodes deq q h hb hfuel
    cases q with
    | nil =>
      refine ⟨nodes, rfl, h, fun j w nd hj hw hn => ?_⟩
      have hm := bfs_low h hb w j hj hw (fun b hbq => by simp at hbq)
      exact hb.ok j hm w nd hj hw hn
    | cons p q' =>
      have hpm : p ∈ deq ++ p :: q' := List.mem_append_right _ (List.mem_cons_self _ _)
      obtain ⟨w, hp, hw⟩ := hb.pos p hpm
      obtain ⟨np, hnp⟩ := h.node_exists (h.lt_of_label hp)
      obtain ⟨f, u, hfail, hf, hbest⟩ := hb.ok p hpm w np hp hw hnp
      have hsort := List.pairwise_cons.1 hb.sorted
      have hok : ∀ (j : Nat) (v : List Nat), labs[j]? = some v → v.length < w.length →
          FailOK nodes labs j := by
        intro j v hj hv
        by_cases hv0 : v = []
        · intro v' nd' hj' hne'
          rw [hj] at hj'
          cases hj'
          exact absurd hv0 hne'
        · refine hb.ok j (bfs_low h hb v j hj hv0 (fun b hbq => ?_))
          rcases List.mem_cons.1 hbq with rfl | hbq
          · rw [dep_eq hp]
            omega
          · have := hsort.1 b hbq
            rw [dep_eq hp] at this
            omega
      obtain ⟨nodes', xs, hrun, hinv', hlen', hpres, hxs, hall⟩ :=
        childLoop_spec hp hw hf hbest np hfail np.ch 0 nodes (q'.map Int.ofNat) h hnp
          (by simp) hok
      have hb' := bfs_step h hb hp hw hnp hpres hxs hall
      obtain ⟨nodes'', hrun', hinv'', hall''⟩ :=
        ih nodes' (deq ++ [p]) (q' ++ xs) hinv' hb' (by simp; omega)
      refine ⟨nodes'', ?_, hinv'', hall''⟩
      have hpc : Int.ofNat p = (p : Int) := rfl
      simp only [List.map_cons, bfsLoop, hpc, nodeAt_cast nodes p np hnp, run_bind_ok, hrun]
      rw [← List.map_append]
      exact hrun'

theorem rootLoop_spec {labs pats : List (List Nat)} :
    ∀ (chs : List Nat) (xs : List Int) (nodes : List acnode) (q : List Int),
      TrieInv nodes labs pats →
      List.Forall₂ (fun c (x : Int) => ∃ j : Nat, x = (j : Int) ∧ labs[j]? = some [c]) chs xs →
      ∃ (nodes' : List acnode) (ys : List Nat),
        rootLoop xs nodes q = Run.ok (nodes', q ++ ys.map Int.ofNat) ∧
        TrieInv nodes' labs pats ∧ nodes'.length = nodes.length ∧
        (∀ j, FailOK nodes labs j → FailOK nodes' labs j) ∧
        (∀ y ∈ ys, FailOK nodes' labs y) ∧
        List.Forall₂ (fun c y => labs[y]? = some ([] ++ [c])) chs ys ∧
        nodes'[0]? = nodes[0]? := by
  intro chs xs nodes q h hall
  induction hall generalizing nodes q with
  | nil => exact ⟨nodes, [], by simp [rootLoop], h, rfl, fun _ hj => hj, by simp,
      List.Forall₂.nil, rfl⟩
  | @cons c x chs xs hcx _ ih =>
    obtain ⟨j, rfl, hj⟩ := hcx
    obtain ⟨nd, hn⟩ := h.node_exists (h.lt_of_label hj)
    have hbest : Best labs [c] ([c].length - 1) [] :=
      ⟨h.nil_mem, List.nil_suffix, Nat.zero_le _, fun v _ _ hv => hv⟩
    have h1 := trieInv_setFail h acroot hj (by simp) hn
    have hself : FailOK (nodes.set j { nd with fail := acroot }) labs j :=
      @failOK_set_self nodes labs j 0 [c] [] nd hj hn h.root hbest
    have hj0 : j ≠ 0 := by
      rintro rfl
      rw [h.root] at hj
      simp at hj
    obtain ⟨nodes', ys, hrun, hinv', hlen', hpres, hys, hall', h0⟩ :=
      ih (nodes.set j { nd with fail := acroot }) (q ++ [(j : Int)]) h1
    refine ⟨nodes', j :: ys, ?_, hinv', by simpa using hlen', ?_, ?_, List.Forall₂.cons hj hall',
      ?_⟩
    · simp only [rootLoop, modifyAt_cast nodes j nd _ hn, run_bind_ok, hrun]
      simp
    · intro i hi
      refine hpres i ?_
      by_cases hij : i = j
      · subst hij
        exact hself
      · exact failOK_set_other _ hij hi
    · intro y hy
      rcases List.mem_cons.1 hy with rfl | hy
      · exact hpres y hself
      · exact hys y hy
    · rw [h0]
      exact set_other _ (fun h' => hj0 h'.symm)

theorem bfs_init {nodes : List acnode} (nodes' : List acnode) {labs pats : List (List Nat)}
    {ys : List Nat}
    {nd0 : acnode} (h : TrieInv nodes labs pats) (h0 : nodes[0]? = some nd0)
    (hys : ∀ y ∈ ys, FailOK nodes' labs y)
    (hall : List.Forall₂ (fun c y => labs[y]? = some ([] ++ [c])) nd0.ch ys) :
    BfsInv nodes' labs [] ys := by
  have hylab : ∀ y ∈ ys, ∃ c, labs[y]? = some [c] := by
    intro y hy
    obtain ⟨c, -, hc⟩ := forall₂_mem_right hall hy
    exact ⟨c, hc⟩
  have hydep : ∀ y ∈ ys, dep labs y = 1 := by
    intro y hy
    obtain ⟨c, hc⟩ := hylab y hy
    rw [dep_eq hc]
    rfl
  refine
    { nodup := ?_, pos := ?_, ok := ?_, sorted := ?_, near := ?_, before := ?_, kids := ?_,
      par := ?_ }
  · rw [List.nil_append]
    refine forall₂_nodup hall (h.chNodup 0 nd0 h0) (fun a a' b ha ha' => ?_)
    rw [ha] at ha'
    exact (snoc_inj (Option.some.inj ha')).2
  · intro j hj
    obtain ⟨c, hc⟩ := hylab j hj
    exact ⟨_, hc, by simp⟩
  · intro j hj
    exact hys j hj
  · refine List.Pairwise.imp_of_mem ?_ (List.pairwise_of_forall (fun _ _ => trivial))
    intro a b ha hb _
    rw [hydep a ha, hydep b hb]
  · intro a ha b hb
    rw [hydep a ha, hydep b hb]
    omega
  · intro a ha
    simp at ha
  · intro k hk j u c hku hj
    simp only [List.mem_singleton] at hk
    subst hk
    rw [h.root] at hku
    cases hku
    obtain ⟨k', nd', hk'w, hn', hch⟩ := h.closed j [] c hj
    have hkk : k' = 0 := getElem?_inj_of_nodup h.nodup hk'w h.root
    subst hkk
    rw [h0] at hn'
    cases hn'
    have hcm : (c, nd0.child c) ∈ nd0.ch.zip nd0.next :=
      child_mem (by rw [hch]; exact cast_ne_acnil j)
    have hcc : c ∈ nd0.ch := (List.of_mem_zip hcm).1
    obtain ⟨x, hx, hxl⟩ := forall₂_mem_left hall hcc
    have hxj : x = j := getElem?_inj_of_nodup h.nodup hxl hj
    subst hxj
    simpa using hx
  · intro j hj u c hju
    obtain ⟨c', hc'⟩ := hylab j hj
    rw [hju] at hc'
    have h1 : u ++ [c] = [] ++ [c'] := Option.some.inj hc'
    obtain ⟨huw, -⟩ := snoc_inj h1
    subst huw
    exact ⟨0, by simp, h.root⟩

theorem Build_spec {nodes : List acnode} {labs pats : List (List Nat)}
    (h : TrieInv nodes labs pats) (a : Nat) :
    ∃ nodes', Build { nodes := nodes, alloc := a } = Run.ok { nodes := nodes', alloc := a } ∧
      TrieInv nodes' labs pats ∧ ∀ j, FailOK nodes' labs j := by
  obtain ⟨nd0, h0, -⟩ := h.rootFail
  have hkids : List.Forall₂
      (fun c (x : Int) => ∃ j : Nat, x = (j : Int) ∧ labs[j]? = some [c]) nd0.ch nd0.next := by
    rw [List.forall₂_iff_zip]
    refine ⟨h.wf 0 nd0 h0, fun {c x} hcx => ?_⟩
    obtain ⟨j, hj1, hj2⟩ := h.edge 0 nd0 [] c x h.root h0 hcx
    exact ⟨j, hj1, by simpa using hj2⟩
  obtain ⟨nodes1, ys, hrun1, hinv1, hlen1, -, hys, hall, h01⟩ :=
    rootLoop_spec nd0.ch nd0.next nodes [] h hkids
  have hb := bfs_init nodes1 h h0 hys hall
  have hlen := hinv1.len
  obtain ⟨nodes2, hrun2, hinv2, hok2⟩ :=
    bfsLoop_spec (nodes1.length + 1) nodes1 [] ys hinv1 hb (by simp; omega)
  refine ⟨nodes2, ?_, hinv2, hok2⟩
  have hroot : acroot = ((0 : Nat) : Int) := rfl
  simp only [Build, hroot, nodeAt_cast nodes 0 nd0 h0, run_bind_ok, hrun1, List.nil_append,
    hrun2, run_pure]

theorem cast_eq_acroot (j : Nat) : (j : Int) = acroot ↔ j = 0 := by
  simp only [acroot]
  omega

theorem backtrack_spec {nodes : List acnode} {labs pats : List (List Nat)}
    (h : TrieInv nodes labs pats) (hok : ∀ j, FailOK nodes labs j) (c : Nat) (t : List Nat)
    (m : Nat) :
    ∀ (fuel p : Nat) (u : List Nat) (np : acnode), labs[p]? = some u → nodes[p]? = some np →
      Walk labs t m c u → u.length + 1 ≤ fuel →
      ∃ (p' x : Int) (g : Nat) (r : List Nat),
        backtrack nodes c fuel (p : Int) (np.child c) = Run.ok (p', x) ∧
        (if x = acnil then acroot else x) = (g : Int) ∧ labs[g]? = some r ∧
        Best labs (t ++ [c]) (m + 1) r := by
  intro fuel
  induction fuel with
  | zero =>
    intro p u np _ _ _ hfuel
    omega
  | succ fuel ih =>
    intro p u np hp hnp hwalk hfuel
    rcases h.child_cases hp hnp c with ⟨hc, hnot⟩ | ⟨j, hc, hj⟩
    · by_cases hp0 : p = 0
      · subst hp0
        have hu : u = [] := by
          rw [h.root] at hp
          exact (Option.some.inj hp).symm
        subst hu
        refine ⟨((0 : Nat) : Int), acnil, 0, [], ?_, by simp [acroot], h.root,
          walk_root h.prefixClosed hwalk (by simpa using hnot)⟩
        simp [backtrack, hc, acroot]
      · have hu : u ≠ [] := by
          rintro rfl
          exact hp0 (getElem?_inj_of_nodup h.nodup hp h.root)
        obtain ⟨f, u', hfail, hf, hbest⟩ := hok p u np hp hu hnp
        obtain ⟨nf, hnf⟩ := h.node_exists (h.lt_of_label hf)
        have hlen : 0 < u.length := List.length_pos.2 hu
        have hle := hbest.2.2.1
        obtain ⟨p', x, g, r, hrun, hg, hr, hb⟩ :=
          ih f u' nf hf hnf (walk_next hwalk hnot hbest hu) (by omega)
        refine ⟨p', x, g, r, ?_, hg, hr, hb⟩
        have hpr : ¬ ((p : Int) = acroot) := fun h' => hp0 ((cast_eq_acroot p).1 h')
        simp only [backtrack, hc, ne_eq, hpr, not_false_eq_true, and_self, if_true,
          nodeAt_cast nodes p np hnp, run_bind_ok, hfail, nodeAt_cast nodes f nf hnf,
          getnode_eq nf c (h.wf f nf hnf), hrun]
    · refine ⟨(p : Int), (j : Int), j, u ++ [c], ?_, by simp [cast_ne_acnil], hj,
        walk_found h.prefixClosed hwalk (List.getElem?_mem hj)⟩
      simp [backtrack, hc, cast_ne_acnil]

theorem sumEnds_spec {nodes : List acnode} {labs pats : List (List Nat)}
    (h : TrieInv nodes labs pats) (hok : ∀ j, FailOK nodes labs j)
    (hne : ∀ p ∈ pats, p ≠ []) :
    ∀ (fuel j : Nat) (u : List Nat) (total : Int), labs[j]? = some u → u.length + 1 ≤ fuel →
      sumEnds nodes fuel (j : Int) total =
        Run.ok (total + (pats.countP (fun p => p <:+ u) : Nat)) := by
  intro fuel
  induction fuel with
  | zero =>
    intro j u total _ hfuel
    omega
  | succ fuel ih =>
    intro j u total hj hfuel
    by_cases hj0 : j = 0
    · subst hj0
      have hu : u = [] := by
        rw [h.root] at hj
        exact (Option.some.inj hj).symm
      subst hu
      rw [countP_suffix_nil pats hne]
      simp [sumEnds, acroot]
    · have hu : u ≠ [] := by
        rintro rfl
        exact hj0 (getElem?_inj_of_nodup h.nodup hj h.root)
      obtain ⟨nx, hnx⟩ := h.node_exists (h.lt_of_label hj)
      obtain ⟨f, u', hfail, hf, hbest⟩ := hok j u nx hj hu hnx
      have hlen : 0 < u.length := List.length_pos.2 hu
      have hle := hbest.2.2.1
      have hends := h.ends j nx hnx
      rw [hj] at hends
      have hjr : ¬ ((j : Int) = acroot) := fun h' => hj0 ((cast_eq_acroot j).1 h')
      simp only [sumEnds, ne_eq, hjr, not_false_eq_true, if_true, nodeAt_cast nodes j nx hnx,
        run_bind_ok, hfail]
      rw [ih f u' (total + nx.ends) hf (by omega), countP_suffix_step pats h.mem hu hbest,
        hends]
      push_cast
      rw [Int.add_assoc]

theorem matchLoop_spec {nodes : List acnode} {labs pats : List (List Nat)}
    (h : TrieInv nodes labs pats) (hok : ∀ j, FailOK nodes labs j)
    (hne : ∀ p ∈ pats, p ≠ []) :
    ∀ (rest t : List Nat) (p : Nat) (u : List Nat) (total : Int), labs[p]? = some u →
      Best labs t t.length u →
      matchLoop nodes rest (p : Int) total = Run.ok (total + (occFrom pats t rest : Nat)) := by
  intro rest
  induction rest with
  | nil =>
    intro t p u total _ _
    simp [matchLoop, occFrom]
  | cons c rest ih =>
    intro t p u total hp hbest
    obtain ⟨np, hnp⟩ := h.node_exists (h.lt_of_label hp)
    have hlen := h.len
    have hul := h.label_length_lt (List.getElem?_mem hp)
    obtain ⟨p', x, g, r, hrun, hg, hr, hb⟩ :=
      backtrack_spec h hok c t t.length (nodes.length + 1) p u np hp hnp
        (best_to_walk c hbest) (by omega)
    have hrl := h.label_length_lt (List.getElem?_mem hr)
    have hb' : Best labs (t ++ [c]) (t ++ [c]).length r := by
      simpa using hb
    have hsum := sumEnds_spec h hok hne (nodes.length + 1) g r total hr (by omega)
    simp only [matchLoop, nodeAt_cast nodes p np hnp, run_bind_ok,
      getnode_eq np c (h.wf p np hnp), hrun, hg, hsum]
    rw [ih (t ++ [c]) g r _ hr hb', occFrom, countP_suffix_of_best pats h.mem hb']
    push_cast
    rw [Int.add_assoc]

theorem occFrom_eq (pats : List (List Nat)) :
    ∀ (rest t : List Nat),
      ((List.range rest.length).map
        (fun i => pats.countP (fun p => p <:+ (t ++ rest).take (t.length + i + 1)))).sum =
        occFrom pats t rest := by
  intro rest
  induction rest with
  | nil =>
    intro t
    rfl
  | cons c rest ih =>
    intro t
    rw [List.length_cons, List.range_succ_eq_map, List.map_cons, List.map_map, List.sum_cons,
      occFrom, ← ih (t ++ [c])]
    have h0 : (t ++ c :: rest).take (t.length + 0 + 1) = t ++ [c] := by
      rw [Nat.add_zero, List.take_append]
      simp
    rw [h0]
    congr 2
    refine List.map_congr_left (fun i _ => ?_)
    simp only [Function.comp, List.append_assoc, List.singleton_append, List.length_append,
      List.length_singleton]
    have : t.length + Nat.succ i + 1 = t.length + 1 + i + 1 := by omega
    rw [this]

theorem occurrences_eq (pats : List (List Nat)) (s : List Nat) :
    occurrences pats s = occFrom pats [] s := by
  have := occFrom_eq pats s []
  simpa [occurrences] using this

theorem matchAfterBuild_spec (pats : List (List Nat)) (s : List Nat) (hpats : pats ≠ [])
    (hne : ∀ p ∈ pats, p ≠ []) :
    matchAfterBuild pats s = Run.ok ((occurrences pats s : Nat) : Int) := by
  cases pats with
  | nil => exact absurd rfl hpats
  | cons s0 rest =>
    obtain ⟨nodes, labs, hrun, hinv⟩ := insertAll_empty s0 rest
    obtain ⟨nodes', hbuild, hinv', hok⟩ := Build_spec hinv labs.length
    have hbest : Best labs [] ([] : List Nat).length [] :=
      ⟨hinv'.nil_mem, List.nil_suffix, Nat.le_refl _, fun v _ _ hv => hv⟩
    have hm := matchLoop_spec hinv' hok hne s [] 0 [] 0 hinv'.root hbest
    have hroot : acroot = ((0 : Nat) : Int) := rfl
    simp only [matchAfterBuild, hrun, run_bind_ok, hbuild, Match, hroot, hm, occurrences_eq]
    simp

/-- C19 as stated fails for the empty list of patterns: nothing was inserted,
`nodes` is the nil slice, and `Build` stops at `nodes[acroot]` with an index
out of range before `Match` can be called. -/
theorem build_without_patterns :
    matchAfterBuild [] [121, 97, 115, 104, 101, 114, 104, 115] = Run.outOfRange := by
  decide

/-- C19, amended: for every non-empty list of non-empty patterns inserted into
an empty trie and followed by `Build`, and every text `s`, `Match(s)` returns
the number of pairs (inserted pattern, end position in `s`) such that the
pattern is a substring of `s` ending there; overlapping occurrences count, and
a pattern inserted k times counts k times. -/
theorem match_counts (pats : List (List Nat)) (s : List Nat) (hpats : pats ≠ [])
    (hne : ∀ p ∈ pats, p ≠ []) :
    matchAfterBuild pats s = Run.ok ((occurrences pats s : Nat) : Int) :=
  matchAfterBuild_spec pats s hpats hne

theorem match_counts_witness :
    ([[115, 97, 121], [115, 104, 101], [104, 101], [115, 104, 114], [104, 101, 114]] :
        List (List Nat)) ≠ [] ∧
      (∀ p ∈ ([[115, 97, 121], [115, 104, 101], [104, 101], [115, 104, 114],
        [104, 101, 114]] : List (List Nat)), p ≠ []) ∧
      matchAfterBuild [[115, 97, 121], [115, 104, 101], [104, 101], [115, 104, 114],
          [104, 101, 114]] [121, 97, 115, 104, 101, 114, 104, 115] =
        Run.ok ((occurrences [[115, 97, 121], [115, 104, 101], [104, 101], [115, 104, 114],
          [104, 101, 114]] [121, 97, 115, 104, 101, 114, 104, 115] : Nat) : Int) ∧
      occurrences [[115, 97, 121], [115, 104, 101], [104, 101], [115, 104, 114],
          [104, 101, 114]] [121, 97, 115, 104, 101, 114, 104, 115] = 3 :=
  ⟨by decide, by decide, match_counts _ _ (by decide) (by decide), by decide⟩

end Trie

namespace Treap

theorem above_of_heap {m : Int} : ∀ {p : Node}, Heap p → p.rootGe m → Above m p := by
  intro p
  induction p generalizing m with
  | nil => intro _ _ x hx; simp [Node.pairs] at hx
  | node key prior left right ihl ihr =>
    intro hh hm x hx
    obtain ⟨h1, h2, h3, h4⟩ := hh
    simp only [Node.rootGe] at hm
    simp only [Node.pairs, List.mem_append, List.mem_cons] at hx
    rcases hx with hx | hx | hx
    · exact le_trans hm (ihl h3 h1 x hx)
    · subst hx
      exact hm
    · exact le_trans hm (ihr h4 h2 x hx)

theorem rootGe_of_above {m : Int} {p : Node} (h : Above m p) : p.rootGe m := by
  cases p with
  | nil => trivial
  | node key prior left right => exact h (key, prior) (by simp [Node.pairs])

theorem above_node {m key prior : Int} {left right : Node} :
    Above m (Node.node key prior left right) ↔ m ≤ prior ∧ Above m left ∧ Above m right := by
  constructor
  · intro h
    exact ⟨h (key, prior) (by simp [Node.pairs]), fun x hx => h x (by simp [Node.pairs, hx]),
      fun x hx => h x (by simp [Node.pairs, hx])⟩
  · rintro ⟨h1, h2, h3⟩ x hx
    simp only [Node.pairs, List.mem_append, List.mem_cons] at hx
    rcases hx with hx | hx | hx
    · exact h2 x hx
    · subst hx
      exact h1
    · exact h3 x hx

/-- What `Insert` returns on a heap-ordered tree: a heap-ordered tree whose
pairs are the old ones with the new pair put in, after the pairs whose key is
not above `key` and before the others; below its root every priority respects
each bound the old tree respected, and the root does or is the new node. -/
theorem treap_Insert_spec (key prior : Int) : ∀ (p : Node), Heap p →
    ∃ k' p' l' r', Insert p key prior = some (Node.node k' p' l' r') ∧
      Heap (Node.node k' p' l' r') ∧
      (∀ m, Above m p → (m ≤ p' ∨ p' = prior) ∧ Above m l' ∧ Above m r') ∧
      ∃ A B, p.pairs = A ++ B ∧ (Node.node k' p' l' r').pairs = A ++ (key, prior) :: B ∧
        (Ordered p → (∀ a ∈ A, a.1 ≤ key) ∧ ∀ b ∈ B, key < b.1) := by
  intro p
  induction p with
  | nil =>
    intro _
    refine ⟨key, prior, Node.nil, Node.nil, rfl, ⟨trivial, trivial, trivial, trivial⟩, ?_,
      [], [], rfl, rfl, ?_⟩
    · intro m _
      exact ⟨Or.inr rfl, fun x hx => by simp [Node.pairs] at hx,
        fun x hx => by simp [Node.pairs] at hx⟩
    · intro _
      exact ⟨fun a ha => by simp at ha, fun b hb => by simp at hb⟩
  | node k p left right ihl ihr =>
    intro hh
    obtain ⟨h1, h2, h3, h4⟩ := hh
    by_cases hlt : key < k
    · obtain ⟨lk, lp, ll, lr, hins, hheap, hab, A, B, hA, hB, hord⟩ := ihl h3
      have habp := hab p (above_of_heap h3 h1)
      obtain ⟨g1, g2, g3, g4⟩ := hheap
      have hpairs : ∀ (q : Node), q.pairs = A ++ (key, prior) :: B ++ (k, p) :: right.pairs →
          ∃ A' B', (Node.node k p left right).pairs = A' ++ B' ∧
            q.pairs = A' ++ (key, prior) :: B' ∧
            (Ordered (Node.node k p left right) → (∀ a ∈ A', a.1 ≤ key) ∧ ∀ b ∈ B', key < b.1) := by
        intro q hq
        refine ⟨A, B ++ (k, p) :: right.pairs, ?_, ?_, ?_⟩
        · simp [Node.pairs, hA]
        · simpa using hq
        · intro ho
          have ho' : Ordered left := by
            unfold Ordered at ho ⊢
            simp only [Node.pairs] at ho
            exact (List.pairwise_append.1 ho).1
          obtain ⟨e1, e2⟩ := hord ho'
          refine ⟨e1, fun b hb => ?_⟩
          simp only [List.mem_append, List.mem_cons] at hb
          rcases hb with hb | hb | hb
          · exact e2 b hb
          · subst hb
            exact hlt
          · unfold Ordered at ho
            simp only [Node.pairs] at ho
            have := (List.pairwise_append.1 ho).2.1
            have := (List.pairwise_cons.1 this).1 b hb
            exact lt_of_lt_of_le hlt this
      by_cases hrot : lp < p
      · refine ⟨lk, lp, ll, Node.node k p lr right, ?_, ?_, ?_, ?_⟩
        · simp [Insert, hlt, hins, Node.prior?, hrot, zag]
        · exact ⟨g1, le_of_lt hrot, g3, rootGe_of_above habp.2.2, h2, g4, h4⟩
        · intro m hm
          obtain ⟨m1, m2, m3⟩ := above_node.1 hm
          obtain ⟨n1, n2, n3⟩ := hab m m2
          exact ⟨n1, n2, above_node.2 ⟨m1, n3, m3⟩⟩
        · refine hpairs _ ?_
          simp only [Node.pairs] at hB ⊢
          have := congrArg (fun L => L ++ (k, p) :: right.pairs) hB
          simpa using this
      · refine ⟨k, p, Node.node lk lp ll lr, right, ?_, ?_, ?_, ?_⟩
        · simp [Insert, hlt, hins, Node.prior?, hrot]
        · exact ⟨not_lt.1 hrot, h2, ⟨g1, g2, g3, g4⟩, h4⟩
        · intro m hm
          obtain ⟨m1, m2, m3⟩ := above_node.1 hm
          obtain ⟨n1, n2, n3⟩ := hab m m2
          exact ⟨Or.inl m1, above_node.2 ⟨le_trans m1 (not_lt.1 hrot), n2, n3⟩, m3⟩
        · refine hpairs _ ?_
          simp only [Node.pairs] at hB ⊢
          rw [hB]
    · obtain ⟨rk, rp, rl, rr, hins, hheap, hab, A, B, hA, hB, hord⟩ := ihr h4
      have habp := hab p (above_of_heap h4 h2)
      obtain ⟨g1, g2, g3, g4⟩ := hheap
      have hpairs : ∀ (q : Node), q.pairs = left.pairs ++ (k, p) :: (A ++ (key, prior) :: B) →
          ∃ A' B', (Node.node k p left right).pairs = A' ++ B' ∧
            q.pairs = A' ++ (key, prior) :: B' ∧
            (Ordered (Node.node k p left right) → (∀ a ∈ A', a.1 ≤ key) ∧ ∀ b ∈ B', key < b.1) := by
        intro q hq
        refine ⟨left.pairs ++ (k, p) :: A, B, ?_, ?_, ?_⟩
        · simp [Node.pairs, hA]
        · simpa using hq
        · intro ho
          unfold Ordered at ho
          simp only [Node.pairs] at ho
          obtain ⟨o1, o2, o3⟩ := List.pairwise_append.1 ho
          obtain ⟨o4, o5⟩ := List.pairwise_cons.1 o2
          obtain ⟨e1, e2⟩ := hord o5
          refine ⟨fun a ha => ?_, e2⟩
          simp only [List.mem_append, List.mem_cons] at ha
          rcases ha with ha | ha | ha
          · exact le_trans (o3 a ha (k, p) (by simp)) (not_lt.1 hlt)
          · subst ha
            exact not_lt.1 hlt
          · exact e1 a ha
      by_cases hrot : rp < p
      · refine ⟨rk, rp, Node.node k p left rl, rr, ?_, ?_, ?_, ?_⟩
        · simp [Insert, hlt, hins, Node.prior?, hrot, zig]
        · exact ⟨le_of_lt hrot, g2, ⟨h1, rootGe_of_above habp.2.1, h3, g3⟩, g4⟩
        · intro m hm
          obtain ⟨m1, m2, m3⟩ := above_node.1 hm
          obtain ⟨n1, n2, n3⟩ := hab m m3
          exact ⟨n1, above_node.2 ⟨m1, m2, n2⟩, n3⟩
        · refine hpairs _ ?_
          simp only [Node.pairs] at hB ⊢
          simp only [List.append_assoc, List.cons_append]
          rw [hB]
      · refine ⟨k, p, left, Node.node rk rp rl rr, ?_, ?_, ?_, ?_⟩
        · simp [Insert, hlt, hins, Node.prior?, hrot]
        · exact ⟨h1, not_lt.1 hrot, h3, ⟨g1, g2, g3, g4⟩⟩
        · intro m hm
          obtain ⟨m1, m2, m3⟩ := above_node.1 hm
          obtain ⟨n1, n2, n3⟩ := hab m m3
          exact ⟨Or.inl m1, m2, above_node.2 ⟨le_trans m1 (not_lt.1 hrot), n2, n3⟩⟩
        · refine hpairs _ ?_
          simp only [Node.pairs] at hB ⊢
          rw [hB]

theorem Search_found (key : Int) : ∀ (p : Node), Ordered p → (∃ x ∈ p.pairs, x.1 = key) →
    Search p key ≠ Node.nil := by
  intro p
  induction p with
  | nil =>
    rintro _ ⟨x, hx, _⟩
    simp [Node.pairs] at hx
  | node k pr left right ihl ihr =>
    rintro ho ⟨x, hx, hk⟩
    unfold Ordered at ho
    simp only [Node.pairs] at ho hx
    obtain ⟨o1, o2, o3⟩ := List.pairwise_append.1 ho
    obtain ⟨o4, o5⟩ := List.pairwise_cons.1 o2
    simp only [List.mem_append, List.mem_cons] at hx
    by_cases h1 : key < k
    · simp only [Search, if_pos h1]
      refine ihl o1 ⟨x, ?_, hk⟩
      rcases hx with hx | hx | hx
      · exact hx
      · subst hx
        simp only at hk
        omega
      · have := o4 x hx
        simp only at this
        omega
    · by_cases h2 : key > k
      · simp only [Search, if_neg h1, if_pos h2]
        refine ihr o5 ⟨x, ?_, hk⟩
        rcases hx with hx | hx | hx
        · have := o3 x hx (k, pr) (by simp)
          simp only at this
          omega
        · subst hx
          simp only at hk
          omega
        · exact hx
      · simp [Search, if_neg h1, if_neg h2]

theorem ordered_insert {A B : List (Int × Int)} {x : Int × Int}
    (h : (A ++ B).Pairwise (fun a b => a.1 ≤ b.1)) (hA : ∀ a ∈ A, a.1 ≤ x.1)
    (hB : ∀ b ∈ B, x.1 < b.1) : (A ++ x :: B).Pairwise (fun a b => a.1 ≤ b.1) := by
  obtain ⟨o1, o2, o3⟩ := List.pairwise_append.1 h
  refine List.pairwise_append.2 ⟨o1, List.pairwise_cons.2 ⟨fun b hb => le_of_lt (hB b hb), o2⟩, ?_⟩
  intro a ha b hb
  simp only [List.mem_cons] at hb
  rcases hb with hb | hb
  · subst hb
    exact hA a ha
  · exact o3 a ha b hb

/-- C24: `Insert` on a tree whose in-order keys are non-decreasing and in which
no child has a smaller priority than its parent returns a tree with the same
two properties, whose pairs are the old pairs and `(key, prior)`, and in which
`Search` finds `key`. -/
theorem insert_preserves_treap (p : Node) (key prior : Int) (ho : Ordered p) (hh : Heap p) :
    ∃ q, Insert p key prior = some q ∧ Ordered q ∧ Heap q ∧
      (q.pairs : Multiset (Int × Int)) = (key, prior) ::ₘ (p.pairs : Multiset (Int × Int)) ∧
      Search q key ≠ Node.nil := by
  obtain ⟨k', p', l', r', hins, hheap, -, A, B, hA, hB, hord⟩ := treap_Insert_spec key prior p hh
  obtain ⟨e1, e2⟩ := hord ho
  have hoq : Ordered (Node.node k' p' l' r') := by
    unfold Ordered at ho ⊢
    rw [hB]
    rw [hA] at ho
    exact ordered_insert ho e1 e2
  refine ⟨_, hins, hoq, hheap, ?_, Search_found key _ hoq ⟨(key, prior), ?_, rfl⟩⟩
  · rw [hB, hA, Multiset.cons_coe]
    exact Multiset.coe_eq_coe.2 List.perm_middle
  · rw [hB]
    simp

theorem insert_preserves_treap_witness :
    Ordered (Node.node 5 1 (Node.node 3 4 Node.nil Node.nil) Node.nil) ∧
    Heap (Node.node 5 1 (Node.node 3 4 Node.nil Node.nil) Node.nil) ∧
    ∃ q, Insert (Node.node 5 1 (Node.node 3 4 Node.nil Node.nil) Node.nil) 4 2 = some q ∧
      Ordered q ∧ Heap q ∧
      (q.pairs : Multiset (Int × Int)) =
        (4, 2) ::ₘ ((Node.node 5 1 (Node.node 3 4 Node.nil Node.nil) Node.nil).pairs :
          Multiset (Int × Int)) ∧
      Search q 4 ≠ Node.nil :=
  ⟨by simp [Ordered, Node.pairs], by simp [Heap, Node.rootGe],
    insert_preserves_treap _ 4 2 (by simp [Ordered, Node.pairs]) (by simp [Heap, Node.rootGe])⟩

end Treap

namespace Skiplist

@[simp] theorem out_bind_ok {α β : Type} (a : α) (f : α → Out β) : (Out.ok a >>= f) = f a := rfl

@[simp] theorem out_pure {α : Type} (a : α) : (pure a : Out α) = Out.ok a := rfl

theorem out_bind_assoc {α β γ : Type} (x : Out α) (f : α → Out β) (g : β → Out γ) :
    x >>= f >>= g = x >>= fun a => f a >>= g := by
  cases x <;> rfl

theorem deref_of_get {l : SkipList} {p : Ptr} {nd : Node} (h : l.get p = some nd) :
    deref l p = Out.ok nd := by
  cases p with
  | nil => simp [SkipList.get] at h
  | null => simp only [SkipList.get, Option.some.injEq] at h; simp [deref, h]
  | header => simp only [SkipList.get, Option.some.injEq] at h; simp [deref, h]
  | node a => simp only [SkipList.get] at h; simp [deref, h]

theorem readIdx_lt (a : Nat → Ptr) {k : Nat} (h : k < maxLevel) : readIdx a k = Out.ok (a k) := by
  simp [readIdx, h]

theorem writeIdx_lt (a : Nat → Ptr) {k : Nat} (p : Ptr) (h : k < maxLevel) :
    writeIdx a k p = Out.ok (Function.update a k p) := by
  simp [writeIdx, h]

theorem setForward_spec {l : SkipList} {p : Ptr} {nd : Node} (h : l.get p = some nd) {k : Nat}
    (hk : k < maxLevel) (x : Ptr) :
    setForward l p k x =
      Out.ok (putForward l p { nd with forward := Function.update nd.forward k x }) := by
  cases p with
  | nil => simp [SkipList.get] at h
  | null =>
    simp only [SkipList.get, Option.some.injEq] at h
    simp [setForward, deref, h, writeIdx, hk, putForward]
  | header =>
    simp only [SkipList.get, Option.some.injEq] at h
    simp [setForward, deref, h, writeIdx, hk, putForward]
  | node a =>
    simp only [SkipList.get] at h
    simp [setForward, deref, h, writeIdx, hk, putForward]

theorem get_putForward_self (l : SkipList) {p : Ptr} (hp : p ≠ Ptr.nil) (nd : Node) :
    (putForward l p nd).get p = some nd := by
  cases p with
  | nil => exact absurd rfl hp
  | null => rfl
  | header => rfl
  | node a => simp [putForward, SkipList.get]

theorem get_putForward_ne (l : SkipList) {p q : Ptr} (h : q ≠ p) (nd : Node) :
    (putForward l p nd).get q = l.get q := by
  cases p <;> cases q <;> simp_all [putForward, SkipList.get, Function.update_apply]

@[simp] theorem putForward_next (l : SkipList) (p : Ptr) (nd : Node) :
    (putForward l p nd).next = l.next := by
  cases p <;> rfl

@[simp] theorem putForward_level (l : SkipList) (p : Ptr) (nd : Node) :
    (putForward l p nd).level = l.level := by
  cases p <;> rfl

@[simp] theorem putForward_count (l : SkipList) (p : Ptr) (nd : Node) :
    (putForward l p nd).count = l.count := by
  cases p <;> rfl

theorem nextAt_append_of_none (k : Nat) (X T : List Cell) (h : ∀ d ∈ X, ¬ d.linked k) :
    nextAt k (X ++ T) = nextAt k T := by
  induction X with
  | nil => rfl
  | cons c rest ih =>
    simp only [List.cons_append, nextAt, if_neg (h c (by simp))]
    exact ih (fun d hd => h d (by simp [hd]))

theorem nextAt_append_congr (k : Nat) (X : List Cell) {T T' : List Cell}
    (h : nextAt k T' = nextAt k T) : nextAt k (X ++ T') = nextAt k (X ++ T) := by
  induction X with
  | nil => exact h
  | cons c rest ih =>
    simp only [List.cons_append, nextAt, List.append_eq, ih]

theorem nextAt_cons_linked (k : Nat) (c : Cell) (Y : List Cell) (h : c.linked k) :
    nextAt k (c :: Y) = c.ptr := by
  simp [nextAt, h]

theorem nextAt_mem (k : Nat) (Y : List Cell) :
    nextAt k Y = Ptr.null ∨ ∃ d ∈ Y, nextAt k Y = d.ptr ∧ d.linked k := by
  induction Y with
  | nil => exact Or.inl rfl
  | cons c rest ih =>
    by_cases h : c.linked k
    · exact Or.inr ⟨c, by simp, by simp [nextAt, h], h⟩
    · simp only [nextAt, if_neg h]
      rcases ih with ih | ⟨d, hd, he, hl⟩
      · exact Or.inl ih
      · exact Or.inr ⟨d, by simp [hd], he, hl⟩

theorem chain_append (l : SkipList) (T X Y : List Cell) :
    Chain l T (X ++ Y) ↔ Chain l (Y ++ T) X ∧ Chain l T Y := by
  induction X with
  | nil => simp [Chain]
  | cons c rest ih =>
    simp only [List.cons_append, Chain, List.append_eq, ih, List.append_assoc, and_assoc]

theorem chain_mem {l : SkipList} {T X : List Cell} (h : Chain l T X) {c : Cell} (hc : c ∈ X) :
    ∃ nd, l.get c.ptr = some nd ∧ nd.key = c.key := by
  induction X with
  | nil => simp at hc
  | cons d rest ih =>
    obtain ⟨⟨nd, h1, h2, -⟩, h3⟩ := h
    simp only [List.mem_cons] at hc
    rcases hc with hc | hc
    · subst hc
      exact ⟨nd, h1, h2⟩
    · exact ih h3 hc

/-- A chain stays one when the heap keeps the nodes of its cells and the
sequence that follows is replaced by one that looks the same from every
level at which a cell of the chain is linked. -/
theorem chain_congr {l l' : SkipList} {T T' X : List Cell} (h : Chain l T X)
    (hget : ∀ c ∈ X, l'.get c.ptr = l.get c.ptr)
    (hT : ∀ k, k < maxLevel → nextAt k T' = nextAt k T ∨ ∀ c ∈ X, ¬ c.linked k) :
    Chain l' T' X := by
  induction X with
  | nil => trivial
  | cons c rest ih =>
    obtain ⟨⟨nd, h1, h2, h3⟩, h4⟩ := h
    refine ⟨⟨nd, ?_, h2, fun k hk hl => ?_⟩, ih h4 (fun d hd => hget d (by simp [hd])) ?_⟩
    · rw [hget c (by simp)]
      exact h1
    · rw [h3 k hk hl]
      rcases hT k hk with hT | hT
      · exact (nextAt_append_congr k rest hT).symm
      · exact absurd hl (hT c (by simp))
    · intro k hk
      rcases hT k hk with hT | hT
      · exact Or.inl hT
      · exact Or.inr (fun d hd => hT d (by simp [hd]))

theorem first_linked (k : Nat) (Y : List Cell) :
    (∀ d ∈ Y, ¬ d.linked k) ∨
      ∃ Y1 d Y2, Y = Y1 ++ d :: Y2 ∧ (∀ e ∈ Y1, ¬ e.linked k) ∧ d.linked k := by
  induction Y with
  | nil => exact Or.inl (fun d hd => by simp at hd)
  | cons c rest ih =>
    by_cases h : c.linked k
    · exact Or.inr ⟨[], c, rest, rfl, fun e he => by simp at he, h⟩
    · rcases ih with ih | ⟨Y1, d, Y2, h1, h2, h3⟩
      · left
        intro d hd
        simp only [List.mem_cons] at hd
        rcases hd with hd | hd
        · subst hd
          exact h
        · exact ih d hd
      · refine Or.inr ⟨c :: Y1, d, Y2, by simp [h1], fun e he => ?_, h3⟩
        simp only [List.mem_cons] at he
        rcases he with he | he
        · subst he
          exact h
        · exact h2 e he

theorem mem_of_cons_eq {h : Cell} {A X Y : List Cell} {c : Cell} (he : h :: A = X ++ c :: Y) :
    ∀ d ∈ Y, d ∈ A := by
  intro d hd
  cases X with
  | nil =>
    simp only [List.nil_append, List.cons.injEq] at he
    rw [he.2]
    exact hd
  | cons x X =>
    simp only [List.cons_append, List.cons.injEq] at he
    rw [he.2]
    simp [hd]

theorem length_le_next {l : SkipList} {L : List Cell} (h : Rep l L) : L.length ≤ l.next := by
  have hsub : L.map Cell.ptr ⊆ (List.range l.next).map Ptr.node := by
    intro p hp
    obtain ⟨c, hc, rfl⟩ := List.mem_map.1 hp
    obtain ⟨a, ha, hlt⟩ := h.alloc c hc
    rw [ha]
    exact List.mem_map.2 ⟨a, List.mem_range.2 hlt, rfl⟩
  have := (h.nodup.subperm hsub).length_le
  simpa using this

theorem split_holds {l : SkipList} {key : Nat} {A B : List Cell} (h : Split l key A B)
    {X Y : List Cell} {c : Cell} (he : hdr l :: A = X ++ c :: Y) : Holds l c (Y ++ B) := by
  have hc := h.inv.rep.chain
  have e : hdr l :: (A ++ B) = X ++ (c :: (Y ++ B)) := by
    rw [← List.cons_append, he]
    simp
  rw [e, chain_append] at hc
  simpa [Chain] using hc.2.1

theorem split_get {l : SkipList} {key : Nat} {A B : List Cell} (h : Split l key A B)
    {c : Cell} (hc : c ∈ A ++ B) : ∃ nd, l.get c.ptr = some nd ∧ nd.key = c.key :=
  chain_mem h.inv.rep.chain (List.mem_cons_of_mem _ hc)

theorem scan_spec {l : SkipList} {key : Nat} {A B : List Cell} (h : Split l key A B) {k : Nat}
    (hk : k < maxLevel) : ∀ (fuel : Nat) (X : List Cell) (c : Cell) (Y : List Cell),
      hdr l :: A = X ++ c :: Y → c.linked k → Y.length < fuel →
      ∃ p, scan l key k fuel c.ptr = Out.ok (p, nextAt k B) ∧ IsPred k (hdr l :: A) p := by
  intro fuel
  induction fuel with
  | zero => intro X c Y _ _ hf; omega
  | succ fuel ih =>
    intro X c Y he hl hf
    obtain ⟨nd, hget, -, hfw⟩ := split_holds h he
    have hq := hfw k hk hl
    rcases first_linked k Y with hnone | ⟨Y1, d, Y2, hY, hY1, hd⟩
    · rw [nextAt_append_of_none k Y B hnone] at hq
      have hstop : ∃ qn, l.get (nextAt k B) = some qn ∧ ¬ qn.key > key := by
        rcases nextAt_mem k B with hn | ⟨d, hd, hn, -⟩
        · rw [hn]
          exact ⟨l.null, rfl, by rw [h.inv.rep.nullKey]; omega⟩
        · rw [hn]
          obtain ⟨qn, h1, h2⟩ := split_get h (List.mem_append_right A hd)
          exact ⟨qn, h1, by rw [h2]; have := h.below d hd; omega⟩
      obtain ⟨qn, hqn, hle⟩ := hstop
      refine ⟨c.ptr, ?_, X, c, Y, he, rfl, hl, hnone⟩
      simp [scan, deref_of_get hget, readIdx_lt _ hk, hq, deref_of_get hqn, hle]
    · have hdA : d ∈ A := mem_of_cons_eq he d (by simp [hY])
      obtain ⟨qn, hqn, hkey⟩ := split_get h (List.mem_append_left B hdA)
      have hgt : qn.key > key := by rw [hkey]; exact h.above d hdA
      have hq' : nd.forward k = d.ptr := by
        rw [hq, hY, List.append_assoc, nextAt_append_of_none k Y1 _ hY1]
        exact nextAt_cons_linked k d _ hd
      have he' : hdr l :: A = (X ++ c :: Y1) ++ d :: Y2 := by
        rw [he, hY]
        simp
      obtain ⟨p, hp, hpred⟩ := ih (X ++ c :: Y1) d Y2 he' hd (by
        rw [hY] at hf
        simp only [List.length_append, List.length_cons] at hf
        omega)
      refine ⟨p, ?_, hpred⟩
      simp [scan, deref_of_get hget, readIdx_lt _ hk, hq', deref_of_get hqn, hgt, hp]

theorem linked_pred {l : SkipList} {key : Nat} {A B : List Cell} (h : Split l key A B)
    {X Y : List Cell} {c : Cell} (he : hdr l :: A = X ++ c :: Y) {k : Nat}
    (hl : c.linked (k + 1)) : c.linked k := by
  have hlo : c.lo = 0 := by
    cases X with
    | nil =>
      simp only [List.nil_append, List.cons.injEq] at he
      rw [← he.1]
      rfl
    | cons x X =>
      simp only [List.cons_append, List.cons.injEq] at he
      exact h.inv.lo c (by rw [he.2]; simp)
  unfold Cell.linked at hl ⊢
  omega

theorem skip_searchLoop_spec {l : SkipList} {key : Nat} {A B : List Cell} (h : Split l key A B) :
    ∀ (n : Nat) (p q : Ptr) (update : Nat → Ptr), n ≤ maxLevel →
      (0 < n → ∃ X c Y, hdr l :: A = X ++ c :: Y ∧ p = c.ptr ∧ c.linked (n - 1)) →
      ∃ q' u', searchLoop l key n p q update = Out.ok (q', u') ∧
        (∀ j, j < n → IsPred j (hdr l :: A) (u' j)) ∧ (∀ j, n ≤ j → u' j = update j) ∧
        (0 < n → q' = nextAt 0 B) := by
  intro n
  induction n with
  | zero =>
    intro p q update _ _
    exact ⟨q, update, rfl, fun j hj => by omega, fun _ _ => rfl, fun h0 => by omega⟩
  | succ k ih =>
    intro p q update hn hstart
    obtain ⟨X, c, Y, he, hp, hl⟩ := hstart (by omega)
    simp only [Nat.add_sub_cancel] at hl
    have hk : k < maxLevel := by omega
    have hlen : Y.length < l.next + 1 := by
      have h1 := length_le_next h.inv.rep
      have h2 : Y.length ≤ A.length := by
        have := congrArg List.length he
        simp only [List.length_cons, List.length_append] at this
        omega
      simp only [List.length_append] at h1
      omega
    obtain ⟨p', hscan, hpred⟩ := scan_spec h hk (l.next + 1) X c Y he hl hlen
    obtain ⟨q', u', hrun, h1, h2, h3⟩ := ih p' (nextAt k B) (Function.update update k p')
      (by omega) (fun hk0 => by
        obtain ⟨X', c', Y', he', hp', hl', -⟩ := hpred
        refine ⟨X', c', Y', he', hp', ?_⟩
        obtain ⟨k', rfl⟩ : ∃ k', k = k' + 1 := ⟨k - 1, by omega⟩
        simpa using linked_pred h he' hl')
    refine ⟨q', u', ?_, fun j hj => ?_, fun j hj => ?_, fun _ => ?_⟩
    · rw [hp]
      simp [searchLoop, hscan, writeIdx_lt _ _ hk, hrun]
    · by_cases hjk : j < k
      · exact h1 j hjk
      · have : j = k := by omega
        subst this
        rw [h2 j (le_refl _)]
        simpa using hpred
    · rw [h2 j (by omega)]
      simp [Function.update_apply]
      intro hjk
      omega
    · by_cases hk0 : 0 < k
      · exact h3 hk0
      · have : k = 0 := by omega
        subst this
        simp only [searchLoop, out_pure] at hrun
        cases hrun
        rfl

theorem hdr_linked (l : SkipList) {k : Nat} (hk : k < maxLevel) : (hdr l).linked k := by
  unfold Cell.linked hdr maxLevel at *
  simp only
  omega

theorem skip_Search_spec {l : SkipList} {key : Nat} {A B : List Cell} (h : Split l key A B)
    (update : Nat → Ptr) :
    ∃ u', Search l key update = Out.ok (nextAt 0 B, u') ∧
      ∀ j, j ≤ l.level → IsPred j (hdr l :: A) (u' j) := by
  have hlev := h.inv.level
  obtain ⟨q', u', hrun, h1, -, h3⟩ := skip_searchLoop_spec h (l.level + 1) Ptr.header Ptr.nil update
    (by omega) (fun _ => ⟨[], hdr l, A, rfl, rfl, hdr_linked l (by simpa using hlev)⟩)
  rw [h3 (by omega)] at hrun
  exact ⟨u', hrun, fun j hj => h1 j (by omega)⟩

theorem ptr_ne_of_nodup {M P Q : List Cell} {c : Cell} (hnd : (M.map Cell.ptr).Nodup)
    (hM : M = P ++ c :: Q) : ∀ d ∈ P ++ Q, d.ptr ≠ c.ptr := by
  intro d hd he
  rw [hM, List.map_append, List.map_cons] at hnd
  have := (List.nodup_cons.1 (List.nodup_middle.1 hnd)).1
  apply this
  rw [← he, ← List.map_append]
  exact List.mem_map_of_mem _ hd

theorem nextAt_newCell (k j a key hi : Nat) (hkj : k ≠ j) (Y B : List Cell) :
    nextAt k (Y ++ newCell a key j hi :: B) = nextAt k (Y ++ newCell a key (j + 1) hi :: B) := by
  apply nextAt_append_congr
  simp only [nextAt, Cell.linked, newCell]
  have : (j ≤ k ∧ k ≤ hi) ↔ (j + 1 ≤ k ∧ k ≤ hi) := by omega
  simp only [this]

/-- One iteration of the loop of `Insert` that links the new node: at level
`j` the node is put between the last node before it that is linked at `j` and
the node that followed that one. -/
theorem link_step {l : SkipList} {FA B : List Cell} {a key j hi : Nat} (hj : j < maxLevel)
    (hjh : j ≤ hi) (hc : Chain l [] (FA ++ newCell a key (j + 1) hi :: B))
    (hnd : ((FA ++ newCell a key (j + 1) hi :: B).map Cell.ptr).Nodup)
    (hnn : ∀ c ∈ FA, c.ptr = Ptr.header ∨ ∃ b, c.ptr = Ptr.node b) {p : Ptr}
    (hp : IsPred j FA p) :
    ∃ l', (do
        let pn ← deref l p
        let f ← readIdx pn.forward j
        let l ← setForward l (Ptr.node a) j f
        setForward l p j (Ptr.node a)) = Out.ok l' ∧
      Chain l' [] (FA ++ newCell a key j hi :: B) ∧ l'.next = l.next ∧ l'.level = l.level ∧
      l'.count = l.count ∧ l'.null = l.null ∧ l'.header.key = l.header.key := by
  obtain ⟨X, c, Y, hFA, rfl, hcl, hY⟩ := hp
  subst hFA
  have hne1 := ptr_ne_of_nodup hnd
    (show X ++ c :: Y ++ newCell a key (j + 1) hi :: B = X ++ c :: (Y ++ newCell a key (j + 1) hi :: B)
      by simp)
  have hne2 := ptr_ne_of_nodup hnd
    (show X ++ c :: Y ++ newCell a key (j + 1) hi :: B = (X ++ c :: Y) ++ newCell a key (j + 1) hi :: B
      by simp)
  have hcx : Ptr.node a ≠ c.ptr := hne1 (newCell a key (j + 1) hi) (by simp)
  have hcnn : c.ptr ≠ Ptr.nil ∧ c.ptr ≠ Ptr.null := by
    rcases hnn c (by simp) with h | ⟨b, h⟩ <;> rw [h] <;> simp
  rw [show X ++ c :: Y ++ newCell a key (j + 1) hi :: B =
    X ++ ([c] ++ (Y ++ ([newCell a key (j + 1) hi] ++ B))) by simp] at hc
  simp only [chain_append, List.append_nil] at hc
  obtain ⟨hX, hC, hYc, hN, hB⟩ := hc
  obtain ⟨⟨pn, hpget, hpkey, hpfw⟩, -⟩ := hC
  obtain ⟨⟨xn, hxget, hxkey, hxfw⟩, -⟩ := hN
  simp only [List.nil_append, List.append_nil, List.singleton_append] at hpfw hxfw hX hYc
  have hpj : pn.forward j = nextAt j B := by
    rw [hpfw j hj hcl, nextAt_append_of_none j Y _ hY]
    simp [nextAt, newCell, Cell.linked]
  let l2 := putForward l (Ptr.node a) { xn with forward := Function.update xn.forward j (nextAt j B) }
  let l3 := putForward l2 c.ptr { pn with forward := Function.update pn.forward j (Ptr.node a) }
  have hg2 : l2.get c.ptr = some pn := by
    rw [get_putForward_ne l hcx.symm]
    exact hpget
  have hg3 : ∀ q, q ≠ Ptr.node a → q ≠ c.ptr → l3.get q = l.get q := by
    intro q h1 h2
    rw [get_putForward_ne l2 h2, get_putForward_ne l h1]
  have hg3x : l3.get (Ptr.node a) =
      some { xn with forward := Function.update xn.forward j (nextAt j B) } := by
    rw [get_putForward_ne l2 hcx, get_putForward_self l (by simp)]
  have hg3c : l3.get c.ptr =
      some { pn with forward := Function.update pn.forward j (Ptr.node a) } :=
    get_putForward_self l2 hcnn.1 _
  have hxl : ∀ k, (newCell a key j hi).linked k ↔ k = j ∨ (newCell a key (j + 1) hi).linked k := by
    intro k
    simp only [Cell.linked, newCell]
    omega
  refine ⟨l3, ?_, ?_, ?_, ?_, ?_, ?_, ?_⟩
  · simp only [deref_of_get hpget, out_bind_ok, readIdx_lt _ hj, hpj]
    have e1 := @setForward_spec l (Ptr.node a) _ hxget _ hj (nextAt j B)
    rw [e1]
    simp only [out_bind_ok]
    exact @setForward_spec l2 _ _ hg2 _ hj (Ptr.node a)
  · rw [show X ++ c :: Y ++ newCell a key j hi :: B =
      X ++ ([c] ++ (Y ++ ([newCell a key j hi] ++ B))) by simp]
    simp only [chain_append, List.append_nil]
    refine ⟨?_, ⟨?_, trivial⟩, ?_, ⟨?_, trivial⟩, ?_⟩
    · refine chain_congr hX (fun d hd => ?_) (fun k hk => Or.inl ?_)
      · exact hg3 _ (hne2 d (by simp [hd])) (hne1 d (by simp [hd]))
      · simp only [List.singleton_append, nextAt]
        by_cases hkl : c.linked k
        · simp [hkl]
        · have hkj : k ≠ j := fun h => hkl (h ▸ hcl)
          simp only [if_neg hkl]
          exact nextAt_newCell k j a key hi hkj Y B
    · refine ⟨_, hg3c, hpkey, fun k hk hl => ?_⟩
      simp only [List.nil_append, List.singleton_append]
      by_cases hkj : k = j
      · subst hkj
        rw [nextAt_append_of_none k Y _ hY]
        simp [nextAt, newCell, Cell.linked, hjh]
      · rw [nextAt_newCell k j a key hi hkj Y B, ← hpfw k hk hl]
        simp [Function.update_apply, hkj]
    · refine chain_congr hYc (fun d hd => ?_) (fun k hk => ?_)
      · exact hg3 _ (hne2 d (by simp [hd])) (hne1 d (by simp [hd]))
      · by_cases hkj : k = j
        · subst hkj
          exact Or.inr hY
        · left
          simpa using nextAt_newCell k j a key hi hkj [] B
    · refine ⟨_, hg3x, hxkey, fun k hk hl => ?_⟩
      simp only [List.nil_append]
      rcases (hxl k).1 hl with hkj | hl'
      · subst hkj
        simp
      · have hkj : k ≠ j := by
          simp only [Cell.linked, newCell] at hl'
          omega
        rw [← hxfw k hk hl']
        simp [Function.update_apply, hkj]
    · refine chain_congr hB (fun d hd => ?_) (fun k hk => Or.inl rfl)
      exact hg3 _ (hne2 d (by simp [hd])) (hne1 d (by simp [hd]))
  · simp [l3, l2]
  · simp [l3, l2]
  · simp [l3, l2]
  · rcases hnn c (by simp) with h | ⟨b, h⟩ <;> simp [l3, l2, h, putForward]
  · rcases hnn c (by simp) with h | ⟨b, h⟩
    · have : pn = l.header := by
        rw [h] at hpget
        simpa [SkipList.get] using hpget.symm
      simp [l3, l2, h, putForward, this]
    · simp [l3, l2, h, putForward]

theorem linkLoop_spec {FA B : List Cell} {a key hi : Nat} (update : Nat → Ptr)
    (hhi : hi < maxLevel) (hnd : (FA.map Cell.ptr ++ Ptr.node a :: B.map Cell.ptr).Nodup)
    (hnn : ∀ c ∈ FA, c.ptr = Ptr.header ∨ ∃ b, c.ptr = Ptr.node b) :
    ∀ (n : Nat) (l : SkipList), n ≤ hi + 1 → Chain l [] (FA ++ newCell a key n hi :: B) →
      (∀ j, j < n → IsPred j FA (update j)) →
      ∃ l', linkLoop (Ptr.node a) update n l = Out.ok l' ∧
        Chain l' [] (FA ++ newCell a key 0 hi :: B) ∧ l'.next = l.next ∧ l'.level = l.level ∧
        l'.count = l.count ∧ l'.null = l.null ∧ l'.header.key = l.header.key := by
  intro n
  induction n with
  | zero =>
    intro l _ hc _
    exact ⟨l, rfl, hc, rfl, rfl, rfl, rfl, rfl⟩
  | succ j ih =>
    intro l hn hc hpred
    have hj : j < maxLevel := by omega
    obtain ⟨l1, hrun, hc1, e1, e2, e3, e4, e5⟩ :=
      link_step hj (by omega) hc (by simpa [newCell] using hnd) hnn (hpred j (by omega))
    obtain ⟨l2, hrun2, hc2, f1, f2, f3, f4, f5⟩ :=
      ih l1 (by omega) hc1 (fun i hi => hpred i (by omega))
    refine ⟨l2, ?_, hc2, f1.trans e1, f2.trans e2, f3.trans e3, f4.trans e4, f5.trans e5⟩
    simp only [linkLoop, readIdx_lt _ hj, out_bind_ok]
    rw [← hrun2]
    have := congrArg (fun r => r >>= fun l => linkLoop (Ptr.node a) update j l) hrun
    simp only [out_bind_ok] at this
    rw [← this]
    simp only [out_bind_assoc, readIdx_lt _ hj, out_bind_ok]

theorem below_dropWhile (key : Nat) : ∀ (L : List Cell), L.Pairwise (fun a b => b.key < a.key) →
    ∀ b ∈ L.dropWhile (fun c => decide (key < c.key)), b.key ≤ key := by
  intro L
  induction L with
  | nil => intro _ b hb; simp at hb
  | cons c rest ih =>
    intro hp b hb
    obtain ⟨h1, h2⟩ := List.pairwise_cons.1 hp
    by_cases hk : key < c.key
    · simp only [List.dropWhile_cons, hk, decide_True, if_true] at hb
      exact ih h2 b hb
    · simp only [List.dropWhile_cons, hk, decide_False] at hb
      simp only [Bool.false_eq_true, if_false, List.mem_cons] at hb
      rcases hb with hb | hb
      · subst hb
        omega
      · have := h1 b hb
        omega

theorem split_exists {l : SkipList} {L : List Cell} (h : Inv l L) (key : Nat) :
    ∃ A B, L = A ++ B ∧ Split l key A B := by
  refine ⟨L.takeWhile (fun c => decide (key < c.key)), L.dropWhile (fun c => decide (key < c.key)),
    (List.takeWhile_append_dropWhile _ _).symm, ?_, ?_, below_dropWhile key L h.desc⟩
  · rw [List.takeWhile_append_dropWhile]
    exact h
  · intro a ha
    simpa using List.mem_takeWhile_imp ha

theorem hdr_eq {l l' : SkipList} (h : l'.header.key = l.header.key) : hdr l' = hdr l := by
  simp [hdr, h]

theorem chain_hdr_congr {l l' : SkipList} {T X : List Cell} (h : Chain l' T X)
    (hget : ∀ p, l.get p = l'.get p) : Chain l T X :=
  chain_congr h (fun c _ => hget c.ptr) (fun _ _ => Or.inl rfl)

/-- The allocation and the linking of `Insert`: with the new node linked at
the levels up to `hi`, the list holds the old cells and the new one between
the keys above `key` and the keys below it. -/
theorem insert_link {l : SkipList} {key : Nat} {A B : List Cell} (h : Split l key A B)
    (hB : ∀ b ∈ B, b.key < key) (lev hi : Nat) (update : Nat → Ptr) (hlev : l.level ≤ lev)
    (hlev' : lev < maxLevel) (hhi : hi ≤ lev)
    (hpred : ∀ j, j < hi + 1 → IsPred j (hdr l :: A) (update j)) :
    ∃ l3, linkLoop (Ptr.node l.next) update (hi + 1)
        { l with
          level := lev
          mem := Function.update l.mem l.next (some (Node.new key))
          next := l.next + 1 } = Out.ok l3 ∧
      Inv { l3 with count := l3.count + 1 } (A ++ newCell l.next key 0 hi :: B) := by
  have hinv := h.inv
  have halloc := hinv.rep.alloc
  have hA : ∀ c ∈ A ++ B, c.ptr ≠ Ptr.node l.next := by
    intro c hc he
    obtain ⟨a, ha, hlt⟩ := halloc c hc
    rw [ha] at he
    cases he
    omega
  generalize hl2 : ({ l with
          level := lev
          mem := Function.update l.mem l.next (some (Node.new key))
          next := l.next + 1 } : SkipList) = l2
  have hget2 : ∀ p, p ≠ Ptr.node l.next → l2.get p = l.get p := by
    intro p hp
    subst hl2
    cases p with
    | nil => rfl
    | null => rfl
    | header => rfl
    | node a =>
      have : a ≠ l.next := fun e => hp (by rw [e])
      simp [SkipList.get, Function.update_apply, this]
  have hgetx : l2.get (Ptr.node l.next) = some (Node.new key) := by
    subst hl2
    simp [SkipList.get]
  have hhdr2 : hdr l2 = hdr l := by
    subst hl2
    rfl
  have hc := hinv.rep.chain
  rw [← List.cons_append, chain_append] at hc
  have hnl : ∀ k, ¬ (newCell l.next key (hi + 1) hi).linked k := by
    intro k
    simp only [Cell.linked, newCell]
    omega
  have hc2 : Chain l2 [] ((hdr l :: A) ++ newCell l.next key (hi + 1) hi :: B) := by
    rw [chain_append]
    simp only [List.append_nil] at hc ⊢
    refine ⟨chain_congr hc.1 (fun c hc' => ?_) (fun k _ => Or.inl ?_),
      ⟨_, hgetx, rfl, fun k _ hl => absurd hl (hnl k)⟩, chain_congr hc.2 (fun c hc' => ?_)
        (fun k _ => Or.inl rfl)⟩
    · simp only [List.mem_cons] at hc'
      rcases hc' with hc' | hc'
      · subst hc'
        exact hget2 _ (by simp [hdr])
      · exact hget2 _ (hA c (by simp [hc']))
    · simp [nextAt, hnl k]
    · exact hget2 _ (hA c (by simp [hc']))
  have hnd : ((hdr l :: A).map Cell.ptr ++ Ptr.node l.next :: B.map Cell.ptr).Nodup := by
    have h0 := hinv.rep.nodup
    rw [List.map_append] at h0
    simp only [List.map_cons, List.cons_append]
    refine List.nodup_cons.2 ⟨?_, List.nodup_middle.2 (List.nodup_cons.2 ⟨?_, h0⟩)⟩
    · simp only [hdr, List.mem_append, List.mem_cons, List.mem_map, not_or]
      refine ⟨?_, by simp, ?_⟩
      · rintro ⟨c, hc', he⟩
        obtain ⟨a, ha, -⟩ := halloc c (by simp [hc'])
        rw [ha] at he
        cases he
      · rintro ⟨c, hc', he⟩
        obtain ⟨a, ha, -⟩ := halloc c (by simp [hc'])
        rw [ha] at he
        cases he
    · rw [← List.map_append]
      rintro hm
      obtain ⟨c, hc', he⟩ := List.mem_map.1 hm
      exact hA c hc' he
  have hnn : ∀ c ∈ hdr l :: A, c.ptr = Ptr.header ∨ ∃ b, c.ptr = Ptr.node b := by
    intro c hc'
    simp only [List.mem_cons] at hc'
    rcases hc' with hc' | hc'
    · subst hc'
      exact Or.inl rfl
    · obtain ⟨a, ha, -⟩ := halloc c (by simp [hc'])
      exact Or.inr ⟨a, ha⟩
  obtain ⟨l3, hrun, hc3, e1, e2, e3, e4, e5⟩ :=
    @linkLoop_spec _ _ _ key _ update (by omega : hi < maxLevel) hnd hnn (hi + 1) l2 (le_refl _)
      hc2 hpred
  have hl2next : l2.next = l.next + 1 := by subst hl2; rfl
  have hl2level : l2.level = lev := by subst hl2; rfl
  have hl2count : l2.count = l.count := by subst hl2; rfl
  have hl2null : l2.null = l.null := by subst hl2; rfl
  have hl2hk : l2.header.key = l.header.key := by subst hl2; rfl
  refine ⟨l3, hrun, ⟨⟨?_, ?_, ?_, ?_⟩, ?_, ?_, ?_, ?_, ?_⟩⟩
  · have : hdr { l3 with count := l3.count + 1 } = hdr l := hdr_eq (e5.trans hl2hk)
    rw [this]
    refine @chain_hdr_congr _ l3 _ _ ?_ (fun p => by cases p <;> rfl)
    simpa using hc3
  · simp only [List.map_cons, List.cons_append] at hnd
    have := (List.nodup_cons.1 hnd).2
    simpa [newCell] using this
  · intro c hc'
    simp only [List.mem_append, List.mem_cons] at hc'
    simp only [e1, hl2next]
    rcases hc' with hc' | hc' | hc'
    · obtain ⟨a, ha, hlt⟩ := halloc c (by simp [hc'])
      exact ⟨a, ha, by omega⟩
    · subst hc'
      exact ⟨l.next, rfl, by omega⟩
    · obtain ⟨a, ha, hlt⟩ := halloc c (by simp [hc'])
      exact ⟨a, ha, by omega⟩
  · simp only [e4, hl2null]
    exact hinv.rep.nullKey
  · have hd := hinv.desc
    obtain ⟨d1, d2, d3⟩ := List.pairwise_append.1 hd
    refine List.pairwise_append.2 ⟨d1, List.pairwise_cons.2 ⟨fun b hb => hB b hb, d2⟩, ?_⟩
    intro a ha b hb
    simp only [List.mem_cons] at hb
    rcases hb with hb | hb
    · subst hb
      exact h.above a ha
    · exact d3 a ha b hb
  · intro c hc'
    simp only [List.mem_append, List.mem_cons] at hc'
    rcases hc' with hc' | hc' | hc'
    · exact hinv.lo c (by simp [hc'])
    · subst hc'
      rfl
    · exact hinv.lo c (by simp [hc'])
  · intro c hc'
    simp only [List.mem_append, List.mem_cons] at hc'
    simp only [e2, hl2level]
    rcases hc' with hc' | hc' | hc'
    · exact le_trans (hinv.hi c (by simp [hc'])) hlev
    · subst hc'
      exact hhi
    · exact le_trans (hinv.hi c (by simp [hc'])) hlev
  · simp only [e2, hl2level]
    exact hlev'
  · simp only [e3, hl2count, hinv.count, List.length_append, List.length_cons]
    omega

theorem slrand_lt (draws : Nat) : slrand draws < maxLevel := by
  unfold slrand
  split
  · assumption
  · decide

/-- The node `Search` returns: its key equals `key` exactly when `key` is 0 or
the key of a cell of the list. -/
theorem found_iff {l : SkipList} {key : Nat} {A B : List Cell} (h : Split l key A B) :
    ∃ qn, l.get (nextAt 0 B) = some qn ∧
      (qn.key = key ↔ key = 0 ∨ key ∈ (A ++ B).map Cell.key) ∧
      (qn.key ≠ key → ∀ b ∈ B, b.key < key) := by
  have hA : key ∉ A.map Cell.key := by
    intro hm
    obtain ⟨c, hc, he⟩ := List.mem_map.1 hm
    have := h.above c hc
    omega
  cases B with
  | nil =>
    refine ⟨l.null, rfl, ?_, fun _ b hb => by simp at hb⟩
    rw [h.inv.rep.nullKey]
    simp only [List.append_nil, hA, or_false]
    exact eq_comm
  | cons d B' =>
    have hd0 : d.linked 0 := by
      have := h.inv.lo d (by simp)
      unfold Cell.linked
      omega
    obtain ⟨qn, hget, hkey⟩ := @split_get _ _ _ _ h d (by simp)
    have hdk := h.below d (by simp)
    have hdesc := h.inv.desc
    obtain ⟨-, d2, -⟩ := List.pairwise_append.1 hdesc
    obtain ⟨d3, -⟩ := List.pairwise_cons.1 d2
    refine ⟨qn, by rw [nextAt_cons_linked 0 d B' hd0]; exact hget, ?_, ?_⟩
    · rw [hkey]
      constructor
      · intro he
        right
        simp [he.symm]
      · rintro (h0 | hm)
        · omega
        · simp only [List.map_append, List.mem_append, List.map_cons, List.mem_cons] at hm
          rcases hm with hm | hm | hm
          · exact absurd hm hA
          · exact hm.symm
          · obtain ⟨c, hc, he⟩ := List.mem_map.1 hm
            have := d3 c hc
            omega
    · intro hne b hb
      rw [hkey] at hne
      simp only [List.mem_cons] at hb
      rcases hb with hb | hb
      · subst hb
        omega
      · have := d3 b hb
        omega

/-- What `Insert` does to a list in the state `Inv`: it returns false and
leaves the list alone when `key` is 0 or stored, and else stores `key`. -/
theorem Insert_inv {l : SkipList} {L : List Cell} (h : Inv l L) (key draws : Nat) :
    ∃ l' b L', Insert l key draws = Out.ok (l', b) ∧ Inv l' L' ∧
      (b = false ↔ key = 0 ∨ key ∈ L.map Cell.key) ∧ (b = false → l' = l ∧ L' = L) ∧
      (b = true → (L'.map Cell.key).Perm (key :: L.map Cell.key)) := by
  obtain ⟨A, B, hL, hs⟩ := split_exists h key
  subst hL
  obtain ⟨u, hsearch, hpred⟩ := skip_Search_spec hs (fun _ => Ptr.nil)
  obtain ⟨qn, hget, hiff, hlt⟩ := found_iff hs
  by_cases hq : qn.key = key
  · refine ⟨l, false, A ++ B, ?_, h, ?_, fun _ => ⟨rfl, rfl⟩, fun hb => by simp at hb⟩
    · simp [Insert, hsearch, deref_of_get hget, hq]
    · simpa using hiff.1 hq
  · have hB := hlt hq
    have hlev := h.level
    have hk0 := slrand_lt draws
    by_cases hk : slrand draws > l.level
    · obtain ⟨l3, hrun, hinv3⟩ := insert_link hs hB (l.level + 1) (l.level + 1)
        (Function.update u (l.level + 1) Ptr.header) (by omega) (by omega) (le_refl _)
        (fun j hj => by
          by_cases hjl : j = l.level + 1
          · subst hjl
            simp only [Function.update_same]
            refine ⟨[], hdr l, A, rfl, rfl, hdr_linked l (by omega), fun d hd => ?_⟩
            have := h.hi d (by simp [hd])
            unfold Cell.linked
            omega
          · simp only [Function.update_apply, if_neg hjl]
            exact hpred j (by omega))
      refine ⟨_, true, _, ?_, hinv3, ?_, fun hb => by simp at hb, fun _ => ?_⟩
      · simp only [Insert, hsearch, out_bind_ok, deref_of_get hget, if_neg hq, if_pos hk,
          writeIdx_lt _ _ (by omega : l.level + 1 < maxLevel), out_pure]
        rw [hrun]
        rfl
      · simp only [Bool.true_eq_false, false_iff]
        exact fun hc => hq (hiff.2 hc)
      · simp only [List.map_append, List.map_cons, newCell]
        exact List.perm_middle
    · obtain ⟨l3, hrun, hinv3⟩ := insert_link hs hB l.level (slrand draws) u (le_refl _) hlev
        (by omega) (fun j hj => hpred j (by omega))
      refine ⟨_, true, _, ?_, hinv3, ?_, fun hb => by simp at hb, fun _ => ?_⟩
      · simp only [Insert, hsearch, out_bind_ok, deref_of_get hget, if_neg hq, if_neg hk, out_pure]
        rw [hrun]
        rfl
      · simp only [Bool.true_eq_false, false_iff]
        exact fun hc => hq (hiff.2 hc)
      · simp only [List.map_append, List.map_cons, newCell]
        exact List.perm_middle

theorem initLoop_spec : ∀ (n i : Nat) (l : SkipList), i + n = maxLevel →
    ∃ l', initLoop n i l = Out.ok l' ∧ l'.count = l.count ∧ l'.level = l.level ∧
      l'.null = l.null ∧ l'.mem = l.mem ∧ l'.next = l.next ∧ l'.header.key = l.header.key ∧
      ∀ k, l'.header.forward k = if i ≤ k ∧ k < maxLevel then Ptr.null else l.header.forward k := by
  intro n
  induction n with
  | zero =>
    intro i l hi
    refine ⟨l, rfl, rfl, rfl, rfl, rfl, rfl, rfl, fun k => ?_⟩
    rw [if_neg]
    omega
  | succ n ih =>
    intro i l hi
    have hlt : i < maxLevel := by omega
    have hset := @setForward_spec l Ptr.header l.header rfl _ hlt Ptr.null
    obtain ⟨l', hrun, h1, h2, h3, h4, h5, h6, h7⟩ :=
      ih (i + 1) (putForward l Ptr.header
        { l.header with forward := Function.update l.header.forward i Ptr.null }) (by omega)
    refine ⟨l', ?_, h1, h2, h3, h4, h5, h6, fun k => ?_⟩
    · simp only [initLoop, hset, out_bind_ok, hrun]
    · rw [h7 k]
      simp only [putForward, Function.update_apply]
      by_cases hk : i + 1 ≤ k ∧ k < maxLevel
      · rw [if_pos hk, if_pos (by omega)]
      · rw [if_neg hk]
        by_cases hki : k = i
        · rw [if_pos hki, if_pos (by omega)]
        · rw [if_neg hki, if_neg (by omega)]

theorem Init_inv : ∃ l, Init SkipList.zero = Out.ok l ∧ Inv l [] := by
  obtain ⟨l, hrun, h1, h2, h3, h4, h5, h6, h7⟩ := initLoop_spec maxLevel 0 SkipList.zero (by simp)
  refine ⟨l, hrun, ⟨⟨⟨⟨l.header, rfl, rfl, fun k hk _ => ?_⟩, trivial⟩, List.nodup_nil,
    fun c hc => by simp at hc, ?_⟩, List.Pairwise.nil, fun c hc => by simp at hc,
    fun c hc => by simp at hc, ?_, ?_⟩⟩
  · rw [h7 k, if_pos ⟨Nat.zero_le _, hk⟩]
    rfl
  · rw [h3]
    rfl
  · rw [h2]
    decide
  · rw [h1]
    rfl

theorem suffix_holds {l : SkipList} {L : List Cell} (h : Inv l L) {P T : List Cell} {d : Cell}
    (hL : L = P ++ d :: T) :
    ∃ nd, l.get d.ptr = some nd ∧ nd.key = d.key ∧ nd.forward 0 = nextAt 0 T ∧
      d.ptr ≠ Ptr.null ∧ nextAt 0 (d :: T) = d.ptr := by
  have hc := h.rep.chain
  rw [hL, ← List.cons_append, chain_append] at hc
  obtain ⟨⟨nd, h1, h2, h3⟩, -⟩ := hc.2
  have hd0 : d.linked 0 := by
    have := h.lo d (by simp [hL])
    unfold Cell.linked
    omega
  refine ⟨nd, h1, h2, ?_, ?_, nextAt_cons_linked 0 d T hd0⟩
  · simpa using h3 0 (by decide) hd0
  · obtain ⟨a, ha, -⟩ := h.rep.alloc d (by simp [hL])
    rw [ha]
    simp

theorem skip_spec {l : SkipList} {L : List Cell} (h : Inv l L) : ∀ (i : Nat) (P T : List Cell),
    L = P ++ T → skip l i (nextAt 0 T) = Out.ok (nextAt 0 (T.drop i)) := by
  intro i
  induction i with
  | zero => intro P T _; rfl
  | succ i ih =>
    intro P T hL
    cases T with
    | nil => simp [skip, nextAt]
    | cons d T' =>
      obtain ⟨nd, h1, -, h3, h4, h5⟩ := suffix_holds h hL
      rw [h5]
      simp only [skip, if_neg h4, deref_of_get h1, out_bind_ok, readIdx_lt _ (by decide : 0 < maxLevel),
        h3, List.drop_succ_cons]
      exact ih (P ++ [d]) T' (by simp [hL])

theorem fill_spec {l : SkipList} {L : List Cell} (h : Inv l L) :
    ∀ (i : Nat) (P T : List Cell) (p : Nat) (keys : List Nat), L = P ++ T →
      p + i = keys.length →
      fill l i (nextAt 0 T) p keys =
        Out.ok (p + min i T.length,
          keys.take p ++ (T.take (min i T.length)).map Cell.key ++
            keys.drop (p + min i T.length)) := by
  intro i
  induction i with
  | zero =>
    intro P T p keys _ _
    simp [fill]
  | succ i ih =>
    intro P T p keys hL hp
    cases T with
    | nil => simp [fill, nextAt]
    | cons d T' =>
      obtain ⟨nd, h1, h2, h3, h4, h5⟩ := suffix_holds h hL
      rw [h5]
      have hlt : p < keys.length := by omega
      simp only [fill, if_neg h4, deref_of_get h1, out_bind_ok, writeKey, if_pos hlt, out_pure,
        readIdx_lt _ (by decide : 0 < maxLevel), h3]
      rw [ih (P ++ [d]) T' (p + 1) (keys.set p nd.key) (by simp [hL]) (by simp; omega)]
      have hm : min (i + 1) (d :: T').length = min i T'.length + 1 := by
        simp only [List.length_cons]
        omega
      rw [hm, List.take_succ_cons, List.map_cons, h2]
      have e1 : (keys.set p d.key).take (p + 1) = keys.take p ++ [d.key] := by
        rw [List.take_succ, List.set_take, List.set_eq_of_length_le (by simp)]
        simp [List.getElem?_set, hlt]
      have e2 : (keys.set p d.key).drop (p + 1 + min i T'.length) =
          keys.drop (p + (min i T'.length + 1)) := by
        rw [List.drop_set_of_lt]
        · congr 1
          omega
        · omega
      rw [e1, e2]
      simp only [List.append_assoc, List.singleton_append, Nat.add_assoc, Nat.add_comm 1]

/-- What `Range` returns on a list in the state `Inv`. -/
theorem Range_inv {l : SkipList} {L : List Cell} (h : Inv l L) (offset : Int)
    (keys : List Nat) :
    Range l offset keys =
      Out.ok (min keys.length (L.length - offset.toNat),
        ((L.drop offset.toNat).take (min keys.length (L.length - offset.toNat))).map Cell.key ++
          keys.drop (min keys.length (L.length - offset.toNat))) := by
  have hcount := h.count
  by_cases ho : offset ≥ (l.count : Int)
  · have : L.length - offset.toNat = 0 := by omega
    simp [Range, ho, this]
  · have hh : l.header.forward 0 = nextAt 0 L := by
      obtain ⟨⟨nd, h1, -, h3⟩, -⟩ := h.rep.chain
      simp only [hdr, SkipList.get, Option.some.injEq] at h1
      subst h1
      simpa using h3 0 (by decide) (hdr_linked l (by decide))
    simp only [Range, if_neg ho, readIdx_lt _ (by decide : 0 < maxLevel), out_bind_ok, hh]
    rw [skip_spec h offset.toNat [] L rfl]
    simp only [out_bind_ok]
    rw [fill_spec h keys.length (L.take offset.toNat) (L.drop offset.toNat) 0 keys
      (List.take_append_drop _ _).symm (by simp)]
    simp

/-- The list built by `Init` and a sequence of `Insert` calls is in the state
`Inv`; its cells carry the keys whose `Insert` returned true, which are the
keys of the calls other than 0. -/
theorem build_inv (ops : List (Nat × Nat)) :
    ∃ l stored L, build ops = Out.ok (l, stored) ∧ Inv l L ∧ (L.map Cell.key).Perm stored ∧
      ∀ k, k ∈ stored ↔ k ≠ 0 ∧ k ∈ ops.map Prod.fst := by
  induction ops with
  | nil =>
    obtain ⟨l, hrun, hinv⟩ := Init_inv
    exact ⟨l, [], [], by simp [build, hrun], hinv, List.Perm.refl _, fun k => by simp⟩
  | cons op ops ih =>
    obtain ⟨l, stored, L, hrun, hinv, hperm, hmem⟩ := ih
    obtain ⟨l', b, L', hins, hinv', hb, hfalse, htrue⟩ := Insert_inv hinv op.1 op.2
    cases b with
    | false =>
      obtain ⟨rfl, rfl⟩ := hfalse rfl
      refine ⟨l', stored, L', by simp [build, hrun, hins], hinv, hperm, fun k => ?_⟩
      have h0 := hb.1 rfl
      rw [hmem k]
      simp only [List.map_cons, List.mem_cons]
      constructor
      · rintro ⟨h1, h2⟩
        exact ⟨h1, Or.inr h2⟩
      · rintro ⟨h1, h2 | h2⟩
        · subst h2
          rcases h0 with h0 | h0
          · exact absurd h0 h1
          · exact (hmem _).1 ((hperm.mem_iff).1 h0)
        · exact ⟨h1, h2⟩
    | true =>
      have h0 : ¬ (op.1 = 0 ∨ op.1 ∈ L.map Cell.key) := fun h => by
        have := hb.2 h
        simp at this
      refine ⟨l', op.1 :: stored, L', by simp [build, hrun, hins], hinv',
        (htrue rfl).trans (List.Perm.cons _ hperm), fun k => ?_⟩
      simp only [List.mem_cons, List.map_cons, hmem k]
      constructor
      · rintro (h1 | ⟨h1, h2⟩)
        · subst h1
          exact ⟨fun h => h0 (Or.inl h), Or.inl rfl⟩
        · exact ⟨h1, Or.inr h2⟩
      · rintro ⟨h1, h2 | h2⟩
        · exact Or.inl h2
        · exact Or.inr ⟨h1, h2⟩

theorem range_spec (ops : List (Nat × Nat)) (offset : Int) (keys : List Nat) (ho : 0 ≤ offset) :
    ∃ (l : SkipList) (stored ks : List Nat), build ops = Out.ok (l, stored) ∧ ks.Perm stored ∧
      ks.Pairwise (fun a b => b < a) ∧ l.count = ks.length ∧ l.level < maxLevel ∧
      ∃ n : Nat, (n : Int) = min (keys.length : Int) (max ((l.count : Int) - offset) 0) ∧
        Range l offset keys = Out.ok (n, (ks.drop offset.toNat).take n ++ keys.drop n) := by
  obtain ⟨l, stored, L, hrun, hinv, hperm, -⟩ := build_inv ops
  refine ⟨l, stored, L.map Cell.key, hrun, hperm, ?_, by simp [hinv.count], hinv.level,
    min keys.length (L.length - offset.toNat), ?_, ?_⟩
  · exact List.pairwise_map.2 hinv.desc
  · rw [hinv.count]
    omega
  · rw [Range_inv hinv offset keys, List.map_take, List.map_drop]

theorem insert_zero_spec (draws : Nat) :
    ∃ l, Init SkipList.zero = Out.ok l ∧ l.count = 0 ∧ Insert l 0 draws = Out.ok (l, false) := by
  obtain ⟨l, hrun, hinv⟩ := Init_inv
  obtain ⟨l', b, L', hins, -, hb, hfalse, -⟩ := Insert_inv hinv 0 draws
  have hbf : b = false := hb.2 (Or.inl rfl)
  subst hbf
  obtain ⟨rfl, -⟩ := hfalse rfl
  exact ⟨l', hrun, by simpa using hinv.count, hins⟩

/-- The key 0 is never stored: on every list built by `Init` and `Insert`
calls, `Insert(0)` returns false and leaves the list as it is. -/
theorem insert_zero_never_stored (ops : List (Nat × Nat)) (draws : Nat) :
    ∃ l stored, build ops = Out.ok (l, stored) ∧ 0 ∉ stored ∧
      Insert l 0 draws = Out.ok (l, false) := by
  obtain ⟨l, stored, L, hrun, hinv, -, hmem⟩ := build_inv ops
  obtain ⟨l', b, L', hins, -, hb, hfalse, -⟩ := Insert_inv hinv 0 draws
  have hbf : b = false := hb.2 (Or.inl rfl)
  subst hbf
  obtain ⟨rfl, -⟩ := hfalse rfl
  exact ⟨l', stored, hrun, fun h => ((hmem 0).1 h).1 rfl, hins⟩

/-- On every list built by `Init` and `Insert` calls, `Insert` of a key other
than 0 returns true exactly when the key was not stored, and then the key is
stored and `count` is one more; when it returns false the list is as it
was. -/
theorem insert_nonzero (ops : List (Nat × Nat)) (key draws : Nat) (hkey : key ≠ 0) :
    ∃ l stored l' b, build ops = Out.ok (l, stored) ∧ Insert l key draws = Out.ok (l', b) ∧
      (b = true ↔ key ∉ stored) ∧ (b = true → l'.count = l.count + 1) ∧ (b = false → l' = l) ∧
      build ((key, draws) :: ops) = Out.ok (l', if b then key :: stored else stored) := by
  obtain ⟨l, stored, L, hrun, hinv, hperm, -⟩ := build_inv ops
  obtain ⟨l', b, L', hins, hinv', hb, hfalse, htrue⟩ := Insert_inv hinv key draws
  refine ⟨l, stored, l', b, hrun, hins, ?_, fun h => ?_, fun h => (hfalse h).1, ?_⟩
  · rw [← hperm.mem_iff]
    cases b with
    | false =>
      have := hb.1 rfl
      simp only [Bool.false_eq_true, false_iff, not_not]
      tauto
    | true =>
      simp only [true_iff]
      intro hm
      have := hb.2 (Or.inr hm)
      simp at this
  · rw [hinv'.count, hinv.count]
    have := (htrue h).length_eq
    simpa using this
  · simp [build, hrun, hins]

/-- C25, the failing input: after `Init`, `Insert(0)` returns false and leaves
`count` at 0, although 0 is not stored; the claim says it returns true and
stores the key. -/
theorem insert_zero_rejected (draws : Nat) :
    ∃ l, Init SkipList.zero = Out.ok l ∧ l.count = 0 ∧ Insert l 0 draws = Out.ok (l, false) :=
  insert_zero_spec draws

/-- C26: on every list built by `Init` and `Insert` calls, whatever levels were
drawn, `Range(offset, keys)` with `offset >= 0` returns
`min(len(keys), max(count - offset, 0))` and leaves in that many leading slots
of `keys` the stored keys in strictly descending order from the `offset`-th
largest on, the other slots as they were; `level` stays below `maxLevel`, and
no call runs into an index out of range. -/
theorem range_descending (ops : List (Nat × Nat)) (offset : Int) (keys : List Nat)
    (ho : 0 ≤ offset) :
    ∃ (l : SkipList) (stored ks : List Nat), build ops = Out.ok (l, stored) ∧ ks.Perm stored ∧
      ks.Pairwise (fun a b => b < a) ∧ l.count = ks.length ∧ l.level < maxLevel ∧
      ∃ n : Nat, (n : Int) = min (keys.length : Int) (max ((l.count : Int) - offset) 0) ∧
        Range l offset keys = Out.ok (n, (ks.drop offset.toNat).take n ++ keys.drop n) :=
  range_spec ops offset keys ho

theorem range_descending_witness :
    (0 : Int) ≤ 1 ∧
    ∃ (l : SkipList) (stored ks : List Nat), build [(5, 0), (9, 2), (0, 1), (7, 20)] = Out.ok (l, stored) ∧ ks.Perm stored ∧
      ks.Pairwise (fun a b => b < a) ∧ l.count = ks.length ∧ l.level < maxLevel ∧
      ∃ n : Nat, (n : Int) = min (([0, 0, 0] : List Nat).length : Int)
          (max ((l.count : Int) - 1) 0) ∧
        Range l 1 [0, 0, 0] = Out.ok (n, (ks.drop (1 : Int).toNat).take n ++ [0, 0, 0].drop n) :=
  ⟨by decide, range_descending _ _ _ (by decide)⟩

end Skiplist

namespace RBTreeGo2

variable {K V : Type}

@[simp] theorem isRed_nil : (Tree.nil : Tree K V).isRed = false := rfl

@[simp] theorem isRed_node (l : Tree K V) (id : Nat) (k : K) (v : V) (c : Bool) (r : Tree K V) :
    (Tree.node l id k v c r).isRed = c := rfl

@[simp] theorem rb_nil (n : Nat) : RB (Tree.nil : Tree K V) n ↔ n = 0 := Iff.rfl

theorem rb_red (l : Tree K V) (id : Nat) (k : K) (v : V) (r : Tree K V) (n : Nat) :
    RB (Tree.node l id k v true r) n ↔
      l.isRed = false ∧ r.isRed = false ∧ RB l n ∧ RB r n := by
  simp only [RB, forall_const, if_true, Nat.add_zero, exists_eq_left', and_assoc]

theorem rb_black (l : Tree K V) (id : Nat) (k : K) (v : V) (r : Tree K V) (n : Nat) :
    RB (Tree.node l id k v false r) n ↔ ∃ m, n = m + 1 ∧ RB l m ∧ RB r m := by
  simp [RB]

theorem rb_black_succ (l : Tree K V) (id : Nat) (k : K) (v : V) (r : Tree K V) (m : Nat) :
    RB (Tree.node l id k v false r) (m + 1) ↔ RB l m ∧ RB r m := by
  rw [rb_black]
  constructor
  · rintro ⟨m', h, h1, h2⟩
    have : m' = m := by omega
    subst this
    exact ⟨h1, h2⟩
  · rintro ⟨h1, h2⟩
    exact ⟨m, rfl, h1, h2⟩

theorem rb_unique {T : Tree K V} : ∀ {n m : Nat}, RB T n → RB T m → n = m := by
  induction T with
  | nil =>
    intro n m h1 h2
    simp only [rb_nil] at h1 h2
    omega
  | node l id k v c r ihl _ =>
    intro n m h1 h2
    obtain ⟨-, a, ha, hl1, -⟩ := h1
    obtain ⟨-, b, hb, hl2, -⟩ := h2
    have := ihl hl1 hl2
    omega

theorem rb_blacken {T : Tree K V} {n : Nat} (h : RB T n) : ∃ m, RB T.blacken m := by
  cases T with
  | nil => exact ⟨0, rfl⟩
  | node l id k v c r =>
    obtain ⟨-, m, -, h1, h2⟩ := h
    exact ⟨m + 1, (rb_black_succ l id k v r m).2 ⟨h1, h2⟩⟩

theorem rb_blacken_red {l : Tree K V} {id : Nat} {k : K} {v : V} {r : Tree K V} {n : Nat}
    (h : RB (Tree.node l id k v true r) n) : RB (Tree.node l id k v true r).blacken (n + 1) := by
  rw [rb_red] at h
  exact (rb_black_succ l id k v r n).2 ⟨h.2.2.1, h.2.2.2⟩

@[simp] theorem isRed_blacken (T : Tree K V) : T.blacken.isRed = false := by
  cases T <;> rfl

theorem blacken_of_black {T : Tree K V} (h : T.isRed = false) : T.blacken = T := by
  cases T with
  | nil => rfl
  | node l id k v c r =>
    simp only [isRed_node] at h
    subst h
    rfl

theorem isRB_blacken {T : Tree K V} {n : Nat} (h : RB T n) : IsRB T.blacken :=
  ⟨isRed_blacken T, rb_blacken h⟩

theorem rb_fill {f : Frame K V} {up : List (Frame K V)} {S : Tree K V} {n : Nat}
    (hc : CtxRB (f :: up) n) (hS : RB S n) (hcol : f.red = true → S.isRed = false) :
    RB (f.fill S) (n + if f.red then 0 else 1) := by
  obtain ⟨h1, h2, -⟩ := hc
  cases f with
  | left id k v c r =>
    simp only [Frame.sib, Frame.red] at h1 h2 hcol ⊢
    exact ⟨fun hc => ⟨hcol hc, (h2 hc).1⟩, n, rfl, hS, h1⟩
  | right l id k v c =>
    simp only [Frame.sib, Frame.red] at h1 h2 hcol ⊢
    exact ⟨fun hc => ⟨(h2 hc).1, hcol hc⟩, n, rfl, h1, hS⟩

theorem isRed_fill (f : Frame K V) (S : Tree K V) : (f.fill S).isRed = f.red := by
  cases f <;> rfl

theorem rb_plug : ∀ (C : List (Frame K V)) (S : Tree K V) (n : Nat), CtxRB C n → RB S n →
    (ctxRed C = true → S.isRed = false) → ∃ N, RB (plug C S) N := by
  intro C
  induction C with
  | nil => intro S n _ h _; exact ⟨n, h⟩
  | cons f up ih =>
    intro S n hc hS hcol
    refine ih (f.fill S) _ hc.2.2 (rb_fill hc hS hcol) (fun hr => ?_)
    rw [isRed_fill]
    cases hf : f.red with
    | false => rfl
    | true =>
      have := (hc.2.1 hf).2
      rw [hr] at this
      exact absurd this (by simp)

theorem isRed_plug : ∀ (C : List (Frame K V)) (S : Tree K V), ctxBlackTop C →
    (C = [] → S.isRed = false) → (plug C S).isRed = false := by
  intro C
  induction C with
  | nil => intro S _ h; exact h rfl
  | cons f up ih =>
    intro S hb _
    refine ih (f.fill S) hb.2 (fun hup => ?_)
    rw [isRed_fill]
    exact hb.1 hup

theorem isRB_plug (C : List (Frame K V)) (S : Tree K V) (n : Nat) (hc : CtxRB C n) (hS : RB S n)
    (hcol : ctxRed C = true → S.isRed = false) (hb : ctxBlackTop C)
    (hroot : C = [] → S.isRed = false) : IsRB (plug C S) :=
  ⟨isRed_plug C S hb hroot, rb_plug C S n hc hS hcol⟩

/-- The recolouring step of `fixInsert` keeps the conditions: the grandparent
becomes a red node one black node higher. -/
theorem rb_recolorTree {fp fg : Frame K V} {up : List (Frame K V)} {N : Tree K V} {h : Nat}
    (hN : RB N h) (hc : CtxRB (fp :: fg :: up) h) (hp : fp.red = true)
    (hu : fg.sib.isRed = true) :
    ∃ l k v r, recolorTree fp fg N = Tree.node l fg.id k v true r ∧
      RB (Tree.node l fg.id k v true r) (h + 1) ∧ CtxRB up (h + 1) := by
  obtain ⟨h1, h2, h3, h4, h5⟩ := hc
  have hgb : fg.red = false := by simpa [ctxRed] using (h2 hp).2
  simp only [hp, hgb, if_true, Nat.add_zero, Bool.false_eq_true, if_false] at h3 h5
  cases fg with
  | left g kg vg cg u =>
    simp only [Frame.sib] at hu h3
    cases u with
    | nil => simp at hu
    | node ul ui uk uv uc ur =>
      simp only [isRed_node] at hu
      subst hu
      refine ⟨_, _, _, _, rfl, ?_, h5⟩
      rw [rb_red]
      refine ⟨by cases fp <;> rfl, rfl, ?_, rb_blacken_red h3⟩
      cases fp with
      | left p kp vp cp s => exact (rb_black_succ _ _ _ _ _ _).2 ⟨hN, h1⟩
      | right s p kp vp cp => exact (rb_black_succ _ _ _ _ _ _).2 ⟨h1, hN⟩
  | right u g kg vg cg =>
    simp only [Frame.sib] at hu h3
    cases u with
    | nil => simp at hu
    | node ul ui uk uv uc ur =>
      simp only [isRed_node] at hu
      subst hu
      refine ⟨_, _, _, _, rfl, ?_, h5⟩
      rw [rb_red]
      refine ⟨rfl, by cases fp <;> rfl, rb_blacken_red h3, ?_⟩
      cases fp with
      | left p kp vp cp s => exact (rb_black_succ _ _ _ _ _ _).2 ⟨hN, h1⟩
      | right s p kp vp cp => exact (rb_black_succ _ _ _ _ _ _).2 ⟨h1, hN⟩

/-- The rotation step of `fixInsert` ends the repair: a black node one black
node higher stands in the place of the grandparent. -/
theorem rb_rotTree {fp fg : Frame K V} {up : List (Frame K V)} {l : Tree K V} {n : Nat} {k : K}
    {v : V} {r : Tree K V} {h : Nat} (hN : RB (Tree.node l n k v true r) h)
    (hc : CtxRB (fp :: fg :: up) h) (hp : fp.red = true) (hu : fg.sib.isRed = false) :
    (rotTree fp fg (Tree.node l n k v true r)).isRed = false ∧
      RB (rotTree fp fg (Tree.node l n k v true r)) (h + 1) ∧ CtxRB up (h + 1) := by
  obtain ⟨h1, h2, h3, h4, h5⟩ := hc
  have hgb : fg.red = false := by simpa [ctxRed] using (h2 hp).2
  have hsb := (h2 hp).1
  simp only [hp, hgb, if_true, Nat.add_zero, Bool.false_eq_true, if_false] at h3 h5
  have hN' := (rb_red l n k v r h).1 hN
  cases fp with
  | left p kp vp cp s =>
    simp only [Frame.red] at hp
    subst hp
    cases fg with
    | left g kg vg cg u =>
      refine ⟨rfl, ?_, h5⟩
      simp only [rotTree, Frame.sib] at *
      exact (rb_black_succ _ _ _ _ _ _).2 ⟨hN, (rb_red _ _ _ _ _ _).2 ⟨hsb, hu, h1, h3⟩⟩
    | right u g kg vg cg =>
      refine ⟨rfl, ?_, h5⟩
      simp only [rotTree, Frame.sib] at *
      exact (rb_black_succ _ _ _ _ _ _).2
        ⟨(rb_red _ _ _ _ _ _).2 ⟨hu, hN'.1, h3, hN'.2.2.1⟩,
          (rb_red _ _ _ _ _ _).2 ⟨hN'.2.1, hsb, hN'.2.2.2, h1⟩⟩
  | right s p kp vp cp =>
    simp only [Frame.red] at hp
    subst hp
    cases fg with
    | left g kg vg cg u =>
      refine ⟨rfl, ?_, h5⟩
      simp only [rotTree, Frame.sib] at *
      exact (rb_black_succ _ _ _ _ _ _).2
        ⟨(rb_red _ _ _ _ _ _).2 ⟨hsb, hN'.1, h1, hN'.2.2.1⟩,
          (rb_red _ _ _ _ _ _).2 ⟨hN'.2.1, hu, hN'.2.2.2, h3⟩⟩
    | right u g kg vg cg =>
      refine ⟨rfl, ?_, h5⟩
      simp only [rotTree, Frame.sib] at *
      exact (rb_black_succ _ _ _ _ _ _).2 ⟨(rb_red _ _ _ _ _ _).2 ⟨hu, hsb, h3, h1⟩, hN⟩

theorem blackenRoot_tree (t : RBTree K V) (T : Tree K V) (hg : Good t T) (hT : T ≠ Tree.nil) :
    ∃ t', blackenRoot t = Res.ok t' ∧ Good t' T.blacken ∧ t'.next = t.next := by
  cases T with
  | nil => exact absurd rfl hT
  | node l id k v c r =>
    obtain ⟨⟨h1, h2, h3⟩, -, hroot, hnd, hlt⟩ := hg
    simp only [ctxRoot, Tree.ptr] at hroot
    simp only [ctxIds, List.append_nil, Tree.ids] at hnd hlt
    have hl : id ∉ l.ids := by
      intro h
      have := List.nodup_append.1 hnd
      exact this.2.2 h (by simp)
    have hr : id ∉ r.ids := by
      have := List.nodup_append.1 hnd
      exact (List.nodup_cons.1 this.2.1).1
    refine ⟨store t id ⟨l.ptr, r.ptr, none, k, v, false⟩, ?_, ?_, rfl⟩
    · simp [blackenRoot, load, hroot, h1, ctxPar]
    · refine ⟨⟨?_, repr_congr (fun i hi => ?_) h2, repr_congr (fun i hi => ?_) h3⟩, trivial,
        ?_, ?_, ?_⟩
      · simp [store, ctxPar]
      · simp only [store]
        rw [Function.update_noteq]
        rintro rfl
        exact hl hi
      · simp only [store]
        rw [Function.update_noteq]
        rintro rfl
        exact hr hi
      · simp [store, hroot, ctxRoot, Tree.blacken]
      · simpa [ctxIds, Tree.ids, Tree.blacken] using hnd
      · simpa [ctxIds, Tree.ids, store, Tree.blacken] using hlt

/-- The loop of `fixInsert` restores the red-black conditions: started at a
red node whose only possible fault is a red parent, it ends within the budget
in a red-black tree. -/
theorem fixInsertLoop_rb (fuel : Nat) :
    ∀ (C : List (Frame K V)) (t : RBTree K V) (l : Tree K V) (n : Nat) (k : K) (v : V)
      (r : Tree K V) (h : Nat),
      GoodAt t C (Tree.node l n k v true r) → C.length < fuel →
      RB (Tree.node l n k v true r) h → CtxRB C h → ctxBlackTop C →
      ∃ t' T', fixInsertLoop fuel t n = Res.ok t' ∧ Good t' T' ∧ t'.next = t.next ∧ IsRB T' := by
  induction fuel with
  | zero =>
    intro C t l n k v r h _ hl
    omega
  | succ fuel ih =>
    intro C t l n k v r h hg hlen hN hC hB
    have hne : plug C (Tree.node l n k v true r) ≠ Tree.nil := by
      intro h
      have h1 := ptr_plug C (Tree.node l n k v true r)
      obtain ⟨y, hy⟩ := ctxRoot_some C n
      rw [h, ptr_node, hy] at h1
      simp at h1
    obtain ⟨tb, hbl, hgb, hnb⟩ := blackenRoot_tree t _ ((good_plug t C _).2 hg) hne
    have hg0 := hg
    obtain ⟨⟨hn, hl, hr⟩, hc, hroot, hnd, hlt⟩ := hg
    rw [fixInsertLoop]
    simp only [load, hn, res_bind_ok]
    cases C with
    | nil => exact ⟨tb, _, hbl, hgb, hnb, isRB_blacken hN⟩
    | cons fp C =>
      obtain ⟨pn, hp, hpl, hps, hpp, hpr, hpsib, hc1⟩ := ctxRepr_cons hc
      simp only [ctxPar_cons, hp, res_bind_ok]
      cases hred : fp.red with
      | false =>
        simp only [hpr, hred, Bool.not_false, if_true]
        obtain ⟨M, hM⟩ := rb_plug (fp :: C) _ h hC hN (fun hx => by simp [ctxRed, hred] at hx)
        exact ⟨tb, _, hbl, hgb, hnb, isRB_blacken hM⟩
      | true =>
        simp only [hpr, hred, Bool.not_true, Bool.false_eq_true, if_false]
        cases C with
        | nil =>
          have := hB.1 rfl
          rw [hred] at this
          exact absurd this (by simp)
        | cons fg up =>
          obtain ⟨gn, hgn, hgl, hgs, hgp, hgr, hgsib, hc2⟩ := ctxRepr_cons hc1
          have hdir : decide (gn.link0 ≠ some fp.id) = fg.dir := by
            cases hd : fg.dir with
            | false =>
              rw [hd] at hgl
              simp only [Node.link, Bool.false_eq_true, if_false] at hgl
              simp [hgl]
            | true =>
              rw [hd] at hgs
              simp only [Node.link, Bool.not_true, Bool.false_eq_true, if_false] at hgs
              have hx : fg.sib.ptr ≠ some fp.id := by
                intro h
                refine disj_of_nodup hnd [fp.id] fg.sib.ids (fun a => ?_) _ (ptr_mem h) (by simp)
                simp only [ctxIds, List.count_append, List.count_cons, List.count_nil]
                omega
              simp [hgs, hx]
          simp only [hpp, ctxPar_cons, hgn, res_bind_ok, hdir, hgs]
          obtain ⟨t2, hrot, hgood2, hnext2⟩ := rotate_spec t up fp fg l n k v true r hg0
          have hrotres : fg.sib.isRed = false →
              ∃ t' T', rotate t n fp.id fg.id fg.dir = Res.ok t' ∧ Good t' T' ∧
                t'.next = t.next ∧ IsRB T' := by
            intro hu
            obtain ⟨e1, e2, e3⟩ := rb_rotTree hN hC hred hu
            exact ⟨t2, _, hrot, (good_plug t2 up _).2 hgood2, hnext2,
              isRB_plug up _ (h + 1) e3 e2 (fun _ => e1) hB.2.2 (fun _ => e1)⟩
          cases hsib : fg.sib with
          | nil =>
            simp only [ptr_nil, res_pure, res_bind_ok, Bool.false_eq_true, if_false]
            exact hrotres (by rw [hsib]; rfl)
          | node ul ui uk uv uc ur =>
            rw [hsib] at hgsib
            obtain ⟨hun, hul, hur⟩ := hgsib
            simp only [ptr_node, load, hun, res_pure, res_bind_ok]
            cases uc with
            | false =>
              simp only [Bool.false_eq_true, if_false]
              exact hrotres (by rw [hsib]; rfl)
            | true =>
              simp only [if_true]
              obtain ⟨t1, hrec, hgood1, hnext1⟩ :=
                recolor_spec t up fp fg (Tree.node l n k v true r) ul ui uk uv true ur hg0 hsib
              obtain ⟨l1, k1, v1, r1, hshape, hrb1, hctx1⟩ :=
                rb_recolorTree hN hC hred (by rw [hsib]; rfl)
              rw [hshape] at hgood1
              obtain ⟨t', T', hrun, hgood', hnext', hrb'⟩ :=
                ih up t1 l1 fg.id k1 v1 r1 (h + 1) hgood1
                  (by simp only [List.length_cons] at hlen; omega) hrb1 hctx1 hB.2.2
              refine ⟨t', T', ?_, hgood', hnext'.trans hnext1, hrb'⟩
              have hassoc : (do
                  let t ← setRed t fp.id false
                  let y ← setRed t ui false
                  let t ← setRed y fg.id true
                  fixInsertLoop fuel t fg.id) = (do
                  let t ← (do
                    let t ← setRed t fp.id false
                    let t ← setRed t ui false
                    setRed t fg.id true)
                  fixInsertLoop fuel t fg.id) := by
                simp only [res_bind_assoc]
              rw [hassoc, hrec]
              exact hrun

theorem repr_unique {mem : Nat → Option (Node K V)} : ∀ (T T' : Tree K V) (par par' : Option Nat),
    Repr mem par T → Repr mem par' T' → T.ptr = T'.ptr → T = T' := by
  intro T
  induction T with
  | nil =>
    intro T' par par' _ _ hp
    cases T' with
    | nil => rfl
    | node l id k v c r => simp at hp
  | node l id k v c r ihl ihr =>
    intro T' par par' h h' hp
    cases T' with
    | nil => simp at hp
    | node l' id' k' v' c' r' =>
      simp only [ptr_node, Option.some.injEq] at hp
      subst hp
      obtain ⟨h1, h2, h3⟩ := h
      obtain ⟨h1', h2', h3'⟩ := h'
      rw [h1] at h1'
      simp only [Option.some.injEq, Node.mk.injEq] at h1'
      obtain ⟨e1, e2, -, e4, e5, e6⟩ := h1'
      rw [ihl l' _ _ h2 h2' e1, ihr r' _ _ h3 h3' e2, e4, e5, e6]

theorem good_unique {t : RBTree K V} {T T' : Tree K V} (h : Good t T) (h' : Good t T') :
    T = T' := by
  refine repr_unique T T' none none h.1 h'.1 ?_
  have h1 := h.2.2.1
  have h2 := h'.2.2.1
  simp only [ctxRoot] at h1 h2
  rw [← h1, ← h2]

theorem insertLoop_rb (cmp : K → K → Int) (key : K) (value : V) (sub : Tree K V) :
    ∀ (C : List (Frame K V)) (t : RBTree K V) (fuel h : Nat),
      GoodAt t C sub → sub.height < fuel → RB sub h → CtxRB C h →
      (ctxRed C = true → sub.isRed = false) → ctxBlackTop C → (C = [] → sub.isRed = false) →
      ∃ t' ret T', insertLoop cmp key value fuel t sub.ptr (ctxPar C) (ctxDir C) =
          Res.ok (t', ret) ∧ Good t' T' ∧ IsRB T' := by
  induction sub with
  | nil =>
    intro C t fuel h hg hf hrb hC hcol hB hroot
    cases fuel with
    | zero => simp at hf
    | succ fuel =>
      obtain ⟨t2, hg2, hn2, hrun⟩ := insertLoop_nil cmp key value fuel t C hg
      have hb := goodAt_bound hg2
      simp only [rb_nil] at hrb
      subst hrb
      obtain ⟨t', T', hfix, hgood, -, hrb'⟩ :=
        fixInsertLoop_rb (t2.next + 1) C t2 Tree.nil t.next key value Tree.nil 0 hg2
          (by omega) ((rb_red _ _ _ _ _ _).2 ⟨rfl, rfl, rfl, rfl⟩) hC hB
      refine ⟨t', none, T', ?_, hgood, hrb'⟩
      rw [ptr_nil, hrun]
      simp only [fixInsert, hfix, res_bind_ok, res_pure]
  | node l id k v c r ihl ihr =>
    intro C t fuel h hg hf hrb hC hcol hB hroot
    cases fuel with
    | zero => simp at hf
    | succ fuel =>
      simp only [Tree.height] at hf
      have hg0 := hg
      obtain ⟨⟨hn, hl, hr⟩, hc, hroot', hnd, hlt⟩ := hg
      obtain ⟨hcc, m, hm, hrl, hrr⟩ := hrb
      have hctx : c = true → ctxRed C = false := by
        intro hc'
        cases hx : ctxRed C with
        | false => rfl
        | true =>
          have := hcol hx
          simp only [isRed_node] at this
          rw [hc'] at this
          exact absurd this (by simp)
      have htop : C = [] → c = false := fun hC' => by simpa using hroot hC'
      simp only [ptr_node, insertLoop, load, hn, res_bind_ok]
      by_cases h1 : cmp k key > 0
      · simp only [h1, if_true]
        refine ihl (Frame.left id k v c r :: C) t fuel m ⟨hl, ⟨⟨hn, hr⟩, hc⟩, hroot', ?_, ?_⟩
          (by omega) hrl ⟨hrr, fun hc' => ⟨(hcc hc').2, hctx hc'⟩, hm ▸ hC⟩
          (fun hc' => (hcc hc').1) ⟨htop, hB⟩ (fun hx => by simp at hx)
        · simpa [Tree.ids, ctxIds, Frame.sib] using hnd
        · simpa [Tree.ids, ctxIds, Frame.sib] using hlt
      · by_cases h2 : cmp k key < 0
        · simp only [h1, h2, if_true, if_false]
          refine ihr (Frame.right l id k v c :: C) t fuel m ⟨hr, ⟨⟨hn, hl⟩, hc⟩, hroot', ?_, ?_⟩
            (by omega) hrr ⟨hrl, fun hc' => ⟨(hcc hc').1, hctx hc'⟩, hm ▸ hC⟩
            (fun hc' => (hcc hc').2) ⟨htop, hB⟩ (fun hx => by simp at hx)
          · refine (List.Perm.nodup_iff ?_).1 hnd
            rw [List.perm_iff_count]
            intro a
            simp only [Tree.ids, ctxIds, Frame.sib, id_right, List.count_append, List.count_cons]
            omega
          · intro i hi
            refine hlt i ((List.Perm.mem_iff ?_).1 hi)
            rw [List.perm_iff_count]
            intro a
            simp only [Tree.ids, ctxIds, Frame.sib, id_right, List.count_append, List.count_cons]
            omega
        · simp only [h1, h2, if_false]
          have hidl : ∀ a, List.count a [id] + List.count a l.ids ≤
              List.count a ((Tree.node l id k v c r).ids ++ ctxIds C) := by
            intro a
            simp only [Tree.ids, List.count_append, List.count_cons, List.count_nil]
            omega
          have hidr : ∀ a, List.count a [id] + List.count a r.ids ≤
              List.count a ((Tree.node l id k v c r).ids ++ ctxIds C) := by
            intro a
            simp only [Tree.ids, List.count_append, List.count_cons, List.count_nil]
            omega
          have hidc : ∀ a, List.count a [id] + List.count a (ctxIds C) ≤
              List.count a ((Tree.node l id k v c r).ids ++ ctxIds C) := by
            intro a
            simp only [Tree.ids, List.count_append, List.count_cons, List.count_nil]
            omega
          have hW : ∀ i, i ∉ [id] → (store t id ⟨l.ptr, r.ptr, ctxPar C, k, value, c⟩).mem i =
              t.mem i := by
            intro i hi
            simp only [List.mem_singleton] at hi
            simp [store, Function.update_apply, hi]
          have hgood : GoodAt (store t id ⟨l.ptr, r.ptr, ctxPar C, k, value, c⟩) C
              (Tree.node l id k value c r) :=
            ⟨⟨by simp [store], repr_keep t.mem hnd [id] hl hW hidl,
              repr_keep t.mem hnd [id] hr hW hidr⟩,
              ctxRepr_keep t.mem hnd [id] hc hW hidc, hroot', hnd, hlt⟩
          exact ⟨_, _, plug C (Tree.node l id k value c r), rfl, (good_plug _ _ _).2 hgood,
            isRB_plug C _ h hC ⟨hcc, m, hm, hrl, hrr⟩ hcol hB hroot⟩

/-- The method `Insert` keeps the red-black conditions. -/
theorem Insert_rb (cmp : K → K → Int) (t : RBTree K V) (T : Tree K V) (key : K) (value : V)
    (hg : Good t T) (hrb : IsRB T) :
    ∃ t' ret T', Insert cmp t key value = Res.ok (t', ret) ∧ Good t' T' ∧ IsRB T' := by
  have hb := goodAt_bound hg
  have hroot : t.root = T.ptr := hg.2.2.1
  obtain ⟨hblack, n, hn⟩ := hrb
  have := insertLoop_rb cmp key value T [] t (t.next + 1) n hg (by omega) hn trivial
    (fun h => by simp [ctxRed] at h) trivial (fun _ => hblack)
  rw [Insert, hroot]
  exact this

/-- What `Insert` promises on a red-black search tree: the tree is again one,
and its pairs are those of `Insert_spec`. -/
theorem Insert_full (cmp : K → K → Int) (hcmp : TotalOrder cmp) (t : RBTree K V) (T : Tree K V)
    (key : K) (value : V) (hg : Good t T) (hasc : Ascending cmp T.toList) (hrb : IsRB T) :
    ∃ t' ret T', Insert cmp t key value = Res.ok (t', ret) ∧ Good t' T' ∧ IsRB T' ∧
      Ascending cmp T'.toList ∧ ret = lookup cmp T.toList key ∧
      lookup cmp T'.toList key = some value ∧
      ∀ k', k' ≠ key → lookup cmp T'.toList k' = lookup cmp T.toList k' := by
  obtain ⟨t', ret, hrun, T', hg', h1, h2, h3, h4⟩ := Insert_spec cmp hcmp t T key value hg hasc
  obtain ⟨t'', ret', T'', hrun', hg'', hrb'⟩ := Insert_rb cmp t T key value hg hrb
  rw [hrun] at hrun'
  simp only [Res.ok.injEq, Prod.mk.injEq] at hrun'
  obtain ⟨rfl, rfl⟩ := hrun'
  have := good_unique hg' hg''
  subst this
  exact ⟨t', ret, T', hrun, hg', hrb', h1, h2, h3, h4⟩

end RBTreeGo2

namespace RBTreeInt

@[simp] theorem liftNode_link0 (n : Node) : (liftNode n).link0 = n.link0 := rfl

@[simp] theorem liftNode_link1 (n : Node) : (liftNode n).link1 = n.link1 := rfl

@[simp] theorem liftNode_parent (n : Node) : (liftNode n).parent = n.parent := rfl

@[simp] theorem liftNode_k (n : Node) : (liftNode n).k = n.key := rfl

@[simp] theorem liftNode_v (n : Node) : (liftNode n).v = () := rfl

@[simp] theorem liftNode_red (n : Node) : (liftNode n).red = n.red := rfl

@[simp] theorem liftNode_link (n : Node) (dir : Bool) : (liftNode n).link dir = n.link dir := by
  cases dir <;> rfl

@[simp] theorem liftNode_setLink (n : Node) (dir : Bool) (x : Option Nat) :
    (liftNode n).setLink dir x = liftNode (n.setLink dir x) := by
  cases dir <;> rfl

@[simp] theorem liftNode_setParent (n : Node) (x : Option Nat) :
    ({ liftNode n with parent := x } : RBTreeGo2.Node Int Unit) =
      liftNode { n with parent := x } := rfl

@[simp] theorem liftNode_setRed (n : Node) (b : Bool) :
    ({ liftNode n with red := b } : RBTreeGo2.Node Int Unit) = liftNode { n with red := b } := rfl

@[simp] theorem lift_next (t : Tree) : (lift t).next = t.next := rfl

@[simp] theorem lift_root (t : Tree) : (lift t).root = t.root := rfl

@[simp] theorem lift_setRoot (t : Tree) (r : Option Nat) :
    ({ lift t with root := r } : RBTreeGo2.RBTree Int Unit) = lift { t with root := r } := rfl

@[simp] theorem load_lift (t : Tree) (p : Option Nat) :
    RBTreeGo2.load (lift t) p = load t p >>= fun n => RBTreeGo2.Res.ok (liftNode n) := by
  cases p with
  | none => rfl
  | some i =>
    simp only [RBTreeGo2.load, load, lift]
    cases t.mem i <;> rfl

@[simp] theorem store_lift (t : Tree) (i : Nat) (n : Node) :
    RBTreeGo2.store (lift t) i (liftNode n) = lift (store t i n) := by
  simp only [RBTreeGo2.store, store, lift, RBTreeGo2.RBTree.mk.injEq, and_true]
  funext j
  by_cases h : j = i <;> simp [Function.update_apply, h]

@[simp] theorem store_lift_mk (t : Tree) (i : Nat) (a b c : Option Nat) (k : Int) (r : Bool) :
    RBTreeGo2.store (lift t) i { link0 := a, link1 := b, parent := c, k := k, v := (), red := r } =
      lift (store t i { link0 := a, link1 := b, parent := c, key := k, red := r }) :=
  store_lift t i { link0 := a, link1 := b, parent := c, key := k, red := r }

@[simp] theorem getLink_lift (t : Tree) (x : Nat) (dir : Bool) :
    RBTreeGo2.getLink (lift t) x dir = getLink t x dir := by
  simp [RBTreeGo2.getLink, getLink, RBTreeGo2.res_bind_assoc]

@[simp] theorem getParent_lift (t : Tree) (x : Nat) :
    RBTreeGo2.getParent (lift t) x = getParent t x := by
  simp [RBTreeGo2.getParent, getParent, RBTreeGo2.res_bind_assoc]

@[simp] theorem setLink_lift (t : Tree) (x : Nat) (dir : Bool) (y : Option Nat) :
    RBTreeGo2.setLink (lift t) x dir y =
      setLink t x dir y >>= fun t' => RBTreeGo2.Res.ok (lift t') := by
  simp [RBTreeGo2.setLink, setLink, RBTreeGo2.res_bind_assoc]

@[simp] theorem setParent_lift (t : Tree) (x : Nat) (y : Option Nat) :
    RBTreeGo2.setParent (lift t) x y =
      setParent t x y >>= fun t' => RBTreeGo2.Res.ok (lift t') := by
  simp [RBTreeGo2.setParent, setParent, RBTreeGo2.res_bind_assoc]

@[simp] theorem setRed_lift (t : Tree) (x : Nat) (b : Bool) :
    RBTreeGo2.setRed (lift t) x b = setRed t x b >>= fun t' => RBTreeGo2.Res.ok (lift t') := by
  simp [RBTreeGo2.setRed, setRed, RBTreeGo2.res_bind_assoc]

@[simp] theorem setParentIf_lift (t : Tree) (x y : Option Nat) :
    RBTreeGo2.setParentIf (lift t) x y =
      setParentIf t x y >>= fun t' => RBTreeGo2.Res.ok (lift t') := by
  cases x with
  | none => rfl
  | some c => simp [RBTreeGo2.setParentIf, setParentIf]

@[simp] theorem blackenRoot_lift (t : Tree) :
    RBTreeGo2.blackenRoot (lift t) =
      blackenRoot t >>= fun t' => RBTreeGo2.Res.ok (lift t') := by
  simp only [RBTreeGo2.blackenRoot, blackenRoot, load_lift, lift_root, RBTreeGo2.res_bind_assoc,
    RBTreeGo2.res_bind_ok]
  cases t.root with
  | none => rfl
  | some ri => simp [RBTreeGo2.res_bind_assoc]

@[simp] theorem relink_lift (t : Tree) (gg : Option Nat) (g p : Nat) :
    RBTreeGo2.relink (lift t) gg g p =
      relink t gg g p >>= fun t' => RBTreeGo2.Res.ok (lift t') := by
  cases gg with
  | none => rfl
  | some ggi =>
    simp only [RBTreeGo2.relink, relink, getLink_lift]
    cases getLink t ggi false with
    | ok l0 => by_cases h : l0 = some g <;> simp [h]
    | nilDeref => rfl
    | outOfFuel => rfl

@[simp] theorem rotateInner_lift (t : Tree) (n p g : Nat) (dir : Bool) :
    RBTreeGo2.rotateInner (lift t) n p g dir =
      rotateInner t n p g dir >>= fun t' => RBTreeGo2.Res.ok (lift t') := by
  simp [RBTreeGo2.rotateInner, rotateInner, RBTreeGo2.res_bind_assoc]

@[simp] theorem rotateOuter_lift (t : Tree) (p g : Nat) (dir : Bool) :
    RBTreeGo2.rotateOuter (lift t) p g dir =
      rotateOuter t p g dir >>= fun t' => RBTreeGo2.Res.ok (lift t') := by
  simp [RBTreeGo2.rotateOuter, rotateOuter, RBTreeGo2.res_bind_assoc]

@[simp] theorem rotate_lift (t : Tree) (n p g : Nat) (dir : Bool) :
    RBTreeGo2.rotate (lift t) n p g dir =
      rotate t n p g dir >>= fun t' => RBTreeGo2.Res.ok (lift t') := by
  simp only [RBTreeGo2.rotate, rotate, getLink_lift]
  cases getLink t p (!dir) with
  | ok pl => by_cases h : pl = some n <;> simp [h, RBTreeGo2.res_bind_assoc]
  | nilDeref => rfl
  | outOfFuel => rfl

theorem fixInsertLoop_lift : ∀ (fuel : Nat) (t : Tree) (n : Nat),
    RBTreeGo2.fixInsertLoop fuel (lift t) n =
      fixInsertLoop fuel t n >>= fun t' => RBTreeGo2.Res.ok (lift t') := by
  intro fuel
  induction fuel with
  | zero => intro t n; rfl
  | succ fuel ih =>
    intro t n
    rw [RBTreeGo2.fixInsertLoop, fixInsertLoop]
    simp only [load_lift, RBTreeGo2.res_bind_assoc, RBTreeGo2.res_bind_ok]
    cases load t (some n) with
    | nilDeref => rfl
    | outOfFuel => rfl
    | ok nn =>
      simp only [RBTreeGo2.res_bind_ok, liftNode_parent]
      cases nn.parent with
      | none => simp
      | some p =>
        simp only [load_lift, RBTreeGo2.res_bind_assoc, RBTreeGo2.res_bind_ok]
        cases load t (some p) with
        | nilDeref => rfl
        | outOfFuel => rfl
        | ok pn =>
          simp only [RBTreeGo2.res_bind_ok, liftNode_red, liftNode_parent]
          cases pn.red with
          | false => simp
          | true =>
            simp only [Bool.not_true, Bool.false_eq_true, if_false]
            cases pn.parent with
            | none => simp
            | some g =>
              simp only [load_lift, RBTreeGo2.res_bind_assoc, RBTreeGo2.res_bind_ok]
              cases load t (some g) with
              | nilDeref => rfl
              | outOfFuel => rfl
              | ok gn =>
                simp only [RBTreeGo2.res_bind_ok, liftNode_link0, liftNode_link]
                cases gn.link (!decide (gn.link0 ≠ some p)) with
                | none => simp
                | some ui =>
                  simp only [load_lift, RBTreeGo2.res_bind_assoc, RBTreeGo2.res_bind_ok, RBTreeGo2.res_pure]
                  cases load t (some ui) with
                  | nilDeref => rfl
                  | outOfFuel => rfl
                  | ok un =>
                    simp only [RBTreeGo2.res_bind_ok, liftNode_red]
                    cases un.red with
                    | false => simp
                    | true => simp [RBTreeGo2.res_bind_assoc, ih]

@[simp] theorem fixInsert_lift (t : Tree) (n : Nat) :
    RBTreeGo2.fixInsert (lift t) n = fixInsert t n >>= fun t' => RBTreeGo2.Res.ok (lift t') :=
  fixInsertLoop_lift (t.next + 1) t n

theorem intCmp_pos (a b : Int) : RBTreeGo2.intCmp a b > 0 ↔ b < a := by
  unfold RBTreeGo2.intCmp
  omega

theorem intCmp_neg (a b : Int) : RBTreeGo2.intCmp a b < 0 ↔ a < b := by
  unfold RBTreeGo2.intCmp
  omega

theorem update_self_lift (t : Tree) (ni : Nat) (nn : Node) (h : t.mem ni = some nn) :
    RBTreeGo2.store (lift t) ni (liftNode nn) = lift t := by
  rw [store_lift]
  cases t with
  | mk mem next root =>
    simp only at h
    have e : Function.update mem ni (some nn) = mem := by
      rw [← h]
      exact Function.update_eq_self ni mem
    simp only [store, e]

theorem lift_alloc (t : Tree) (i : Nat) (a b c : Option Nat) (k : Int) (r : Bool) (m : Nat)
    (rt : Option Nat) :
    ({ mem := Function.update (lift t).mem i
          (some { link0 := a, link1 := b, parent := c, k := k, v := (), red := r })
       next := m
       root := rt } : RBTreeGo2.RBTree Int Unit) =
      lift
        { mem := Function.update t.mem i
            (some { link0 := a, link1 := b, parent := c, key := k, red := r })
          next := m
          root := rt } := by
  simp only [lift, RBTreeGo2.RBTree.mk.injEq, and_true]
  funext j
  by_cases h : j = i <;> simp [Function.update_apply, h, liftNode]

theorem insertLoop_lift (key : Int) : ∀ (fuel : Nat) (t : Tree) (n p : Option Nat) (dir : Bool),
    RBTreeGo2.insertLoop RBTreeGo2.intCmp key () fuel (lift t) n p dir =
      insertLoop key fuel t n p dir >>= fun r => RBTreeGo2.Res.ok (lift r.1, asOption r.2) := by
  intro fuel
  induction fuel with
  | zero => intro t n p dir; rfl
  | succ fuel ih =>
    intro t n p dir
    cases n with
    | some ni =>
      rw [RBTreeGo2.insertLoop, insertLoop]
      simp only [load_lift, RBTreeGo2.res_bind_assoc, RBTreeGo2.res_bind_ok]
      cases hl : load t (some ni) with
      | nilDeref => rfl
      | outOfFuel => rfl
      | ok nn =>
        simp only [RBTreeGo2.res_bind_ok, liftNode_k, liftNode_link0, liftNode_link1, intCmp_pos, intCmp_neg]
        by_cases h1 : key < nn.key
        · simp only [h1, if_true, ih]
        · by_cases h2 : nn.key < key
          · simp only [h1, h2, if_true, if_false, gt_iff_lt, ih]
          · simp only [h1, h2, if_false, gt_iff_lt, RBTreeGo2.res_pure, RBTreeGo2.res_bind_ok, asOption, if_true]
            have hm : t.mem ni = some nn := by
              simp only [load] at hl
              cases hx : t.mem ni with
              | none => rw [hx] at hl; cases hl
              | some x => rw [hx] at hl; cases hl; rfl
            have := update_self_lift t ni nn hm
            simp only [liftNode] at this
            simp only [liftNode_v, liftNode_parent, liftNode_red, this]
    | none =>
      simp only [RBTreeGo2.insertLoop, insertLoop]
      cases p with
      | none => simp [RBTreeGo2.res_bind_assoc, asOption, lift_alloc]
      | some pi => simp [RBTreeGo2.res_bind_assoc, asOption, lift_alloc]

theorem Insert_lift (t : Tree) (key : Int) :
    RBTreeGo2.Insert RBTreeGo2.intCmp (lift t) key () =
      Insert t key >>= fun r => RBTreeGo2.Res.ok (lift r.1, asOption r.2) :=
  insertLoop_lift key (t.next + 1) t t.root none false

theorem searchLoop_lift (t : Tree) (key : Int) : ∀ (fuel : Nat) (n : Option Nat),
    RBTreeGo2.searchLoop RBTreeGo2.intCmp (lift t) key fuel n = searchLoop t key fuel n := by
  intro fuel
  induction fuel with
  | zero => intro n; rfl
  | succ fuel ih =>
    intro n
    cases n with
    | none => rfl
    | some ni =>
      rw [RBTreeGo2.searchLoop, searchLoop]
      simp only [load_lift, RBTreeGo2.res_bind_assoc, RBTreeGo2.res_bind_ok]
      cases load t (some ni) with
      | nilDeref => rfl
      | outOfFuel => rfl
      | ok nn =>
        simp only [RBTreeGo2.res_bind_ok, liftNode_k, liftNode_link0, liftNode_link1, intCmp_pos, intCmp_neg,
          gt_iff_lt, ih]

theorem searchNode_lift (t : Tree) (key : Int) :
    RBTreeGo2.searchNode RBTreeGo2.intCmp (lift t) key = searchNode t key :=
  searchLoop_lift t key (t.next + 1) t.root

theorem isBST_iff (T : RBTreeGo2.Tree Int Unit) :
    IsBST T ↔ RBTreeGo2.Ascending RBTreeGo2.intCmp T.toList := by
  unfold IsBST keys RBTreeGo2.Ascending
  rw [List.pairwise_map]
  simp only [intCmp_neg]

theorem lookup_isSome_iff (L : List (Int × Unit)) (k : Int) :
    (RBTreeGo2.lookup RBTreeGo2.intCmp L k).isSome = true ↔ k ∈ L.map Prod.fst := by
  unfold RBTreeGo2.lookup
  simp only [Option.isSome_map', List.find?_isSome, List.mem_map, decide_eq_true_eq]
  constructor
  · rintro ⟨x, hx, h⟩
    refine ⟨x, hx, ?_⟩
    unfold RBTreeGo2.intCmp at h
    omega
  · rintro ⟨x, hx, h⟩
    refine ⟨x, hx, ?_⟩
    unfold RBTreeGo2.intCmp
    omega

theorem ok_of_bind_ok {α β : Type} {x : Res α} {f : α → β} {b : β}
    (h : (x >>= fun a => RBTreeGo2.Res.ok (f a)) = RBTreeGo2.Res.ok b) :
    ∃ a, x = RBTreeGo2.Res.ok a ∧ f a = b := by
  cases x with
  | ok a =>
    simp only [RBTreeGo2.res_bind_ok, RBTreeGo2.Res.ok.injEq] at h
    exact ⟨a, rfl, h⟩
  | nilDeref => cases h
  | outOfFuel => cases h

theorem Insert_holds (t : Tree) (T : RBTreeGo2.Tree Int Unit) (key : Int) (hg : Holds t T)
    (hbst : IsBST T) (hrb : RBTreeGo2.IsRB T) :
    ∃ t' T' found, Insert t key = RBTreeGo2.Res.ok (t', found) ∧ Holds t' T' ∧ IsBST T' ∧
      RBTreeGo2.IsRB T' ∧ (∀ k, k ∈ keys T' ↔ k = key ∨ k ∈ keys T) ∧
      (found = true ↔ key ∈ keys T) := by
  obtain ⟨t2, ret, T', hrun, hg', hrb', hasc', hret, hself, hother⟩ :=
    RBTreeGo2.Insert_full RBTreeGo2.intCmp RBTreeGo2.intCmp_total (lift t) T key () hg
      ((isBST_iff T).1 hbst) hrb
  rw [Insert_lift] at hrun
  obtain ⟨⟨t', found⟩, hins, he⟩ := ok_of_bind_ok hrun
  simp only [Prod.mk.injEq] at he
  obtain ⟨rfl, rfl⟩ := he
  refine ⟨t', T', found, hins, hg', (isBST_iff T').2 hasc', hrb', fun k => ?_, ?_⟩
  · unfold keys
    rw [← lookup_isSome_iff, ← lookup_isSome_iff]
    by_cases hk : k = key
    · subst hk
      simp [hself]
    · rw [hother k hk]
      simp [hk]
  · unfold keys
    rw [← lookup_isSome_iff, ← hret]
    cases found <;> simp [asOption]

/-- C22: `Insert` keeps the red-black invariants.  On a tree whose heap holds
a shape with consistent parent pointers that is a strict binary search tree
with a black root, no red node with a red child and equal black counts,
`Insert(key)` returns, the tree holds a shape with the same properties whose
keys are the old keys and `key`, and the result is true exactly when `key` was
present. -/
theorem insert_preserves_rb (t : Tree) (T : RBTreeGo2.Tree Int Unit) (key : Int)
    (hg : Holds t T) (hbst : IsBST T) (hrb : RBTreeGo2.IsRB T) :
    ∃ t' T' found, Insert t key = RBTreeGo2.Res.ok (t', found) ∧ Holds t' T' ∧ IsBST T' ∧
      RBTreeGo2.IsRB T' ∧ (∀ k, k ∈ keys T' ↔ k = key ∨ k ∈ keys T) ∧
      (found = true ↔ key ∈ keys T) :=
  Insert_holds t T key hg hbst hrb

theorem single_holds :
    Holds single (RBTreeGo2.Tree.node RBTreeGo2.Tree.nil 0 5 () false RBTreeGo2.Tree.nil) := by
  refine ⟨⟨?_, trivial, trivial⟩, trivial, rfl, ?_, ?_⟩
  · rfl
  · simp [RBTreeGo2.Tree.ids, RBTreeGo2.ctxIds]
  · simp [RBTreeGo2.Tree.ids, RBTreeGo2.ctxIds, lift, single]

theorem single_isRB :
    RBTreeGo2.IsRB
      (RBTreeGo2.Tree.node RBTreeGo2.Tree.nil 0 (5 : Int) () false RBTreeGo2.Tree.nil) :=
  ⟨rfl, 1, (RBTreeGo2.rb_black_succ _ _ _ _ _ _).2 ⟨rfl, rfl⟩⟩

theorem insert_preserves_rb_witness :
    Holds single (RBTreeGo2.Tree.node RBTreeGo2.Tree.nil 0 5 () false RBTreeGo2.Tree.nil) ∧
    IsBST (RBTreeGo2.Tree.node RBTreeGo2.Tree.nil 0 5 () false RBTreeGo2.Tree.nil) ∧
    RBTreeGo2.IsRB (RBTreeGo2.Tree.node RBTreeGo2.Tree.nil 0 (5 : Int) () false RBTreeGo2.Tree.nil) ∧
    ∃ t' T' found, Insert single 3 = RBTreeGo2.Res.ok (t', found) ∧ Holds t' T' ∧ IsBST T' ∧
      RBTreeGo2.IsRB T' ∧
      (∀ k, k ∈ keys T' ↔ k = 3 ∨
        k ∈ keys (RBTreeGo2.Tree.node RBTreeGo2.Tree.nil 0 5 () false RBTreeGo2.Tree.nil)) ∧
      (found = true ↔
        (3 : Int) ∈ keys (RBTreeGo2.Tree.node RBTreeGo2.Tree.nil 0 5 () false RBTreeGo2.Tree.nil)) :=
  ⟨single_holds, by simp [IsBST, keys, RBTreeGo2.Tree.toList], single_isRB,
    insert_preserves_rb single _ 3 single_holds (by simp [IsBST, keys, RBTreeGo2.Tree.toList])
      single_isRB⟩

end RBTreeInt

namespace RBTreeGo2

variable {K V : Type}

theorem load_eval {t : RBTree K V} {x : Nat} {n : Node K V} (h : t.mem x = some n) :
    load t (some x) = Res.ok n := by
  simp [load, h]

theorem getLink_eval {t : RBTree K V} {x : Nat} {n : Node K V} (h : t.mem x = some n)
    (dir : Bool) : getLink t x dir = Res.ok (n.link dir) := by
  simp [getLink, load, h]

theorem getParent_eval {t : RBTree K V} {x : Nat} {n : Node K V} (h : t.mem x = some n) :
    getParent t x = Res.ok n.parent := by
  simp [getParent, load, h]

theorem isRed_none (t : RBTree K V) : isRed t none = Res.ok false := rfl

theorem isRed_eval {t : RBTree K V} {x : Nat} {n : Node K V} (h : t.mem x = some n) :
    isRed t (some x) = Res.ok n.red := by
  simp [isRed, load, h]

theorem setLink_step {t : RBTree K V} {x : Nat} {n : Node K V} (h : t.mem x = some n)
    (dir : Bool) (y : Option Nat) :
    ∃ t', setLink t x dir y = Res.ok t' ∧ t'.mem x = some (n.setLink dir y) ∧
      (∀ i, i ≠ x → t'.mem i = t.mem i) ∧ t'.next = t.next := by
  refine ⟨store t x (n.setLink dir y), by simp [setLink, load, h], by simp [store],
    fun i hi => by simp [store, Function.update_apply, hi], rfl⟩

theorem setParent_step {t : RBTree K V} {x : Nat} {n : Node K V} (h : t.mem x = some n)
    (y : Option Nat) :
    ∃ t', setParent t x y = Res.ok t' ∧ t'.mem x = some { n with parent := y } ∧
      (∀ i, i ≠ x → t'.mem i = t.mem i) ∧ t'.next = t.next := by
  refine ⟨store t x { n with parent := y }, by simp [setParent, load, h], by simp [store],
    fun i hi => by simp [store, Function.update_apply, hi], rfl⟩

theorem setParentIf_step {t : RBTree K V} {x : Nat} {n : Node K V} (h : t.mem x = some n)
    (y : Option Nat) :
    ∃ t', setParentIf t (some x) y = Res.ok t' ∧ t'.mem x = some { n with parent := y } ∧
      (∀ i, i ≠ x → t'.mem i = t.mem i) ∧ t'.next = t.next :=
  setParent_step h y

theorem setRed_step {t : RBTree K V} {x : Nat} {n : Node K V} (h : t.mem x = some n)
    (b : Bool) :
    ∃ t', setRed t x b = Res.ok t' ∧ t'.mem x = some { n with red := b } ∧
      (∀ i, i ≠ x → t'.mem i = t.mem i) ∧ t'.next = t.next := by
  refine ⟨store t x { n with red := b }, by simp [setRed, load, h], by simp [store],
    fun i hi => by simp [store, Function.update_apply, hi], rfl⟩

theorem replaceChild_step {t : RBTree K V} {g : Nat} {gn : Node K V} (h : t.mem g = some gn)
    (p w : Nat) :
    ∃ t', replaceChild t g p w = Res.ok t' ∧ t'.mem g = some (relinkRec gn p w) ∧
      (∀ i, i ≠ g → t'.mem i = t.mem i) ∧ t'.next = t.next := by
  by_cases hl : gn.link0 = some p
  · refine ⟨store t g (gn.setLink false (some w)), ?_, ?_, ?_, rfl⟩
    · simp [replaceChild, getLink, setLink, load, h, Node.link, hl]
    · simp [store, relinkRec, hl]
    · intro i hi
      simp [store, Function.update_apply, hi]
  · refine ⟨store t g (gn.setLink true (some w)), ?_, ?_, ?_, rfl⟩
    · simp [replaceChild, getLink, setLink, load, h, Node.link, hl]
    · simp [store, relinkRec, hl]
    · intro i hi
      simp [store, Function.update_apply, hi]

theorem orRoot_mem (s : Nat) (C : List (Frame K V)) : orRoot (ctxPar C) s ∈ s :: ctxIds C := by
  cases C with
  | nil => simp [orRoot, ctxPar]
  | cons f up => simp [orRoot, ctxPar, ctxIds]

/-- The node above the end of a path, or the local node `root` for the empty
path: its record holds the end of the path in the link `ctxDir C`, and
writing that link, alone among the nodes of the path, changes what the path
holds in its open link. -/
theorem ctxS_parent {mem : Nat → Option (Node K V)} {s : Nat} {C : List (Frame K V)} {p : Nat}
    (h : CtxS mem s C (some p)) (hnd : (s :: ctxIds C).Nodup) (hp : p ∉ ctxIds C) :
    ∃ gn, mem (orRoot (ctxPar C) s) = some gn ∧ gn.link (ctxDir C) = some p ∧
      (∀ w, relinkRec gn p w = gn.setLink (ctxDir C) (some w)) ∧
      (C ≠ [] → gn.link true = some p → ctxDir C = true) ∧
      ∀ (mem' : Nat → Option (Node K V)) (hole : Option Nat),
        mem' (orRoot (ctxPar C) s) = some (gn.setLink (ctxDir C) hole) →
        (∀ i ∈ s :: ctxIds C, i ≠ orRoot (ctxPar C) s → mem' i = mem i) →
        CtxS mem' s C hole := by
  obtain ⟨hc, k0, v0, hs⟩ := h
  cases C with
  | nil =>
    refine ⟨_, hs, rfl, fun w => ?_, fun h => absurd rfl h, fun mem' hole h1 _ => ⟨trivial, k0, v0, ?_⟩⟩
    · simp [relinkRec, ctxRoot, ctxDir]
    · simpa [orRoot, ctxPar, ctxDir, ctxRoot, Node.setLink] using h1
  | cons f up =>
    have hsf : s ≠ f.id := by
      intro e
      simp [ctxIds, e] at hnd
    cases f with
    | left g k v c r =>
      obtain ⟨⟨h1, h2⟩, h3⟩ := hc
      simp only [ctxIds, id_left, Frame.sib] at hnd hp hsf
      have hnd' := (List.nodup_cons.1 hnd).2
      refine ⟨_, h1, rfl, fun w => by simp [relinkRec, ctxDir, Frame.dir], fun _ h => ?_,
        fun mem' hole e1 e2 => ⟨⟨⟨?_, ?_⟩, ?_⟩, k0, v0, ?_⟩⟩
      · simp only [Node.link, if_true] at h
        exact absurd (ptr_mem h) (fun hm => hp (by simp [hm]))
      · simpa [orRoot, ctxPar, ctxDir, Frame.dir, Node.setLink] using e1
      · refine repr_congr (fun i hi => e2 i (by simp [ctxIds, Frame.sib, hi]) ?_) h2
        simp only [orRoot, ctxPar_cons, id_left]
        rintro rfl
        exact (List.nodup_cons.1 hnd').1 (by simp [hi])
      · refine ctxRepr_congr (fun i hi => e2 i (by simp [ctxIds, hi]) ?_) h3
        simp only [orRoot, ctxPar_cons, id_left]
        rintro rfl
        exact (List.nodup_cons.1 hnd').1 (by simp [hi])
      · rw [e2 s (by simp) (by simpa [orRoot, ctxPar] using hsf)]
        simpa [ctxRoot] using hs
    | right l g k v c =>
      obtain ⟨⟨h1, h2⟩, h3⟩ := hc
      simp only [ctxIds, id_right, Frame.sib] at hnd hp hsf
      have hnd' := (List.nodup_cons.1 hnd).2
      have hlp : l.ptr ≠ some p := fun h => hp (by simp [ptr_mem h])
      refine ⟨_, h1, rfl, fun w => by simp [relinkRec, ctxDir, Frame.dir, hlp], fun _ _ => rfl,
        fun mem' hole e1 e2 => ⟨⟨⟨?_, ?_⟩, ?_⟩, k0, v0, ?_⟩⟩
      · simpa [orRoot, ctxPar, ctxDir, Frame.dir, Node.setLink] using e1
      · refine repr_congr (fun i hi => e2 i (by simp [ctxIds, Frame.sib, hi]) ?_) h2
        simp only [orRoot, ctxPar_cons, id_right]
        rintro rfl
        exact (List.nodup_cons.1 hnd').1 (by simp [hi])
      · refine ctxRepr_congr (fun i hi => e2 i (by simp [ctxIds, hi]) ?_) h3
        simp only [orRoot, ctxPar_cons, id_right]
        rintro rfl
        exact (List.nodup_cons.1 hnd').1 (by simp [hi])
      · rw [e2 s (by simp) (by simpa [orRoot, ctxPar] using hsf)]
        simpa [ctxRoot] using hs

theorem nodup_of_count_le {L W : List Nat} (hnd : L.Nodup)
    (h : ∀ a, List.count a W ≤ List.count a L) : W.Nodup := by
  rw [List.nodup_iff_count_le_one] at hnd ⊢
  exact fun a => le_trans (h a) (hnd a)

theorem not_mem_of_count {L G S : List Nat} (hnd : L.Nodup) {g : Nat} (hg : g ∈ G)
    (h : ∀ a, List.count a G + List.count a S ≤ List.count a L) : g ∉ S :=
  fun hm => disj_of_nodup hnd G S h g hm hg

/-- A subtree stays in the heap when the writes go to the nodes `W` and to a
node `g` on the path above, all away from the subtree. -/
theorem keep_repr (mem : Nat → Option (Node K V)) {mem' : Nat → Option (Node K V)}
    {par : Option Nat} {S : Tree K V} {L : List Nat} (hnd : L.Nodup) (W G : List Nat) (g : Nat)
    (h : Repr mem par S) (hW : ∀ i, i ∉ g :: W → mem' i = mem i) (hg : g ∈ G)
    (hc : ∀ a, List.count a W + List.count a S.ids ≤ List.count a L)
    (hG : ∀ a, List.count a G + List.count a S.ids ≤ List.count a L) : Repr mem' par S := by
  refine repr_congr (fun i hi => hW i ?_) h
  simp only [List.mem_cons, not_or]
  exact ⟨fun e => not_mem_of_count hnd hg hG (e ▸ hi), fun hm => disj_of_nodup hnd W S.ids hc i hi hm⟩

/-- The path above stays in the heap when the writes go to the nodes `W`, all
away from the path and from the local node `root`. -/
theorem keep_ctxS (mem : Nat → Option (Node K V)) {mem' : Nat → Option (Node K V)} {s : Nat}
    {C : List (Frame K V)} {hole : Option Nat} {L : List Nat} (hnd : L.Nodup) (W : List Nat)
    (h : CtxS mem s C hole) (hW : ∀ i, i ∉ W → mem' i = mem i)
    (hc : ∀ a, List.count a W + List.count a (s :: ctxIds C) ≤ List.count a L) :
    CtxS mem' s C hole := by
  have hd := disj_of_nodup hnd W (s :: ctxIds C) hc
  obtain ⟨h1, k, v, h2⟩ := h
  refine ⟨ctxRepr_congr (fun i hi => hW i (hd i (by simp [hi]))) h1, k, v, ?_⟩
  rw [hW s (hd s (by simp))]
  exact h2

theorem ne_of_not_mem_cons {g : Nat} {G W : List Nat} {L : List Nat} (hnd : L.Nodup) (hg : g ∈ G)
    (h : ∀ a, List.count a G + List.count a W ≤ List.count a L) : ∀ a ∈ W, a ≠ g :=
  fun _ ha e => not_mem_of_count hnd hg h (e ▸ ha)

theorem mem_of_count_le {A B : List Nat} (h : ∀ a, List.count a A ≤ List.count a B) {i : Nat}
    (hi : i ∈ A) : i ∈ B :=
  List.count_pos_iff.1 (lt_of_lt_of_le (List.count_pos_iff.2 hi) (h i))

theorem keep_of_disj {mem mem' : Nat → Option (Node K V)} {L : List Nat} (hnd : L.Nodup)
    (W G : List Nat) (g : Nat) (hW : ∀ i, i ∉ g :: W → mem' i = mem i)
    (hc : ∀ a, List.count a W + List.count a G ≤ List.count a L) :
    ∀ i ∈ G, i ≠ g → mem' i = mem i := by
  intro i hi hne
  refine hW i ?_
  simp only [List.mem_cons, not_or]
  exact ⟨hne, disj_of_nodup hnd W G hc i hi⟩

theorem setParentIf_none (t : RBTree K V) (y : Option Nat) : setParentIf t none y = Res.ok t :=
  rfl

theorem count_ptr_le (T : Tree K V) (a : Nat) :
    List.count a T.ptr.toList ≤ List.count a T.ids := by
  cases T with
  | nil => simp [Tree.ptr]
  | node l id k v c r =>
    show List.count a [id] ≤ _
    simp only [List.count_append, List.count_cons, List.count_nil, Tree.ids]
    omega

/-- The guarded write `if x != nil { x.parent = y }` at the root of a subtree
moves the subtree under `y`. -/
theorem setParentIf_tree {t : RBTree K V} {T : Tree K V} {par : Option Nat}
    (h : Repr t.mem par T) (y : Option Nat) (hnd : T.ids.Nodup) :
    ∃ t', setParentIf t T.ptr y = Res.ok t' ∧ Repr t'.mem y T ∧
      (∀ i, T.ptr ≠ some i → t'.mem i = t.mem i) ∧ t'.next = t.next := by
  cases T with
  | nil => exact ⟨t, rfl, trivial, fun _ _ => rfl, rfl⟩
  | node l id k v c r =>
    obtain ⟨h1, h2, h3⟩ := h
    obtain ⟨t', e, m, f, n⟩ := setParentIf_step h1 y
    have hl := disj_of_nodup hnd [id] l.ids (fun a => by
      simp only [List.count_append, List.count_cons, List.count_nil, Tree.ids]; omega)
    have hr := disj_of_nodup hnd [id] r.ids (fun a => by
      simp only [List.count_append, List.count_cons, List.count_nil, Tree.ids]; omega)
    refine ⟨t', e, ⟨m, ?_, ?_⟩, fun i hi => f i (fun e => hi (by simp [e])), n⟩
    · exact repr_congr (fun i hi => f i (fun e => hl i hi (by simp [e]))) h2
    · exact repr_congr (fun i hi => f i (fun e => hr i hi (by simp [e]))) h3

theorem leftmost_stop {t : RBTree K V} {m : Nat} {n : Node K V} (h : t.mem m = some n)
    (h0 : n.link0 = none) (fuel : Nat) : leftmost t (fuel + 1) m = Res.ok m := by
  simp [leftmost, getLink, load, h, Node.link, h0]

theorem isRed_tree {t : RBTree K V} {par : Option Nat} {T : Tree K V} (h : Repr t.mem par T) :
    isRed t T.ptr = Res.ok T.isRed := by
  cases T with
  | nil => rfl
  | node l id k v c r => exact isRed_eval h.1

/-- The link under which the end of the path hangs holds the subtree at
the end of the path. -/
theorem hole_read {t : RBTree K V} {s : Nat} {C : List (Frame K V)} {x : Tree K V}
    (h : GoodS t s C x) : getLink t (orRoot (ctxPar C) s) (ctxDir C) = Res.ok x.ptr := by
  obtain ⟨-, hc, ⟨k, v, hs⟩, -, -⟩ := h
  cases C with
  | nil => exact getLink_eval hs false
  | cons f up =>
    cases f with
    | left p kp vp cp r => exact getLink_eval hc.1.1 false
    | right l p kp vp cp => exact getLink_eval hc.1.1 true

theorem goodS_up {t : RBTree K V} {s : Nat} {f : Frame K V} {up : List (Frame K V)}
    {x : Tree K V} (h : GoodS t s (f :: up) x) : GoodS t s up (f.fill x) := by
  obtain ⟨hr, hc, hs, hnd, hlt⟩ := h
  cases f with
  | left p kp vp cp r =>
    obtain ⟨⟨h1, h2⟩, h3⟩ := hc
    have hsub : ∀ a, List.count a (s :: ((Frame.left p kp vp cp r).fill x).ids ++ ctxIds up) ≤
        List.count a (s :: (x.ids ++ ctxIds (Frame.left p kp vp cp r :: up))) := fun a => by
      simp only [List.count_append, List.count_cons, List.count_nil, Tree.ids, ctxIds, id_left,
        id_right, Frame.sib, Frame.fill, List.cons_append]
      omega
    exact ⟨⟨h1, hr, h2⟩, h3, hs, nodup_of_count_le hnd hsub,
      fun i hi => hlt i (mem_of_count_le hsub hi)⟩
  | right l p kp vp cp =>
    obtain ⟨⟨h1, h2⟩, h3⟩ := hc
    have hsub : ∀ a, List.count a (s :: ((Frame.right l p kp vp cp).fill x).ids ++ ctxIds up) ≤
        List.count a (s :: (x.ids ++ ctxIds (Frame.right l p kp vp cp :: up))) := fun a => by
      simp only [List.count_append, List.count_cons, List.count_nil, Tree.ids, ctxIds, id_left,
        id_right, Frame.sib, Frame.fill, List.cons_append]
      omega
    exact ⟨⟨h1, h2, hr⟩, h3, hs, nodup_of_count_le hnd hsub,
      fun i hi => hlt i (mem_of_count_le hsub hi)⟩

theorem goodS_plug {t : RBTree K V} {s : Nat} : ∀ {C : List (Frame K V)} {x : Tree K V},
    GoodS t s C x → GoodS t s [] (plug C x) := by
  intro C
  induction C with
  | nil => intro x h; exact h
  | cons f up ih => intro x h; exact ih (goodS_up h)

/-- The test `p.link[0] == z` of `fixDelete` finds the index of the link under
which the end of the path hangs. -/
theorem up_dir {t : RBTree K V} {s : Nat} {up : List (Frame K V)} {p : Nat}
    (h : CtxS t.mem s up (some p)) (hp : p ∉ ctxIds up) :
    ∃ l0, getLink t (orRoot (ctxPar up) s) false = Res.ok l0 ∧
      decide (l0 ≠ some p) = ctxDir up := by
  obtain ⟨hc, k, v, hs⟩ := h
  cases up with
  | nil => exact ⟨_, getLink_eval hs false, by simp [ctxRoot, Node.link, ctxDir]⟩
  | cons f up =>
    cases f with
    | left g kg vg cg r => exact ⟨_, getLink_eval hc.1.1 false, by simp [Node.link, ctxDir, Frame.dir]⟩
    | right l g kg vg cg =>
      refine ⟨_, getLink_eval hc.1.1 false, ?_⟩
      have : l.ptr ≠ some p := fun e => hp (by simp [ctxIds, Frame.sib, ptr_mem e])
      simp [Node.link, ctxDir, Frame.dir, this]

theorem goodS_withRoot [Inhabited K] [Inhabited V] {t : RBTree K V} {C : List (Frame K V)}
    {x : Tree K V} (h : GoodAt t C x) : GoodS (withRoot t) t.next C x := by
  obtain ⟨hr, hc, hroot, hnd, hlt⟩ := h
  have hne : ∀ i ∈ x.ids ++ ctxIds C, i ≠ t.next := fun i hi e => by
    have := hlt i hi
    omega
  have hmem : ∀ i ∈ x.ids ++ ctxIds C, (withRoot t).mem i = t.mem i := fun i hi => by
    simp [withRoot, Function.update_apply, hne i hi]
  refine ⟨repr_congr (fun i hi => hmem i (by simp [hi])) hr,
    ctxRepr_congr (fun i hi => hmem i (by simp [hi])) hc, ⟨default, default, ?_⟩, ?_, ?_⟩
  · simp [withRoot, hroot]
  · exact List.nodup_cons.2 ⟨fun hm => hne _ hm rfl, hnd⟩
  · intro i hi
    rcases List.mem_cons.1 hi with e | hi
    · simp [withRoot, e]
    · have := hlt i hi
      simp only [withRoot]
      omega

theorem good_of_goodS {t : RBTree K V} {s : Nat} {T : Tree K V} (h : GoodS t s [] T)
    {rn : Node K V} (hs : t.mem s = some rn) : Good { t with root := rn.link0 } T := by
  obtain ⟨hr, -, ⟨k, v, hs'⟩, hnd, hlt⟩ := h
  rw [hs] at hs'
  have e : rn.link0 = T.ptr := by
    have := Option.some.inj hs'
    rw [this]
    rfl
  exact ⟨hr, trivial, e, (List.nodup_cons.1 hnd).2, fun i hi => hlt i (by simp [hi])⟩

theorem goodS_sentinel {t : RBTree K V} {s : Nat} {C : List (Frame K V)} {x : Tree K V}
    (h : GoodS t s C x) : ∃ rn, t.mem s = some rn :=
  let ⟨_, _, ⟨_, _, hs⟩, _, _⟩ := h
  ⟨_, hs⟩

theorem sibL_of_goodS {t : RBTree K V} {s : Nat} {up : List (Frame K V)} {x : Tree K V} {p : Nat}
    {kp : K} {vp : V} {cp : Bool} {a : Tree K V} {w : Nat} {kw : K} {vw : V} {cw : Bool}
    {z : Tree K V} (h : GoodS t s (Frame.left p kp vp cp (Tree.node a w kw vw cw z) :: up) x) :
    SibL t s up x p kp vp cp a w kw vw cw z (some p) := by
  obtain ⟨hr, ⟨⟨h1, h2, h3, h4⟩, h5⟩, hs, hnd, hlt⟩ := h
  exact ⟨hr, h1, h2, h3, h4, ⟨h5, hs⟩, hnd, hlt⟩

theorem sibR_of_goodS {t : RBTree K V} {s : Nat} {up : List (Frame K V)} {x : Tree K V} {p : Nat}
    {kp : K} {vp : V} {cp : Bool} {a : Tree K V} {w : Nat} {kw : K} {vw : V} {cw : Bool}
    {z : Tree K V} (h : GoodS t s (Frame.right (Tree.node z w kw vw cw a) p kp vp cp :: up) x) :
    SibR t s up x p kp vp cp a w kw vw cw z (some p) := by
  obtain ⟨hr, ⟨⟨h1, h2, h3, h4⟩, h5⟩, hs, hnd, hlt⟩ := h
  exact ⟨hr, h1, h2, h4, h3, ⟨h5, hs⟩, hnd, hlt⟩

theorem plug_append (D E : List (Frame K V)) (x : Tree K V) :
    plug (D ++ E) x = plug E (plug D x) := by
  induction D generalizing x with
  | nil => rfl
  | cons f D ih => exact ih (f.fill x)

theorem ctxIds_append (D E : List (Frame K V)) : ctxIds (D ++ E) = ctxIds D ++ ctxIds E := by
  induction D with
  | nil => rfl
  | cons f D ih => simp [ctxIds, ih]

theorem ctxRoot_append (D E : List (Frame K V)) (hole : Option Nat) :
    ctxRoot (D ++ E) hole = ctxRoot E (ctxRoot D hole) := by
  induction D generalizing hole with
  | nil => rfl
  | cons f D ih => exact ih (some f.id)

theorem ctxPar_append {D : List (Frame K V)} (hD : D ≠ []) (par : Option Nat)
    (E : List (Frame K V)) : ctxPar (D ++ E) = segPar par D := by
  cases D with
  | nil => exact absurd rfl hD
  | cons f D => rfl

theorem segPar_ctxPar (D E : List (Frame K V)) : segPar (ctxPar E) D = ctxPar (D ++ E) := by
  cases D <;> rfl

theorem repr_plug_seg (mem : Nat → Option (Node K V)) (par : Option Nat) (D : List (Frame K V))
    (X : Tree K V) :
    Repr mem par (plug D X) ↔ Repr mem (segPar par D) X ∧ SegRepr mem par D X.ptr := by
  induction D generalizing X with
  | nil => simp [plug, segPar, SegRepr]
  | cons f up ih =>
    cases f <;> simp [plug, ih, segPar, SegRepr, Frame.fill, Repr, Tree.ptr, Frame.id] <;> tauto

theorem ctxRepr_append (mem : Nat → Option (Node K V)) (D E : List (Frame K V))
    (hole : Option Nat) :
    CtxRepr mem (D ++ E) hole ↔
      SegRepr mem (ctxPar E) D hole ∧ CtxRepr mem E (ctxRoot D hole) := by
  induction D generalizing hole with
  | nil => simp [SegRepr, ctxRoot]
  | cons f D ih =>
    cases f <;> simp [CtxRepr, SegRepr, ih, segPar_ctxPar, ctxRoot, and_assoc]

theorem count_plug (D : List (Frame K V)) (X : Tree K V) (a : Nat) :
    List.count a (plug D X).ids = List.count a X.ids + List.count a (ctxIds D) := by
  rw [(ids_plug D X).count_eq a, List.count_append]

theorem segRepr_congr {mem mem' : Nat → Option (Node K V)} {par : Option Nat}
    {D : List (Frame K V)} {hole : Option Nat} (h : ∀ i ∈ ctxIds D, mem' i = mem i)
    (hr : SegRepr mem par D hole) : SegRepr mem' par D hole := by
  induction D generalizing hole with
  | nil => trivial
  | cons f up ih =>
    cases f with
    | left id k v c r =>
      obtain ⟨⟨h1, h2⟩, h3⟩ := hr
      refine ⟨⟨?_, repr_congr (fun i hi => h i (by simp [ctxIds, Frame.sib, hi])) h2⟩,
        ih (fun i hi => h i (by simp [ctxIds, hi])) h3⟩
      rw [h id (by simp [ctxIds])]
      exact h1
    | right l id k v c =>
      obtain ⟨⟨h1, h2⟩, h3⟩ := hr
      refine ⟨⟨?_, repr_congr (fun i hi => h i (by simp [ctxIds, Frame.sib, hi])) h2⟩,
        ih (fun i hi => h i (by simp [ctxIds, hi])) h3⟩
      rw [h id (by simp [ctxIds])]
      exact h1

/-- The node at the top of a path that hangs under `par`: its parent field
holds `par`, and writing that field hangs the path under another node. -/
theorem seg_top {mem : Nat → Option (Node K V)} {par : Option Nat} :
    ∀ {D : List (Frame K V)} {hole : Option Nat} {r : Nat}, SegRepr mem par D hole →
      ctxRoot D hole = some r → D ≠ [] → (ctxIds D).Nodup →
      r ∈ ctxIds D ∧ ∃ rn, mem r = some rn ∧ rn.parent = par ∧
        ∀ (mem' : Nat → Option (Node K V)) (par' : Option Nat),
          mem' r = some { rn with parent := par' } →
          (∀ i ∈ ctxIds D, i ≠ r → mem' i = mem i) → SegRepr mem' par' D hole := by
  intro D
  induction D with
  | nil => intro hole r _ _ h; exact absurd rfl h
  | cons f up ih =>
    intro hole r hs hr _ hnd
    cases up with
    | nil =>
      have e : f.id = r := Option.some.inj hr
      subst e
      cases f with
      | left id k v c s =>
        obtain ⟨⟨h1, h2⟩, -⟩ := hs
        simp only [ctxIds, id_left, Frame.sib, List.append_nil, List.nodup_cons] at hnd
        refine ⟨by simp [ctxIds], _, h1, rfl, fun mem' par' e1 e2 => ⟨⟨e1, ?_⟩, trivial⟩⟩
        refine repr_congr (fun i hi => e2 i (by simp [ctxIds, Frame.sib, hi]) ?_) h2
        rintro rfl
        exact hnd.1 hi
      | right s id k v c =>
        obtain ⟨⟨h1, h2⟩, -⟩ := hs
        simp only [ctxIds, id_right, Frame.sib, List.append_nil, List.nodup_cons] at hnd
        refine ⟨by simp [ctxIds], _, h1, rfl, fun mem' par' e1 e2 => ⟨⟨e1, ?_⟩, trivial⟩⟩
        refine repr_congr (fun i hi => e2 i (by simp [ctxIds, Frame.sib, hi]) ?_) h2
        rintro rfl
        exact hnd.1 hi
    | cons f' up' =>
      have hnd' : (ctxIds (f' :: up')).Nodup := by
        have : ∀ a, List.count a (ctxIds (f' :: up')) ≤ List.count a (ctxIds (f :: f' :: up')) :=
          fun a => by
            simp only [ctxIds, List.count_append, List.count_cons]
            omega
        exact nodup_of_count_le hnd this
      have hdj : ∀ i ∈ ctxIds (f' :: up'), i ∉ f.id :: f.sib.ids :=
        disj_of_nodup hnd (f.id :: f.sib.ids) (ctxIds (f' :: up')) (fun a => by
          simp only [ctxIds, List.count_append, List.count_cons]
          omega)
      cases f with
      | left id k v c s =>
        obtain ⟨⟨h1, h2⟩, h3⟩ := hs
        obtain ⟨hm, rn, hrn, hpar, hback⟩ := ih h3 hr (by simp) hnd'
        have hne : ∀ i ∈ id :: s.ids, i ≠ r := fun i hi e => hdj r hm (e ▸ hi)
        refine ⟨by simp [ctxIds, hm] at hm ⊢; tauto, rn, hrn, hpar, fun mem' par' e1 e2 =>
          ⟨⟨?_, ?_⟩, hback mem' par' e1 (fun i hi => e2 i (by simp [ctxIds] at hi ⊢; tauto))⟩⟩
        · rw [e2 id (by simp [ctxIds]) (hne id (by simp))]
          exact h1
        · exact repr_congr (fun i hi => e2 i (by simp [ctxIds, Frame.sib, hi])
            (hne i (by simp [hi]))) h2
      | right s id k v c =>
        obtain ⟨⟨h1, h2⟩, h3⟩ := hs
        obtain ⟨hm, rn, hrn, hpar, hback⟩ := ih h3 hr (by simp) hnd'
        have hne : ∀ i ∈ id :: s.ids, i ≠ r := fun i hi e => hdj r hm (e ▸ hi)
        refine ⟨by simp [ctxIds, hm] at hm ⊢; tauto, rn, hrn, hpar, fun mem' par' e1 e2 =>
          ⟨⟨?_, ?_⟩, hback mem' par' e1 (fun i hi => e2 i (by simp [ctxIds] at hi ⊢; tauto))⟩⟩
        · rw [e2 id (by simp [ctxIds]) (hne id (by simp))]
          exact h1
        · exact repr_congr (fun i hi => e2 i (by simp [ctxIds, Frame.sib, hi])
            (hne i (by simp [hi]))) h2

theorem count_singleton_le {r : Nat} {L : List Nat} (h : r ∈ L) (a : Nat) :
    List.count a [r] ≤ List.count a L := by
  by_cases e : r = a
  · subst e
    have := List.count_pos_iff.2 h
    simp only [List.count_cons_self, List.count_nil]
    omega
  · simp [List.count_cons, e]

theorem allLeft_append {D E : List (Frame K V)} (hD : AllLeft D) (hE : AllLeft E) :
    AllLeft (D ++ E) := by
  induction D with
  | nil => exact hE
  | cons f D ih => exact ⟨hD.1, ih hD.2⟩

/-- Every tree but nil is a path of left steps down to a node without left
child. -/
theorem exists_leftmost (T : Tree K V) (hT : T ≠ Tree.nil) :
    ∃ D m km vm cm mr, T = plug D (Tree.node Tree.nil m km vm cm mr) ∧ AllLeft D := by
  induction T with
  | nil => exact absurd rfl hT
  | node l id k v c r ihl _ =>
    by_cases hl : l = Tree.nil
    · subst hl
      exact ⟨[], id, k, v, c, r, rfl, trivial⟩
    · obtain ⟨D, m, km, vm, cm, mr, e, hD⟩ := ihl hl
      refine ⟨D ++ [Frame.left id k v c r], m, km, vm, cm, mr, ?_,
        allLeft_append hD ⟨rfl, trivial⟩⟩
      rw [plug_append, ← e]
      rfl

theorem leftmost_plug {t : RBTree K V} : ∀ (D : List (Frame K V)) (X : Tree K V) (x : Nat)
    (par : Option Nat) (fuel : Nat), AllLeft D → X.ptr = some x → Repr t.mem par (plug D X) →
    ∃ top, (plug D X).ptr = some top ∧
      leftmost t (fuel + D.length) top = leftmost t fuel x := by
  intro D
  induction D with
  | nil => intro X x par fuel _ hx _; exact ⟨x, hx, rfl⟩
  | cons f up ih =>
    intro X x par fuel hD hx hr
    cases f with
    | right l id k v c => exact absurd hD.1 (by simp [Frame.dir])
    | left id k v c r =>
      obtain ⟨top, h1, h2⟩ := ih (Tree.node X id k v c r) id par (fuel + 1) hD.2 rfl hr
      have hrec := ((repr_plug_seg t.mem par up _).1 hr).1.1
      refine ⟨top, h1, ?_⟩
      have e' : fuel + (Frame.left id k v c r :: up).length = fuel + 1 + up.length := by
        simp only [List.length_cons]
        omega
      rw [e', h2]
      simp [leftmost, getLink, load, hrec, Node.link, hx]

/-- The rotation of a red sibling with `dir = 0`: the sibling `w` moves above
`p`, and the near child of `w` becomes the sibling. -/
theorem rotateRedSibling_L {t : RBTree K V} {s : Nat} {up : List (Frame K V)} {x al ar wr : Tree K
    V} {p a w : Nat} {kp ka kw : K} {vp va vw : V} {cp ca cw : Bool}
    (h : GoodS t s (Frame.left p kp vp cp (Tree.node (Tree.node al a ka va ca ar) w kw vw cw wr) ::
      up) x) :
    ∃ t', rotateRedSibling t p (orRoot (ctxPar up) s) w false = Res.ok (t', w, a) ∧ GoodS t' s
      (Frame.left p kp vp true (Tree.node al a ka va ca ar) :: Frame.left w kw vw false wr ::
      up) x ∧ t'.next = t.next ∧
      (∀ i, i ∉ (s :: (x.ids ++ ctxIds (Frame.left p kp vp cp (Tree.node (Tree.node al a ka va ca
        ar) w kw vw cw wr) :: up))) → t'.mem i = t.mem i) := by
  obtain ⟨hrepr, hctx, hs, hnd, hlt⟩ := h
  have hRx := hrepr
  obtain ⟨⟨hrawp, ⟨hraww, ⟨hrawa, hRal, hRar⟩, hRwr⟩⟩, hcup⟩ := hctx
  have hup : CtxS t.mem s up (some p) := ⟨hcup, hs⟩
  have hRx : Repr t.mem (some p) x := hRx
  have hRal : Repr t.mem (some a) al := hRal
  have hRar : Repr t.mem (some a) ar := hRar
  have hRwr : Repr t.mem (some w) wr := hRwr
  have hp_0 : t.mem p = some ⟨x.ptr, some w, ctxPar up, kp, vp, cp⟩ := hrawp
  have hw_0 : t.mem w = some ⟨some a, wr.ptr, some p, kw, vw, cw⟩ := hraww
  have ha_0 : t.mem a = some ⟨al.ptr, ar.ptr, some w, ka, va, ca⟩ := hrawa
  have hgmem : (orRoot (ctxPar up) s) ∈ (s :: ctxIds up) := orRoot_mem s up
  have hEnd : [p, w, a].Nodup := nodup_of_count_le hnd (fun aa => by simp only [List.count_append, List.count_cons, List.count_nil, Tree.ids, ctxIds, id_left, id_right, Frame.sib, ctxIds_append]; omega)
  have hne_p_w : p ≠ w := by rintro rfl; simp at hEnd
  have hne_p_a : p ≠ a := by rintro rfl; simp at hEnd
  have hne_w_p : w ≠ p := by rintro rfl; simp at hEnd
  have hne_w_a : w ≠ a := by rintro rfl; simp at hEnd
  have hne_a_p : a ≠ p := by rintro rfl; simp at hEnd
  have hne_a_w : a ≠ w := by rintro rfl; simp at hEnd
  have hgW : ∀ j ∈ [p, w, a], j ≠ (orRoot (ctxPar up) s) := ne_of_not_mem_cons hnd hgmem (fun aa => by simp only [List.count_append, List.count_cons, List.count_nil, Tree.ids, ctxIds, id_left, id_right, Frame.sib, ctxIds_append]; omega)
  have hne_p_g : p ≠ (orRoot (ctxPar up) s) := hgW p (by simp)
  have hne_w_g : w ≠ (orRoot (ctxPar up) s) := hgW w (by simp)
  have hne_a_g : a ≠ (orRoot (ctxPar up) s) := hgW a (by simp)
  have hgnd : (s :: ctxIds up).Nodup := nodup_of_count_le hnd (fun aa => by simp only [List.count_append, List.count_cons, List.count_nil, Tree.ids, ctxIds, id_left, id_right, Frame.sib, ctxIds_append]; omega)
  have hgtop : p ∉ ctxIds up := fun hm => disj_of_nodup hnd [p] (ctxIds up) (fun aa => by simp only [List.count_append, List.count_cons, List.count_nil, Tree.ids, ctxIds, id_left, id_right, Frame.sib, ctxIds_append]; omega) p hm (by simp)
  obtain ⟨gn, hg_0, hgl, hrel, hgdir, hback⟩ := ctxS_parent hup hgnd hgtop
  obtain ⟨t1, e1, m1, f1, n1⟩ := setRed_step hw_0 false
  have hw_1 : t1.mem w = some ⟨some a, wr.ptr, some p, kw, vw, false⟩ := m1
  have hp_1 : t1.mem p = some ⟨x.ptr, some w, ctxPar up, kp, vp, cp⟩ := (f1 p hne_p_w).trans (hp_0)
  obtain ⟨t2, e2, m2, f2, n2⟩ := setRed_step hp_1 true
  have hp_2 : t2.mem p = some ⟨x.ptr, some w, ctxPar up, kp, vp, true⟩ := m2
  have hw_2 : t2.mem w = some ⟨some a, wr.ptr, some p, kw, vw, false⟩ := (f2 w hne_w_p).trans (hw_1)
  have r1 : getLink t2 w false = Res.ok (some a) := getLink_eval hw_2 false
  obtain ⟨t3, e3, m3, f3, n3⟩ := setLink_step hp_2 true (some a)
  have hp_3 : t3.mem p = some ⟨x.ptr, some a, ctxPar up, kp, vp, true⟩ := m3
  have hw_3 : t3.mem w = some ⟨some a, wr.ptr, some p, kw, vw, false⟩ := (f3 w hne_w_p).trans (hw_2)
  obtain ⟨t4, e4, m4, f4, n4⟩ := setLink_step hw_3 false (some p)
  have hw_4 : t4.mem w = some ⟨some p, wr.ptr, some p, kw, vw, false⟩ := m4
  have hg_4 : t4.mem (orRoot (ctxPar up) s) = some gn := (f4 (orRoot (ctxPar up) s) hne_w_g.symm).trans ((f3 (orRoot (ctxPar up) s) hne_p_g.symm).trans ((f2 (orRoot (ctxPar up) s) hne_p_g.symm).trans ((f1 (orRoot (ctxPar up) s) hne_w_g.symm).trans (hg_0))))
  obtain ⟨t5, e5, m5, f5, n5⟩ := replaceChild_step hg_4 p w
  have hg_5 : t5.mem (orRoot (ctxPar up) s) = some (relinkRec gn p w) := m5
  have hp_5 : t5.mem p = some ⟨x.ptr, some a, ctxPar up, kp, vp, true⟩ := (f5 p hne_p_g).trans ((f4 p hne_p_w).trans (hp_3))
  have r2 : getParent t5 p = Res.ok (ctxPar up) := getParent_eval hp_5
  have hw_5 : t5.mem w = some ⟨some p, wr.ptr, some p, kw, vw, false⟩ := (f5 w hne_w_g).trans (hw_4)
  obtain ⟨t6, e6, m6, f6, n6⟩ := setParent_step hw_5 (ctxPar up)
  have hw_6 : t6.mem w = some ⟨some p, wr.ptr, ctxPar up, kw, vw, false⟩ := m6
  have hp_6 : t6.mem p = some ⟨x.ptr, some a, ctxPar up, kp, vp, true⟩ := (f6 p hne_p_w).trans (hp_5)
  obtain ⟨t7, e7, m7, f7, n7⟩ := setParent_step hp_6 (some w)
  have hp_7 : t7.mem p = some ⟨x.ptr, some a, some w, kp, vp, true⟩ := m7
  have r3 : getLink t7 p true = Res.ok (some a) := getLink_eval hp_7 true
  have ha_7 : t7.mem a = some ⟨al.ptr, ar.ptr, some w, ka, va, ca⟩ := (f7 a hne_a_p).trans ((f6 a hne_a_w).trans ((f5 a hne_a_g).trans ((f4 a hne_a_w).trans ((f3 a hne_a_p).trans ((f2 a hne_a_p).trans ((f1 a hne_a_w).trans (ha_0)))))))
  obtain ⟨t8, e8, m8, f8, n8⟩ := setParent_step ha_7 (some p)
  have ha_8 : t8.mem a = some ⟨al.ptr, ar.ptr, some p, ka, va, ca⟩ := m8
  have hW_0_8 : ∀ i, i ∉ (orRoot (ctxPar up) s) :: [w, p, a] → t8.mem i = t.mem i := by
    intro i hi
    have hi_g : i ≠ (orRoot (ctxPar up) s) := fun e => hi (by simp [e])
    have hi_w : i ≠ w := fun e => hi (by simp [e])
    have hi_p : i ≠ p := fun e => hi (by simp [e])
    have hi_a : i ≠ a := fun e => hi (by simp [e])
    exact (f8 i hi_a).trans ((f7 i hi_p).trans ((f6 i hi_w).trans ((f5 i hi_g).trans ((f4 i hi_w).trans ((f3 i hi_p).trans ((f2 i hi_p).trans (f1 i hi_w)))))))
  have hnext : t8.next = t.next := n8.trans (n7.trans (n6.trans (n5.trans (n4.trans (n3.trans (n2.trans (n1)))))))
  have hRx_8 : Repr t8.mem (some p) x := keep_repr t.mem hnd [w, p, a] (s :: ctxIds up) (orRoot (ctxPar up) s) hRx hW_0_8 hgmem (fun aa => by simp only [List.count_append, List.count_cons, List.count_nil, Tree.ids, ctxIds, id_left, id_right, Frame.sib, ctxIds_append]; omega) (fun aa => by simp only [List.count_append, List.count_cons, List.count_nil, Tree.ids, ctxIds, id_left, id_right, Frame.sib, ctxIds_append]; omega)
  have hRal_8 : Repr t8.mem (some a) al := keep_repr t.mem hnd [w, p, a] (s :: ctxIds up) (orRoot (ctxPar up) s) hRal hW_0_8 hgmem (fun aa => by simp only [List.count_append, List.count_cons, List.count_nil, Tree.ids, ctxIds, id_left, id_right, Frame.sib, ctxIds_append]; omega) (fun aa => by simp only [List.count_append, List.count_cons, List.count_nil, Tree.ids, ctxIds, id_left, id_right, Frame.sib, ctxIds_append]; omega)
  have hRar_8 : Repr t8.mem (some a) ar := keep_repr t.mem hnd [w, p, a] (s :: ctxIds up) (orRoot (ctxPar up) s) hRar hW_0_8 hgmem (fun aa => by simp only [List.count_append, List.count_cons, List.count_nil, Tree.ids, ctxIds, id_left, id_right, Frame.sib, ctxIds_append]; omega) (fun aa => by simp only [List.count_append, List.count_cons, List.count_nil, Tree.ids, ctxIds, id_left, id_right, Frame.sib, ctxIds_append]; omega)
  have hRwr_8 : Repr t8.mem (some w) wr := keep_repr t.mem hnd [w, p, a] (s :: ctxIds up) (orRoot (ctxPar up) s) hRwr hW_0_8 hgmem (fun aa => by simp only [List.count_append, List.count_cons, List.count_nil, Tree.ids, ctxIds, id_left, id_right, Frame.sib, ctxIds_append]; omega) (fun aa => by simp only [List.count_append, List.count_cons, List.count_nil, Tree.ids, ctxIds, id_left, id_right, Frame.sib, ctxIds_append]; omega)
  have hg_8 : t8.mem (orRoot (ctxPar up) s) = some (relinkRec gn p w) := (f8 (orRoot (ctxPar up) s) hne_a_g.symm).trans ((f7 (orRoot (ctxPar up) s) hne_p_g.symm).trans ((f6 (orRoot (ctxPar up) s) hne_w_g.symm).trans (hg_5)))
  have hup2 : CtxS t8.mem s up (some w) := by
    refine hback t8.mem (some w) ?_ (keep_of_disj hnd [w, p, a] (s :: ctxIds up) (orRoot (ctxPar up) s) hW_0_8 (fun aa => by simp only [List.count_append, List.count_cons, List.count_nil, Tree.ids, ctxIds, id_left, id_right, Frame.sib, ctxIds_append]; omega))
    rw [← hrel w]
    exact hg_8
  have hw_8 : t8.mem w = some ⟨some p, wr.ptr, ctxPar up, kw, vw, false⟩ := (f8 w hne_w_a).trans ((f7 w hne_w_p).trans (hw_6))
  have hp_8 : t8.mem p = some ⟨x.ptr, some a, some w, kp, vp, true⟩ := (f8 p hne_p_a).trans (hp_7)
  have hsubl : ∀ j, List.count j (s :: (x.ids ++ ctxIds (Frame.left p kp vp true (Tree.node al a ka va ca ar) :: Frame.left w kw vw false wr :: up))) ≤ List.count j (s :: (x.ids ++ ctxIds (Frame.left p kp vp cp (Tree.node (Tree.node al a ka va ca ar) w kw vw cw wr) :: up))) := (fun aa => by simp only [List.count_append, List.count_cons, List.count_nil, Tree.ids, ctxIds, id_left, id_right, Frame.sib, ctxIds_append]; omega)
  have hgood : GoodS t8 s (Frame.left p kp vp true (Tree.node al a ka va ca ar) :: Frame.left w kw vw false wr :: up) x :=
    And.intro hRx_8 (And.intro (And.intro (And.intro hp_8 (And.intro ha_8 (And.intro hRal_8 hRar_8))) (And.intro (And.intro hw_8 hRwr_8) hup2.1)) (And.intro hup2.2 (And.intro (nodup_of_count_le hnd hsubl)
      (fun i hi => hnext ▸ hlt i (mem_of_count_le hsubl hi)))))
  have hframe : ∀ i, i ∉ (s :: (x.ids ++ ctxIds (Frame.left p kp vp cp (Tree.node (Tree.node al a ka va ca ar) w kw vw cw wr) :: up))) → t8.mem i = t.mem i := by
    intro i hi
    refine hW_0_8 i (fun hm => hi ?_)
    rcases List.mem_cons.1 hm with e | hm
    · rw [e]
      exact mem_of_count_le (fun aa => by simp only [List.count_append, List.count_cons, List.count_nil, Tree.ids, ctxIds, id_left, id_right, Frame.sib, ctxIds_append]; omega) hgmem
    · exact mem_of_count_le (fun aa => by simp only [List.count_append, List.count_cons, List.count_nil, Tree.ids, ctxIds, id_left, id_right, Frame.sib, ctxIds_append]; omega) hm
  refine ⟨t8, ?_, hgood, hnext, hframe⟩
  simp only [rotateRedSibling, e1, e2, e3, e4, e5, e6, e7, e8, r1, r2, r3, res_bind_ok, res_pure, setParentIf_none, Bool.not_false, Bool.not_true]

/-- The rotation of a red sibling with `dir = 1`: the sibling `w` moves above
`p`, and the near child of `w` becomes the sibling. -/
theorem rotateRedSibling_R {t : RBTree K V} {s : Nat} {up : List (Frame K V)} {x wr ar al : Tree K
    V} {p w a : Nat} {kp kw ka : K} {vp vw va : V} {cp cw ca : Bool}
    (h : GoodS t s (Frame.right (Tree.node wr w kw vw cw (Tree.node ar a ka va ca al)) p kp vp cp ::
      up) x) :
    ∃ t', rotateRedSibling t p (orRoot (ctxPar up) s) w true = Res.ok (t', w, a) ∧ GoodS t' s
      (Frame.right (Tree.node ar a ka va ca al) p kp vp true :: Frame.right wr w kw vw false ::
      up) x ∧ t'.next = t.next ∧
      (∀ i, i ∉ (s :: (x.ids ++ ctxIds (Frame.right (Tree.node wr w kw vw cw (Tree.node ar a ka va
        ca al)) p kp vp cp :: up))) → t'.mem i = t.mem i) := by
  obtain ⟨hrepr, hctx, hs, hnd, hlt⟩ := h
  have hRx := hrepr
  obtain ⟨⟨hrawp, ⟨hraww, hRwr, ⟨hrawa, hRar, hRal⟩⟩⟩, hcup⟩ := hctx
  have hup : CtxS t.mem s up (some p) := ⟨hcup, hs⟩
  have hRx : Repr t.mem (some p) x := hRx
  have hRwr : Repr t.mem (some w) wr := hRwr
  have hRar : Repr t.mem (some a) ar := hRar
  have hRal : Repr t.mem (some a) al := hRal
  have hp_0 : t.mem p = some ⟨some w, x.ptr, ctxPar up, kp, vp, cp⟩ := hrawp
  have hw_0 : t.mem w = some ⟨wr.ptr, some a, some p, kw, vw, cw⟩ := hraww
  have ha_0 : t.mem a = some ⟨ar.ptr, al.ptr, some w, ka, va, ca⟩ := hrawa
  have hgmem : (orRoot (ctxPar up) s) ∈ (s :: ctxIds up) := orRoot_mem s up
  have hEnd : [p, w, a].Nodup := nodup_of_count_le hnd (fun aa => by simp only [List.count_append, List.count_cons, List.count_nil, Tree.ids, ctxIds, id_left, id_right, Frame.sib, ctxIds_append]; omega)
  have hne_p_w : p ≠ w := by rintro rfl; simp at hEnd
  have hne_p_a : p ≠ a := by rintro rfl; simp at hEnd
  have hne_w_p : w ≠ p := by rintro rfl; simp at hEnd
  have hne_w_a : w ≠ a := by rintro rfl; simp at hEnd
  have hne_a_p : a ≠ p := by rintro rfl; simp at hEnd
  have hne_a_w : a ≠ w := by rintro rfl; simp at hEnd
  have hgW : ∀ j ∈ [p, w, a], j ≠ (orRoot (ctxPar up) s) := ne_of_not_mem_cons hnd hgmem (fun aa => by simp only [List.count_append, List.count_cons, List.count_nil, Tree.ids, ctxIds, id_left, id_right, Frame.sib, ctxIds_append]; omega)
  have hne_p_g : p ≠ (orRoot (ctxPar up) s) := hgW p (by simp)
  have hne_w_g : w ≠ (orRoot (ctxPar up) s) := hgW w (by simp)
  have hne_a_g : a ≠ (orRoot (ctxPar up) s) := hgW a (by simp)
  have hgnd : (s :: ctxIds up).Nodup := nodup_of_count_le hnd (fun aa => by simp only [List.count_append, List.count_cons, List.count_nil, Tree.ids, ctxIds, id_left, id_right, Frame.sib, ctxIds_append]; omega)
  have hgtop : p ∉ ctxIds up := fun hm => disj_of_nodup hnd [p] (ctxIds up) (fun aa => by simp only [List.count_append, List.count_cons, List.count_nil, Tree.ids, ctxIds, id_left, id_right, Frame.sib, ctxIds_append]; omega) p hm (by simp)
  obtain ⟨gn, hg_0, hgl, hrel, hgdir, hback⟩ := ctxS_parent hup hgnd hgtop
  obtain ⟨t1, e1, m1, f1, n1⟩ := setRed_step hw_0 false
  have hw_1 : t1.mem w = some ⟨wr.ptr, some a, some p, kw, vw, false⟩ := m1
  have hp_1 : t1.mem p = some ⟨some w, x.ptr, ctxPar up, kp, vp, cp⟩ := (f1 p hne_p_w).trans (hp_0)
  obtain ⟨t2, e2, m2, f2, n2⟩ := setRed_step hp_1 true
  have hp_2 : t2.mem p = some ⟨some w, x.ptr, ctxPar up, kp, vp, true⟩ := m2
  have hw_2 : t2.mem w = some ⟨wr.ptr, some a, some p, kw, vw, false⟩ := (f2 w hne_w_p).trans (hw_1)
  have r1 : getLink t2 w true = Res.ok (some a) := getLink_eval hw_2 true
  obtain ⟨t3, e3, m3, f3, n3⟩ := setLink_step hp_2 false (some a)
  have hp_3 : t3.mem p = some ⟨some a, x.ptr, ctxPar up, kp, vp, true⟩ := m3
  have hw_3 : t3.mem w = some ⟨wr.ptr, some a, some p, kw, vw, false⟩ := (f3 w hne_w_p).trans (hw_2)
  obtain ⟨t4, e4, m4, f4, n4⟩ := setLink_step hw_3 true (some p)
  have hw_4 : t4.mem w = some ⟨wr.ptr, some p, some p, kw, vw, false⟩ := m4
  have hg_4 : t4.mem (orRoot (ctxPar up) s) = some gn := (f4 (orRoot (ctxPar up) s) hne_w_g.symm).trans ((f3 (orRoot (ctxPar up) s) hne_p_g.symm).trans ((f2 (orRoot (ctxPar up) s) hne_p_g.symm).trans ((f1 (orRoot (ctxPar up) s) hne_w_g.symm).trans (hg_0))))
  obtain ⟨t5, e5, m5, f5, n5⟩ := replaceChild_step hg_4 p w
  have hg_5 : t5.mem (orRoot (ctxPar up) s) = some (relinkRec gn p w) := m5
  have hp_5 : t5.mem p = some ⟨some a, x.ptr, ctxPar up, kp, vp, true⟩ := (f5 p hne_p_g).trans ((f4 p hne_p_w).trans (hp_3))
  have r2 : getParent t5 p = Res.ok (ctxPar up) := getParent_eval hp_5
  have hw_5 : t5.mem w = some ⟨wr.ptr, some p, some p, kw, vw, false⟩ := (f5 w hne_w_g).trans (hw_4)
  obtain ⟨t6, e6, m6, f6, n6⟩ := setParent_step hw_5 (ctxPar up)
  have hw_6 : t6.mem w = some ⟨wr.ptr, some p, ctxPar up, kw, vw, false⟩ := m6
  have hp_6 : t6.mem p = some ⟨some a, x.ptr, ctxPar up, kp, vp, true⟩ := (f6 p hne_p_w).trans (hp_5)
  obtain ⟨t7, e7, m7, f7, n7⟩ := setParent_step hp_6 (some w)
  have hp_7 : t7.mem p = some ⟨some a, x.ptr, some w, kp, vp, true⟩ := m7
  have r3 : getLink t7 p false = Res.ok (some a) := getLink_eval hp_7 false
  have ha_7 : t7.mem a = some ⟨ar.ptr, al.ptr, some w, ka, va, ca⟩ := (f7 a hne_a_p).trans ((f6 a hne_a_w).trans ((f5 a hne_a_g).trans ((f4 a hne_a_w).trans ((f3 a hne_a_p).trans ((f2 a hne_a_p).trans ((f1 a hne_a_w).trans (ha_0)))))))
  obtain ⟨t8, e8, m8, f8, n8⟩ := setParent_step ha_7 (some p)
  have ha_8 : t8.mem a = some ⟨ar.ptr, al.ptr, some p, ka, va, ca⟩ := m8
  have hW_0_8 : ∀ i, i ∉ (orRoot (ctxPar up) s) :: [w, p, a] → t8.mem i = t.mem i := by
    intro i hi
    have hi_g : i ≠ (orRoot (ctxPar up) s) := fun e => hi (by simp [e])
    have hi_w : i ≠ w := fun e => hi (by simp [e])
    have hi_p : i ≠ p := fun e => hi (by simp [e])
    have hi_a : i ≠ a := fun e => hi (by simp [e])
    exact (f8 i hi_a).trans ((f7 i hi_p).trans ((f6 i hi_w).trans ((f5 i hi_g).trans ((f4 i hi_w).trans ((f3 i hi_p).trans ((f2 i hi_p).trans (f1 i hi_w)))))))
  have hnext : t8.next = t.next := n8.trans (n7.trans (n6.trans (n5.trans (n4.trans (n3.trans (n2.trans (n1)))))))
  have hRx_8 : Repr t8.mem (some p) x := keep_repr t.mem hnd [w, p, a] (s :: ctxIds up) (orRoot (ctxPar up) s) hRx hW_0_8 hgmem (fun aa => by simp only [List.count_append, List.count_cons, List.count_nil, Tree.ids, ctxIds, id_left, id_right, Frame.sib, ctxIds_append]; omega) (fun aa => by simp only [List.count_append, List.count_cons, List.count_nil, Tree.ids, ctxIds, id_left, id_right, Frame.sib, ctxIds_append]; omega)
  have hRwr_8 : Repr t8.mem (some w) wr := keep_repr t.mem hnd [w, p, a] (s :: ctxIds up) (orRoot (ctxPar up) s) hRwr hW_0_8 hgmem (fun aa => by simp only [List.count_append, List.count_cons, List.count_nil, Tree.ids, ctxIds, id_left, id_right, Frame.sib, ctxIds_append]; omega) (fun aa => by simp only [List.count_append, List.count_cons, List.count_nil, Tree.ids, ctxIds, id_left, id_right, Frame.sib, ctxIds_append]; omega)
  have hRar_8 : Repr t8.mem (some a) ar := keep_repr t.mem hnd [w, p, a] (s :: ctxIds up) (orRoot (ctxPar up) s) hRar hW_0_8 hgmem (fun aa => by simp only [List.count_append, List.count_cons, List.count_nil, Tree.ids, ctxIds, id_left, id_right, Frame.sib, ctxIds_append]; omega) (fun aa => by simp only [List.count_append, List.count_cons, List.count_nil, Tree.ids, ctxIds, id_left, id_right, Frame.sib, ctxIds_append]; omega)
  have hRal_8 : Repr t8.mem (some a) al := keep_repr t.mem hnd [w, p, a] (s :: ctxIds up) (orRoot (ctxPar up) s) hRal hW_0_8 hgmem (fun aa => by simp only [List.count_append, List.count_cons, List.count_nil, Tree.ids, ctxIds, id_left, id_right, Frame.sib, ctxIds_append]; omega) (fun aa => by simp only [List.count_append, List.count_cons, List.count_nil, Tree.ids, ctxIds, id_left, id_right, Frame.sib, ctxIds_append]; omega)
  have hg_8 : t8.mem (orRoot (ctxPar up) s) = some (relinkRec gn p w) := (f8 (orRoot (ctxPar up) s) hne_a_g.symm).trans ((f7 (orRoot (ctxPar up) s) hne_p_g.symm).trans ((f6 (orRoot (ctxPar up) s) hne_w_g.symm).trans (hg_5)))
  have hup2 : CtxS t8.mem s up (some w) := by
    refine hback t8.mem (some w) ?_ (keep_of_disj hnd [w, p, a] (s :: ctxIds up) (orRoot (ctxPar up) s) hW_0_8 (fun aa => by simp only [List.count_append, List.count_cons, List.count_nil, Tree.ids, ctxIds, id_left, id_right, Frame.sib, ctxIds_append]; omega))
    rw [← hrel w]
    exact hg_8
  have hw_8 : t8.mem w = some ⟨wr.ptr, some p, ctxPar up, kw, vw, false⟩ := (f8 w hne_w_a).trans ((f7 w hne_w_p).trans (hw_6))
  have hp_8 : t8.mem p = some ⟨some a, x.ptr, some w, kp, vp, true⟩ := (f8 p hne_p_a).trans (hp_7)
  have hsubl : ∀ j, List.count j (s :: (x.ids ++ ctxIds (Frame.right (Tree.node ar a ka va ca al) p kp vp true :: Frame.right wr w kw vw false :: up))) ≤ List.count j (s :: (x.ids ++ ctxIds (Frame.right (Tree.node wr w kw vw cw (Tree.node ar a ka va ca al)) p kp vp cp :: up))) := (fun aa => by simp only [List.count_append, List.count_cons, List.count_nil, Tree.ids, ctxIds, id_left, id_right, Frame.sib, ctxIds_append]; omega)
  have hgood : GoodS t8 s (Frame.right (Tree.node ar a ka va ca al) p kp vp true :: Frame.right wr w kw vw false :: up) x :=
    And.intro hRx_8 (And.intro (And.intro (And.intro hp_8 (And.intro ha_8 (And.intro hRar_8 hRal_8))) (And.intro (And.intro hw_8 hRwr_8) hup2.1)) (And.intro hup2.2 (And.intro (nodup_of_count_le hnd hsubl)
      (fun i hi => hnext ▸ hlt i (mem_of_count_le hsubl hi)))))
  have hframe : ∀ i, i ∉ (s :: (x.ids ++ ctxIds (Frame.right (Tree.node wr w kw vw cw (Tree.node ar a ka va ca al)) p kp vp cp :: up))) → t8.mem i = t.mem i := by
    intro i hi
    refine hW_0_8 i (fun hm => hi ?_)
    rcases List.mem_cons.1 hm with e | hm
    · rw [e]
      exact mem_of_count_le (fun aa => by simp only [List.count_append, List.count_cons, List.count_nil, Tree.ids, ctxIds, id_left, id_right, Frame.sib, ctxIds_append]; omega) hgmem
    · exact mem_of_count_le (fun aa => by simp only [List.count_append, List.count_cons, List.count_nil, Tree.ids, ctxIds, id_left, id_right, Frame.sib, ctxIds_append]; omega) hm
  refine ⟨t8, ?_, hgood, hnext, hframe⟩
  simp only [rotateRedSibling, e1, e2, e3, e4, e5, e6, e7, e8, r1, r2, r3, res_bind_ok, res_pure, setParentIf_none, Bool.not_false, Bool.not_true]

/-- The statement `w.red = true` of `fixDelete` with `dir = 0`. -/
theorem recolor_L {t : RBTree K V} {s : Nat} {up : List (Frame K V)} {x a z : Tree K V} {p w : Nat}
    {kp kw : K} {vp vw : V} {cp cw : Bool}
    (h : GoodS t s (Frame.left p kp vp cp (Tree.node a w kw vw cw z) :: up) x) :
    ∃ t', setRed t w true = Res.ok t' ∧ GoodS t' s (Frame.left p kp vp cp (Tree.node a w kw vw true
      z) :: up) x ∧ t'.next = t.next ∧
      (∀ i, i ∉ (s :: (x.ids ++ ctxIds (Frame.left p kp vp cp (Tree.node a w kw vw cw z) :: up))) →
        t'.mem i = t.mem i) := by
  obtain ⟨hrepr, hctx, hs, hnd, hlt⟩ := h
  have hRx := hrepr
  obtain ⟨⟨hrawp, ⟨hraww, hRa, hRz⟩⟩, hcup⟩ := hctx
  have hup : CtxS t.mem s up (some p) := ⟨hcup, hs⟩
  have hRx : Repr t.mem (some p) x := hRx
  have hRa : Repr t.mem (some w) a := hRa
  have hRz : Repr t.mem (some w) z := hRz
  have hp_0 : t.mem p = some ⟨x.ptr, some w, ctxPar up, kp, vp, cp⟩ := hrawp
  have hw_0 : t.mem w = some ⟨a.ptr, z.ptr, some p, kw, vw, cw⟩ := hraww
  have hgmem : (orRoot (ctxPar up) s) ∈ (s :: ctxIds up) := orRoot_mem s up
  have hEnd : [p, w].Nodup := nodup_of_count_le hnd (fun aa => by simp only [List.count_append, List.count_cons, List.count_nil, Tree.ids, ctxIds, id_left, id_right, Frame.sib, ctxIds_append]; omega)
  have hne_p_w : p ≠ w := by rintro rfl; simp at hEnd
  have hne_w_p : w ≠ p := by rintro rfl; simp at hEnd
  have hgW : ∀ j ∈ [p, w], j ≠ (orRoot (ctxPar up) s) := ne_of_not_mem_cons hnd hgmem (fun aa => by simp only [List.count_append, List.count_cons, List.count_nil, Tree.ids, ctxIds, id_left, id_right, Frame.sib, ctxIds_append]; omega)
  have hne_p_g : p ≠ (orRoot (ctxPar up) s) := hgW p (by simp)
  have hne_w_g : w ≠ (orRoot (ctxPar up) s) := hgW w (by simp)
  obtain ⟨t1, e1, m1, f1, n1⟩ := setRed_step hw_0 true
  have hw_1 : t1.mem w = some ⟨a.ptr, z.ptr, some p, kw, vw, true⟩ := m1
  have hW_0_1 : ∀ i, i ∉ [w] → t1.mem i = t.mem i := by
    intro i hi
    have hi_w : i ≠ w := fun e => hi (by simp [e])
    exact f1 i hi_w
  have hnext : t1.next = t.next := n1
  have hRx_1 : Repr t1.mem (some p) x := repr_keep t.mem hnd [w] hRx hW_0_1 (fun aa => by simp only [List.count_append, List.count_cons, List.count_nil, Tree.ids, ctxIds, id_left, id_right, Frame.sib, ctxIds_append]; omega)
  have hRa_1 : Repr t1.mem (some w) a := repr_keep t.mem hnd [w] hRa hW_0_1 (fun aa => by simp only [List.count_append, List.count_cons, List.count_nil, Tree.ids, ctxIds, id_left, id_right, Frame.sib, ctxIds_append]; omega)
  have hRz_1 : Repr t1.mem (some w) z := repr_keep t.mem hnd [w] hRz hW_0_1 (fun aa => by simp only [List.count_append, List.count_cons, List.count_nil, Tree.ids, ctxIds, id_left, id_right, Frame.sib, ctxIds_append]; omega)
  have hup2 : CtxS t1.mem s up (some p) := keep_ctxS t.mem hnd [w] hup hW_0_1 (fun aa => by simp only [List.count_append, List.count_cons, List.count_nil, Tree.ids, ctxIds, id_left, id_right, Frame.sib, ctxIds_append]; omega)
  have hp_1 : t1.mem p = some ⟨x.ptr, some w, ctxPar up, kp, vp, cp⟩ := (f1 p hne_p_w).trans (hp_0)
  have hsubl : ∀ j, List.count j (s :: (x.ids ++ ctxIds (Frame.left p kp vp cp (Tree.node a w kw vw true z) :: up))) ≤ List.count j (s :: (x.ids ++ ctxIds (Frame.left p kp vp cp (Tree.node a w kw vw cw z) :: up))) := (fun aa => by simp only [List.count_append, List.count_cons, List.count_nil, Tree.ids, ctxIds, id_left, id_right, Frame.sib, ctxIds_append]; omega)
  have hgood : GoodS t1 s (Frame.left p kp vp cp (Tree.node a w kw vw true z) :: up) x :=
    And.intro hRx_1 (And.intro (And.intro (And.intro hp_1 (And.intro hw_1 (And.intro hRa_1 hRz_1))) hup2.1) (And.intro hup2.2 (And.intro (nodup_of_count_le hnd hsubl)
      (fun i hi => hnext ▸ hlt i (mem_of_count_le hsubl hi)))))
  have hframe : ∀ i, i ∉ (s :: (x.ids ++ ctxIds (Frame.left p kp vp cp (Tree.node a w kw vw cw z) :: up))) → t1.mem i = t.mem i := by
    intro i hi
    refine hW_0_1 i (fun hm => hi ?_)
    exact mem_of_count_le (fun aa => by simp only [List.count_append, List.count_cons, List.count_nil, Tree.ids, ctxIds, id_left, id_right, Frame.sib, ctxIds_append]; omega) hm
  refine ⟨t1, ?_, hgood, hnext, hframe⟩
  simp only [e1, res_bind_ok, res_pure, setParentIf_none, Bool.not_false, Bool.not_true]

/-- The statement `w.red = true` of `fixDelete` with `dir = 1`. -/
theorem recolor_R {t : RBTree K V} {s : Nat} {up : List (Frame K V)} {x z a : Tree K V} {p w : Nat}
    {kp kw : K} {vp vw : V} {cp cw : Bool}
    (h : GoodS t s (Frame.right (Tree.node z w kw vw cw a) p kp vp cp :: up) x) :
    ∃ t', setRed t w true = Res.ok t' ∧ GoodS t' s (Frame.right (Tree.node z w kw vw true a) p kp vp
      cp :: up) x ∧ t'.next = t.next ∧
      (∀ i, i ∉ (s :: (x.ids ++ ctxIds (Frame.right (Tree.node z w kw vw cw a) p kp vp cp :: up))) →
        t'.mem i = t.mem i) := by
  obtain ⟨hrepr, hctx, hs, hnd, hlt⟩ := h
  have hRx := hrepr
  obtain ⟨⟨hrawp, ⟨hraww, hRz, hRa⟩⟩, hcup⟩ := hctx
  have hup : CtxS t.mem s up (some p) := ⟨hcup, hs⟩
  have hRx : Repr t.mem (some p) x := hRx
  have hRz : Repr t.mem (some w) z := hRz
  have hRa : Repr t.mem (some w) a := hRa
  have hp_0 : t.mem p = some ⟨some w, x.ptr, ctxPar up, kp, vp, cp⟩ := hrawp
  have hw_0 : t.mem w = some ⟨z.ptr, a.ptr, some p, kw, vw, cw⟩ := hraww
  have hgmem : (orRoot (ctxPar up) s) ∈ (s :: ctxIds up) := orRoot_mem s up
  have hEnd : [p, w].Nodup := nodup_of_count_le hnd (fun aa => by simp only [List.count_append, List.count_cons, List.count_nil, Tree.ids, ctxIds, id_left, id_right, Frame.sib, ctxIds_append]; omega)
  have hne_p_w : p ≠ w := by rintro rfl; simp at hEnd
  have hne_w_p : w ≠ p := by rintro rfl; simp at hEnd
  have hgW : ∀ j ∈ [p, w], j ≠ (orRoot (ctxPar up) s) := ne_of_not_mem_cons hnd hgmem (fun aa => by simp only [List.count_append, List.count_cons, List.count_nil, Tree.ids, ctxIds, id_left, id_right, Frame.sib, ctxIds_append]; omega)
  have hne_p_g : p ≠ (orRoot (ctxPar up) s) := hgW p (by simp)
  have hne_w_g : w ≠ (orRoot (ctxPar up) s) := hgW w (by simp)
  obtain ⟨t1, e1, m1, f1, n1⟩ := setRed_step hw_0 true
  have hw_1 : t1.mem w = some ⟨z.ptr, a.ptr, some p, kw, vw, true⟩ := m1
  have hW_0_1 : ∀ i, i ∉ [w] → t1.mem i = t.mem i := by
    intro i hi
    have hi_w : i ≠ w := fun e => hi (by simp [e])
    exact f1 i hi_w
  have hnext : t1.next = t.next := n1
  have hRx_1 : Repr t1.mem (some p) x := repr_keep t.mem hnd [w] hRx hW_0_1 (fun aa => by simp only [List.count_append, List.count_cons, List.count_nil, Tree.ids, ctxIds, id_left, id_right, Frame.sib, ctxIds_append]; omega)
  have hRz_1 : Repr t1.mem (some w) z := repr_keep t.mem hnd [w] hRz hW_0_1 (fun aa => by simp only [List.count_append, List.count_cons, List.count_nil, Tree.ids, ctxIds, id_left, id_right, Frame.sib, ctxIds_append]; omega)
  have hRa_1 : Repr t1.mem (some w) a := repr_keep t.mem hnd [w] hRa hW_0_1 (fun aa => by simp only [List.count_append, List.count_cons, List.count_nil, Tree.ids, ctxIds, id_left, id_right, Frame.sib, ctxIds_append]; omega)
  have hup2 : CtxS t1.mem s up (some p) := keep_ctxS t.mem hnd [w] hup hW_0_1 (fun aa => by simp only [List.count_append, List.count_cons, List.count_nil, Tree.ids, ctxIds, id_left, id_right, Frame.sib, ctxIds_append]; omega)
  have hp_1 : t1.mem p = some ⟨some w, x.ptr, ctxPar up, kp, vp, cp⟩ := (f1 p hne_p_w).trans (hp_0)
  have hsubl : ∀ j, List.count j (s :: (x.ids ++ ctxIds (Frame.right (Tree.node z w kw vw true a) p kp vp cp :: up))) ≤ List.count j (s :: (x.ids ++ ctxIds (Frame.right (Tree.node z w kw vw cw a) p kp vp cp :: up))) := (fun aa => by simp only [List.count_append, List.count_cons, List.count_nil, Tree.ids, ctxIds, id_left, id_right, Frame.sib, ctxIds_append]; omega)
  have hgood : GoodS t1 s (Frame.right (Tree.node z w kw vw true a) p kp vp cp :: up) x :=
    And.intro hRx_1 (And.intro (And.intro (And.intro hp_1 (And.intro hw_1 (And.intro hRz_1 hRa_1))) hup2.1) (And.intro hup2.2 (And.intro (nodup_of_count_le hnd hsubl)
      (fun i hi => hnext ▸ hlt i (mem_of_count_le hsubl hi)))))
  have hframe : ∀ i, i ∉ (s :: (x.ids ++ ctxIds (Frame.right (Tree.node z w kw vw cw a) p kp vp cp :: up))) → t1.mem i = t.mem i := by
    intro i hi
    refine hW_0_1 i (fun hm => hi ?_)
    exact mem_of_count_le (fun aa => by simp only [List.count_append, List.count_cons, List.count_nil, Tree.ids, ctxIds, id_left, id_right, Frame.sib, ctxIds_append]; omega) hm
  refine ⟨t1, ?_, hgood, hnext, hframe⟩
  simp only [e1, res_bind_ok, res_pure, setParentIf_none, Bool.not_false, Bool.not_true]

/-- The statement `x.red = false` of `fixDelete`. -/
theorem blacken_hole {t : RBTree K V} {s : Nat} {up : List (Frame K V)} {xl xr : Tree K V} {x : Nat}
    {kx : K} {vx : V} {cx : Bool}
    (h : GoodS t s up (Tree.node xl x kx vx cx xr)) :
    ∃ t', setRed t x false = Res.ok t' ∧ GoodS t' s up (Tree.node xl x kx vx false xr) ∧ t'.next =
      t.next ∧
      (∀ i, i ∉ (s :: ((Tree.node xl x kx vx cx xr).ids ++ ctxIds up)) → t'.mem i = t.mem i) := by
  obtain ⟨hrepr, hctx, hs, hnd, hlt⟩ := h
  obtain ⟨hrawx, hRxl, hRxr⟩ := hrepr
  have hcup := hctx
  have hup : CtxS t.mem s up (some x) := ⟨hcup, hs⟩
  have hRxl : Repr t.mem (some x) xl := hRxl
  have hRxr : Repr t.mem (some x) xr := hRxr
  have hx_0 : t.mem x = some ⟨xl.ptr, xr.ptr, ctxPar up, kx, vx, cx⟩ := hrawx
  have hgmem : (orRoot (ctxPar up) s) ∈ (s :: ctxIds up) := orRoot_mem s up
  have hgW : ∀ j ∈ [x], j ≠ (orRoot (ctxPar up) s) := ne_of_not_mem_cons hnd hgmem (fun aa => by simp only [List.count_append, List.count_cons, List.count_nil, Tree.ids, ctxIds, id_left, id_right, Frame.sib, ctxIds_append]; omega)
  have hne_x_g : x ≠ (orRoot (ctxPar up) s) := hgW x (by simp)
  obtain ⟨t1, e1, m1, f1, n1⟩ := setRed_step hx_0 false
  have hx_1 : t1.mem x = some ⟨xl.ptr, xr.ptr, ctxPar up, kx, vx, false⟩ := m1
  have hW_0_1 : ∀ i, i ∉ [x] → t1.mem i = t.mem i := by
    intro i hi
    have hi_x : i ≠ x := fun e => hi (by simp [e])
    exact f1 i hi_x
  have hnext : t1.next = t.next := n1
  have hRxl_1 : Repr t1.mem (some x) xl := repr_keep t.mem hnd [x] hRxl hW_0_1 (fun aa => by simp only [List.count_append, List.count_cons, List.count_nil, Tree.ids, ctxIds, id_left, id_right, Frame.sib, ctxIds_append]; omega)
  have hRxr_1 : Repr t1.mem (some x) xr := repr_keep t.mem hnd [x] hRxr hW_0_1 (fun aa => by simp only [List.count_append, List.count_cons, List.count_nil, Tree.ids, ctxIds, id_left, id_right, Frame.sib, ctxIds_append]; omega)
  have hup2 : CtxS t1.mem s up (some x) := keep_ctxS t.mem hnd [x] hup hW_0_1 (fun aa => by simp only [List.count_append, List.count_cons, List.count_nil, Tree.ids, ctxIds, id_left, id_right, Frame.sib, ctxIds_append]; omega)
  have hsubl : ∀ j, List.count j (s :: ((Tree.node xl x kx vx false xr).ids ++ ctxIds up)) ≤ List.count j (s :: ((Tree.node xl x kx vx cx xr).ids ++ ctxIds up)) := (fun aa => by simp only [List.count_append, List.count_cons, List.count_nil, Tree.ids, ctxIds, id_left, id_right, Frame.sib, ctxIds_append]; omega)
  have hgood : GoodS t1 s up (Tree.node xl x kx vx false xr) :=
    And.intro (And.intro hx_1 (And.intro hRxl_1 hRxr_1)) (And.intro hup2.1 (And.intro hup2.2 (And.intro (nodup_of_count_le hnd hsubl)
      (fun i hi => hnext ▸ hlt i (mem_of_count_le hsubl hi)))))
  have hframe : ∀ i, i ∉ (s :: ((Tree.node xl x kx vx cx xr).ids ++ ctxIds up)) → t1.mem i = t.mem i := by
    intro i hi
    refine hW_0_1 i (fun hm => hi ?_)
    exact mem_of_count_le (fun aa => by simp only [List.count_append, List.count_cons, List.count_nil, Tree.ids, ctxIds, id_left, id_right, Frame.sib, ctxIds_append]; omega) hm
  refine ⟨t1, ?_, hgood, hnext, hframe⟩
  simp only [e1, res_bind_ok, res_pure, setParentIf_none, Bool.not_false, Bool.not_true]

/-- The rotation of a red near nephew with `dir = 0`: the nephew `y` moves
above `w` and becomes the sibling; its parent field still holds `w`. -/
theorem rotateNephew_L {t : RBTree K V} {s : Nat} {up : List (Frame K V)} {x yn ys wz : Tree K V} {p
    y w : Nat} {kp ky kw : K} {vp vy vw : V} {cp cy cw : Bool}
    (h : GoodS t s (Frame.left p kp vp cp (Tree.node (Tree.node yn y ky vy cy ys) w kw vw cw wz) ::
      up) x) :
    ∃ t', rotateNephew t p w false = Res.ok (t', y) ∧ SibL t' s up x p kp vp cp yn y ky vy false
      (Tree.node ys w kw vw true wz) (some w) ∧ t'.next = t.next ∧
      (∀ i, i ∉ (s :: (x.ids ++ ctxIds (Frame.left p kp vp cp (Tree.node (Tree.node yn y ky vy cy
        ys) w kw vw cw wz) :: up))) → t'.mem i = t.mem i) := by
  obtain ⟨hrepr, hctx, hs, hnd, hlt⟩ := h
  have hRx := hrepr
  obtain ⟨⟨hrawp, ⟨hraww, ⟨hrawy, hRyn, hRys⟩, hRwz⟩⟩, hcup⟩ := hctx
  have hup : CtxS t.mem s up (some p) := ⟨hcup, hs⟩
  have hRx : Repr t.mem (some p) x := hRx
  have hRyn : Repr t.mem (some y) yn := hRyn
  have hRys : Repr t.mem (some y) ys := hRys
  have hRwz : Repr t.mem (some w) wz := hRwz
  have hp_0 : t.mem p = some ⟨x.ptr, some w, ctxPar up, kp, vp, cp⟩ := hrawp
  have hw_0 : t.mem w = some ⟨some y, wz.ptr, some p, kw, vw, cw⟩ := hraww
  have hy_0 : t.mem y = some ⟨yn.ptr, ys.ptr, some w, ky, vy, cy⟩ := hrawy
  have hgmem : (orRoot (ctxPar up) s) ∈ (s :: ctxIds up) := orRoot_mem s up
  have hEnd : [p, w, y].Nodup := nodup_of_count_le hnd (fun aa => by simp only [List.count_append, List.count_cons, List.count_nil, Tree.ids, ctxIds, id_left, id_right, Frame.sib, ctxIds_append]; omega)
  have hne_p_w : p ≠ w := by rintro rfl; simp at hEnd
  have hne_p_y : p ≠ y := by rintro rfl; simp at hEnd
  have hne_w_p : w ≠ p := by rintro rfl; simp at hEnd
  have hne_w_y : w ≠ y := by rintro rfl; simp at hEnd
  have hne_y_p : y ≠ p := by rintro rfl; simp at hEnd
  have hne_y_w : y ≠ w := by rintro rfl; simp at hEnd
  have hgW : ∀ j ∈ [p, w, y], j ≠ (orRoot (ctxPar up) s) := ne_of_not_mem_cons hnd hgmem (fun aa => by simp only [List.count_append, List.count_cons, List.count_nil, Tree.ids, ctxIds, id_left, id_right, Frame.sib, ctxIds_append]; omega)
  have hne_p_g : p ≠ (orRoot (ctxPar up) s) := hgW p (by simp)
  have hne_w_g : w ≠ (orRoot (ctxPar up) s) := hgW w (by simp)
  have hne_y_g : y ≠ (orRoot (ctxPar up) s) := hgW y (by simp)
  have r1 : getLink t w false = Res.ok (some y) := getLink_eval hw_0 false
  obtain ⟨t1, e1, m1, f1, n1⟩ := setRed_step hy_0 false
  have hy_1 : t1.mem y = some ⟨yn.ptr, ys.ptr, some w, ky, vy, false⟩ := m1
  have hw_1 : t1.mem w = some ⟨some y, wz.ptr, some p, kw, vw, cw⟩ := (f1 w hne_w_y).trans (hw_0)
  obtain ⟨t2, e2, m2, f2, n2⟩ := setRed_step hw_1 true
  have hw_2 : t2.mem w = some ⟨some y, wz.ptr, some p, kw, vw, true⟩ := m2
  have hy_2 : t2.mem y = some ⟨yn.ptr, ys.ptr, some w, ky, vy, false⟩ := (f2 y hne_y_w).trans (hy_1)
  have r2 : getLink t2 y true = Res.ok (ys.ptr) := getLink_eval hy_2 true
  obtain ⟨t3, e3, m3, f3, n3⟩ := setLink_step hw_2 false (ys.ptr)
  have hw_3 : t3.mem w = some ⟨ys.ptr, wz.ptr, some p, kw, vw, true⟩ := m3
  have hy_3 : t3.mem y = some ⟨yn.ptr, ys.ptr, some w, ky, vy, false⟩ := (f3 y hne_y_w).trans (hy_2)
  obtain ⟨t4, e4, m4, f4, n4⟩ := setLink_step hy_3 true (some w)
  have hy_4 : t4.mem y = some ⟨yn.ptr, some w, some w, ky, vy, false⟩ := m4
  have hw_4 : t4.mem w = some ⟨ys.ptr, wz.ptr, some p, kw, vw, true⟩ := (f4 w hne_w_y).trans (hw_3)
  have r3 : getLink t4 w false = Res.ok (ys.ptr) := getLink_eval hw_4 false
  have hW_0_4 : ∀ i, i ∉ [y, w] → t4.mem i = t.mem i := by
    intro i hi
    have hi_y : i ≠ y := fun e => hi (by simp [e])
    have hi_w : i ≠ w := fun e => hi (by simp [e])
    exact (f4 i hi_y).trans ((f3 i hi_w).trans ((f2 i hi_w).trans (f1 i hi_y)))
  have hRys_4 : Repr t4.mem (some y) ys := repr_keep t.mem hnd [y, w] hRys hW_0_4 (fun aa => by simp only [List.count_append, List.count_cons, List.count_nil, Tree.ids, ctxIds, id_left, id_right, Frame.sib, ctxIds_append]; omega)
  have hnd_ys : ys.ids.Nodup := nodup_of_count_le hnd (fun aa => by simp only [List.count_append, List.count_cons, List.count_nil, Tree.ids, ctxIds, id_left, id_right, Frame.sib, ctxIds_append]; omega)
  obtain ⟨t5, e5, m5, f5, n5⟩ := setParentIf_tree hRys_4 (some w) hnd_ys
  have hnp_p_ys : ys.ptr ≠ some p := fun e => not_mem_ctx hnd p ys.ids (fun aa => by simp only [List.count_append, List.count_cons, List.count_nil, Tree.ids, ctxIds, id_left, id_right, Frame.sib, ctxIds_append]; omega) (ptr_mem e)
  have hp_5 : t5.mem p = some ⟨x.ptr, some w, ctxPar up, kp, vp, cp⟩ := (f5 p hnp_p_ys).trans ((f4 p hne_p_y).trans ((f3 p hne_p_w).trans ((f2 p hne_p_w).trans ((f1 p hne_p_y).trans (hp_0)))))
  obtain ⟨t6, e6, m6, f6, n6⟩ := setLink_step hp_5 true (some y)
  have hp_6 : t6.mem p = some ⟨x.ptr, some y, ctxPar up, kp, vp, cp⟩ := m6
  have hnp_y_ys : ys.ptr ≠ some y := fun e => not_mem_ctx hnd y ys.ids (fun aa => by simp only [List.count_append, List.count_cons, List.count_nil, Tree.ids, ctxIds, id_left, id_right, Frame.sib, ctxIds_append]; omega) (ptr_mem e)
  have hy_6 : t6.mem y = some ⟨yn.ptr, some w, some w, ky, vy, false⟩ := (f6 y hne_y_p).trans ((f5 y hnp_y_ys).trans (hy_4))
  have r4 : getLink t6 y true = Res.ok (some w) := getLink_eval hy_6 true
  have hnp_w_ys : ys.ptr ≠ some w := fun e => not_mem_ctx hnd w ys.ids (fun aa => by simp only [List.count_append, List.count_cons, List.count_nil, Tree.ids, ctxIds, id_left, id_right, Frame.sib, ctxIds_append]; omega) (ptr_mem e)
  have hw_6 : t6.mem w = some ⟨ys.ptr, wz.ptr, some p, kw, vw, true⟩ := (f6 w hne_w_p).trans ((f5 w hnp_w_ys).trans (hw_4))
  obtain ⟨t7, e7, m7, f7, n7⟩ := setParent_step hw_6 (some y)
  have hw_7 : t7.mem w = some ⟨ys.ptr, wz.ptr, some y, kw, vw, true⟩ := m7
  have hW_0_7 : ∀ i, i ∉ ([y, w, p] ++ ys.ptr.toList) → t7.mem i = t.mem i := by
    intro i hi
    have hi_y : i ≠ y := fun e => hi (by simp [e])
    have hi_w : i ≠ w := fun e => hi (by simp [e])
    have hi_p : i ≠ p := fun e => hi (by simp [e])
    have hi_ys : ys.ptr ≠ some i := fun e => hi (by simp [e])
    exact (f7 i hi_w).trans ((f6 i hi_p).trans ((f5 i hi_ys).trans ((f4 i hi_y).trans ((f3 i hi_w).trans ((f2 i hi_w).trans (f1 i hi_y))))))
  have hnext : t7.next = t.next := n7.trans (n6.trans (n5.trans (n4.trans (n3.trans (n2.trans (n1))))))
  have hRx_7 : Repr t7.mem (some p) x := repr_keep t.mem hnd ([y, w, p] ++ ys.ptr.toList) hRx hW_0_7 (fun aa => by have := count_ptr_le ys aa; simp only [List.count_append, List.count_cons, List.count_nil, Tree.ids, ctxIds, id_left, id_right, Frame.sib, ctxIds_append]; omega)
  have hRyn_7 : Repr t7.mem (some y) yn := repr_keep t.mem hnd ([y, w, p] ++ ys.ptr.toList) hRyn hW_0_7 (fun aa => by have := count_ptr_le ys aa; simp only [List.count_append, List.count_cons, List.count_nil, Tree.ids, ctxIds, id_left, id_right, Frame.sib, ctxIds_append]; omega)
  have hW_5_7 : ∀ i, i ∉ [p, w] → t7.mem i = t5.mem i := by
    intro i hi
    have hi_p : i ≠ p := fun e => hi (by simp [e])
    have hi_w : i ≠ w := fun e => hi (by simp [e])
    exact (f7 i hi_w).trans (f6 i hi_p)
  have hRys_7 : Repr t7.mem (some w) ys := repr_keep t5.mem hnd [p, w] m5 hW_5_7 (fun aa => by simp only [List.count_append, List.count_cons, List.count_nil, Tree.ids, ctxIds, id_left, id_right, Frame.sib, ctxIds_append]; omega)
  have hRwz_7 : Repr t7.mem (some w) wz := repr_keep t.mem hnd ([y, w, p] ++ ys.ptr.toList) hRwz hW_0_7 (fun aa => by have := count_ptr_le ys aa; simp only [List.count_append, List.count_cons, List.count_nil, Tree.ids, ctxIds, id_left, id_right, Frame.sib, ctxIds_append]; omega)
  have hup2 : CtxS t7.mem s up (some p) := keep_ctxS t.mem hnd ([y, w, p] ++ ys.ptr.toList) hup hW_0_7 (fun aa => by have := count_ptr_le ys aa; simp only [List.count_append, List.count_cons, List.count_nil, Tree.ids, ctxIds, id_left, id_right, Frame.sib, ctxIds_append]; omega)
  have hp_7 : t7.mem p = some ⟨x.ptr, some y, ctxPar up, kp, vp, cp⟩ := (f7 p hne_p_w).trans (hp_6)
  have hy_7 : t7.mem y = some ⟨yn.ptr, some w, some w, ky, vy, false⟩ := (f7 y hne_y_w).trans (hy_6)
  have hsubl : ∀ j, List.count j (s :: (x.ids ++ ctxIds (Frame.left p kp vp cp (Tree.node yn y ky vy false (Tree.node ys w kw vw true wz)) :: up))) ≤ List.count j (s :: (x.ids ++ ctxIds (Frame.left p kp vp cp (Tree.node (Tree.node yn y ky vy cy ys) w kw vw cw wz) :: up))) := (fun aa => by simp only [List.count_append, List.count_cons, List.count_nil, Tree.ids, ctxIds, id_left, id_right, Frame.sib, ctxIds_append]; omega)
  have hgood : SibL t7 s up x p kp vp cp yn y ky vy false (Tree.node ys w kw vw true wz) (some w) :=
    And.intro hRx_7 (And.intro hp_7 (And.intro hy_7 (And.intro hRyn_7 (And.intro (And.intro hw_7 (And.intro hRys_7 hRwz_7))
      (And.intro hup2 (And.intro (nodup_of_count_le hnd hsubl)
      (fun i hi => hnext ▸ hlt i (mem_of_count_le hsubl hi))))))))
  have hframe : ∀ i, i ∉ (s :: (x.ids ++ ctxIds (Frame.left p kp vp cp (Tree.node (Tree.node yn y ky vy cy ys) w kw vw cw wz) :: up))) → t7.mem i = t.mem i := by
    intro i hi
    refine hW_0_7 i (fun hm => hi ?_)
    exact mem_of_count_le (fun aa => by have := count_ptr_le ys aa; simp only [List.count_append, List.count_cons, List.count_nil, Tree.ids, ctxIds, id_left, id_right, Frame.sib, ctxIds_append]; omega) hm
  refine ⟨t7, ?_, hgood, hnext, hframe⟩
  simp only [rotateNephew, e1, e2, e3, e4, e5, e6, e7, r1, r2, r3, r4, res_bind_ok, res_pure, setParentIf_none, Bool.not_false, Bool.not_true]

/-- The rotation of a red near nephew with `dir = 1`: the nephew `y` moves
above `w` and becomes the sibling; its parent field still holds `w`. -/
theorem rotateNephew_R {t : RBTree K V} {s : Nat} {up : List (Frame K V)} {x wz ys yn : Tree K V} {p
    w y : Nat} {kp kw ky : K} {vp vw vy : V} {cp cw cy : Bool}
    (h : GoodS t s (Frame.right (Tree.node wz w kw vw cw (Tree.node ys y ky vy cy yn)) p kp vp cp ::
      up) x) :
    ∃ t', rotateNephew t p w true = Res.ok (t', y) ∧ SibR t' s up x p kp vp cp yn y ky vy false
      (Tree.node wz w kw vw true ys) (some w) ∧ t'.next = t.next ∧
      (∀ i, i ∉ (s :: (x.ids ++ ctxIds (Frame.right (Tree.node wz w kw vw cw (Tree.node ys y ky vy
        cy yn)) p kp vp cp :: up))) → t'.mem i = t.mem i) := by
  obtain ⟨hrepr, hctx, hs, hnd, hlt⟩ := h
  have hRx := hrepr
  obtain ⟨⟨hrawp, ⟨hraww, hRwz, ⟨hrawy, hRys, hRyn⟩⟩⟩, hcup⟩ := hctx
  have hup : CtxS t.mem s up (some p) := ⟨hcup, hs⟩
  have hRx : Repr t.mem (some p) x := hRx
  have hRwz : Repr t.mem (some w) wz := hRwz
  have hRys : Repr t.mem (some y) ys := hRys
  have hRyn : Repr t.mem (some y) yn := hRyn
  have hp_0 : t.mem p = some ⟨some w, x.ptr, ctxPar up, kp, vp, cp⟩ := hrawp
  have hw_0 : t.mem w = some ⟨wz.ptr, some y, some p, kw, vw, cw⟩ := hraww
  have hy_0 : t.mem y = some ⟨ys.ptr, yn.ptr, some w, ky, vy, cy⟩ := hrawy
  have hgmem : (orRoot (ctxPar up) s) ∈ (s :: ctxIds up) := orRoot_mem s up
  have hEnd : [p, w, y].Nodup := nodup_of_count_le hnd (fun aa => by simp only [List.count_append, List.count_cons, List.count_nil, Tree.ids, ctxIds, id_left, id_right, Frame.sib, ctxIds_append]; omega)
  have hne_p_w : p ≠ w := by rintro rfl; simp at hEnd
  have hne_p_y : p ≠ y := by rintro rfl; simp at hEnd
  have hne_w_p : w ≠ p := by rintro rfl; simp at hEnd
  have hne_w_y : w ≠ y := by rintro rfl; simp at hEnd
  have hne_y_p : y ≠ p := by rintro rfl; simp at hEnd
  have hne_y_w : y ≠ w := by rintro rfl; simp at hEnd
  have hgW : ∀ j ∈ [p, w, y], j ≠ (orRoot (ctxPar up) s) := ne_of_not_mem_cons hnd hgmem (fun aa => by simp only [List.count_append, List.count_cons, List.count_nil, Tree.ids, ctxIds, id_left, id_right, Frame.sib, ctxIds_append]; omega)
  have hne_p_g : p ≠ (orRoot (ctxPar up) s) := hgW p (by simp)
  have hne_w_g : w ≠ (orRoot (ctxPar up) s) := hgW w (by simp)
  have hne_y_g : y ≠ (orRoot (ctxPar up) s) := hgW y (by simp)
  have r1 : getLink t w true = Res.ok (some y) := getLink_eval hw_0 true
  obtain ⟨t1, e1, m1, f1, n1⟩ := setRed_step hy_0 false
  have hy_1 : t1.mem y = some ⟨ys.ptr, yn.ptr, some w, ky, vy, false⟩ := m1
  have hw_1 : t1.mem w = some ⟨wz.ptr, some y, some p, kw, vw, cw⟩ := (f1 w hne_w_y).trans (hw_0)
  obtain ⟨t2, e2, m2, f2, n2⟩ := setRed_step hw_1 true
  have hw_2 : t2.mem w = some ⟨wz.ptr, some y, some p, kw, vw, true⟩ := m2
  have hy_2 : t2.mem y = some ⟨ys.ptr, yn.ptr, some w, ky, vy, false⟩ := (f2 y hne_y_w).trans (hy_1)
  have r2 : getLink t2 y false = Res.ok (ys.ptr) := getLink_eval hy_2 false
  obtain ⟨t3, e3, m3, f3, n3⟩ := setLink_step hw_2 true (ys.ptr)
  have hw_3 : t3.mem w = some ⟨wz.ptr, ys.ptr, some p, kw, vw, true⟩ := m3
  have hy_3 : t3.mem y = some ⟨ys.ptr, yn.ptr, some w, ky, vy, false⟩ := (f3 y hne_y_w).trans (hy_2)
  obtain ⟨t4, e4, m4, f4, n4⟩ := setLink_step hy_3 false (some w)
  have hy_4 : t4.mem y = some ⟨some w, yn.ptr, some w, ky, vy, false⟩ := m4
  have hw_4 : t4.mem w = some ⟨wz.ptr, ys.ptr, some p, kw, vw, true⟩ := (f4 w hne_w_y).trans (hw_3)
  have r3 : getLink t4 w true = Res.ok (ys.ptr) := getLink_eval hw_4 true
  have hW_0_4 : ∀ i, i ∉ [y, w] → t4.mem i = t.mem i := by
    intro i hi
    have hi_y : i ≠ y := fun e => hi (by simp [e])
    have hi_w : i ≠ w := fun e => hi (by simp [e])
    exact (f4 i hi_y).trans ((f3 i hi_w).trans ((f2 i hi_w).trans (f1 i hi_y)))
  have hRys_4 : Repr t4.mem (some y) ys := repr_keep t.mem hnd [y, w] hRys hW_0_4 (fun aa => by simp only [List.count_append, List.count_cons, List.count_nil, Tree.ids, ctxIds, id_left, id_right, Frame.sib, ctxIds_append]; omega)
  have hnd_ys : ys.ids.Nodup := nodup_of_count_le hnd (fun aa => by simp only [List.count_append, List.count_cons, List.count_nil, Tree.ids, ctxIds, id_left, id_right, Frame.sib, ctxIds_append]; omega)
  obtain ⟨t5, e5, m5, f5, n5⟩ := setParentIf_tree hRys_4 (some w) hnd_ys
  have hnp_p_ys : ys.ptr ≠ some p := fun e => not_mem_ctx hnd p ys.ids (fun aa => by simp only [List.count_append, List.count_cons, List.count_nil, Tree.ids, ctxIds, id_left, id_right, Frame.sib, ctxIds_append]; omega) (ptr_mem e)
  have hp_5 : t5.mem p = some ⟨some w, x.ptr, ctxPar up, kp, vp, cp⟩ := (f5 p hnp_p_ys).trans ((f4 p hne_p_y).trans ((f3 p hne_p_w).trans ((f2 p hne_p_w).trans ((f1 p hne_p_y).trans (hp_0)))))
  obtain ⟨t6, e6, m6, f6, n6⟩ := setLink_step hp_5 false (some y)
  have hp_6 : t6.mem p = some ⟨some y, x.ptr, ctxPar up, kp, vp, cp⟩ := m6
  have hnp_y_ys : ys.ptr ≠ some y := fun e => not_mem_ctx hnd y ys.ids (fun aa => by simp only [List.count_append, List.count_cons, List.count_nil, Tree.ids, ctxIds, id_left, id_right, Frame.sib, ctxIds_append]; omega) (ptr_mem e)
  have hy_6 : t6.mem y = some ⟨some w, yn.ptr, some w, ky, vy, false⟩ := (f6 y hne_y_p).trans ((f5 y hnp_y_ys).trans (hy_4))
  have r4 : getLink t6 y false = Res.ok (some w) := getLink_eval hy_6 false
  have hnp_w_ys : ys.ptr ≠ some w := fun e => not_mem_ctx hnd w ys.ids (fun aa => by simp only [List.count_append, List.count_cons, List.count_nil, Tree.ids, ctxIds, id_left, id_right, Frame.sib, ctxIds_append]; omega) (ptr_mem e)
  have hw_6 : t6.mem w = some ⟨wz.ptr, ys.ptr, some p, kw, vw, true⟩ := (f6 w hne_w_p).trans ((f5 w hnp_w_ys).trans (hw_4))
  obtain ⟨t7, e7, m7, f7, n7⟩ := setParent_step hw_6 (some y)
  have hw_7 : t7.mem w = some ⟨wz.ptr, ys.ptr, some y, kw, vw, true⟩ := m7
  have hW_0_7 : ∀ i, i ∉ ([y, w, p] ++ ys.ptr.toList) → t7.mem i = t.mem i := by
    intro i hi
    have hi_y : i ≠ y := fun e => hi (by simp [e])
    have hi_w : i ≠ w := fun e => hi (by simp [e])
    have hi_p : i ≠ p := fun e => hi (by simp [e])
    have hi_ys : ys.ptr ≠ some i := fun e => hi (by simp [e])
    exact (f7 i hi_w).trans ((f6 i hi_p).trans ((f5 i hi_ys).trans ((f4 i hi_y).trans ((f3 i hi_w).trans ((f2 i hi_w).trans (f1 i hi_y))))))
  have hnext : t7.next = t.next := n7.trans (n6.trans (n5.trans (n4.trans (n3.trans (n2.trans (n1))))))
  have hRx_7 : Repr t7.mem (some p) x := repr_keep t.mem hnd ([y, w, p] ++ ys.ptr.toList) hRx hW_0_7 (fun aa => by have := count_ptr_le ys aa; simp only [List.count_append, List.count_cons, List.count_nil, Tree.ids, ctxIds, id_left, id_right, Frame.sib, ctxIds_append]; omega)
  have hRwz_7 : Repr t7.mem (some w) wz := repr_keep t.mem hnd ([y, w, p] ++ ys.ptr.toList) hRwz hW_0_7 (fun aa => by have := count_ptr_le ys aa; simp only [List.count_append, List.count_cons, List.count_nil, Tree.ids, ctxIds, id_left, id_right, Frame.sib, ctxIds_append]; omega)
  have hW_5_7 : ∀ i, i ∉ [p, w] → t7.mem i = t5.mem i := by
    intro i hi
    have hi_p : i ≠ p := fun e => hi (by simp [e])
    have hi_w : i ≠ w := fun e => hi (by simp [e])
    exact (f7 i hi_w).trans (f6 i hi_p)
  have hRys_7 : Repr t7.mem (some w) ys := repr_keep t5.mem hnd [p, w] m5 hW_5_7 (fun aa => by simp only [List.count_append, List.count_cons, List.count_nil, Tree.ids, ctxIds, id_left, id_right, Frame.sib, ctxIds_append]; omega)
  have hRyn_7 : Repr t7.mem (some y) yn := repr_keep t.mem hnd ([y, w, p] ++ ys.ptr.toList) hRyn hW_0_7 (fun aa => by have := count_ptr_le ys aa; simp only [List.count_append, List.count_cons, List.count_nil, Tree.ids, ctxIds, id_left, id_right, Frame.sib, ctxIds_append]; omega)
  have hup2 : CtxS t7.mem s up (some p) := keep_ctxS t.mem hnd ([y, w, p] ++ ys.ptr.toList) hup hW_0_7 (fun aa => by have := count_ptr_le ys aa; simp only [List.count_append, List.count_cons, List.count_nil, Tree.ids, ctxIds, id_left, id_right, Frame.sib, ctxIds_append]; omega)
  have hp_7 : t7.mem p = some ⟨some y, x.ptr, ctxPar up, kp, vp, cp⟩ := (f7 p hne_p_w).trans (hp_6)
  have hy_7 : t7.mem y = some ⟨some w, yn.ptr, some w, ky, vy, false⟩ := (f7 y hne_y_w).trans (hy_6)
  have hsubl : ∀ j, List.count j (s :: (x.ids ++ ctxIds (Frame.right (Tree.node (Tree.node wz w kw vw true ys) y ky vy false yn) p kp vp cp :: up))) ≤ List.count j (s :: (x.ids ++ ctxIds (Frame.right (Tree.node wz w kw vw cw (Tree.node ys y ky vy cy yn)) p kp vp cp :: up))) := (fun aa => by simp only [List.count_append, List.count_cons, List.count_nil, Tree.ids, ctxIds, id_left, id_right, Frame.sib, ctxIds_append]; omega)
  have hgood : SibR t7 s up x p kp vp cp yn y ky vy false (Tree.node wz w kw vw true ys) (some w) :=
    And.intro hRx_7 (And.intro hp_7 (And.intro hy_7 (And.intro hRyn_7 (And.intro (And.intro hw_7 (And.intro hRwz_7 hRys_7))
      (And.intro hup2 (And.intro (nodup_of_count_le hnd hsubl)
      (fun i hi => hnext ▸ hlt i (mem_of_count_le hsubl hi))))))))
  have hframe : ∀ i, i ∉ (s :: (x.ids ++ ctxIds (Frame.right (Tree.node wz w kw vw cw (Tree.node ys y ky vy cy yn)) p kp vp cp :: up))) → t7.mem i = t.mem i := by
    intro i hi
    refine hW_0_7 i (fun hm => hi ?_)
    exact mem_of_count_le (fun aa => by have := count_ptr_le ys aa; simp only [List.count_append, List.count_cons, List.count_nil, Tree.ids, ctxIds, id_left, id_right, Frame.sib, ctxIds_append]; omega) hm
  refine ⟨t7, ?_, hgood, hnext, hframe⟩
  simp only [rotateNephew, e1, e2, e3, e4, e5, e6, e7, r1, r2, r3, r4, res_bind_ok, res_pure, setParentIf_none, Bool.not_false, Bool.not_true]

/-- The rotation of the sibling with `dir = 0`: the sibling `w` takes the place
and the colour of `p`, and `p` and the far nephew become black. -/
theorem rotateSibling_L {t : RBTree K V} {s : Nat} {up : List (Frame K V)} {x a zn zf : Tree K V} {p
    w z : Nat} {kp kw kz : K} {vp vw vz : V} {cp cw cz : Bool} {wpar : Option Nat}
    (h : SibL t s up x p kp vp cp a w kw vw cw (Tree.node zn z kz vz cz zf) (wpar)) :
    ∃ t', rotateSibling t p (orRoot (ctxPar up) s) w false = Res.ok t' ∧ GoodS t' s up (Tree.node
      (Tree.node x p kp vp false a) w kw vw cp (Tree.node zn z kz vz false zf)) ∧ t'.next =
      t.next ∧
      (∀ i, i ∉ (s :: (x.ids ++ ctxIds (Frame.left p kp vp cp (Tree.node a w kw vw cw (Tree.node zn
        z kz vz cz zf)) :: up))) → t'.mem i = t.mem i) := by
  obtain ⟨hRx, hrawp, hraww, hRa, ⟨hrawz, hRzn, hRzf⟩, hup, hnd, hlt⟩ := h
  have hRx : Repr t.mem (some p) x := hRx
  have hRa : Repr t.mem (some w) a := hRa
  have hRzn : Repr t.mem (some z) zn := hRzn
  have hRzf : Repr t.mem (some z) zf := hRzf
  have hp_0 : t.mem p = some ⟨x.ptr, some w, ctxPar up, kp, vp, cp⟩ := hrawp
  have hw_0 : t.mem w = some ⟨a.ptr, some z, wpar, kw, vw, cw⟩ := hraww
  have hz_0 : t.mem z = some ⟨zn.ptr, zf.ptr, some w, kz, vz, cz⟩ := hrawz
  have hgmem : (orRoot (ctxPar up) s) ∈ (s :: ctxIds up) := orRoot_mem s up
  have hEnd : [p, w, z].Nodup := nodup_of_count_le hnd (fun aa => by simp only [List.count_append, List.count_cons, List.count_nil, Tree.ids, ctxIds, id_left, id_right, Frame.sib, ctxIds_append]; omega)
  have hne_p_w : p ≠ w := by rintro rfl; simp at hEnd
  have hne_p_z : p ≠ z := by rintro rfl; simp at hEnd
  have hne_w_p : w ≠ p := by rintro rfl; simp at hEnd
  have hne_w_z : w ≠ z := by rintro rfl; simp at hEnd
  have hne_z_p : z ≠ p := by rintro rfl; simp at hEnd
  have hne_z_w : z ≠ w := by rintro rfl; simp at hEnd
  have hgW : ∀ j ∈ [p, w, z], j ≠ (orRoot (ctxPar up) s) := ne_of_not_mem_cons hnd hgmem (fun aa => by simp only [List.count_append, List.count_cons, List.count_nil, Tree.ids, ctxIds, id_left, id_right, Frame.sib, ctxIds_append]; omega)
  have hne_p_g : p ≠ (orRoot (ctxPar up) s) := hgW p (by simp)
  have hne_w_g : w ≠ (orRoot (ctxPar up) s) := hgW w (by simp)
  have hne_z_g : z ≠ (orRoot (ctxPar up) s) := hgW z (by simp)
  have hgnd : (s :: ctxIds up).Nodup := nodup_of_count_le hnd (fun aa => by simp only [List.count_append, List.count_cons, List.count_nil, Tree.ids, ctxIds, id_left, id_right, Frame.sib, ctxIds_append]; omega)
  have hgtop : p ∉ ctxIds up := fun hm => disj_of_nodup hnd [p] (ctxIds up) (fun aa => by simp only [List.count_append, List.count_cons, List.count_nil, Tree.ids, ctxIds, id_left, id_right, Frame.sib, ctxIds_append]; omega) p hm (by simp)
  obtain ⟨gn, hg_0, hgl, hrel, hgdir, hback⟩ := ctxS_parent hup hgnd hgtop
  have r1 : load t (some p) = Res.ok ⟨x.ptr, some w, ctxPar up, kp, vp, cp⟩ := load_eval hp_0
  obtain ⟨t1, e1, m1, f1, n1⟩ := setRed_step hw_0 cp
  have hw_1 : t1.mem w = some ⟨a.ptr, some z, wpar, kw, vw, cp⟩ := m1
  have hp_1 : t1.mem p = some ⟨x.ptr, some w, ctxPar up, kp, vp, cp⟩ := (f1 p hne_p_w).trans (hp_0)
  obtain ⟨t2, e2, m2, f2, n2⟩ := setRed_step hp_1 false
  have hp_2 : t2.mem p = some ⟨x.ptr, some w, ctxPar up, kp, vp, false⟩ := m2
  have hw_2 : t2.mem w = some ⟨a.ptr, some z, wpar, kw, vw, cp⟩ := (f2 w hne_w_p).trans (hw_1)
  have r2 : getLink t2 w true = Res.ok (some z) := getLink_eval hw_2 true
  have hz_2 : t2.mem z = some ⟨zn.ptr, zf.ptr, some w, kz, vz, cz⟩ := (f2 z hne_z_p).trans ((f1 z hne_z_w).trans (hz_0))
  obtain ⟨t3, e3, m3, f3, n3⟩ := setRed_step hz_2 false
  have hz_3 : t3.mem z = some ⟨zn.ptr, zf.ptr, some w, kz, vz, false⟩ := m3
  have hw_3 : t3.mem w = some ⟨a.ptr, some z, wpar, kw, vw, cp⟩ := (f3 w hne_w_z).trans (hw_2)
  have r3 : getLink t3 w false = Res.ok (a.ptr) := getLink_eval hw_3 false
  have hp_3 : t3.mem p = some ⟨x.ptr, some w, ctxPar up, kp, vp, false⟩ := (f3 p hne_p_z).trans (hp_2)
  obtain ⟨t4, e4, m4, f4, n4⟩ := setLink_step hp_3 true (a.ptr)
  have hp_4 : t4.mem p = some ⟨x.ptr, a.ptr, ctxPar up, kp, vp, false⟩ := m4
  have hw_4 : t4.mem w = some ⟨a.ptr, some z, wpar, kw, vw, cp⟩ := (f4 w hne_w_p).trans (hw_3)
  obtain ⟨t5, e5, m5, f5, n5⟩ := setLink_step hw_4 false (some p)
  have hw_5 : t5.mem w = some ⟨some p, some z, wpar, kw, vw, cp⟩ := m5
  have hg_5 : t5.mem (orRoot (ctxPar up) s) = some gn := (f5 (orRoot (ctxPar up) s) hne_w_g.symm).trans ((f4 (orRoot (ctxPar up) s) hne_p_g.symm).trans ((f3 (orRoot (ctxPar up) s) hne_z_g.symm).trans ((f2 (orRoot (ctxPar up) s) hne_p_g.symm).trans ((f1 (orRoot (ctxPar up) s) hne_w_g.symm).trans (hg_0)))))
  obtain ⟨t6, e6, m6, f6, n6⟩ := replaceChild_step hg_5 p w
  have hg_6 : t6.mem (orRoot (ctxPar up) s) = some (relinkRec gn p w) := m6
  have hp_6 : t6.mem p = some ⟨x.ptr, a.ptr, ctxPar up, kp, vp, false⟩ := (f6 p hne_p_g).trans ((f5 p hne_p_w).trans (hp_4))
  have r4 : getParent t6 p = Res.ok (ctxPar up) := getParent_eval hp_6
  have hw_6 : t6.mem w = some ⟨some p, some z, wpar, kw, vw, cp⟩ := (f6 w hne_w_g).trans (hw_5)
  obtain ⟨t7, e7, m7, f7, n7⟩ := setParent_step hw_6 (ctxPar up)
  have hw_7 : t7.mem w = some ⟨some p, some z, ctxPar up, kw, vw, cp⟩ := m7
  have hp_7 : t7.mem p = some ⟨x.ptr, a.ptr, ctxPar up, kp, vp, false⟩ := (f7 p hne_p_w).trans (hp_6)
  obtain ⟨t8, e8, m8, f8, n8⟩ := setParent_step hp_7 (some w)
  have hp_8 : t8.mem p = some ⟨x.ptr, a.ptr, some w, kp, vp, false⟩ := m8
  have r5 : getLink t8 p true = Res.ok (a.ptr) := getLink_eval hp_8 true
  have hW_0_8 : ∀ i, i ∉ (orRoot (ctxPar up) s) :: [w, p, z] → t8.mem i = t.mem i := by
    intro i hi
    have hi_g : i ≠ (orRoot (ctxPar up) s) := fun e => hi (by simp [e])
    have hi_w : i ≠ w := fun e => hi (by simp [e])
    have hi_p : i ≠ p := fun e => hi (by simp [e])
    have hi_z : i ≠ z := fun e => hi (by simp [e])
    exact (f8 i hi_p).trans ((f7 i hi_w).trans ((f6 i hi_g).trans ((f5 i hi_w).trans ((f4 i hi_p).trans ((f3 i hi_z).trans ((f2 i hi_p).trans (f1 i hi_w)))))))
  have hRa_8 : Repr t8.mem (some w) a := keep_repr t.mem hnd [w, p, z] (s :: ctxIds up) (orRoot (ctxPar up) s) hRa hW_0_8 hgmem (fun aa => by simp only [List.count_append, List.count_cons, List.count_nil, Tree.ids, ctxIds, id_left, id_right, Frame.sib, ctxIds_append]; omega) (fun aa => by simp only [List.count_append, List.count_cons, List.count_nil, Tree.ids, ctxIds, id_left, id_right, Frame.sib, ctxIds_append]; omega)
  have hnd_a : a.ids.Nodup := nodup_of_count_le hnd (fun aa => by simp only [List.count_append, List.count_cons, List.count_nil, Tree.ids, ctxIds, id_left, id_right, Frame.sib, ctxIds_append]; omega)
  obtain ⟨t9, e9, m9, f9, n9⟩ := setParentIf_tree hRa_8 (some p) hnd_a
  have hW_0_9 : ∀ i, i ∉ (orRoot (ctxPar up) s) :: ([w, p, z] ++ a.ptr.toList) → t9.mem i = t.mem i := by
    intro i hi
    have hi_g : i ≠ (orRoot (ctxPar up) s) := fun e => hi (by simp [e])
    have hi_w : i ≠ w := fun e => hi (by simp [e])
    have hi_p : i ≠ p := fun e => hi (by simp [e])
    have hi_z : i ≠ z := fun e => hi (by simp [e])
    have hi_a : a.ptr ≠ some i := fun e => hi (by simp [e])
    exact (f9 i hi_a).trans ((f8 i hi_p).trans ((f7 i hi_w).trans ((f6 i hi_g).trans ((f5 i hi_w).trans ((f4 i hi_p).trans ((f3 i hi_z).trans ((f2 i hi_p).trans (f1 i hi_w))))))))
  have hnext : t9.next = t.next := n9.trans (n8.trans (n7.trans (n6.trans (n5.trans (n4.trans (n3.trans (n2.trans (n1))))))))
  have hRx_9 : Repr t9.mem (some p) x := keep_repr t.mem hnd ([w, p, z] ++ a.ptr.toList) (s :: ctxIds up) (orRoot (ctxPar up) s) hRx hW_0_9 hgmem (fun aa => by have := count_ptr_le a aa; simp only [List.count_append, List.count_cons, List.count_nil, Tree.ids, ctxIds, id_left, id_right, Frame.sib, ctxIds_append]; omega) (fun aa => by simp only [List.count_append, List.count_cons, List.count_nil, Tree.ids, ctxIds, id_left, id_right, Frame.sib, ctxIds_append]; omega)
  have hRzn_9 : Repr t9.mem (some z) zn := keep_repr t.mem hnd ([w, p, z] ++ a.ptr.toList) (s :: ctxIds up) (orRoot (ctxPar up) s) hRzn hW_0_9 hgmem (fun aa => by have := count_ptr_le a aa; simp only [List.count_append, List.count_cons, List.count_nil, Tree.ids, ctxIds, id_left, id_right, Frame.sib, ctxIds_append]; omega) (fun aa => by simp only [List.count_append, List.count_cons, List.count_nil, Tree.ids, ctxIds, id_left, id_right, Frame.sib, ctxIds_append]; omega)
  have hRzf_9 : Repr t9.mem (some z) zf := keep_repr t.mem hnd ([w, p, z] ++ a.ptr.toList) (s :: ctxIds up) (orRoot (ctxPar up) s) hRzf hW_0_9 hgmem (fun aa => by have := count_ptr_le a aa; simp only [List.count_append, List.count_cons, List.count_nil, Tree.ids, ctxIds, id_left, id_right, Frame.sib, ctxIds_append]; omega) (fun aa => by simp only [List.count_append, List.count_cons, List.count_nil, Tree.ids, ctxIds, id_left, id_right, Frame.sib, ctxIds_append]; omega)
  have hnp_g_a : a.ptr ≠ some (orRoot (ctxPar up) s) := fun e => not_mem_of_count hnd hgmem (fun aa => by simp only [List.count_append, List.count_cons, List.count_nil, Tree.ids, ctxIds, id_left, id_right, Frame.sib, ctxIds_append]; omega) (ptr_mem e)
  have hg_9 : t9.mem (orRoot (ctxPar up) s) = some (relinkRec gn p w) := (f9 (orRoot (ctxPar up) s) hnp_g_a).trans ((f8 (orRoot (ctxPar up) s) hne_p_g.symm).trans ((f7 (orRoot (ctxPar up) s) hne_w_g.symm).trans (hg_6)))
  have hup2 : CtxS t9.mem s up (some w) := by
    refine hback t9.mem (some w) ?_ (keep_of_disj hnd ([w, p, z] ++ a.ptr.toList) (s :: ctxIds up) (orRoot (ctxPar up) s) hW_0_9 (fun aa => by have := count_ptr_le a aa; simp only [List.count_append, List.count_cons, List.count_nil, Tree.ids, ctxIds, id_left, id_right, Frame.sib, ctxIds_append]; omega))
    rw [← hrel w]
    exact hg_9
  have hnp_w_a : a.ptr ≠ some w := fun e => not_mem_ctx hnd w a.ids (fun aa => by simp only [List.count_append, List.count_cons, List.count_nil, Tree.ids, ctxIds, id_left, id_right, Frame.sib, ctxIds_append]; omega) (ptr_mem e)
  have hw_9 : t9.mem w = some ⟨some p, some z, ctxPar up, kw, vw, cp⟩ := (f9 w hnp_w_a).trans ((f8 w hne_w_p).trans (hw_7))
  have hnp_p_a : a.ptr ≠ some p := fun e => not_mem_ctx hnd p a.ids (fun aa => by simp only [List.count_append, List.count_cons, List.count_nil, Tree.ids, ctxIds, id_left, id_right, Frame.sib, ctxIds_append]; omega) (ptr_mem e)
  have hp_9 : t9.mem p = some ⟨x.ptr, a.ptr, some w, kp, vp, false⟩ := (f9 p hnp_p_a).trans (hp_8)
  have hnp_z_a : a.ptr ≠ some z := fun e => not_mem_ctx hnd z a.ids (fun aa => by simp only [List.count_append, List.count_cons, List.count_nil, Tree.ids, ctxIds, id_left, id_right, Frame.sib, ctxIds_append]; omega) (ptr_mem e)
  have hz_9 : t9.mem z = some ⟨zn.ptr, zf.ptr, some w, kz, vz, false⟩ := (f9 z hnp_z_a).trans ((f8 z hne_z_p).trans ((f7 z hne_z_w).trans ((f6 z hne_z_g).trans ((f5 z hne_z_w).trans ((f4 z hne_z_p).trans (hz_3))))))
  have hsubl : ∀ j, List.count j (s :: ((Tree.node (Tree.node x p kp vp false a) w kw vw cp (Tree.node zn z kz vz false zf)).ids ++ ctxIds up)) ≤ List.count j (s :: (x.ids ++ ctxIds (Frame.left p kp vp cp (Tree.node a w kw vw cw (Tree.node zn z kz vz cz zf)) :: up))) := (fun aa => by simp only [List.count_append, List.count_cons, List.count_nil, Tree.ids, ctxIds, id_left, id_right, Frame.sib, ctxIds_append]; omega)
  have hgood : GoodS t9 s up (Tree.node (Tree.node x p kp vp false a) w kw vw cp (Tree.node zn z kz vz false zf)) :=
    And.intro (And.intro hw_9 (And.intro (And.intro hp_9 (And.intro hRx_9 m9)) (And.intro hz_9 (And.intro hRzn_9 hRzf_9)))) (And.intro hup2.1 (And.intro hup2.2 (And.intro (nodup_of_count_le hnd hsubl)
      (fun i hi => hnext ▸ hlt i (mem_of_count_le hsubl hi)))))
  have hframe : ∀ i, i ∉ (s :: (x.ids ++ ctxIds (Frame.left p kp vp cp (Tree.node a w kw vw cw (Tree.node zn z kz vz cz zf)) :: up))) → t9.mem i = t.mem i := by
    intro i hi
    refine hW_0_9 i (fun hm => hi ?_)
    rcases List.mem_cons.1 hm with e | hm
    · rw [e]
      exact mem_of_count_le (fun aa => by simp only [List.count_append, List.count_cons, List.count_nil, Tree.ids, ctxIds, id_left, id_right, Frame.sib, ctxIds_append]; omega) hgmem
    · exact mem_of_count_le (fun aa => by have := count_ptr_le a aa; simp only [List.count_append, List.count_cons, List.count_nil, Tree.ids, ctxIds, id_left, id_right, Frame.sib, ctxIds_append]; omega) hm
  refine ⟨t9, ?_, hgood, hnext, hframe⟩
  simp only [rotateSibling, e1, e2, e3, e4, e5, e6, e7, e8, e9, r1, r2, r3, r4, r5, res_bind_ok, res_pure, setParentIf_none, Bool.not_false, Bool.not_true]

/-- The rotation of the sibling with `dir = 1`: the sibling `w` takes the place
and the colour of `p`, and `p` and the far nephew become black. -/
theorem rotateSibling_R {t : RBTree K V} {s : Nat} {up : List (Frame K V)} {x zf zn a : Tree K V} {p
    z w : Nat} {kp kz kw : K} {vp vz vw : V} {cp cz cw : Bool} {wpar : Option Nat}
    (h : SibR t s up x p kp vp cp a w kw vw cw (Tree.node zf z kz vz cz zn) (wpar)) :
    ∃ t', rotateSibling t p (orRoot (ctxPar up) s) w true = Res.ok t' ∧ GoodS t' s up (Tree.node
      (Tree.node zf z kz vz false zn) w kw vw cp (Tree.node a p kp vp false x)) ∧ t'.next =
      t.next ∧
      (∀ i, i ∉ (s :: (x.ids ++ ctxIds (Frame.right (Tree.node (Tree.node zf z kz vz cz zn) w kw vw
        cw a) p kp vp cp :: up))) → t'.mem i = t.mem i) := by
  obtain ⟨hRx, hrawp, hraww, hRa, ⟨hrawz, hRzf, hRzn⟩, hup, hnd, hlt⟩ := h
  have hRx : Repr t.mem (some p) x := hRx
  have hRzf : Repr t.mem (some z) zf := hRzf
  have hRzn : Repr t.mem (some z) zn := hRzn
  have hRa : Repr t.mem (some w) a := hRa
  have hp_0 : t.mem p = some ⟨some w, x.ptr, ctxPar up, kp, vp, cp⟩ := hrawp
  have hw_0 : t.mem w = some ⟨some z, a.ptr, wpar, kw, vw, cw⟩ := hraww
  have hz_0 : t.mem z = some ⟨zf.ptr, zn.ptr, some w, kz, vz, cz⟩ := hrawz
  have hgmem : (orRoot (ctxPar up) s) ∈ (s :: ctxIds up) := orRoot_mem s up
  have hEnd : [p, w, z].Nodup := nodup_of_count_le hnd (fun aa => by simp only [List.count_append, List.count_cons, List.count_nil, Tree.ids, ctxIds, id_left, id_right, Frame.sib, ctxIds_append]; omega)
  have hne_p_w : p ≠ w := by rintro rfl; simp at hEnd
  have hne_p_z : p ≠ z := by rintro rfl; simp at hEnd
  have hne_w_p : w ≠ p := by rintro rfl; simp at hEnd
  have hne_w_z : w ≠ z := by rintro rfl; simp at hEnd
  have hne_z_p : z ≠ p := by rintro rfl; simp at hEnd
  have hne_z_w : z ≠ w := by rintro rfl; simp at hEnd
  have hgW : ∀ j ∈ [p, w, z], j ≠ (orRoot (ctxPar up) s) := ne_of_not_mem_cons hnd hgmem (fun aa => by simp only [List.count_append, List.count_cons, List.count_nil, Tree.ids, ctxIds, id_left, id_right, Frame.sib, ctxIds_append]; omega)
  have hne_p_g : p ≠ (orRoot (ctxPar up) s) := hgW p (by simp)
  have hne_w_g : w ≠ (orRoot (ctxPar up) s) := hgW w (by simp)
  have hne_z_g : z ≠ (orRoot (ctxPar up) s) := hgW z (by simp)
  have hgnd : (s :: ctxIds up).Nodup := nodup_of_count_le hnd (fun aa => by simp only [List.count_append, List.count_cons, List.count_nil, Tree.ids, ctxIds, id_left, id_right, Frame.sib, ctxIds_append]; omega)
  have hgtop : p ∉ ctxIds up := fun hm => disj_of_nodup hnd [p] (ctxIds up) (fun aa => by simp only [List.count_append, List.count_cons, List.count_nil, Tree.ids, ctxIds, id_left, id_right, Frame.sib, ctxIds_append]; omega) p hm (by simp)
  obtain ⟨gn, hg_0, hgl, hrel, hgdir, hback⟩ := ctxS_parent hup hgnd hgtop
  have r1 : load t (some p) = Res.ok ⟨some w, x.ptr, ctxPar up, kp, vp, cp⟩ := load_eval hp_0
  obtain ⟨t1, e1, m1, f1, n1⟩ := setRed_step hw_0 cp
  have hw_1 : t1.mem w = some ⟨some z, a.ptr, wpar, kw, vw, cp⟩ := m1
  have hp_1 : t1.mem p = some ⟨some w, x.ptr, ctxPar up, kp, vp, cp⟩ := (f1 p hne_p_w).trans (hp_0)
  obtain ⟨t2, e2, m2, f2, n2⟩ := setRed_step hp_1 false
  have hp_2 : t2.mem p = some ⟨some w, x.ptr, ctxPar up, kp, vp, false⟩ := m2
  have hw_2 : t2.mem w = some ⟨some z, a.ptr, wpar, kw, vw, cp⟩ := (f2 w hne_w_p).trans (hw_1)
  have r2 : getLink t2 w false = Res.ok (some z) := getLink_eval hw_2 false
  have hz_2 : t2.mem z = some ⟨zf.ptr, zn.ptr, some w, kz, vz, cz⟩ := (f2 z hne_z_p).trans ((f1 z hne_z_w).trans (hz_0))
  obtain ⟨t3, e3, m3, f3, n3⟩ := setRed_step hz_2 false
  have hz_3 : t3.mem z = some ⟨zf.ptr, zn.ptr, some w, kz, vz, false⟩ := m3
  have hw_3 : t3.mem w = some ⟨some z, a.ptr, wpar, kw, vw, cp⟩ := (f3 w hne_w_z).trans (hw_2)
  have r3 : getLink t3 w true = Res.ok (a.ptr) := getLink_eval hw_3 true
  have hp_3 : t3.mem p = some ⟨some w, x.ptr, ctxPar up, kp, vp, false⟩ := (f3 p hne_p_z).trans (hp_2)
  obtain ⟨t4, e4, m4, f4, n4⟩ := setLink_step hp_3 false (a.ptr)
  have hp_4 : t4.mem p = some ⟨a.ptr, x.ptr, ctxPar up, kp, vp, false⟩ := m4
  have hw_4 : t4.mem w = some ⟨some z, a.ptr, wpar, kw, vw, cp⟩ := (f4 w hne_w_p).trans (hw_3)
  obtain ⟨t5, e5, m5, f5, n5⟩ := setLink_step hw_4 true (some p)
  have hw_5 : t5.mem w = some ⟨some z, some p, wpar, kw, vw, cp⟩ := m5
  have hg_5 : t5.mem (orRoot (ctxPar up) s) = some gn := (f5 (orRoot (ctxPar up) s) hne_w_g.symm).trans ((f4 (orRoot (ctxPar up) s) hne_p_g.symm).trans ((f3 (orRoot (ctxPar up) s) hne_z_g.symm).trans ((f2 (orRoot (ctxPar up) s) hne_p_g.symm).trans ((f1 (orRoot (ctxPar up) s) hne_w_g.symm).trans (hg_0)))))
  obtain ⟨t6, e6, m6, f6, n6⟩ := replaceChild_step hg_5 p w
  have hg_6 : t6.mem (orRoot (ctxPar up) s) = some (relinkRec gn p w) := m6
  have hp_6 : t6.mem p = some ⟨a.ptr, x.ptr, ctxPar up, kp, vp, false⟩ := (f6 p hne_p_g).trans ((f5 p hne_p_w).trans (hp_4))
  have r4 : getParent t6 p = Res.ok (ctxPar up) := getParent_eval hp_6
  have hw_6 : t6.mem w = some ⟨some z, some p, wpar, kw, vw, cp⟩ := (f6 w hne_w_g).trans (hw_5)
  obtain ⟨t7, e7, m7, f7, n7⟩ := setParent_step hw_6 (ctxPar up)
  have hw_7 : t7.mem w = some ⟨some z, some p, ctxPar up, kw, vw, cp⟩ := m7
  have hp_7 : t7.mem p = some ⟨a.ptr, x.ptr, ctxPar up, kp, vp, false⟩ := (f7 p hne_p_w).trans (hp_6)
  obtain ⟨t8, e8, m8, f8, n8⟩ := setParent_step hp_7 (some w)
  have hp_8 : t8.mem p = some ⟨a.ptr, x.ptr, some w, kp, vp, false⟩ := m8
  have r5 : getLink t8 p false = Res.ok (a.ptr) := getLink_eval hp_8 false
  have hW_0_8 : ∀ i, i ∉ (orRoot (ctxPar up) s) :: [w, p, z] → t8.mem i = t.mem i := by
    intro i hi
    have hi_g : i ≠ (orRoot (ctxPar up) s) := fun e => hi (by simp [e])
    have hi_w : i ≠ w := fun e => hi (by simp [e])
    have hi_p : i ≠ p := fun e => hi (by simp [e])
    have hi_z : i ≠ z := fun e => hi (by simp [e])
    exact (f8 i hi_p).trans ((f7 i hi_w).trans ((f6 i hi_g).trans ((f5 i hi_w).trans ((f4 i hi_p).trans ((f3 i hi_z).trans ((f2 i hi_p).trans (f1 i hi_w)))))))
  have hRa_8 : Repr t8.mem (some w) a := keep_repr t.mem hnd [w, p, z] (s :: ctxIds up) (orRoot (ctxPar up) s) hRa hW_0_8 hgmem (fun aa => by simp only [List.count_append, List.count_cons, List.count_nil, Tree.ids, ctxIds, id_left, id_right, Frame.sib, ctxIds_append]; omega) (fun aa => by simp only [List.count_append, List.count_cons, List.count_nil, Tree.ids, ctxIds, id_left, id_right, Frame.sib, ctxIds_append]; omega)
  have hnd_a : a.ids.Nodup := nodup_of_count_le hnd (fun aa => by simp only [List.count_append, List.count_cons, List.count_nil, Tree.ids, ctxIds, id_left, id_right, Frame.sib, ctxIds_append]; omega)
  obtain ⟨t9, e9, m9, f9, n9⟩ := setParentIf_tree hRa_8 (some p) hnd_a
  have hW_0_9 : ∀ i, i ∉ (orRoot (ctxPar up) s) :: ([w, p, z] ++ a.ptr.toList) → t9.mem i = t.mem i := by
    intro i hi
    have hi_g : i ≠ (orRoot (ctxPar up) s) := fun e => hi (by simp [e])
    have hi_w : i ≠ w := fun e => hi (by simp [e])
    have hi_p : i ≠ p := fun e => hi (by simp [e])
    have hi_z : i ≠ z := fun e => hi (by simp [e])
    have hi_a : a.ptr ≠ some i := fun e => hi (by simp [e])
    exact (f9 i hi_a).trans ((f8 i hi_p).trans ((f7 i hi_w).trans ((f6 i hi_g).trans ((f5 i hi_w).trans ((f4 i hi_p).trans ((f3 i hi_z).trans ((f2 i hi_p).trans (f1 i hi_w))))))))
  have hnext : t9.next = t.next := n9.trans (n8.trans (n7.trans (n6.trans (n5.trans (n4.trans (n3.trans (n2.trans (n1))))))))
  have hRx_9 : Repr t9.mem (some p) x := keep_repr t.mem hnd ([w, p, z] ++ a.ptr.toList) (s :: ctxIds up) (orRoot (ctxPar up) s) hRx hW_0_9 hgmem (fun aa => by have := count_ptr_le a aa; simp only [List.count_append, List.count_cons, List.count_nil, Tree.ids, ctxIds, id_left, id_right, Frame.sib, ctxIds_append]; omega) (fun aa => by simp only [List.count_append, List.count_cons, List.count_nil, Tree.ids, ctxIds, id_left, id_right, Frame.sib, ctxIds_append]; omega)
  have hRzf_9 : Repr t9.mem (some z) zf := keep_repr t.mem hnd ([w, p, z] ++ a.ptr.toList) (s :: ctxIds up) (orRoot (ctxPar up) s) hRzf hW_0_9 hgmem (fun aa => by have := count_ptr_le a aa; simp only [List.count_append, List.count_cons, List.count_nil, Tree.ids, ctxIds, id_left, id_right, Frame.sib, ctxIds_append]; omega) (fun aa => by simp only [List.count_append, List.count_cons, List.count_nil, Tree.ids, ctxIds, id_left, id_right, Frame.sib, ctxIds_append]; omega)
  have hRzn_9 : Repr t9.mem (some z) zn := keep_repr t.mem hnd ([w, p, z] ++ a.ptr.toList) (s :: ctxIds up) (orRoot (ctxPar up) s) hRzn hW_0_9 hgmem (fun aa => by have := count_ptr_le a aa; simp only [List.count_append, List.count_cons, List.count_nil, Tree.ids, ctxIds, id_left, id_right, Frame.sib, ctxIds_append]; omega) (fun aa => by simp only [List.count_append, List.count_cons, List.count_nil, Tree.ids, ctxIds, id_left, id_right, Frame.sib, ctxIds_append]; omega)
  have hnp_g_a : a.ptr ≠ some (orRoot (ctxPar up) s) := fun e => not_mem_of_count hnd hgmem (fun aa => by simp only [List.count_append, List.count_cons, List.count_nil, Tree.ids, ctxIds, id_left, id_right, Frame.sib, ctxIds_append]; omega) (ptr_mem e)
  have hg_9 : t9.mem (orRoot (ctxPar up) s) = some (relinkRec gn p w) := (f9 (orRoot (ctxPar up) s) hnp_g_a).trans ((f8 (orRoot (ctxPar up) s) hne_p_g.symm).trans ((f7 (orRoot (ctxPar up) s) hne_w_g.symm).trans (hg_6)))
  have hup2 : CtxS t9.mem s up (some w) := by
    refine hback t9.mem (some w) ?_ (keep_of_disj hnd ([w, p, z] ++ a.ptr.toList) (s :: ctxIds up) (orRoot (ctxPar up) s) hW_0_9 (fun aa => by have := count_ptr_le a aa; simp only [List.count_append, List.count_cons, List.count_nil, Tree.ids, ctxIds, id_left, id_right, Frame.sib, ctxIds_append]; omega))
    rw [← hrel w]
    exact hg_9
  have hnp_w_a : a.ptr ≠ some w := fun e => not_mem_ctx hnd w a.ids (fun aa => by simp only [List.count_append, List.count_cons, List.count_nil, Tree.ids, ctxIds, id_left, id_right, Frame.sib, ctxIds_append]; omega) (ptr_mem e)
  have hw_9 : t9.mem w = some ⟨some z, some p, ctxPar up, kw, vw, cp⟩ := (f9 w hnp_w_a).trans ((f8 w hne_w_p).trans (hw_7))
  have hnp_z_a : a.ptr ≠ some z := fun e => not_mem_ctx hnd z a.ids (fun aa => by simp only [List.count_append, List.count_cons, List.count_nil, Tree.ids, ctxIds, id_left, id_right, Frame.sib, ctxIds_append]; omega) (ptr_mem e)
  have hz_9 : t9.mem z = some ⟨zf.ptr, zn.ptr, some w, kz, vz, false⟩ := (f9 z hnp_z_a).trans ((f8 z hne_z_p).trans ((f7 z hne_z_w).trans ((f6 z hne_z_g).trans ((f5 z hne_z_w).trans ((f4 z hne_z_p).trans (hz_3))))))
  have hnp_p_a : a.ptr ≠ some p := fun e => not_mem_ctx hnd p a.ids (fun aa => by simp only [List.count_append, List.count_cons, List.count_nil, Tree.ids, ctxIds, id_left, id_right, Frame.sib, ctxIds_append]; omega) (ptr_mem e)
  have hp_9 : t9.mem p = some ⟨a.ptr, x.ptr, some w, kp, vp, false⟩ := (f9 p hnp_p_a).trans (hp_8)
  have hsubl : ∀ j, List.count j (s :: ((Tree.node (Tree.node zf z kz vz false zn) w kw vw cp (Tree.node a p kp vp false x)).ids ++ ctxIds up)) ≤ List.count j (s :: (x.ids ++ ctxIds (Frame.right (Tree.node (Tree.node zf z kz vz cz zn) w kw vw cw a) p kp vp cp :: up))) := (fun aa => by simp only [List.count_append, List.count_cons, List.count_nil, Tree.ids, ctxIds, id_left, id_right, Frame.sib, ctxIds_append]; omega)
  have hgood : GoodS t9 s up (Tree.node (Tree.node zf z kz vz false zn) w kw vw cp (Tree.node a p kp vp false x)) :=
    And.intro (And.intro hw_9 (And.intro (And.intro hz_9 (And.intro hRzf_9 hRzn_9)) (And.intro hp_9 (And.intro m9 hRx_9)))) (And.intro hup2.1 (And.intro hup2.2 (And.intro (nodup_of_count_le hnd hsubl)
      (fun i hi => hnext ▸ hlt i (mem_of_count_le hsubl hi)))))
  have hframe : ∀ i, i ∉ (s :: (x.ids ++ ctxIds (Frame.right (Tree.node (Tree.node zf z kz vz cz zn) w kw vw cw a) p kp vp cp :: up))) → t9.mem i = t.mem i := by
    intro i hi
    refine hW_0_9 i (fun hm => hi ?_)
    rcases List.mem_cons.1 hm with e | hm
    · rw [e]
      exact mem_of_count_le (fun aa => by simp only [List.count_append, List.count_cons, List.count_nil, Tree.ids, ctxIds, id_left, id_right, Frame.sib, ctxIds_append]; omega) hgmem
    · exact mem_of_count_le (fun aa => by have := count_ptr_le a aa; simp only [List.count_append, List.count_cons, List.count_nil, Tree.ids, ctxIds, id_left, id_right, Frame.sib, ctxIds_append]; omega) hm
  refine ⟨t9, ?_, hgood, hnext, hframe⟩
  simp only [rotateSibling, e1, e2, e3, e4, e5, e6, e7, e8, e9, r1, r2, r3, r4, r5, res_bind_ok, res_pure, setParentIf_none, Bool.not_false, Bool.not_true]

/-- The branch `n.link[1] == nil` of `Delete`: the left subtree of `n` takes
its place. -/
theorem unlinkLeaf_spec {t : RBTree K V} {s : Nat} {up : List (Frame K V)} {l : Tree K V} {n : Nat}
    {kn : K} {vn : V} {cn : Bool}
    (h : GoodS t s up (Tree.node l n kn vn cn (Tree.nil : Tree K V))) :
    ∃ t', unlinkLeaf t n (orRoot (ctxPar up) s) (ctxDir up) = Res.ok (t', (orRoot (ctxPar up) s),
      ctxDir up) ∧ GoodS t' s up l ∧ t'.next = t.next ∧
      (∀ i, i ∉ (s :: ((Tree.node l n kn vn cn (Tree.nil : Tree K V)).ids ++ ctxIds up)) → t'.mem i
        = t.mem i) ∧ t'.mem n = some ⟨l.ptr, none, ctxPar up, kn, vn, cn⟩ := by
  cases l with
  | nil =>
    obtain ⟨hrepr, hctx, hs, hnd, hlt⟩ := h
    obtain ⟨hrawn, -, -⟩ := hrepr
    have hcup := hctx
    have hup : CtxS t.mem s up (some n) := ⟨hcup, hs⟩
    have hn_0 : t.mem n = some ⟨none, none, ctxPar up, kn, vn, cn⟩ := hrawn
    have hgmem : (orRoot (ctxPar up) s) ∈ (s :: ctxIds up) := orRoot_mem s up
    have hgW : ∀ j ∈ [n], j ≠ (orRoot (ctxPar up) s) := ne_of_not_mem_cons hnd hgmem (fun aa => by simp only [List.count_append, List.count_cons, List.count_nil, Tree.ids, ctxIds, id_left, id_right, Frame.sib, ctxIds_append]; omega)
    have hne_n_g : n ≠ (orRoot (ctxPar up) s) := hgW n (by simp)
    have hgnd : (s :: ctxIds up).Nodup := nodup_of_count_le hnd (fun aa => by simp only [List.count_append, List.count_cons, List.count_nil, Tree.ids, ctxIds, id_left, id_right, Frame.sib, ctxIds_append]; omega)
    have hgtop : n ∉ ctxIds up := fun hm => disj_of_nodup hnd [n] (ctxIds up) (fun aa => by simp only [List.count_append, List.count_cons, List.count_nil, Tree.ids, ctxIds, id_left, id_right, Frame.sib, ctxIds_append]; omega) n hm (by simp)
    obtain ⟨gn, hg_0, hgl, hrel, hgdir, hback⟩ := ctxS_parent hup hgnd hgtop
    have r1 : getLink t n false = Res.ok (none) := getLink_eval hn_0 false
    obtain ⟨t1, e1, m1, f1, n1⟩ := setLink_step hg_0 (ctxDir up) (none)
    have hg_1 : t1.mem (orRoot (ctxPar up) s) = some (Node.setLink gn (ctxDir up) (none)) := m1
    have hW_0_1 : ∀ i, i ∉ (orRoot (ctxPar up) s) :: [] → t1.mem i = t.mem i := by
      intro i hi
      have hi_g : i ≠ (orRoot (ctxPar up) s) := fun e => hi (by simp [e])
      exact f1 i hi_g
    have hnext : t1.next = t.next := n1
    have hup2 : CtxS t1.mem s up (none) := by
      refine hback t1.mem (none) ?_ (keep_of_disj hnd [] (s :: ctxIds up) (orRoot (ctxPar up) s) hW_0_1 (fun aa => by simp only [List.count_append, List.count_cons, List.count_nil, Tree.ids, ctxIds, id_left, id_right, Frame.sib, ctxIds_append]; omega))
      exact hg_1
    have hsubl : ∀ j, List.count j (s :: ((Tree.nil : Tree K V).ids ++ ctxIds up)) ≤ List.count j (s :: ((Tree.node (Tree.nil : Tree K V) n kn vn cn (Tree.nil : Tree K V)).ids ++ ctxIds up)) := (fun aa => by simp only [List.count_append, List.count_cons, List.count_nil, Tree.ids, ctxIds, id_left, id_right, Frame.sib, ctxIds_append]; omega)
    have hgood : GoodS t1 s up (Tree.nil : Tree K V) :=
      And.intro trivial (And.intro hup2.1 (And.intro hup2.2 (And.intro (nodup_of_count_le hnd hsubl)
        (fun i hi => hnext ▸ hlt i (mem_of_count_le hsubl hi)))))
    have hframe : ∀ i, i ∉ (s :: ((Tree.node (Tree.nil : Tree K V) n kn vn cn (Tree.nil : Tree K V)).ids ++ ctxIds up)) → t1.mem i = t.mem i := by
      intro i hi
      refine hW_0_1 i (fun hm => hi ?_)
      rcases List.mem_cons.1 hm with e | hm
      · rw [e]
        exact mem_of_count_le (fun aa => by simp only [List.count_append, List.count_cons, List.count_nil, Tree.ids, ctxIds, id_left, id_right, Frame.sib, ctxIds_append]; omega) hgmem
      · exact mem_of_count_le (fun aa => by simp only [List.count_append, List.count_cons, List.count_nil, Tree.ids, ctxIds, id_left, id_right, Frame.sib, ctxIds_append]; omega) hm
    have hn_1 : t1.mem n = some ⟨none, none, ctxPar up, kn, vn, cn⟩ := (f1 n hne_n_g).trans (hn_0)
    refine ⟨t1, ?_, hgood, hnext, hframe, hn_1⟩
    simp only [unlinkLeaf, e1, r1, res_bind_ok, res_pure, setParentIf_none, Bool.not_false, Bool.not_true]
  | node ll li kli vli cli lr =>
    obtain ⟨hrepr, hctx, hs, hnd, hlt⟩ := h
    obtain ⟨hrawn, ⟨hrawli, hRll, hRlr⟩, -⟩ := hrepr
    have hcup := hctx
    have hup : CtxS t.mem s up (some n) := ⟨hcup, hs⟩
    have hRll : Repr t.mem (some li) ll := hRll
    have hRlr : Repr t.mem (some li) lr := hRlr
    have hn_0 : t.mem n = some ⟨some li, none, ctxPar up, kn, vn, cn⟩ := hrawn
    have hli_0 : t.mem li = some ⟨ll.ptr, lr.ptr, some n, kli, vli, cli⟩ := hrawli
    have hgmem : (orRoot (ctxPar up) s) ∈ (s :: ctxIds up) := orRoot_mem s up
    have hEnd : [n, li].Nodup := nodup_of_count_le hnd (fun aa => by simp only [List.count_append, List.count_cons, List.count_nil, Tree.ids, ctxIds, id_left, id_right, Frame.sib, ctxIds_append]; omega)
    have hne_n_li : n ≠ li := by rintro rfl; simp at hEnd
    have hne_li_n : li ≠ n := by rintro rfl; simp at hEnd
    have hgW : ∀ j ∈ [n, li], j ≠ (orRoot (ctxPar up) s) := ne_of_not_mem_cons hnd hgmem (fun aa => by simp only [List.count_append, List.count_cons, List.count_nil, Tree.ids, ctxIds, id_left, id_right, Frame.sib, ctxIds_append]; omega)
    have hne_n_g : n ≠ (orRoot (ctxPar up) s) := hgW n (by simp)
    have hne_li_g : li ≠ (orRoot (ctxPar up) s) := hgW li (by simp)
    have hgnd : (s :: ctxIds up).Nodup := nodup_of_count_le hnd (fun aa => by simp only [List.count_append, List.count_cons, List.count_nil, Tree.ids, ctxIds, id_left, id_right, Frame.sib, ctxIds_append]; omega)
    have hgtop : n ∉ ctxIds up := fun hm => disj_of_nodup hnd [n] (ctxIds up) (fun aa => by simp only [List.count_append, List.count_cons, List.count_nil, Tree.ids, ctxIds, id_left, id_right, Frame.sib, ctxIds_append]; omega) n hm (by simp)
    obtain ⟨gn, hg_0, hgl, hrel, hgdir, hback⟩ := ctxS_parent hup hgnd hgtop
    have r1 : getLink t n false = Res.ok (some li) := getLink_eval hn_0 false
    obtain ⟨t1, e1, m1, f1, n1⟩ := setLink_step hg_0 (ctxDir up) (some li)
    have hg_1 : t1.mem (orRoot (ctxPar up) s) = some (Node.setLink gn (ctxDir up) (some li)) := m1
    have hn_1 : t1.mem n = some ⟨some li, none, ctxPar up, kn, vn, cn⟩ := (f1 n hne_n_g).trans (hn_0)
    have r2 : getParent t1 n = Res.ok (ctxPar up) := getParent_eval hn_1
    have hli_1 : t1.mem li = some ⟨ll.ptr, lr.ptr, some n, kli, vli, cli⟩ := (f1 li hne_li_g).trans (hli_0)
    obtain ⟨t2, e2, m2, f2, n2⟩ := setParent_step hli_1 (ctxPar up)
    have hli_2 : t2.mem li = some ⟨ll.ptr, lr.ptr, ctxPar up, kli, vli, cli⟩ := m2
    have hW_0_2 : ∀ i, i ∉ (orRoot (ctxPar up) s) :: [li] → t2.mem i = t.mem i := by
      intro i hi
      have hi_g : i ≠ (orRoot (ctxPar up) s) := fun e => hi (by simp [e])
      have hi_li : i ≠ li := fun e => hi (by simp [e])
      exact (f2 i hi_li).trans (f1 i hi_g)
    have hnext : t2.next = t.next := n2.trans (n1)
    have hRll_2 : Repr t2.mem (some li) ll := keep_repr t.mem hnd [li] (s :: ctxIds up) (orRoot (ctxPar up) s) hRll hW_0_2 hgmem (fun aa => by simp only [List.count_append, List.count_cons, List.count_nil, Tree.ids, ctxIds, id_left, id_right, Frame.sib, ctxIds_append]; omega) (fun aa => by simp only [List.count_append, List.count_cons, List.count_nil, Tree.ids, ctxIds, id_left, id_right, Frame.sib, ctxIds_append]; omega)
    have hRlr_2 : Repr t2.mem (some li) lr := keep_repr t.mem hnd [li] (s :: ctxIds up) (orRoot (ctxPar up) s) hRlr hW_0_2 hgmem (fun aa => by simp only [List.count_append, List.count_cons, List.count_nil, Tree.ids, ctxIds, id_left, id_right, Frame.sib, ctxIds_append]; omega) (fun aa => by simp only [List.count_append, List.count_cons, List.count_nil, Tree.ids, ctxIds, id_left, id_right, Frame.sib, ctxIds_append]; omega)
    have hg_2 : t2.mem (orRoot (ctxPar up) s) = some (Node.setLink gn (ctxDir up) (some li)) := (f2 (orRoot (ctxPar up) s) hne_li_g.symm).trans (hg_1)
    have hup2 : CtxS t2.mem s up (some li) := by
      refine hback t2.mem (some li) ?_ (keep_of_disj hnd [li] (s :: ctxIds up) (orRoot (ctxPar up) s) hW_0_2 (fun aa => by simp only [List.count_append, List.count_cons, List.count_nil, Tree.ids, ctxIds, id_left, id_right, Frame.sib, ctxIds_append]; omega))
      exact hg_2
    have hsubl : ∀ j, List.count j (s :: ((Tree.node ll li kli vli cli lr).ids ++ ctxIds up)) ≤ List.count j (s :: ((Tree.node (Tree.node ll li kli vli cli lr) n kn vn cn (Tree.nil : Tree K V)).ids ++ ctxIds up)) := (fun aa => by simp only [List.count_append, List.count_cons, List.count_nil, Tree.ids, ctxIds, id_left, id_right, Frame.sib, ctxIds_append]; omega)
    have hgood : GoodS t2 s up (Tree.node ll li kli vli cli lr) :=
      And.intro (And.intro hli_2 (And.intro hRll_2 hRlr_2)) (And.intro hup2.1 (And.intro hup2.2 (And.intro (nodup_of_count_le hnd hsubl)
        (fun i hi => hnext ▸ hlt i (mem_of_count_le hsubl hi)))))
    have hframe : ∀ i, i ∉ (s :: ((Tree.node (Tree.node ll li kli vli cli lr) n kn vn cn (Tree.nil : Tree K V)).ids ++ ctxIds up)) → t2.mem i = t.mem i := by
      intro i hi
      refine hW_0_2 i (fun hm => hi ?_)
      rcases List.mem_cons.1 hm with e | hm
      · rw [e]
        exact mem_of_count_le (fun aa => by simp only [List.count_append, List.count_cons, List.count_nil, Tree.ids, ctxIds, id_left, id_right, Frame.sib, ctxIds_append]; omega) hgmem
      · exact mem_of_count_le (fun aa => by simp only [List.count_append, List.count_cons, List.count_nil, Tree.ids, ctxIds, id_left, id_right, Frame.sib, ctxIds_append]; omega) hm
    have hn_2 : t2.mem n = some ⟨some li, none, ctxPar up, kn, vn, cn⟩ := (f2 n hne_n_li).trans (hn_1)
    refine ⟨t2, ?_, hgood, hnext, hframe, hn_2⟩
    simp only [unlinkLeaf, e1, e2, r1, r2, res_bind_ok, res_pure, setParentIf_none, Bool.not_false, Bool.not_true]

/-- The branch `r.link[0] == nil` of `Delete`: the right child `r` of `n` takes
its place and its colour, and `n` keeps the colour of `r`. -/
theorem unlinkChild_spec {t : RBTree K V} {s : Nat} {up : List (Frame K V)} {l rr : Tree K V} {n r :
    Nat} {kn kr : K} {vn vr : V} {cn cr : Bool}
    (h : GoodS t s up (Tree.node l n kn vn cn (Tree.node (Tree.nil : Tree K V) r kr vr cr rr))) :
    ∃ t', unlinkChild t n (orRoot (ctxPar up) s) (ctxDir up) r = Res.ok (t', r, true) ∧ GoodS t' s
      (Frame.right l r kr vr cn :: up) rr ∧ t'.next = t.next ∧
      (∀ i, i ∉ (s :: ((Tree.node l n kn vn cn (Tree.node (Tree.nil : Tree K V) r kr vr cr rr)).ids
        ++ ctxIds up)) → t'.mem i = t.mem i) ∧ t'.mem n = some ⟨l.ptr, some r, ctxPar up, kn,
        vn, cr⟩ := by
  obtain ⟨hrepr, hctx, hs, hnd, hlt⟩ := h
  obtain ⟨hrawn, hRl, ⟨hrawr, -, hRrr⟩⟩ := hrepr
  have hcup := hctx
  have hup : CtxS t.mem s up (some n) := ⟨hcup, hs⟩
  have hRl : Repr t.mem (some n) l := hRl
  have hRrr : Repr t.mem (some r) rr := hRrr
  have hn_0 : t.mem n = some ⟨l.ptr, some r, ctxPar up, kn, vn, cn⟩ := hrawn
  have hr_0 : t.mem r = some ⟨none, rr.ptr, some n, kr, vr, cr⟩ := hrawr
  have hgmem : (orRoot (ctxPar up) s) ∈ (s :: ctxIds up) := orRoot_mem s up
  have hEnd : [n, r].Nodup := nodup_of_count_le hnd (fun aa => by simp only [List.count_append, List.count_cons, List.count_nil, Tree.ids, ctxIds, id_left, id_right, Frame.sib, ctxIds_append]; omega)
  have hne_n_r : n ≠ r := by rintro rfl; simp at hEnd
  have hne_r_n : r ≠ n := by rintro rfl; simp at hEnd
  have hgW : ∀ j ∈ [n, r], j ≠ (orRoot (ctxPar up) s) := ne_of_not_mem_cons hnd hgmem (fun aa => by simp only [List.count_append, List.count_cons, List.count_nil, Tree.ids, ctxIds, id_left, id_right, Frame.sib, ctxIds_append]; omega)
  have hne_n_g : n ≠ (orRoot (ctxPar up) s) := hgW n (by simp)
  have hne_r_g : r ≠ (orRoot (ctxPar up) s) := hgW r (by simp)
  have hgnd : (s :: ctxIds up).Nodup := nodup_of_count_le hnd (fun aa => by simp only [List.count_append, List.count_cons, List.count_nil, Tree.ids, ctxIds, id_left, id_right, Frame.sib, ctxIds_append]; omega)
  have hgtop : n ∉ ctxIds up := fun hm => disj_of_nodup hnd [n] (ctxIds up) (fun aa => by simp only [List.count_append, List.count_cons, List.count_nil, Tree.ids, ctxIds, id_left, id_right, Frame.sib, ctxIds_append]; omega) n hm (by simp)
  obtain ⟨gn, hg_0, hgl, hrel, hgdir, hback⟩ := ctxS_parent hup hgnd hgtop
  have r1 : getLink t n false = Res.ok (l.ptr) := getLink_eval hn_0 false
  obtain ⟨t1, e1, m1, f1, n1⟩ := setLink_step hr_0 false (l.ptr)
  have hr_1 : t1.mem r = some ⟨l.ptr, rr.ptr, some n, kr, vr, cr⟩ := m1
  have hg_1 : t1.mem (orRoot (ctxPar up) s) = some gn := (f1 (orRoot (ctxPar up) s) hne_r_g.symm).trans (hg_0)
  obtain ⟨t2, e2, m2, f2, n2⟩ := setLink_step hg_1 (ctxDir up) (some r)
  have hg_2 : t2.mem (orRoot (ctxPar up) s) = some (Node.setLink gn (ctxDir up) (some r)) := m2
  have hn_2 : t2.mem n = some ⟨l.ptr, some r, ctxPar up, kn, vn, cn⟩ := (f2 n hne_n_g).trans ((f1 n hne_n_r).trans (hn_0))
  have r2 : getParent t2 n = Res.ok (ctxPar up) := getParent_eval hn_2
  have hr_2 : t2.mem r = some ⟨l.ptr, rr.ptr, some n, kr, vr, cr⟩ := (f2 r hne_r_g).trans (hr_1)
  obtain ⟨t3, e3, m3, f3, n3⟩ := setParent_step hr_2 (ctxPar up)
  have hr_3 : t3.mem r = some ⟨l.ptr, rr.ptr, ctxPar up, kr, vr, cr⟩ := m3
  have r3 : getLink t3 r false = Res.ok (l.ptr) := getLink_eval hr_3 false
  have hW_0_3 : ∀ i, i ∉ (orRoot (ctxPar up) s) :: [r] → t3.mem i = t.mem i := by
    intro i hi
    have hi_g : i ≠ (orRoot (ctxPar up) s) := fun e => hi (by simp [e])
    have hi_r : i ≠ r := fun e => hi (by simp [e])
    exact (f3 i hi_r).trans ((f2 i hi_g).trans (f1 i hi_r))
  have hRl_3 : Repr t3.mem (some n) l := keep_repr t.mem hnd [r] (s :: ctxIds up) (orRoot (ctxPar up) s) hRl hW_0_3 hgmem (fun aa => by simp only [List.count_append, List.count_cons, List.count_nil, Tree.ids, ctxIds, id_left, id_right, Frame.sib, ctxIds_append]; omega) (fun aa => by simp only [List.count_append, List.count_cons, List.count_nil, Tree.ids, ctxIds, id_left, id_right, Frame.sib, ctxIds_append]; omega)
  have hnd_l : l.ids.Nodup := nodup_of_count_le hnd (fun aa => by simp only [List.count_append, List.count_cons, List.count_nil, Tree.ids, ctxIds, id_left, id_right, Frame.sib, ctxIds_append]; omega)
  obtain ⟨t4, e4, m4, f4, n4⟩ := setParentIf_tree hRl_3 (some r) hnd_l
  have hnp_n_l : l.ptr ≠ some n := fun e => not_mem_ctx hnd n l.ids (fun aa => by simp only [List.count_append, List.count_cons, List.count_nil, Tree.ids, ctxIds, id_left, id_right, Frame.sib, ctxIds_append]; omega) (ptr_mem e)
  have hn_4 : t4.mem n = some ⟨l.ptr, some r, ctxPar up, kn, vn, cn⟩ := (f4 n hnp_n_l).trans ((f3 n hne_n_r).trans (hn_2))
  have r4 : load t4 (some n) = Res.ok ⟨l.ptr, some r, ctxPar up, kn, vn, cn⟩ := load_eval hn_4
  have hnp_r_l : l.ptr ≠ some r := fun e => not_mem_ctx hnd r l.ids (fun aa => by simp only [List.count_append, List.count_cons, List.count_nil, Tree.ids, ctxIds, id_left, id_right, Frame.sib, ctxIds_append]; omega) (ptr_mem e)
  have hr_4 : t4.mem r = some ⟨l.ptr, rr.ptr, ctxPar up, kr, vr, cr⟩ := (f4 r hnp_r_l).trans (hr_3)
  have r5 : load t4 (some r) = Res.ok ⟨l.ptr, rr.ptr, ctxPar up, kr, vr, cr⟩ := load_eval hr_4
  obtain ⟨t5, e5, m5, f5, n5⟩ := setRed_step hn_4 cr
  have hn_5 : t5.mem n = some ⟨l.ptr, some r, ctxPar up, kn, vn, cr⟩ := m5
  have hr_5 : t5.mem r = some ⟨l.ptr, rr.ptr, ctxPar up, kr, vr, cr⟩ := (f5 r hne_r_n).trans (hr_4)
  obtain ⟨t6, e6, m6, f6, n6⟩ := setRed_step hr_5 cn
  have hr_6 : t6.mem r = some ⟨l.ptr, rr.ptr, ctxPar up, kr, vr, cn⟩ := m6
  have hW_0_6 : ∀ i, i ∉ (orRoot (ctxPar up) s) :: ([r, n] ++ l.ptr.toList) → t6.mem i = t.mem i := by
    intro i hi
    have hi_g : i ≠ (orRoot (ctxPar up) s) := fun e => hi (by simp [e])
    have hi_r : i ≠ r := fun e => hi (by simp [e])
    have hi_n : i ≠ n := fun e => hi (by simp [e])
    have hi_l : l.ptr ≠ some i := fun e => hi (by simp [e])
    exact (f6 i hi_r).trans ((f5 i hi_n).trans ((f4 i hi_l).trans ((f3 i hi_r).trans ((f2 i hi_g).trans (f1 i hi_r)))))
  have hnext : t6.next = t.next := n6.trans (n5.trans (n4.trans (n3.trans (n2.trans (n1)))))
  have hW_4_6 : ∀ i, i ∉ [n, r] → t6.mem i = t4.mem i := by
    intro i hi
    have hi_n : i ≠ n := fun e => hi (by simp [e])
    have hi_r : i ≠ r := fun e => hi (by simp [e])
    exact (f6 i hi_r).trans (f5 i hi_n)
  have hRl_6 : Repr t6.mem (some r) l := repr_keep t4.mem hnd [n, r] m4 hW_4_6 (fun aa => by simp only [List.count_append, List.count_cons, List.count_nil, Tree.ids, ctxIds, id_left, id_right, Frame.sib, ctxIds_append]; omega)
  have hRrr_6 : Repr t6.mem (some r) rr := keep_repr t.mem hnd ([r, n] ++ l.ptr.toList) (s :: ctxIds up) (orRoot (ctxPar up) s) hRrr hW_0_6 hgmem (fun aa => by have := count_ptr_le l aa; simp only [List.count_append, List.count_cons, List.count_nil, Tree.ids, ctxIds, id_left, id_right, Frame.sib, ctxIds_append]; omega) (fun aa => by simp only [List.count_append, List.count_cons, List.count_nil, Tree.ids, ctxIds, id_left, id_right, Frame.sib, ctxIds_append]; omega)
  have hnp_g_l : l.ptr ≠ some (orRoot (ctxPar up) s) := fun e => not_mem_of_count hnd hgmem (fun aa => by simp only [List.count_append, List.count_cons, List.count_nil, Tree.ids, ctxIds, id_left, id_right, Frame.sib, ctxIds_append]; omega) (ptr_mem e)
  have hg_6 : t6.mem (orRoot (ctxPar up) s) = some (Node.setLink gn (ctxDir up) (some r)) := (f6 (orRoot (ctxPar up) s) hne_r_g.symm).trans ((f5 (orRoot (ctxPar up) s) hne_n_g.symm).trans ((f4 (orRoot (ctxPar up) s) hnp_g_l).trans ((f3 (orRoot (ctxPar up) s) hne_r_g.symm).trans (hg_2))))
  have hup2 : CtxS t6.mem s up (some r) := by
    refine hback t6.mem (some r) ?_ (keep_of_disj hnd ([r, n] ++ l.ptr.toList) (s :: ctxIds up) (orRoot (ctxPar up) s) hW_0_6 (fun aa => by have := count_ptr_le l aa; simp only [List.count_append, List.count_cons, List.count_nil, Tree.ids, ctxIds, id_left, id_right, Frame.sib, ctxIds_append]; omega))
    exact hg_6
  have hsubl : ∀ j, List.count j (s :: (rr.ids ++ ctxIds (Frame.right l r kr vr cn :: up))) ≤ List.count j (s :: ((Tree.node l n kn vn cn (Tree.node (Tree.nil : Tree K V) r kr vr cr rr)).ids ++ ctxIds up)) := (fun aa => by simp only [List.count_append, List.count_cons, List.count_nil, Tree.ids, ctxIds, id_left, id_right, Frame.sib, ctxIds_append]; omega)
  have hgood : GoodS t6 s (Frame.right l r kr vr cn :: up) rr :=
    And.intro hRrr_6 (And.intro (And.intro (And.intro hr_6 hRl_6) hup2.1) (And.intro hup2.2 (And.intro (nodup_of_count_le hnd hsubl)
      (fun i hi => hnext ▸ hlt i (mem_of_count_le hsubl hi)))))
  have hframe : ∀ i, i ∉ (s :: ((Tree.node l n kn vn cn (Tree.node (Tree.nil : Tree K V) r kr vr cr rr)).ids ++ ctxIds up)) → t6.mem i = t.mem i := by
    intro i hi
    refine hW_0_6 i (fun hm => hi ?_)
    rcases List.mem_cons.1 hm with e | hm
    · rw [e]
      exact mem_of_count_le (fun aa => by simp only [List.count_append, List.count_cons, List.count_nil, Tree.ids, ctxIds, id_left, id_right, Frame.sib, ctxIds_append]; omega) hgmem
    · exact mem_of_count_le (fun aa => by have := count_ptr_le l aa; simp only [List.count_append, List.count_cons, List.count_nil, Tree.ids, ctxIds, id_left, id_right, Frame.sib, ctxIds_append]; omega) hm
  have hn_6 : t6.mem n = some ⟨l.ptr, some r, ctxPar up, kn, vn, cr⟩ := (f6 n hne_n_r).trans (hn_5)
  refine ⟨t6, ?_, hgood, hnext, hframe, hn_6⟩
  simp only [unlinkChild, e1, e2, e3, e4, e5, e6, r1, r2, r3, r4, r5, res_bind_ok, res_pure, setParentIf_none, Bool.not_false, Bool.not_true]

/-- The last branch of `Delete` when the successor `m` of `n` is the left child
of the right child `r` of `n`: `m` takes the place and the colour of `n`, and
`n` keeps the colour of `m`. -/
theorem unlinkSucc_near {t : RBTree K V} {s : Nat} {up : List (Frame K V)} {l mr rr : Tree K V} {n m
    r : Nat} {kn km kr : K} {vn vm vr : V} {cn cm cr : Bool}
    (h : GoodS t s up (Tree.node l n kn vn cn (Tree.node (Tree.node (Tree.nil : Tree K V) m km vm cm
      mr) r kr vr cr rr))) :
    ∃ t', unlinkSucc t n (orRoot (ctxPar up) s) (ctxDir up) r = Res.ok (t', r, false) ∧ GoodS t' s
      (Frame.left r kr vr cr rr :: Frame.right l m km vm cn :: up) mr ∧ t'.next = t.next ∧
      (∀ i, i ∉ (s :: ((Tree.node l n kn vn cn (Tree.node (Tree.node (Tree.nil : Tree K V) m km vm
        cm mr) r kr vr cr rr)).ids ++ ctxIds up)) → t'.mem i = t.mem i) ∧ t'.mem n = some
        ⟨l.ptr, some r, ctxPar up, kn, vn, cm⟩ := by
  obtain ⟨hrepr, hctx, hs, hnd, hlt⟩ := h
  obtain ⟨hrawn, hRl, ⟨hrawr, ⟨hrawm, -, hRmr⟩, hRrr⟩⟩ := hrepr
  have hcup := hctx
  have hup : CtxS t.mem s up (some n) := ⟨hcup, hs⟩
  have hRl : Repr t.mem (some n) l := hRl
  have hRmr : Repr t.mem (some m) mr := hRmr
  have hRrr : Repr t.mem (some r) rr := hRrr
  have hn_0 : t.mem n = some ⟨l.ptr, some r, ctxPar up, kn, vn, cn⟩ := hrawn
  have hr_0 : t.mem r = some ⟨some m, rr.ptr, some n, kr, vr, cr⟩ := hrawr
  have hm_0 : t.mem m = some ⟨none, mr.ptr, some r, km, vm, cm⟩ := hrawm
  have hgmem : (orRoot (ctxPar up) s) ∈ (s :: ctxIds up) := orRoot_mem s up
  have hEnd : [n, r, m].Nodup := nodup_of_count_le hnd (fun aa => by simp only [List.count_append, List.count_cons, List.count_nil, Tree.ids, ctxIds, id_left, id_right, Frame.sib, ctxIds_append]; omega)
  have hne_n_r : n ≠ r := by rintro rfl; simp at hEnd
  have hne_n_m : n ≠ m := by rintro rfl; simp at hEnd
  have hne_r_n : r ≠ n := by rintro rfl; simp at hEnd
  have hne_r_m : r ≠ m := by rintro rfl; simp at hEnd
  have hne_m_n : m ≠ n := by rintro rfl; simp at hEnd
  have hne_m_r : m ≠ r := by rintro rfl; simp at hEnd
  have hgW : ∀ j ∈ [n, r, m], j ≠ (orRoot (ctxPar up) s) := ne_of_not_mem_cons hnd hgmem (fun aa => by simp only [List.count_append, List.count_cons, List.count_nil, Tree.ids, ctxIds, id_left, id_right, Frame.sib, ctxIds_append]; omega)
  have hne_n_g : n ≠ (orRoot (ctxPar up) s) := hgW n (by simp)
  have hne_r_g : r ≠ (orRoot (ctxPar up) s) := hgW r (by simp)
  have hne_m_g : m ≠ (orRoot (ctxPar up) s) := hgW m (by simp)
  have hgnd : (s :: ctxIds up).Nodup := nodup_of_count_le hnd (fun aa => by simp only [List.count_append, List.count_cons, List.count_nil, Tree.ids, ctxIds, id_left, id_right, Frame.sib, ctxIds_append]; omega)
  have hgtop : n ∉ ctxIds up := fun hm => disj_of_nodup hnd [n] (ctxIds up) (fun aa => by simp only [List.count_append, List.count_cons, List.count_nil, Tree.ids, ctxIds, id_left, id_right, Frame.sib, ctxIds_append]; omega) n hm (by simp)
  obtain ⟨gn, hg_0, hgl, hrel, hgdir, hback⟩ := ctxS_parent hup hgnd hgtop
  have r1 : getLink t r false = Res.ok (some m) := getLink_eval hr_0 false
  have r2 : leftmost t (t.next + 1) m = Res.ok m := leftmost_stop hm_0 rfl t.next
  have r3 : getParent t m = Res.ok (some r) := getParent_eval hm_0
  have r4 : getLink t m true = Res.ok (mr.ptr) := getLink_eval hm_0 true
  obtain ⟨t1, e1, m1, f1, n1⟩ := setLink_step hr_0 false (mr.ptr)
  have hr_1 : t1.mem r = some ⟨mr.ptr, rr.ptr, some n, kr, vr, cr⟩ := m1
  have hn_1 : t1.mem n = some ⟨l.ptr, some r, ctxPar up, kn, vn, cn⟩ := (f1 n hne_n_r).trans (hn_0)
  have r5 : getLink t1 n false = Res.ok (l.ptr) := getLink_eval hn_1 false
  have hm_1 : t1.mem m = some ⟨none, mr.ptr, some r, km, vm, cm⟩ := (f1 m hne_m_r).trans (hm_0)
  obtain ⟨t2, e2, m2, f2, n2⟩ := setLink_step hm_1 false (l.ptr)
  have hm_2 : t2.mem m = some ⟨l.ptr, mr.ptr, some r, km, vm, cm⟩ := m2
  have hn_2 : t2.mem n = some ⟨l.ptr, some r, ctxPar up, kn, vn, cn⟩ := (f2 n hne_n_m).trans (hn_1)
  have r6 : getLink t2 n true = Res.ok (some r) := getLink_eval hn_2 true
  obtain ⟨t3, e3, m3, f3, n3⟩ := setLink_step hm_2 true (some r)
  have hm_3 : t3.mem m = some ⟨l.ptr, some r, some r, km, vm, cm⟩ := m3
  have hg_3 : t3.mem (orRoot (ctxPar up) s) = some gn := (f3 (orRoot (ctxPar up) s) hne_m_g.symm).trans ((f2 (orRoot (ctxPar up) s) hne_m_g.symm).trans ((f1 (orRoot (ctxPar up) s) hne_r_g.symm).trans (hg_0)))
  obtain ⟨t4, e4, m4, f4, n4⟩ := setLink_step hg_3 (ctxDir up) (some m)
  have hg_4 : t4.mem (orRoot (ctxPar up) s) = some (Node.setLink gn (ctxDir up) (some m)) := m4
  have hm_4 : t4.mem m = some ⟨l.ptr, some r, some r, km, vm, cm⟩ := (f4 m hne_m_g).trans (hm_3)
  have r7 : getLink t4 m false = Res.ok (l.ptr) := getLink_eval hm_4 false
  have hW_0_4 : ∀ i, i ∉ (orRoot (ctxPar up) s) :: [r, m] → t4.mem i = t.mem i := by
    intro i hi
    have hi_g : i ≠ (orRoot (ctxPar up) s) := fun e => hi (by simp [e])
    have hi_r : i ≠ r := fun e => hi (by simp [e])
    have hi_m : i ≠ m := fun e => hi (by simp [e])
    exact (f4 i hi_g).trans ((f3 i hi_m).trans ((f2 i hi_m).trans (f1 i hi_r)))
  have hRl_4 : Repr t4.mem (some n) l := keep_repr t.mem hnd [r, m] (s :: ctxIds up) (orRoot (ctxPar up) s) hRl hW_0_4 hgmem (fun aa => by simp only [List.count_append, List.count_cons, List.count_nil, Tree.ids, ctxIds, id_left, id_right, Frame.sib, ctxIds_append]; omega) (fun aa => by simp only [List.count_append, List.count_cons, List.count_nil, Tree.ids, ctxIds, id_left, id_right, Frame.sib, ctxIds_append]; omega)
  have hnd_l : l.ids.Nodup := nodup_of_count_le hnd (fun aa => by simp only [List.count_append, List.count_cons, List.count_nil, Tree.ids, ctxIds, id_left, id_right, Frame.sib, ctxIds_append]; omega)
  obtain ⟨t5, e5, m5, f5, n5⟩ := setParentIf_tree hRl_4 (some m) hnd_l
  have hnp_m_l : l.ptr ≠ some m := fun e => not_mem_ctx hnd m l.ids (fun aa => by simp only [List.count_append, List.count_cons, List.count_nil, Tree.ids, ctxIds, id_left, id_right, Frame.sib, ctxIds_append]; omega) (ptr_mem e)
  have hm_5 : t5.mem m = some ⟨l.ptr, some r, some r, km, vm, cm⟩ := (f5 m hnp_m_l).trans (hm_4)
  have r8 : getLink t5 m true = Res.ok (some r) := getLink_eval hm_5 true
  have hnp_r_l : l.ptr ≠ some r := fun e => not_mem_ctx hnd r l.ids (fun aa => by simp only [List.count_append, List.count_cons, List.count_nil, Tree.ids, ctxIds, id_left, id_right, Frame.sib, ctxIds_append]; omega) (ptr_mem e)
  have hr_5 : t5.mem r = some ⟨mr.ptr, rr.ptr, some n, kr, vr, cr⟩ := (f5 r hnp_r_l).trans ((f4 r hne_r_g).trans ((f3 r hne_r_m).trans ((f2 r hne_r_m).trans (hr_1))))
  obtain ⟨t6, e6, m6, f6, n6⟩ := setParent_step hr_5 (some m)
  have hr_6 : t6.mem r = some ⟨mr.ptr, rr.ptr, some m, kr, vr, cr⟩ := m6
  have hnp_n_l : l.ptr ≠ some n := fun e => not_mem_ctx hnd n l.ids (fun aa => by simp only [List.count_append, List.count_cons, List.count_nil, Tree.ids, ctxIds, id_left, id_right, Frame.sib, ctxIds_append]; omega) (ptr_mem e)
  have hn_6 : t6.mem n = some ⟨l.ptr, some r, ctxPar up, kn, vn, cn⟩ := (f6 n hne_n_r).trans ((f5 n hnp_n_l).trans ((f4 n hne_n_g).trans ((f3 n hne_n_m).trans (hn_2))))
  have r9 : getParent t6 n = Res.ok (ctxPar up) := getParent_eval hn_6
  have hm_6 : t6.mem m = some ⟨l.ptr, some r, some r, km, vm, cm⟩ := (f6 m hne_m_r).trans (hm_5)
  obtain ⟨t7, e7, m7, f7, n7⟩ := setParent_step hm_6 (ctxPar up)
  have hm_7 : t7.mem m = some ⟨l.ptr, some r, ctxPar up, km, vm, cm⟩ := m7
  have hr_7 : t7.mem r = some ⟨mr.ptr, rr.ptr, some m, kr, vr, cr⟩ := (f7 r hne_r_m).trans (hr_6)
  have r10 : getLink t7 r false = Res.ok (mr.ptr) := getLink_eval hr_7 false
  have hW_0_7 : ∀ i, i ∉ (orRoot (ctxPar up) s) :: ([r, m] ++ l.ptr.toList) → t7.mem i = t.mem i := by
    intro i hi
    have hi_g : i ≠ (orRoot (ctxPar up) s) := fun e => hi (by simp [e])
    have hi_r : i ≠ r := fun e => hi (by simp [e])
    have hi_m : i ≠ m := fun e => hi (by simp [e])
    have hi_l : l.ptr ≠ some i := fun e => hi (by simp [e])
    exact (f7 i hi_m).trans ((f6 i hi_r).trans ((f5 i hi_l).trans ((f4 i hi_g).trans ((f3 i hi_m).trans ((f2 i hi_m).trans (f1 i hi_r))))))
  have hRmr_7 : Repr t7.mem (some m) mr := keep_repr t.mem hnd ([r, m] ++ l.ptr.toList) (s :: ctxIds up) (orRoot (ctxPar up) s) hRmr hW_0_7 hgmem (fun aa => by have := count_ptr_le l aa; simp only [List.count_append, List.count_cons, List.count_nil, Tree.ids, ctxIds, id_left, id_right, Frame.sib, ctxIds_append]; omega) (fun aa => by simp only [List.count_append, List.count_cons, List.count_nil, Tree.ids, ctxIds, id_left, id_right, Frame.sib, ctxIds_append]; omega)
  have hnd_mr : mr.ids.Nodup := nodup_of_count_le hnd (fun aa => by simp only [List.count_append, List.count_cons, List.count_nil, Tree.ids, ctxIds, id_left, id_right, Frame.sib, ctxIds_append]; omega)
  obtain ⟨t8, e8, m8, f8, n8⟩ := setParentIf_tree hRmr_7 (some r) hnd_mr
  have hnp_n_mr : mr.ptr ≠ some n := fun e => not_mem_ctx hnd n mr.ids (fun aa => by simp only [List.count_append, List.count_cons, List.count_nil, Tree.ids, ctxIds, id_left, id_right, Frame.sib, ctxIds_append]; omega) (ptr_mem e)
  have hn_8 : t8.mem n = some ⟨l.ptr, some r, ctxPar up, kn, vn, cn⟩ := (f8 n hnp_n_mr).trans ((f7 n hne_n_m).trans (hn_6))
  have r11 : load t8 (some n) = Res.ok ⟨l.ptr, some r, ctxPar up, kn, vn, cn⟩ := load_eval hn_8
  have hnp_m_mr : mr.ptr ≠ some m := fun e => not_mem_ctx hnd m mr.ids (fun aa => by simp only [List.count_append, List.count_cons, List.count_nil, Tree.ids, ctxIds, id_left, id_right, Frame.sib, ctxIds_append]; omega) (ptr_mem e)
  have hm_8 : t8.mem m = some ⟨l.ptr, some r, ctxPar up, km, vm, cm⟩ := (f8 m hnp_m_mr).trans (hm_7)
  have r12 : load t8 (some m) = Res.ok ⟨l.ptr, some r, ctxPar up, km, vm, cm⟩ := load_eval hm_8
  obtain ⟨t9, e9, m9, f9, n9⟩ := setRed_step hn_8 cm
  have hn_9 : t9.mem n = some ⟨l.ptr, some r, ctxPar up, kn, vn, cm⟩ := m9
  have hm_9 : t9.mem m = some ⟨l.ptr, some r, ctxPar up, km, vm, cm⟩ := (f9 m hne_m_n).trans (hm_8)
  obtain ⟨t10, e10, m10, f10, n10⟩ := setRed_step hm_9 cn
  have hm_10 : t10.mem m = some ⟨l.ptr, some r, ctxPar up, km, vm, cn⟩ := m10
  have hW_0_10 : ∀ i, i ∉ (orRoot (ctxPar up) s) :: ([r, m, n] ++ l.ptr.toList ++ mr.ptr.toList) → t10.mem i = t.mem i := by
    intro i hi
    have hi_g : i ≠ (orRoot (ctxPar up) s) := fun e => hi (by simp [e])
    have hi_r : i ≠ r := fun e => hi (by simp [e])
    have hi_m : i ≠ m := fun e => hi (by simp [e])
    have hi_n : i ≠ n := fun e => hi (by simp [e])
    have hi_l : l.ptr ≠ some i := fun e => hi (by simp [e])
    have hi_mr : mr.ptr ≠ some i := fun e => hi (by simp [e])
    exact (f10 i hi_m).trans ((f9 i hi_n).trans ((f8 i hi_mr).trans ((f7 i hi_m).trans ((f6 i hi_r).trans ((f5 i hi_l).trans ((f4 i hi_g).trans ((f3 i hi_m).trans ((f2 i hi_m).trans (f1 i hi_r)))))))))
  have hnext : t10.next = t.next := n10.trans (n9.trans (n8.trans (n7.trans (n6.trans (n5.trans (n4.trans (n3.trans (n2.trans (n1)))))))))
  have hW_5_10 : ∀ i, i ∉ ([r, m, n] ++ mr.ptr.toList) → t10.mem i = t5.mem i := by
    intro i hi
    have hi_r : i ≠ r := fun e => hi (by simp [e])
    have hi_m : i ≠ m := fun e => hi (by simp [e])
    have hi_n : i ≠ n := fun e => hi (by simp [e])
    have hi_mr : mr.ptr ≠ some i := fun e => hi (by simp [e])
    exact (f10 i hi_m).trans ((f9 i hi_n).trans ((f8 i hi_mr).trans ((f7 i hi_m).trans (f6 i hi_r))))
  have hRl_10 : Repr t10.mem (some m) l := repr_keep t5.mem hnd ([r, m, n] ++ mr.ptr.toList) m5 hW_5_10 (fun aa => by have := count_ptr_le mr aa; simp only [List.count_append, List.count_cons, List.count_nil, Tree.ids, ctxIds, id_left, id_right, Frame.sib, ctxIds_append]; omega)
  have hW_8_10 : ∀ i, i ∉ [n, m] → t10.mem i = t8.mem i := by
    intro i hi
    have hi_n : i ≠ n := fun e => hi (by simp [e])
    have hi_m : i ≠ m := fun e => hi (by simp [e])
    exact (f10 i hi_m).trans (f9 i hi_n)
  have hRmr_10 : Repr t10.mem (some r) mr := repr_keep t8.mem hnd [n, m] m8 hW_8_10 (fun aa => by simp only [List.count_append, List.count_cons, List.count_nil, Tree.ids, ctxIds, id_left, id_right, Frame.sib, ctxIds_append]; omega)
  have hRrr_10 : Repr t10.mem (some r) rr := keep_repr t.mem hnd ([r, m, n] ++ l.ptr.toList ++ mr.ptr.toList) (s :: ctxIds up) (orRoot (ctxPar up) s) hRrr hW_0_10 hgmem (fun aa => by have := count_ptr_le l aa; have := count_ptr_le mr aa; simp only [List.count_append, List.count_cons, List.count_nil, Tree.ids, ctxIds, id_left, id_right, Frame.sib, ctxIds_append]; omega) (fun aa => by simp only [List.count_append, List.count_cons, List.count_nil, Tree.ids, ctxIds, id_left, id_right, Frame.sib, ctxIds_append]; omega)
  have hnp_g_l : l.ptr ≠ some (orRoot (ctxPar up) s) := fun e => not_mem_of_count hnd hgmem (fun aa => by simp only [List.count_append, List.count_cons, List.count_nil, Tree.ids, ctxIds, id_left, id_right, Frame.sib, ctxIds_append]; omega) (ptr_mem e)
  have hnp_g_mr : mr.ptr ≠ some (orRoot (ctxPar up) s) := fun e => not_mem_of_count hnd hgmem (fun aa => by simp only [List.count_append, List.count_cons, List.count_nil, Tree.ids, ctxIds, id_left, id_right, Frame.sib, ctxIds_append]; omega) (ptr_mem e)
  have hg_10 : t10.mem (orRoot (ctxPar up) s) = some (Node.setLink gn (ctxDir up) (some m)) := (f10 (orRoot (ctxPar up) s) hne_m_g.symm).trans ((f9 (orRoot (ctxPar up) s) hne_n_g.symm).trans ((f8 (orRoot (ctxPar up) s) hnp_g_mr).trans ((f7 (orRoot (ctxPar up) s) hne_m_g.symm).trans ((f6 (orRoot (ctxPar up) s) hne_r_g.symm).trans ((f5 (orRoot (ctxPar up) s) hnp_g_l).trans (hg_4))))))
  have hup2 : CtxS t10.mem s up (some m) := by
    refine hback t10.mem (some m) ?_ (keep_of_disj hnd ([r, m, n] ++ l.ptr.toList ++ mr.ptr.toList) (s :: ctxIds up) (orRoot (ctxPar up) s) hW_0_10 (fun aa => by have := count_ptr_le l aa; have := count_ptr_le mr aa; simp only [List.count_append, List.count_cons, List.count_nil, Tree.ids, ctxIds, id_left, id_right, Frame.sib, ctxIds_append]; omega))
    exact hg_10
  have hnp_r_mr : mr.ptr ≠ some r := fun e => not_mem_ctx hnd r mr.ids (fun aa => by simp only [List.count_append, List.count_cons, List.count_nil, Tree.ids, ctxIds, id_left, id_right, Frame.sib, ctxIds_append]; omega) (ptr_mem e)
  have hr_10 : t10.mem r = some ⟨mr.ptr, rr.ptr, some m, kr, vr, cr⟩ := (f10 r hne_r_m).trans ((f9 r hne_r_n).trans ((f8 r hnp_r_mr).trans (hr_7)))
  have hsubl : ∀ j, List.count j (s :: (mr.ids ++ ctxIds (Frame.left r kr vr cr rr :: Frame.right l m km vm cn :: up))) ≤ List.count j (s :: ((Tree.node l n kn vn cn (Tree.node (Tree.node (Tree.nil : Tree K V) m km vm cm mr) r kr vr cr rr)).ids ++ ctxIds up)) := (fun aa => by simp only [List.count_append, List.count_cons, List.count_nil, Tree.ids, ctxIds, id_left, id_right, Frame.sib, ctxIds_append]; omega)
  have hgood : GoodS t10 s (Frame.left r kr vr cr rr :: Frame.right l m km vm cn :: up) mr :=
    And.intro hRmr_10 (And.intro (And.intro (And.intro hr_10 hRrr_10) (And.intro (And.intro hm_10 hRl_10) hup2.1)) (And.intro hup2.2 (And.intro (nodup_of_count_le hnd hsubl)
      (fun i hi => hnext ▸ hlt i (mem_of_count_le hsubl hi)))))
  have hframe : ∀ i, i ∉ (s :: ((Tree.node l n kn vn cn (Tree.node (Tree.node (Tree.nil : Tree K V) m km vm cm mr) r kr vr cr rr)).ids ++ ctxIds up)) → t10.mem i = t.mem i := by
    intro i hi
    refine hW_0_10 i (fun hm => hi ?_)
    rcases List.mem_cons.1 hm with e | hm
    · rw [e]
      exact mem_of_count_le (fun aa => by simp only [List.count_append, List.count_cons, List.count_nil, Tree.ids, ctxIds, id_left, id_right, Frame.sib, ctxIds_append]; omega) hgmem
    · exact mem_of_count_le (fun aa => by have := count_ptr_le l aa; have := count_ptr_le mr aa; simp only [List.count_append, List.count_cons, List.count_nil, Tree.ids, ctxIds, id_left, id_right, Frame.sib, ctxIds_append]; omega) hm
  have hn_10 : t10.mem n = some ⟨l.ptr, some r, ctxPar up, kn, vn, cm⟩ := (f10 n hne_n_m).trans (hn_9)
  refine ⟨t10, ?_, hgood, hnext, hframe, hn_10⟩
  simp only [unlinkSucc, e1, e2, e3, e4, e5, e6, e7, e8, e9, e10, r1, r2, r3, r4, r5, r6, r7, r8, r9, r10, r11, r12, res_bind_ok, res_pure, setParentIf_none, Bool.not_false, Bool.not_true]

/-- The last branch of `Delete` when the successor `m` of `n` lies deeper in
the right subtree of `n`, under the node `q`: `m` takes the place and the
colour of `n`, and `n` keeps the colour of `m`. -/
theorem unlinkSucc_far {t : RBTree K V} {s : Nat} {up : List (Frame K V)} {l mr qr : Tree K V} {D1 :
    List (Frame K V)} {n m q r : Nat} {kn km kq : K} {vn vm vq : V} {cn cm cq : Bool} {s0 : Nat}
    (hD : D1 ≠ []) (hr : ctxRoot D1 (some q) = some r)
    (hs0 : getLink t r false = Res.ok (some s0))
    (hleft : leftmost t (t.next + 1) s0 = Res.ok m)
    (h : GoodS t s up (Tree.node l n kn vn cn (plug (Frame.left q kq vq cq qr :: D1) (Tree.node
      (Tree.nil : Tree K V) m km vm cm mr)))) :
    ∃ t', unlinkSucc t n (orRoot (ctxPar up) s) (ctxDir up) r = Res.ok (t', q, false) ∧ GoodS t' s
      (Frame.left q kq vq cq qr :: (D1 ++ Frame.right l m km vm cn :: up)) mr ∧ t'.next = t.next
      ∧
      (∀ i, i ∉ (s :: ((Tree.node l n kn vn cn (plug (Frame.left q kq vq cq qr :: D1) (Tree.node
        (Tree.nil : Tree K V) m km vm cm mr))).ids ++ ctxIds up)) → t'.mem i = t.mem i) ∧
        t'.mem n = some ⟨l.ptr, some r, ctxPar up, kn, vn, cm⟩ := by
  obtain ⟨hrepr, hctx, hs, hnd, hlt⟩ := h
  obtain ⟨hrawn0, hRl, hR⟩ := hrepr
  have hptr : (plug (Frame.left q kq vq cq qr :: D1) (Tree.node (Tree.nil : Tree K V) m km vm cm mr)).ptr = some r := by
    rw [ptr_plug]
    exact hr
  obtain ⟨hM, hseg⟩ := (repr_plug_seg t.mem (some n) (Frame.left q kq vq cq qr :: D1) (Tree.node (Tree.nil : Tree K V) m km vm cm mr)).1 hR
  obtain ⟨hrawm, -, hRmr⟩ := hM
  obtain ⟨⟨hrawq, hRqr⟩, hseg1⟩ := hseg
  have hrawn : t.mem n = some ⟨l.ptr, some r, ctxPar up, kn, vn, cn⟩ := hptr ▸ hrawn0
  have hcup := hctx
  have hup : CtxS t.mem s up (some n) := ⟨hcup, hs⟩
  have hcp := count_plug (Frame.left q kq vq cq qr :: D1) (Tree.node (Tree.nil : Tree K V) m km vm cm mr)
  have hD1nd : (ctxIds D1).Nodup := nodup_of_count_le hnd (fun aa => by have hx0 := hcp aa; simp only [List.count_append, List.count_cons, List.count_nil, Tree.ids, ctxIds, id_left, id_right, Frame.sib, ctxIds_append] at hx0 ⊢; omega)
  obtain ⟨hrmem, rn, hr_0, hrpar, hrback⟩ := seg_top hseg1 hr hD hD1nd
  have hcr := count_singleton_le hrmem
  have hRl : Repr t.mem (some n) l := hRl
  have hRmr : Repr t.mem (some m) mr := hRmr
  have hRqr : Repr t.mem (some q) qr := hRqr
  have hn_0 : t.mem n = some ⟨l.ptr, some r, ctxPar up, kn, vn, cn⟩ := hrawn
  have hm_0 : t.mem m = some ⟨none, mr.ptr, some q, km, vm, cm⟩ := hrawm
  have hq_0 : t.mem q = some ⟨some m, qr.ptr, segPar (some n) D1, kq, vq, cq⟩ := hrawq
  have hgmem : (orRoot (ctxPar up) s) ∈ (s :: ctxIds up) := orRoot_mem s up
  have hEnd : [n, m, q, r].Nodup := nodup_of_count_le hnd (fun aa => by have hx0 := hcp aa; have hx1 := hcr aa; simp only [List.count_append, List.count_cons, List.count_nil, Tree.ids, ctxIds, id_left, id_right, Frame.sib, ctxIds_append] at hx0 hx1 ⊢; omega)
  have hne_n_m : n ≠ m := by rintro rfl; simp at hEnd
  have hne_n_q : n ≠ q := by rintro rfl; simp at hEnd
  have hne_n_r : n ≠ r := by rintro rfl; simp at hEnd
  have hne_m_n : m ≠ n := by rintro rfl; simp at hEnd
  have hne_m_q : m ≠ q := by rintro rfl; simp at hEnd
  have hne_m_r : m ≠ r := by rintro rfl; simp at hEnd
  have hne_q_n : q ≠ n := by rintro rfl; simp at hEnd
  have hne_q_m : q ≠ m := by rintro rfl; simp at hEnd
  have hne_q_r : q ≠ r := by rintro rfl; simp at hEnd
  have hne_r_n : r ≠ n := by rintro rfl; simp at hEnd
  have hne_r_m : r ≠ m := by rintro rfl; simp at hEnd
  have hne_r_q : r ≠ q := by rintro rfl; simp at hEnd
  have hgW : ∀ j ∈ [n, m, q, r], j ≠ (orRoot (ctxPar up) s) := ne_of_not_mem_cons hnd hgmem (fun aa => by have hx0 := hcp aa; have hx1 := hcr aa; simp only [List.count_append, List.count_cons, List.count_nil, Tree.ids, ctxIds, id_left, id_right, Frame.sib, ctxIds_append] at hx0 hx1 ⊢; omega)
  have hne_n_g : n ≠ (orRoot (ctxPar up) s) := hgW n (by simp)
  have hne_m_g : m ≠ (orRoot (ctxPar up) s) := hgW m (by simp)
  have hne_q_g : q ≠ (orRoot (ctxPar up) s) := hgW q (by simp)
  have hne_r_g : r ≠ (orRoot (ctxPar up) s) := hgW r (by simp)
  have hgnd : (s :: ctxIds up).Nodup := nodup_of_count_le hnd (fun aa => by have hx0 := hcp aa; have hx1 := hcr aa; simp only [List.count_append, List.count_cons, List.count_nil, Tree.ids, ctxIds, id_left, id_right, Frame.sib, ctxIds_append] at hx0 hx1 ⊢; omega)
  have hgtop : n ∉ ctxIds up := fun hm => disj_of_nodup hnd [n] (ctxIds up) (fun aa => by have hx0 := hcp aa; have hx1 := hcr aa; simp only [List.count_append, List.count_cons, List.count_nil, Tree.ids, ctxIds, id_left, id_right, Frame.sib, ctxIds_append] at hx0 hx1 ⊢; omega) n hm (by simp)
  obtain ⟨gn, hg_0, hgl, hrel, hgdir, hback⟩ := ctxS_parent hup hgnd hgtop
  have r1 : getParent t m = Res.ok (some q) := getParent_eval hm_0
  have r2 : getLink t m true = Res.ok (mr.ptr) := getLink_eval hm_0 true
  obtain ⟨t1, e1, m1, f1, n1⟩ := setLink_step hq_0 false (mr.ptr)
  have hq_1 : t1.mem q = some ⟨mr.ptr, qr.ptr, segPar (some n) D1, kq, vq, cq⟩ := m1
  have hn_1 : t1.mem n = some ⟨l.ptr, some r, ctxPar up, kn, vn, cn⟩ := (f1 n hne_n_q).trans (hn_0)
  have r3 : getLink t1 n false = Res.ok (l.ptr) := getLink_eval hn_1 false
  have hm_1 : t1.mem m = some ⟨none, mr.ptr, some q, km, vm, cm⟩ := (f1 m hne_m_q).trans (hm_0)
  obtain ⟨t2, e2, m2, f2, n2⟩ := setLink_step hm_1 false (l.ptr)
  have hm_2 : t2.mem m = some ⟨l.ptr, mr.ptr, some q, km, vm, cm⟩ := m2
  have hn_2 : t2.mem n = some ⟨l.ptr, some r, ctxPar up, kn, vn, cn⟩ := (f2 n hne_n_m).trans (hn_1)
  have r4 : getLink t2 n true = Res.ok (some r) := getLink_eval hn_2 true
  obtain ⟨t3, e3, m3, f3, n3⟩ := setLink_step hm_2 true (some r)
  have hm_3 : t3.mem m = some ⟨l.ptr, some r, some q, km, vm, cm⟩ := m3
  have hg_3 : t3.mem (orRoot (ctxPar up) s) = some gn := (f3 (orRoot (ctxPar up) s) hne_m_g.symm).trans ((f2 (orRoot (ctxPar up) s) hne_m_g.symm).trans ((f1 (orRoot (ctxPar up) s) hne_q_g.symm).trans (hg_0)))
  obtain ⟨t4, e4, m4, f4, n4⟩ := setLink_step hg_3 (ctxDir up) (some m)
  have hg_4 : t4.mem (orRoot (ctxPar up) s) = some (Node.setLink gn (ctxDir up) (some m)) := m4
  have hm_4 : t4.mem m = some ⟨l.ptr, some r, some q, km, vm, cm⟩ := (f4 m hne_m_g).trans (hm_3)
  have r5 : getLink t4 m false = Res.ok (l.ptr) := getLink_eval hm_4 false
  have hW_0_4 : ∀ i, i ∉ (orRoot (ctxPar up) s) :: [q, m] → t4.mem i = t.mem i := by
    intro i hi
    have hi_g : i ≠ (orRoot (ctxPar up) s) := fun e => hi (by simp [e])
    have hi_q : i ≠ q := fun e => hi (by simp [e])
    have hi_m : i ≠ m := fun e => hi (by simp [e])
    exact (f4 i hi_g).trans ((f3 i hi_m).trans ((f2 i hi_m).trans (f1 i hi_q)))
  have hRl_4 : Repr t4.mem (some n) l := keep_repr t.mem hnd [q, m] (s :: ctxIds up) (orRoot (ctxPar up) s) hRl hW_0_4 hgmem (fun aa => by have hx0 := hcp aa; have hx1 := hcr aa; simp only [List.count_append, List.count_cons, List.count_nil, Tree.ids, ctxIds, id_left, id_right, Frame.sib, ctxIds_append] at hx0 hx1 ⊢; omega) (fun aa => by have hx0 := hcp aa; have hx1 := hcr aa; simp only [List.count_append, List.count_cons, List.count_nil, Tree.ids, ctxIds, id_left, id_right, Frame.sib, ctxIds_append] at hx0 hx1 ⊢; omega)
  have hnd_l : l.ids.Nodup := nodup_of_count_le hnd (fun aa => by have hx0 := hcp aa; have hx1 := hcr aa; simp only [List.count_append, List.count_cons, List.count_nil, Tree.ids, ctxIds, id_left, id_right, Frame.sib, ctxIds_append] at hx0 hx1 ⊢; omega)
  obtain ⟨t5, e5, m5, f5, n5⟩ := setParentIf_tree hRl_4 (some m) hnd_l
  have hnp_m_l : l.ptr ≠ some m := fun e => not_mem_ctx hnd m l.ids (fun aa => by have hx0 := hcp aa; have hx1 := hcr aa; simp only [List.count_append, List.count_cons, List.count_nil, Tree.ids, ctxIds, id_left, id_right, Frame.sib, ctxIds_append] at hx0 hx1 ⊢; omega) (ptr_mem e)
  have hm_5 : t5.mem m = some ⟨l.ptr, some r, some q, km, vm, cm⟩ := (f5 m hnp_m_l).trans (hm_4)
  have r6 : getLink t5 m true = Res.ok (some r) := getLink_eval hm_5 true
  have hnp_r_l : l.ptr ≠ some r := fun e => not_mem_ctx hnd r l.ids (fun aa => by have hx0 := hcp aa; have hx1 := hcr aa; simp only [List.count_append, List.count_cons, List.count_nil, Tree.ids, ctxIds, id_left, id_right, Frame.sib, ctxIds_append] at hx0 hx1 ⊢; omega) (ptr_mem e)
  have hr_5 : t5.mem r = some rn := (f5 r hnp_r_l).trans ((f4 r hne_r_g).trans ((f3 r hne_r_m).trans ((f2 r hne_r_m).trans ((f1 r hne_r_q).trans (hr_0)))))
  obtain ⟨t6, e6, m6, f6, n6⟩ := setParent_step hr_5 (some m)
  have hr_6 : t6.mem r = some { rn with parent := some m } := m6
  have hnp_n_l : l.ptr ≠ some n := fun e => not_mem_ctx hnd n l.ids (fun aa => by have hx0 := hcp aa; have hx1 := hcr aa; simp only [List.count_append, List.count_cons, List.count_nil, Tree.ids, ctxIds, id_left, id_right, Frame.sib, ctxIds_append] at hx0 hx1 ⊢; omega) (ptr_mem e)
  have hn_6 : t6.mem n = some ⟨l.ptr, some r, ctxPar up, kn, vn, cn⟩ := (f6 n hne_n_r).trans ((f5 n hnp_n_l).trans ((f4 n hne_n_g).trans ((f3 n hne_n_m).trans (hn_2))))
  have r7 : getParent t6 n = Res.ok (ctxPar up) := getParent_eval hn_6
  have hm_6 : t6.mem m = some ⟨l.ptr, some r, some q, km, vm, cm⟩ := (f6 m hne_m_r).trans (hm_5)
  obtain ⟨t7, e7, m7, f7, n7⟩ := setParent_step hm_6 (ctxPar up)
  have hm_7 : t7.mem m = some ⟨l.ptr, some r, ctxPar up, km, vm, cm⟩ := m7
  have hnp_q_l : l.ptr ≠ some q := fun e => not_mem_ctx hnd q l.ids (fun aa => by have hx0 := hcp aa; have hx1 := hcr aa; simp only [List.count_append, List.count_cons, List.count_nil, Tree.ids, ctxIds, id_left, id_right, Frame.sib, ctxIds_append] at hx0 hx1 ⊢; omega) (ptr_mem e)
  have hq_7 : t7.mem q = some ⟨mr.ptr, qr.ptr, segPar (some n) D1, kq, vq, cq⟩ := (f7 q hne_q_m).trans ((f6 q hne_q_r).trans ((f5 q hnp_q_l).trans ((f4 q hne_q_g).trans ((f3 q hne_q_m).trans ((f2 q hne_q_m).trans (hq_1))))))
  have r8 : getLink t7 q false = Res.ok (mr.ptr) := getLink_eval hq_7 false
  have hW_0_7 : ∀ i, i ∉ (orRoot (ctxPar up) s) :: ([q, m, r] ++ l.ptr.toList) → t7.mem i = t.mem i := by
    intro i hi
    have hi_g : i ≠ (orRoot (ctxPar up) s) := fun e => hi (by simp [e])
    have hi_q : i ≠ q := fun e => hi (by simp [e])
    have hi_m : i ≠ m := fun e => hi (by simp [e])
    have hi_r : i ≠ r := fun e => hi (by simp [e])
    have hi_l : l.ptr ≠ some i := fun e => hi (by simp [e])
    exact (f7 i hi_m).trans ((f6 i hi_r).trans ((f5 i hi_l).trans ((f4 i hi_g).trans ((f3 i hi_m).trans ((f2 i hi_m).trans (f1 i hi_q))))))
  have hRmr_7 : Repr t7.mem (some m) mr := keep_repr t.mem hnd ([q, m, r] ++ l.ptr.toList) (s :: ctxIds up) (orRoot (ctxPar up) s) hRmr hW_0_7 hgmem (fun aa => by have := count_ptr_le l aa; have hx0 := hcp aa; have hx1 := hcr aa; simp only [List.count_append, List.count_cons, List.count_nil, Tree.ids, ctxIds, id_left, id_right, Frame.sib, ctxIds_append] at hx0 hx1 ⊢; omega) (fun aa => by have hx0 := hcp aa; have hx1 := hcr aa; simp only [List.count_append, List.count_cons, List.count_nil, Tree.ids, ctxIds, id_left, id_right, Frame.sib, ctxIds_append] at hx0 hx1 ⊢; omega)
  have hnd_mr : mr.ids.Nodup := nodup_of_count_le hnd (fun aa => by have hx0 := hcp aa; have hx1 := hcr aa; simp only [List.count_append, List.count_cons, List.count_nil, Tree.ids, ctxIds, id_left, id_right, Frame.sib, ctxIds_append] at hx0 hx1 ⊢; omega)
  obtain ⟨t8, e8, m8, f8, n8⟩ := setParentIf_tree hRmr_7 (some q) hnd_mr
  have hnp_n_mr : mr.ptr ≠ some n := fun e => not_mem_ctx hnd n mr.ids (fun aa => by have hx0 := hcp aa; have hx1 := hcr aa; simp only [List.count_append, List.count_cons, List.count_nil, Tree.ids, ctxIds, id_left, id_right, Frame.sib, ctxIds_append] at hx0 hx1 ⊢; omega) (ptr_mem e)
  have hn_8 : t8.mem n = some ⟨l.ptr, some r, ctxPar up, kn, vn, cn⟩ := (f8 n hnp_n_mr).trans ((f7 n hne_n_m).trans (hn_6))
  have r9 : load t8 (some n) = Res.ok ⟨l.ptr, some r, ctxPar up, kn, vn, cn⟩ := load_eval hn_8
  have hnp_m_mr : mr.ptr ≠ some m := fun e => not_mem_ctx hnd m mr.ids (fun aa => by have hx0 := hcp aa; have hx1 := hcr aa; simp only [List.count_append, List.count_cons, List.count_nil, Tree.ids, ctxIds, id_left, id_right, Frame.sib, ctxIds_append] at hx0 hx1 ⊢; omega) (ptr_mem e)
  have hm_8 : t8.mem m = some ⟨l.ptr, some r, ctxPar up, km, vm, cm⟩ := (f8 m hnp_m_mr).trans (hm_7)
  have r10 : load t8 (some m) = Res.ok ⟨l.ptr, some r, ctxPar up, km, vm, cm⟩ := load_eval hm_8
  obtain ⟨t9, e9, m9, f9, n9⟩ := setRed_step hn_8 cm
  have hn_9 : t9.mem n = some ⟨l.ptr, some r, ctxPar up, kn, vn, cm⟩ := m9
  have hm_9 : t9.mem m = some ⟨l.ptr, some r, ctxPar up, km, vm, cm⟩ := (f9 m hne_m_n).trans (hm_8)
  obtain ⟨t10, e10, m10, f10, n10⟩ := setRed_step hm_9 cn
  have hm_10 : t10.mem m = some ⟨l.ptr, some r, ctxPar up, km, vm, cn⟩ := m10
  have hW_0_10 : ∀ i, i ∉ (orRoot (ctxPar up) s) :: ([q, m, r, n] ++ l.ptr.toList ++ mr.ptr.toList) → t10.mem i = t.mem i := by
    intro i hi
    have hi_g : i ≠ (orRoot (ctxPar up) s) := fun e => hi (by simp [e])
    have hi_q : i ≠ q := fun e => hi (by simp [e])
    have hi_m : i ≠ m := fun e => hi (by simp [e])
    have hi_r : i ≠ r := fun e => hi (by simp [e])
    have hi_n : i ≠ n := fun e => hi (by simp [e])
    have hi_l : l.ptr ≠ some i := fun e => hi (by simp [e])
    have hi_mr : mr.ptr ≠ some i := fun e => hi (by simp [e])
    exact (f10 i hi_m).trans ((f9 i hi_n).trans ((f8 i hi_mr).trans ((f7 i hi_m).trans ((f6 i hi_r).trans ((f5 i hi_l).trans ((f4 i hi_g).trans ((f3 i hi_m).trans ((f2 i hi_m).trans (f1 i hi_q)))))))))
  have hnext : t10.next = t.next := n10.trans (n9.trans (n8.trans (n7.trans (n6.trans (n5.trans (n4.trans (n3.trans (n2.trans (n1)))))))))
  have hW_5_10 : ∀ i, i ∉ ([r, m, n] ++ mr.ptr.toList) → t10.mem i = t5.mem i := by
    intro i hi
    have hi_r : i ≠ r := fun e => hi (by simp [e])
    have hi_m : i ≠ m := fun e => hi (by simp [e])
    have hi_n : i ≠ n := fun e => hi (by simp [e])
    have hi_mr : mr.ptr ≠ some i := fun e => hi (by simp [e])
    exact (f10 i hi_m).trans ((f9 i hi_n).trans ((f8 i hi_mr).trans ((f7 i hi_m).trans (f6 i hi_r))))
  have hRl_10 : Repr t10.mem (some m) l := repr_keep t5.mem hnd ([r, m, n] ++ mr.ptr.toList) m5 hW_5_10 (fun aa => by have := count_ptr_le mr aa; have hx0 := hcp aa; have hx1 := hcr aa; simp only [List.count_append, List.count_cons, List.count_nil, Tree.ids, ctxIds, id_left, id_right, Frame.sib, ctxIds_append] at hx0 hx1 ⊢; omega)
  have hW_8_10 : ∀ i, i ∉ [n, m] → t10.mem i = t8.mem i := by
    intro i hi
    have hi_n : i ≠ n := fun e => hi (by simp [e])
    have hi_m : i ≠ m := fun e => hi (by simp [e])
    exact (f10 i hi_m).trans (f9 i hi_n)
  have hRmr_10 : Repr t10.mem (some q) mr := repr_keep t8.mem hnd [n, m] m8 hW_8_10 (fun aa => by have hx0 := hcp aa; have hx1 := hcr aa; simp only [List.count_append, List.count_cons, List.count_nil, Tree.ids, ctxIds, id_left, id_right, Frame.sib, ctxIds_append] at hx0 hx1 ⊢; omega)
  have hRqr_10 : Repr t10.mem (some q) qr := keep_repr t.mem hnd ([q, m, r, n] ++ l.ptr.toList ++ mr.ptr.toList) (s :: ctxIds up) (orRoot (ctxPar up) s) hRqr hW_0_10 hgmem (fun aa => by have := count_ptr_le l aa; have := count_ptr_le mr aa; have hx0 := hcp aa; have hx1 := hcr aa; simp only [List.count_append, List.count_cons, List.count_nil, Tree.ids, ctxIds, id_left, id_right, Frame.sib, ctxIds_append] at hx0 hx1 ⊢; omega) (fun aa => by have hx0 := hcp aa; have hx1 := hcr aa; simp only [List.count_append, List.count_cons, List.count_nil, Tree.ids, ctxIds, id_left, id_right, Frame.sib, ctxIds_append] at hx0 hx1 ⊢; omega)
  have hnp_g_l : l.ptr ≠ some (orRoot (ctxPar up) s) := fun e => not_mem_of_count hnd hgmem (fun aa => by have hx0 := hcp aa; have hx1 := hcr aa; simp only [List.count_append, List.count_cons, List.count_nil, Tree.ids, ctxIds, id_left, id_right, Frame.sib, ctxIds_append] at hx0 hx1 ⊢; omega) (ptr_mem e)
  have hnp_g_mr : mr.ptr ≠ some (orRoot (ctxPar up) s) := fun e => not_mem_of_count hnd hgmem (fun aa => by have hx0 := hcp aa; have hx1 := hcr aa; simp only [List.count_append, List.count_cons, List.count_nil, Tree.ids, ctxIds, id_left, id_right, Frame.sib, ctxIds_append] at hx0 hx1 ⊢; omega) (ptr_mem e)
  have hg_10 : t10.mem (orRoot (ctxPar up) s) = some (Node.setLink gn (ctxDir up) (some m)) := (f10 (orRoot (ctxPar up) s) hne_m_g.symm).trans ((f9 (orRoot (ctxPar up) s) hne_n_g.symm).trans ((f8 (orRoot (ctxPar up) s) hnp_g_mr).trans ((f7 (orRoot (ctxPar up) s) hne_m_g.symm).trans ((f6 (orRoot (ctxPar up) s) hne_r_g.symm).trans ((f5 (orRoot (ctxPar up) s) hnp_g_l).trans (hg_4))))))
  have hup2 : CtxS t10.mem s up (some m) := by
    refine hback t10.mem (some m) ?_ (keep_of_disj hnd ([q, m, r, n] ++ l.ptr.toList ++ mr.ptr.toList) (s :: ctxIds up) (orRoot (ctxPar up) s) hW_0_10 (fun aa => by have := count_ptr_le l aa; have := count_ptr_le mr aa; have hx0 := hcp aa; have hx1 := hcr aa; simp only [List.count_append, List.count_cons, List.count_nil, Tree.ids, ctxIds, id_left, id_right, Frame.sib, ctxIds_append] at hx0 hx1 ⊢; omega))
    exact hg_10
  have hnp_q_mr : mr.ptr ≠ some q := fun e => not_mem_ctx hnd q mr.ids (fun aa => by have hx0 := hcp aa; have hx1 := hcr aa; simp only [List.count_append, List.count_cons, List.count_nil, Tree.ids, ctxIds, id_left, id_right, Frame.sib, ctxIds_append] at hx0 hx1 ⊢; omega) (ptr_mem e)
  have hq_10 : t10.mem q = some ⟨mr.ptr, qr.ptr, segPar (some n) D1, kq, vq, cq⟩ := (f10 q hne_q_m).trans ((f9 q hne_q_n).trans ((f8 q hnp_q_mr).trans (hq_7)))
  have hnp_r_mr : mr.ptr ≠ some r := fun e => not_mem_ctx hnd r mr.ids (fun aa => by have hx0 := hcp aa; have hx1 := hcr aa; simp only [List.count_append, List.count_cons, List.count_nil, Tree.ids, ctxIds, id_left, id_right, Frame.sib, ctxIds_append] at hx0 hx1 ⊢; omega) (ptr_mem e)
  have hr_10 : t10.mem r = some { rn with parent := some m } := (f10 r hne_r_m).trans ((f9 r hne_r_n).trans ((f8 r hnp_r_mr).trans ((f7 r hne_r_m).trans (hr_6))))
  have hW_0_10_r : ∀ i, i ≠ r → i ∉ (orRoot (ctxPar up) s) :: ([q, m, n] ++ l.ptr.toList ++ mr.ptr.toList) → t10.mem i = t.mem i := by
    intro i hi_r hi
    have hi_g : i ≠ (orRoot (ctxPar up) s) := fun e => hi (by simp [e])
    have hi_q : i ≠ q := fun e => hi (by simp [e])
    have hi_m : i ≠ m := fun e => hi (by simp [e])
    have hi_n : i ≠ n := fun e => hi (by simp [e])
    have hi_l : l.ptr ≠ some i := fun e => hi (by simp [e])
    have hi_mr : mr.ptr ≠ some i := fun e => hi (by simp [e])
    exact (f10 i hi_m).trans ((f9 i hi_n).trans ((f8 i hi_mr).trans ((f7 i hi_m).trans ((f6 i hi_r).trans ((f5 i hi_l).trans ((f4 i hi_g).trans ((f3 i hi_m).trans ((f2 i hi_m).trans (f1 i hi_q)))))))))
  have hq2 : t10.mem q = some ⟨mr.ptr, qr.ptr, ctxPar (D1 ++ (Frame.right l m km vm cn :: up)), kq, vq, cq⟩ := by
    rw [ctxPar_append hD (some n)]
    exact hq_10
  have hdj : ∀ i ∈ ctxIds D1, i ∉ (orRoot (ctxPar up) s) :: ([q, m, n] ++ l.ptr.toList ++ mr.ptr.toList) := by
    intro i hi hm
    rcases List.mem_cons.1 hm with e | hm
    · exact not_mem_of_count hnd hgmem (fun aa => by have hx0 := hcp aa; have hx1 := hcr aa; simp only [List.count_append, List.count_cons, List.count_nil, Tree.ids, ctxIds, id_left, id_right, Frame.sib, ctxIds_append] at hx0 hx1 ⊢; omega) (e ▸ hi)
    · exact disj_of_nodup hnd ([q, m, n] ++ l.ptr.toList ++ mr.ptr.toList) (ctxIds D1) (fun aa => by have := count_ptr_le l aa; have := count_ptr_le mr aa; have hx0 := hcp aa; have hx1 := hcr aa; simp only [List.count_append, List.count_cons, List.count_nil, Tree.ids, ctxIds, id_left, id_right, Frame.sib, ctxIds_append] at hx0 hx1 ⊢; omega) i hi hm
  have hseg2 : SegRepr t10.mem (some m) D1 (some q) :=
    hrback t10.mem (some m) hr_10 (fun i hi hir => hW_0_10_r i hir (hdj i hi))
  have hE : CtxRepr t10.mem (Frame.right l m km vm cn :: up) (ctxRoot D1 (some q)) := by
    rw [hr]
    exact And.intro (And.intro hm_10 hRl_10) hup2.1
  have hroot : ctxRoot (Frame.left q kq vq cq qr :: (D1 ++ Frame.right l m km vm cn :: up)) mr.ptr = ctxRoot up (some m) := by
    show ctxRoot (D1 ++ (Frame.right l m km vm cn :: up)) (some q) = _
    rw [ctxRoot_append, hr]
    rfl
  have hsubl : ∀ j, List.count j (s :: (mr.ids ++ ctxIds (Frame.left q kq vq cq qr :: (D1 ++ Frame.right l m km vm cn :: up)))) ≤ List.count j (s :: ((Tree.node l n kn vn cn (plug (Frame.left q kq vq cq qr :: D1) (Tree.node (Tree.nil : Tree K V) m km vm cm mr))).ids ++ ctxIds up)) := (fun aa => by have hx0 := hcp aa; have hx1 := hcr aa; simp only [List.count_append, List.count_cons, List.count_nil, Tree.ids, ctxIds, id_left, id_right, Frame.sib, ctxIds_append] at hx0 hx1 ⊢; omega)
  have hgood : GoodS t10 s (Frame.left q kq vq cq qr :: (D1 ++ Frame.right l m km vm cn :: up)) mr :=
    And.intro hRmr_10 (And.intro (And.intro (And.intro hq2 hRqr_10)
      ((ctxRepr_append _ D1 (Frame.right l m km vm cn :: up) (some q)).2 (And.intro hseg2 hE)))
      (And.intro (hroot ▸ hup2.2) (And.intro (nodup_of_count_le hnd hsubl)
      (fun i hi => hnext ▸ hlt i (mem_of_count_le hsubl hi)))))
  have hframe : ∀ i, i ∉ (s :: ((Tree.node l n kn vn cn (plug (Frame.left q kq vq cq qr :: D1) (Tree.node (Tree.nil : Tree K V) m km vm cm mr))).ids ++ ctxIds up)) → t10.mem i = t.mem i := by
    intro i hi
    refine hW_0_10 i (fun hm => hi ?_)
    rcases List.mem_cons.1 hm with e | hm
    · rw [e]
      exact mem_of_count_le (fun aa => by have hx0 := hcp aa; have hx1 := hcr aa; simp only [List.count_append, List.count_cons, List.count_nil, Tree.ids, ctxIds, id_left, id_right, Frame.sib, ctxIds_append] at hx0 hx1 ⊢; omega) hgmem
    · exact mem_of_count_le (fun aa => by have := count_ptr_le l aa; have := count_ptr_le mr aa; have hx0 := hcp aa; have hx1 := hcr aa; simp only [List.count_append, List.count_cons, List.count_nil, Tree.ids, ctxIds, id_left, id_right, Frame.sib, ctxIds_append] at hx0 hx1 ⊢; omega) hm
  have hn_10 : t10.mem n = some ⟨l.ptr, some r, ctxPar up, kn, vn, cm⟩ := (f10 n hne_n_m).trans (hn_9)
  refine ⟨t10, ?_, hgood, hnext, hframe, hn_10⟩
  simp only [unlinkSucc, e1, e2, e3, e4, e5, e6, e7, e8, e9, e10, hs0, hleft, r1, r2, r3, r4, r5, r6, r7, r8, r9, r10, res_bind_ok, res_pure, setParentIf_none, Bool.not_false, Bool.not_true]

theorem toList_plug_congr (C : List (Frame K V)) {A B : Tree K V} (h : A.toList = B.toList) :
    (plug C A).toList = (plug C B).toList := by
  rw [toList_plug, toList_plug, h]

theorem rb_join {A B : Tree K V} {n : Nat} (hA : RB A n) (hB : RB B n) (ha : A.isRed = false)
    (hb : B.isRed = false) (id : Nat) (k : K) (v : V) (c : Bool) :
    RB (Tree.node A id k v c B) (n + if c then 0 else 1) :=
  ⟨fun _ => ⟨ha, hb⟩, n, rfl, hA, hB⟩

theorem ctxRB_cons (f : Frame K V) (up : List (Frame K V)) (n : Nat) :
    CtxRB (f :: up) n ↔ RB f.sib n ∧ (f.red = true → f.sib.isRed = false ∧ ctxRed up = false) ∧
      CtxRB up (n + if f.red then 0 else 1) :=
  Iff.rfl

theorem ctxBlackTop_cons (f : Frame K V) (up : List (Frame K V)) :
    ctxBlackTop (f :: up) ↔ (up = [] → f.red = false) ∧ ctxBlackTop up :=
  Iff.rfl

theorem fixPost_of {t t' : RBTree K V} {s : Nat} {C up : List (Frame K V)} {x R : Tree K V}
    (hg : GoodS t' s up R) (hrb : IsRB (plug up R)) (hl : (plug up R).toList = (plug C x).toList)
    (hn : t'.next = t.next) (hf : ∀ i, i ∉ s :: (x.ids ++ ctxIds C) → t'.mem i = t.mem i) :
    FixPost s t C x t' :=
  ⟨plug up R, goodS_plug hg, hrb, hl, hn, hf⟩

theorem fixPost_trans {t t1 t' : RBTree K V} {s : Nat} {C C1 : List (Frame K V)}
    {x x1 : Tree K V} (h : FixPost s t1 C1 x1 t')
    (hl : (plug C1 x1).toList = (plug C x).toList) (hn : t1.next = t.next)
    (hf : ∀ i, i ∉ s :: (x.ids ++ ctxIds C) → t1.mem i = t.mem i)
    (hsub : ∀ a, List.count a (s :: (x1.ids ++ ctxIds C1)) ≤ List.count a (s :: (x.ids ++ ctxIds C))) :
    FixPost s t C x t' := by
  obtain ⟨T', h1, h2, h3, h4, h5⟩ := h
  exact ⟨T', h1, h2, h3.trans hl, h4.trans hn,
    fun i hi => (h5 i (fun hm => hi (mem_of_count_le hsub hm))).trans (hf i hi)⟩

/-- The recolouring branch of `fixDelete` with `dir = 0`: the black sibling with
no red child becomes red, and the loop goes on one level up. -/
theorem rest_recolor_L (loop : RBTree K V → Nat → Bool → Res (RBTree K V)) {t : RBTree K V}
    {s : Nat} {up : List (Frame K V)} {x wn wf : Tree K V} {p w : Nat} {kp kw : K} {vp vw : V}
    {cp : Bool} (g : Nat)
    (h : GoodS t s (Frame.left p kp vp cp (Tree.node wn w kw vw false wf) :: up) x)
    (hn : wn.isRed = false) (hf : wf.isRed = false) :
    ∃ t1, fixDeleteRest loop t p g w false s = loop t1 (orRoot (ctxPar up) s) (ctxDir up) ∧
      GoodS t1 s up (Tree.node x p kp vp cp (Tree.node wn w kw vw true wf)) ∧
      t1.next = t.next ∧
      ∀ i, i ∉ (s :: (x.ids ++ ctxIds (Frame.left p kp vp cp (Tree.node wn w kw vw false wf) :: up))) →
        t1.mem i = t.mem i := by
  obtain ⟨t1, e1, hg1, hn1, hf1⟩ := recolor_L h
  have h' := h
  obtain ⟨-, ⟨⟨-, ⟨hraww, hRwn, hRwf⟩⟩, -⟩, -, hnd, -⟩ := h'
  have hg1' := hg1
  obtain ⟨-, ⟨⟨hp1, -⟩, hcup1⟩, hs1, -, -⟩ := hg1'
  have hpup : p ∉ ctxIds up :=
    fun hm => disj_of_nodup hnd [p] (ctxIds up) (fun aa => by simp only [List.count_append, List.count_cons, List.count_nil, Tree.ids, ctxIds, id_left, id_right, Frame.sib, ctxIds_append]; omega) p hm (by simp)
  have r1 : getLink t w false = Res.ok wn.ptr := getLink_eval hraww false
  have r2 : getLink t w true = Res.ok wf.ptr := getLink_eval hraww true
  have r3 : isRed t wn.ptr = Res.ok false := by rw [isRed_tree hRwn, hn]
  have r4 : isRed t wf.ptr = Res.ok false := by rw [isRed_tree hRwf, hf]
  have r5 : getParent t1 p = Res.ok (ctxPar up) := getParent_eval hp1
  obtain ⟨l0, r6, hdir⟩ := up_dir (show CtxS t1.mem s up (some p) from ⟨hcup1, hs1⟩) hpup
  refine ⟨t1, ?_, goodS_up hg1, hn1, hf1⟩
  simp only [fixDeleteRest, r1, r2, r3, r4, e1, r5, r6, hdir, Bool.false_eq_true, if_false, if_true, Bool.not_false, Bool.not_true, Bool.and_self, Bool.and_true, Bool.true_and, Bool.and_false, Bool.false_and, eq_self_iff_true, res_bind_ok, res_pure]

/-- The rotation branch of `fixDelete` with `dir = 0` for a red far nephew `z`:
one rotation of the sibling ends the loop. -/
theorem rest_far_L (loop : RBTree K V → Nat → Bool → Res (RBTree K V)) {t : RBTree K V}
    {s : Nat} {up : List (Frame K V)} {x wn zn zf : Tree K V} {p w z : Nat} {kp kw kz : K}
    {vp vw vz : V} {cp : Bool}
    (h : GoodS t s (Frame.left p kp vp cp (Tree.node wn w kw vw false (Tree.node zn z kz vz true zf)) :: up) x) :
    ∃ t', fixDeleteRest loop t p (orRoot (ctxPar up) s) w false s = Res.ok t' ∧
      GoodS t' s up (Tree.node (Tree.node x p kp vp false wn) w kw vw cp (Tree.node zn z kz vz false zf)) ∧
      t'.next = t.next ∧
      ∀ i, i ∉ (s :: (x.ids ++ ctxIds (Frame.left p kp vp cp (Tree.node wn w kw vw false (Tree.node zn z kz vz true zf)) :: up))) →
        t'.mem i = t.mem i := by
  obtain ⟨t', e, hg', hn', hf'⟩ := rotateSibling_L (sibL_of_goodS h)
  have h' := h
  obtain ⟨-, ⟨⟨-, ⟨hraww, hRwn, ⟨hrawz, hRzn, hRzf⟩⟩⟩, -⟩, -, -, -⟩ := h'
  have r1 : getLink t w false = Res.ok (wn.ptr) := getLink_eval hraww false
  have r2 : getLink t w true = Res.ok (some z) := getLink_eval hraww true
  have r3 : isRed t wn.ptr = Res.ok wn.isRed := isRed_tree hRwn
  have r4 : isRed t (some z) = Res.ok true := isRed_eval hrawz
  refine ⟨t', ?_, hg', hn', hf'⟩
  cases hn : wn.isRed <;>
    simp only [fixDeleteRest, r1, r2, r3, r4, hn, e, Bool.false_eq_true, if_false, if_true, Bool.not_false, Bool.not_true, Bool.and_self, Bool.and_true, Bool.true_and, Bool.and_false, Bool.false_and, eq_self_iff_true, res_bind_ok, res_pure]

/-- The rotation branch of `fixDelete` with `dir = 0` for a red near nephew `y`
and a far nephew that is not red: two rotations end the loop. -/
theorem rest_near_L (loop : RBTree K V → Nat → Bool → Res (RBTree K V)) {t : RBTree K V}
    {s : Nat} {up : List (Frame K V)} {x yn ys wf : Tree K V} {p w y : Nat} {kp kw ky : K}
    {vp vw vy : V} {cp : Bool}
    (h : GoodS t s (Frame.left p kp vp cp (Tree.node (Tree.node yn y ky vy true ys) w kw vw false wf) :: up) x)
    (hf : wf.isRed = false) :
    ∃ t', fixDeleteRest loop t p (orRoot (ctxPar up) s) w false s = Res.ok t' ∧
      GoodS t' s up (Tree.node (Tree.node x p kp vp false yn) y ky vy cp (Tree.node ys w kw vw false wf)) ∧
      t'.next = t.next ∧
      ∀ i, i ∉ (s :: (x.ids ++ ctxIds (Frame.left p kp vp cp (Tree.node (Tree.node yn y ky vy true ys) w kw vw false wf) :: up))) →
        t'.mem i = t.mem i := by
  obtain ⟨t1, e1, hs1, hn1, hf1⟩ := rotateNephew_L h
  obtain ⟨t2, e2, hg2, hn2, hf2⟩ := rotateSibling_L hs1
  have h' := h
  obtain ⟨-, ⟨⟨-, ⟨hraww, ⟨hrawy, hRyn, hRys⟩, hRwf⟩⟩, -⟩, -, -, -⟩ := h'
  have r1 : getLink t w false = Res.ok (some y) := getLink_eval hraww false
  have r2 : getLink t w true = Res.ok (wf.ptr) := getLink_eval hraww true
  have r3 : isRed t wf.ptr = Res.ok false := by rw [isRed_tree hRwf, hf]
  have r4 : isRed t (some y) = Res.ok true := isRed_eval hrawy
  have hsub : ∀ j, List.count j (s :: (x.ids ++ ctxIds (Frame.left p kp vp cp (Tree.node yn y ky vy false (Tree.node ys w kw vw true wf)) :: up))) ≤
      List.count j (s :: (x.ids ++ ctxIds (Frame.left p kp vp cp (Tree.node (Tree.node yn y ky vy true ys) w kw vw false wf) :: up))) := (fun aa => by simp only [List.count_append, List.count_cons, List.count_nil, Tree.ids, ctxIds, id_left, id_right, Frame.sib, ctxIds_append]; omega)
  refine ⟨t2, ?_, hg2, hn2.trans hn1,
    fun i hi => (hf2 i (fun hm => hi (mem_of_count_le hsub hm))).trans (hf1 i hi)⟩
  simp only [fixDeleteRest, r1, r2, r3, r4, e1, e2, Bool.false_eq_true, if_false, if_true, Bool.not_false, Bool.not_true, Bool.and_self, Bool.and_true, Bool.true_and, Bool.and_false, Bool.false_and, eq_self_iff_true, res_bind_ok, res_pure]

/-- One iteration of `fixDelete` with `dir = 0` from the test of the children
of a black sibling on: the repair ends with a rotation, or goes on one level up. -/
theorem black_L (fuel : Nat) {t : RBTree K V} {s : Nat} {up : List (Frame K V)}
    {x wn wf : Tree K V} {p w : Nat} {kp kw : K} {vp vw : V} {cp : Bool} (h : Nat)
    (IH : ∀ (t2 : RBTree K V) (x2 : Tree K V) (h2 : Nat), GoodS t2 s up x2 → RBw x2 h2 →
      CtxRB up (h2 + 1) → (x2.isRed = true ∧ 1 ≤ fuel ∨ up.length + 2 ≤ fuel) →
      ∃ t', fixDeleteLoop fuel t2 (orRoot (ctxPar up) s) (ctxDir up) s = Res.ok t' ∧
        FixPost s t2 up x2 t')
    (hg : GoodS t s (Frame.left p kp vp cp (Tree.node wn w kw vw false wf) :: up) x)
    (hx : x.isRed = false) (hrb : RB x h)
    (hc : CtxRB (Frame.left p kp vp cp (Tree.node wn w kw vw false wf) :: up) (h + 1))
    (hb : ctxBlackTop (Frame.left p kp vp cp (Tree.node wn w kw vw false wf) :: up))
    (hfuel : cp = true ∧ 1 ≤ fuel ∨ up.length + 2 ≤ fuel) :
    ∃ t', fixDeleteRest (fun t p dir => fixDeleteLoop fuel t p dir s) t p (orRoot (ctxPar up) s) w
        false s = Res.ok t' ∧
      FixPost s t (Frame.left p kp vp cp (Tree.node wn w kw vw false wf) :: up) x t' := by
  obtain ⟨hW, hcol, hcup⟩ := hc
  simp only [Frame.sib, Frame.red] at hW hcol hcup
  obtain ⟨hwn, hwf⟩ := (rb_black_succ _ _ _ _ _ _).1 hW
  have hR : ∀ R : Tree K V, RB R (h + 1 + if cp then 0 else 1) → R.isRed = cp →
      IsRB (plug up R) := fun R h1 h2 =>
    isRB_plug up R _ hcup h1
      (fun hr => by
        rw [h2]
        cases cp with
        | false => rfl
        | true =>
          have := (hcol rfl).2
          rw [hr] at this
          exact absurd this (by simp))
      hb.2 (fun hu => by rw [h2]; exact hb.1 hu)
  by_cases hfar : wf.isRed = true
  · cases wf with
    | nil => simp at hfar
    | node zn z kz vz cz zf =>
      simp only [isRed_node] at hfar
      subst hfar
      obtain ⟨hz1, hz2, hz3, hz4⟩ := (rb_red _ _ _ _ _ _).1 hwf
      obtain ⟨t', e, hg', hn', hf'⟩ := rest_far_L (fun t p dir => fixDeleteLoop fuel t p dir s) hg
      refine ⟨t', e, fixPost_of hg' (hR _ ?_ rfl) ?_ hn' hf'⟩
      · have hP : RB (Tree.node x p kp vp false wn) (h + 1) :=
          (rb_black_succ _ _ _ _ _ _).2 ⟨hrb, hwn⟩
        have hZ : RB (Tree.node zn z kz vz false zf) (h + 1) :=
          (rb_black_succ _ _ _ _ _ _).2 ⟨hz3, hz4⟩
        exact rb_join hP hZ rfl rfl _ _ _ _
      · exact toList_plug_congr up (by simp [Frame.fill, Tree.toList])
  · have hfar' : wf.isRed = false := by simpa using hfar
    by_cases hnear : wn.isRed = true
    · cases wn with
      | nil => simp at hnear
      | node yn y ky vy cy ys =>
        simp only [isRed_node] at hnear
        subst hnear
        obtain ⟨hy1, hy2, hy3, hy4⟩ := (rb_red _ _ _ _ _ _).1 hwn
        obtain ⟨t', e, hg', hn', hf'⟩ :=
          rest_near_L (fun t p dir => fixDeleteLoop fuel t p dir s) hg hfar'
        refine ⟨t', e, fixPost_of hg' (hR _ ?_ rfl) ?_ hn' hf'⟩
        · have hP : RB (Tree.node x p kp vp false yn) (h + 1) :=
            (rb_black_succ _ _ _ _ _ _).2 ⟨hrb, hy3⟩
          have hZ : RB (Tree.node ys w kw vw false wf) (h + 1) :=
            (rb_black_succ _ _ _ _ _ _).2 ⟨hy4, hwf⟩
          exact rb_join hP hZ rfl rfl _ _ _ _
        · exact toList_plug_congr up (by simp [Frame.fill, Tree.toList])
    · have hnear' : wn.isRed = false := by simpa using hnear
      obtain ⟨t1, e1, hg1, hn1, hf1⟩ :=
        rest_recolor_L (fun t p dir => fixDeleteLoop fuel t p dir s) (orRoot (ctxPar up) s) hg
          hnear' hfar'
      have hw' : RB (Tree.node wn w kw vw true wf) h :=
        (rb_red _ _ _ _ _ _).2 ⟨hnear', hfar', hwn, hwf⟩
      have hX : RB (Tree.node x p kp vp false (Tree.node wn w kw vw true wf)) (h + 1) :=
        (rb_black_succ _ _ _ _ _ _).2 ⟨hrb, hw'⟩
      have hsub : ∀ j, List.count j (s :: ((Tree.node x p kp vp cp (Tree.node wn w kw vw true wf)).ids ++ ctxIds up)) ≤
          List.count j (s :: (x.ids ++ ctxIds (Frame.left p kp vp cp (Tree.node wn w kw vw false wf) :: up))) := (fun aa => by simp only [List.count_append, List.count_cons, List.count_nil, Tree.ids, ctxIds, id_left, id_right, Frame.sib, ctxIds_append]; omega)
      have hl : (plug up (Tree.node x p kp vp cp (Tree.node wn w kw vw true wf))).toList =
          (plug (Frame.left p kp vp cp (Tree.node wn w kw vw false wf) :: up) x).toList :=
        toList_plug_congr up (by simp [Frame.fill, Tree.toList])
      cases cp with
      | false =>
        have hfu : up.length + 2 ≤ fuel := by
          rcases hfuel with h1 | h1
          · exact absurd h1.1 (by simp)
          · exact h1
        obtain ⟨t', e, hpost⟩ := IH t1 _ (h + 1) hg1 (by simpa [RBw] using hX) hcup (Or.inr hfu)
        exact ⟨t', e1.trans e, fixPost_trans hpost hl hn1 hf1 hsub⟩
      | true =>
        have hfu : 1 ≤ fuel := by
          rcases hfuel with h1 | h1
          · exact h1.2
          · omega
        obtain ⟨t', e, hpost⟩ := IH t1 _ h hg1 (by simpa [RBw, Tree.blacken] using hX) hcup
          (Or.inl ⟨rfl, hfu⟩)
        exact ⟨t', e1.trans e, fixPost_trans hpost hl hn1 hf1 hsub⟩

/-- One iteration of `fixDelete` with `dir = 0` at a subtree that is not red. -/
theorem iter_L (fuel : Nat) {t : RBTree K V} {s : Nat} {up : List (Frame K V)}
    {x W : Tree K V} {p : Nat} {kp : K} {vp : V} {cp : Bool} (h : Nat)
    (IH : ∀ (t2 : RBTree K V) (C2 : List (Frame K V)) (x2 : Tree K V) (h2 : Nat),
      GoodS t2 s C2 x2 → RBw x2 h2 → CtxRB C2 (h2 + 1) → ctxBlackTop C2 →
      (x2.isRed = true ∧ 1 ≤ fuel ∨ C2.length + 2 ≤ fuel) →
      ∃ t', fixDeleteLoop fuel t2 (orRoot (ctxPar C2) s) (ctxDir C2) s = Res.ok t' ∧
        FixPost s t2 C2 x2 t')
    (hg : GoodS t s (Frame.left p kp vp cp W :: up) x) (hx : x.isRed = false) (hrb : RB x h)
    (hc : CtxRB (Frame.left p kp vp cp W :: up) (h + 1))
    (hb : ctxBlackTop (Frame.left p kp vp cp W :: up)) (hfuel : up.length + 2 ≤ fuel) :
    ∃ t', fixDeleteLoop (fuel + 1) t p false s = Res.ok t' ∧
      FixPost s t (Frame.left p kp vp cp W :: up) x t' := by
  have hW := hc.1
  simp only [Frame.sib] at hW
  cases W with
  | nil => simp at hW
  | node wn w kw vw cw wf =>
    have h' := hg
    obtain ⟨hrx, ⟨⟨hp, hw, -, -⟩, -⟩, -, hnd, -⟩ := h'
    have hps : p ≠ s := by
      rintro rfl
      simp [ctxIds] at hnd
    have r1 : getLink t p false = Res.ok x.ptr := getLink_eval hp false
    have r2 : isRed t x.ptr = Res.ok false := by rw [isRed_tree hrx, hx]
    have r3 : getParent t p = Res.ok (ctxPar up) := getParent_eval hp
    have r4 : getLink t p true = Res.ok (some w) := getLink_eval hp true
    have r5 := load_eval hw
    cases cw with
    | false =>
      obtain ⟨t', e, hpost⟩ := black_L fuel h
        (fun t2 x2 h2 a b c d => IH t2 up x2 h2 a b c hb.2 d) hg hx hrb hc hb (Or.inr hfuel)
      refine ⟨t', ?_, hpost⟩
      simp only [fixDeleteLoop, r1, r2, hps, r3, r4, r5, e, Bool.false_eq_true, if_false, if_true, Bool.not_false, Bool.not_true, Bool.and_self, Bool.and_true, Bool.true_and, Bool.and_false, Bool.false_and, eq_self_iff_true, res_bind_ok, res_pure]
    | true =>
      have hcp : cp = false := by
        cases cp with
        | false => rfl
        | true =>
          have := (hc.2.1 rfl).1
          simp [Frame.sib] at this
      subst hcp
      obtain ⟨ha1, ha2, ha3, ha4⟩ := (rb_red _ _ _ _ _ _).1 hW
      cases wn with
      | nil => simp at ha3
      | node an a ka va ca af =>
        simp only [isRed_node] at ha1
        subst ha1
        obtain ⟨t1, e1, hg1, hn1, hf1⟩ := rotateRedSibling_L hg
        have hc1 : CtxRB (Frame.left p kp vp true (Tree.node an a ka va false af) ::
            Frame.left w kw vw false wf :: up) (h + 1) :=
          (ctxRB_cons _ _ _).2 ⟨ha3, fun _ => ⟨rfl, rfl⟩,
            (ctxRB_cons _ _ _).2 ⟨ha4, fun hh => absurd hh (by simp [Frame.red]), hc.2.2⟩⟩
        have hb1 : ctxBlackTop (Frame.left p kp vp true (Tree.node an a ka va false af) ::
            Frame.left w kw vw false wf :: up) :=
          (ctxBlackTop_cons _ _).2 ⟨fun hh => absurd hh (by simp),
            (ctxBlackTop_cons _ _).2 ⟨fun _ => rfl, hb.2⟩⟩
        obtain ⟨t', e, hpost⟩ := black_L fuel h
          (fun t2 x2 h2 a b c d => IH t2 _ x2 h2 a b c hb1.2 d) hg1 hx hrb hc1 hb1
          (Or.inl ⟨rfl, by omega⟩)
        have e' : fixDeleteRest (fun t p dir => fixDeleteLoop fuel t p dir s) t1 p w a false s =
            Res.ok t' := e
        have hsub : ∀ j, List.count j (s :: (x.ids ++ ctxIds (Frame.left p kp vp true (Tree.node an a ka va false af) :: Frame.left w kw vw false wf :: up))) ≤
            List.count j (s :: (x.ids ++ ctxIds (Frame.left p kp vp false (Tree.node (Tree.node an a ka va false af) w kw vw true wf) :: up))) := (fun aa => by simp only [List.count_append, List.count_cons, List.count_nil, Tree.ids, ctxIds, id_left, id_right, Frame.sib, ctxIds_append]; omega)
        refine ⟨t', ?_, fixPost_trans hpost ?_ hn1 hf1 hsub⟩
        · simp only [fixDeleteLoop, r1, r2, hps, r3, r4, r5, e1, e', Bool.false_eq_true, if_false, if_true, Bool.not_false, Bool.not_true, Bool.and_self, Bool.and_true, Bool.true_and, Bool.and_false, Bool.false_and, eq_self_iff_true, res_bind_ok, res_pure]
        · exact toList_plug_congr up (by simp [Frame.fill, Tree.toList])

/-- The recolouring branch of `fixDelete` with `dir = 1`: the black sibling with
no red child becomes red, and the loop goes on one level up. -/
theorem rest_recolor_R (loop : RBTree K V → Nat → Bool → Res (RBTree K V)) {t : RBTree K V}
    {s : Nat} {up : List (Frame K V)} {x wn wf : Tree K V} {p w : Nat} {kp kw : K} {vp vw : V}
    {cp : Bool} (g : Nat)
    (h : GoodS t s (Frame.right (Tree.node wf w kw vw false wn) p kp vp cp :: up) x)
    (hn : wn.isRed = false) (hf : wf.isRed = false) :
    ∃ t1, fixDeleteRest loop t p g w true s = loop t1 (orRoot (ctxPar up) s) (ctxDir up) ∧
      GoodS t1 s up (Tree.node (Tree.node wf w kw vw true wn) p kp vp cp x) ∧
      t1.next = t.next ∧
      ∀ i, i ∉ (s :: (x.ids ++ ctxIds (Frame.right (Tree.node wf w kw vw false wn) p kp vp cp :: up))) →
        t1.mem i = t.mem i := by
  obtain ⟨t1, e1, hg1, hn1, hf1⟩ := recolor_R h
  have h' := h
  obtain ⟨-, ⟨⟨-, ⟨hraww, hRwf, hRwn⟩⟩, -⟩, -, hnd, -⟩ := h'
  have hg1' := hg1
  obtain ⟨-, ⟨⟨hp1, -⟩, hcup1⟩, hs1, -, -⟩ := hg1'
  have hpup : p ∉ ctxIds up :=
    fun hm => disj_of_nodup hnd [p] (ctxIds up) (fun aa => by simp only [List.count_append, List.count_cons, List.count_nil, Tree.ids, ctxIds, id_left, id_right, Frame.sib, ctxIds_append]; omega) p hm (by simp)
  have r1 : getLink t w false = Res.ok wf.ptr := getLink_eval hraww false
  have r2 : getLink t w true = Res.ok wn.ptr := getLink_eval hraww true
  have r3 : isRed t wn.ptr = Res.ok false := by rw [isRed_tree hRwn, hn]
  have r4 : isRed t wf.ptr = Res.ok false := by rw [isRed_tree hRwf, hf]
  have r5 : getParent t1 p = Res.ok (ctxPar up) := getParent_eval hp1
  obtain ⟨l0, r6, hdir⟩ := up_dir (show CtxS t1.mem s up (some p) from ⟨hcup1, hs1⟩) hpup
  refine ⟨t1, ?_, goodS_up hg1, hn1, hf1⟩
  simp only [fixDeleteRest, r1, r2, r3, r4, e1, r5, r6, hdir, Bool.false_eq_true, if_false, if_true, Bool.not_false, Bool.not_true, Bool.and_self, Bool.and_true, Bool.true_and, Bool.and_false, Bool.false_and, eq_self_iff_true, res_bind_ok, res_pure]

/-- The rotation branch of `fixDelete` with `dir = 1` for a red far nephew `z`:
one rotation of the sibling ends the loop. -/
theorem rest_far_R (loop : RBTree K V → Nat → Bool → Res (RBTree K V)) {t : RBTree K V}
    {s : Nat} {up : List (Frame K V)} {x wn zn zf : Tree K V} {p w z : Nat} {kp kw kz : K}
    {vp vw vz : V} {cp : Bool}
    (h : GoodS t s (Frame.right (Tree.node (Tree.node zf z kz vz true zn) w kw vw false wn) p kp vp cp :: up) x) :
    ∃ t', fixDeleteRest loop t p (orRoot (ctxPar up) s) w true s = Res.ok t' ∧
      GoodS t' s up (Tree.node (Tree.node zf z kz vz false zn) w kw vw cp (Tree.node wn p kp vp false x)) ∧
      t'.next = t.next ∧
      ∀ i, i ∉ (s :: (x.ids ++ ctxIds (Frame.right (Tree.node (Tree.node zf z kz vz true zn) w kw vw false wn) p kp vp cp :: up))) →
        t'.mem i = t.mem i := by
  obtain ⟨t', e, hg', hn', hf'⟩ := rotateSibling_R (sibR_of_goodS h)
  have h' := h
  obtain ⟨-, ⟨⟨-, ⟨hraww, ⟨hrawz, hRzf, hRzn⟩, hRwn⟩⟩, -⟩, -, -, -⟩ := h'
  have r1 : getLink t w false = Res.ok (some z) := getLink_eval hraww false
  have r2 : getLink t w true = Res.ok (wn.ptr) := getLink_eval hraww true
  have r3 : isRed t wn.ptr = Res.ok wn.isRed := isRed_tree hRwn
  have r4 : isRed t (some z) = Res.ok true := isRed_eval hrawz
  refine ⟨t', ?_, hg', hn', hf'⟩
  cases hn : wn.isRed <;>
    simp only [fixDeleteRest, r1, r2, r3, r4, hn, e, Bool.false_eq_true, if_false, if_true, Bool.not_false, Bool.not_true, Bool.and_self, Bool.and_true, Bool.true_and, Bool.and_false, Bool.false_and, eq_self_iff_true, res_bind_ok, res_pure]

/-- The rotation branch of `fixDelete` with `dir = 1` for a red near nephew `y`
and a far nephew that is not red: two rotations end the loop. -/
theorem rest_near_R (loop : RBTree K V → Nat → Bool → Res (RBTree K V)) {t : RBTree K V}
    {s : Nat} {up : List (Frame K V)} {x yn ys wf : Tree K V} {p w y : Nat} {kp kw ky : K}
    {vp vw vy : V} {cp : Bool}
    (h : GoodS t s (Frame.right (Tree.node wf w kw vw false (Tree.node ys y ky vy true yn)) p kp vp cp :: up) x)
    (hf : wf.isRed = false) :
    ∃ t', fixDeleteRest loop t p (orRoot (ctxPar up) s) w true s = Res.ok t' ∧
      GoodS t' s up (Tree.node (Tree.node wf w kw vw false ys) y ky vy cp (Tree.node yn p kp vp false x)) ∧
      t'.next = t.next ∧
      ∀ i, i ∉ (s :: (x.ids ++ ctxIds (Frame.right (Tree.node wf w kw vw false (Tree.node ys y ky vy true yn)) p kp vp cp :: up))) →
        t'.mem i = t.mem i := by
  obtain ⟨t1, e1, hs1, hn1, hf1⟩ := rotateNephew_R h
  obtain ⟨t2, e2, hg2, hn2, hf2⟩ := rotateSibling_R hs1
  have h' := h
  obtain ⟨-, ⟨⟨-, ⟨hraww, hRwf, ⟨hrawy, hRys, hRyn⟩⟩⟩, -⟩, -, -, -⟩ := h'
  have r1 : getLink t w false = Res.ok (wf.ptr) := getLink_eval hraww false
  have r2 : getLink t w true = Res.ok (some y) := getLink_eval hraww true
  have r3 : isRed t wf.ptr = Res.ok false := by rw [isRed_tree hRwf, hf]
  have r4 : isRed t (some y) = Res.ok true := isRed_eval hrawy
  have hsub : ∀ j, List.count j (s :: (x.ids ++ ctxIds (Frame.right (Tree.node (Tree.node wf w kw vw true ys) y ky vy false yn) p kp vp cp :: up))) ≤
      List.count j (s :: (x.ids ++ ctxIds (Frame.right (Tree.node wf w kw vw false (Tree.node ys y ky vy true yn)) p kp vp cp :: up))) := (fun aa => by simp only [List.count_append, List.count_cons, List.count_nil, Tree.ids, ctxIds, id_left, id_right, Frame.sib, ctxIds_append]; omega)
  refine ⟨t2, ?_, hg2, hn2.trans hn1,
    fun i hi => (hf2 i (fun hm => hi (mem_of_count_le hsub hm))).trans (hf1 i hi)⟩
  simp only [fixDeleteRest, r1, r2, r3, r4, e1, e2, Bool.false_eq_true, if_false, if_true, Bool.not_false, Bool.not_true, Bool.and_self, Bool.and_true, Bool.true_and, Bool.and_false, Bool.false_and, eq_self_iff_true, res_bind_ok, res_pure]

/-- One iteration of `fixDelete` with `dir = 1` from the test of the children
of a black sibling on: the repair ends with a rotation, or goes on one level up. -/
theorem black_R (fuel : Nat) {t : RBTree K V} {s : Nat} {up : List (Frame K V)}
    {x wn wf : Tree K V} {p w : Nat} {kp kw : K} {vp vw : V} {cp : Bool} (h : Nat)
    (IH : ∀ (t2 : RBTree K V) (x2 : Tree K V) (h2 : Nat), GoodS t2 s up x2 → RBw x2 h2 →
      CtxRB up (h2 + 1) → (x2.isRed = true ∧ 1 ≤ fuel ∨ up.length + 2 ≤ fuel) →
      ∃ t', fixDeleteLoop fuel t2 (orRoot (ctxPar up) s) (ctxDir up) s = Res.ok t' ∧
        FixPost s t2 up x2 t')
    (hg : GoodS t s (Frame.right (Tree.node wf w kw vw false wn) p kp vp cp :: up) x)
    (hx : x.isRed = false) (hrb : RB x h)
    (hc : CtxRB (Frame.right (Tree.node wf w kw vw false wn) p kp vp cp :: up) (h + 1))
    (hb : ctxBlackTop (Frame.right (Tree.node wf w kw vw false wn) p kp vp cp :: up))
    (hfuel : cp = true ∧ 1 ≤ fuel ∨ up.length + 2 ≤ fuel) :
    ∃ t', fixDeleteRest (fun t p dir => fixDeleteLoop fuel t p dir s) t p (orRoot (ctxPar up) s) w
        true s = Res.ok t' ∧
      FixPost s t (Frame.right (Tree.node wf w kw vw false wn) p kp vp cp :: up) x t' := by
  obtain ⟨hW, hcol, hcup⟩ := hc
  simp only [Frame.sib, Frame.red] at hW hcol hcup
  obtain ⟨hwf, hwn⟩ := (rb_black_succ _ _ _ _ _ _).1 hW
  have hR : ∀ R : Tree K V, RB R (h + 1 + if cp then 0 else 1) → R.isRed = cp →
      IsRB (plug up R) := fun R h1 h2 =>
    isRB_plug up R _ hcup h1
      (fun hr => by
        rw [h2]
        cases cp with
        | false => rfl
        | true =>
          have := (hcol rfl).2
          rw [hr] at this
          exact absurd this (by simp))
      hb.2 (fun hu => by rw [h2]; exact hb.1 hu)
  by_cases hfar : wf.isRed = true
  · cases wf with
    | nil => simp at hfar
    | node zf z kz vz cz zn =>
      simp only [isRed_node] at hfar
      subst hfar
      obtain ⟨hz1, hz2, hz3, hz4⟩ := (rb_red _ _ _ _ _ _).1 hwf
      obtain ⟨t', e, hg', hn', hf'⟩ := rest_far_R (fun t p dir => fixDeleteLoop fuel t p dir s) hg
      refine ⟨t', e, fixPost_of hg' (hR _ ?_ rfl) ?_ hn' hf'⟩
      · have hP : RB (Tree.node wn p kp vp false x) (h + 1) :=
          (rb_black_succ _ _ _ _ _ _).2 ⟨hwn, hrb⟩
        have hZ : RB (Tree.node zf z kz vz false zn) (h + 1) :=
          (rb_black_succ _ _ _ _ _ _).2 ⟨hz3, hz4⟩
        exact rb_join hZ hP rfl rfl _ _ _ _
      · exact toList_plug_congr up (by simp [Frame.fill, Tree.toList])
  · have hfar' : wf.isRed = false := by simpa using hfar
    by_cases hnear : wn.isRed = true
    · cases wn with
      | nil => simp at hnear
      | node ys y ky vy cy yn =>
        simp only [isRed_node] at hnear
        subst hnear
        obtain ⟨hy1, hy2, hy3, hy4⟩ := (rb_red _ _ _ _ _ _).1 hwn
        obtain ⟨t', e, hg', hn', hf'⟩ :=
          rest_near_R (fun t p dir => fixDeleteLoop fuel t p dir s) hg hfar'
        refine ⟨t', e, fixPost_of hg' (hR _ ?_ rfl) ?_ hn' hf'⟩
        · have hP : RB (Tree.node yn p kp vp false x) (h + 1) :=
            (rb_black_succ _ _ _ _ _ _).2 ⟨hy4, hrb⟩
          have hZ : RB (Tree.node wf w kw vw false ys) (h + 1) :=
            (rb_black_succ _ _ _ _ _ _).2 ⟨hwf, hy3⟩
          exact rb_join hZ hP rfl rfl _ _ _ _
        · exact toList_plug_congr up (by simp [Frame.fill, Tree.toList])
    · have hnear' : wn.isRed = false := by simpa using hnear
      obtain ⟨t1, e1, hg1, hn1, hf1⟩ :=
        rest_recolor_R (fun t p dir => fixDeleteLoop fuel t p dir s) (orRoot (ctxPar up) s) hg
          hnear' hfar'
      have hw' : RB (Tree.node wf w kw vw true wn) h :=
        (rb_red _ _ _ _ _ _).2 ⟨hfar', hnear', hwf, hwn⟩
      have hX : RB (Tree.node (Tree.node wf w kw vw true wn) p kp vp false x) (h + 1) :=
        (rb_black_succ _ _ _ _ _ _).2 ⟨hw', hrb⟩
      have hsub : ∀ j, List.count j (s :: ((Tree.node (Tree.node wf w kw vw true wn) p kp vp cp x).ids ++ ctxIds up)) ≤
          List.count j (s :: (x.ids ++ ctxIds (Frame.right (Tree.node wf w kw vw false wn) p kp vp cp :: up))) := (fun aa => by simp only [List.count_append, List.count_cons, List.count_nil, Tree.ids, ctxIds, id_left, id_right, Frame.sib, ctxIds_append]; omega)
      have hl : (plug up (Tree.node (Tree.node wf w kw vw true wn) p kp vp cp x)).toList =
          (plug (Frame.right (Tree.node wf w kw vw false wn) p kp vp cp :: up) x).toList :=
        toList_plug_congr up (by simp [Frame.fill, Tree.toList])
      cases cp with
      | false =>
        have hfu : up.length + 2 ≤ fuel := by
          rcases hfuel with h1 | h1
          · exact absurd h1.1 (by simp)
          · exact h1
        obtain ⟨t', e, hpost⟩ := IH t1 _ (h + 1) hg1 (by simpa [RBw] using hX) hcup (Or.inr hfu)
        exact ⟨t', e1.trans e, fixPost_trans hpost hl hn1 hf1 hsub⟩
      | true =>
        have hfu : 1 ≤ fuel := by
          rcases hfuel with h1 | h1
          · exact h1.2
          · omega
        obtain ⟨t', e, hpost⟩ := IH t1 _ h hg1 (by simpa [RBw, Tree.blacken] using hX) hcup
          (Or.inl ⟨rfl, hfu⟩)
        exact ⟨t', e1.trans e, fixPost_trans hpost hl hn1 hf1 hsub⟩

/-- One iteration of `fixDelete` with `dir = 1` at a subtree that is not red. -/
theorem iter_R (fuel : Nat) {t : RBTree K V} {s : Nat} {up : List (Frame K V)}
    {x W : Tree K V} {p : Nat} {kp : K} {vp : V} {cp : Bool} (h : Nat)
    (IH : ∀ (t2 : RBTree K V) (C2 : List (Frame K V)) (x2 : Tree K V) (h2 : Nat),
      GoodS t2 s C2 x2 → RBw x2 h2 → CtxRB C2 (h2 + 1) → ctxBlackTop C2 →
      (x2.isRed = true ∧ 1 ≤ fuel ∨ C2.length + 2 ≤ fuel) →
      ∃ t', fixDeleteLoop fuel t2 (orRoot (ctxPar C2) s) (ctxDir C2) s = Res.ok t' ∧
        FixPost s t2 C2 x2 t')
    (hg : GoodS t s (Frame.right W p kp vp cp :: up) x) (hx : x.isRed = false) (hrb : RB x h)
    (hc : CtxRB (Frame.right W p kp vp cp :: up) (h + 1))
    (hb : ctxBlackTop (Frame.right W p kp vp cp :: up)) (hfuel : up.length + 2 ≤ fuel) :
    ∃ t', fixDeleteLoop (fuel + 1) t p true s = Res.ok t' ∧
      FixPost s t (Frame.right W p kp vp cp :: up) x t' := by
  have hW := hc.1
  simp only [Frame.sib] at hW
  cases W with
  | nil => simp at hW
  | node wf w kw vw cw wn =>
    have h' := hg
    obtain ⟨hrx, ⟨⟨hp, hw, -, -⟩, -⟩, -, hnd, -⟩ := h'
    have hps : p ≠ s := by
      rintro rfl
      simp [ctxIds] at hnd
    have r1 : getLink t p true = Res.ok x.ptr := getLink_eval hp true
    have r2 : isRed t x.ptr = Res.ok false := by rw [isRed_tree hrx, hx]
    have r3 : getParent t p = Res.ok (ctxPar up) := getParent_eval hp
    have r4 : getLink t p false = Res.ok (some w) := getLink_eval hp false
    have r5 := load_eval hw
    cases cw with
    | false =>
      obtain ⟨t', e, hpost⟩ := black_R fuel h
        (fun t2 x2 h2 a b c d => IH t2 up x2 h2 a b c hb.2 d) hg hx hrb hc hb (Or.inr hfuel)
      refine ⟨t', ?_, hpost⟩
      simp only [fixDeleteLoop, r1, r2, hps, r3, r4, r5, e, Bool.false_eq_true, if_false, if_true, Bool.not_false, Bool.not_true, Bool.and_self, Bool.and_true, Bool.true_and, Bool.and_false, Bool.false_and, eq_self_iff_true, res_bind_ok, res_pure]
    | true =>
      have hcp : cp = false := by
        cases cp with
        | false => rfl
        | true =>
          have := (hc.2.1 rfl).1
          simp [Frame.sib] at this
      subst hcp
      obtain ⟨ha1, ha2, ha3, ha4⟩ := (rb_red _ _ _ _ _ _).1 hW
      cases wn with
      | nil => simp at ha4
      | node af a ka va ca an =>
        simp only [isRed_node] at ha2
        subst ha2
        obtain ⟨t1, e1, hg1, hn1, hf1⟩ := rotateRedSibling_R hg
        have hc1 : CtxRB (Frame.right (Tree.node af a ka va false an) p kp vp true ::
            Frame.right wf w kw vw false :: up) (h + 1) :=
          (ctxRB_cons _ _ _).2 ⟨ha4, fun _ => ⟨rfl, rfl⟩,
            (ctxRB_cons _ _ _).2 ⟨ha3, fun hh => absurd hh (by simp [Frame.red]), hc.2.2⟩⟩
        have hb1 : ctxBlackTop (Frame.right (Tree.node af a ka va false an) p kp vp true ::
            Frame.right wf w kw vw false :: up) :=
          (ctxBlackTop_cons _ _).2 ⟨fun hh => absurd hh (by simp),
            (ctxBlackTop_cons _ _).2 ⟨fun _ => rfl, hb.2⟩⟩
        obtain ⟨t', e, hpost⟩ := black_R fuel h
          (fun t2 x2 h2 a b c d => IH t2 _ x2 h2 a b c hb1.2 d) hg1 hx hrb hc1 hb1
          (Or.inl ⟨rfl, by omega⟩)
        have e' : fixDeleteRest (fun t p dir => fixDeleteLoop fuel t p dir s) t1 p w a true s =
            Res.ok t' := e
        have hsub : ∀ j, List.count j (s :: (x.ids ++ ctxIds (Frame.right (Tree.node af a ka va false an) p kp vp true :: Frame.right wf w kw vw false :: up))) ≤
            List.count j (s :: (x.ids ++ ctxIds (Frame.right (Tree.node wf w kw vw true (Tree.node af a ka va false an)) p kp vp false :: up))) := (fun aa => by simp only [List.count_append, List.count_cons, List.count_nil, Tree.ids, ctxIds, id_left, id_right, Frame.sib, ctxIds_append]; omega)
        refine ⟨t', ?_, fixPost_trans hpost ?_ hn1 hf1 hsub⟩
        · simp only [fixDeleteLoop, r1, r2, hps, r3, r4, r5, e1, e', Bool.false_eq_true, if_false, if_true, Bool.not_false, Bool.not_true, Bool.and_self, Bool.and_true, Bool.true_and, Bool.and_false, Bool.false_and, eq_self_iff_true, res_bind_ok, res_pure]
        · exact toList_plug_congr up (by simp [Frame.fill, Tree.toList])

/-- The loop of `fixDelete` returns within its budget and ends on a red-black
tree with the same pairs: `x` is the subtree that lacks one black node, `C`
the path above it. -/
theorem fixDeleteLoop_spec (s : Nat) : ∀ (fuel : Nat) (t : RBTree K V) (C : List (Frame K V))
    (x : Tree K V) (h : Nat), GoodS t s C x → RBw x h → CtxRB C (h + 1) → ctxBlackTop C →
    (x.isRed = true ∧ 1 ≤ fuel ∨ C.length + 2 ≤ fuel) →
    ∃ t', fixDeleteLoop fuel t (orRoot (ctxPar C) s) (ctxDir C) s = Res.ok t' ∧
      FixPost s t C x t' := by
  intro fuel
  induction fuel with
  | zero =>
    intro t C x h _ _ _ _ hf
    rcases hf with ⟨_, h1⟩ | h1 <;> omega
  | succ fuel ih =>
    intro t C x h hg hw hc hb hf
    have r1 := hole_read hg
    have r2 : isRed t x.ptr = Res.ok x.isRed := isRed_tree hg.1
    by_cases hx : x.isRed = true
    · cases x with
      | nil => simp at hx
      | node xl xi kx vx cx xr =>
        simp only [isRed_node] at hx
        subst hx
        obtain ⟨t', e, hg', hn', hf'⟩ := blacken_hole hg
        have r1' : getLink t (orRoot (ctxPar C) s) (ctxDir C) = Res.ok (some xi) := r1
        have r2' : isRed t (some xi) = Res.ok true := r2
        refine ⟨t', ?_, fixPost_of hg' ?_ (toList_plug_congr C rfl) hn' hf'⟩
        · simp only [fixDeleteLoop, r1', r2', e, if_true, res_bind_ok]
        · exact isRB_plug C _ (h + 1) hc (by simpa [RBw, Tree.blacken] using hw) (fun _ => rfl) hb
            (fun _ => rfl)
    · have hx' : x.isRed = false := by simpa using hx
      have hrb : RB x h := by simpa [RBw, hx'] using hw
      cases C with
      | nil =>
        have r1' : getLink t s false = Res.ok x.ptr := r1
        refine ⟨t, ?_, x, hg, ⟨hx', h, hrb⟩, rfl, rfl, fun _ _ => rfl⟩
        show fixDeleteLoop (fuel + 1) t s false s = Res.ok t
        simp only [fixDeleteLoop, r1', r2, hx', Bool.false_eq_true, if_false, if_true,
          res_bind_ok, res_pure]
      | cons f up =>
        have hfu : up.length + 2 ≤ fuel := by
          rcases hf with h1 | h1
          · rw [hx'] at h1
            exact absurd h1.1 (by simp)
          · simp only [List.length_cons] at h1
            omega
        cases f with
        | left p kp vp cp W => exact iter_L fuel h ih hg hx' hrb hc hb hfu
        | right W p kp vp cp => exact iter_R fuel h ih hg hx' hrb hc hb hfu

theorem sameShape_refl (T : Tree K V) : SameShape T T := by
  induction T with
  | nil => trivial
  | node l id k v c r ihl ihr => exact ⟨rfl, ihl, ihr⟩

theorem sameShape_isRed {A B : Tree K V} (h : SameShape A B) : A.isRed = B.isRed := by
  cases A <;> cases B
  · rfl
  · exact h.elim
  · exact h.elim
  · exact h.1

theorem rb_sameShape {A : Tree K V} : ∀ {B : Tree K V} {n : Nat}, SameShape A B → RB A n →
    RB B n := by
  induction A with
  | nil =>
    intro B n h hrb
    cases B with
    | nil => exact hrb
    | node l id k v c r => exact h.elim
  | node l id k v c r ihl ihr =>
    intro B n h hrb
    cases B with
    | nil => exact h.elim
    | node l' id' k' v' c' r' =>
      obtain ⟨hc, hl, hr⟩ := h
      subst hc
      obtain ⟨h1, m, h2, h3, h4⟩ := hrb
      refine ⟨fun e => ?_, m, h2, ihl hl h3, ihr hr h4⟩
      rw [← sameShape_isRed hl, ← sameShape_isRed hr]
      exact h1 e

theorem sameShape_fill (f : Frame K V) {A B : Tree K V} (h : SameShape A B) :
    SameShape (f.fill A) (f.fill B) := by
  cases f with
  | left id k v c r => exact ⟨rfl, h, sameShape_refl r⟩
  | right l id k v c => exact ⟨rfl, sameShape_refl l, h⟩

theorem sameShape_plug (C : List (Frame K V)) : ∀ {A B : Tree K V}, SameShape A B →
    SameShape (plug C A) (plug C B) := by
  induction C with
  | nil => intro A B h; exact h
  | cons f up ih => intro A B h; exact ih (sameShape_fill f h)

theorem isRB_sameShape {A B : Tree K V} (h : SameShape A B) (hrb : IsRB A) : IsRB B :=
  ⟨(sameShape_isRed h).symm.trans hrb.1, hrb.2.imp fun _ hn => rb_sameShape h hn⟩

theorem rb_unplug : ∀ (C : List (Frame K V)) (S : Tree K V) (N : Nat), RB (plug C S) N →
    ∃ n, RB S n ∧ CtxRB C n ∧ (ctxRed C = true → S.isRed = false) := by
  intro C
  induction C with
  | nil => intro S N h; exact ⟨N, h, trivial, fun e => absurd e (by simp [ctxRed])⟩
  | cons f up ih =>
    intro S N h
    obtain ⟨n', h1, h2, h3⟩ := ih (f.fill S) N h
    rw [isRed_fill] at h3
    have hup : f.red = true → ctxRed up = false := fun e => by
      cases hu : ctxRed up with
      | false => rfl
      | true =>
        rw [h3 hu] at e
        exact absurd e (by simp)
    cases f with
    | left id k v c r =>
      obtain ⟨g1, m, g2, g3, g4⟩ := h1
      refine ⟨m, g3, ⟨g4, fun e => ⟨(g1 e).2, hup e⟩, g2 ▸ h2⟩, fun e => (g1 e).1⟩
    | right l id k v c =>
      obtain ⟨g1, m, g2, g3, g4⟩ := h1
      refine ⟨m, g4, ⟨g3, fun e => ⟨(g1 e).1, hup e⟩, g2 ▸ h2⟩, fun e => (g1 e).2⟩

theorem blackTop_unplug : ∀ (C : List (Frame K V)) (S : Tree K V), (plug C S).isRed = false →
    ctxBlackTop C ∧ (C = [] → S.isRed = false) := by
  intro C
  induction C with
  | nil => intro S h; exact ⟨trivial, fun _ => h⟩
  | cons f up ih =>
    intro S h
    obtain ⟨h1, h2⟩ := ih (f.fill S) h
    rw [isRed_fill] at h2
    exact ⟨⟨h2, h1⟩, fun e => absurd e (by simp)⟩

theorem rbw_of_rb {x : Tree K V} {h : Nat} (hx : RB x h) : RBw x h := by
  cases x with
  | nil => simpa [RBw] using hx
  | node l id k v c r =>
    cases c with
    | false => simpa [RBw] using hx
    | true =>
      have := rb_blacken_red hx
      simpa [RBw] using this

/-- Taking a node with at most one child out of a red-black tree: if the node
is red the child in its place leaves a red-black tree, and if it is black the
child lacks one black node. -/
theorem rb_remove {C : List (Frame K V)} {M x : Tree K V} {id : Nat} {k : K} {v : V} {c : Bool}
    (hM : M = Tree.node Tree.nil id k v c x ∨ M = Tree.node x id k v c Tree.nil)
    (h : IsRB (plug C M)) :
    (c = true → IsRB (plug C x)) ∧ (c = false → RBw x 0 ∧ CtxRB C (0 + 1) ∧ ctxBlackTop C) := by
  obtain ⟨hr, N, hN⟩ := h
  obtain ⟨j, h1, h2, h3⟩ := rb_unplug C M N hN
  obtain ⟨h4, h5⟩ := blackTop_unplug C M hr
  have hx : (c = true → x.isRed = false) ∧ RB x 0 ∧ j = 0 + if c then 0 else 1 := by
    rcases hM with rfl | rfl
    · obtain ⟨g1, m, g2, g3, g4⟩ := h1
      have : m = 0 := g3
      subst this
      exact ⟨fun e => (g1 e).2, g4, g2⟩
    · obtain ⟨g1, m, g2, g3, g4⟩ := h1
      have : m = 0 := g4
      subst this
      exact ⟨fun e => (g1 e).1, g3, g2⟩
  obtain ⟨hx1, hx2, hj⟩ := hx
  constructor
  · intro e
    subst e
    simp only [if_true, Nat.add_zero] at hj
    subst hj
    exact isRB_plug C x 0 h2 hx2 (fun _ => hx1 rfl) h4 (fun _ => hx1 rfl)
  · intro e
    subst e
    simp only [Bool.false_eq_true, if_false] at hj
    subst hj
    exact ⟨rbw_of_rb hx2, h2, h4⟩

theorem goodS_bound {t : RBTree K V} {s : Nat} {C : List (Frame K V)} {x : Tree K V}
    (h : GoodS t s C x) : C.length + 1 ≤ t.next := by
  obtain ⟨-, -, -, hnd, hlt⟩ := h
  have h1 := length_le_of_nodup_lt hnd hlt
  have h2 := length_le_ctxIds C
  simp only [List.length_cons, List.length_append] at h1
  omega

theorem ctxL_allLeft {D : List (Frame K V)} (h : AllLeft D) : ctxL D = [] := by
  induction D with
  | nil => rfl
  | cons f D ih =>
    cases f with
    | left id k v c r => exact ih h.2
    | right l id k v c => exact absurd h.1 (by simp [Frame.dir])

theorem toList_plug_left {D : List (Frame K V)} (h : AllLeft D) (X : Tree K V) :
    (plug D X).toList = X.toList ++ ctxR D := by
  rw [toList_plug, ctxL_allLeft h, List.nil_append]

/-- The node the successor takes the place of and the node at the bottom of
the path to the successor swap their keys: the tree keeps its shape. -/
theorem succ_shape (C D : List (Frame K V)) (l mr : Tree K V) (n m : Nat) (k km : K) (v vm : V)
    (c cm : Bool) :
    SameShape (plug C (Tree.node l n k v c (plug D (Tree.node Tree.nil m km vm cm mr))))
      (plug (D ++ Frame.right l m km vm c :: C) (Tree.node Tree.nil n k v cm mr)) := by
  rw [plug_append]
  exact sameShape_plug C ⟨rfl, sameShape_refl l, sameShape_plug D ⟨rfl, trivial, sameShape_refl mr⟩⟩

theorem succ_toList (C : List (Frame K V)) {D : List (Frame K V)} (hD : AllLeft D)
    (l mr : Tree K V) (n m : Nat) (k km : K) (v vm : V) (c cm : Bool) :
    ∃ A B, (plug C (Tree.node l n k v c (plug D (Tree.node Tree.nil m km vm cm mr)))).toList =
        A ++ (k, v) :: B ∧
      (plug (D ++ Frame.right l m km vm c :: C) mr).toList = A ++ B := by
  refine ⟨ctxL C ++ l.toList, (km, vm) :: mr.toList ++ ctxR D ++ ctxR C, ?_, ?_⟩
  · simp [toList_plug C, toList_plug_left hD, Tree.toList]
  · rw [plug_append]
    show (plug C (Tree.node l m km vm c (plug D mr))).toList = _
    simp [toList_plug C, toList_plug_left hD, Tree.toList]

theorem searchLoop_find (cmp : K → K → Int) (hcmp : TotalOrder cmp) (t : RBTree K V) (key : K)
    (sub : Tree K V) : ∀ (C : List (Frame K V)) (par : Option Nat) (fuel : Nat),
      Repr t.mem par sub → sub.height < fuel → Ascending cmp sub.toList →
      ∃ res, searchLoop cmp t key fuel sub.ptr = Res.ok res ∧
        ((res = none ∧ ∀ x ∈ sub.toList, cmp x.1 key ≠ 0) ∨
          ∃ C' l n k v c r, res = some n ∧ plug C sub = plug C' (Tree.node l n k v c r) ∧
            cmp k key = 0) := by
  induction sub with
  | nil =>
    intro C par fuel _ hf _
    cases fuel with
    | zero => simp [Tree.height] at hf
    | succ fuel => exact ⟨none, rfl, Or.inl ⟨rfl, by simp [Tree.toList]⟩⟩
  | node l id k v c r ihl ihr =>
    intro C par fuel hr hf hasc
    obtain ⟨hn, hl, hrr⟩ := hr
    obtain ⟨hal, har, hlk, hkr⟩ := asc_node _ _ _ _ hasc
    cases fuel with
    | zero => simp at hf
    | succ fuel =>
      simp only [Tree.height] at hf
      simp only [ptr_node, searchLoop, load, hn, res_bind_ok, Tree.toList]
      by_cases h1 : cmp k key > 0
      · simp only [h1, if_true]
        obtain ⟨res, hres, hpost⟩ :=
          ihl (Frame.left id k v c r :: C) (some id) fuel hl (by omega) hal
        refine ⟨res, hres, ?_⟩
        rcases hpost with ⟨e, hnone⟩ | hfound
        · refine Or.inl ⟨e, fun x hx => ?_⟩
          rcases List.mem_append.1 hx with hx | hx
          · exact hnone x hx
          · rcases List.mem_cons.1 hx with rfl | hx
            · show cmp k key ≠ 0
              omega
            · exact cmp_ne_of_gt hcmp (hkr x hx) (by omega)
        · exact Or.inr hfound
      · by_cases h2 : cmp k key < 0
        · simp only [h1, h2, if_true, if_false]
          obtain ⟨res, hres, hpost⟩ :=
            ihr (Frame.right l id k v c :: C) (some id) fuel hrr (by omega) har
          refine ⟨res, hres, ?_⟩
          rcases hpost with ⟨e, hnone⟩ | hfound
          · refine Or.inl ⟨e, fun x hx => ?_⟩
            rcases List.mem_append.1 hx with hx | hx
            · exact cmp_ne_of_lt hcmp (hlk x hx) (by omega)
            · rcases List.mem_cons.1 hx with rfl | hx
              · show cmp k key ≠ 0
                omega
              · exact hnone x hx
          · exact Or.inr hfound
        · simp only [h1, h2, if_false]
          have h0 : cmp k key = 0 := by omega
          exact ⟨some id, rfl, Or.inr ⟨C, l, id, k, v, c, r, rfl, rfl, h0⟩⟩

theorem parentDir_spec {t : RBTree K V} {s : Nat} {C : List (Frame K V)} {l r : Tree K V}
    {n : Nat} {k : K} {v : V} {c : Bool} (h : GoodS t s C (Tree.node l n k v c r)) :
    parentDir t n s = Res.ok (orRoot (ctxPar C) s, ctxDir C) := by
  obtain ⟨⟨hn, -, -⟩, hc, -, hnd, -⟩ := h
  have r1 := getParent_eval hn
  cases C with
  | nil => simp [parentDir, r1, ctxPar, orRoot, ctxDir]
  | cons f up =>
    cases f with
    | left p kp vp cp sib =>
      have r2 := getLink_eval hc.1.1 true
      have hne : sib.ptr ≠ some n := fun e =>
        disj_of_nodup hnd [n] sib.ids (fun a => by
          simp only [List.count_append, List.count_cons, List.count_nil, Tree.ids, ctxIds,
            id_left, id_right, Frame.sib]
          omega) n (ptr_mem e) (by simp)
      simp [parentDir, r1, r2, ctxPar, orRoot, ctxDir, Frame.dir, Node.link, hne]
    | right sib p kp vp cp =>
      have r2 := getLink_eval hc.1.1 true
      simp [parentDir, r1, r2, ctxPar, orRoot, ctxDir, Frame.dir, Node.link]

/-- The node `n` is taken out of the tree: the state holds the tree with the
subtree `x2` at the end of the path `C2` in the place of a node `M` with at
most one child that has the colour `n` now holds, and the pairs are those of
the tree without the pair of `n`. -/
theorem unlink_spec {t : RBTree K V} {s : Nat} {C : List (Frame K V)} {l r : Tree K V} {n : Nat}
    {k : K} {v : V} {c : Bool} (h : GoodS t s C (Tree.node l n k v c r)) :
    ∃ t2 C2 x2 cdel a b c0 M,
      unlink t n (orRoot (ctxPar C) s) (ctxDir C) =
        Res.ok (t2, orRoot (ctxPar C2) s, ctxDir C2) ∧
      GoodS t2 s C2 x2 ∧ t2.next = t.next ∧ t2.mem n = some ⟨a, b, c0, k, v, cdel⟩ ∧
      n ∉ s :: (x2.ids ++ ctxIds C2) ∧
      (M = Tree.node Tree.nil n k v cdel x2 ∨ M = Tree.node x2 n k v cdel Tree.nil) ∧
      SameShape (plug C (Tree.node l n k v c r)) (plug C2 M) ∧
      ∃ A B, (plug C (Tree.node l n k v c r)).toList = A ++ (k, v) :: B ∧
        (plug C2 x2).toList = A ++ B := by
  have h' := h
  obtain ⟨⟨hn, hl, hr⟩, hc, hs, hnd, hlt⟩ := h'
  have r1 : getLink t n true = Res.ok r.ptr := getLink_eval hn true
  cases r with
  | nil =>
    obtain ⟨t2, e, hg2, hn2, -, hrec⟩ := unlinkLeaf_spec h
    refine ⟨t2, C, l, c, _, _, _, _, ?_, hg2, hn2, hrec, ?_, Or.inr rfl, sameShape_refl _,
      ctxL C ++ l.toList, ctxR C, ?_, ?_⟩
    · simp only [unlink, r1, ptr_nil, res_bind_ok, e]
    · refine not_mem_ctx hnd n _ (fun a => ?_)
      simp only [List.count_append, List.count_cons, List.count_nil, Tree.ids, ctxIds,
        id_left, id_right, Frame.sib]
      omega
    · simp [toList_plug, Tree.toList]
    · simp [toList_plug]
  | node rl r' kr vr cr rr =>
    have r2 : getLink t r' false = Res.ok rl.ptr := getLink_eval hr.1 false
    by_cases hrl : rl = Tree.nil
    · subst hrl
      obtain ⟨t2, e, hg2, hn2, -, hrec⟩ := unlinkChild_spec h
      refine ⟨t2, Frame.right l r' kr vr c :: C, rr, cr, _, _, _, _, ?_, hg2, hn2, hrec, ?_,
        Or.inl rfl, succ_shape C [] l rr n r' k kr v vr c cr,
        @succ_toList _ _ C [] trivial l rr n r' k kr v vr c cr⟩
      · simp only [unlink, r1, r2, ptr_nil, ptr_node, res_bind_ok, e]
        rfl
      · refine not_mem_ctx hnd n _ (fun a => ?_)
        simp only [List.count_append, List.count_cons, List.count_nil, Tree.ids, ctxIds,
          id_left, id_right, Frame.sib]
        omega
    · obtain ⟨D', m, km, vm, cm, mr, hRl, hD'⟩ := exists_leftmost rl hrl
      subst hRl
      have hrm := ((repr_plug_seg t.mem (some r') D' _).1 hr.2.1).1.1
      have hlen := length_le_of_nodup_lt hnd hlt
      have hp := (ids_plug D' (Tree.node Tree.nil m km vm cm mr)).length_eq
      have hDl := length_le_ctxIds D'
      simp only [Tree.ids, List.length_cons, List.length_append] at hlen hp
      have hfu : t.next - D'.length + 1 + D'.length = t.next + 1 := by omega
      obtain ⟨top, htop, hlm⟩ := leftmost_plug D' (Tree.node Tree.nil m km vm cm mr) m
        (some r') (t.next - D'.length + 1) hD' rfl hr.2.1
      rw [hfu, leftmost_stop hrm rfl] at hlm
      have r2' : getLink t r' false = Res.ok (some top) := by rw [← htop]; exact r2
      cases D' with
      | nil =>
        obtain ⟨t2, e, hg2, hn2, -, hrec⟩ := unlinkSucc_near h
        refine ⟨t2, Frame.left r' kr vr cr rr :: Frame.right l m km vm c :: C, mr, cm, _, _, _,
          _, ?_, hg2, hn2, hrec, ?_, Or.inl rfl,
          succ_shape C [Frame.left r' kr vr cr rr] l mr n m k km v vm c cm,
          @succ_toList _ _ C [Frame.left r' kr vr cr rr] ⟨rfl, trivial⟩ l mr n m k km v
            vm c cm⟩
        · simp only [unlink, r1, r2', ptr_node, res_bind_ok, e]
          rfl
        · refine not_mem_ctx hnd n _ (fun a => ?_)
          simp only [List.count_append, List.count_cons, List.count_nil, Tree.ids, ctxIds,
            id_left, id_right, Frame.sib, plug]
          omega
      | cons f D'' =>
        cases f with
        | right ql q kq vq cq => exact absurd hD'.1 (by simp [Frame.dir])
        | left q kq vq cq qr =>
          have hR : Tree.node (plug (Frame.left q kq vq cq qr :: D'')
              (Tree.node Tree.nil m km vm cm mr)) r' kr vr cr rr =
              plug (Frame.left q kq vq cq qr :: (D'' ++ [Frame.left r' kr vr cr rr]))
                (Tree.node Tree.nil m km vm cm mr) := by
            rw [← List.cons_append, plug_append]
            rfl
          have hroot : ctxRoot (D'' ++ [Frame.left r' kr vr cr rr]) (some q) = some r' := by
            rw [ctxRoot_append]
            rfl
          have hall : AllLeft (Frame.left q kq vq cq qr :: (D'' ++ [Frame.left r' kr vr cr rr])) :=
            ⟨rfl, allLeft_append hD'.2 ⟨rfl, trivial⟩⟩
          rw [hR] at h hnd ⊢
          obtain ⟨t2, e, hg2, hn2, -, hrec⟩ := unlinkSucc_far (by simp) hroot r2' hlm h
          refine ⟨t2, Frame.left q kq vq cq qr ::
              (D'' ++ [Frame.left r' kr vr cr rr] ++ Frame.right l m km vm c :: C), mr, cm, _, _,
            _, _, ?_, hg2, hn2, hrec, ?_, Or.inl rfl,
            succ_shape C _ l mr n m k km v vm c cm, succ_toList C hall l mr n m k km v vm c cm⟩
          · simp only [unlink, r1, r2', ptr_node, res_bind_ok, e]
            rfl
          · refine not_mem_ctx hnd n _ (fun a => ?_)
            simp only [List.count_append, List.count_cons, List.count_nil, Tree.ids, ctxIds,
              id_left, id_right, Frame.sib, ctxIds_append, count_plug]
            omega

/-- The end of `Delete` repairs the colours if the node taken out was black,
stores the root pointer and returns the value of the node. -/
theorem finishDelete_spec {t2 : RBTree K V} {s n : Nat} {C2 : List (Frame K V)} {x2 : Tree K V}
    {a b c0 : Option Nat} {k : K} {v : V} {cdel : Bool} (hg2 : GoodS t2 s C2 x2)
    (hrec : t2.mem n = some ⟨a, b, c0, k, v, cdel⟩) (hn : n ∉ s :: (x2.ids ++ ctxIds C2))
    (hred : cdel = true → IsRB (plug C2 x2))
    (hblack : cdel = false → RBw x2 0 ∧ CtxRB C2 (0 + 1) ∧ ctxBlackTop C2) :
    ∃ t' T', finishDelete t2 n (orRoot (ctxPar C2) s) (ctxDir C2) s = Res.ok (t', some v) ∧
      Good t' T' ∧ IsRB T' ∧ T'.toList = (plug C2 x2).toList ∧ t'.next = t2.next := by
  have r1 := load_eval hrec
  have h3 : ∃ t3 T', (cdel = false →
        fixDelete t2 (orRoot (ctxPar C2) s) (ctxDir C2) s = Res.ok t3) ∧
      (cdel = true → t3 = t2) ∧ GoodS t3 s [] T' ∧ IsRB T' ∧
      T'.toList = (plug C2 x2).toList ∧ t3.next = t2.next ∧ t3.mem n = t2.mem n := by
    cases cdel with
    | true =>
      exact ⟨t2, _, fun e => absurd e (by simp), fun _ => rfl, goodS_plug hg2, hred rfl, rfl,
        rfl, rfl⟩
    | false =>
      obtain ⟨hw, hc, hb⟩ := hblack rfl
      have hfu := goodS_bound hg2
      obtain ⟨t3, e, T', h1, h2, h3, h4, h5⟩ :=
        fixDeleteLoop_spec s (t2.next + 1) t2 C2 x2 0 hg2 hw hc hb (Or.inr (by omega))
      exact ⟨t3, T', fun _ => e, fun e => absurd e (by simp), h1, h2, h3, h4, h5 n hn⟩
  obtain ⟨t3, T', e3, e4, hg3, hrb3, hl3, hn3, hm3⟩ := h3
  obtain ⟨rn, hrn⟩ := goodS_sentinel hg3
  have r2 := load_eval hrn
  have r3 : load { t3 with root := rn.link0 } (some n) = Res.ok ⟨a, b, c0, k, v, cdel⟩ :=
    @load_eval _ _ { t3 with root := rn.link0 } _ _ (hm3.trans hrec)
  refine ⟨{ t3 with root := rn.link0 }, T', ?_, good_of_goodS hg3 hrn, hrb3, hl3, hn3⟩
  cases cdel with
  | true =>
    have e5 := e4 rfl
    subst e5
    simp only [finishDelete, r1, Bool.not_true, Bool.false_eq_true, if_false, res_bind_ok, r2,
      r3, res_pure]
  | false =>
    simp only [finishDelete, r1, Bool.not_false, if_true, e3 rfl, res_bind_ok, r2, r3, res_pure]

theorem filter_remove {cmp : K → K → Int} (hcmp : TotalOrder cmp) {A B : List (K × V)} {k key : K}
    {v : V} (hasc : Ascending cmp (A ++ (k, v) :: B)) (h0 : cmp k key = 0) :
    (A ++ (k, v) :: B).filter (fun kv => decide (cmp kv.1 key ≠ 0)) = A ++ B := by
  obtain ⟨-, -, hA, hB⟩ := asc_node _ _ _ _ hasc
  have e := (hcmp.eq_zero k key).1 h0
  subst e
  rw [List.filter_append, List.filter_cons]
  have h1 : List.filter (fun kv => decide (cmp kv.1 k ≠ 0)) A = A :=
    List.filter_eq_self.2 (fun x hx => by
      have := hA x hx
      simp only [decide_eq_true_eq]
      omega)
  have h2 : List.filter (fun kv => decide (cmp kv.1 k ≠ 0)) B = B :=
    List.filter_eq_self.2 (fun x hx => by
      have := (hcmp.antisymm k x.1).1 (hB x hx)
      simp only [decide_eq_true_eq]
      omega)
  rw [h1, h2]
  simp [h0]

/-- `Delete` returns the value stored under `key`, if any, and leaves a
red-black tree that holds the other pairs. -/
theorem Delete_spec [Inhabited K] [Inhabited V] (cmp : K → K → Int) (hcmp : TotalOrder cmp)
    (t : RBTree K V) (T : Tree K V) (key : K) (hg : Good t T) (hasc : Ascending cmp T.toList)
    (hrb : IsRB T) :
    ∃ t' T', Delete cmp t key = Res.ok (t', lookup cmp T.toList key) ∧ Good t' T' ∧ IsRB T' ∧
      T'.toList = T.toList.filter (fun kv => decide (cmp kv.1 key ≠ 0)) := by
  have hb := goodAt_bound hg
  obtain ⟨res, hres, hpost⟩ :=
    searchLoop_find cmp hcmp t key T [] none (t.next + 1) hg.1 (by omega) hasc
  have hsn : searchNode cmp t key = Res.ok res := by
    unfold searchNode
    rw [hg.2.2.1]
    exact hres
  rcases hpost with ⟨rfl, hnone⟩ | ⟨C, l, n, k, v, c, r, rfl, hT, h0⟩
  · refine ⟨t, T, ?_, hg, hrb, ?_⟩
    · simp only [Delete, hsn, res_bind_ok]
      rw [lookup_none_of_forall cmp _ key hnone]
      rfl
    · exact (List.filter_eq_self.2 (fun x hx => by simpa using hnone x hx)).symm
  · have hT' : T = plug C (Tree.node l n k v c r) := hT
    subst hT'
    have hgs := goodS_withRoot ((good_plug t C _).1 hg)
    have e1 := parentDir_spec hgs
    obtain ⟨t2, C2, x2, cdel, a, b, c0, M, e2, hg2, hn2, hrec, hnot, hM, hsh, A, B, hA, hB⟩ :=
      unlink_spec hgs
    have hrm := rb_remove hM (isRB_sameShape hsh hrb)
    obtain ⟨t', T', e3, hg', hrb', hl', -⟩ := finishDelete_spec hg2 hrec hnot hrm.1 hrm.2
    refine ⟨t', T', ?_, hg', hrb', ?_⟩
    · simp only [Delete, hsn, res_bind_ok, e1, e2, e3]
      rw [hA, lookup_found hcmp A B k key v v (hA ▸ hasc) h0]
    · rw [hl', hB, hA, filter_remove hcmp (hA ▸ hasc) h0]

theorem isRB_nil : IsRB (Tree.nil : Tree K V) := ⟨rfl, 0, rfl⟩

theorem build_full (cmp : K → K → Int) (hcmp : TotalOrder cmp) (ops : List (K × V)) :
    ∃ t T, build cmp ops = Res.ok t ∧ Good t T ∧ IsRB T ∧ Ascending cmp T.toList ∧
      ∀ k', lookup cmp T.toList k' = lookup cmp ops k' := by
  induction ops with
  | nil =>
    exact ⟨RBTree.empty, Tree.nil, rfl, good_empty, isRB_nil, List.Pairwise.nil, fun _ => rfl⟩
  | cons kv rest ih =>
    obtain ⟨t, T, hb, hg, hrb, hasc, hlook⟩ := ih
    obtain ⟨t', ret, T', hins, hg', hrb', hasc', -, hself, hother⟩ :=
      Insert_full cmp hcmp t T kv.1 kv.2 hg hasc hrb
    refine ⟨t', T', ?_, hg', hrb', hasc', fun k' => ?_⟩
    · simp only [build, hb, hins, res_bind_ok, res_pure]
    · rw [lookup_cons]
      by_cases h : cmp kv.1 k' = 0
      · rw [if_pos h, ← (hcmp.eq_zero _ _).1 h]
        exact hself
      · rw [if_neg h, hother k' (fun hk => h ((hcmp.eq_zero _ _).2 hk.symm))]
        exact hlook k'

theorem lookup_filter {cmp : K → K → Int} (hcmp : TotalOrder cmp) (L : List (K × V))
    (key k' : K) :
    lookup cmp (L.filter (fun kv => decide (cmp kv.1 key ≠ 0))) k' =
      if cmp key k' = 0 then none else lookup cmp L k' := by
  induction L with
  | nil => simp [lookup_nil]
  | cons x L ih =>
    by_cases hx : cmp x.1 key = 0
    · have e := (hcmp.eq_zero _ _).1 hx
      rw [List.filter_cons, if_neg (by simpa using hx), ih, lookup_cons, e]
      by_cases hk : cmp key k' = 0 <;> simp [hk]
    · rw [List.filter_cons, if_pos (by simpa using hx), lookup_cons, lookup_cons, ih]
      by_cases hk : cmp key k' = 0
      · have e := (hcmp.eq_zero _ _).1 hk
        subst e
        simp [hx, hk]
      · simp [hk]

theorem lookup_some_mem {cmp : K → K → Int} {L : List (K × V)} {k : K} {v : V}
    (h : lookup cmp L k = some v) : ∃ kv ∈ L, cmp kv.1 k = 0 := by
  induction L with
  | nil => simp [lookup_nil] at h
  | cons x L ih =>
    rw [lookup_cons] at h
    by_cases hx : cmp x.1 k = 0
    · exact ⟨x, by simp, hx⟩
    · rw [if_neg hx] at h
      obtain ⟨kv, h1, h2⟩ := ih h
      exact ⟨kv, by simp [h1], h2⟩

theorem toList_eq_nil {T : Tree K V} (h : T.toList = []) : T = Tree.nil := by
  cases T with
  | nil => rfl
  | node l id k v c r => simp [Tree.toList] at h

/-- A run of `Delete` calls keeps the state a red-black tree that holds the
pairs of the keys not deleted yet, and returns the values of `deleteReturns`. -/
theorem deleteAll_spec [Inhabited K] [Inhabited V] (cmp : K → K → Int) (hcmp : TotalOrder cmp)
    (L : List (K × V)) : ∀ (ds seen : List K) (t : RBTree K V) (T : Tree K V), Good t T →
      Ascending cmp T.toList → IsRB T →
      (∀ k, lookup cmp T.toList k =
        if seen.any (fun a => decide (cmp a k = 0)) then none else lookup cmp L k) →
      ∃ t' T', deleteAll cmp ds t = Res.ok (t', deleteReturns cmp L seen ds) ∧ Good t' T' ∧
        ∀ k, lookup cmp T'.toList k =
          if (ds.reverse ++ seen).any (fun a => decide (cmp a k = 0)) then none
          else lookup cmp L k := by
  intro ds
  induction ds with
  | nil =>
    intro seen t T hg _ _ hinv
    exact ⟨t, T, rfl, hg, by simpa using hinv⟩
  | cons k ks ih =>
    intro seen t T hg hasc hrb hinv
    obtain ⟨t1, T1, e1, hg1, hrb1, hl1⟩ := Delete_spec cmp hcmp t T k hg hasc hrb
    have hasc1 : Ascending cmp T1.toList := by
      rw [hl1]
      exact List.Pairwise.sublist (List.filter_sublist _) hasc
    have hinv1 : ∀ k', lookup cmp T1.toList k' =
        if (k :: seen).any (fun a => decide (cmp a k' = 0)) then none else lookup cmp L k' := by
      intro k'
      rw [hl1, lookup_filter hcmp, hinv k', List.any_cons]
      by_cases hk : cmp k k' = 0
      · simp [hk]
      · simp [hk]
    obtain ⟨t', T', e2, hg', hinv'⟩ := ih (k :: seen) t1 T1 hg1 hasc1 hrb1 hinv1
    refine ⟨t', T', ?_, hg', fun k' => ?_⟩
    · simp only [deleteAll, e1, e2, res_bind_ok, res_pure, deleteReturns, hinv k]
    · rw [hinv' k']
      simp

theorem delete_all_spec [Inhabited K] [Inhabited V] (cmp : K → K → Int) (hcmp : TotalOrder cmp)
    (ops : List (K × V)) :
    ∃ t t', build cmp ops = Res.ok t ∧
      deleteAll cmp (ops.map Prod.fst).reverse t =
        Res.ok (t', deleteReturns cmp ops [] (ops.map Prod.fst).reverse) ∧
      t'.root = none := by
  obtain ⟨t, T, hb, hg, hrb, hasc, hlook⟩ := build_full cmp hcmp ops
  obtain ⟨t', T', e, hg', hinv⟩ :=
    deleteAll_spec cmp hcmp ops (ops.map Prod.fst).reverse [] t T hg hasc hrb
      (fun k => by simpa using hlook k)
  refine ⟨t, t', hb, e, ?_⟩
  have hnil : T'.toList = [] := by
    cases hT : T'.toList with
    | nil => rfl
    | cons x rest =>
      have h1 := hinv x.1
      rw [hT, lookup_cons, if_pos (cmp_self hcmp x.1)] at h1
      by_cases hany : ((ops.map Prod.fst).reverse.reverse ++ []).any
          (fun a => decide (cmp a x.1 = 0)) = true
      · rw [if_pos hany] at h1
        exact absurd h1 (by simp)
      · rw [if_neg hany] at h1
        obtain ⟨kv, hm, h0⟩ := lookup_some_mem h1.symm
        exact absurd (List.any_eq_true.2 ⟨kv.1, by simpa using ⟨kv.2, hm⟩, by simpa using h0⟩) hany
  have hT' := toList_eq_nil hnil
  subst hT'
  exact hg'.2.2.1

/-- C21: for every list of pairs inserted into an empty generic tree under a
total-order `Cmp` (the list `ops` holds them with the most recent first),
calling `Delete` once for the key of each element of the list, in the order
of the insertions, leaves the root nil; each `Delete` returns the value last
stored under its key the first time the key is deleted, and nothing once the
key has been deleted. -/
theorem delete_all_empties {K V : Type} [Inhabited K] [Inhabited V] (cmp : K → K → Int)
    (hcmp : TotalOrder cmp) (ops : List (K × V)) :
    ∃ t t', build cmp ops = Res.ok t ∧
      deleteAll cmp (ops.map Prod.fst).reverse t =
        Res.ok (t', deleteReturns cmp ops [] (ops.map Prod.fst).reverse) ∧
      t'.root = none :=
  delete_all_spec cmp hcmp ops

theorem delete_all_empties_witness :
    TotalOrder intCmp ∧
      ∃ t t', build intCmp [((1 : Int), (30 : Nat)), (2, 20), (1, 10)] = Res.ok t ∧
        deleteAll intCmp ([((1 : Int), (30 : Nat)), (2, 20), (1, 10)].map Prod.fst).reverse t =
          Res.ok (t', deleteReturns intCmp [((1 : Int), (30 : Nat)), (2, 20), (1, 10)] []
            ([((1 : Int), (30 : Nat)), (2, 20), (1, 10)].map Prod.fst).reverse) ∧
        t'.root = none :=
  ⟨intCmp_total, delete_all_empties intCmp intCmp_total [((1 : Int), (30 : Nat)), (2, 20), (1, 10)]⟩

end RBTreeGo2

namespace RBTreeInt

@[simp] theorem isRed_lift (t : Tree) (x : Option Nat) :
    RBTreeGo2.isRed (lift t) x = isRed t x := by
  cases x with
  | none => rfl
  | some i => simp [RBTreeGo2.isRed, isRed, RBTreeGo2.res_bind_assoc]

@[simp] theorem orRoot_lift (q : Option Nat) (root : Nat) :
    RBTreeGo2.orRoot q root = orRoot q root := rfl

theorem bind_ext {α β : Type} (x : Res α) {f g : α → Res β} (h : ∀ a, f a = g a) :
    x >>= f = x >>= g := by
  have : f = g := funext h
  rw [this]

@[simp] theorem replaceChild_lift (t : Tree) (g p w : Nat) :
    RBTreeGo2.replaceChild (lift t) g p w =
      replaceChild t g p w >>= fun t' => RBTreeGo2.Res.ok (lift t') := by
  simp only [RBTreeGo2.replaceChild, replaceChild, getLink_lift, RBTreeGo2.res_bind_assoc]
  refine bind_ext _ fun l0 => ?_
  by_cases h : l0 = some p <;> simp [h]

@[simp] theorem rotateRedSibling_lift (t : Tree) (p g w : Nat) (dir : Bool) :
    RBTreeGo2.rotateRedSibling (lift t) p g w dir =
      rotateRedSibling t p g w dir >>= fun r => RBTreeGo2.Res.ok (lift r.1, r.2) := by
  simp only [RBTreeGo2.rotateRedSibling, rotateRedSibling, getLink_lift, getParent_lift,
    setLink_lift, setParent_lift, setRed_lift, replaceChild_lift, RBTreeGo2.res_bind_assoc,
    RBTreeGo2.res_bind_ok, RBTreeGo2.res_pure]
  repeat (refine bind_ext _ ?_; intro _)
  split <;> simp [RBTreeGo2.res_bind_assoc]

@[simp] theorem rotateNephew_lift (t : Tree) (p w : Nat) (dir : Bool) :
    RBTreeGo2.rotateNephew (lift t) p w dir =
      rotateNephew t p w dir >>= fun r => RBTreeGo2.Res.ok (lift r.1, r.2) := by
  simp only [RBTreeGo2.rotateNephew, rotateNephew, getLink_lift, getParent_lift,
    setLink_lift, setParent_lift, setRed_lift, setParentIf_lift, RBTreeGo2.res_bind_assoc,
    RBTreeGo2.res_bind_ok, RBTreeGo2.res_pure]
  repeat (refine bind_ext _ ?_; intro _)
  split
  · rfl
  · simp only [getLink_lift, getParent_lift,
      setLink_lift, setParent_lift, setRed_lift, setParentIf_lift, RBTreeGo2.res_bind_assoc,
      RBTreeGo2.res_bind_ok, RBTreeGo2.res_pure]
    repeat (refine bind_ext _ ?_; intro _)
    split <;> simp [RBTreeGo2.res_bind_assoc]

@[simp] theorem rotateSibling_lift (t : Tree) (p g w : Nat) (dir : Bool) :
    RBTreeGo2.rotateSibling (lift t) p g w dir =
      rotateSibling t p g w dir >>= fun t' => RBTreeGo2.Res.ok (lift t') := by
  simp only [RBTreeGo2.rotateSibling, rotateSibling, getLink_lift, getParent_lift, load_lift,
    setLink_lift, setParent_lift, setRed_lift, setParentIf_lift, replaceChild_lift,
    RBTreeGo2.res_bind_assoc, RBTreeGo2.res_bind_ok, RBTreeGo2.res_pure, liftNode_red]
  repeat (refine bind_ext _ ?_; intro _)
  split
  · rfl
  · simp [RBTreeGo2.res_bind_assoc]

theorem fixDeleteRest_lift (gloop : RBTreeGo2.RBTree Int Unit → Nat → Bool →
      RBTreeGo2.Res (RBTreeGo2.RBTree Int Unit))
    (loop : Tree → Nat → Bool → Res Tree)
    (hloop : ∀ t p dir, gloop (lift t) p dir = loop t p dir >>= fun t' => RBTreeGo2.Res.ok (lift t'))
    (t : Tree) (p g wi : Nat) (dir : Bool) (root : Nat) :
    RBTreeGo2.fixDeleteRest gloop (lift t) p g wi dir root =
      fixDeleteRest loop t p g wi dir root >>= fun t' => RBTreeGo2.Res.ok (lift t') := by
  simp only [RBTreeGo2.fixDeleteRest, fixDeleteRest, getLink_lift, getParent_lift, isRed_lift,
    setRed_lift, orRoot_lift, RBTreeGo2.res_bind_assoc, RBTreeGo2.res_bind_ok,
    RBTreeGo2.res_pure]
  refine bind_ext _ fun w0 => ?_
  refine bind_ext _ fun r0 => ?_
  refine bind_ext _ fun w1 => ?_
  have helse : (do
        let ws ← getLink t wi !dir
        let rs ← isRed t ws
        if (!rs) = true then do
            let y ← RBTreeGo2.rotateNephew (lift t) p wi dir
            RBTreeGo2.rotateSibling y.1 p g y.2 dir
          else RBTreeGo2.rotateSibling (lift t) p g wi dir) =
      (do
        let ws ← getLink t wi !dir
        let rs ← isRed t ws
        if (!rs) = true then do
            let y ← rotateNephew t p wi dir
            rotateSibling y.1 p g y.2 dir
          else rotateSibling t p g wi dir) >>= fun t' => RBTreeGo2.Res.ok (lift t') := by
    simp only [RBTreeGo2.res_bind_assoc]
    refine bind_ext _ fun ws => ?_
    refine bind_ext _ fun rs => ?_
    cases rs <;> simp [RBTreeGo2.res_bind_assoc]
  cases r0 with
  | true =>
    simp only [Bool.not_true, Bool.and_self, Bool.false_eq_true, if_true, if_false]
    exact helse
  | false =>
    simp only [Bool.false_eq_true, if_false, RBTreeGo2.res_bind_assoc]
    refine bind_ext _ fun y => ?_
    cases y with
    | true =>
      simp only [Bool.not_true, Bool.and_false, Bool.false_eq_true, if_false]
      exact helse
    | false =>
      simp only [Bool.not_false, Bool.and_self, if_true, hloop, RBTreeGo2.res_bind_assoc,
        RBTreeGo2.res_bind_ok]

theorem fixDeleteLoop_lift (root : Nat) : ∀ (fuel : Nat) (t : Tree) (p : Nat) (dir : Bool),
    RBTreeGo2.fixDeleteLoop fuel (lift t) p dir root =
      fixDeleteLoop fuel t p dir root >>= fun t' => RBTreeGo2.Res.ok (lift t') := by
  intro fuel
  induction fuel with
  | zero => intro t p dir; rfl
  | succ fuel ih =>
    intro t p dir
    rw [RBTreeGo2.fixDeleteLoop, fixDeleteLoop]
    simp only [getLink_lift, getParent_lift, isRed_lift, load_lift, setRed_lift, orRoot_lift,
      RBTreeGo2.res_bind_assoc, RBTreeGo2.res_bind_ok, RBTreeGo2.res_pure]
    refine bind_ext _ fun x => ?_
    refine bind_ext _ fun xRed => ?_
    cases xRed with
    | true =>
      cases x with
      | none => rfl
      | some xi => simp
    | false =>
      simp only [Bool.false_eq_true, if_false]
      by_cases hp : p = root
      · simp [hp]
      · simp only [hp, if_false, RBTreeGo2.res_bind_assoc]
        refine bind_ext _ fun pp => ?_
        refine bind_ext _ fun w => ?_
        cases w with
        | none => rfl
        | some wi =>
          simp only [load_lift, RBTreeGo2.res_bind_assoc, RBTreeGo2.res_bind_ok, liftNode_red]
          refine bind_ext _ fun wn => ?_
          rcases Bool.eq_false_or_eq_true wn.red with hw | hw
          · simp only [hw, if_true, rotateRedSibling_lift, RBTreeGo2.res_bind_assoc,
              RBTreeGo2.res_bind_ok]
            refine bind_ext _ fun r => ?_
            exact fixDeleteRest_lift _ _ (fun t p dir => ih t p dir) _ _ _ _ _ _
          · simp only [hw, Bool.false_eq_true, if_false, RBTreeGo2.res_pure,
              RBTreeGo2.res_bind_ok]
            exact fixDeleteRest_lift _ _ (fun t p dir => ih t p dir) _ _ _ _ _ _

@[simp] theorem fixDelete_lift (t : Tree) (p : Nat) (dir : Bool) (root : Nat) :
    RBTreeGo2.fixDelete (lift t) p dir root =
      fixDelete t p dir root >>= fun t' => RBTreeGo2.Res.ok (lift t') :=
  fixDeleteLoop_lift root (t.next + 1) t p dir

theorem leftmost_lift (t : Tree) : ∀ (fuel s : Nat),
    RBTreeGo2.leftmost (lift t) fuel s = leftmost t fuel s := by
  intro fuel
  induction fuel with
  | zero => intro s; rfl
  | succ fuel ih =>
    intro s
    rw [RBTreeGo2.leftmost, leftmost]
    simp only [getLink_lift]
    refine bind_ext _ fun l => ?_
    cases l with
    | none => rfl
    | some li => exact ih li

@[simp] theorem unlinkLeaf_lift (t : Tree) (n p : Nat) (dir : Bool) :
    RBTreeGo2.unlinkLeaf (lift t) n p dir =
      unlinkLeaf t n p dir >>= fun r => RBTreeGo2.Res.ok (lift r.1, r.2) := by
  simp only [RBTreeGo2.unlinkLeaf, unlinkLeaf, getLink_lift, setLink_lift,
    RBTreeGo2.res_bind_assoc, RBTreeGo2.res_bind_ok, RBTreeGo2.res_pure]
  refine bind_ext _ fun c => ?_
  refine bind_ext _ fun t1 => ?_
  cases c <;> simp [RBTreeGo2.res_bind_assoc]

@[simp] theorem unlinkChild_lift (t : Tree) (n p : Nat) (dir : Bool) (r : Nat) :
    RBTreeGo2.unlinkChild (lift t) n p dir r =
      unlinkChild t n p dir r >>= fun r => RBTreeGo2.Res.ok (lift r.1, r.2) := by
  simp [RBTreeGo2.unlinkChild, unlinkChild, RBTreeGo2.res_bind_assoc]

@[simp] theorem unlinkSucc_lift (t : Tree) (n p : Nat) (dir : Bool) (r : Nat) :
    RBTreeGo2.unlinkSucc (lift t) n p dir r =
      unlinkSucc t n p dir r >>= fun r => RBTreeGo2.Res.ok (lift r.1, r.2) := by
  simp only [RBTreeGo2.unlinkSucc, unlinkSucc, getLink_lift, getParent_lift, load_lift,
    setLink_lift, setParent_lift, setRed_lift, setParentIf_lift, leftmost_lift, lift_next,
    RBTreeGo2.res_bind_assoc, RBTreeGo2.res_bind_ok, RBTreeGo2.res_pure, liftNode_red]
  refine bind_ext _ fun s0 => ?_
  cases s0 with
  | none => rfl
  | some s0i =>
    simp only [RBTreeGo2.res_bind_assoc]
    refine bind_ext _ fun s => ?_
    refine bind_ext _ fun sp => ?_
    cases sp with
    | none => rfl
    | some r =>
      simp only [getLink_lift, getParent_lift, load_lift,
        setLink_lift, setParent_lift, setRed_lift, setParentIf_lift,
        RBTreeGo2.res_bind_assoc, RBTreeGo2.res_bind_ok, RBTreeGo2.res_pure, liftNode_red]
      repeat (refine bind_ext _ ?_; intro _)
      rename_i sr2
      cases sr2 with
      | none => rfl
      | some x => simp [RBTreeGo2.res_bind_assoc]

theorem withRoot_lift (t : Tree) : RBTreeGo2.withRoot (lift t) = lift (withRoot t) := by
  simp only [RBTreeGo2.withRoot, withRoot, lift, RBTreeGo2.RBTree.mk.injEq, and_true]
  funext j
  by_cases h : j = t.next <;> simp [Function.update_apply, h, liftNode]

@[simp] theorem parentDir_lift (t : Tree) (n root : Nat) :
    RBTreeGo2.parentDir (lift t) n root = parentDir t n root := by
  simp only [RBTreeGo2.parentDir, parentDir, getLink_lift, getParent_lift] <;> rfl

@[simp] theorem unlink_lift (t : Tree) (n p : Nat) (dir : Bool) :
    RBTreeGo2.unlink (lift t) n p dir =
      unlink t n p dir >>= fun r => RBTreeGo2.Res.ok (lift r.1, r.2) := by
  simp only [RBTreeGo2.unlink, unlink, getLink_lift, RBTreeGo2.res_bind_assoc]
  refine bind_ext _ fun n1 => ?_
  cases n1 with
  | none => simp
  | some r =>
    simp only [RBTreeGo2.res_bind_assoc]
    refine bind_ext _ fun rl => ?_
    cases rl <;> simp

theorem bind_ok_inv {α β : Type} {x : Res α} {f : α → Res β} {b : β}
    (h : x >>= f = RBTreeGo2.Res.ok b) : ∃ a, x = RBTreeGo2.Res.ok a ∧ f a = RBTreeGo2.Res.ok b := by
  cases x with
  | ok a => exact ⟨a, rfl, h⟩
  | nilDeref => cases h
  | outOfFuel => cases h

theorem finishDelete_lift (t : Tree) (n p : Nat) (dir : Bool) (root : Nat) :
    RBTreeGo2.finishDelete (lift t) n p dir root =
      finishDelete t n p dir root >>= fun r =>
        load r.1 (some n) >>= fun _ => RBTreeGo2.Res.ok (lift r.1, asOption r.2) := by
  simp only [RBTreeGo2.finishDelete, finishDelete, load_lift, RBTreeGo2.res_bind_assoc,
    RBTreeGo2.res_bind_ok, RBTreeGo2.res_pure, liftNode_red]
  refine bind_ext _ fun nn => ?_
  have hl : ∀ (a : Tree) (r : Option Nat),
      ({ mem := (lift a).mem, next := a.next, root := r } : RBTreeGo2.RBTree Int Unit) =
        lift { mem := a.mem, next := a.next, root := r } := fun _ _ => rfl
  rcases Bool.eq_false_or_eq_true nn.red with hr | hr
  · simp [hr, RBTreeGo2.res_bind_assoc, asOption, hl]
  · simp [hr, RBTreeGo2.res_bind_assoc, asOption, hl]

theorem finishDelete_true {t : Tree} {n p : Nat} {dir : Bool} {root : Nat} {r : Tree × Bool}
    (h : finishDelete t n p dir root = RBTreeGo2.Res.ok r) : r.2 = true := by
  simp only [finishDelete, RBTreeGo2.res_pure] at h
  obtain ⟨nn, -, h⟩ := bind_ok_inv h
  rcases Bool.eq_false_or_eq_true nn.red with hr | hr
  · simp only [hr, Bool.not_true, Bool.false_eq_true, if_false, RBTreeGo2.res_bind_ok] at h
    obtain ⟨rn, -, h⟩ := bind_ok_inv h
    cases h
    rfl
  · simp only [hr, Bool.not_false, if_true] at h
    obtain ⟨y, -, h⟩ := bind_ok_inv h
    obtain ⟨rn, -, h⟩ := bind_ok_inv h
    cases h
    rfl

theorem Delete_lift (t : Tree) (key : Int) (t2 : RBTreeGo2.RBTree Int Unit) (o : Option Unit)
    (h : RBTreeGo2.Delete RBTreeGo2.intCmp (lift t) key = RBTreeGo2.Res.ok (t2, o)) :
    ∃ t' b, Delete t key = RBTreeGo2.Res.ok (t', b) ∧ t2 = lift t' ∧ o = asOption b ∧
      (b = false → t' = t) := by
  simp only [RBTreeGo2.Delete, searchNode_lift] at h
  obtain ⟨n, hn, h⟩ := bind_ok_inv h
  cases n with
  | none =>
    simp only [RBTreeGo2.res_pure, RBTreeGo2.Res.ok.injEq, Prod.mk.injEq] at h
    refine ⟨t, false, ?_, h.1.symm, h.2.symm, fun _ => rfl⟩
    simp only [Delete, hn, RBTreeGo2.res_bind_ok, RBTreeGo2.res_pure]
  | some ni =>
    simp only [withRoot_lift, parentDir_lift, lift_next] at h
    obtain ⟨pd, hpd, h⟩ := bind_ok_inv h
    simp only [unlink_lift, RBTreeGo2.res_bind_assoc, RBTreeGo2.res_bind_ok] at h
    obtain ⟨u, hu, h⟩ := bind_ok_inv h
    simp only [finishDelete_lift, RBTreeGo2.res_bind_assoc] at h
    obtain ⟨r, hr, h⟩ := bind_ok_inv h
    obtain ⟨x, -, h⟩ := bind_ok_inv h
    simp only [RBTreeGo2.Res.ok.injEq, Prod.mk.injEq] at h
    refine ⟨r.1, r.2, ?_, h.1.symm, h.2.symm, fun hb => ?_⟩
    · simp only [Delete, hn, RBTreeGo2.res_bind_ok, hpd, hu, hr]
    · rw [finishDelete_true hr] at hb
      cases hb

theorem intCmp_eq_zero (a b : Int) : RBTreeGo2.intCmp a b = 0 ↔ a = b := by
  unfold RBTreeGo2.intCmp
  omega

theorem Delete_holds (t : Tree) (T : RBTreeGo2.Tree Int Unit) (key : Int) (hg : Holds t T)
    (hbst : IsBST T) (hrb : RBTreeGo2.IsRB T) :
    ∃ t' T' found, Delete t key = RBTreeGo2.Res.ok (t', found) ∧ Holds t' T' ∧ IsBST T' ∧
      RBTreeGo2.IsRB T' ∧ (∀ k, k ∈ keys T' ↔ k ≠ key ∧ k ∈ keys T) ∧
      (found = true ↔ key ∈ keys T) ∧ (found = false → t' = t) := by
  obtain ⟨t2, T', hrun, hg', hrb', hlist⟩ :=
    RBTreeGo2.Delete_spec RBTreeGo2.intCmp RBTreeGo2.intCmp_total (lift t) T key hg
      ((isBST_iff T).1 hbst) hrb
  obtain ⟨t', found, hdel, rfl, ho, hsame⟩ := Delete_lift t key t2 _ hrun
  refine ⟨t', T', found, hdel, hg', ?_, hrb', fun k => ?_, ?_, hsame⟩
  · unfold IsBST keys at hbst ⊢
    rw [hlist]
    exact hbst.sublist ((List.filter_sublist _).map _)
  · unfold keys
    rw [hlist]
    simp only [List.mem_map, List.mem_filter, decide_eq_true_eq, ne_eq, intCmp_eq_zero]
    constructor
    · rintro ⟨kv, ⟨hm, hne⟩, rfl⟩
      exact ⟨hne, kv, hm, rfl⟩
    · rintro ⟨hne, kv, hm, rfl⟩
      exact ⟨kv, ⟨hm, hne⟩, rfl⟩
  · unfold keys
    rw [← lookup_isSome_iff, ho]
    cases found <;> simp [asOption]

/-- C23: `Delete` keeps the red-black invariants.  On a tree whose heap holds
a shape with consistent parent pointers that is a strict binary search tree
with a black root, no red node with a red child and equal black counts,
`Delete(key)` returns, the tree holds a shape with the same properties whose
keys are the old keys other than `key`, the result is true exactly when `key`
was present, and the tree is left as it was when the result is false. -/
theorem delete_preserves_rb (t : Tree) (T : RBTreeGo2.Tree Int Unit) (key : Int)
    (hg : Holds t T) (hbst : IsBST T) (hrb : RBTreeGo2.IsRB T) :
    ∃ t' T' found, Delete t key = RBTreeGo2.Res.ok (t', found) ∧ Holds t' T' ∧ IsBST T' ∧
      RBTreeGo2.IsRB T' ∧ (∀ k, k ∈ keys T' ↔ k ≠ key ∧ k ∈ keys T) ∧
      (found = true ↔ key ∈ keys T) ∧ (found = false → t' = t) :=
  Delete_holds t T key hg hbst hrb

theorem delete_preserves_rb_witness :
    Holds single (RBTreeGo2.Tree.node RBTreeGo2.Tree.nil 0 5 () false RBTreeGo2.Tree.nil) ∧
    IsBST (RBTreeGo2.Tree.node RBTreeGo2.Tree.nil 0 5 () false RBTreeGo2.Tree.nil) ∧
    RBTreeGo2.IsRB (RBTreeGo2.Tree.node RBTreeGo2.Tree.nil 0 (5 : Int) () false RBTreeGo2.Tree.nil) ∧
    ∃ t' T' found, Delete single 5 = RBTreeGo2.Res.ok (t', found) ∧ Holds t' T' ∧ IsBST T' ∧
      RBTreeGo2.IsRB T' ∧
      (∀ k, k ∈ keys T' ↔ k ≠ 5 ∧
        k ∈ keys (RBTreeGo2.Tree.node RBTreeGo2.Tree.nil 0 5 () false RBTreeGo2.Tree.nil)) ∧
      (found = true ↔
        (5 : Int) ∈ keys (RBTreeGo2.Tree.node RBTreeGo2.Tree.nil 0 5 () false RBTreeGo2.Tree.nil)) ∧
      (found = false → t' = single) :=
  ⟨single_holds, by simp [IsBST, keys, RBTreeGo2.Tree.toList], single_isRB,
    delete_preserves_rb single _ 5 single_holds (by simp [IsBST, keys, RBTreeGo2.Tree.toList])
      single_isRB⟩

end RBTreeInt
